import Mathlib

/-! # uCore-SMP: virtual inode layer and page cache (`os/fs/inode.c`)

A shallow embedding of the inode table, the page cache with its LRU vector and the
byte I/O routines `readi` / `writei`, of the path resolution and the directory listing, and
of the interrupt nesting of `os/lock.c`, followed by theorems about them.

Conventions of the embedding

* The kernel state is passed explicitly (`KState`).  A C function `T f(args)` becomes
  `f : KState → args → Option (T × KState)`; `none` is a kernel panic (`panic(...)` or a
  failed `KERNEL_ASSERT`).  Functions that cannot panic return the pair directly.
* Pointers into `itable.inode` and `ctable.cache` are indices; `NULL` is `none`.
  `NINODE` and `NCACHE` are the lengths of the two tables.
* `uint` arithmetic is on `Nat` with explicit reduction modulo `2^32`.  The field `ref`, a C
  `int` that the code only steps by one, is an unbounded integer; the theorems about `ref`
  over several calls state the range within which the two agree.
* A C string is a `String` or a list of characters, without its terminating NUL.  The
  buffers `char path[MAXPATH]` and `char name[DIRSIZ]` have no bound in the embedding, which
  agrees with the code as long as the strings fit them.
* Memory (a page, a caller's buffer, the bytes of a file) is a function from byte index to
  byte value, so that states with large files stay executable.
* The lower filesystem (FatFs), the physical page allocator and the user/kernel copy helpers
  are external collaborators; each is modelled from the interface the specification gives, and
  every call to one of them is appended to `KState.log`.
-/

namespace UCore

/-! ## Machine integers -/

/-- Reduction of a natural number to the range of the C type `uint` (32 bits). -/
def u32 (x : Nat) : Nat := x % 2 ^ 32

/-- Subtraction of two `uint` values, wrapping modulo `2^32` as in C. -/
def usub (a b : Nat) : Nat := (a + 2 ^ 32 - b % 2 ^ 32) % 2 ^ 32

/-- Modelled from the spec: `PGROUNDDOWN(a)`, the macro of `riscv.h` (not among the sources) that
clears the in-page bits, written as in §4.4, `⌊a/PAGE⌋·PAGE`. -/
def PGROUNDDOWN (PGSIZE a : Nat) : Nat := a / PGSIZE * PGSIZE

/-! ## Memory -/

/-- A region of bytes, indexed from its start. -/
abbrev Mem := Nat → Nat

/-- Result of `memmove(dst + d, src + s, n)`: `n` bytes of `src` from index `s` placed
at index `d` of `dst`. -/
def blit (dst : Mem) (d : Nat) (src : Mem) (s n : Nat) : Mem :=
  fun i => if d ≤ i ∧ i < d + n then src (s + (i - d)) else dst i

/-- The all-zero region, the result of `memset(p, 0, ...)`. -/
def zeroMem : Mem := fun _ => 0

/-! ## Data model -/

/-- Modelled from the spec: result code of a lower-FS call (`FRESULT` of FatFs); only the
distinction between `FR_OK` and any other value is used by the code. -/
inductive FRESULT where
  | FR_OK
  | FR_ERR
  deriving DecidableEq, Repr

/-- Modelled from the spec: an open lower-FS file object (`FIL` of FatFs, `ff.h` not among the
sources).  The object is modelled together with the contents of the file it is open on
(§5: single-writer assumption): `objsize` is what `f_size` reports, `data` the bytes of the
file, `fptr` the read/write pointer, `path` the path it was opened on. -/
structure FIL where
  objsize : Nat := 0
  data : Mem := zeroMem
  fptr : Nat := 0
  path : String := ""

/-- Modelled from the spec: a physical page frame handed out by the page allocator, with the
reference count `get_physical_page_ref` reports and its bytes. -/
structure PhysPage where
  ref : Nat
  data : Mem

/-- Modelled from the spec: inode type discriminators (`T_DIR`, `T_FILE`, `T_DEVICE` of the
headers, not among the sources); only their distinctness matters. -/
def T_DIR : Nat := 1

/-- Modelled from the spec: discriminator of a regular file. -/
def T_FILE : Nat := 2

/-- Modelled from the spec: discriminator of a character device. -/
def T_DEVICE : Nat := 3

/-- In-memory inode, a slot of `itable.inode` (`struct inode`, fields as used by `inode.c`).
`dirOpen` stands for the directory cursor `dir`: whether it is open. -/
structure inode where
  dev : Nat := 0
  ref : Int := 0
  type : Nat := 0
  path : String := ""
  unlinked : Nat := 0
  new_path : String := ""
  file : FIL := {}
  dirOpen : Bool := false
  dirPos : Nat := 0
  major : Int := 0
  minor : Int := 0

/-- Slot of `ctable.cache` (`struct page_cache`, fields as used by `inode.c`); the default
value is the zeroed slot left by `memset(cache, 0, sizeof(struct page_cache))`. -/
structure page_cache where
  valid : Bool := false
  dirty : Bool := false
  host : Option Nat := none
  offset : Nat := 0
  page : Option PhysPage := none

/-- Modelled from the spec: an entry of the lower filesystem's directory tree. -/
inductive Node where
  | dir
  | file (size : Nat) (data : Mem)

/-- Record of a call to an external collaborator: the lower FS (`f_*`, with the inode slot
whose handle is used, or the path), the page allocator, and the copy helpers.  `evict c` is
a ghost record: `ctable_lru_evict` has chosen slot `c` and starts to tear it down. -/
inductive Ev where
  | f_lseek (ip ofs : Nat)
  | f_read (ip btr : Nat)
  | f_write (ip btw : Nat)
  | f_close (ip : Nat)
  | f_closedir (ip : Nat)
  | f_open (ip : Nat) (path : String) (create : Bool)
  | f_opendir (ip : Nat) (path : String)
  | f_mkdir (path : String)
  | f_unlink (path : String)
  | f_rename (src dst : String)
  | f_truncate (ip : Nat)
  | f_readdir (ip : Nat)
  | alloc_page
  | recycle_page
  | copyout (slot inpage bufoff n : Nat)
  | copyin (slot inpage bufoff n : Nat)
  | evict (slot : Nat)
  deriving DecidableEq, Repr

/-- The kernel state seen by `inode.c`: the two tables, the lower FS directory tree, the
outcomes of the coming external calls that can fail (`faults`, one entry consumed per call,
`true` = the call fails; an exhausted list means success) and the log of external calls. -/
structure KState where
  inode : List inode := []
  cache : List page_cache := []
  lru : List (Option Nat) := []
  disk : List (String × Node) := []
  faults : List Bool := []
  log : List Ev := []

/-- Number of slots of the page cache. -/
def KState.NCACHE (s : KState) : Nat := s.cache.length

/-- Number of slots of the inode table. -/
def KState.NINODE (s : KState) : Nat := s.inode.length

/-- The inode slot `itable.inode[i]`. -/
def KState.ino (s : KState) (i : Nat) : UCore.inode := s.inode.getD i {}

/-- The cache slot `ctable.cache[c]`. -/
def KState.slot (s : KState) (c : Nat) : page_cache := s.cache.getD c {}

/-- The LRU entry `ctable.lru[i]`. -/
def KState.lruAt (s : KState) (i : Nat) : Option Nat := s.lru.getD i none

/-- Store into `itable.inode[i]`. -/
def KState.setIno (s : KState) (i : Nat) (v : UCore.inode) : KState :=
  { s with inode := s.inode.set i v }

/-- Store into `ctable.cache[c]`. -/
def KState.setSlot (s : KState) (c : Nat) (v : page_cache) : KState :=
  { s with cache := s.cache.set c v }

/-- Append a record to the log of external calls. -/
def KState.emit (s : KState) (e : Ev) : KState := { s with log := s.log ++ [e] }

/-- Consume the outcome of the next fallible external call. -/
def KState.fault (s : KState) : Bool × KState :=
  match s.faults with
  | [] => (false, s)
  | b :: t => (b, { s with faults := t })

/-- Conversion of an unsigned value to the C type `int` (two's complement, 32 bits), as done
by `return n_dup;` in a function returning `int`. -/
def toInt32 (x : Nat) : Int :=
  if x % 2 ^ 32 < 2 ^ 31 then ((x % 2 ^ 32 : Nat) : Int) else ((x % 2 ^ 32 : Nat) : Int) - 2 ^ 32

/-! ## External collaborators -/

/-- Modelled from the spec: `f_size(fp)`, the lower-FS size query. -/
def f_size (f : FIL) : Nat := f.objsize

/-- Store into `itable.inode[i].file`. -/
def KState.setFile (s : KState) (i : Nat) (f : FIL) : KState :=
  s.setIno i { s.ino i with file := f }

/-- Modelled from the spec: `f_lseek(&ip->file, ofs)`, the lower-FS seek.  On a file open for
writing a seek past the end extends the file to `ofs` (the code relies on it: "expand file
if necessary"); the bytes of the extension are whatever the medium holds. -/
def f_lseek (s : KState) (ip ofs : Nat) : FRESULT × KState :=
  let s1 := (s.fault.2).emit (Ev.f_lseek ip ofs)
  if s.fault.1 then (FRESULT.FR_ERR, s1)
  else
    (FRESULT.FR_OK,
      s1.setFile ip { (s1.ino ip).file with
        objsize := max (s1.ino ip).file.objsize ofs, fptr := ofs })

/-- Modelled from the spec: `f_read(&ip->file, buf, btr, &br)`, the lower-FS read: up to `btr`
bytes from the read/write pointer, fewer at the end of the file.  Returns the result code,
the bytes read (indexed from 0) and their number `br`. -/
def f_read (s : KState) (ip btr : Nat) : FRESULT × Mem × Nat × KState :=
  let s1 := (s.fault.2).emit (Ev.f_read ip btr)
  if s.fault.1 then (FRESULT.FR_ERR, zeroMem, 0, s1)
  else
    let f := (s1.ino ip).file
    let br := min btr (f.objsize - f.fptr)
    (FRESULT.FR_OK, (fun i => f.data (f.fptr + i)), br,
      s1.setFile ip { f with fptr := f.fptr + br })

/-- Modelled from the spec: `f_write(&ip->file, buf, btw, &bw)`, the lower-FS write of `btw`
bytes of `buf` at the read/write pointer, extending the file when it ends past the size.
Returns the result code and the number of bytes written `bw`. -/
def f_write (s : KState) (ip : Nat) (buf : Mem) (btw : Nat) : FRESULT × Nat × KState :=
  let s1 := (s.fault.2).emit (Ev.f_write ip btw)
  if s.fault.1 then (FRESULT.FR_ERR, 0, s1)
  else
    let f := (s1.ino ip).file
    (FRESULT.FR_OK, btw,
      s1.setFile ip { f with
        data := blit f.data f.fptr buf 0 btw,
        objsize := max f.objsize (f.fptr + btw),
        fptr := f.fptr + btw })

/-- Modelled from the spec: removal of a path from the directory tree. -/
def diskRemove (d : List (String × Node)) (p : String) : List (String × Node) :=
  d.filter (fun e => e.1 != p)

/-- Modelled from the spec: `f_close(&ip->file)`, which makes the contents written through
the handle those of the file at the handle's path. -/
def f_close (s : KState) (ip : Nat) : FRESULT × KState :=
  let s1 := (s.fault.2).emit (Ev.f_close ip)
  if s.fault.1 then (FRESULT.FR_ERR, s1)
  else
    let f := (s1.ino ip).file
    match s1.disk.lookup f.path with
    | some (Node.file _ _) =>
      (FRESULT.FR_OK,
        { s1 with disk := (f.path, Node.file f.objsize f.data) :: diskRemove s1.disk f.path })
    | _ => (FRESULT.FR_OK, s1)

/-- Modelled from the spec: `f_closedir(&ip->dir)`. -/
def f_closedir (s : KState) (ip : Nat) : FRESULT × KState :=
  let s1 := (s.fault.2).emit (Ev.f_closedir ip)
  if s.fault.1 then (FRESULT.FR_ERR, s1)
  else (FRESULT.FR_OK, s1.setIno ip { s1.ino ip with dirOpen := false })

/-- Modelled from the spec: `f_unlink(path)`; fails when the path does not exist. -/
def f_unlink (s : KState) (path : String) : FRESULT × KState :=
  let s1 := (s.fault.2).emit (Ev.f_unlink path)
  if s.fault.1 then (FRESULT.FR_ERR, s1)
  else
    match s1.disk.lookup path with
    | none => (FRESULT.FR_ERR, s1)
    | some _ => (FRESULT.FR_OK, { s1 with disk := diskRemove s1.disk path })

/-- Modelled from the spec: `f_rename(old, new)`; fails when `old` does not exist or `new`
does. -/
def f_rename (s : KState) (old new : String) : FRESULT × KState :=
  let s1 := (s.fault.2).emit (Ev.f_rename old new)
  if s.fault.1 then (FRESULT.FR_ERR, s1)
  else
    match s1.disk.lookup old, s1.disk.lookup new with
    | some nd, none => (FRESULT.FR_OK, { s1 with disk := (new, nd) :: diskRemove s1.disk old })
    | _, _ => (FRESULT.FR_ERR, s1)

/-- Modelled from the spec: `get_physical_page_ref(page)` of the page allocator. -/
def get_physical_page_ref (p : Option PhysPage) : Nat :=
  match p with
  | some pg => pg.ref
  | none => 0

/-- Modelled from the spec: `alloc_physical_page()`; the fresh frame has reference count 1 (the
caller is its sole owner) and is zeroed by the caller right away. -/
def alloc_physical_page (s : KState) : PhysPage × KState :=
  ({ ref := 1, data := zeroMem }, s.emit Ev.alloc_page)

/-- Modelled from the spec: `recycle_physical_page(page)`. -/
def recycle_physical_page (s : KState) : KState := s.emit Ev.recycle_page

/-- Modelled from the spec: `either_copyout(dst, page + inpage, n, user_dst)` of the process
layer: a kernel destination is a plain `memmove`; a copy to a user address can fail.  The
destination buffer is `dst`, written from index `bufoff`. -/
def either_copyout (s : KState) (user_dst : Bool) (dst : Mem) (bufoff c inpage n : Nat) :
    Int × Mem × KState :=
  let src : Mem := match (s.slot c).page with
    | some pg => pg.data
    | none => zeroMem
  if user_dst then
    let s1 := (s.fault.2).emit (Ev.copyout c inpage bufoff n)
    if s.fault.1 then (-1, dst, s1) else (0, blit dst bufoff src inpage n, s1)
  else (0, blit dst bufoff src inpage n, s.emit (Ev.copyout c inpage bufoff n))

/-- Modelled from the spec: `either_copyin(page + inpage, src, n, user_src)` of the process
layer, the mirror image of `either_copyout`; the page of slot `c` receives the bytes. -/
def either_copyin (s : KState) (user_src : Bool) (c inpage : Nat) (src : Mem) (bufoff n : Nat) :
    Int × KState :=
  let put (t : KState) : KState :=
    match (t.slot c).page with
    | some pg => t.setSlot c { t.slot c with page := some { pg with data := blit pg.data inpage src bufoff n } }
    | none => t
  if user_src then
    let s1 := (s.fault.2).emit (Ev.copyin c inpage bufoff n)
    if s.fault.1 then (-1, s1) else (0, put s1)
  else (0, put (s.emit (Ev.copyin c inpage bufoff n)))

/-! ## Inode reference counting -/

/-- Embedding of `idup`: `ip->ref++`.  The field `ref` is a C `int`, kept here as an
unbounded integer; the two agree as long as `ref` stays below `INT_MAX`, which the theorems
about sequences of calls state as a condition on the range of `ref`. -/
def idup (s : KState) (ip : Nat) : KState :=
  s.setIno ip { s.ino ip with ref := (s.ino ip).ref + 1 }

/-- The close of the lower-FS handle in `iput`: `f_closedir` for a directory, `f_close`
otherwise. -/
def iput_close (s : KState) (ip : Nat) : FRESULT × KState :=
  if (s.ino ip).type = T_DIR then f_closedir s ip else f_close s ip

/-- The deferred mutation in `iput`: unlink if `unlinked` is set (failure ignored), else
rename if `new_path` is non-empty (panic on failure). -/
def iput_deferred (s : KState) (ip : Nat) : Option KState :=
  if (s.ino ip).unlinked ≠ 0 then some (f_unlink s (s.ino ip).path).2
  else if (s.ino ip).new_path.length ≠ 0 then
    if (f_rename s (s.ino ip).path (s.ino ip).new_path).1 ≠ FRESULT.FR_OK then none
    else some (f_rename s (s.ino ip).path (s.ino ip).new_path).2
  else some s

/-- The branch `if (ip->ref == 1)` of `iput`: close (panic on failure), then the deferred
mutation. -/
def iput_last (s : KState) (ip : Nat) : Option KState :=
  if (iput_close s ip).1 ≠ FRESULT.FR_OK then none else iput_deferred (iput_close s ip).2 ip

/-- Embedding of `iput`: panics when `ref` is not positive; on the last reference closes the
lower-FS handle and runs the deferred mutation; finally `ip->ref--`. -/
def iput (s : KState) (ip : Nat) : Option KState :=
  if (s.ino ip).ref > 0 then
    match (if (s.ino ip).ref = 1 then iput_last s ip else some s) with
    | none => none
    | some s1 => some (s1.setIno ip { s1.ino ip with ref := (s1.ino ip).ref - 1 })
  else none

/-! ## Page cache -/

/-- Embedding of `cache_writeback`: seek to the slot's offset, then write
`MIN(filesize - offset, PGSIZE)` bytes of the page, where `filesize` is read after the seek
and the subtraction is on `uint`.  Returns 0, or -1 when the seek or the write fails. -/
def cache_writeback (PGSIZE : Nat) (s : KState) (c : Nat) : Option (Int × KState) :=
  match (s.slot c).host, (s.slot c).page with
  | some h, some pg =>
    let r := f_lseek s h (s.slot c).offset
    if r.1 ≠ FRESULT.FR_OK then some (-1, r.2)
    else
      let filesize := u32 (f_size (r.2.ino h).file)
      let n := min (usub filesize (s.slot c).offset) PGSIZE
      let w := f_write r.2 h pg.data n
      if w.1 ≠ FRESULT.FR_OK ∨ w.2.1 ≠ n then some (-1, w.2.2) else some (0, w.2.2)
  | _, _ => none

/-- The loop `for (j = i; j < NCACHE - 1; j++) lru[j] = lru[j+1];` with `k` iterations left. -/
def shift_down (l : List (Option Nat)) : Nat → Nat → List (Option Nat)
  | 0, _ => l
  | k + 1, j => shift_down (l.set j (l.getD (j + 1) none)) k (j + 1)

/-- The loop `for (j = i; j > 0; j--) lru[j] = lru[j-1];`. -/
def shift_up (l : List (Option Nat)) : Nat → List (Option Nat)
  | 0 => l
  | j + 1 => shift_up (l.set (j + 1) (l.getD j none)) j

/-- Closing the gap at index `i` of the LRU vector: shift the tail forward, last entry NULL. -/
def lru_compact (s : KState) (i : Nat) : KState :=
  { s with lru := (shift_down s.lru (s.NCACHE - 1 - i) i).set (s.NCACHE - 1) none }

/-- Body of `ctable_lru_evict` once the entry at LRU index `i`, slot `c`, has been chosen:
write back if dirty (panic on failure), recycle the page, put the host, zero the slot,
close the gap. -/
def evict_at (PGSIZE : Nat) (s : KState) (i c : Nat) : Option (Int × KState) :=
  let s0 := s.emit (Ev.evict c)
  let wb : Option KState :=
    if (s0.slot c).dirty then
      match cache_writeback PGSIZE s0 c with
      | some (r, s1) => if r ≠ 0 then none else some s1
      | none => none
    else some s0
  match wb with
  | none => none
  | some s1 =>
    let s2 := recycle_physical_page s1
    match (s2.slot c).host with
    | none => none
    | some h =>
      match iput s2 h with
      | none => none
      | some s3 => some (0, lru_compact (s3.setSlot c {}) i)

/-- The scan `for (i = NCACHE - 1; i >= 0; i--)` of `ctable_lru_evict`, with the indices
below `k` still to visit. -/
def evict_scan (PGSIZE : Nat) (s : KState) : Nat → Option (Int × KState)
  | 0 => some (-1, s)
  | i + 1 =>
    match s.lruAt i with
    | some c =>
      if get_physical_page_ref (s.slot c).page = 1 then evict_at PGSIZE s i c
      else evict_scan PGSIZE s i
    | none => evict_scan PGSIZE s i

/-- Embedding of `ctable_lru_evict`. -/
def ctable_lru_evict (PGSIZE : Nat) (s : KState) : Option (Int × KState) :=
  evict_scan PGSIZE s s.NCACHE

/-- Embedding of `ctable_lru_add`. -/
def ctable_lru_add (PGSIZE : Nat) (s : KState) (c : Nat) : Option (Int × KState) :=
  let pre : Option (Bool × KState) :=
    if s.lruAt (s.NCACHE - 1) ≠ none then
      match ctable_lru_evict PGSIZE s with
      | none => none
      | some (r, s1) => some (decide (r < 0), s1)
    else some (false, s)
  match pre with
  | none => none
  | some (true, s1) => some (-1, s1)
  | some (false, s1) =>
    some (0, { s1 with lru := (shift_up s1.lru (s1.NCACHE - 1)).set 0 (some c) })

/-- Embedding of `ctable_lru_remove`. -/
def ctable_lru_remove (s : KState) (c : Nat) : Int × KState :=
  let i := s.lru.findIdx (fun e => decide (e = some c))
  if i < s.NCACHE ∧ i < s.lru.length then (0, lru_compact s i) else (-1, s)

/-- Embedding of `ctable_lru_adjust`. -/
def ctable_lru_adjust (s : KState) (c : Nat) : Int × KState :=
  let i := s.lru.findIdx (fun e => decide (e = some c))
  if i < s.NCACHE ∧ i < s.lru.length then
    (0, { s with lru := (shift_up s.lru i).set 0 (some c) })
  else (-1, s)

/-- First slot, in table order, that satisfies `p`: the scans
`for (cache = ctable.cache; cache < ctable.cache + NCACHE; cache++)`. -/
def find_slot (p : page_cache → Bool) (s : KState) : Option Nat :=
  if s.cache.findIdx p < s.cache.length then some (s.cache.findIdx p) else none

/-- The test of the hit scan of `ctable_acquire`. -/
def is_hit (ip offset : Nat) (c : page_cache) : Bool :=
  c.valid && (c.host == some ip) && (c.offset == offset)

/-- The fields `ctable_acquire` stores in the free slot it claims: `host`, `offset`,
`valid = TRUE`, `dirty = FALSE` and the freshly allocated page. -/
def claimed (ip offset : Nat) (pg : PhysPage) : page_cache :=
  { valid := true, dirty := false, host := some ip, offset := offset, page := some pg }

/-- The part of `ctable_acquire` from the moment a free slot `c` has been found: claim
the slot, allocate and zero the page, read the page from the lower FS (`read_page`), and
either take the inode reference and enter the LRU vector, or roll back (`read_page_err`). -/
def fill_slot (PGSIZE : Nat) (s : KState) (c ip offset : Nat) : Option (Option Nat × KState) :=
  let a := alloc_physical_page s
  let s1 := a.2.setSlot c (claimed ip offset { a.1 with data := zeroMem })
  let rollback (t : KState) : Option (Option Nat × KState) :=
    some (none, (recycle_physical_page t).setSlot c
      { (t.slot c) with host := none, offset := 0, valid := false, dirty := false, page := none })
  let r := f_lseek s1 ip offset
  if r.1 ≠ FRESULT.FR_OK then rollback r.2
  else
    let rd := f_read r.2 ip PGSIZE
    let s2 := match (rd.2.2.2.slot c).page with
      | some pg => rd.2.2.2.setSlot c
          { rd.2.2.2.slot c with page := some { pg with data := blit pg.data 0 rd.2.1 0 rd.2.2.1 } }
      | none => rd.2.2.2
    if rd.1 ≠ FRESULT.FR_OK then rollback s2
    else
      match ctable_lru_add PGSIZE (idup s2 ip) c with
      | none => none
      | some (_, s3) => some (some c, s3)

/-- Embedding of `ctable_acquire`.  The result is the slot (an index) or NULL. -/
def ctable_acquire (PGSIZE : Nat) (s : KState) (ip offset : Nat) : Option (Option Nat × KState) :=
  if offset % PGSIZE ≠ 0 then none
  else
    match find_slot (is_hit ip offset) s with
    | some c => some (some c, (ctable_lru_adjust s c).2)
    | none =>
      match find_slot (fun c => !c.valid) s with
      | some c => fill_slot PGSIZE s c ip offset
      | none =>
        match ctable_lru_evict PGSIZE s with
        | none => none
        | some (_, s1) =>
          match find_slot (fun c => !c.valid) s1 with
          | some c => fill_slot PGSIZE s1 c ip offset
          | none => some (none, s1)

/-- Body of the loop of `ctable_release` for slot `c`. -/
def release_slot (PGSIZE : Nat) (s : KState) (ip : Option Nat) (c : Nat) : Option KState :=
  if (s.slot c).valid ∧ ((s.slot c).host = ip ∨ ip = none) then
    let wb : Option KState :=
      if (s.slot c).dirty then
        match cache_writeback PGSIZE s c with
        | some (r, s1) => if r ≠ 0 then none else some s1
        | none => none
      else some s
    match wb with
    | none => none
    | some s1 =>
      if get_physical_page_ref (s1.slot c).page ≠ 1 then none
      else
        let s2 := recycle_physical_page s1
        match (s2.slot c).host with
        | none => none
        | some h =>
          match iput s2 h with
          | none => none
          | some s3 => some (ctable_lru_remove (s3.setSlot c {}) c).2
  else some s

/-- The loop of `ctable_release` over slots `c, c+1, ...`, with `k` slots left. -/
def release_loop (PGSIZE : Nat) (ip : Option Nat) : Nat → Nat → KState → Option KState
  | 0, _, s => some s
  | k + 1, c, s =>
    match release_slot PGSIZE s ip c with
    | none => none
    | some s1 => release_loop PGSIZE ip k (c + 1) s1

/-- Embedding of `ctable_release(ip)`; `ip = none` is the NULL argument (release all). -/
def ctable_release (PGSIZE : Nat) (s : KState) (ip : Option Nat) : Option KState :=
  release_loop PGSIZE ip s.NCACHE 0 s

/-! ## Byte I/O -/

/-- The `while (len > 0)` loop of `readi`.  The first argument bounds the number of
iterations; `readi` passes `len`, and since an iteration consumes at least one byte the
bound is never reached with `len > 0` when `PGSIZE > 0` (the `none` of that case stands for
a loop that does not end).  `bufoff` is how far `dst` has been advanced. -/
def readi_loop (PGSIZE ip : Nat) (user_dst : Bool) (n_dup : Nat) :
    Nat → KState → Mem → Nat → Nat → Nat → Option (Int × Mem × KState)
  | 0, s, dst, _, _, len => if len = 0 then some (toInt32 n_dup, dst, s) else none
  | fuel + 1, s, dst, bufoff, off, len =>
    if len = 0 then some (toInt32 n_dup, dst, s)
    else
      let off_align := PGROUNDDOWN PGSIZE off
      match ctable_acquire PGSIZE s ip off_align with
      | none => none
      | some (none, s1) => some (0, dst, s1)
      | some (some c, s1) =>
        let n0 := usub PGSIZE (usub off off_align)
        let n := if n0 > len then u32 len else n0
        let r := either_copyout s1 user_dst dst bufoff c (usub off off_align) n
        if r.1 = -1 then some (0, r.2.1, r.2.2)
        else
          readi_loop PGSIZE ip user_dst n_dup fuel r.2.2 r.2.1 (bufoff + n)
            (u32 (off_align + PGSIZE)) (len - n)

/-- Embedding of `readi(ip, user_dst, dst, off, n)`.  Returns the `int` result, the
destination buffer and the state. -/
def readi (PGSIZE : Nat) (s : KState) (ip : Nat) (user_dst : Bool) (dst : Mem) (off n : Nat) :
    Option (Int × Mem × KState) :=
  let filesize := u32 (f_size (s.ino ip).file)
  if filesize ≤ off then some (0, dst, s)
  else
    let n1 := if filesize < u32 (off + n) then usub filesize off else n
    readi_loop PGSIZE ip user_dst n1 n1 s dst 0 off n1

/-- The `while (len > 0)` loop of `writei`; the first argument bounds the number of
iterations as in `readi_loop`. -/
def writei_loop (PGSIZE ip : Nat) (user_src : Bool) (src : Mem) (n_dup : Nat) :
    Nat → KState → Nat → Nat → Nat → Option (Int × KState)
  | 0, s, _, _, len => if len = 0 then some (toInt32 n_dup, s) else none
  | fuel + 1, s, bufoff, off, len =>
    if len = 0 then some (toInt32 n_dup, s)
    else
      let off_align := PGROUNDDOWN PGSIZE off
      match ctable_acquire PGSIZE s ip off_align with
      | none => none
      | some (none, s1) => some (0, s1)
      | some (some c, s1) =>
        let n0 := usub PGSIZE (usub off off_align)
        let n := if n0 > len then u32 len else n0
        let r := either_copyin s1 user_src c (usub off off_align) src bufoff n
        if r.1 = -1 then some (0, r.2)
        else
          writei_loop PGSIZE ip user_src src n_dup fuel
            (r.2.setSlot c { r.2.slot c with dirty := true }) (bufoff + n)
            (u32 (off_align + PGSIZE)) (len - n)

/-- Embedding of `writei(ip, user_src, src, off, n)`. -/
def writei (PGSIZE : Nat) (s : KState) (ip : Nat) (user_src : Bool) (src : Mem) (off n : Nat) :
    Option (Int × KState) :=
  let grow : Option KState :=
    if u32 (off + n) > f_size (s.ino ip).file then
      let r := f_lseek s ip (u32 (off + n))
      if r.1 ≠ FRESULT.FR_OK then none else some r.2
    else some s
  match grow with
  | none =>
    some (0, (f_lseek s ip (u32 (off + n))).2)
  | some s1 => writei_loop PGSIZE ip user_src src n n s1 0 off n

/-! ## Inode table -/

/-- Modelled from the spec: the configuration constants of §6 that `inode.c` uses and no source
file defines. -/
structure Consts where
  ROOTDEV : Nat
  DEVICE_MAGIC : Nat
  SYMLINK_MAGIC : Nat
  MAXPATH : Nat

/-- Modelled from the spec: `f_opendir(&ip->dir, path)`; succeeds iff `path` is a directory. -/
def f_opendir (s : KState) (ip : Nat) (path : String) : FRESULT × KState :=
  let s1 := (s.fault.2).emit (Ev.f_opendir ip path)
  if s.fault.1 then (FRESULT.FR_ERR, s1)
  else
    match s1.disk.lookup path with
    | some Node.dir => (FRESULT.FR_OK, s1.setIno ip { s1.ino ip with dirOpen := true, dirPos := 0 })
    | _ => (FRESULT.FR_ERR, s1)

/-- Modelled from the spec: `f_open(&ip->file, path, mode)`.  With `create = false` the mode is
`FA_READ | FA_WRITE` (the file must exist); with `create = true` it is
`FA_CREATE_ALWAYS | FA_WRITE | FA_READ` (the file is created, or truncated if it exists; a
directory of that name makes the call fail). -/
def f_open (s : KState) (ip : Nat) (path : String) (create : Bool) : FRESULT × KState :=
  let s1 := (s.fault.2).emit (Ev.f_open ip path create)
  if s.fault.1 then (FRESULT.FR_ERR, s1)
  else
    match s1.disk.lookup path, create with
    | some Node.dir, _ => (FRESULT.FR_ERR, s1)
    | some (Node.file sz d), false =>
      (FRESULT.FR_OK, s1.setFile ip { objsize := sz, data := d, fptr := 0, path := path })
    | none, false => (FRESULT.FR_ERR, s1)
    | _, true =>
      (FRESULT.FR_OK,
        ({ s1 with disk := (path, Node.file 0 zeroMem) :: diskRemove s1.disk path }).setFile ip
          { objsize := 0, data := zeroMem, fptr := 0, path := path })

/-- Modelled from the spec: `f_mkdir(path)`; fails when the path exists. -/
def f_mkdir (s : KState) (path : String) : FRESULT × KState :=
  let s1 := (s.fault.2).emit (Ev.f_mkdir path)
  if s.fault.1 then (FRESULT.FR_ERR, s1)
  else
    match s1.disk.lookup path with
    | some _ => (FRESULT.FR_ERR, s1)
    | none => (FRESULT.FR_OK, { s1 with disk := (path, Node.dir) :: s1.disk })

/-- Modelled from the spec: `f_rewind(fp)`, which FatFs defines as `f_lseek(fp, 0)`. -/
def f_rewind (s : KState) (ip : Nat) : FRESULT × KState := f_lseek s ip 0

/-- Little-endian `u32` stored at bytes `0..3` of a record. -/
def le32 (m : Mem) : Nat := m 0 + 256 * m 1 + 65536 * m 2 + 16777216 * m 3

/-- Little-endian `i16` stored at bytes `k, k+1` of a record. -/
def le16s (m : Mem) (k : Nat) : Int :=
  if m k + 256 * m (k + 1) < 32768 then ((m k + 256 * m (k + 1) : Nat) : Int)
  else ((m k + 256 * m (k + 1) : Nat) : Int) - 65536

/-- The bytes of `struct device { magic; major; minor }` (§6: `u32`, `i16`, `i16`,
little-endian), `major` and `minor` being converted to `short`. -/
def device_bytes (magic : Nat) (major minor : Int) : Mem :=
  fun i =>
    if i < 4 then magic / 256 ^ i % 256
    else if i < 6 then (major % 65536).toNat / 256 ^ (i - 4) % 256
    else if i < 8 then (minor % 65536).toNat / 256 ^ (i - 6) % 256
    else 0

/-- The C string stored from byte `k` of a record of `n` bytes: the bytes up to the
first NUL.  The scan ends with the record; it is the string the code reads when the record
holds a NUL from byte `k` on. -/
def cstring_at (m : Mem) (k n : Nat) : String :=
  String.mk ((((List.range (n - k)).map (fun i => m (k + i))).takeWhile (fun b => b != 0)).map
    Char.ofNat)

/-- The absolute path built at the start of `dirlookup` and `icreate`: `dp->path`, a `/`
unless it already ends in one, then `name`.  The code builds it in `char path[MAXPATH]`; the
string here is the same as long as it has fewer than `MAXPATH` characters. -/
def child_path (dpath name : String) : String :=
  (if dpath.back ≠ '/' then dpath ++ "/" else dpath) ++ name

/-- The fields every successful path of `iget_root`, `dirlookup` and `icreate` stores in a
recycled slot. -/
def open_slot (K : Consts) (s : KState) (ip type : Nat) (path : String) : KState :=
  s.setIno ip { s.ino ip with
    dev := K.ROOTDEV, ref := 1, type := type, path := path, unlinked := 0, new_path := "" }

/-- Embedding of `iget_root`.  The scan stops at the first slot that either is the live
root or has `ref == 0`. -/
def iget_root (K : Consts) (s : KState) : Option (Nat × KState) :=
  let stop := s.inode.findIdx
    (fun I => (decide (I.ref > 0) && (I.dev == K.ROOTDEV) && (I.path == "/")) || (I.ref == 0))
  if stop < s.inode.length then
    if (s.ino stop).ref > 0 ∧ (s.ino stop).dev = K.ROOTDEV ∧ (s.ino stop).path = "/" then
      some (stop, s.setIno stop { s.ino stop with ref := (s.ino stop).ref + 1 })
    else
      let r := f_opendir s stop "/"
      if r.1 ≠ FRESULT.FR_OK then none
      else some (stop, open_slot K r.2 stop T_DIR "/")
  else none

/-- The table scan shared by `dirlookup` and `icreate`: the first live slot holding `path`
(`Sum.inl`), else the first slot with `ref == 0` (`Sum.inr`), else nothing (the caller
panics). -/
def scan_path (K : Consts) (s : KState) (path : String) : Option (Nat ⊕ Nat) :=
  let hit := s.inode.findIdx
    (fun I => decide (I.ref > 0) && (I.dev == K.ROOTDEV) && (I.path == path))
  if hit < s.inode.length then some (Sum.inl hit)
  else
    let e := s.inode.findIdx (fun I => I.ref == 0)
    if e < s.inode.length then some (Sum.inr e) else none

/-- The probe of `dirlookup` after `f_open` succeeded on slot `e`: device record, symlink
record or plain file.  `none` in the result is the NULL return. -/
def dirlookup_file (K : Consts) (s : KState) (e : Nat) (path : String) : Option Nat × KState :=
  let r1 := f_rewind s e
  let d1 := f_read r1.2 e 8
  let sdev : KState := if r1.1 = FRESULT.FR_OK then d1.2.2.2 else r1.2
  if r1.1 = FRESULT.FR_OK ∧ d1.1 = FRESULT.FR_OK ∧ d1.2.2.1 = 8 ∧
      le32 (blit zeroMem 0 d1.2.1 0 d1.2.2.1) = K.DEVICE_MAGIC then
    let rec_ := blit zeroMem 0 d1.2.1 0 d1.2.2.1
    let s2 := open_slot K sdev e T_DEVICE path
    (some e, s2.setIno e { s2.ino e with major := le16s rec_ 4, minor := le16s rec_ 6 })
  else
    let r2 := f_rewind sdev e
    let d2 := f_read r2.2 e (4 + K.MAXPATH)
    let ssym : KState := if r2.1 = FRESULT.FR_OK then d2.2.2.2 else r2.2
    let rec2 := blit zeroMem 0 d2.2.1 0 d2.2.2.1
    if r2.1 = FRESULT.FR_OK ∧ d2.1 = FRESULT.FR_OK ∧ d2.2.2.1 > 4 ∧
        le32 rec2 = K.SYMLINK_MAGIC ∧ rec2 4 = '/'.toNat then
      let target := cstring_at rec2 4 (4 + K.MAXPATH)
      let cl := f_close ssym e
      let o := f_open cl.2 e target false
      if o.1 ≠ FRESULT.FR_OK then (none, o.2)
      else (some e, open_slot K o.2 e T_FILE target)
    else (some e, open_slot K ssym e T_FILE path)

/-- Embedding of `dirlookup(dp, name)`.  The result is the inode (an index) or NULL. -/
def dirlookup (K : Consts) (s : KState) (dp : Nat) (name : String) : Option (Option Nat × KState) :=
  if (s.ino dp).type ≠ T_DIR then none
  else
    let path := child_path (s.ino dp).path name
    match scan_path K s path with
    | none => none
    | some (Sum.inl i) => some (some i, s.setIno i { s.ino i with ref := (s.ino i).ref + 1 })
    | some (Sum.inr e) =>
      let od := f_opendir s e path
      if od.1 = FRESULT.FR_OK then some (some e, open_slot K od.2 e T_DIR path)
      else
        let o := f_open od.2 e path false
        if o.1 = FRESULT.FR_OK then some (dirlookup_file K o.2 e path)
        else some (none, o.2)

/-- Embedding of `icreate(dp, name, type, major, minor)`. -/
def icreate (K : Consts) (s : KState) (dp : Nat) (name : String) (type : Nat) (major minor : Int) :
    Option (Option Nat × KState) :=
  if (s.ino dp).type ≠ T_DIR then none
  else
    let path := child_path (s.ino dp).path name
    match scan_path K s path with
    | none => none
    | some (Sum.inl i) => some (some i, s.setIno i { s.ino i with ref := (s.ino i).ref + 1 })
    | some (Sum.inr e) =>
      if type = T_DIR then
        let m := f_mkdir s path
        if m.1 ≠ FRESULT.FR_OK then some (none, m.2)
        else
          let od := f_opendir m.2 e path
          if od.1 ≠ FRESULT.FR_OK then some (none, od.2)
          else some (some e, open_slot K od.2 e T_DIR path)
      else if type = T_FILE then
        let o := f_open s e path true
        if o.1 ≠ FRESULT.FR_OK then some (none, o.2)
        else some (some e, open_slot K o.2 e T_FILE path)
      else if type = T_DEVICE then
        let o := f_open s e path true
        if o.1 ≠ FRESULT.FR_OK then some (none, o.2)
        else
          let w := f_write o.2 e (device_bytes K.DEVICE_MAGIC major minor) 8
          if w.1 ≠ FRESULT.FR_OK ∨ w.2.1 ≠ 8 then some (none, w.2.2)
          else
            let s2 := open_slot K w.2.2 e T_DEVICE path
            some (some e, s2.setIno e { s2.ino e with
              major := le16s (device_bytes K.DEVICE_MAGIC major minor) 4,
              minor := le16s (device_bytes K.DEVICE_MAGIC major minor) 6 })
      else some (none, s)

/-! ## Specification vocabulary -/

/-- The LRU vector that holds the slots `L` (most recent first) followed by NULL entries, in
a cache of `n` slots. -/
def lru_of (n : Nat) (L : List Nat) : List (Option Nat) :=
  L.map some ++ List.replicate (n - L.length) none

/-- The LRU vector of `s` holds exactly the slots `L`, in this order, followed by NULLs; `L`
has no duplicates and lists exactly the valid slots. -/
def LruRep (s : KState) (L : List Nat) : Prop :=
  s.lru = lru_of s.NCACHE L ∧ L.Nodup ∧ ∀ c, c ∈ L ↔ (s.slot c).valid = true

/-- At most one valid slot per `(host, offset)`. -/
def KeysUnique (s : KState) : Prop :=
  ∀ c c', (s.slot c).valid = true → (s.slot c').valid = true →
    (s.slot c).host = (s.slot c').host → (s.slot c).offset = (s.slot c').offset → c = c'

/-- Well-formedness of the cache table: the LRU vector is a duplicate-free list of exactly
the valid slots followed by NULLs, and keys are unique. -/
def CInv (s : KState) : Prop := (∃ L, LruRep s L) ∧ KeysUnique s

/-- A call of the page-cache interface. -/
inductive CacheOp where
  | acquire (ip offset : Nat)
  | release (ip : Option Nat)

/-- Run one page-cache call to completion (`none`: the kernel panicked). -/
def cache_step (PGSIZE : Nat) (s : KState) : CacheOp → Option KState
  | CacheOp.acquire ip offset => (ctable_acquire PGSIZE s ip offset).map (fun r => r.2)
  | CacheOp.release ip => ctable_release PGSIZE s ip

/-- Run a sequence of page-cache calls, each to completion. -/
def cache_run (PGSIZE : Nat) : List CacheOp → KState → Option KState
  | [], s => some s
  | op :: ops, s =>
    match cache_step PGSIZE s op with
    | none => none
    | some s1 => cache_run PGSIZE ops s1

/-- The zero-initialised cache table of `n` slots (the state of `ctable` at boot). -/
def ZeroCache (s : KState) : Prop :=
  s.cache = List.replicate s.NCACHE {} ∧ s.lru = List.replicate s.NCACHE none

/-- Two states with the same cache table and LRU vector. -/
def SameC (s s' : KState) : Prop := s'.cache = s.cache ∧ s'.lru = s.lru

/-! ## Concrete states used to exercise the theorems -/

/-- A live root directory inode. -/
def wRoot : inode := { dev := 1, ref := 1, type := T_DIR, path := "/", dirOpen := true }

/-- The open lower-FS file of `/a.txt`, empty. -/
def wFil : FIL := { path := "/a.txt" }

/-- A live regular-file inode for `/a.txt`, held by one caller. -/
def wFile : inode := { dev := 1, ref := 1, type := T_FILE, path := "/a.txt", file := wFil }

/-- A freshly booted kernel with two cache slots, the root directory and `/a.txt` open. -/
def w0 : KState :=
  { inode := [wRoot, wFile],
    cache := [{}, {}],
    lru := [none, none],
    disk := [("/", Node.dir), ("/a.txt", Node.file 0 zeroMem)] }

/-- The state after the pages at offsets 0 and 4096 of `/a.txt` have been acquired. -/
def w2 : KState :=
  (cache_run 4096 [CacheOp.acquire 1 0, CacheOp.acquire 1 4096] w0).getD {}

/-! ## Truncation -/

/-- Modelled from the spec: `f_truncate(&ip->file)`, which cuts the file at the read/write
pointer. -/
def f_truncate (s : KState) (ip : Nat) : FRESULT × KState :=
  let s1 := (s.fault.2).emit (Ev.f_truncate ip)
  if s.fault.1 then (FRESULT.FR_ERR, s1)
  else
    (FRESULT.FR_OK,
      s1.setFile ip { (s1.ino ip).file with
        objsize := min (s1.ino ip).file.objsize (s1.ino ip).file.fptr })

/-- Embedding of `itrunc`: the three `KERNEL_ASSERT`s (file type, rewind, truncate); the
page cache is not touched. -/
def itrunc (s : KState) (ip : Nat) : Option KState :=
  if (s.ino ip).type ≠ T_FILE then none
  else if (f_rewind s ip).1 ≠ FRESULT.FR_OK then none
  else if (f_truncate (f_rewind s ip).2 ip).1 ≠ FRESULT.FR_OK then none
  else some (f_truncate (f_rewind s ip).2 ip).2

/-- The bytes `"hello"`. -/
def wHello : Mem := fun i => [104, 101, 108, 108, 111].getD i 0

/-- The state after `"hello"` has been written at offset 4096 of `/a.txt` and the file has
then been truncated: the page of offset 4096 is still cached and dirty, the file is empty. -/
def wStale : KState :=
  ((writei 4096 w0 1 false wHello 4096 5).bind (fun r => itrunc r.2 1)).getD {}

/-- A state like `w0` whose file `/a.txt` has `2^32 - 1` bytes, byte `i` being `i % 251`. -/
def wBig : KState :=
  { inode := [wRoot, { wFile with file := { objsize := 4294967295, data := fun i => i % 251,
                                            path := "/a.txt" } }],
    cache := [{}, {}],
    lru := [none, none],
    disk := [("/", Node.dir), ("/a.txt", Node.file 4294967295 (fun i => i % 251))] }

/-- The caller's buffer whose byte `i` is `48 + i` (the digits `"0123456789"`, ...). -/
def wDigits : Mem := fun i => 48 + i

/-- Outcome of the step "if the slot is dirty, write it back; a failure is fatal" of
`ctable_lru_evict` and `ctable_release`: `s1` is the state after it. -/
def wb_ok (PGSIZE : Nat) (t : KState) (c : Nat) (s1 : KState) : Prop :=
  if (t.slot c).dirty = true then cache_writeback PGSIZE t c = some (0, s1) else s1 = t

/-- The bytes of the page of slot `c` (zero when the slot has no page). -/
def KState.pdata (s : KState) (c : Nat) : Mem :=
  match (s.slot c).page with
  | some pg => pg.data
  | none => zeroMem

/-- Number of valid cache slots whose host is inode slot `h`. -/
def KState.hosted (s : KState) (h : Nat) : Nat :=
  s.cache.countP (fun c => c.valid && (c.host == some h))

/-! ## Reference bookkeeping -/

/-- The record `e` is a close of the lower-FS handle of inode slot `i`. -/
def isClose (i : Nat) (e : Ev) : Bool := (e == Ev.f_close i) || (e == Ev.f_closedir i)

/-- For every inode slot, `ref` is the number of valid cache slots it hosts plus the number
`H i` of references held by external callers. -/
def Bal (s : KState) (H : Nat → Nat) : Prop :=
  ∀ i, i < s.NINODE → (s.ino i).ref = (s.hosted i : Int) + (H i : Int)

/-- The two states have the same inode slots and, slot by slot, the same difference between
`ref` and the number of hosted cache slots. -/
def SameD (s s' : KState) : Prop :=
  s'.NINODE = s.NINODE ∧
    ∀ i, i < s.NINODE → (s'.ino i).ref - (s'.hosted i : Int) = (s.ino i).ref - (s.hosted i : Int)

/-- A call of the inode layer or the page cache made by an external caller. -/
inductive Op where
  | iget_root
  | dirlookup (dp : Nat) (name : String)
  | icreate (dp : Nat) (name : String) (type : Nat) (major minor : Int)
  | idup (ip : Nat)
  | iput (ip : Nat)
  | acquire (ip offset : Nat)
  | release (ip : Option Nat)

/-- The kernel state together with the (ghost) number of references each external caller
population holds on every inode slot. -/
structure GState where
  k : KState
  holders : Nat → Nat

/-- One more reference held on slot `i`. -/
def hold (H : Nat → Nat) (i : Nat) : Nat → Nat := fun j => if j = i then H j + 1 else H j

/-- One reference on slot `i` given back. -/
def unhold (H : Nat → Nat) (i : Nat) : Nat → Nat := fun j => if j = i then H j - 1 else H j

/-- The reference a lookup returns, if any, is now held by the caller. -/
def hold_result (H : Nat → Nat) (r : Option Nat) : Nat → Nat :=
  match r with
  | some i => hold H i
  | none => H

/-- Run one call to completion.  A caller puts only a reference it holds, and acquires pages
only of an inode it holds. -/
def gstep (K : Consts) (PGSIZE : Nat) (g : GState) : Op → Option GState
  | Op.iget_root =>
    (iget_root K g.k).map (fun r => { k := r.2, holders := hold g.holders r.1 })
  | Op.dirlookup dp name =>
    (dirlookup K g.k dp name).map (fun r => { k := r.2, holders := hold_result g.holders r.1 })
  | Op.icreate dp name type major minor =>
    (icreate K g.k dp name type major minor).map
      (fun r => { k := r.2, holders := hold_result g.holders r.1 })
  | Op.idup ip => some { k := idup g.k ip, holders := hold g.holders ip }
  | Op.iput ip =>
    if 0 < g.holders ip then
      (iput g.k ip).map (fun s => { k := s, holders := unhold g.holders ip })
    else none
  | Op.acquire ip offset =>
    if 0 < g.holders ip then
      (ctable_acquire PGSIZE g.k ip offset).map (fun r => { k := r.2, holders := g.holders })
    else none
  | Op.release ip =>
    (ctable_release PGSIZE g.k ip).map (fun s => { k := s, holders := g.holders })

/-- Run a sequence of calls, each to completion. -/
def grun (K : Consts) (PGSIZE : Nat) : List Op → GState → Option GState
  | [], g => some g
  | op :: ops, g =>
    match gstep K PGSIZE g op with
    | none => none
    | some g1 => grun K PGSIZE ops g1

/-- The state at boot: zeroed cache table, every inode slot free, no reference held. -/
def GInit (g : GState) : Prop :=
  ZeroCache g.k ∧ (∀ i, (g.k.ino i).ref = 0) ∧ ∀ i, g.holders i = 0

/-- The log of `s'` extends the log of `s` by records that all satisfy `P`. -/
def LogExt (P : Ev → Prop) (s s' : KState) : Prop :=
  ∃ evs, s'.log = s.log ++ evs ∧ ∀ e, e ∈ evs → P e

/-- The record is not a close of any lower-FS handle. -/
def NotClose (e : Ev) : Prop := ∀ i, isClose i e = false

/-- Between the two states no handle was closed and no `ref` changed. -/
def Benign (s s' : KState) : Prop :=
  LogExt NotClose s s' ∧ s'.NINODE = s.NINODE ∧ ∀ j, (s'.ino j).ref = (s.ino j).ref

/-- The state of `fill_slot` once the free slot `c` has been claimed for `(ip, offset)` and
its fresh page zeroed. -/
def fill_claim (s : KState) (c ip offset : Nat) : KState :=
  (alloc_physical_page s).2.setSlot c (claimed ip offset { ref := 1, data := zeroMem })

/-- The state of `fill_slot` after a successful seek and the read of the page: `t` is the
state after the seek. -/
def fill_loaded (PGSIZE : Nat) (t : KState) (c ip offset : Nat) : KState :=
  (f_read t ip PGSIZE).2.2.2.setSlot c
    (claimed ip offset
      { ref := 1, data := blit zeroMem 0 (f_read t ip PGSIZE).2.1 0 (f_read t ip PGSIZE).2.2.1 })

/-- The roll-back `read_page_err` of `fill_slot`: the page is recycled and the slot
invalidated. -/
def fill_rollback (t : KState) (c : Nat) : KState := (recycle_physical_page t).setSlot c {}

/-- Between the two states only calls on the handle of inode slot `e` (or on paths) were
made: no handle of another slot was closed, the cache table and every `ref` are as before. -/
def SlotOnly (e : Nat) (s s' : KState) : Prop :=
  SameC s s' ∧ s'.NINODE = s.NINODE ∧
    LogExt (fun ev => ∀ i, i ≠ e → isClose i ev = false) s s' ∧
    ∀ j, (s'.ino j).ref = (s.ino j).ref

/-- Effect of a lookup (`iget_root`, `dirlookup`, `icreate`) that returned `r`: either a
live slot was found and its `ref` incremented, or a free slot `e` was used, which ends with
`ref = 1` when it is returned and is still free when NULL is returned. -/
def OpenEff (s : KState) (r : Option Nat) (s' : KState) : Prop :=
  SameC s s' ∧ s'.NINODE = s.NINODE ∧
    ((∃ i, r = some i ∧ i < s.NINODE ∧ (s.ino i).ref > 0 ∧ s'.log = s.log ∧
        ∀ j, (s'.ino j).ref = (s.ino j).ref + (if j = i then 1 else 0)) ∨
     (∃ e, e < s.NINODE ∧ (s.ino e).ref = 0 ∧
        LogExt (fun ev => ∀ i, i ≠ e → isClose i ev = false) s s' ∧
        (∀ j, j ≠ e → (s'.ino j).ref = (s.ino j).ref) ∧
        ((r = some e ∧ (s'.ino e).ref = 1) ∨ (r = none ∧ (s'.ino e).ref = 0))))

/-- The configuration constants used to exercise the theorems. -/
def wK : Consts := { ROOTDEV := 1, DEVICE_MAGIC := 305419896, SYMLINK_MAGIC := 2271560481, MAXPATH := 16 }

/-- The records that a `ctable_acquire` for inode slot `ip` which hits or fills a free slot
leaves in the log, and those of the copy into the page: seeks and reads on the handle of
`ip`, page allocation and recycling, the copy. -/
def quietEv (ip : Nat) : Ev → Bool
  | Ev.f_lseek j _ => j == ip
  | Ev.f_read j _ => j == ip
  | Ev.alloc_page => true
  | Ev.recycle_page => true
  | Ev.copyin _ _ _ _ => true
  | _ => false

/-- The record marks an eviction by `ctable_lru_evict`. -/
def isEvict : Ev → Bool
  | Ev.evict _ => true
  | _ => false

/-- Between the two states nothing was written to the lower FS: the directory tree and the
bytes of every file are as before, the files other than that of `ip` are untouched, and the
file of `ip` has at most grown. -/
def Quiet (ip : Nat) (s s' : KState) : Prop :=
  s'.disk = s.disk ∧ (∀ j, (s'.ino j).file.data = (s.ino j).file.data) ∧
    (∀ j, j ≠ ip → (s'.ino j).file = (s.ino j).file) ∧
    (s.ino ip).file.objsize ≤ (s'.ino ip).file.objsize

/-- The log grew by `evs`, and either an eviction is among them or the step was quiet. -/
def QuietOrEvict (ip : Nat) (s s' : KState) : Prop :=
  ∃ evs, s'.log = s.log ++ evs ∧
    ((∃ e, e ∈ evs ∧ isEvict e = true) ∨ ((∀ e, e ∈ evs → quietEv ip e = true) ∧ Quiet ip s s'))

/-- The number of bytes the loops of `readi` and `writei` move in one iteration:
`PGSIZE - (off - off_align)`, cut down to `len` when that is less. -/
def chunk (PGSIZE off len : Nat) : Nat :=
  if usub PGSIZE (usub off (PGROUNDDOWN PGSIZE off)) > len then u32 len
  else usub PGSIZE (usub off (PGROUNDDOWN PGSIZE off))

/-- The state after `writei(ip = 1, kernel, "hello", 0, 5)` on `w0`. -/
def wWrote : KState := ((writei 4096 w0 1 false wHello 0 5).getD (0, w0)).2

/-! ## Coherence of the page cache with the lower FS -/

/-- Byte `p` of the file of inode slot `ip` is `v`, as seen through the cache: `p` lies
within the file; a valid slot that caches the page of `p` holds `v` at the place of `p`, and
is dirty unless the lower FS holds `v` too; and when no slot caches the page, the lower FS
holds `v`. -/
def ByteIs (PGSIZE : Nat) (s : KState) (ip p v : Nat) : Prop :=
  p < (s.ino ip).file.objsize ∧
  (∀ c, is_hit ip (PGROUNDDOWN PGSIZE p) (s.slot c) = true →
    s.pdata c (p % PGSIZE) = v ∧ ((s.slot c).dirty = true ∨ (s.ino ip).file.data p = v)) ∧
  ((∀ c, is_hit ip (PGROUNDDOWN PGSIZE p) (s.slot c) = false) → (s.ino ip).file.data p = v)

/-- Every valid slot has a page and a host, and its offset is page-aligned and a `uint`. -/
def SlotsOK (PGSIZE : Nat) (s : KState) : Prop :=
  ∀ c, (s.slot c).valid = true →
    (∃ pg, (s.slot c).page = some pg) ∧ (∃ h, (s.slot c).host = some h) ∧
    (s.slot c).offset % PGSIZE = 0 ∧ (s.slot c).offset < 2 ^ 32

/-- Well-formed state for the byte-level reasoning: the cache table is well-formed, the
valid slots are, and every file size is a `uint` (FAT sizes are 32 bits). -/
def Sane (PGSIZE : Nat) (s : KState) : Prop :=
  CInv s ∧ SlotsOK PGSIZE s ∧ ∀ i, (s.ino i).file.objsize < 2 ^ 32

/-- Between the two states no file lost bytes or changed bytes: the data are the same, the
sizes have at most grown and are still `uint`s. -/
def Grow (s s' : KState) : Prop :=
  ∀ j, (s'.ino j).file.data = (s.ino j).file.data ∧
    (s.ino j).file.objsize ≤ (s'.ino j).file.objsize ∧
    ((s.ino j).file.objsize < 2 ^ 32 → (s'.ino j).file.objsize < 2 ^ 32)

/-- The slot `w` after the body of the loop of `writei`: its page `pg` has received `n` bytes
of `src` at `inpage`, and the slot is dirty. -/
def written (w : page_cache) (pg : PhysPage) (inpage : Nat) (src : Mem) (bufoff n : Nat) :
    page_cache :=
  { w with
    dirty := true
    page := some (PhysPage.mk pg.ref (blit pg.data inpage src bufoff n)) }

/-- The cache can give up any page: the host of a valid slot is an inode slot whose `ref`
counts its cached pages, and unless someone besides the cache holds it, it has no deferred
rename pending (the one step of the last `iput` that panics when it fails). -/
def Held (s : KState) : Prop :=
  ∀ c h, (s.slot c).valid = true → (s.slot c).host = some h →
    h < s.NINODE ∧ (s.ino h).ref ≥ (s.hosted h : Int) ∧
      ((s.ino h).ref > (s.hosted h : Int) ∨ (s.ino h).unlinked ≠ 0 ∨
        (s.ino h).new_path.length = 0)

/-- Some slot of the cache is free, or holds a page that only the cache references and can
therefore be evicted. -/
def Avail (s : KState) : Prop :=
  ∃ c, c < s.NCACHE ∧ ((s.slot c).valid = false ∨ get_physical_page_ref (s.slot c).page = 1)

/-- The page of byte `p` of inode slot `ip` can be acquired: it is cached, or a slot is
available for it. -/
def Ready (PGSIZE : Nat) (s : KState) (ip p : Nat) : Prop :=
  Avail s ∨ ∃ c, is_hit ip (PGROUNDDOWN PGSIZE p) (s.slot c) = true

/-- The caller of the byte I/O holds inode slot `ip` open, and so is every other file with
cached pages held by someone. -/
def Live (s : KState) (ip : Nat) : Prop :=
  Held s ∧ ip < s.NINODE ∧ (s.ino ip).ref > (s.hosted ip : Int)

/-- A kernel like `w0` with a single cache slot, in which the tenth fallible external call
fails. -/
def wTiny : KState :=
  { inode := [wRoot, wFile],
    cache := [{}],
    lru := [none],
    disk := [("/", Node.dir), ("/a.txt", Node.file 0 zeroMem)],
    faults := List.replicate 9 false ++ [true] }

/-- The state after `writei(ip = 1, kernel, "hello", 4094, 5)` on `wTiny`: the write spans
two pages, so the first one has been evicted (and written back) to make room. -/
def wTinyWrote : KState := ((writei 4096 wTiny 1 false wHello 4094 5).getD (0, wTiny)).2

/-- Between the two states the inode table kept its size and the path, device, type and
deferred operations of every slot, and no `ref` other than that of `ip` was raised. -/
def Keep (ip : Nat) (s s' : KState) : Prop :=
  s'.NINODE = s.NINODE ∧
    ∀ j, (s'.ino j).path = (s.ino j).path ∧ (s'.ino j).dev = (s.ino j).dev ∧
      (s'.ino j).type = (s.ino j).type ∧ (j ≠ ip → (s'.ino j).ref ≤ (s.ino j).ref) ∧
      (s'.ino j).unlinked = (s.ino j).unlinked ∧ (s'.ino j).new_path = (s.ino j).new_path

/-- Inode slot `i` is the one the table scan of `dirlookup` and `icreate` finds for `path`:
the first live slot of the root device that holds `path`. -/
def FirstMatch (K : Consts) (s : KState) (path : String) (i : Nat) : Prop :=
  i < s.NINODE ∧
    ((s.ino i).ref > 0 ∧ (s.ino i).dev = K.ROOTDEV ∧ (s.ino i).path = path) ∧
    ∀ j, j < i → ¬ ((s.ino j).ref > 0 ∧ (s.ino j).dev = K.ROOTDEV ∧ (s.ino j).path = path)

/-- A kernel with the root directory open in inode slot 0, one free inode slot, two zeroed
cache slots and a lower FS that holds only the root directory. -/
def wC0 : KState :=
  { inode := [wRoot, {}],
    cache := [{}, {}],
    lru := [none, none],
    disk := [("/", Node.dir)] }

/-- The state `wC0` after `icreate(root, "a.txt", T_FILE, 0, 0)`. -/
def wC1 : KState := ((icreate wK wC0 0 "a.txt" T_FILE 0 0).getD (none, wC0)).2

/-- Then after `writei(ip = 1, kernel, "hello", 0, 5)`. -/
def wC2 : KState := ((writei 4096 wC1 1 false wHello 0 5).getD (0, wC1)).2

/-- Then after `ctable_release(ip = 1)`. -/
def wC3 : KState := (ctable_release 4096 wC2 (some 1)).getD wC2

/-- Then after `dirlookup(root, "a.txt")`. -/
def wC4 : KState := ((dirlookup wK wC3 0 "a.txt").getD (none, wC3)).2

/-- The kernel `wC0` in which the seventh fallible external call fails. -/
def wF0 : KState := { wC0 with faults := List.replicate 6 false ++ [true] }

/-- The state `wF0` after `icreate(root, "a.txt", T_FILE, 0, 0)`. -/
def wF1 : KState := ((icreate wK wF0 0 "a.txt" T_FILE 0 0).getD (none, wF0)).2

/-- Then after `writei(ip = 1, kernel, "hello", 0, 5)`. -/
def wF2 : KState := ((writei 4096 wF1 1 false wHello 0 5).getD (0, wF1)).2

/-- Then after `ctable_release(ip = 1)`. -/
def wF3 : KState := (ctable_release 4096 wF2 (some 1)).getD wF2

/-- Then after `dirlookup(root, "a.txt")`. -/
def wF4 : KState := ((dirlookup wK wF3 0 "a.txt").getD (none, wF3)).2

/-- The lower-FS calls the specification lets `iput(ip)` issue in state `s`, in order: none
unless `ref` is 1; else the close (`f_closedir` for a directory, `f_close` otherwise), then
`f_unlink(path)` if `unlinked` is set, otherwise `f_rename(path, new_path)` if `new_path` is
non-empty. -/
def iput_calls (s : KState) (ip : Nat) : List Ev :=
  if (s.ino ip).ref = 1 then
    (if (s.ino ip).type = T_DIR then Ev.f_closedir ip else Ev.f_close ip) ::
      (if (s.ino ip).unlinked ≠ 0 then [Ev.f_unlink (s.ino ip).path]
       else if (s.ino ip).new_path.length ≠ 0 then
         [Ev.f_rename (s.ino ip).path (s.ino ip).new_path]
       else [])
  else []

/-- A kernel whose two cache slots hold the first two pages of `/a.txt`, both pages being
shared with a user mapping (physical reference count 2). -/
def wPinned : KState :=
  { inode := [wRoot, { wFile with ref := 3 }],
    cache := [claimed 1 0 { ref := 2, data := zeroMem },
              claimed 1 4096 { ref := 2, data := zeroMem }],
    lru := [some 1, some 0],
    disk := [("/", Node.dir), ("/a.txt", Node.file 0 zeroMem)] }

/-- The kernel `w0` in which the next fallible external call succeeds and the one after it
fails. -/
def wReadFails : KState := { w0 with faults := [false, true] }

/-- The lower-FS calls of the write-back of slot `c` in state `s`, as the specification gives
them: none for a clean slot; for a dirty one the seek to the slot's offset on the host's
file, then the write of `min(file_size - offset, PGSIZE)` bytes, `file_size` being read
after the seek (which has extended the file to `offset` if it was shorter). -/
def wb_calls (PGSIZE : Nat) (s : KState) (c : Nat) : List Ev :=
  if (s.slot c).dirty = true then
    match (s.slot c).host with
    | some h =>
      [Ev.f_lseek h (s.slot c).offset,
       Ev.f_write h (min (usub (u32 (max (s.ino h).file.objsize (s.slot c).offset))
         (s.slot c).offset) PGSIZE)]
    | none => []
  else []

/-- A kernel whose two cache slots hold the first two pages of `/a.txt`: the page of offset 0
(the LRU tail) is shared with a user mapping, the page of offset 4096 is not, and is dirty. -/
def wShared : KState :=
  { inode := [wRoot, { wFile with ref := 3, file := { wFil with objsize := 8192 } }],
    cache := [claimed 1 0 { ref := 2, data := zeroMem },
              { claimed 1 4096 { ref := 1, data := wHello } with dirty := true }],
    lru := [some 1, some 0],
    disk := [("/", Node.dir), ("/a.txt", Node.file 8192 zeroMem)] }

/-- The state `wShared` after `ctable_lru_evict`. -/
def wEvicted : KState := ((ctable_lru_evict 4096 wShared).getD (0, wShared)).2

/-- The state `w2` (both cache slots in use) after `ctable_acquire(ip = 1, 8192)`. -/
def wThird : KState := ((ctable_acquire 4096 w2 1 8192).getD (none, w2)).2

/-- The test of the loop of `ctable_release(ip)` on a slot: the slot is valid and its host is
`ip`, or `ip` is NULL. -/
def release_hit (ip : Option Nat) (w : page_cache) : Bool :=
  w.valid && (decide (w.host = ip) || decide (ip = none))

/-- The state `wWrote` (one dirty page of `/a.txt` cached) after `ctable_release(ip = 1)`. -/
def wReleased : KState := (ctable_release 4096 wWrote (some 1)).getD wWrote

/-! ## File size seen by `stati` -/

/-- Modelled from the spec: the fields of `struct kstat` that `stati` fills (§6); `others`
stands for all the other fields of the record taken together (zero when every one is). -/
structure kstat where
  st_dev : Nat := 0
  st_nlink : Nat := 0
  st_blksize : Nat := 0
  st_mode : Nat := 0
  st_size : Nat := 0
  st_blocks : Nat := 0
  others : Nat := 0

/-- Modelled from the spec: the constants `stati` uses and no source file defines (§6):
`BSIZE` and the mode bits `S_IFDIR`, `S_IFREG`, `S_IFCHR`. -/
structure StatConsts where
  BSIZE : Nat
  S_IFDIR : Nat
  S_IFREG : Nat
  S_IFCHR : Nat

/-- Modelled from the spec: `ROUNDUP(a, b)`, the macro that rounds `a` up to a multiple of
`b` (§6: `st_blocks = ⌈st_size/BSIZE⌉`). -/
def ROUNDUP (a b : Nat) : Nat := (a + b - 1) / b * b

/-- Embedding of `stati(ip, st)`: the record is zeroed, then `st_dev`, `st_nlink`,
`st_blksize`, the mode and size by inode type (no `default` case in the `switch`), and
`st_blocks`.  Returns the `int` result and the record. -/
def stati (C : StatConsts) (s : KState) (ip : Nat) : Int × kstat :=
  let st0 : kstat := { st_dev := (s.ino ip).dev, st_nlink := 1, st_blksize := C.BSIZE }
  let st1 : kstat :=
    if (s.ino ip).type = T_DIR then { st0 with st_mode := C.S_IFDIR, st_size := 4 }
    else if (s.ino ip).type = T_FILE then
      { st0 with st_mode := C.S_IFREG, st_size := f_size (s.ino ip).file }
    else if (s.ino ip).type = T_DEVICE then
      { st0 with st_mode := C.S_IFCHR, st_size := f_size (s.ino ip).file }
    else st0
  (0, { st1 with st_blocks := ROUNDUP st1.st_size C.BSIZE / C.BSIZE })

/-- No cache slot records inode slot `ip` as its host with an offset beyond byte `M`. -/
def NoneBeyond (s : KState) (ip M : Nat) : Prop :=
  ∀ c, (s.slot c).host = some ip → (s.slot c).offset ≤ M

/-- Between the two states the file of `ip` has not shrunk; and if it was a `uint` size
with `q` and every cached page of `ip` within it, it has kept its size and every cached
page of `ip` is still within it. -/
def SizeKept (ip q : Nat) (s s' : KState) : Prop :=
  (s.ino ip).file.objsize ≤ (s'.ino ip).file.objsize ∧
  ((s.ino ip).file.objsize < 2 ^ 32 → q ≤ (s.ino ip).file.objsize →
    NoneBeyond s ip (s.ino ip).file.objsize →
    (s'.ino ip).file.objsize = (s.ino ip).file.objsize ∧
      NoneBeyond s' ip (s.ino ip).file.objsize)

/-- The kernel `w0` in which the next fallible external call fails. -/
def wSeekFails : KState := { w0 with faults := [true] }

/-- The state `wSeekFails` after `writei(ip = 1, kernel, _, 10, 0)`. -/
def wSeekFailed : KState := ((writei 4096 wSeekFails 1 false wHello 10 0).getD (0, wSeekFails)).2

/-- A kernel like `w0` with a single cache slot. -/
def wOne : KState :=
  { inode := [wRoot, wFile],
    cache := [{}],
    lru := [none],
    disk := [("/", Node.dir), ("/a.txt", Node.file 0 zeroMem)] }

/-- The state `wOne` after `"hello"` has been written at offset 4096 of `/a.txt` and the file
then truncated: the one cache slot holds the stale page of offset 4096, the file is empty. -/
def wStale1 : KState :=
  ((writei 4096 wOne 1 false wHello 4096 5).bind (fun r => itrunc r.2 1)).getD {}

/-- The state `wStale1` after `writei(ip = 1, kernel, "hello", 0, 5)`. -/
def wStale1Wrote : KState := ((writei 4096 wStale1 1 false wHello 0 5).getD (0, wStale1)).2

/-- Values of the constants of `stati` used to exercise the theorems. -/
def wSC : StatConsts := { BSIZE := 512, S_IFDIR := 16384, S_IFREG := 32768, S_IFCHR := 8192 }

/-- The bytes of a symlink record whose target is `/b`: `SYMLINK_MAGIC` of `wK`
(little-endian), then the C string `"/b"`. -/
def wLinkRec : Mem := fun i => [33, 67, 101, 135, 47, 98, 0].getD i 0

/-- A kernel at boot with four free inode slots and a lower FS that holds the directory
`/d`, the regular files `/d/e` and `/b`, and `/l`, a symlink record pointing to `/b`. -/
def gBootL : GState :=
  { k := { inode := [{}, {}, {}, {}],
           cache := [{}, {}],
           lru := [none, none],
           disk := [("/", Node.dir), ("/d", Node.dir), ("/d/e", Node.file 0 zeroMem),
                    ("/b", Node.file 0 zeroMem), ("/l", Node.file 7 wLinkRec)] },
    holders := fun _ => 0 }

/-- A run from boot: open the root, look up `/b`, then look up the symlink `/l`. -/
def gLinkOps : List Op := [Op.iget_root, Op.dirlookup 0 "b", Op.dirlookup 0 "l"]

/-- A run from boot that leaves the root open in inode slot 2 with slot 0 free: open the root
(slot 0) and `/d` (slot 1), put the root, look up `/d/e` (slot 0), open the root again (slot
2), put `/d/e`. -/
def gRootOps : List Op :=
  [Op.iget_root, Op.dirlookup 0 "d", Op.iput 0, Op.dirlookup 1 "e", Op.iget_root, Op.iput 0]

/-- The state after the run `gRootOps` from boot. -/
def gRootLater : GState := (grun wK 4096 gRootOps gBootL).getD gBootL

/-- Embedding of `iunlink`: `ip->unlinked = 1; return 0;`. -/
def iunlink (s : KState) (ip : Nat) : Int × KState :=
  (0, s.setIno ip { s.ino ip with unlinked := 1 })

/-- Embedding of `irename`: `strcpy(ip->new_path, new_path); return 0;` (paths are taken to
fit in `MAXPATH`). -/
def irename (s : KState) (ip : Nat) (new_path : String) : Int × KState :=
  (0, s.setIno ip { s.ino ip with new_path := new_path })

/-- A call of one of the two setters of the deferred operations. -/
inductive Setter where
  | iunlink
  | irename (new_path : String)
  deriving DecidableEq

/-- The state after a sequence of setter calls on inode slot `ip`. -/
def set_run (ip : Nat) : List Setter → KState → KState
  | [], s => s
  | Setter.iunlink :: r, s => set_run ip r (iunlink s ip).2
  | Setter.irename p :: r, s => set_run ip r (irename s ip p).2

/-- The argument of the last `irename` of a sequence of setter calls, `old` if there is
none. -/
def last_rename (old : String) : List Setter → String
  | [] => old
  | Setter.iunlink :: r => last_rename old r
  | Setter.irename p :: r => last_rename p r

/-! ## Path resolution -/

/-- The NUL character that ends a C string. -/
def NUL : Char := Char.ofNat 0

/-- The call `memmove(dst, src, n)` on character buffers given as lists: the first `n`
characters of `dst` are replaced by the first `n` of `src`. -/
def memmove (dst src : List Char) (n : Nat) : List Char := src.take n ++ dst.drop n

/-- Embedding of `skipelem(path, name)`.  A C string is given as the list of its characters
before the terminating NUL, `name` is the contents of the caller's buffer.  The result `none`
is the return of 0, otherwise it is the remaining path and the buffer. -/
def skipelem (DIRSIZ : Nat) (path name : List Char) : Option (List Char × List Char) :=
  let p0 := path.dropWhile (fun c => c == '/')
  if p0 = [] then none
  else
    let s := p0
    let p1 := s.dropWhile (fun c => c != '/')
    let len := s.length - p1.length
    let name1 :=
      if len ≥ DIRSIZ then memmove name s DIRSIZ else (memmove name s len).set len NUL
    some (p1.dropWhile (fun c => c == '/'), name1)

/-- The C string held by a character buffer: its characters up to the first NUL. -/
def cstr (buf : List Char) : String := String.mk (buf.takeWhile (fun c => c != NUL))

/-- The first component of a path, in the words of the specification: the maximal run of
characters other than `/` that follows the leading `/` characters. -/
def first_component (path : List Char) : List Char :=
  (path.dropWhile (fun c => c == '/')).takeWhile (fun c => c != '/')

/-! ## The probes of `dirlookup` -/

/-- The record `devinfo` of `dirlookup` after the read of `sizeof(struct device)` = 8 bytes
from the start of the file just opened in slot `e` (zero where nothing was read). -/
def dev_record (s : KState) (e : Nat) : Mem :=
  blit zeroMem 0 (f_read (f_rewind s e).2 e 8).2.1 0 (f_read (f_rewind s e).2 e 8).2.2.1

/-- The first condition of `dirlookup` on the file just opened in slot `e`: the rewind and
the read succeed, `sizeof(struct device)` bytes are read and the leading magic is
`DEVICE_MAGIC`. -/
def dev_probe (K : Consts) (s : KState) (e : Nat) : Prop :=
  (f_rewind s e).1 = FRESULT.FR_OK ∧ (f_read (f_rewind s e).2 e 8).1 = FRESULT.FR_OK ∧
    (f_read (f_rewind s e).2 e 8).2.2.1 = 8 ∧ le32 (dev_record s e) = K.DEVICE_MAGIC

/-- The state after the calls of the first condition (`&&` stops at a failed rewind). -/
def after_dev_probe (s : KState) (e : Nat) : KState :=
  if (f_rewind s e).1 = FRESULT.FR_OK then (f_read (f_rewind s e).2 e 8).2.2.2
  else (f_rewind s e).2

/-- The record `symlink_info` of `dirlookup` after the read of `sizeof(struct symlink)` =
`4 + MAXPATH` bytes from the start of the file of slot `e`. -/
def sym_record (K : Consts) (t : KState) (e : Nat) : Mem :=
  blit zeroMem 0 (f_read (f_rewind t e).2 e (4 + K.MAXPATH)).2.1 0
    (f_read (f_rewind t e).2 e (4 + K.MAXPATH)).2.2.1

/-- The second condition of `dirlookup`: the rewind and the read succeed, more than
`sizeof(int)` bytes are read, the leading magic is `SYMLINK_MAGIC` and the target starts
with `/`. -/
def sym_probe (K : Consts) (t : KState) (e : Nat) : Prop :=
  (f_rewind t e).1 = FRESULT.FR_OK ∧
    (f_read (f_rewind t e).2 e (4 + K.MAXPATH)).1 = FRESULT.FR_OK ∧
    (f_read (f_rewind t e).2 e (4 + K.MAXPATH)).2.2.1 > 4 ∧
    le32 (sym_record K t e) = K.SYMLINK_MAGIC ∧ sym_record K t e 4 = '/'.toNat

/-- The state after the calls of the second condition. -/
def after_sym_probe (K : Consts) (t : KState) (e : Nat) : KState :=
  if (f_rewind t e).1 = FRESULT.FR_OK then (f_read (f_rewind t e).2 e (4 + K.MAXPATH)).2.2.2
  else (f_rewind t e).2

/-- The target of the symlink record, `symlink_info.path`. -/
def sym_target (K : Consts) (t : KState) (e : Nat) : String :=
  cstring_at (sym_record K t e) 4 (4 + K.MAXPATH)

/-- The close of the symlink file and the open of its target in the symlink branch of
`dirlookup`. -/
def sym_reopen (K : Consts) (t : KState) (e : Nat) : FRESULT × KState :=
  f_open (f_close (after_sym_probe K t e) e).2 e (sym_target K t e) false

/-- The kernel `gBootL` after `iget_root`: the root directory is open in inode slot 0. -/
def wL0 : KState := ((iget_root wK gBootL.k).getD (0, gBootL.k)).2

/-! ## Concrete runs of unlink -/

/-- The state `wC0` after `icreate(root, "tmp", T_FILE, 0, 0)` (slot 1) and
`writei(ip = 1, kernel, "hello", 0, 5)`: one page of `/tmp` is cached and holds a reference
on the inode. -/
def wU2 : KState :=
  ((icreate wK wC0 0 "tmp" T_FILE 0 0).bind
    (fun r => (writei 4096 r.2 1 false wHello 0 5).map (fun w => w.2))).getD wC0

/-- Then after `iunlink(ip = 1)` and the `iput` of the caller's reference. -/
def wU4 : KState := (iput (iunlink wU2 1).2 1).getD wC0

/-- The kernel `wC0` in which the third fallible external call (the `f_unlink`) fails, after
`icreate(root, "tmp", T_FILE, 0, 0)`, `iunlink(ip = 1)` and `iput(ip = 1)`. -/
def wUF : KState :=
  ((icreate wK { wC0 with faults := [false, false, true] } 0 "tmp" T_FILE 0 0).bind
    (fun r => iput (iunlink r.2 1).2 1)).getD wC0

/-- The kernel `wL0` after `dirlookup(root, "l")` (slot 1, opened through the symlink on
`/b`), `iunlink(ip = 1)` and `iput(ip = 1)`. -/
def wUL : KState :=
  ((dirlookup wK wL0 0 "l").bind (fun r => iput (iunlink r.2 1).2 1)).getD wC0

/-! ## Reading a file through its handle -/

/-- Between the two states only reads and seeks within the file were made on the handle of
inode slot `e`: the tables, the lower FS, the other slots and the contents, size and path of
the file of `e` are as before, and no failure was used up if none was pending. -/
def ReadOnly (e : Nat) (s s' : KState) : Prop :=
  s'.cache = s.cache ∧ s'.lru = s.lru ∧ s'.disk = s.disk ∧ s'.NINODE = s.NINODE ∧
  (s.faults = [] → s'.faults = []) ∧ (∀ j, j ≠ e → s'.ino j = s.ino j) ∧
  (s'.ino e).file.data = (s.ino e).file.data ∧
  (s'.ino e).file.objsize = (s.ino e).file.objsize ∧
  (s'.ino e).file.path = (s.ino e).file.path

/-- The kernel `wC0` in which the seventh fallible external call fails. After
`icreate(root, "dev", T_DEVICE, 1, 2)` (slot 1) and `iput(ip = 1)` this is the read of the
device probe of the next `dirlookup(root, "dev")`. -/
def wD2 : KState :=
  ((icreate wK { wC0 with faults := List.replicate 6 false ++ [true] } 0 "dev" T_DEVICE 1 2).bind
    (fun r => iput r.2 1)).getD wC0

/-- The state `wC1` (the regular file `/a.txt` is open in slot 1) after
`icreate(root, "a.txt", T_DEVICE, 1, 2)` and the two calls of `iput(ip = 1)` that drop the
references on the slot. -/
def wD3 : KState :=
  ((icreate wK wC1 0 "a.txt" T_DEVICE 1 2).bind
    (fun r => (iput r.2 1).bind (fun t => iput t 1))).getD wC0

/-- The state `wC0` after `icreate(root, "dev", T_DEVICE, 1, 2)`. -/
def wD1 : KState := ((icreate wK wC0 0 "dev" T_DEVICE 1 2).getD (none, wC0)).2

/-- A kernel like `wC0` whose lower FS holds the file `/dev` with the 8 bytes of the record
`(DEVICE_MAGIC, 1, 2)`. -/
def wDev : KState :=
  { wC0 with disk := [("/", Node.dir), ("/dev", Node.file 8 (device_bytes wK.DEVICE_MAGIC 1 2))] }

/-! ## The inode-table lock -/

/-- Modelled from the spec: `acquire_mutex_sleep(lk)` (§5: the locks are sleep mutexes), the
lock being given by whether it is held.  A caller that finds the lock free returns holding
it; a caller that finds it held sleeps until a release, which in a run of a single thread of
control never comes (`none`). -/
def acquire_mutex_sleep (held : Bool) : Option Bool := if held then none else some true

/-- Modelled from the spec: `release_mutex_sleep(lk)`: the lock is free again. -/
def release_mutex_sleep (_held : Bool) : Bool := false

/-- How a call on the inode table ends in a run of a single thread of control: it returns,
it panics, or it sleeps for ever on the table lock. -/
inductive Outcome (α : Type) where
  | ret (a : α)
  | panic
  | blocked
  deriving DecidableEq

/-- What remains of an outcome when only a part of the returned value is looked at. -/
def Outcome.map {α β : Type} (f : α → β) : Outcome α → Outcome β
  | Outcome.ret a => Outcome.ret (f a)
  | Outcome.panic => Outcome.panic
  | Outcome.blocked => Outcome.blocked

/-- A function body that runs between `acquire_mutex_sleep(&itable.lock)` at its entry and
`release_mutex_sleep(&itable.lock)` before each `return` (`iget_root`, `idup`, `iput`,
`icreate`); `body` is the embedding of the function without the lock.  The result carries
the state of the lock at the return. -/
def locked_call {α : Type} (held : Bool) (body : Option α) : Outcome (α × Bool) :=
  match acquire_mutex_sleep held with
  | none => Outcome.blocked
  | some lk =>
    match body with
    | none => Outcome.panic
    | some a => Outcome.ret (a, release_mutex_sleep lk)

/-- The inode-table lock at the return of the probe part of `dirlookup` (the branches of
`dirlookup_file`), `lk` being the lock acquired at the entry: every `return` follows a
`release_mutex_sleep(&itable.lock)`, except the `return NULL` after the failed open of a
symlink target. -/
def dirlookup_file_lock (K : Consts) (s : KState) (e : Nat) (lk : Bool) : Bool :=
  let r1 := f_rewind s e
  let d1 := f_read r1.2 e 8
  let sdev : KState := if r1.1 = FRESULT.FR_OK then d1.2.2.2 else r1.2
  if r1.1 = FRESULT.FR_OK ∧ d1.1 = FRESULT.FR_OK ∧ d1.2.2.1 = 8 ∧
      le32 (blit zeroMem 0 d1.2.1 0 d1.2.2.1) = K.DEVICE_MAGIC then
    release_mutex_sleep lk
  else
    let r2 := f_rewind sdev e
    let d2 := f_read r2.2 e (4 + K.MAXPATH)
    let ssym : KState := if r2.1 = FRESULT.FR_OK then d2.2.2.2 else r2.2
    let rec2 := blit zeroMem 0 d2.2.1 0 d2.2.2.1
    if r2.1 = FRESULT.FR_OK ∧ d2.1 = FRESULT.FR_OK ∧ d2.2.2.1 > 4 ∧
        le32 rec2 = K.SYMLINK_MAGIC ∧ rec2 4 = '/'.toNat then
      let target := cstring_at rec2 4 (4 + K.MAXPATH)
      let cl := f_close ssym e
      let o := f_open cl.2 e target false
      if o.1 ≠ FRESULT.FR_OK then lk
      else release_mutex_sleep lk
    else release_mutex_sleep lk

/-- The inode-table lock at the return of `dirlookup(dp, name)`, `lk` being the lock
acquired at the entry (see `dirlookup` for the branches). -/
def dirlookup_lock (K : Consts) (s : KState) (dp : Nat) (name : String) (lk : Bool) : Bool :=
  let path := child_path (s.ino dp).path name
  match scan_path K s path with
  | none => lk
  | some (Sum.inl _) => release_mutex_sleep lk
  | some (Sum.inr e) =>
    let od := f_opendir s e path
    if od.1 = FRESULT.FR_OK then release_mutex_sleep lk
    else
      let o := f_open od.2 e path false
      if o.1 = FRESULT.FR_OK then dirlookup_file_lock K o.2 e lk
      else release_mutex_sleep lk

/-- The function `dirlookup` with the inode-table lock: the assertion on `dp`, then
`acquire_mutex_sleep(&itable.lock)`, then the body; the result carries the state of the lock
at the return. -/
def dirlookup_lk (K : Consts) (s : KState) (held : Bool) (dp : Nat) (name : String) :
    Outcome ((Option Nat × KState) × Bool) :=
  if (s.ino dp).type ≠ T_DIR then Outcome.panic
  else
    match acquire_mutex_sleep held with
    | none => Outcome.blocked
    | some lk =>
      match dirlookup K s dp name with
      | none => Outcome.panic
      | some r => Outcome.ret (r, dirlookup_lock K s dp name lk)

/-- The function `iget_root` with the inode-table lock. -/
def iget_root_lk (K : Consts) (s : KState) (held : Bool) : Outcome ((Nat × KState) × Bool) :=
  locked_call held (iget_root K s)

/-- The function `icreate` with the inode-table lock (the assertion on `dp` comes first). -/
def icreate_lk (K : Consts) (s : KState) (held : Bool) (dp : Nat) (name : String) (type : Nat)
    (major minor : Int) : Outcome ((Option Nat × KState) × Bool) :=
  if (s.ino dp).type ≠ T_DIR then Outcome.panic
  else locked_call held (icreate K s dp name type major minor)

/-- The function `idup` with the inode-table lock. -/
def idup_lk (s : KState) (held : Bool) (ip : Nat) : Outcome (KState × Bool) :=
  locked_call held (some (idup s ip))

/-- The function `iput` with the inode-table lock. -/
def iput_lk (s : KState) (held : Bool) (ip : Nat) : Outcome (KState × Bool) :=
  locked_call held (iput s ip)

/-- A kernel with the root directory open in inode slot 0 and three free slots, whose lower
FS holds `/l`, a symlink record pointing to `/b`, and no `/b`. -/
def wDang : KState := { wL0 with disk := [("/", Node.dir), ("/l", Node.file 7 wLinkRec)] }

/-- The state `wDang` after `dirlookup(root, "l")`. -/
def wDang1 : KState := ((dirlookup wK wDang 0 "l").getD (none, wDang)).2

/-! ## Path resolution (`namei`) -/

/-- Sequencing of calls: the next call runs on what the previous one returned; a panic or
a sleep on a lock ends the run. -/
def Outcome.bind {α β : Type} (o : Outcome α) (f : α → Outcome β) : Outcome β :=
  match o with
  | Outcome.ret a => f a
  | Outcome.panic => Outcome.panic
  | Outcome.blocked => Outcome.blocked

/-- The state seen by the path resolution: the kernel state, whether the inode-table lock is
held, the inode slots whose sleep lock (`ip->lock`) is held, and the working directory of
the current process (`curr_proc()->cwd`, NULL before the first resolution). -/
structure PState where
  k : KState
  itable : Bool := false
  ilocks : List Nat := []
  cwd : Option Nat := none

/-- The call `iget_root()` in the state of the path resolution. -/
def PState.iget_root (K : Consts) (p : PState) : Outcome (Nat × PState) :=
  (iget_root_lk K p.k p.itable).map (fun r => (r.1.1, { p with k := r.1.2, itable := r.2 }))

/-- The call `idup(ip)` in the state of the path resolution. -/
def PState.idup (p : PState) (ip : Nat) : Outcome PState :=
  (idup_lk p.k p.itable ip).map (fun r => { p with k := r.1, itable := r.2 })

/-- The call `iput(ip)` in the state of the path resolution. -/
def PState.iput (p : PState) (ip : Nat) : Outcome PState :=
  (iput_lk p.k p.itable ip).map (fun r => { p with k := r.1, itable := r.2 })

/-- The call `dirlookup(dp, name)` in the state of the path resolution. -/
def PState.dirlookup (K : Consts) (p : PState) (dp : Nat) (name : String) :
    Outcome (Option Nat × PState) :=
  (dirlookup_lk K p.k p.itable dp name).map
    (fun r => (r.1.1, { p with k := r.1.2, itable := r.2 }))

/-- Embedding of `ilock(ip)`: panic when `ref < 1`, then `acquire_mutex_sleep(&ip->lock)`. -/
def ilock (p : PState) (ip : Nat) : Outcome PState :=
  if (p.k.ino ip).ref < 1 then Outcome.panic
  else
    match acquire_mutex_sleep (decide (ip ∈ p.ilocks)) with
    | none => Outcome.blocked
    | some _ => Outcome.ret { p with ilocks := ip :: p.ilocks }

/-- Embedding of `iunlock(ip)`: the assertions that the lock is held and that `ref >= 1`,
then `release_mutex_sleep(&ip->lock)`. -/
def iunlock (p : PState) (ip : Nat) : Outcome PState :=
  if ip ∉ p.ilocks then Outcome.panic
  else if (p.k.ino ip).ref < 1 then Outcome.panic
  else Outcome.ret { p with ilocks := p.ilocks.erase ip }

/-- Embedding of `iunlockput(ip)`: `iunlock(ip); iput(ip);`. -/
def iunlockput (p : PState) (ip : Nat) : Outcome PState :=
  (iunlock p ip).bind (fun p1 => p1.iput ip)

/-- The loop of `inode_or_parent_by_name`, from the inode `ip` reached so far, with the
rest of the path and the buffer `name`.  Each iteration consumes at least one character of
the path, so `fuel` above the length of the path is never used up.  The result is the inode
(or NULL), the buffer and the state.  `dirlookup` is handed the C string of the buffer, which
is the component whenever `skipelem` has stored its NUL (a component shorter than `DIRSIZ`);
for a longer component the code reads past the buffer, and the string here is its first
`DIRSIZ` characters. -/
def namex_loop (K : Consts) (DIRSIZ : Nat) (nameiparent : Bool) :
    Nat → PState → Nat → List Char → List Char → Outcome (Option Nat × List Char × PState)
  | 0, _, _, _, _ => Outcome.blocked
  | fuel + 1, p, ip, path, name =>
    match skipelem DIRSIZ path name with
    | none =>
      if nameiparent then (p.iput ip).bind (fun p1 => Outcome.ret (none, name, p1))
      else Outcome.ret (some ip, name, p)
    | some (rest, name1) =>
      (ilock p ip).bind (fun p1 =>
        if (p1.k.ino ip).type ≠ T_DIR then
          (iunlockput p1 ip).bind (fun p2 => Outcome.ret (none, name1, p2))
        else if nameiparent ∧ rest = [] then
          (iunlock p1 ip).bind (fun p2 => Outcome.ret (some ip, name1, p2))
        else
          (p1.dirlookup K ip (cstr name1)).bind (fun r =>
            match r.1 with
            | none => (iunlockput r.2 ip).bind (fun p3 => Outcome.ret (none, name1, p3))
            | some next =>
              (iunlockput r.2 ip).bind (fun p3 =>
                namex_loop K DIRSIZ nameiparent fuel p3 next rest name1)))

/-- The start of `inode_or_parent_by_name`: the working directory is set to the root if it
is NULL; the walk starts at the root for an absolute path, at a new reference on the working
directory otherwise. -/
def namex_start (K : Consts) (p : PState) (path : List Char) : Outcome (Nat × PState) :=
  (match p.cwd with
    | none => (p.iget_root K).bind (fun r => Outcome.ret (r.1, { r.2 with cwd := some r.1 }))
    | some c => Outcome.ret (c, p)).bind (fun c =>
  if path.head? = some '/' then c.2.iget_root K
  else (c.2.idup c.1).bind (fun p2 => Outcome.ret (c.1, p2)))

/-- Embedding of `inode_or_parent_by_name(path, nameiparent, name)`: the start, then the
loop. -/
def inode_or_parent_by_name (K : Consts) (DIRSIZ : Nat) (p : PState) (path : List Char)
    (nameiparent : Bool) (name : List Char) : Outcome (Option Nat × List Char × PState) :=
  (namex_start K p path).bind (fun r =>
    namex_loop K DIRSIZ nameiparent (path.length + 1) r.2 r.1 path name)

/-- Embedding of `inode_by_name(path)`: the buffer is `char name[DIRSIZ] = {}`. -/
def inode_by_name (K : Consts) (DIRSIZ : Nat) (p : PState) (path : List Char) :
    Outcome (Option Nat × List Char × PState) :=
  inode_or_parent_by_name K DIRSIZ p path false (List.replicate DIRSIZ NUL)

/-- Embedding of `inode_parent_by_name(path, name)`. -/
def inode_parent_by_name (K : Consts) (DIRSIZ : Nat) (p : PState) (path name : List Char) :
    Outcome (Option Nat × List Char × PState) :=
  inode_or_parent_by_name K DIRSIZ p path true name

/-- A path given by its components, in the words of the specification: each component is
followed by the run of `/` characters that separates it from the next one. -/
def path_of : List (List Char × List Char) → List Char
  | [] => []
  | x :: r => x.1 ++ x.2 ++ path_of r

/-- A component that `skipelem` copies whole: not empty, without `/` and NUL, shorter than
`DIRSIZ`. -/
def GoodName (DIRSIZ : Nat) (c : List Char) : Prop :=
  c ≠ [] ∧ (∀ x ∈ c, x ≠ '/') ∧ (∀ x ∈ c, x ≠ NUL) ∧ c.length < DIRSIZ

/-- The components of a path with their separators: every component is a good name, every
separator is a run of `/`, not empty unless it ends the path. -/
def GoodPath (DIRSIZ : Nat) : List (List Char × List Char) → Prop
  | [] => True
  | x :: r => GoodName DIRSIZ x.1 ∧ (∀ y ∈ x.2, y = '/') ∧ (r ≠ [] → x.2 ≠ []) ∧
      GoodPath DIRSIZ r

/-- The descent of the specification (§4.1, step 3) from the directory `ip` along a list of
names: lock the current inode, fail if it is not a directory, `dirlookup` the child, drop
the current inode, continue with the child.  The result is the inode reached, or NULL. -/
def descend (K : Consts) : PState → Nat → List (List Char) → Outcome (Option Nat × PState)
  | p, ip, [] => Outcome.ret (some ip, p)
  | p, ip, c :: cs =>
    (ilock p ip).bind (fun p1 =>
      if (p1.k.ino ip).type ≠ T_DIR then
        (iunlockput p1 ip).bind (fun p2 => Outcome.ret (none, p2))
      else
        (p1.dirlookup K ip (String.mk c)).bind (fun r =>
          (iunlockput r.2 ip).bind (fun p3 =>
            match r.1 with
            | none => Outcome.ret (none, p3)
            | some next => descend K p3 next cs)))

/-- The last step of the specification when the parent is wanted: lock the inode reached,
fail if it is not a directory, else return it "while dropping the lock but retaining the
ref". -/
def parent_step (p : PState) (d : Nat) : Outcome (Option Nat × PState) :=
  (ilock p d).bind (fun p1 =>
    if (p1.k.ino d).type ≠ T_DIR then
      (iunlockput p1 d).bind (fun p2 => Outcome.ret (none, p2))
    else (iunlock p1 d).bind (fun p2 => Outcome.ret (some d, p2)))

/-- The end of the resolution of a parent, after the descent: NULL stays NULL, the inode
reached goes through `parent_step`. -/
def parent_end (q : Option Nat × PState) : Outcome (Option Nat × PState) :=
  match q.1 with
  | none => Outcome.ret (none, q.2)
  | some d => parent_step q.2 d

/-- A kernel with the root directory open in inode slot 0 as working directory, on the
lower FS of `gBootL` (the directory `/d` with the file `/d/e`). -/
def pL0 : PState := { k := wL0, cwd := some 0 }

/-! ## Links -/

/-- The four bytes of an `int` in memory (little-endian). -/
def int_bytes (v : Nat) : Mem := fun i => if i < 4 then v / 256 ^ i % 256 else 0

/-- The bytes of a C string in memory: its characters, then NUL. -/
def cstring_bytes (p : String) : Mem := fun i => (p.data.map Char.toNat).getD i 0

/-- Embedding of `ilink(oldip, newip)`: the magic, then the path of `oldip` with its
terminating NUL, are written to the file of `newip`; then the cached pages of `newip` are
released.  Returns -1 when a `writei` does not return the number of bytes asked for. -/
def ilink (K : Consts) (PGSIZE : Nat) (s : KState) (oldip newip : Nat) : Option (Int × KState) :=
  let len := (s.ino oldip).path.length
  match writei PGSIZE s newip false (int_bytes K.SYMLINK_MAGIC) 0 4 with
  | none => none
  | some w1 =>
    if w1.1 ≠ 4 then some (-1, w1.2)
    else
      match writei PGSIZE w1.2 newip false (cstring_bytes (w1.2.ino oldip).path) 4 (len + 1) with
      | none => none
      | some w2 =>
        if w2.1 ≠ toInt32 (len + 1) then some (-1, w2.2)
        else
          match ctable_release PGSIZE w2.2 (some newip) with
          | none => none
          | some s3 => some (0, s3)

/-- A kernel with the root directory open in inode slot 0 and three free slots, two zeroed
cache slots, and a lower FS that holds the file `/a` with the five bytes of `"hello"`. -/
def wS0 : KState :=
  { inode := [wRoot, {}, {}, {}],
    cache := [{}, {}],
    lru := [none, none],
    disk := [("/", Node.dir), ("/a", Node.file 5 wHello)] }

/-- The state `wS0` after `a = dirlookup(root, "a")` (slot 1) and
`b = icreate(root, "b", T_FILE, 0, 0)` (slot 2). -/
def wS2 : KState :=
  ((dirlookup wK wS0 0 "a").bind
    (fun r => (icreate wK r.2 0 "b" T_FILE 0 0).map (fun q => q.2))).getD wS0

/-- Then after `ilink(a, b)`. -/
def wS3 : KState := ((ilink wK 4096 wS2 1 2).getD (0, wS2)).2

/-- Then after `dirlookup(root, "b")`, `b` being still open. -/
def wS4 : KState := ((dirlookup wK wS3 0 "b").getD (none, wS3)).2

/-- The state `wS3` after `iput(b)` and `dirlookup(root, "b")`. -/
def wS5 : KState :=
  ((iput wS3 2).bind (fun t => (dirlookup wK t 0 "b").map (fun r => r.2))).getD wS0

/-! ## Interrupt nesting (`os/lock.c`) -/

/-- The fields of `struct cpu` that `push_off` and `pop_off` use (`noff`, the nesting depth,
and `maintence`, the interrupt state saved by the outermost `push_off`), together with the
interrupt-enable bit of the hart (`intr`). -/
structure cpu where
  noff : Int := 0
  maintence : Int := 0
  intr : Bool := false
  deriving DecidableEq

/-- Reduction of an integer to the range of the C type `int` (two's complement, 32 bits). -/
def int32 (x : Int) : Int := (x + 2 ^ 31) % 2 ^ 32 - 2 ^ 31

/-- Modelled from the spec: `intr_get()` of `riscv.h` (not among the sources): non-zero iff
interrupts are enabled. -/
def intr_get (c : cpu) : Int := if c.intr then 1 else 0

/-- Modelled from the spec: `intr_off()` of `riscv.h`: disable interrupts. -/
def intr_off (c : cpu) : cpu := { c with intr := false }

/-- Modelled from the spec: `intr_on()` of `riscv.h`: enable interrupts. -/
def intr_on (c : cpu) : cpu := { c with intr := true }

/-- Embedding of `push_off()`: interrupts off; the outermost call saves the previous
interrupt state in `maintence`; `noff += 1`. -/
def push_off (c : cpu) : cpu :=
  let old := intr_get c
  let c1 := intr_off c
  let c2 := if c1.noff = 0 then { c1 with maintence := old } else c1
  { c2 with noff := int32 (c2.noff + 1) }

/-- Embedding of `pop_off()`: panics (`none`) when interrupts are enabled or `noff < 1`;
`noff -= 1`; interrupts are enabled again when the depth is back to 0 and `maintence` is
set. -/
def pop_off (c : cpu) : Option cpu :=
  if intr_get c ≠ 0 then none
  else if c.noff < 1 then none
  else
    let c1 := { c with noff := int32 (c.noff - 1) }
    if c1.noff = 0 ∧ c1.maintence ≠ 0 then some (intr_on c1) else some c1

/-- The state after `k` calls of `push_off`. -/
def push_n : Nat → cpu → cpu
  | 0, c => c
  | k + 1, c => push_off (push_n k c)

/-- The state after `k` calls of `pop_off`, `none` if one of them panics. -/
def pop_n : Nat → cpu → Option cpu
  | 0, c => some c
  | k + 1, c => (pop_n k c).bind pop_off

/-! ## The checks on `ref` -/

/-- One call of the inode layer or the page cache run to completion on the kernel state,
whoever the caller is and whatever references it holds; `none` is a panic. -/
def kstep (K : Consts) (PGSIZE : Nat) (s : KState) : Op → Option KState
  | Op.iget_root => (iget_root K s).map (fun r => r.2)
  | Op.dirlookup dp name => (dirlookup K s dp name).map (fun r => r.2)
  | Op.icreate dp name type major minor =>
    (icreate K s dp name type major minor).map (fun r => r.2)
  | Op.idup ip => some (idup s ip)
  | Op.iput ip => iput s ip
  | Op.acquire ip offset => (ctable_acquire PGSIZE s ip offset).map (fun r => r.2)
  | Op.release ip => ctable_release PGSIZE s ip

/-- A sequence of calls, each run to completion; `none` when one of them panics. -/
def krun (K : Consts) (PGSIZE : Nat) : List Op → KState → Option KState
  | [], s => some s
  | op :: ops, s =>
    match kstep K PGSIZE s op with
    | none => none
    | some s1 => krun K PGSIZE ops s1

/-- Every `ref` that was not negative in `s` is not negative in `s'`. -/
def RefsKept (s s' : KState) : Prop := ∀ j, 0 ≤ (s.ino j).ref → 0 ≤ (s'.ino j).ref

/-! ## Directory entries (`igetdents`) -/

/-- Modelled from the spec: what `f_readdir` reports of a directory entry (`FILINFO` of FatFs,
`ff.h` not among the sources): the name and the attribute bits. -/
structure FILINFO where
  fname : String := ""
  fattrib : Nat := 0
  deriving DecidableEq

/-- Modelled from the spec: the constants of the headers that `igetdents` uses and no source
file defines: `sizeof(struct linux_dirent64)`, the attribute bit `AM_DIR` and the type codes
`DT_DIR`, `DT_REG`. -/
structure DirentConsts where
  SIZEOF_DIRENT : Nat
  AM_DIR : Nat
  DT_DIR : Nat
  DT_REG : Nat

/-- Modelled from the spec: the name under which the path `q` is an entry of the directory
`dpath`, if it is one. -/
def child_name (dpath q : String) : Option String :=
  let pre := if dpath.back ≠ '/' then dpath ++ "/" else dpath
  if pre.data.isPrefixOf q.data then
    let rest := q.data.drop pre.data.length
    if rest ≠ [] ∧ '/' ∉ rest then some (String.mk rest) else none
  else none

/-- Modelled from the spec: the entries of the directory `dpath` of the lower FS, in the
order in which the directory cursor yields them (§6: "directory-entry iterator yielding
`(name, is_directory)`"). -/
def dir_entries (C : DirentConsts) (disk : List (String × Node)) (dpath : String) :
    List FILINFO :=
  disk.filterMap (fun e =>
    (child_name dpath e.1).map (fun n =>
      { fname := n,
        fattrib := match e.2 with
          | Node.dir => C.AM_DIR
          | Node.file _ _ => 0 }))

/-- Modelled from the spec: `f_readdir(&ip->dir, &fno)`: the entry at the cursor, which moves
on by one; at the end of the directory the name reported is empty and the cursor stays. -/
def f_readdir (C : DirentConsts) (s : KState) (ip : Nat) : FRESULT × FILINFO × KState :=
  let s1 := (s.fault.2).emit (Ev.f_readdir ip)
  if s.fault.1 then (FRESULT.FR_ERR, {}, s1)
  else
    match (dir_entries C s1.disk (s1.ino ip).path)[(s1.ino ip).dirPos]? with
    | none => (FRESULT.FR_OK, {}, s1)
    | some e =>
      (FRESULT.FR_OK, e, s1.setIno ip { s1.ino ip with dirPos := (s1.ino ip).dirPos + 1 })

/-- Little-endian store of the `n`-byte value `v` at byte `a`. -/
def store_le (m : Mem) (a n v : Nat) : Mem :=
  fun i => if a ≤ i ∧ i < a + n then v / 256 ^ (i - a) % 256 else m i

/-- Little-endian value of the `n` bytes at byte `a`. -/
def load_le (m : Mem) (a : Nat) : Nat → Nat
  | 0 => 0
  | n + 1 => m a + 256 * load_le m (a + 1) n

/-- The stores of one iteration of `igetdents` into the record at offset `off` of `buf`:
`d_ino` (`u64` at 0), `d_off` (`u64` at 8), `d_reclen` (`u16` at 16), `d_type` (`u8` at 18)
and the name with its NUL (`strcpy` to `d_name`, at 19), the layout of §6. -/
def write_dirent (C : DirentConsts) (buf : Mem) (off : Nat) (e : FILINFO) : Mem :=
  let namelen := e.fname.length
  let b1 := store_le buf off 8 0
  let b2 := store_le b1 (off + 8) 8 ((off + C.SIZEOF_DIRENT + namelen + 1) % 2 ^ 64)
  let b3 := store_le b2 (off + 16) 2 ((C.SIZEOF_DIRENT + namelen + 1) % 2 ^ 16)
  let b4 := store_le b3 (off + 18) 1
    ((if Nat.land e.fattrib C.AM_DIR ≠ 0 then C.DT_DIR else C.DT_REG) % 2 ^ 8)
  blit b4 (off + 19) (cstring_bytes e.fname) 0 (namelen + 1)

/-- The loop of `igetdents`.  `curr` is kept as the offset `(uint64)curr - (uint64)buf`,
`buf_addr` is the address `(uint64)buf`; the bound check is done on the addresses, in
`uint64`, and `curr` advances by the `u16` field `d_reclen`.  Every iteration that goes on
has moved the directory cursor, so `fuel` above the number of entries is never used up. -/
def igetdents_loop (C : DirentConsts) (dp buf_addr len : Nat) :
    Nat → KState → Mem → Nat → Int × Mem × KState
  | 0, s, buf, curr => (toInt32 curr, buf, s)
  | fuel + 1, s, buf, curr =>
    let r := f_readdir C s dp
    if r.1 ≠ FRESULT.FR_OK then (-1, buf, r.2.2)
    else if r.2.1.fname.length = 0 then (toInt32 curr, buf, r.2.2)
    else
      let namelen := r.2.1.fname.length
      if (buf_addr + curr + C.SIZEOF_DIRENT + namelen + 1) % 2 ^ 64 >
          (buf_addr + len) % 2 ^ 64 then
        (toInt32 curr, buf, r.2.2)
      else
        igetdents_loop C dp buf_addr len fuel r.2.2 (write_dirent C buf curr r.2.1)
          (curr + (C.SIZEOF_DIRENT + namelen + 1) % 2 ^ 16)

/-- Embedding of `igetdents(dp, buf, len)`: -1 for an inode that is not a directory, else
the loop.  Returns the `int` result, the buffer and the state. -/
def igetdents (C : DirentConsts) (s : KState) (dp : Nat) (buf : Mem) (buf_addr len : Nat) :
    Int × Mem × KState :=
  if (s.ino dp).type ≠ T_DIR then (-1, buf, s)
  else
    igetdents_loop C dp buf_addr len
      ((dir_entries C s.disk (s.ino dp).path).length + 1) s buf 0

/-- The length of the record of an entry: `sizeof(struct linux_dirent64) + strlen(name) + 1`. -/
def rec_len (C : DirentConsts) (e : FILINFO) : Nat := C.SIZEOF_DIRENT + e.fname.length + 1

/-- The total size of the records of a list of entries. -/
def total_len (C : DirentConsts) (es : List FILINFO) : Nat := (es.map (rec_len C)).sum

/-- The number of leading entries of `es` whose records fit one after the other between
offset `off` and `len`. -/
def fit_count (C : DirentConsts) (len : Nat) : Nat → List FILINFO → Nat
  | _, [] => 0
  | off, e :: es =>
    if off + rec_len C e > len then 0 else fit_count C len (off + rec_len C e) es + 1

/-- The buffer after the records of the entries `es` have been written one after the other
from offset `off`. -/
def write_dirents (C : DirentConsts) : Mem → Nat → List FILINFO → Mem
  | buf, _, [] => buf
  | buf, off, e :: es => write_dirents C (write_dirent C buf off e) (off + rec_len C e) es

/-- Between the two states the cursor of the directory `dp` has moved on by `n` entries in
`m` calls of `f_readdir`, and nothing else has changed. -/
def Walked (dp n m : Nat) (s s' : KState) : Prop :=
  s'.NINODE = s.NINODE ∧
  s'.ino dp = { s.ino dp with dirPos := (s.ino dp).dirPos + n } ∧
  (∀ j, j ≠ dp → s'.ino j = s.ino j) ∧
  s'.cache = s.cache ∧ s'.lru = s.lru ∧ s'.disk = s.disk ∧ s'.faults = s.faults ∧
  s'.log = s.log ++ List.replicate m (Ev.f_readdir dp)

/-- The entries the cursor of the directory `dp` has yet to yield. -/
def entries_left (C : DirentConsts) (s : KState) (dp : Nat) : List FILINFO :=
  (dir_entries C s.disk (s.ino dp).path).drop (s.ino dp).dirPos

/-- The constants used to exercise `igetdents`: a header of 24 bytes, `AM_DIR` = 0x10,
`DT_DIR` = 4, `DT_REG` = 8. -/
def wDC : DirentConsts := { SIZEOF_DIRENT := 24, AM_DIR := 16, DT_DIR := 4, DT_REG := 8 }

/-- A kernel with the root directory open in inode slot 0, whose lower FS holds the file
`/a`, the directory `/bb` with the file `/bb/x`, and the file `/c`. -/
def wG0 : KState :=
  { inode := [wRoot, {}],
    cache := [{}, {}],
    lru := [none, none],
    disk := [("/", Node.dir), ("/a", Node.file 0 zeroMem), ("/bb", Node.dir),
             ("/bb/x", Node.file 0 zeroMem), ("/c", Node.file 0 zeroMem)] }

/-- The state `wG0` after `igetdents(root, buf, 30)`. -/
def wG1 : KState := (igetdents wDC wG0 0 zeroMem 4096 30).2.2

/-- Then after a second `igetdents(root, buf, 30)`. -/
def wG2 : KState := (igetdents wDC wG1 0 zeroMem 4096 30).2.2

/-! ## Calls by any caller, and the range of `ref` -/

/-- No `ref` of `s'` exceeds the `ref` of the same slot in `s` by more than `d`. -/
def RefsBy (d : Int) (s s' : KState) : Prop := ∀ j, (s'.ino j).ref ≤ (s.ino j).ref + d

theorem getD_set_eq {α : Type} (l : List α) (i j : Nat) (v d : α) :
    (l.set i v).getD j d = if i = j ∧ i < l.length then v else l.getD j d := by
  simp only [List.getD_eq_getElem?_getD, List.getElem?_set]
  by_cases h : i = j
  · subst h
    by_cases h2 : i < l.length
    · simp [h2]
    · simp [h2, List.getElem?_eq_none (Nat.le_of_not_lt h2)]
  · simp [h]

theorem shift_up_getElem? (l : List (Option Nat)) (i k : Nat) :
    (shift_up l i)[k]? =
      if k = 0 then l[0]? else if k ≤ i ∧ k < l.length then l[k - 1]? else l[k]? := by
  induction i generalizing l with
  | zero =>
    simp only [shift_up]
    by_cases hk : k = 0
    · simp [hk]
    · simp [hk]
  | succ j ih =>
    simp only [shift_up]
    rw [ih]
    simp only [List.length_set, List.getElem?_set, List.getD_eq_getElem?_getD]
    by_cases hk : k = 0
    · subst hk; simp
    · simp only [hk, if_false]
      by_cases h1 : k ≤ j ∧ k < l.length
      · have : ¬ (j + 1 = k - 1) := by omega
        have h2 : k ≤ j + 1 ∧ k < l.length := ⟨by omega, h1.2⟩
        simp [h1, this, h2]
      · simp only [h1, if_false]
        by_cases h3 : j + 1 = k
        · subst h3
          by_cases h4 : j + 1 < l.length
          · have hj : j < l.length := by omega
            simp [h4, List.getElem?_eq_getElem hj]
          · simp [h4]; omega
        · have : ¬ (k ≤ j + 1 ∧ k < l.length) := by
            intro h; apply h1; exact ⟨by omega, h.2⟩
          simp [h3, this]

theorem length_shift_up (l : List (Option Nat)) (i : Nat) : (shift_up l i).length = l.length := by
  induction i generalizing l with
  | zero => rfl
  | succ j ih => simp [shift_up, ih]

theorem shift_up_set_zero (l : List (Option Nat)) (i : Nat) (x : Option Nat) (hi : i < l.length) :
    (shift_up l i).set 0 x = x :: l.eraseIdx i := by
  apply List.ext_getElem?
  intro k
  rw [List.getElem?_set, shift_up_getElem?]
  cases k with
  | zero =>
    have hl : 0 < (shift_up l i).length := by
      rw [length_shift_up]; omega
    simp [hl]
  | succ m =>
    simp only [List.getElem?_cons_succ, List.getElem?_eraseIdx]
    have h0 : ¬ (0 = m + 1) := by omega
    simp only [h0, if_false, Nat.add_sub_cancel, Nat.succ_ne_zero]
    by_cases h1 : m < i
    · have : m + 1 ≤ i ∧ m + 1 < l.length := ⟨by omega, by omega⟩
      simp [h1, this]
    · have : ¬ (m + 1 ≤ i ∧ m + 1 < l.length) := by intro h; omega
      simp [h1, this]

theorem length_shift_down (l : List (Option Nat)) (k j : Nat) :
    (shift_down l k j).length = l.length := by
  induction k generalizing l j with
  | zero => rfl
  | succ k ih => simp [shift_down, ih]

theorem shift_down_getElem? (l : List (Option Nat)) (k j m : Nat) (h : j + k < l.length) :
    (shift_down l k j)[m]? = if j ≤ m ∧ m < j + k then l[m + 1]? else l[m]? := by
  induction k generalizing l j with
  | zero =>
    simp only [shift_down]
    have : ¬ (j ≤ m ∧ m < j) := by omega
    simp [this]
  | succ k ih =>
    simp only [shift_down]
    rw [ih _ _ (by simp; omega)]
    simp only [List.getElem?_set, List.length_set, List.getD_eq_getElem?_getD]
    by_cases h1 : j + 1 ≤ m ∧ m < j + 1 + k
    · have h2 : j ≤ m ∧ m < j + (k + 1) := by omega
      have h3 : ¬ (j = m + 1) := by omega
      simp [h1, h2, h3]
    · simp only [h1, if_false]
      by_cases h4 : j = m
      · subst h4
        have h5 : j < l.length := by omega
        have h6 : j + 1 < l.length := by omega
        have h7 : j ≤ j ∧ j < j + (k + 1) := by omega
        simp [h5, h7, List.getElem?_eq_getElem h6]
      · have h8 : ¬ (j ≤ m ∧ m < j + (k + 1)) := by omega
        simp [h4, h8]

theorem shift_down_compact (l : List (Option Nat)) (i : Nat) (hi : i < l.length) :
    (shift_down l (l.length - 1 - i) i).set (l.length - 1) none = l.eraseIdx i ++ [none] := by
  apply List.ext_getElem?
  intro m
  rw [List.getElem?_set, shift_down_getElem? _ _ _ _ (by omega), length_shift_down,
    List.getElem?_append, List.getElem?_eraseIdx, List.length_eraseIdx_of_lt hi]
  by_cases h1 : l.length - 1 = m
  · subst h1
    have : l.length - 1 < l.length := by omega
    simp [this]
  · simp only [h1, if_false]
    by_cases h2 : m < l.length - 1
    · simp only [h2, if_true]
      by_cases h3 : m < i
      · have : ¬ (i ≤ m ∧ m < i + (l.length - 1 - i)) := by omega
        simp [h3, this]
      · have : (i ≤ m ∧ m < i + (l.length - 1 - i)) := by omega
        simp [h3, this]
    · have : ¬ (i ≤ m ∧ m < i + (l.length - 1 - i)) := by omega
      simp only [h2, this, if_false]
      have h4 : l.length ≤ m := by omega
      rw [List.getElem?_eq_none h4]
      have : 1 ≤ m - (l.length - 1) := by omega
      simp
      omega


section accessors
variable (s : KState)

@[simp] theorem emit_cache (e : Ev) : (s.emit e).cache = s.cache := rfl
@[simp] theorem emit_lru (e : Ev) : (s.emit e).lru = s.lru := rfl
@[simp] theorem emit_inode (e : Ev) : (s.emit e).inode = s.inode := rfl
@[simp] theorem emit_disk (e : Ev) : (s.emit e).disk = s.disk := rfl
@[simp] theorem emit_faults (e : Ev) : (s.emit e).faults = s.faults := rfl
@[simp] theorem emit_log (e : Ev) : (s.emit e).log = s.log ++ [e] := rfl
@[simp] theorem emit_ino (e : Ev) (i : Nat) : (s.emit e).ino i = s.ino i := rfl
@[simp] theorem emit_slot (e : Ev) (c : Nat) : (s.emit e).slot c = s.slot c := rfl
@[simp] theorem emit_NCACHE (e : Ev) : (s.emit e).NCACHE = s.NCACHE := rfl

@[simp] theorem fault_cache : s.fault.2.cache = s.cache := by
  unfold KState.fault; split <;> rfl
@[simp] theorem fault_lru : s.fault.2.lru = s.lru := by
  unfold KState.fault; split <;> rfl
@[simp] theorem fault_inode : s.fault.2.inode = s.inode := by
  unfold KState.fault; split <;> rfl
@[simp] theorem fault_disk : s.fault.2.disk = s.disk := by
  unfold KState.fault; split <;> rfl
@[simp] theorem fault_log : s.fault.2.log = s.log := by
  unfold KState.fault; split <;> rfl
@[simp] theorem fault_ino (i : Nat) : s.fault.2.ino i = s.ino i := by
  simp [KState.ino]
@[simp] theorem fault_slot (c : Nat) : s.fault.2.slot c = s.slot c := by
  simp [KState.slot]
@[simp] theorem fault_NCACHE : s.fault.2.NCACHE = s.NCACHE := by
  simp [KState.NCACHE]
theorem fault_nil (h : s.faults = []) : s.fault = (false, s) := by
  unfold KState.fault; rw [h]

@[simp] theorem setIno_cache (i : Nat) (v : inode) : (s.setIno i v).cache = s.cache := rfl
@[simp] theorem setIno_lru (i : Nat) (v : inode) : (s.setIno i v).lru = s.lru := rfl
@[simp] theorem setIno_disk (i : Nat) (v : inode) : (s.setIno i v).disk = s.disk := rfl
@[simp] theorem setIno_faults (i : Nat) (v : inode) : (s.setIno i v).faults = s.faults := rfl
@[simp] theorem setIno_log (i : Nat) (v : inode) : (s.setIno i v).log = s.log := rfl
@[simp] theorem setIno_slot (i : Nat) (v : inode) (c : Nat) : (s.setIno i v).slot c = s.slot c := rfl
@[simp] theorem setIno_NCACHE (i : Nat) (v : inode) : (s.setIno i v).NCACHE = s.NCACHE := rfl
@[simp] theorem setIno_NINODE (i : Nat) (v : inode) : (s.setIno i v).NINODE = s.NINODE := by
  simp [KState.setIno, KState.NINODE]
theorem setIno_ino (i : Nat) (v : inode) (j : Nat) :
    (s.setIno i v).ino j = if i = j ∧ i < s.NINODE then v else s.ino j := by
  simp only [KState.setIno, KState.ino, KState.NINODE]
  exact getD_set_eq _ _ _ _ _

@[simp] theorem setSlot_inode (c : Nat) (v : page_cache) : (s.setSlot c v).inode = s.inode := rfl
@[simp] theorem setSlot_lru (c : Nat) (v : page_cache) : (s.setSlot c v).lru = s.lru := rfl
@[simp] theorem setSlot_disk (c : Nat) (v : page_cache) : (s.setSlot c v).disk = s.disk := rfl
@[simp] theorem setSlot_faults (c : Nat) (v : page_cache) : (s.setSlot c v).faults = s.faults := rfl
@[simp] theorem setSlot_log (c : Nat) (v : page_cache) : (s.setSlot c v).log = s.log := rfl
@[simp] theorem setSlot_ino (c : Nat) (v : page_cache) (i : Nat) : (s.setSlot c v).ino i = s.ino i := rfl
@[simp] theorem setSlot_NCACHE (c : Nat) (v : page_cache) : (s.setSlot c v).NCACHE = s.NCACHE := by
  simp [KState.setSlot, KState.NCACHE]
theorem setSlot_slot (c : Nat) (v : page_cache) (c' : Nat) :
    (s.setSlot c v).slot c' = if c = c' ∧ c < s.NCACHE then v else s.slot c' := by
  simp only [KState.setSlot, KState.slot, KState.NCACHE]
  exact getD_set_eq _ _ _ _ _

@[simp] theorem setFile_cache (i : Nat) (f : FIL) : (s.setFile i f).cache = s.cache := rfl
@[simp] theorem setFile_lru (i : Nat) (f : FIL) : (s.setFile i f).lru = s.lru := rfl
@[simp] theorem setFile_disk (i : Nat) (f : FIL) : (s.setFile i f).disk = s.disk := rfl
@[simp] theorem setFile_faults (i : Nat) (f : FIL) : (s.setFile i f).faults = s.faults := rfl
@[simp] theorem setFile_log (i : Nat) (f : FIL) : (s.setFile i f).log = s.log := rfl
@[simp] theorem setFile_slot (i : Nat) (f : FIL) (c : Nat) : (s.setFile i f).slot c = s.slot c := rfl
@[simp] theorem setFile_NCACHE (i : Nat) (f : FIL) : (s.setFile i f).NCACHE = s.NCACHE := rfl
@[simp] theorem setFile_NINODE (i : Nat) (f : FIL) : (s.setFile i f).NINODE = s.NINODE := by
  simp [KState.setFile]
theorem setFile_ino (i : Nat) (f : FIL) (j : Nat) :
    (s.setFile i f).ino j = if i = j ∧ i < s.NINODE then { s.ino i with file := f } else s.ino j := by
  simp only [KState.setFile, setIno_ino]

theorem slot_default_of_ge (c : Nat) (h : s.NCACHE ≤ c) : s.slot c = {} := by
  simp only [KState.slot, KState.NCACHE] at *
  simp [List.getElem?_eq_none h]

theorem lt_of_valid (c : Nat) (h : (s.slot c).valid = true) : c < s.NCACHE := by
  by_contra hc
  rw [slot_default_of_ge s c (Nat.le_of_not_lt hc)] at h
  simp at h
end accessors


theorem SameC.refl_c (s : KState) : SameC s s := ⟨rfl, rfl⟩
theorem SameC.trans_c {a b c : KState} (h1 : SameC a b) (h2 : SameC b c) : SameC a c :=
  ⟨h2.1.trans h1.1, h2.2.trans h1.2⟩
theorem SameC.slot {s s' : KState} (h : SameC s s') (c : Nat) : s'.slot c = s.slot c := by
  simp [KState.slot, h.1]
theorem SameC.NCACHE {s s' : KState} (h : SameC s s') : s'.NCACHE = s.NCACHE := by
  simp [KState.NCACHE, h.1]
theorem SameC.lruAt {s s' : KState} (h : SameC s s') (i : Nat) : s'.lruAt i = s.lruAt i := by
  simp [KState.lruAt, h.2]

theorem sameC_emit (s : KState) (e : Ev) : SameC s (s.emit e) := ⟨rfl, rfl⟩
theorem sameC_fault (s : KState) : SameC s s.fault.2 := ⟨by simp, by simp⟩
theorem sameC_setIno (s : KState) (i : Nat) (v : inode) : SameC s (s.setIno i v) := ⟨rfl, rfl⟩
theorem sameC_setFile (s : KState) (i : Nat) (f : FIL) : SameC s (s.setFile i f) := ⟨rfl, rfl⟩

theorem sameC_f_lseek (s : KState) (ip ofs : Nat) : SameC s (f_lseek s ip ofs).2 := by
  unfold f_lseek; split <;> exact ⟨by simp, by simp⟩
theorem sameC_f_read (s : KState) (ip btr : Nat) : SameC s (f_read s ip btr).2.2.2 := by
  unfold f_read; split <;> exact ⟨by simp, by simp⟩
theorem sameC_f_write (s : KState) (ip : Nat) (buf : Mem) (btw : Nat) :
    SameC s (f_write s ip buf btw).2.2 := by
  unfold f_write; split <;> exact ⟨by simp, by simp⟩
theorem sameC_f_close (s : KState) (ip : Nat) : SameC s (f_close s ip).2 := by
  unfold f_close; dsimp only; split
  · exact ⟨by simp, by simp⟩
  · split <;> exact ⟨by simp, by simp⟩
theorem sameC_f_closedir (s : KState) (ip : Nat) : SameC s (f_closedir s ip).2 := by
  unfold f_closedir; split <;> exact ⟨by simp, by simp⟩
theorem sameC_f_unlink (s : KState) (p : String) : SameC s (f_unlink s p).2 := by
  unfold f_unlink; dsimp only; split
  · exact ⟨by simp, by simp⟩
  · split <;> exact ⟨by simp, by simp⟩
theorem sameC_f_rename (s : KState) (p q : String) : SameC s (f_rename s p q).2 := by
  unfold f_rename; dsimp only; split
  · exact ⟨by simp, by simp⟩
  · split <;> exact ⟨by simp, by simp⟩
theorem sameC_f_opendir (s : KState) (ip : Nat) (p : String) : SameC s (f_opendir s ip p).2 := by
  unfold f_opendir; dsimp only; split
  · exact ⟨by simp, by simp⟩
  · split <;> exact ⟨by simp, by simp⟩
theorem sameC_f_open (s : KState) (ip : Nat) (p : String) (cr : Bool) :
    SameC s (f_open s ip p cr).2 := by
  unfold f_open; dsimp only; split
  · exact ⟨by simp, by simp⟩
  · split <;> exact ⟨by simp, by simp⟩
theorem sameC_f_mkdir (s : KState) (p : String) : SameC s (f_mkdir s p).2 := by
  unfold f_mkdir; dsimp only; split
  · exact ⟨by simp, by simp⟩
  · split <;> exact ⟨by simp, by simp⟩
theorem sameC_idup (s : KState) (ip : Nat) : SameC s (idup s ip) := ⟨rfl, rfl⟩

theorem sameC_iput_close (s : KState) (ip : Nat) : SameC s (iput_close s ip).2 := by
  unfold iput_close; split
  · exact sameC_f_closedir _ _
  · exact sameC_f_close _ _

theorem sameC_iput_deferred {s s' : KState} {ip : Nat} (h : iput_deferred s ip = some s') :
    SameC s s' := by
  unfold iput_deferred at h
  split at h
  · cases h; exact sameC_f_unlink _ _
  · split at h
    · split at h
      · cases h
      · cases h; exact sameC_f_rename _ _ _
    · cases h; exact SameC.refl_c _

theorem sameC_iput_last {s s' : KState} {ip : Nat} (h : iput_last s ip = some s') :
    SameC s s' := by
  unfold iput_last at h
  split at h
  · cases h
  · exact SameC.trans_c (sameC_iput_close _ _) (sameC_iput_deferred h)

theorem sameC_iput {s s' : KState} {ip : Nat} (h : iput s ip = some s') : SameC s s' := by
  unfold iput at h
  split at h
  · split at h
    · cases h
    · rename_i s1 hs1
      cases h
      refine SameC.trans_c ?_ (sameC_setIno _ _ _)
      split at hs1
      · exact sameC_iput_last hs1
      · cases hs1; exact SameC.refl_c _
  · cases h

theorem sameC_writeback {PGSIZE : Nat} {s s' : KState} {c : Nat} {r : Int}
    (h : cache_writeback PGSIZE s c = some (r, s')) : SameC s s' := by
  unfold cache_writeback at h
  split at h
  · simp only at h
    split at h
    · cases h; exact sameC_f_lseek _ _ _
    · split at h <;> cases h <;>
        exact SameC.trans_c (sameC_f_lseek _ _ _) (sameC_f_write _ _ _ _)
  · cases h

theorem nodup_length_le {L : List Nat} {n : Nat} (hn : L.Nodup) (hb : ∀ x ∈ L, x < n) :
    L.length ≤ n := by
  have h1 : L.toFinset ⊆ Finset.range n := by
    intro x hx; simp at hx; simp; exact hb x hx
  have h2 := Finset.card_le_card h1
  rw [List.toFinset_card_of_nodup hn] at h2
  simpa using h2

theorem nodup_length_lt {L : List Nat} {n c : Nat} (hn : L.Nodup) (hb : ∀ x ∈ L, x < n)
    (hc : c < n) (hcL : c ∉ L) : L.length < n := by
  have h1 : L.toFinset ⊆ (Finset.range n).erase c := by
    intro x hx
    simp at hx
    simp only [Finset.mem_erase, Finset.mem_range]
    exact ⟨fun h => hcL (h ▸ hx), hb x hx⟩
  have h2 := Finset.card_le_card h1
  rw [List.toFinset_card_of_nodup hn, Finset.card_erase_of_mem (by simpa using hc)] at h2
  simp at h2
  omega

theorem lru_of_getElem? (n : Nat) (L : List Nat) (i : Nat) :
    (lru_of n L)[i]? =
      if i < L.length then L[i]?.map some else if i < n then some none else none := by
  unfold lru_of
  rw [List.getElem?_append]
  simp only [List.length_map, List.getElem?_map]
  by_cases h : i < L.length
  · simp [h]
  · simp only [h, if_false, List.getElem?_replicate]
    by_cases h2 : i < n
    · have : i - L.length < n - L.length := by omega
      simp [h2, this]
    · have : ¬ (i - L.length < n - L.length) := by omega
      simp [h2, this]

theorem lru_of_length (n : Nat) (L : List Nat) (h : L.length ≤ n) : (lru_of n L).length = n := by
  unfold lru_of; simp; omega

theorem lru_of_getD_some {n : Nat} {L : List Nat} {i c : Nat}
    (h : (lru_of n L).getD i none = some c) : i < L.length ∧ L[i]? = some c := by
  rw [List.getD_eq_getElem?_getD, lru_of_getElem?] at h
  by_cases h1 : i < L.length
  · refine ⟨h1, ?_⟩
    simp only [h1, if_true] at h
    rw [List.getElem?_eq_getElem h1] at h ⊢
    simpa using h
  · simp only [h1, if_false] at h
    split at h <;> simp at h

theorem lru_of_getD_last_none {n : Nat} {L : List Nat} (h : L.length < n) :
    (lru_of n L).getD (n - 1) none = none := by
  rw [List.getD_eq_getElem?_getD, lru_of_getElem?]
  have h1 : ¬ (n - 1 < L.length) := by omega
  have h2 : n - 1 < n := by omega
  simp [h1, h2]

theorem lru_of_compact (n : Nat) (L : List Nat) (i : Nat) (hi : i < L.length) (hL : L.length ≤ n) :
    (lru_of n L).eraseIdx i ++ [none] = lru_of n (L.eraseIdx i) := by
  apply List.ext_getElem?
  intro m
  have hlen : ((lru_of n L).eraseIdx i).length = n - 1 := by
    rw [List.length_eraseIdx_of_lt (by rw [lru_of_length n L hL]; omega), lru_of_length n L hL]
  rw [List.getElem?_append, hlen, List.getElem?_eraseIdx, lru_of_getElem?, lru_of_getElem?,
    lru_of_getElem?, List.length_eraseIdx_of_lt hi, List.getElem?_eraseIdx]
  by_cases h1 : m < n - 1
  · simp only [h1, if_true]
    by_cases h2 : m < i
    · have : m < L.length := by omega
      have h3 : m < L.length - 1 := by omega
      simp [h2, this, h3]
    · simp only [h2, if_false]
      by_cases h3 : m + 1 < L.length
      · have h4 : m < L.length - 1 := by omega
        simp [h3, h4]
      · have h4 : ¬ (m < L.length - 1) := by omega
        have h5 : m + 1 < n := by omega
        have h6 : m < n := by omega
        simp [h3, h4, h5, h6]
  · have h4 : ¬ (m < L.length - 1) := by omega
    simp only [h1, h4, if_false]
    by_cases h5 : m < n
    · have : m - (n - 1) = 0 := by omega
      simp [h5, this]
    · have : m - (n - 1) ≠ 0 := by omega
      have h6 : 1 ≤ m - (n - 1) := by omega
      simp [h5, h6]

theorem lru_of_push (n : Nat) (L : List Nat) (c i : Nat) (hi : i < n) (_hL : L.length ≤ n)
    (hi2 : L.length ≤ i → L.length < n ∧ i = n - 1) :
    some c :: (lru_of n L).eraseIdx i = lru_of n (c :: L.eraseIdx i) := by
  apply List.ext_getElem?
  intro m
  rw [lru_of_getElem?]
  cases m with
  | zero => simp
  | succ m =>
    simp only [List.getElem?_cons_succ, List.length_cons, List.getElem?_eraseIdx,
      lru_of_getElem?, List.length_eraseIdx]
    by_cases hiL : i < L.length
    · simp only [hiL, if_true]
      by_cases h2 : m < i
      · have h3 : m < L.length := by omega
        have h4 : m + 1 < L.length - 1 + 1 := by omega
        simp [h2, h3, h4]
      · simp only [h2, if_false]
        by_cases h3 : m + 1 < L.length
        · have h4 : m + 1 < L.length - 1 + 1 := by omega
          simp [h3, h4]
        · have h4 : ¬ (m + 1 < L.length - 1 + 1) := by omega
          simp [h3, h4]
    · obtain ⟨h5, h6⟩ := hi2 (by omega)
      simp only [hiL, if_false]
      by_cases h2 : m < i
      · simp only [h2, if_true]
        by_cases h3 : m < L.length
        · simp [h3]
        · have : m < n := by omega
          have h7 : m + 1 < n := by omega
          simp [h3, this, h7]
      · have h3 : ¬ (m + 1 < L.length) := by omega
        have h4 : ¬ (m + 1 < n) := by omega
        have h8 : ¬ (m < L.length) := by omega
        simp [h2, h3, h4, h8]

theorem findIdx_map_some_append (L : List Nat) (R : List (Option Nat)) (c : Nat) (hc : c ∈ L) :
    (L.map some ++ R).findIdx (fun e => decide (e = some c)) = L.indexOf c := by
  induction L with
  | nil => simp at hc
  | cons a t ih =>
    by_cases h : a = c
    · subst h; simp [List.findIdx_cons]
    · have hc' : c ∈ t := by
        rcases List.mem_cons.mp hc with h1 | h1
        · exact absurd h1.symm h
        · exact h1
      rw [List.indexOf_cons_ne _ h]
      simp only [List.map_cons, List.cons_append, List.findIdx_cons]
      simp only [Option.some.injEq, h, decide_False, cond_false]
      rw [ih hc']

theorem findIdx_lru_of (n : Nat) (L : List Nat) (c : Nat) (hc : c ∈ L) :
    (lru_of n L).findIdx (fun e => decide (e = some c)) = L.indexOf c :=
  findIdx_map_some_append L _ c hc

theorem findIdx_lru_of_not_mem (n : Nat) (L : List Nat) (c : Nat) (hc : c ∉ L) :
    (lru_of n L).findIdx (fun e => decide (e = some c)) = (lru_of n L).length := by
  rw [List.findIdx_eq_length]
  intro x hx
  unfold lru_of at hx
  simp only [List.mem_append, List.mem_map, List.mem_replicate] at hx
  rcases hx with ⟨a, ha, rfl⟩ | ⟨_, rfl⟩
  · simp; intro h; exact hc (h ▸ ha)
  · simp

theorem slot_of_cache_set {s s' : KState} {c : Nat} {v : page_cache}
    (h : s'.cache = s.cache.set c v) (c' : Nat) :
    s'.slot c' = if c = c' ∧ c < s.NCACHE then v else s.slot c' := by
  simp only [KState.slot, KState.NCACHE, h]
  exact getD_set_eq _ _ _ _ _

theorem NCACHE_of_cache_set {s s' : KState} {c : Nat} {v : page_cache}
    (h : s'.cache = s.cache.set c v) : s'.NCACHE = s.NCACHE := by
  simp [KState.NCACHE, h]

theorem LruRep.lt {s : KState} {L : List Nat} (h : LruRep s L) {c : Nat} (hc : c ∈ L) :
    c < s.NCACHE := lt_of_valid s c ((h.2.2 c).mp hc)

theorem LruRep.length_le {s : KState} {L : List Nat} (h : LruRep s L) : L.length ≤ s.NCACHE :=
  nodup_length_le h.2.1 (fun _ hx => h.lt hx)

theorem LruRep.lru_length {s : KState} {L : List Nat} (h : LruRep s L) :
    s.lru.length = s.NCACHE := by
  rw [h.1, lru_of_length _ _ h.length_le]

theorem LruRep.of_lruAt {s : KState} {L : List Nat} (h : LruRep s L) {i c : Nat}
    (hi : s.lruAt i = some c) : i < L.length ∧ L[i]? = some c ∧ c ∈ L := by
  unfold KState.lruAt at hi
  rw [h.1] at hi
  obtain ⟨h1, h2⟩ := lru_of_getD_some hi
  exact ⟨h1, h2, List.getElem?_mem h2⟩

theorem LruRep.congr_rep {s s' : KState} {L : List Nat} (h : LruRep s L) (hc : SameC s s') :
    LruRep s' L := by
  refine ⟨?_, h.2.1, ?_⟩
  · rw [hc.2, hc.NCACHE, h.1]
  · intro c; rw [hc.slot]; exact h.2.2 c

theorem KeysUnique.congr_keys {s s' : KState} (h : KeysUnique s) (hc : SameC s s') : KeysUnique s' := by
  intro c c'
  rw [hc.slot, hc.slot]
  exact h c c'

theorem CInv.congr {s s' : KState} (h : CInv s) (hc : SameC s s') : CInv s' := by
  obtain ⟨⟨L, hL⟩, hk⟩ := h
  exact ⟨⟨L, hL.congr_rep hc⟩, hk.congr_keys hc⟩

/-- Shape of a successful `evict_at`. -/
theorem evict_at_shape {PGSIZE : Nat} {s s' : KState} {i c : Nat} {r : Int}
    (h : evict_at PGSIZE s i c = some (r, s')) :
    r = 0 ∧ s'.cache = s.cache.set c {} ∧
      s'.lru = (shift_down s.lru (s.NCACHE - 1 - i) i).set (s.NCACHE - 1) none := by
  unfold evict_at at h
  dsimp only at h
  split at h
  · cases h
  · rename_i s1 hs1
    have h1 : SameC s s1 := by
      split at hs1
      · split at hs1
        · rename_i r1 s1' hw
          split at hs1
          · cases hs1
          · cases hs1
            exact SameC.trans_c (sameC_emit _ _) (sameC_writeback hw)
        · cases hs1
      · cases hs1; exact sameC_emit _ _
    split at h
    · cases h
    · split at h
      · cases h
      · rename_i h' hh s3 hs3
        cases h
        have h3 : SameC s s3 := SameC.trans_c h1 (SameC.trans_c (sameC_emit _ _) (sameC_iput hs3))
        refine ⟨rfl, ?_, ?_⟩
        · simp [lru_compact, KState.setSlot, h3.1]
        · simp [lru_compact, KState.setSlot, h3.2, KState.NCACHE, h3.1]

theorem eraseIdx_eq_erase_of_nodup {L : List Nat} {i c : Nat} (hn : L.Nodup)
    (h : L[i]? = some c) : L.eraseIdx i = L.erase c := by
  have hi : i < L.length := by
    by_contra hc; rw [List.getElem?_eq_none (Nat.le_of_not_lt hc)] at h; cases h
  have : L.indexOf c = i := by
    rw [List.getElem?_eq_getElem hi] at h
    have h2 : L[i] = c := by simpa using h
    rw [← h2]
    exact List.indexOf_getElem hn i hi
  rw [← this, List.eraseIdx_indexOf_eq_erase]

theorem LruRep.evict_rep {s s' : KState} {L : List Nat} {i c : Nat} (h : LruRep s L)
    (hi : s.lruAt i = some c)
    (hc : s'.cache = s.cache.set c {})
    (hl : s'.lru = (shift_down s.lru (s.NCACHE - 1 - i) i).set (s.NCACHE - 1) none) :
    LruRep s' (L.erase c) := by
  obtain ⟨hiL, hLi, hcL⟩ := h.of_lruAt hi
  have hn : s'.NCACHE = s.NCACHE := NCACHE_of_cache_set hc
  refine ⟨?_, h.2.1.erase c, ?_⟩
  · rw [hl, hn]
    have hlen := h.lru_length
    rw [← hlen, shift_down_compact _ _ (by rw [hlen]; have := h.length_le; omega), hlen, h.1,
      lru_of_compact _ _ _ hiL h.length_le, eraseIdx_eq_erase_of_nodup h.2.1 hLi]
  · intro c'
    rw [h.2.1.mem_erase_iff, slot_of_cache_set hc]
    by_cases hcc : c = c'
    · subst hcc
      simp [h.lt hcL]
    · have : ¬ (c = c' ∧ c < s.NCACHE) := fun hh => hcc hh.1
      rw [if_neg this, h.2.2 c']
      constructor
      · exact fun hh => hh.2
      · exact fun hh => ⟨fun e => hcc e.symm, hh⟩

theorem KeysUnique.clear {s s' : KState} {c : Nat} (h : KeysUnique s)
    (hc : s'.cache = s.cache.set c {}) : KeysUnique s' := by
  intro a b ha hb
  rw [slot_of_cache_set hc] at ha hb ⊢
  rw [slot_of_cache_set hc b]
  split at ha
  · simp at ha
  · rename_i h1
    split at hb
    · simp at hb
    · rename_i h2
      rw [if_neg h1, if_neg h2]
      exact h a b ha hb

theorem CInv.evict_at {PGSIZE : Nat} {s s' : KState} {i c : Nat} {r : Int} (h : CInv s)
    (hi : s.lruAt i = some c) (he : evict_at PGSIZE s i c = some (r, s')) : CInv s' := by
  obtain ⟨⟨L, hL⟩, hk⟩ := h
  obtain ⟨_, hc, hl⟩ := evict_at_shape he
  exact ⟨⟨_, hL.evict_rep hi hc hl⟩, hk.clear hc⟩

/-- What `evict_scan` does: nothing (no entry below `k` is evictable), or `evict_at` on the
evictable entry of greatest index below `k`. -/
theorem evict_scan_cases {PGSIZE : Nat} {s s' : KState} {k : Nat} {r : Int}
    (h : evict_scan PGSIZE s k = some (r, s')) :
    (r = -1 ∧ s' = s ∧
      ∀ i, i < k → ∀ c, s.lruAt i = some c → get_physical_page_ref (s.slot c).page ≠ 1) ∨
    (∃ i c, i < k ∧ s.lruAt i = some c ∧ get_physical_page_ref (s.slot c).page = 1 ∧
      (∀ j, i < j → j < k → ∀ c', s.lruAt j = some c' →
        get_physical_page_ref (s.slot c').page ≠ 1) ∧
      evict_at PGSIZE s i c = some (r, s')) := by
  induction k with
  | zero =>
    simp only [evict_scan] at h
    cases h
    exact Or.inl ⟨rfl, rfl, fun i hi => absurd hi (Nat.not_lt_zero i)⟩
  | succ k ih =>
    simp only [evict_scan] at h
    split at h
    · rename_i c hc
      split at h
      · rename_i href
        exact Or.inr ⟨k, c, Nat.lt_succ_self k, hc, href,
          fun j h1 h2 => absurd h2 (by omega), h⟩
      · rename_i href
        rcases ih h with ⟨h1, h2, h3⟩ | ⟨i, c', h1, h2, h3, h4, h5⟩
        · refine Or.inl ⟨h1, h2, fun i hi c' hc' => ?_⟩
          by_cases hik : i = k
          · subst hik; rw [hc] at hc'; cases hc'; exact href
          · exact h3 i (by omega) c' hc'
        · refine Or.inr ⟨i, c', by omega, h2, h3, fun j hj1 hj2 c'' hc'' => ?_, h5⟩
          by_cases hjk : j = k
          · subst hjk; rw [hc] at hc''; cases hc''; exact href
          · exact h4 j hj1 (by omega) c'' hc''
    · rename_i hnone
      rcases ih h with ⟨h1, h2, h3⟩ | ⟨i, c', h1, h2, h3, h4, h5⟩
      · refine Or.inl ⟨h1, h2, fun i hi c' hc' => ?_⟩
        by_cases hik : i = k
        · subst hik; rw [hnone] at hc'; cases hc'
        · exact h3 i (by omega) c' hc'
      · refine Or.inr ⟨i, c', by omega, h2, h3, fun j hj1 hj2 c'' hc'' => ?_, h5⟩
        by_cases hjk : j = k
        · subst hjk; rw [hnone] at hc''; cases hc''
        · exact h4 j hj1 (by omega) c'' hc''

theorem CInv.evict {PGSIZE : Nat} {s s' : KState} {r : Int} (h : CInv s)
    (he : ctable_lru_evict PGSIZE s = some (r, s')) : CInv s' := by
  unfold ctable_lru_evict at he
  rcases evict_scan_cases he with ⟨_, h2, _⟩ | ⟨i, c, _, h2, _, _, h5⟩
  · rw [h2]; exact h
  · exact h.evict_at h2 h5

theorem find_slot_some {p : page_cache → Bool} {s : KState} {c : Nat}
    (h : find_slot p s = some c) :
    c < s.NCACHE ∧ p (s.slot c) = true ∧ ∀ j, j < c → p (s.slot j) = false := by
  unfold find_slot at h
  split at h
  · rename_i hlt
    cases h
    refine ⟨hlt, ?_, ?_⟩
    · have := List.findIdx_getElem (w := hlt)
      simpa [KState.slot, List.getElem?_eq_getElem hlt] using this
    · intro j hj
      have hjl : j < s.cache.length := by omega
      have := List.not_of_lt_findIdx hj
      simpa [KState.slot, List.getElem?_eq_getElem hjl] using this
  · cases h

theorem find_slot_none {p : page_cache → Bool} {s : KState}
    (h : find_slot p s = none) : ∀ c, c < s.NCACHE → p (s.slot c) = false := by
  unfold find_slot at h
  split at h
  · cases h
  · rename_i hge
    intro c hc
    have hc' : c < s.cache.length := hc
    have h1 : s.cache.findIdx p = s.cache.length := by
      have := @List.findIdx_le_length _ p s.cache
      omega
    rw [List.findIdx_eq_length] at h1
    have := h1 (s.cache[c]) (List.getElem_mem hc')
    simpa [KState.slot, List.getElem?_eq_getElem hc'] using this

theorem find_slot_congr {p : page_cache → Bool} {s s' : KState} (h : s'.cache = s.cache) :
    find_slot p s' = find_slot p s := by
  unfold find_slot; rw [h]

/-- Shape of `ctable_lru_add` when the last LRU entry is NULL. -/
theorem lru_add_shape {PGSIZE : Nat} {s s' : KState} {c : Nat} {x : Int}
    (hl : s.lruAt (s.NCACHE - 1) = none) (h : ctable_lru_add PGSIZE s c = some (x, s')) :
    x = 0 ∧ s' = { s with lru := (shift_up s.lru (s.NCACHE - 1)).set 0 (some c) } := by
  unfold ctable_lru_add at h
  simp only [hl, ne_eq, not_true_eq_false, if_false] at h
  cases h
  exact ⟨rfl, rfl⟩

/-- Shape of `fill_slot` on a slot of the table. -/
theorem fill_slot_shape {PGSIZE : Nat} {s s' : KState} {c ip offset : Nat} {r : Option Nat}
    (hc : c < s.NCACHE) (h : fill_slot PGSIZE s c ip offset = some (r, s')) :
    (r = none ∧ s'.cache = s.cache.set c {} ∧ s'.lru = s.lru) ∨
    (r = some c ∧ ∃ s2 pg x, s2.cache = s.cache.set c (claimed ip offset pg) ∧
      s2.lru = s.lru ∧ ctable_lru_add PGSIZE s2 c = some (x, s')) := by
  unfold fill_slot at h
  dsimp only at h
  generalize hs1 : ((alloc_physical_page s).2.setSlot c
      (claimed ip offset { ref := (alloc_physical_page s).1.ref, data := zeroMem })) = s1 at h
  have h1c : s1.cache = s.cache.set c
      (claimed ip offset { ref := (alloc_physical_page s).1.ref, data := zeroMem }) := by
    rw [← hs1]; simp [KState.setSlot, alloc_physical_page]
  have h1l : s1.lru = s.lru := by rw [← hs1]; simp [alloc_physical_page]
  have hn1 : s1.NCACHE = s.NCACHE := NCACHE_of_cache_set h1c
  split at h
  · -- seek failed
    cases h
    have hsc := sameC_f_lseek s1 ip offset
    refine Or.inl ⟨rfl, ?_, ?_⟩
    · simp [recycle_physical_page, KState.setSlot, hsc.1, h1c]
    · simp [recycle_physical_page, hsc.2, h1l]
  · have hsc := SameC.trans_c (sameC_f_lseek s1 ip offset) (sameC_f_read (f_lseek s1 ip offset).2 ip PGSIZE)
    generalize hrd : f_read (f_lseek s1 ip offset).2 ip PGSIZE = rd at h hsc
    have hslot : (rd.2.2.2.slot c) =
        claimed ip offset { ref := (alloc_physical_page s).1.ref, data := zeroMem } := by
      rw [hsc.slot, slot_of_cache_set h1c]; simp [hc]
    rw [hslot] at h
    simp only [claimed] at h
    split at h
    · cases h
      refine Or.inl ⟨rfl, ?_, ?_⟩
      · simp [recycle_physical_page, KState.setSlot, hsc.1, h1c]
      · simp [recycle_physical_page, hsc.2, h1l]
    · split at h
      · cases h
      · rename_i x s3 hadd
        cases h
        refine Or.inr ⟨rfl, _,
          { ref := (alloc_physical_page s).1.ref, data := blit zeroMem 0 rd.2.1 0 rd.2.2.1 },
          x, ?_, ?_, hadd⟩
        · simp [idup, KState.setSlot, hsc.1, h1c, claimed]
        · simp [idup, hsc.2, h1l]

theorem is_hit_iff (ip offset : Nat) (c : page_cache) :
    is_hit ip offset c = true ↔ c.valid = true ∧ c.host = some ip ∧ c.offset = offset := by
  simp [is_hit, and_assoc]

theorem LruRep.last_none {s : KState} {L : List Nat} (h : LruRep s L) {c : Nat}
    (hc : c < s.NCACHE) (hv : (s.slot c).valid = false) : s.lruAt (s.NCACHE - 1) = none := by
  have hcL : c ∉ L := by
    intro hm; have := (h.2.2 c).mp hm; rw [hv] at this; cases this
  have hlt : L.length < s.NCACHE := nodup_length_lt h.2.1 (fun _ hx => h.lt hx) hc hcL
  unfold KState.lruAt
  rw [h.1]
  exact lru_of_getD_last_none hlt

/-- A failed fill leaves the validity of every slot as it was. -/
theorem CInv.fill_fail {s s' : KState} {c : Nat} (h : CInv s) (hv : (s.slot c).valid = false)
    (hc : s'.cache = s.cache.set c {}) (hl : s'.lru = s.lru) : CInv s' := by
  obtain ⟨⟨L, hL⟩, hk⟩ := h
  refine ⟨⟨L, ?_, hL.2.1, ?_⟩, hk.clear hc⟩
  · rw [hl, NCACHE_of_cache_set hc]; exact hL.1
  · intro c'
    rw [slot_of_cache_set hc, hL.2.2 c']
    split
    · rename_i h1
      rw [← h1.1, hv]
    · rfl

/-- A successful fill of the invalid slot `c` with a key no valid slot holds. -/
theorem CInv.fill_ok {s s2 s' : KState} {c ip offset : Nat} {pg : PhysPage} (h : CInv s)
    (hcn : c < s.NCACHE) (hv : (s.slot c).valid = false)
    (hnohit : ∀ c', c' < s.NCACHE → is_hit ip offset (s.slot c') = false)
    (hc : s2.cache = s.cache.set c (claimed ip offset pg)) (hl : s2.lru = s.lru)
    (hs' : s' = { s2 with lru := (shift_up s2.lru (s2.NCACHE - 1)).set 0 (some c) }) :
    CInv s' := by
  obtain ⟨⟨L, hL⟩, hk⟩ := h
  have hcL : c ∉ L := by
    intro hm; have := (hL.2.2 c).mp hm; rw [hv] at this; cases this
  have hlt : L.length < s.NCACHE := nodup_length_lt hL.2.1 (fun _ hx => hL.lt hx) hcn hcL
  have hn2 : s2.NCACHE = s.NCACHE := NCACHE_of_cache_set hc
  have hslot : ∀ c', s'.slot c' = if c = c' ∧ c < s.NCACHE then claimed ip offset pg else s.slot c' := by
    intro c'
    rw [← slot_of_cache_set hc c', hs']
    rfl
  have hn' : s'.NCACHE = s.NCACHE := by rw [hs']; exact hn2
  refine ⟨⟨c :: L, ?_, List.nodup_cons.mpr ⟨hcL, hL.2.1⟩, ?_⟩, ?_⟩
  · rw [hn', hs']
    show (shift_up s2.lru (s2.NCACHE - 1)).set 0 (some c) = _
    have hlen : s.lru.length = s.NCACHE := hL.lru_length
    rw [hl, hn2, shift_up_set_zero _ _ _ (by rw [hlen]; omega), hL.1,
      lru_of_push _ _ _ _ (by omega) (by omega) (fun _ => ⟨hlt, rfl⟩),
      List.eraseIdx_of_length_le (by omega)]
  · intro c'
    rw [hslot, List.mem_cons, hL.2.2 c']
    by_cases hcc : c = c'
    · subst hcc; simp [hcn, claimed]
    · have : ¬ (c = c' ∧ c < s.NCACHE) := fun hh => hcc hh.1
      rw [if_neg this]
      constructor
      · rintro (h1 | h1)
        · exact absurd h1.symm hcc
        · exact h1
      · exact fun h1 => Or.inr h1
  · intro a b ha hb hh ho
    rw [hslot] at ha hb hh ho
    rw [hslot b] at hh ho
    by_cases h1 : c = a ∧ c < s.NCACHE
    · by_cases h2 : c = b ∧ c < s.NCACHE
      · rw [← h1.1, ← h2.1]
      · rw [if_neg h2] at hb
        rw [if_pos h1, if_neg h2] at hh ho
        have hb' := lt_of_valid s b hb
        have := hnohit b hb'
        rw [← Bool.not_eq_true, is_hit_iff] at this
        exact absurd ⟨hb, by simpa [claimed] using hh.symm, by simpa [claimed] using ho.symm⟩ this
    · rw [if_neg h1] at ha
      by_cases h2 : c = b ∧ c < s.NCACHE
      · rw [if_neg h1, if_pos h2] at hh ho
        have ha' := lt_of_valid s a ha
        have := hnohit a ha'
        rw [← Bool.not_eq_true, is_hit_iff] at this
        exact absurd ⟨ha, by simpa [claimed] using hh, by simpa [claimed] using ho⟩ this
      · rw [if_neg h2] at hb
        rw [if_neg h1, if_neg h2] at hh ho
        exact hk a b ha hb hh ho

theorem CInv.fill_slot {PGSIZE : Nat} {s s' : KState} {c ip offset : Nat} {r : Option Nat}
    (h : CInv s) (hcn : c < s.NCACHE) (hv : (s.slot c).valid = false)
    (hnohit : ∀ c', c' < s.NCACHE → is_hit ip offset (s.slot c') = false)
    (hf : fill_slot PGSIZE s c ip offset = some (r, s')) : CInv s' := by
  rcases fill_slot_shape hcn hf with ⟨_, hc, hl⟩ | ⟨_, s2, pg, x, hc, hl, hadd⟩
  · exact h.fill_fail hv hc hl
  · obtain ⟨⟨L, hL⟩, hk⟩ := h
    have hlast : s2.lruAt (s2.NCACHE - 1) = none := by
      have := hL.last_none hcn hv
      unfold KState.lruAt at this ⊢
      rw [hl, NCACHE_of_cache_set hc]; exact this
    obtain ⟨_, hs'⟩ := lru_add_shape hlast hadd
    exact CInv.fill_ok ⟨⟨L, hL⟩, hk⟩ hcn hv hnohit hc hl hs'

theorem LruRep.adjust_rep {s : KState} {L : List Nat} {c : Nat} (h : LruRep s L)
    (hv : (s.slot c).valid = true) :
    (ctable_lru_adjust s c).1 = 0 ∧ (ctable_lru_adjust s c).2.cache = s.cache ∧
      (ctable_lru_adjust s c).2.lru = lru_of s.NCACHE (c :: L.erase c) ∧
      (ctable_lru_adjust s c).2.lru = some c :: s.lru.eraseIdx (s.lru.findIdx (fun e => decide (e = some c))) ∧
      (ctable_lru_adjust s c).2 = { s with lru := (ctable_lru_adjust s c).2.lru } := by
  have hcL : c ∈ L := (h.2.2 c).mpr hv
  have hidx : s.lru.findIdx (fun e => decide (e = some c)) = L.indexOf c := by
    rw [h.1]; exact findIdx_lru_of _ _ _ hcL
  have hiL : L.indexOf c < L.length := List.indexOf_lt_length.mpr hcL
  have hLn := h.length_le
  have hlen := h.lru_length
  have hcond : L.indexOf c < s.NCACHE ∧ L.indexOf c < s.lru.length := ⟨by omega, by omega⟩
  have hdef : ctable_lru_adjust s c =
      (0, { s with lru := (shift_up s.lru (L.indexOf c)).set 0 (some c) }) := by
    unfold ctable_lru_adjust
    simp only [hidx, hcond, and_self, if_true]
  have hsh : (shift_up s.lru (L.indexOf c)).set 0 (some c) =
      some c :: s.lru.eraseIdx (L.indexOf c) := shift_up_set_zero _ _ _ (by omega)
  rw [hdef, hidx]
  refine ⟨rfl, rfl, ?_, hsh, rfl⟩
  show (shift_up s.lru (L.indexOf c)).set 0 (some c) = _
  rw [hsh, h.1, lru_of_push _ _ _ _ (by omega) hLn (fun hh => absurd hiL (by omega)),
    List.eraseIdx_indexOf_eq_erase]

theorem CInv.adjust {s : KState} {c : Nat} (h : CInv s) (hv : (s.slot c).valid = true) :
    CInv (ctable_lru_adjust s c).2 := by
  obtain ⟨⟨L, hL⟩, hk⟩ := h
  obtain ⟨_, hc, hl, _⟩ := hL.adjust_rep hv
  have hslot : ∀ c', (ctable_lru_adjust s c).2.slot c' = s.slot c' := by
    intro c'; simp [KState.slot, hc]
  have hn : (ctable_lru_adjust s c).2.NCACHE = s.NCACHE := by simp [KState.NCACHE, hc]
  refine ⟨⟨c :: L.erase c, ?_, ?_, ?_⟩, ?_⟩
  · rw [hl, hn]
  · exact List.nodup_cons.mpr ⟨fun hm => by
      rw [hL.2.1.mem_erase_iff] at hm; exact hm.1 rfl, hL.2.1.erase c⟩
  · intro c'
    rw [hslot, List.mem_cons, hL.2.1.mem_erase_iff, ← hL.2.2 c']
    by_cases hcc : c' = c
    · subst hcc; simp [(hL.2.2 c').mpr hv]
    · simp [hcc]
  · intro a b
    rw [hslot, hslot]
    exact hk a b

/-- `ctable_acquire` preserves the well-formedness of the cache table. -/
theorem CInv.acquire {PGSIZE : Nat} {s s' : KState} {ip offset : Nat} {r : Option Nat}
    (h : CInv s) (ha : ctable_acquire PGSIZE s ip offset = some (r, s')) : CInv s' := by
  unfold ctable_acquire at ha
  split at ha
  · cases ha
  · split at ha
    · rename_i c hc
      cases ha
      obtain ⟨_, hp, _⟩ := find_slot_some hc
      exact h.adjust ((is_hit_iff _ _ _).mp hp).1
    · rename_i hnone
      have hnohit := find_slot_none hnone
      split at ha
      · rename_i c hc
        obtain ⟨hcn, hp, _⟩ := find_slot_some hc
        exact h.fill_slot hcn (by simpa using hp) hnohit ha
      · split at ha
        · cases ha
        · rename_i x s1 hev
          have h1 : CInv s1 := h.evict hev
          have hnohit1 : ∀ c', c' < s1.NCACHE → is_hit ip offset (s1.slot c') = false := by
            unfold ctable_lru_evict at hev
            rcases evict_scan_cases hev with ⟨_, h2, _⟩ | ⟨i, c, _, _, _, _, h5⟩
            · rw [h2]; exact hnohit
            · obtain ⟨_, hc, _⟩ := evict_at_shape h5
              intro c' hc'
              rw [NCACHE_of_cache_set hc] at hc'
              rw [slot_of_cache_set hc]
              split
              · rfl
              · exact hnohit c' hc'
          split at ha
          · rename_i c hc
            obtain ⟨hcn, hp, _⟩ := find_slot_some hc
            exact h1.fill_slot hcn (by simpa using hp) hnohit1 ha
          · cases ha; exact h1

theorem LruRep.lruAt_indexOf {s : KState} {L : List Nat} (h : LruRep s L) {c : Nat}
    (hc : c ∈ L) : s.lruAt (L.indexOf c) = some c := by
  have hiL : L.indexOf c < L.length := List.indexOf_lt_length.mpr hc
  unfold KState.lruAt
  rw [h.1, List.getD_eq_getElem?_getD, lru_of_getElem?, if_pos hiL, List.getElem?_eq_getElem hiL]
  simp

/-- Shape of `release_slot`: either the slot does not match and nothing happens, or it is
torn down. -/
theorem release_slot_shape {PGSIZE : Nat} {s s' : KState} {ip : Option Nat} {c : Nat}
    (h : release_slot PGSIZE s ip c = some s') :
    (¬ ((s.slot c).valid = true ∧ ((s.slot c).host = ip ∨ ip = none)) ∧ s' = s) ∨
    (((s.slot c).valid = true ∧ ((s.slot c).host = ip ∨ ip = none)) ∧
      ∃ s3, SameC s s3 ∧ s' = (ctable_lru_remove (s3.setSlot c {}) c).2) := by
  unfold release_slot at h
  split at h
  · rename_i hcond
    dsimp only at h
    split at h
    · cases h
    · rename_i s1 hs1
      have h1 : SameC s s1 := by
        split at hs1
        · split at hs1
          · rename_i r1 s1' hw
            split at hs1
            · cases hs1
            · cases hs1
              exact sameC_writeback hw
          · cases hs1
        · cases hs1; exact SameC.refl_c _
      split at h
      · cases h
      · split at h
        · cases h
        · split at h
          · cases h
          · rename_i h' hh s3 hs3
            cases h
            exact Or.inr ⟨hcond, s3,
              SameC.trans_c h1 (SameC.trans_c (sameC_emit _ _) (sameC_iput hs3)), rfl⟩
  · rename_i hcond
    cases h
    exact Or.inl ⟨hcond, rfl⟩

theorem CInv.release_slot {PGSIZE : Nat} {s s' : KState} {ip : Option Nat} {c : Nat}
    (h : CInv s) (hr : release_slot PGSIZE s ip c = some s') : CInv s' := by
  rcases release_slot_shape hr with ⟨_, rfl⟩ | ⟨⟨hv, _⟩, s3, hsc, rfl⟩
  · exact h
  · obtain ⟨⟨L, hL⟩, hk⟩ := h
    have hcL : c ∈ L := (hL.2.2 c).mpr hv
    have hiL : L.indexOf c < L.length := List.indexOf_lt_length.mpr hcL
    have hLn := hL.length_le
    have hlen := hL.lru_length
    have hidx : (s3.setSlot c {}).lru.findIdx (fun e => decide (e = some c)) = L.indexOf c := by
      rw [setSlot_lru, hsc.2, hL.1]; exact findIdx_lru_of _ _ _ hcL
    have hn3 : (s3.setSlot c {}).NCACHE = s.NCACHE := by rw [setSlot_NCACHE, hsc.NCACHE]
    have hcond : L.indexOf c < (s3.setSlot c {}).NCACHE ∧
        L.indexOf c < (s3.setSlot c {}).lru.length := by
      rw [hn3, setSlot_lru, hsc.2, hlen]; omega
    have hdef : (ctable_lru_remove (s3.setSlot c {}) c).2 =
        lru_compact (s3.setSlot c {}) (L.indexOf c) := by
      unfold ctable_lru_remove
      simp only [hidx, hcond, and_self, if_true]
    rw [hdef]
    have hc' : (lru_compact (s3.setSlot c {}) (L.indexOf c)).cache = s.cache.set c {} := by
      simp [lru_compact, KState.setSlot, hsc.1]
    have hl' : (lru_compact (s3.setSlot c {}) (L.indexOf c)).lru =
        (shift_down s.lru (s.NCACHE - 1 - L.indexOf c) (L.indexOf c)).set (s.NCACHE - 1) none := by
      simp only [lru_compact, hn3, setSlot_lru, hsc.2]
    exact ⟨⟨_, hL.evict_rep (hL.lruAt_indexOf hcL) hc' hl'⟩, hk.clear hc'⟩

theorem CInv.release_loop {PGSIZE : Nat} {ip : Option Nat} (k c : Nat) {s s' : KState}
    (h : CInv s) (hr : release_loop PGSIZE ip k c s = some s') : CInv s' := by
  induction k generalizing c s with
  | zero => rw [UCore.release_loop] at hr; cases hr; exact h
  | succ k ih =>
    rw [UCore.release_loop] at hr
    split at hr
    · cases hr
    · rename_i s1 hs1
      exact ih (c + 1) (h.release_slot hs1) hr

/-- `ctable_release` preserves the well-formedness of the cache table. -/
theorem CInv.release {PGSIZE : Nat} {ip : Option Nat} {s s' : KState}
    (h : CInv s) (hr : ctable_release PGSIZE s ip = some s') : CInv s' :=
  h.release_loop _ _ hr

theorem CInv.zero {s : KState} (h : ZeroCache s) : CInv s := by
  have hslot : ∀ c, (s.slot c).valid = false := by
    intro c
    simp only [KState.slot, h.1, List.getD_eq_getElem?_getD, List.getElem?_replicate]
    split <;> rfl
  refine ⟨⟨[], ?_, List.nodup_nil, ?_⟩, ?_⟩
  · rw [h.2]; simp [lru_of]
  · intro c; simp [hslot c]
  · intro a b ha; rw [hslot a] at ha; cases ha

theorem CInv.cache_run {PGSIZE : Nat} (ops : List CacheOp) {s s' : KState} (h : CInv s)
    (hr : cache_run PGSIZE ops s = some s') : CInv s' := by
  induction ops generalizing s with
  | nil => rw [UCore.cache_run] at hr; cases hr; exact h
  | cons op ops ih =>
    rw [UCore.cache_run] at hr
    split at hr
    · cases hr
    · rename_i s1 hs1
      refine ih ?_ hr
      cases op with
      | acquire ip offset =>
        simp only [cache_step, Option.map_eq_some'] at hs1
        obtain ⟨⟨r, s2⟩, h1, h2⟩ := hs1
        cases h2
        exact h.acquire h1
      | release ip => exact h.release hs1

theorem acquire_hit {PGSIZE : Nat} {s : KState} {ip offset c : Nat}
    (halign : offset % PGSIZE = 0) (h : find_slot (is_hit ip offset) s = some c) :
    ctable_acquire PGSIZE s ip offset = some (some c, (ctable_lru_adjust s c).2) := by
  unfold ctable_acquire
  simp [halign, h]

theorem find_hit_of_exists {s : KState} {ip offset c0 : Nat}
    (h : is_hit ip offset (s.slot c0) = true) :
    ∃ c, find_slot (is_hit ip offset) s = some c := by
  cases hf : find_slot (is_hit ip offset) s with
  | some c => exact ⟨c, rfl⟩
  | none =>
    have := find_slot_none hf c0 (lt_of_valid s c0 ((is_hit_iff _ _ _).mp h).1)
    rw [h] at this; cases this

theorem find_hit_unique {s : KState} {ip offset c : Nat} (hk : KeysUnique s)
    (hv : (s.slot c).valid = true) (hh : (s.slot c).host = some ip)
    (ho : (s.slot c).offset = offset) : find_slot (is_hit ip offset) s = some c := by
  obtain ⟨c', hc'⟩ := @find_hit_of_exists s ip offset c ((is_hit_iff _ _ _).mpr ⟨hv, hh, ho⟩)
  obtain ⟨_, hp, _⟩ := find_slot_some hc'
  obtain ⟨hv', hh', ho'⟩ := (is_hit_iff _ _ _).mp hp
  rw [hc', hk c' c hv' hv (hh'.trans hh.symm) (ho'.trans ho.symm)]

theorem lruAt_eq_some_iff {s : KState} {L : List Nat} (h : LruRep s L) (i c : Nat) :
    s.lruAt i = some c ↔ L[i]? = some c := by
  constructor
  · exact fun hi => (h.of_lruAt hi).2.1
  · intro hi
    have hiL : i < L.length := by
      by_contra hc; rw [List.getElem?_eq_none (Nat.le_of_not_lt hc)] at hi; cases hi
    unfold KState.lruAt
    rw [h.1, List.getD_eq_getElem?_getD, lru_of_getElem?, if_pos hiL, hi]
    rfl

theorem lruAt_eq_none_iff {s : KState} {L : List Nat} (h : LruRep s L) (i : Nat) :
    s.lruAt i = none ↔ L.length ≤ i := by
  unfold KState.lruAt
  rw [h.1, List.getD_eq_getElem?_getD, lru_of_getElem?]
  by_cases hiL : i < L.length
  · simp [hiL, List.getElem?_eq_getElem hiL]
  · simp only [hiL, if_false]
    constructor
    · intro _; omega
    · intro _; split <;> rfl

/-- C7: starting from the zero-initialised cache table, after any sequence of `ctable_acquire`
and `ctable_release` calls, each run to completion, the non-NULL entries of `ctable.lru`
form an initial segment of the vector (no NULL before a non-NULL entry), contain no
duplicates, and are exactly the slots whose `valid` flag is set. -/
theorem C7_lru_entries_are_the_valid_slots (PGSIZE : Nat) (s0 s : KState) (ops : List CacheOp)
    (h0 : ZeroCache s0) (hrun : cache_run PGSIZE ops s0 = some s) :
    s.lru.length = s.NCACHE ∧
    (∀ i j, i < j → j < s.NCACHE → s.lruAt i = none → s.lruAt j = none) ∧
    (∀ i j c, s.lruAt i = some c → s.lruAt j = some c → i = j) ∧
    (∀ c, (∃ i, i < s.NCACHE ∧ s.lruAt i = some c) ↔ (c < s.NCACHE ∧ (s.slot c).valid = true)) := by
  obtain ⟨⟨L, hL⟩, _⟩ := CInv.cache_run ops (CInv.zero h0) hrun
  refine ⟨hL.lru_length, ?_, ?_, ?_⟩
  · intro i j hij _ hi
    rw [lruAt_eq_none_iff hL] at hi ⊢
    omega
  · intro i j c hi hj
    rw [lruAt_eq_some_iff hL] at hi hj
    obtain ⟨hi1, hi2⟩ := List.getElem?_eq_some.mp hi
    obtain ⟨hj1, hj2⟩ := List.getElem?_eq_some.mp hj
    exact (List.Nodup.getElem_inj_iff hL.2.1).mp (hi2.trans hj2.symm)
  · intro c
    constructor
    · rintro ⟨i, _, hi⟩
      have hv := (hL.2.2 c).mp (hL.of_lruAt hi).2.2
      exact ⟨lt_of_valid s c hv, hv⟩
    · rintro ⟨_, hv⟩
      have hcL := (hL.2.2 c).mpr hv
      have hiL : L.indexOf c < L.length := List.indexOf_lt_length.mpr hcL
      exact ⟨L.indexOf c, by have := hL.length_le; omega, hL.lruAt_indexOf hcL⟩

theorem w2_run :
    cache_run 4096 [CacheOp.acquire 1 0, CacheOp.acquire 1 4096] w0 = some w2 := by
  rfl

theorem C7_lru_entries_are_the_valid_slots_witness :
    ZeroCache w0 ∧
    cache_run 4096 [CacheOp.acquire 1 0, CacheOp.acquire 1 4096] w0 = some w2 ∧
    (w2.lru.length = w2.NCACHE ∧
    (∀ i j, i < j → j < w2.NCACHE → w2.lruAt i = none → w2.lruAt j = none) ∧
    (∀ i j c, w2.lruAt i = some c → w2.lruAt j = some c → i = j) ∧
    (∀ c, (∃ i, i < w2.NCACHE ∧ w2.lruAt i = some c) ↔
      (c < w2.NCACHE ∧ (w2.slot c).valid = true))) :=
  ⟨⟨rfl, rfl⟩, w2_run,
    C7_lru_entries_are_the_valid_slots 4096 w0 w2 _ ⟨rfl, rfl⟩ w2_run⟩


/-- C8: in every cache-table state reachable by sequential `ctable_acquire` and
`ctable_release` calls no two valid slots have the same `(host, offset)` pair, and a
`ctable_acquire(ip, offset)` issued while a valid slot holds `(ip, offset)` fills no slot (the
cache table is left as it is). -/
theorem C8_one_valid_slot_per_key (PGSIZE : Nat) (s0 s : KState) (ops : List CacheOp)
    (h0 : ZeroCache s0) (hrun : cache_run PGSIZE ops s0 = some s) :
    (∀ c c', c < s.NCACHE → c' < s.NCACHE → (s.slot c).valid = true → (s.slot c').valid = true →
      (s.slot c).host = (s.slot c').host → (s.slot c).offset = (s.slot c').offset → c = c') ∧
    (∀ ip offset r s' c0, (s.slot c0).valid = true → (s.slot c0).host = some ip →
      (s.slot c0).offset = offset → ctable_acquire PGSIZE s ip offset = some (r, s') →
      r = some c0 ∧ s'.cache = s.cache) := by
  have hinv := CInv.cache_run ops (CInv.zero h0) hrun
  refine ⟨fun c c' _ _ => hinv.2 c c', ?_⟩
  intro ip offset r s' c0 hv hh ho ha
  have hfind := find_hit_unique hinv.2 hv hh ho
  have halign : offset % PGSIZE = 0 := by
    by_contra hne
    unfold ctable_acquire at ha
    rw [if_pos hne] at ha
    cases ha
  rw [acquire_hit halign hfind] at ha
  cases ha
  obtain ⟨L, hL⟩ := hinv.1
  exact ⟨rfl, (hL.adjust_rep hv).2.1⟩

theorem C8_one_valid_slot_per_key_witness :
    ZeroCache w0 ∧
    cache_run 4096 [CacheOp.acquire 1 0, CacheOp.acquire 1 4096] w0 = some w2 ∧
    ((∀ c c', c < w2.NCACHE → c' < w2.NCACHE → (w2.slot c).valid = true →
      (w2.slot c').valid = true → (w2.slot c).host = (w2.slot c').host →
      (w2.slot c).offset = (w2.slot c').offset → c = c') ∧
    (∀ ip offset r s' c0, (w2.slot c0).valid = true → (w2.slot c0).host = some ip →
      (w2.slot c0).offset = offset → ctable_acquire 4096 w2 ip offset = some (r, s') →
      r = some c0 ∧ s'.cache = w2.cache)) :=
  ⟨⟨rfl, rfl⟩, w2_run, C8_one_valid_slot_per_key 4096 w0 w2 _ ⟨rfl, rfl⟩ w2_run⟩

/-- C10: in a well-formed cache table, if a valid slot `c` holds `(ip, offset)` with `offset`
page-aligned, `ctable_acquire(ip, offset)` returns `c`, takes it out of its position `i` of the
LRU vector and puts it at index 0, all other entries keeping their relative order, and
changes nothing else: no slot field, no inode (so no `ref`), nothing on the lower FS, and no
call to the lower FS or to the page allocator is made (the log of external calls is as
before). -/
theorem C10_hit_moves_slot_to_front (PGSIZE : Nat) (s : KState) (ip offset c : Nat)
    (hinv : CInv s) (halign : offset % PGSIZE = 0)
    (hv : (s.slot c).valid = true) (hh : (s.slot c).host = some ip)
    (ho : (s.slot c).offset = offset) :
    ∃ s' i, ctable_acquire PGSIZE s ip offset = some (some c, s') ∧
      i < s.NCACHE ∧ s.lruAt i = some c ∧
      s'.lru = some c :: s.lru.eraseIdx i ∧ s'.lruAt 0 = some c ∧
      s'.cache = s.cache ∧ s'.inode = s.inode ∧ s'.disk = s.disk ∧
      s'.log = s.log ∧ s'.faults = s.faults := by
  have hfind := find_hit_unique hinv.2 hv hh ho
  obtain ⟨L, hL⟩ := hinv.1
  obtain ⟨_, hc, _, hl, hdef⟩ := hL.adjust_rep hv
  have hcL : c ∈ L := (hL.2.2 c).mpr hv
  have hiL : L.indexOf c < L.length := List.indexOf_lt_length.mpr hcL
  have hidx : s.lru.findIdx (fun e => decide (e = some c)) = L.indexOf c := by
    rw [hL.1]; exact findIdx_lru_of _ _ _ hcL
  refine ⟨(ctable_lru_adjust s c).2, L.indexOf c, acquire_hit halign hfind,
    by have := hL.length_le; omega, hL.lruAt_indexOf hcL, by rw [hl, hidx], ?_, hc, ?_, ?_, ?_, ?_⟩
  · unfold KState.lruAt; rw [hl]; rfl
  · rw [hdef]
  · rw [hdef]
  · rw [hdef]
  · rw [hdef]

theorem w2_inv : CInv w2 := CInv.cache_run _ (CInv.zero ⟨rfl, rfl⟩) w2_run

theorem C10_hit_moves_slot_to_front_witness :
    CInv w2 ∧ 0 % 4096 = 0 ∧ (w2.slot 0).valid = true ∧ (w2.slot 0).host = some 1 ∧
    (w2.slot 0).offset = 0 ∧ w2.lru = [some 1, some 0] ∧
    ∃ s' i, ctable_acquire 4096 w2 1 0 = some (some 0, s') ∧
      i < w2.NCACHE ∧ w2.lruAt i = some 0 ∧
      s'.lru = some 0 :: w2.lru.eraseIdx i ∧ s'.lruAt 0 = some 0 ∧
      s'.cache = w2.cache ∧ s'.inode = w2.inode ∧ s'.disk = w2.disk ∧
      s'.log = w2.log ∧ s'.faults = w2.faults :=
  ⟨w2_inv, rfl, rfl, rfl, rfl, rfl,
    C10_hit_moves_slot_to_front 4096 w2 1 0 0 w2_inv rfl rfl rfl rfl⟩

/-- C6 (evaluation at the failing input): the page of offset 4096 of `/a.txt` is cached and
dirty and the file has been truncated to 0 bytes; `cache_writeback` returns 0, writes no
byte (`f_write` of 0 bytes) and leaves the file 4096 bytes long: the seek past the end
has extended the file, so the size is not unchanged. -/
theorem C6_writeback_of_stale_page_extends_file :
    (wStale.slot 0).valid = true ∧ (wStale.slot 0).dirty = true ∧
    (wStale.slot 0).host = some 1 ∧ (wStale.slot 0).offset = 4096 ∧
    (wStale.ino 1).file.objsize = 0 ∧
    (cache_writeback 4096 wStale 0).map
        (fun r => (r.1, (r.2.ino 1).file.objsize, r.2.log.drop wStale.log.length)) =
      some (0, 4096, [Ev.f_lseek 1 4096, Ev.f_write 1 0]) := by
  decide

/-- C2 (evaluation at the failing input): on a file of `2^32 - 1` bytes, `readi` with
`off = 2^32 - 2` and `n = 3` (so that `off + n` wraps to 1) completes every page acquisition
and copy and returns 3, not `min(n, S - off) = 1`; the third byte delivered is byte 0 of the
file. -/
theorem C2_readi_not_clamped_when_sum_wraps :
    (wBig.ino 1).file.objsize = 4294967295 ∧
    min 3 (4294967295 - 4294967294) = 1 ∧
    (readi 4096 wBig 1 false zeroMem 4294967294 3).map
        (fun r => (r.1, r.2.1 0, r.2.1 1, r.2.1 2, r.2.2.log)) =
      some (3, 4294967294 % 251, 0, 0 % 251,
        [Ev.alloc_page, Ev.f_lseek 1 4294963200, Ev.f_read 1 4096, Ev.copyout 0 4094 0 2,
         Ev.alloc_page, Ev.f_lseek 1 0, Ev.f_read 1 4096, Ev.copyout 1 0 2 1]) := by
  decide

/-- C3 (evaluation at the failing input): `writei` of 10 bytes at `off = 2^32 - 5` returns 10
after visiting the page-aligned offsets `2^32 - 4096` and then `0` (not increasing); the second
copy puts bytes 5..9 of the buffer at in-page offset 0 of page 0, i.e. at file offsets 0..4
and not at `off + 5 ..`. -/
theorem C3_writei_wraps_to_page_zero :
    (writei 4096 wBig 1 false wDigits 4294967291 10).map (fun r => (r.1, r.2.log)) =
      some (10,
        [Ev.alloc_page, Ev.f_lseek 1 4294963200, Ev.f_read 1 4096, Ev.copyin 0 4091 0 5,
         Ev.alloc_page, Ev.f_lseek 1 0, Ev.f_read 1 4096, Ev.copyin 1 0 5 5]) ∧
    (writei 4096 wBig 1 false wDigits 4294967291 10).map
        (fun r => ((r.2.slot 1).host, (r.2.slot 1).offset, (r.2.slot 1).dirty)) =
      some (some 1, 0, true) ∧
    (writei 4096 wBig 1 false wDigits 4294967291 10).map
        (fun r => (r.2.slot 1).page.map (fun p => (List.range 6).map p.data)) =
      some (some [53, 54, 55, 56, 57, 5 % 251]) := by
  decide

/-! ## Effect of the primitives on the inode table -/

@[simp] theorem fault_NINODE (s : KState) : s.fault.2.NINODE = s.NINODE := by
  simp [KState.NINODE]
@[simp] theorem emit_NINODE (s : KState) (e : Ev) : (s.emit e).NINODE = s.NINODE := rfl
@[simp] theorem setSlot_NINODE (s : KState) (c : Nat) (v : page_cache) :
    (s.setSlot c v).NINODE = s.NINODE := rfl

theorem ino_default_of_ge (s : KState) (i : Nat) (h : s.NINODE ≤ i) : s.ino i = {} := by
  simp only [KState.ino, KState.NINODE] at *
  simp [List.getElem?_eq_none h]

theorem f_lseek_ino (s : KState) (ip ofs j : Nat) :
    (f_lseek s ip ofs).2.ino j =
      if s.fault.1 = false ∧ ip = j ∧ ip < s.NINODE then
        { s.ino ip with file := { (s.ino ip).file with
            objsize := max (s.ino ip).file.objsize ofs, fptr := ofs } }
      else s.ino j := by
  unfold f_lseek
  by_cases hf : s.fault.1 = true
  · simp [hf]
  · simp at hf
    simp [hf, setFile_ino]

theorem f_lseek_NINODE (s : KState) (ip ofs : Nat) : (f_lseek s ip ofs).2.NINODE = s.NINODE := by
  unfold f_lseek; split <;> simp

theorem f_lseek_fst (s : KState) (ip ofs : Nat) :
    (f_lseek s ip ofs).1 = if s.fault.1 then FRESULT.FR_ERR else FRESULT.FR_OK := by
  unfold f_lseek; split <;> rfl

theorem f_read_ino (s : KState) (ip btr j : Nat) :
    (f_read s ip btr).2.2.2.ino j =
      if s.fault.1 = false ∧ ip = j ∧ ip < s.NINODE then
        { s.ino ip with file := { (s.ino ip).file with
            fptr := (s.ino ip).file.fptr + min btr ((s.ino ip).file.objsize - (s.ino ip).file.fptr) } }
      else s.ino j := by
  unfold f_read
  by_cases hf : s.fault.1 = true
  · simp [hf]
  · simp at hf
    simp [hf, setFile_ino]

theorem f_read_NINODE (s : KState) (ip btr : Nat) : (f_read s ip btr).2.2.2.NINODE = s.NINODE := by
  unfold f_read; split <;> simp

theorem f_read_fst (s : KState) (ip btr : Nat) :
    (f_read s ip btr).1 = if s.fault.1 then FRESULT.FR_ERR else FRESULT.FR_OK := by
  unfold f_read; split <;> rfl

theorem f_read_data (s : KState) (ip btr : Nat) (hf : s.fault.1 = false) :
    (f_read s ip btr).2.1 = (fun i => (s.ino ip).file.data ((s.ino ip).file.fptr + i)) ∧
    (f_read s ip btr).2.2.1 = min btr ((s.ino ip).file.objsize - (s.ino ip).file.fptr) := by
  unfold f_read; simp [hf]

theorem f_write_ino (s : KState) (ip : Nat) (buf : Mem) (btw j : Nat) :
    (f_write s ip buf btw).2.2.ino j =
      if s.fault.1 = false ∧ ip = j ∧ ip < s.NINODE then
        { s.ino ip with file := { (s.ino ip).file with
            data := blit (s.ino ip).file.data (s.ino ip).file.fptr buf 0 btw,
            objsize := max (s.ino ip).file.objsize ((s.ino ip).file.fptr + btw),
            fptr := (s.ino ip).file.fptr + btw } }
      else s.ino j := by
  unfold f_write
  by_cases hf : s.fault.1 = true
  · simp [hf]
  · simp at hf
    simp [hf, setFile_ino]

theorem f_write_NINODE (s : KState) (ip : Nat) (buf : Mem) (btw : Nat) :
    (f_write s ip buf btw).2.2.NINODE = s.NINODE := by
  unfold f_write; split <;> simp

theorem f_write_fst (s : KState) (ip : Nat) (buf : Mem) (btw : Nat) :
    (f_write s ip buf btw).1 = (if s.fault.1 then FRESULT.FR_ERR else FRESULT.FR_OK) ∧
    (f_write s ip buf btw).2.1 = (if s.fault.1 then 0 else btw) := by
  unfold f_write; split <;> exact ⟨rfl, rfl⟩

theorem f_close_inode (s : KState) (ip : Nat) : (f_close s ip).2.inode = s.inode := by
  unfold f_close; dsimp only; split
  · simp
  · split <;> simp

theorem f_unlink_inode (s : KState) (p : String) : (f_unlink s p).2.inode = s.inode := by
  unfold f_unlink; dsimp only; split
  · simp
  · split <;> simp

theorem f_rename_inode (s : KState) (p q : String) : (f_rename s p q).2.inode = s.inode := by
  unfold f_rename; dsimp only; split
  · simp
  · split <;> simp

theorem f_closedir_ino (s : KState) (ip j : Nat) :
    (f_closedir s ip).2.ino j =
      if s.fault.1 = false ∧ ip = j ∧ ip < s.NINODE then { s.ino ip with dirOpen := false }
      else s.ino j := by
  unfold f_closedir
  by_cases hf : s.fault.1 = true
  · simp [hf]
  · simp at hf
    simp [hf, setIno_ino]

theorem f_closedir_NINODE (s : KState) (ip : Nat) : (f_closedir s ip).2.NINODE = s.NINODE := by
  unfold f_closedir; split <;> simp

theorem ino_congr {s s' : KState} (h : s'.inode = s.inode) (j : Nat) : s'.ino j = s.ino j := by
  simp [KState.ino, h]

theorem NINODE_congr {s s' : KState} (h : s'.inode = s.inode) : s'.NINODE = s.NINODE := by
  simp [KState.NINODE, h]

/-! ## The steps of the composite operations -/

theorem writeback_chain {PGSIZE : Nat} {s s' : KState} {c : Nat} {r : Int}
    (h : cache_writeback PGSIZE s c = some (r, s')) :
    ∃ h' pg, (s.slot c).host = some h' ∧ (s.slot c).page = some pg ∧
      ((r = -1 ∧ (f_lseek s h' (s.slot c).offset).1 ≠ FRESULT.FR_OK ∧
          s' = (f_lseek s h' (s.slot c).offset).2) ∨
       ((f_lseek s h' (s.slot c).offset).1 = FRESULT.FR_OK ∧
        s' = (f_write (f_lseek s h' (s.slot c).offset).2 h' pg.data
          (min (usub (u32 (f_size ((f_lseek s h' (s.slot c).offset).2.ino h').file))
            (s.slot c).offset) PGSIZE)).2.2 ∧
        (r = 0 ↔ (f_write (f_lseek s h' (s.slot c).offset).2 h' pg.data
          (min (usub (u32 (f_size ((f_lseek s h' (s.slot c).offset).2.ino h').file))
            (s.slot c).offset) PGSIZE)).1 = FRESULT.FR_OK ∧
          (f_write (f_lseek s h' (s.slot c).offset).2 h' pg.data
          (min (usub (u32 (f_size ((f_lseek s h' (s.slot c).offset).2.ino h').file))
            (s.slot c).offset) PGSIZE)).2.1 =
            (min (usub (u32 (f_size ((f_lseek s h' (s.slot c).offset).2.ino h').file))
            (s.slot c).offset) PGSIZE)))) := by
  unfold cache_writeback at h
  split at h
  · rename_i h' pg hh hp
    refine ⟨h', pg, hh, hp, ?_⟩
    dsimp only at h
    split at h
    · rename_i hne
      cases h
      exact Or.inl ⟨rfl, hne, rfl⟩
    · rename_i hok
      simp only [ne_eq, not_not] at hok
      split at h
      · rename_i hbad
        cases h
        refine Or.inr ⟨hok, rfl, ?_⟩
        constructor
        · intro h0; cases h0
        · intro hh2
          rcases hbad with hb | hb
          · exact absurd hh2.1 hb
          · exact absurd hh2.2 hb
      · rename_i hgood
        cases h
        refine Or.inr ⟨hok, rfl, ?_⟩
        constructor
        · intro _
          simp only [not_or, ne_eq, not_not] at hgood
          exact hgood
        · intro _; rfl
  · cases h

theorem evict_at_chain {PGSIZE : Nat} {s s' : KState} {i c : Nat} {r : Int}
    (h : evict_at PGSIZE s i c = some (r, s')) :
    ∃ s1 h' s3, r = 0 ∧ wb_ok PGSIZE (s.emit (Ev.evict c)) c s1 ∧ (s.slot c).host = some h' ∧
      iput (recycle_physical_page s1) h' = some s3 ∧ s' = lru_compact (s3.setSlot c {}) i := by
  unfold evict_at at h
  dsimp only at h
  split at h
  · cases h
  · rename_i s1 hs1
    have h1 : wb_ok PGSIZE (s.emit (Ev.evict c)) c s1 := by
      unfold wb_ok
      split at hs1
      · rename_i hd
        rw [if_pos hd]
        split at hs1
        · rename_i r1 s1' hw
          split at hs1
          · cases hs1
          · rename_i hr1
            cases hs1
            simp only [ne_eq, not_not] at hr1
            rw [hw, hr1]
        · cases hs1
      · rename_i hd
        rw [if_neg hd]
        cases hs1; rfl
    have hsc : SameC s s1 := by
      unfold wb_ok at h1
      split at h1
      · exact SameC.trans_c (sameC_emit _ _) (sameC_writeback h1)
      · rw [h1]; exact sameC_emit _ _
    split at h
    · cases h
    · rename_i h' hh
      split at h
      · cases h
      · rename_i s3 hs3
        cases h
        refine ⟨s1, h', s3, rfl, h1, ?_, hs3, rfl⟩
        rw [← hh]
        simp only [recycle_physical_page, emit_slot]
        rw [hsc.slot]

theorem release_slot_chain {PGSIZE : Nat} {s s' : KState} {ip : Option Nat} {c : Nat}
    (h : release_slot PGSIZE s ip c = some s')
    (hcond : (s.slot c).valid = true ∧ ((s.slot c).host = ip ∨ ip = none)) :
    ∃ s1 h' s3, wb_ok PGSIZE s c s1 ∧ get_physical_page_ref (s.slot c).page = 1 ∧
      (s.slot c).host = some h' ∧ iput (recycle_physical_page s1) h' = some s3 ∧
      s' = (ctable_lru_remove (s3.setSlot c {}) c).2 := by
  unfold release_slot at h
  rw [if_pos hcond] at h
  dsimp only at h
  split at h
  · cases h
  · rename_i s1 hs1
    have h1 : wb_ok PGSIZE s c s1 := by
      unfold wb_ok
      split at hs1
      · rename_i hd
        rw [if_pos hd]
        split at hs1
        · rename_i r1 s1' hw
          split at hs1
          · cases hs1
          · rename_i hr1
            cases hs1
            simp only [ne_eq, not_not] at hr1
            rw [hw, hr1]
        · cases hs1
      · rename_i hd
        rw [if_neg hd]
        cases hs1; rfl
    have hsc : SameC s s1 := by
      unfold wb_ok at h1
      split at h1
      · exact sameC_writeback h1
      · rw [h1]; exact SameC.refl_c _
    split at h
    · cases h
    · rename_i href
      simp only [ne_eq, not_not] at href
      split at h
      · cases h
      · rename_i h' hh
        split at h
        · cases h
        · rename_i s3 hs3
          cases h
          refine ⟨s1, h', s3, h1, ?_, ?_, hs3, rfl⟩
          · rw [← hsc.slot]; exact href
          · rw [← hh]
            simp only [recycle_physical_page, emit_slot]
            rw [hsc.slot]

theorem iput_chain {s s' : KState} {ip : Nat} (h : iput s ip = some s') :
    (s.ino ip).ref > 0 ∧ ∃ s1, (if (s.ino ip).ref = 1 then iput_last s ip = some s1 else s1 = s) ∧
      s' = s1.setIno ip { s1.ino ip with ref := (s1.ino ip).ref - 1 } := by
  unfold iput at h
  split at h
  · rename_i hpos
    refine ⟨hpos, ?_⟩
    split at h
    · cases h
    · rename_i s1 hs1
      cases h
      refine ⟨s1, ?_, rfl⟩
      split at hs1
      · rename_i h1; rw [if_pos h1]; exact hs1
      · rename_i h1; rw [if_neg h1]; cases hs1; rfl
  · cases h

theorem iput_close_ino_ref (s : KState) (ip j : Nat) :
    ((iput_close s ip).2.ino j).ref = (s.ino j).ref ∧
    ((iput_close s ip).2.ino j).file = (s.ino j).file ∧
    ((iput_close s ip).2.ino j).type = (s.ino j).type ∧
    ((iput_close s ip).2.ino j).unlinked = (s.ino j).unlinked ∧
    ((iput_close s ip).2.ino j).new_path = (s.ino j).new_path ∧
    ((iput_close s ip).2.ino j).path = (s.ino j).path ∧
    ((iput_close s ip).2.ino j).dev = (s.ino j).dev ∧
    (iput_close s ip).2.NINODE = s.NINODE := by
  unfold iput_close
  split
  · rw [f_closedir_ino, f_closedir_NINODE]
    split
    · rename_i hc; rw [← hc.2.1]; simp
    · simp
  · rw [ino_congr (f_close_inode s ip), NINODE_congr (f_close_inode s ip)]
    simp

theorem iput_deferred_inode {s s' : KState} {ip : Nat} (h : iput_deferred s ip = some s') :
    s'.inode = s.inode := by
  unfold iput_deferred at h
  split at h
  · cases h; exact f_unlink_inode _ _
  · split at h
    · split at h
      · cases h
      · cases h; exact f_rename_inode _ _ _
    · cases h; rfl

/-- Effect of a completed `iput` on the inode table: the `ref` of `ip` drops by one, nothing
else that the cache layer looks at changes. -/
theorem iput_effect {s s' : KState} {ip : Nat} (h : iput s ip = some s') :
    (s.ino ip).ref > 0 ∧ ip < s.NINODE ∧ s'.NINODE = s.NINODE ∧
    ∀ j, ((s'.ino j).ref = (s.ino j).ref - (if j = ip then 1 else 0)) ∧
      (s'.ino j).file = (s.ino j).file ∧ (s'.ino j).type = (s.ino j).type ∧
      (s'.ino j).unlinked = (s.ino j).unlinked ∧ (s'.ino j).new_path = (s.ino j).new_path ∧
      (s'.ino j).path = (s.ino j).path ∧ (s'.ino j).dev = (s.ino j).dev := by
  obtain ⟨hpos, s1, hs1, rfl⟩ := iput_chain h
  have hlt : ip < s.NINODE := by
    by_contra hge
    rw [ino_default_of_ge s ip (Nat.le_of_not_lt hge)] at hpos
    simp at hpos
  have key : s1.NINODE = s.NINODE ∧ ∀ j, (s1.ino j).ref = (s.ino j).ref ∧
      (s1.ino j).file = (s.ino j).file ∧ (s1.ino j).type = (s.ino j).type ∧
      (s1.ino j).unlinked = (s.ino j).unlinked ∧ (s1.ino j).new_path = (s.ino j).new_path ∧
      (s1.ino j).path = (s.ino j).path ∧ (s1.ino j).dev = (s.ino j).dev := by
    split at hs1
    · unfold iput_last at hs1
      split at hs1
      · cases hs1
      · have hd := iput_deferred_inode hs1
        refine ⟨by rw [NINODE_congr hd]; exact (iput_close_ino_ref s ip 0).2.2.2.2.2.2.2, ?_⟩
        intro j
        rw [ino_congr hd]
        obtain ⟨a, b, c, d, e, f, g, _⟩ := iput_close_ino_ref s ip j
        exact ⟨a, b, c, d, e, f, g⟩
    · rw [hs1]; exact ⟨rfl, fun j => ⟨rfl, rfl, rfl, rfl, rfl, rfl, rfl⟩⟩
  refine ⟨hpos, hlt, by rw [setIno_NINODE]; exact key.1, ?_⟩
  intro j
  rw [setIno_ino]
  obtain ⟨a, b, c, d, e, f, g⟩ := key.2 j
  by_cases hj : ip = j
  · subst hj
    have : ip < s1.NINODE := by rw [key.1]; exact hlt
    simp [this, a, b, c, d, e, f, g]
  · have h1 : ¬ (ip = j ∧ ip < s1.NINODE) := fun hh => hj hh.1
    have h2 : ¬ (j = ip) := fun hh => hj hh.symm
    simp [h1, h2, a, b, c, d, e, f, g]

theorem countP_set_add {α : Type} (p : α → Bool) (l : List α) (c : Nat) (v d : α)
    (hc : c < l.length) :
    (l.set c v).countP p + (if p (l.getD c d) then 1 else 0) =
      l.countP p + (if p v then 1 else 0) := by
  induction l generalizing c with
  | nil => simp at hc
  | cons a t ih =>
    cases c with
    | zero =>
      simp only [List.set_cons_zero, List.countP_cons, List.getD_cons_zero]
      omega
    | succ c =>
      simp only [List.set_cons_succ, List.countP_cons, List.getD_cons_succ]
      have := ih c (by simpa using hc)
      omega

theorem hosted_set {s s' : KState} {c : Nat} {v : page_cache}
    (hc : s'.cache = s.cache.set c v) (hlt : c < s.NCACHE) (h : Nat) :
    s'.hosted h + (if (s.slot c).valid = true ∧ (s.slot c).host = some h then 1 else 0) =
      s.hosted h + (if v.valid = true ∧ v.host = some h then 1 else 0) := by
  unfold KState.hosted
  rw [hc]
  have := countP_set_add (fun c => c.valid && (c.host == some h)) s.cache c v {} hlt
  simp only [Bool.and_eq_true, beq_iff_eq] at this
  exact this

theorem hosted_congr {s s' : KState} (hc : s'.cache = s.cache) (h : Nat) :
    s'.hosted h = s.hosted h := by
  unfold KState.hosted; rw [hc]

/-! ## The log of external calls -/

theorem LogExt.refl_log (P : Ev → Prop) (s : KState) : LogExt P s s :=
  ⟨[], by simp, fun _ h => by cases h⟩

theorem LogExt.trans_log {P : Ev → Prop} {a b c : KState} (h1 : LogExt P a b) (h2 : LogExt P b c) :
    LogExt P a c := by
  obtain ⟨e1, he1, hp1⟩ := h1
  obtain ⟨e2, he2, hp2⟩ := h2
  refine ⟨e1 ++ e2, by rw [he2, he1, List.append_assoc], ?_⟩
  intro e he
  rcases List.mem_append.mp he with h | h
  · exact hp1 e h
  · exact hp2 e h

theorem LogExt.mono {P Q : Ev → Prop} {a b : KState} (h : LogExt P a b) (hpq : ∀ e, P e → Q e) :
    LogExt Q a b := by
  obtain ⟨e1, he1, hp1⟩ := h
  exact ⟨e1, he1, fun e he => hpq e (hp1 e he)⟩

theorem LogExt.of_log_eq {P : Ev → Prop} {a b : KState} (h : b.log = a.log) : LogExt P a b :=
  ⟨[], by simp [h], fun _ h => by cases h⟩

theorem LogExt.one {P : Ev → Prop} {a b : KState} {e : Ev} (h : b.log = a.log ++ [e])
    (hp : P e) : LogExt P a b :=
  ⟨[e], h, fun x hx => by rw [List.mem_singleton.mp hx]; exact hp⟩

theorem f_lseek_log (s : KState) (ip ofs : Nat) :
    (f_lseek s ip ofs).2.log = s.log ++ [Ev.f_lseek ip ofs] := by
  unfold f_lseek; split <;> simp
theorem f_read_log (s : KState) (ip btr : Nat) :
    (f_read s ip btr).2.2.2.log = s.log ++ [Ev.f_read ip btr] := by
  unfold f_read; split <;> simp
theorem f_write_log (s : KState) (ip : Nat) (buf : Mem) (btw : Nat) :
    (f_write s ip buf btw).2.2.log = s.log ++ [Ev.f_write ip btw] := by
  unfold f_write; split <;> simp
theorem f_close_log (s : KState) (ip : Nat) :
    (f_close s ip).2.log = s.log ++ [Ev.f_close ip] := by
  unfold f_close; dsimp only; split
  · simp
  · split <;> simp
theorem f_closedir_log (s : KState) (ip : Nat) :
    (f_closedir s ip).2.log = s.log ++ [Ev.f_closedir ip] := by
  unfold f_closedir; split <;> simp
theorem f_unlink_log (s : KState) (p : String) :
    (f_unlink s p).2.log = s.log ++ [Ev.f_unlink p] := by
  unfold f_unlink; dsimp only; split
  · simp
  · split <;> simp
theorem f_rename_log (s : KState) (p q : String) :
    (f_rename s p q).2.log = s.log ++ [Ev.f_rename p q] := by
  unfold f_rename; dsimp only; split
  · simp
  · split <;> simp
theorem f_opendir_log (s : KState) (ip : Nat) (p : String) :
    (f_opendir s ip p).2.log = s.log ++ [Ev.f_opendir ip p] := by
  unfold f_opendir; dsimp only; split
  · simp
  · split <;> simp
theorem f_open_log (s : KState) (ip : Nat) (p : String) (cr : Bool) :
    (f_open s ip p cr).2.log = s.log ++ [Ev.f_open ip p cr] := by
  unfold f_open; dsimp only; split
  · simp
  · split <;> simp
theorem f_mkdir_log (s : KState) (p : String) :
    (f_mkdir s p).2.log = s.log ++ [Ev.f_mkdir p] := by
  unfold f_mkdir; dsimp only; split
  · simp
  · split <;> simp

theorem f_lseek_ref (s : KState) (ip ofs j : Nat) :
    ((f_lseek s ip ofs).2.ino j).ref = (s.ino j).ref := by
  rw [f_lseek_ino]; split
  · rename_i h; rw [← h.2.1]
  · rfl
theorem f_read_ref (s : KState) (ip btr j : Nat) :
    ((f_read s ip btr).2.2.2.ino j).ref = (s.ino j).ref := by
  rw [f_read_ino]; split
  · rename_i h; rw [← h.2.1]
  · rfl
theorem f_write_ref (s : KState) (ip : Nat) (buf : Mem) (btw j : Nat) :
    ((f_write s ip buf btw).2.2.ino j).ref = (s.ino j).ref := by
  rw [f_write_ino]; split
  · rename_i h; rw [← h.2.1]
  · rfl

theorem Benign.refl (s : KState) : Benign s s := ⟨LogExt.refl_log _ _, rfl, fun _ => rfl⟩

theorem Benign.trans {a b c : KState} (h1 : Benign a b) (h2 : Benign b c) : Benign a c :=
  ⟨h1.1.trans_log h2.1, h2.2.1.trans h1.2.1, fun j => (h2.2.2 j).trans (h1.2.2 j)⟩

theorem benign_emit (s : KState) (e : Ev) (he : NotClose e) : Benign s (s.emit e) :=
  ⟨LogExt.one (by simp) he, rfl, fun _ => rfl⟩

theorem benign_f_lseek (s : KState) (ip ofs : Nat) : Benign s (f_lseek s ip ofs).2 :=
  ⟨LogExt.one (f_lseek_log _ _ _) (fun _ => by simp [isClose]), f_lseek_NINODE _ _ _,
    f_lseek_ref _ _ _⟩

theorem benign_f_read (s : KState) (ip btr : Nat) : Benign s (f_read s ip btr).2.2.2 :=
  ⟨LogExt.one (f_read_log _ _ _) (fun _ => by simp [isClose]), f_read_NINODE _ _ _,
    f_read_ref _ _ _⟩

theorem benign_f_write (s : KState) (ip : Nat) (buf : Mem) (btw : Nat) :
    Benign s (f_write s ip buf btw).2.2 :=
  ⟨LogExt.one (f_write_log _ _ _ _) (fun _ => by simp [isClose]), f_write_NINODE _ _ _ _,
    f_write_ref _ _ _ _⟩

theorem benign_of_eq {s s' : KState} (hl : s'.log = s.log) (hi : s'.inode = s.inode) :
    Benign s s' :=
  ⟨LogExt.of_log_eq hl, NINODE_congr hi, fun j => by rw [ino_congr hi]⟩

theorem benign_writeback {PGSIZE : Nat} {s s' : KState} {c : Nat} {r : Int}
    (h : cache_writeback PGSIZE s c = some (r, s')) : Benign s s' := by
  obtain ⟨h', pg, _, _, hcase⟩ := writeback_chain h
  rcases hcase with ⟨_, _, rfl⟩ | ⟨_, rfl, _⟩
  · exact benign_f_lseek _ _ _
  · exact (benign_f_lseek _ _ _).trans (benign_f_write _ _ _ _)

theorem benign_wb_ok {PGSIZE : Nat} {t s1 : KState} {c : Nat} (h : wb_ok PGSIZE t c s1) :
    Benign t s1 := by
  unfold wb_ok at h
  split at h
  · exact benign_writeback h
  · rw [h]; exact Benign.refl _

theorem sameC_wb_ok {PGSIZE : Nat} {t s1 : KState} {c : Nat} (h : wb_ok PGSIZE t c s1) :
    SameC t s1 := by
  unfold wb_ok at h
  split at h
  · exact sameC_writeback h
  · rw [h]; exact SameC.refl_c _

theorem iput_close_log (s : KState) (ip : Nat) :
    (iput_close s ip).2.log =
      s.log ++ [if (s.ino ip).type = T_DIR then Ev.f_closedir ip else Ev.f_close ip] := by
  unfold iput_close
  split
  · exact f_closedir_log _ _
  · exact f_close_log _ _

theorem iput_deferred_logExt {s s' : KState} {ip : Nat} (h : iput_deferred s ip = some s') :
    LogExt NotClose s s' := by
  unfold iput_deferred at h
  split at h
  · cases h; exact LogExt.one (f_unlink_log _ _) (fun _ => by simp [isClose])
  · split at h
    · split at h
      · cases h
      · cases h; exact LogExt.one (f_rename_log _ _ _) (fun _ => by simp [isClose])
    · cases h; exact LogExt.refl_log _ _

theorem benign_setSlot (s : KState) (c : Nat) (v : page_cache) : Benign s (s.setSlot c v) :=
  benign_of_eq rfl rfl

theorem benign_lru_compact (s : KState) (i : Nat) : Benign s (lru_compact s i) :=
  benign_of_eq rfl rfl

theorem benign_lru_remove (s : KState) (c : Nat) : Benign s (ctable_lru_remove s c).2 := by
  unfold ctable_lru_remove
  dsimp only
  split
  · exact benign_lru_compact _ _
  · exact Benign.refl _

theorem benign_recycle (s : KState) : Benign s (recycle_physical_page s) :=
  benign_emit _ _ (fun _ => by simp [isClose])

theorem lru_add_chain {PGSIZE : Nat} {s s' : KState} {c : Nat} {x : Int}
    (h : ctable_lru_add PGSIZE s c = some (x, s')) :
    ∃ s1, ((s.lruAt (s.NCACHE - 1) = none ∧ s1 = s) ∨
        (s.lruAt (s.NCACHE - 1) ≠ none ∧ ∃ r, ctable_lru_evict PGSIZE s = some (r, s1))) ∧
      ((x = -1 ∧ s' = s1) ∨
        (x = 0 ∧ s' = { s1 with lru := (shift_up s1.lru (s1.NCACHE - 1)).set 0 (some c) })) := by
  unfold ctable_lru_add at h
  by_cases ht : s.lruAt (s.NCACHE - 1) = none
  · simp only [ht, ne_eq, not_true_eq_false, if_false] at h
    cases h
    exact ⟨s, Or.inl ⟨ht, rfl⟩, Or.inr ⟨rfl, rfl⟩⟩
  · simp only [ne_eq, ht, not_false_eq_true, if_true] at h
    cases hev : ctable_lru_evict PGSIZE s with
    | none => simp [hev] at h
    | some p =>
      obtain ⟨r, s2⟩ := p
      simp only [hev] at h
      by_cases hr : r < 0
      · simp only [hr, decide_True] at h
        cases h
        exact ⟨_, Or.inr ⟨ht, r, rfl⟩, Or.inl ⟨rfl, rfl⟩⟩
      · simp only [hr, decide_False] at h
        cases h
        exact ⟨_, Or.inr ⟨ht, r, rfl⟩, Or.inr ⟨rfl, rfl⟩⟩

theorem fill_claim_slot (s : KState) (c ip offset : Nat) (hc : c < s.NCACHE) :
    (fill_claim s c ip offset).slot c = claimed ip offset { ref := 1, data := zeroMem } := by
  unfold fill_claim
  rw [setSlot_slot]
  simp [alloc_physical_page, hc]

/-- The steps of `fill_slot` on a slot of the table. -/
theorem fill_slot_chain {PGSIZE : Nat} {s s' : KState} {c ip offset : Nat} {r : Option Nat}
    (hc : c < s.NCACHE) (h : fill_slot PGSIZE s c ip offset = some (r, s')) :
    ((f_lseek (fill_claim s c ip offset) ip offset).1 ≠ FRESULT.FR_OK ∧ r = none ∧
      s' = fill_rollback (f_lseek (fill_claim s c ip offset) ip offset).2 c) ∨
    ((f_lseek (fill_claim s c ip offset) ip offset).1 = FRESULT.FR_OK ∧
      (((f_read (f_lseek (fill_claim s c ip offset) ip offset).2 ip PGSIZE).1 ≠ FRESULT.FR_OK ∧
          r = none ∧
          s' = fill_rollback
            (fill_loaded PGSIZE (f_lseek (fill_claim s c ip offset) ip offset).2 c ip offset) c) ∨
       ((f_read (f_lseek (fill_claim s c ip offset) ip offset).2 ip PGSIZE).1 = FRESULT.FR_OK ∧
          r = some c ∧
          ∃ x, ctable_lru_add PGSIZE
            (idup (fill_loaded PGSIZE (f_lseek (fill_claim s c ip offset) ip offset).2 c ip offset)
              ip) c = some (x, s')))) := by
  unfold fill_slot at h
  dsimp only at h
  have e1 : (alloc_physical_page s).2.setSlot c
      (claimed ip offset { ref := (alloc_physical_page s).1.ref, data := zeroMem }) =
      fill_claim s c ip offset := rfl
  rw [e1] at h
  generalize hsk : f_lseek (fill_claim s c ip offset) ip offset = sk at h ⊢
  have hskc : SameC (fill_claim s c ip offset) sk.2 := by rw [← hsk]; exact sameC_f_lseek _ _ _
  by_cases hk : sk.1 = FRESULT.FR_OK
  · refine Or.inr ⟨hk, ?_⟩
    simp only [hk, ne_eq, not_true_eq_false, if_false] at h
    have hslot : (f_read sk.2 ip PGSIZE).2.2.2.slot c =
        claimed ip offset { ref := 1, data := zeroMem } := by
      rw [(sameC_f_read _ _ _).slot, hskc.slot, fill_claim_slot _ _ _ _ hc]
    rw [hslot] at h
    simp only [claimed] at h
    by_cases hr : (f_read sk.2 ip PGSIZE).1 = FRESULT.FR_OK
    · simp only [hr, not_true_eq_false, if_false] at h
      refine Or.inr ⟨hr, ?_⟩
      split at h
      · cases h
      · rename_i x s3 hadd
        cases h
        exact ⟨rfl, x, hadd⟩
    · simp only [hr, not_false_eq_true, if_true] at h
      cases h
      exact Or.inl ⟨hr, rfl, rfl⟩
  · simp only [hk, ne_eq, not_false_eq_true, if_true] at h
    cases h
    exact Or.inl ⟨hk, rfl, rfl⟩

theorem SameD.refl_d (s : KState) : SameD s s := ⟨rfl, fun _ _ => rfl⟩

theorem SameD.trans_d {a b c : KState} (h1 : SameD a b) (h2 : SameD b c) : SameD a c :=
  ⟨h2.1.trans h1.1, fun i hi => (h2.2 i (by rw [h1.1]; exact hi)).trans (h1.2 i hi)⟩

theorem SameD.bal {s s' : KState} {H : Nat → Nat} (h : SameD s s') (hb : Bal s H) : Bal s' H := by
  intro i hi
  rw [h.1] at hi
  have h1 := h.2 i hi
  have h2 := hb i hi
  omega

theorem Benign.sameD {s s' : KState} (h : Benign s s') (hc : s'.cache = s.cache) : SameD s s' :=
  ⟨h.2.1, fun i _ => by rw [h.2.2 i, hosted_congr hc]⟩

/-- Tearing down the valid slot `c`, whose host is `h'`: one `iput` of the host, the slot
zeroed. -/
theorem sameD_teardown {s s2 s3 s' : KState} {c h' : Nat} (hv : (s.slot c).valid = true)
    (hh : (s.slot c).host = some h') (hb : Benign s s2) (hput : iput s2 h' = some s3)
    (hi' : s'.inode = s3.inode) (hc' : s'.cache = s.cache.set c {}) : SameD s s' := by
  obtain ⟨_, _, hn, heff⟩ := iput_effect hput
  have hclt := lt_of_valid s c hv
  refine ⟨by rw [NINODE_congr hi', hn, hb.2.1], ?_⟩
  intro j _
  rw [ino_congr hi', (heff j).1, hb.2.2 j]
  have hcount := hosted_set hc' hclt j
  simp only [hv, hh, true_and, Option.some.injEq] at hcount
  have hz : ¬ ((({} : page_cache).valid = true) ∧ ({} : page_cache).host = some j) := by simp
  rw [if_neg hz] at hcount
  by_cases hj : j = h'
  · subst hj
    simp only [if_true] at hcount ⊢
    omega
  · have : ¬ (h' = j) := fun e => hj e.symm
    simp only [this, hj, if_false] at hcount ⊢
    omega

theorem evict_at_sameD {PGSIZE : Nat} {s s' : KState} {i c : Nat} {r : Int}
    (hv : (s.slot c).valid = true) (h : evict_at PGSIZE s i c = some (r, s')) : SameD s s' := by
  obtain ⟨s1, h', s3, _, hwb, hh, hput, rfl⟩ := evict_at_chain h
  have b1 : Benign s (recycle_physical_page s1) :=
    ((benign_emit s (Ev.evict c) (fun _ => by simp [isClose])).trans (benign_wb_ok hwb)).trans
      (benign_recycle _)
  have hsc : SameC s s3 :=
    (((sameC_emit s (Ev.evict c)).trans_c (sameC_wb_ok hwb)).trans_c (sameC_emit _ _)).trans_c
      (sameC_iput hput)
  exact sameD_teardown hv hh b1 hput rfl (by simp [lru_compact, KState.setSlot, hsc.1])

theorem evict_sameD {PGSIZE : Nat} {s s' : KState} {r : Int} (hinv : CInv s)
    (h : ctable_lru_evict PGSIZE s = some (r, s')) : SameD s s' := by
  unfold ctable_lru_evict at h
  rcases evict_scan_cases h with ⟨_, h2, _⟩ | ⟨i, c, _, hi, _, _, h5⟩
  · rw [h2]; exact SameD.refl_d _
  · obtain ⟨⟨L, hL⟩, _⟩ := hinv
    exact evict_at_sameD ((hL.2.2 c).mp (hL.of_lruAt hi).2.2) h5

theorem lru_remove_cache (s : KState) (c : Nat) : (ctable_lru_remove s c).2.cache = s.cache := by
  unfold ctable_lru_remove
  dsimp only
  split <;> rfl

theorem lru_remove_inode (s : KState) (c : Nat) : (ctable_lru_remove s c).2.inode = s.inode := by
  unfold ctable_lru_remove
  dsimp only
  split <;> rfl

theorem release_slot_sameD {PGSIZE : Nat} {s s' : KState} {ip : Option Nat} {c : Nat}
    (h : release_slot PGSIZE s ip c = some s') : SameD s s' := by
  by_cases hcond : (s.slot c).valid = true ∧ ((s.slot c).host = ip ∨ ip = none)
  · obtain ⟨s1, h', s3, hwb, _, hh, hput, rfl⟩ := release_slot_chain h hcond
    have hsc : SameC s s3 :=
      ((sameC_wb_ok hwb).trans_c (sameC_emit _ _)).trans_c (sameC_iput hput)
    refine sameD_teardown hcond.1 hh ((benign_wb_ok hwb).trans (benign_recycle _)) hput
      (by rw [lru_remove_inode]; rfl) ?_
    rw [lru_remove_cache]
    simp [KState.setSlot, hsc.1]
  · unfold release_slot at h
    rw [if_neg hcond] at h
    cases h
    exact SameD.refl_d _

theorem release_loop_sameD {PGSIZE : Nat} {ip : Option Nat} (k c : Nat) {s s' : KState}
    (h : release_loop PGSIZE ip k c s = some s') : SameD s s' := by
  induction k generalizing c s with
  | zero => rw [release_loop] at h; cases h; exact SameD.refl_d _
  | succ k ih =>
    rw [release_loop] at h
    split at h
    · cases h
    · rename_i s1 hs1
      exact (release_slot_sameD hs1).trans_d (ih (c + 1) h)

theorem benign_fill_claim (s : KState) (c ip offset : Nat) : Benign s (fill_claim s c ip offset) :=
  (benign_emit s Ev.alloc_page (fun _ => by simp [isClose])).trans (benign_setSlot _ _ _)

theorem benign_fill_loaded (PGSIZE : Nat) (t : KState) (c ip offset : Nat) :
    Benign t (fill_loaded PGSIZE t c ip offset) :=
  (benign_f_read t ip PGSIZE).trans (benign_setSlot _ _ _)

theorem benign_fill_rollback (t : KState) (c : Nat) : Benign t (fill_rollback t c) :=
  (benign_recycle t).trans (benign_setSlot _ _ _)

theorem fill_claim_cache (s : KState) (c ip offset : Nat) :
    (fill_claim s c ip offset).cache =
      s.cache.set c (claimed ip offset { ref := 1, data := zeroMem }) := rfl

theorem fill_loaded_cache (PGSIZE : Nat) (t : KState) (c ip offset : Nat) :
    ∃ pg, pg.ref = 1 ∧
      (fill_loaded PGSIZE t c ip offset).cache = t.cache.set c (claimed ip offset pg) := by
  refine ⟨PhysPage.mk 1 (blit zeroMem 0 (f_read t ip PGSIZE).2.1 0 (f_read t ip PGSIZE).2.2.1),
    rfl, ?_⟩
  unfold fill_loaded
  simp only [KState.setSlot, (sameC_f_read t ip PGSIZE).1]

theorem fill_rollback_cache (t : KState) (c : Nat) :
    (fill_rollback t c).cache = t.cache.set c {} := rfl

theorem sameD_of_clear_invalid {s s' : KState} {c : Nat} (hb : Benign s s')
    (hclt : c < s.NCACHE) (hv : (s.slot c).valid = false) (hc : s'.cache = s.cache.set c {}) :
    SameD s s' := by
  refine ⟨hb.2.1, fun j _ => ?_⟩
  rw [hb.2.2 j]
  have hcount := hosted_set hc hclt j
  simp only [hv, Bool.false_eq_true, false_and, if_false] at hcount
  omega

theorem benign_fill_seek (s : KState) (c ip offset : Nat) :
    Benign s (f_lseek (fill_claim s c ip offset) ip offset).2 :=
  (benign_fill_claim s c ip offset).trans (benign_f_lseek _ _ _)

theorem fill_seek_cache (s : KState) (c ip offset : Nat) :
    (f_lseek (fill_claim s c ip offset) ip offset).2.cache =
      s.cache.set c (claimed ip offset { ref := 1, data := zeroMem }) := by
  rw [(sameC_f_lseek _ _ _).1, fill_claim_cache]

theorem fill_seek_lru (s : KState) (c ip offset : Nat) :
    (f_lseek (fill_claim s c ip offset) ip offset).2.lru = s.lru := by
  rw [(sameC_f_lseek _ _ _).2]; rfl

theorem fill_loaded_lru (PGSIZE : Nat) (t : KState) (c ip offset : Nat) :
    (fill_loaded PGSIZE t c ip offset).lru = t.lru := by
  unfold fill_loaded
  rw [setSlot_lru, (sameC_f_read _ _ _).2]

theorem fill_slot_sameD {PGSIZE : Nat} {s s' : KState} {c ip offset : Nat} {r : Option Nat}
    (hinv : CInv s) (hc : c < s.NCACHE) (hv : (s.slot c).valid = false)
    (h : fill_slot PGSIZE s c ip offset = some (r, s')) : SameD s s' := by
  rcases fill_slot_chain hc h with ⟨_, _, rfl⟩ | ⟨_, ⟨_, _, rfl⟩ | ⟨_, _, x, hadd⟩⟩
  · refine sameD_of_clear_invalid
      ((benign_fill_seek s c ip offset).trans (benign_fill_rollback _ _)) hc hv ?_
    rw [fill_rollback_cache, fill_seek_cache, List.set_set]
  · refine sameD_of_clear_invalid
      (((benign_fill_seek s c ip offset).trans (benign_fill_loaded _ _ _ _ _)).trans
        (benign_fill_rollback _ _)) hc hv ?_
    obtain ⟨pg, _, hpg⟩ := fill_loaded_cache PGSIZE
      (f_lseek (fill_claim s c ip offset) ip offset).2 c ip offset
    rw [fill_rollback_cache, hpg, fill_seek_cache, List.set_set, List.set_set]
  · have b := (benign_fill_seek s c ip offset).trans
      (benign_fill_loaded PGSIZE _ c ip offset)
    obtain ⟨pg, _, hpg⟩ := fill_loaded_cache PGSIZE
      (f_lseek (fill_claim s c ip offset) ip offset).2 c ip offset
    rw [fill_seek_cache, List.set_set] at hpg
    generalize hX : fill_loaded PGSIZE (f_lseek (fill_claim s c ip offset) ip offset).2 c ip offset
      = X at b hpg hadd
    have hXl : X.lru = s.lru := by rw [← hX, fill_loaded_lru, fill_seek_lru]
    have hXn : X.NCACHE = s.NCACHE := NCACHE_of_cache_set hpg
    obtain ⟨⟨L, hL⟩, _⟩ := hinv
    have hlast : (idup X ip).lruAt ((idup X ip).NCACHE - 1) = none := by
      have := hL.last_none hc hv
      unfold KState.lruAt at this ⊢
      show X.lru.getD (X.NCACHE - 1) none = none
      rw [hXl, hXn]; exact this
    obtain ⟨_, hs'⟩ := lru_add_shape hlast hadd
    have hcs' : s'.cache = s.cache.set c (claimed ip offset pg) := by rw [hs']; exact hpg
    have his' : ∀ j, s'.ino j = (idup X ip).ino j := by intro j; rw [hs']; rfl
    have hns' : s'.NINODE = s.NINODE := by
      rw [hs']
      show (idup X ip).NINODE = s.NINODE
      unfold idup; rw [setIno_NINODE, b.2.1]
    refine ⟨hns', fun j hj => ?_⟩
    rw [his' j]
    unfold idup
    rw [setIno_ino]
    have hcount := hosted_set hcs' hc j
    simp only [hv, Bool.false_eq_true, false_and, if_false, claimed, true_and,
      Option.some.injEq] at hcount
    by_cases hij : ip = j
    · subst hij
      have hlt : ip < X.NINODE := by rw [b.2.1]; exact hj
      simp only [hlt, and_self, if_true] at hcount ⊢
      rw [b.2.2 ip]
      omega
    · have h1 : ¬ (ip = j ∧ ip < X.NINODE) := fun hh => hij hh.1
      rw [if_neg h1, b.2.2 j]
      simp only [hij, if_false] at hcount
      omega

theorem benign_lru_adjust (s : KState) (c : Nat) : Benign s (ctable_lru_adjust s c).2 := by
  unfold ctable_lru_adjust
  dsimp only
  split
  · exact benign_of_eq rfl rfl
  · exact Benign.refl _

theorem lru_adjust_cache (s : KState) (c : Nat) : (ctable_lru_adjust s c).2.cache = s.cache := by
  unfold ctable_lru_adjust
  dsimp only
  split <;> rfl

/-- `ctable_acquire` keeps, for every inode slot, the difference between `ref` and the
number of hosted cache slots. -/
theorem acquire_sameD {PGSIZE : Nat} {s s' : KState} {ip offset : Nat} {r : Option Nat}
    (hinv : CInv s) (ha : ctable_acquire PGSIZE s ip offset = some (r, s')) : SameD s s' := by
  unfold ctable_acquire at ha
  split at ha
  · cases ha
  · split at ha
    · cases ha
      exact (benign_lru_adjust _ _).sameD (lru_adjust_cache _ _)
    · split at ha
      · rename_i c hc
        obtain ⟨hcn, hp, _⟩ := find_slot_some hc
        exact fill_slot_sameD hinv hcn (by simpa using hp) ha
      · split at ha
        · cases ha
        · rename_i x s1 hev
          have h1 : CInv s1 := hinv.evict hev
          have d1 := evict_sameD hinv hev
          split at ha
          · rename_i c hc
            obtain ⟨hcn, hp, _⟩ := find_slot_some hc
            exact d1.trans_d (fill_slot_sameD h1 hcn (by simpa using hp) ha)
          · cases ha; exact d1

theorem SlotOnly.refl_slot (e : Nat) (s : KState) : SlotOnly e s s :=
  ⟨SameC.refl_c s, rfl, LogExt.refl_log _ _, fun _ => rfl⟩

theorem SlotOnly.trans_slot {e : Nat} {a b c : KState} (h1 : SlotOnly e a b) (h2 : SlotOnly e b c) :
    SlotOnly e a c :=
  ⟨h1.1.trans_c h2.1, h2.2.1.trans h1.2.1, h1.2.2.1.trans_log h2.2.2.1,
    fun j => (h2.2.2.2 j).trans (h1.2.2.2 j)⟩

theorem Benign.slotOnly {s s' : KState} (h : Benign s s') (hc : SameC s s') (e : Nat) :
    SlotOnly e s s' :=
  ⟨hc, h.2.1, h.1.mono (fun _ hev i _ => hev i), h.2.2⟩

theorem f_opendir_ino (s : KState) (ip : Nat) (p : String) (j : Nat) :
    ((f_opendir s ip p).2.ino j).ref = (s.ino j).ref ∧ (f_opendir s ip p).2.NINODE = s.NINODE := by
  unfold f_opendir; dsimp only
  split
  · simp
  · split
    · rw [setIno_ino, setIno_NINODE]
      split
      · rename_i h; rw [← h.1]; simp
      · simp
    · simp

theorem f_open_ino (s : KState) (ip : Nat) (p : String) (cr : Bool) (j : Nat) :
    ((f_open s ip p cr).2.ino j).ref = (s.ino j).ref ∧ (f_open s ip p cr).2.NINODE = s.NINODE := by
  unfold f_open; dsimp only
  split
  · simp
  · split
    · simp
    · rw [setFile_ino, setFile_NINODE]
      split
      · rename_i h; rw [← h.1]; simp
      · simp
    · simp
    · rw [setFile_ino, setFile_NINODE]
      split
      · rename_i h; rw [← h.1]; simp [KState.ino, KState.NINODE]
      · simp [KState.ino, KState.NINODE]

theorem f_mkdir_inode (s : KState) (p : String) : (f_mkdir s p).2.inode = s.inode := by
  unfold f_mkdir; dsimp only; split
  · simp
  · split <;> simp

theorem slotOnly_f_opendir (s : KState) (e : Nat) (p : String) :
    SlotOnly e s (f_opendir s e p).2 :=
  ⟨sameC_f_opendir _ _ _, (f_opendir_ino _ _ _ 0).2,
    LogExt.one (f_opendir_log _ _ _) (fun _ _ => by simp [isClose]),
    fun j => (f_opendir_ino _ _ _ j).1⟩

theorem slotOnly_f_open (s : KState) (e : Nat) (p : String) (cr : Bool) :
    SlotOnly e s (f_open s e p cr).2 :=
  ⟨sameC_f_open _ _ _ _, (f_open_ino _ _ _ _ 0).2,
    LogExt.one (f_open_log _ _ _ _) (fun _ _ => by simp [isClose]),
    fun j => (f_open_ino _ _ _ _ j).1⟩

theorem slotOnly_f_mkdir (s : KState) (e : Nat) (p : String) : SlotOnly e s (f_mkdir s p).2 :=
  ⟨sameC_f_mkdir _ _, NINODE_congr (f_mkdir_inode _ _),
    LogExt.one (f_mkdir_log _ _) (fun _ _ => by simp [isClose]),
    fun j => by rw [ino_congr (f_mkdir_inode _ _)]⟩

theorem slotOnly_f_close (s : KState) (e : Nat) : SlotOnly e s (f_close s e).2 :=
  ⟨sameC_f_close _ _, NINODE_congr (f_close_inode _ _),
    LogExt.one (f_close_log _ _) (fun i hi => by
      simp only [isClose, beq_iff_eq, Ev.f_close.injEq, Bool.or_eq_false_iff]
      exact ⟨by simpa using fun h => hi h.symm, by simp⟩),
    fun j => by rw [ino_congr (f_close_inode _ _)]⟩

theorem slotOnly_f_lseek (s : KState) (e ofs : Nat) : SlotOnly e s (f_lseek s e ofs).2 :=
  (benign_f_lseek s e ofs).slotOnly (sameC_f_lseek _ _ _) e

theorem slotOnly_f_read (s : KState) (e btr : Nat) : SlotOnly e s (f_read s e btr).2.2.2 :=
  (benign_f_read s e btr).slotOnly (sameC_f_read _ _ _) e

theorem slotOnly_f_write (s : KState) (e : Nat) (buf : Mem) (btw : Nat) :
    SlotOnly e s (f_write s e buf btw).2.2 :=
  (benign_f_write s e buf btw).slotOnly (sameC_f_write _ _ _ _) e

/-- A free slot `e` that received only calls on its own handle and is then opened. -/
theorem OpenEff.opened {K : Consts} {s t : KState} {e type : Nat} {path : String}
    (he : e < s.NINODE) (h0 : (s.ino e).ref = 0) (h : SlotOnly e s t) :
    OpenEff s (some e) (open_slot K t e type path) := by
  refine ⟨h.1.trans_c ⟨rfl, rfl⟩, by rw [← h.2.1]; exact setIno_NINODE _ _ _,
    Or.inr ⟨e, he, h0, ?_, ?_, ?_⟩⟩
  · exact h.2.2.1.trans_log (LogExt.of_log_eq rfl)
  · intro j hj
    unfold open_slot
    rw [setIno_ino, if_neg (fun hh => hj hh.1.symm)]
    exact h.2.2.2 j
  · left
    refine ⟨rfl, ?_⟩
    unfold open_slot
    rw [setIno_ino, if_pos ⟨rfl, by rw [h.2.1]; exact he⟩]

/-- A free slot `e` that received only calls on its own handle and is left free. -/
theorem OpenEff.failed {s t : KState} {e : Nat}
    (he : e < s.NINODE) (h0 : (s.ino e).ref = 0) (h : SlotOnly e s t) :
    OpenEff s none t :=
  ⟨h.1, h.2.1, Or.inr ⟨e, he, h0, h.2.2.1, fun j _ => h.2.2.2 j,
    Or.inr ⟨rfl, by rw [h.2.2.2 e]; exact h0⟩⟩⟩

/-- A live slot `i` found in the table and referenced once more. -/
theorem OpenEff.found {s : KState} {i : Nat} (hi : i < s.NINODE) (hpos : (s.ino i).ref > 0) :
    OpenEff s (some i) (s.setIno i { s.ino i with ref := (s.ino i).ref + 1 }) := by
  refine ⟨sameC_setIno _ _ _, setIno_NINODE _ _ _, Or.inl ⟨i, rfl, hi, hpos, rfl, fun j => ?_⟩⟩
  rw [setIno_ino]
  by_cases hj : i = j
  · subst hj; simp [hi]
  · have : ¬ (j = i) := fun h => hj h.symm
    simp [hj, this]

theorem ino_findIdx {s : KState} {p : inode → Bool} (h : s.inode.findIdx p < s.inode.length) :
    p (s.ino (s.inode.findIdx p)) = true := by
  have := List.findIdx_getElem (w := h)
  simpa [KState.ino, List.getElem?_eq_getElem h] using this

theorem scan_path_inl {K : Consts} {s : KState} {path : String} {i : Nat}
    (h : scan_path K s path = some (Sum.inl i)) : i < s.NINODE ∧ (s.ino i).ref > 0 := by
  unfold scan_path at h
  dsimp only at h
  split at h
  · rename_i hlt
    cases h
    refine ⟨hlt, ?_⟩
    have := ino_findIdx hlt
    simp only [Bool.and_eq_true, decide_eq_true_eq] at this
    exact this.1.1
  · split at h <;> cases h

theorem scan_path_inr {K : Consts} {s : KState} {path : String} {e : Nat}
    (h : scan_path K s path = some (Sum.inr e)) : e < s.NINODE ∧ (s.ino e).ref = 0 := by
  unfold scan_path at h
  dsimp only at h
  split at h
  · cases h
  · split at h
    · rename_i hlt
      cases h
      refine ⟨hlt, ?_⟩
      have := ino_findIdx hlt
      simpa using this
    · cases h

/-- A free slot `e` that received only calls on its own handle and ends with `ref = 1`. -/
theorem OpenEff.ended_open {s t t' : KState} {e : Nat}
    (he : e < s.NINODE) (h0 : (s.ino e).ref = 0) (h : SlotOnly e s t)
    (hc : SameC t t') (hl : t'.log = t.log) (hn : t'.NINODE = t.NINODE)
    (hoth : ∀ j, j ≠ e → (t'.ino j).ref = (t.ino j).ref) (he1 : (t'.ino e).ref = 1) :
    OpenEff s (some e) t' :=
  ⟨h.1.trans_c hc, hn.trans h.2.1, Or.inr ⟨e, he, h0, h.2.2.1.trans_log (LogExt.of_log_eq hl),
    fun j hj => (hoth j hj).trans (h.2.2.2 j), Or.inl ⟨rfl, he1⟩⟩⟩

theorem open_slot_ref (K : Consts) (t : KState) (e type : Nat) (path : String) (j : Nat) :
    ((open_slot K t e type path).ino j).ref = if e = j ∧ e < t.NINODE then 1 else (t.ino j).ref := by
  unfold open_slot
  rw [setIno_ino]
  split <;> rfl

theorem iget_root_eff {K : Consts} {s s' : KState} {i : Nat}
    (h : iget_root K s = some (i, s')) : OpenEff s (some i) s' := by
  unfold iget_root at h
  dsimp only at h
  split at h
  · rename_i hlt
    have hp := ino_findIdx hlt
    generalize s.inode.findIdx _ = stop at h hlt hp
    split at h
    · rename_i hlive
      cases h
      exact OpenEff.found hlt hlive.1
    · rename_i hnl
      have h0 : (s.ino stop).ref = 0 := by
        simp only [Bool.or_eq_true, Bool.and_eq_true, decide_eq_true_eq, beq_iff_eq] at hp
        rcases hp with hp | hp
        · exact absurd ⟨hp.1.1, hp.1.2, hp.2⟩ hnl
        · exact hp
      split at h
      · cases h
      · cases h
        exact OpenEff.opened hlt h0 (slotOnly_f_opendir _ _ _)
  · cases h

theorem dirlookup_file_eff {K : Consts} {s t : KState} {e : Nat} {path : String}
    (he : e < s.NINODE) (h0 : (s.ino e).ref = 0) (hst : SlotOnly e s t) :
    OpenEff s (dirlookup_file K t e path).1 (dirlookup_file K t e path).2 := by
  unfold dirlookup_file
  dsimp only
  have hsdev : SlotOnly e s
      (if (f_rewind t e).1 = FRESULT.FR_OK then (f_read (f_rewind t e).2 e 8).2.2.2
        else (f_rewind t e).2) := by
    split
    · exact hst.trans_slot ((slotOnly_f_lseek _ _ _).trans_slot (slotOnly_f_read _ _ _))
    · exact hst.trans_slot (slotOnly_f_lseek _ _ _)
  generalize (if (f_rewind t e).1 = FRESULT.FR_OK then (f_read (f_rewind t e).2 e 8).2.2.2
        else (f_rewind t e).2) = sdev at hsdev
  have hlt' : ∀ {u : KState}, SlotOnly e s u → e < u.NINODE := fun hu => by rw [hu.2.1]; exact he
  split
  · -- device record
    refine OpenEff.ended_open he h0 hsdev ⟨rfl, rfl⟩ rfl ?_ ?_ ?_
    · rw [setIno_NINODE]; exact setIno_NINODE _ _ _
    · intro j hj
      rw [setIno_ino, if_neg (fun hh => hj hh.1.symm), open_slot_ref,
        if_neg (fun hh => hj hh.1.symm)]
    · rw [setIno_ino, if_pos ⟨rfl, by rw [show (open_slot K sdev e T_DEVICE path).NINODE
          = sdev.NINODE from setIno_NINODE _ _ _]; exact hlt' hsdev⟩]
      show ((open_slot K sdev e T_DEVICE path).ino e).ref = 1
      rw [open_slot_ref, if_pos ⟨rfl, hlt' hsdev⟩]
  · have hssym : SlotOnly e s
        (if (f_rewind sdev e).1 = FRESULT.FR_OK
          then (f_read (f_rewind sdev e).2 e (4 + K.MAXPATH)).2.2.2
          else (f_rewind sdev e).2) := by
      split
      · exact hsdev.trans_slot ((slotOnly_f_lseek _ _ _).trans_slot (slotOnly_f_read _ _ _))
      · exact hsdev.trans_slot (slotOnly_f_lseek _ _ _)
    generalize (if (f_rewind sdev e).1 = FRESULT.FR_OK
          then (f_read (f_rewind sdev e).2 e (4 + K.MAXPATH)).2.2.2
          else (f_rewind sdev e).2) = ssym at hssym
    split
    · -- symlink record
      have hcl : SlotOnly e s (f_close ssym e).2 := hssym.trans_slot (slotOnly_f_close _ _)
      split
      · exact OpenEff.failed he h0 (hcl.trans_slot (slotOnly_f_open _ _ _ _))
      · exact OpenEff.opened he h0 (hcl.trans_slot (slotOnly_f_open _ _ _ _))
    · exact OpenEff.opened he h0 hssym

theorem dirlookup_eff {K : Consts} {s s' : KState} {dp : Nat} {name : String} {r : Option Nat}
    (h : dirlookup K s dp name = some (r, s')) : OpenEff s r s' := by
  unfold dirlookup at h
  split at h
  · cases h
  · dsimp only at h
    split at h
    · cases h
    · rename_i i hscan
      cases h
      obtain ⟨hi, hpos⟩ := scan_path_inl hscan
      exact OpenEff.found hi hpos
    · rename_i e hscan
      obtain ⟨he, h0⟩ := scan_path_inr hscan
      split at h
      · cases h
        exact OpenEff.opened he h0 (slotOnly_f_opendir _ _ _)
      · split at h
        · have h2 := Option.some.inj h
          have h3 := @dirlookup_file_eff K s _ e (child_path (s.ino dp).path name) he h0
            ((slotOnly_f_opendir s e (child_path (s.ino dp).path name)).trans_slot
              (slotOnly_f_open _ e (child_path (s.ino dp).path name) false))
          rw [h2] at h3
          exact h3
        · cases h
          exact OpenEff.failed he h0
            ((slotOnly_f_opendir _ _ _).trans_slot (slotOnly_f_open _ _ _ _))

theorem icreate_eff {K : Consts} {s s' : KState} {dp : Nat} {name : String} {type : Nat}
    {major minor : Int} {r : Option Nat}
    (h : icreate K s dp name type major minor = some (r, s')) : OpenEff s r s' := by
  unfold icreate at h
  split at h
  · cases h
  · dsimp only at h
    split at h
    · cases h
    · rename_i i hscan
      cases h
      obtain ⟨hi, hpos⟩ := scan_path_inl hscan
      exact OpenEff.found hi hpos
    · rename_i e hscan
      obtain ⟨he, h0⟩ := scan_path_inr hscan
      have hlt' : ∀ {u : KState}, SlotOnly e s u → e < u.NINODE :=
        fun hu => by rw [hu.2.1]; exact he
      split at h
      · split at h
        · cases h
          exact OpenEff.failed he h0 (slotOnly_f_mkdir _ _ _)
        · split at h
          · cases h
            exact OpenEff.failed he h0 ((slotOnly_f_mkdir _ _ _).trans_slot (slotOnly_f_opendir _ _ _))
          · cases h
            exact OpenEff.opened he h0
              ((slotOnly_f_mkdir _ _ _).trans_slot (slotOnly_f_opendir _ _ _))
      · split at h
        · split at h
          · cases h
            exact OpenEff.failed he h0 (slotOnly_f_open _ _ _ _)
          · cases h
            exact OpenEff.opened he h0 (slotOnly_f_open _ _ _ _)
        · split at h
          · split at h
            · cases h
              exact OpenEff.failed he h0 (slotOnly_f_open _ _ _ _)
            · split at h
              · cases h
                exact OpenEff.failed he h0
                  ((slotOnly_f_open _ _ _ _).trans_slot (slotOnly_f_write _ _ _ _))
              · cases h
                have hw := (slotOnly_f_open s e (child_path (s.ino dp).path name) true).trans_slot
                  (slotOnly_f_write _ e (device_bytes K.DEVICE_MAGIC major minor) 8)
                refine OpenEff.ended_open he h0 hw ⟨rfl, rfl⟩ rfl ?_ ?_ ?_
                · rw [setIno_NINODE]; exact setIno_NINODE _ _ _
                · intro j hj
                  rw [setIno_ino, if_neg (fun hh => hj hh.1.symm), open_slot_ref,
                    if_neg (fun hh => hj hh.1.symm)]
                · rw [setIno_ino, if_pos ⟨rfl, by
                    rw [show (open_slot K _ e T_DEVICE _).NINODE = _ from setIno_NINODE _ _ _]
                    exact hlt' hw⟩]
                  show ((open_slot K _ e T_DEVICE _).ino e).ref = 1
                  rw [open_slot_ref, if_pos ⟨rfl, hlt' hw⟩]
          · cases h
            exact OpenEff.failed he h0 (SlotOnly.refl_slot e s)

theorem Bal.open_eff {s s' : KState} {H : Nat → Nat} {r : Option Nat} (hb : Bal s H)
    (h : OpenEff s r s') : Bal s' (hold_result H r) := by
  obtain ⟨hc, hn, hcase⟩ := h
  intro j hj
  rw [hn] at hj
  have hbj := hb j hj
  rw [hosted_congr hc.1]
  rcases hcase with ⟨i, rfl, _, _, _, href⟩ | ⟨e, he, h0, _, hoth, hres⟩
  · rw [href j]
    simp only [hold_result, hold]
    by_cases hji : j = i
    · simp only [hji, if_true] at hbj ⊢
      rw [← hji] at hbj ⊢
      push_cast
      omega
    · simp only [hji, if_false]
      omega
  · have hbe := hb e he
    rw [h0] at hbe
    by_cases hje : j = e
    · subst hje
      rcases hres with ⟨rfl, h1⟩ | ⟨rfl, h1⟩
      · rw [h1]
        simp only [hold_result, hold, if_true]
        push_cast
        omega
      · rw [h1]
        simp only [hold_result]
        omega
    · rw [hoth j hje]
      rcases hres with ⟨rfl, _⟩ | ⟨rfl, _⟩
      · simp only [hold_result, hold, hje, if_false]
        exact hbj
      · exact hbj

/-- The invariant of the run: the cache table is well formed and every `ref` is balanced. -/
theorem gstep_inv {K : Consts} {PGSIZE : Nat} {g g' : GState} {op : Op}
    (hinv : CInv g.k ∧ Bal g.k g.holders) (h : gstep K PGSIZE g op = some g') :
    CInv g'.k ∧ Bal g'.k g'.holders := by
  obtain ⟨hc, hb⟩ := hinv
  cases op with
  | iget_root =>
    simp only [gstep, Option.map_eq_some'] at h
    obtain ⟨⟨i, s'⟩, h1, rfl⟩ := h
    have := iget_root_eff h1
    exact ⟨hc.congr this.1, hb.open_eff this⟩
  | dirlookup dp name =>
    simp only [gstep, Option.map_eq_some'] at h
    obtain ⟨⟨r, s'⟩, h1, rfl⟩ := h
    have := dirlookup_eff h1
    exact ⟨hc.congr this.1, hb.open_eff this⟩
  | icreate dp name type major minor =>
    simp only [gstep, Option.map_eq_some'] at h
    obtain ⟨⟨r, s'⟩, h1, rfl⟩ := h
    have := icreate_eff h1
    exact ⟨hc.congr this.1, hb.open_eff this⟩
  | idup ip =>
    simp only [gstep, Option.some.injEq] at h
    subst h
    refine ⟨hc.congr (sameC_idup _ _), ?_⟩
    intro j hj
    have hj' : j < g.k.NINODE := by simpa [idup] using hj
    have hbj := hb j hj'
    show ((idup g.k ip).ino j).ref = ((idup g.k ip).hosted j : Int) + (hold g.holders ip j : Int)
    rw [hosted_congr (sameC_idup g.k ip).1]
    unfold idup hold
    rw [setIno_ino]
    by_cases hij : ip = j
    · subst hij
      simp only [hj', and_self, if_true]
      push_cast
      omega
    · have h1 : ¬ (ip = j ∧ ip < g.k.NINODE) := fun hh => hij hh.1
      have h2 : ¬ (j = ip) := fun hh => hij hh.symm
      simp only [h1, h2, if_false]
      exact hbj
  | iput ip =>
    simp only [gstep] at h
    split at h
    · rename_i hpos
      simp only [Option.map_eq_some'] at h
      obtain ⟨s', h1, rfl⟩ := h
      obtain ⟨_, _, hn, heff⟩ := iput_effect h1
      refine ⟨hc.congr (sameC_iput h1), ?_⟩
      intro j hj
      rw [hn] at hj
      have hbj := hb j hj
      show (s'.ino j).ref = (s'.hosted j : Int) + (unhold g.holders ip j : Int)
      rw [hosted_congr (sameC_iput h1).1, (heff j).1]
      unfold unhold
      by_cases hij : j = ip
      · subst hij
        simp only [if_true]
        omega
      · simp only [hij, if_false]
        omega
    · cases h
  | acquire ip offset =>
    simp only [gstep] at h
    split at h
    · simp only [Option.map_eq_some'] at h
      obtain ⟨⟨r, s'⟩, h1, rfl⟩ := h
      exact ⟨hc.acquire h1, (acquire_sameD hc h1).bal hb⟩
    · cases h
  | release ip =>
    simp only [gstep, Option.map_eq_some'] at h
    obtain ⟨s', h1, rfl⟩ := h
    exact ⟨hc.release h1, (release_loop_sameD _ _ h1).bal hb⟩

theorem grun_inv {K : Consts} {PGSIZE : Nat} (ops : List Op) {g g' : GState}
    (hinv : CInv g.k ∧ Bal g.k g.holders) (h : grun K PGSIZE ops g = some g') :
    CInv g'.k ∧ Bal g'.k g'.holders := by
  induction ops generalizing g with
  | nil => rw [grun] at h; cases h; exact hinv
  | cons op ops ih =>
    rw [grun] at h
    split at h
    · cases h
    · rename_i g1 hg1
      exact ih (gstep_inv hinv hg1) h

theorem Quiet.refl_q (ip : Nat) (s : KState) : Quiet ip s s :=
  ⟨rfl, fun _ => rfl, fun _ _ => rfl, Nat.le_refl _⟩

theorem Quiet.trans_q {ip : Nat} {a b c : KState} (h1 : Quiet ip a b) (h2 : Quiet ip b c) :
    Quiet ip a c :=
  ⟨h2.1.trans h1.1, fun j => (h2.2.1 j).trans (h1.2.1 j),
    fun j hj => (h2.2.2.1 j hj).trans (h1.2.2.1 j hj), Nat.le_trans h1.2.2.2 h2.2.2.2⟩

theorem QuietOrEvict.refl_qe (ip : Nat) (s : KState) : QuietOrEvict ip s s :=
  ⟨[], by simp, Or.inr ⟨fun _ h => absurd h (List.not_mem_nil _), Quiet.refl_q ip s⟩⟩

theorem QuietOrEvict.trans_qe {ip : Nat} {a b c : KState} (h1 : QuietOrEvict ip a b)
    (h2 : QuietOrEvict ip b c) : QuietOrEvict ip a c := by
  obtain ⟨l1, e1, d1⟩ := h1
  obtain ⟨l2, e2, d2⟩ := h2
  refine ⟨l1 ++ l2, by rw [e2, e1, List.append_assoc], ?_⟩
  rcases d1 with ⟨e, he, hev⟩ | ⟨q1, f1⟩
  · exact Or.inl ⟨e, List.mem_append_left _ he, hev⟩
  · rcases d2 with ⟨e, he, hev⟩ | ⟨q2, f2⟩
    · exact Or.inl ⟨e, List.mem_append_right _ he, hev⟩
    · refine Or.inr ⟨fun e he => ?_, f1.trans_q f2⟩
      rcases List.mem_append.mp he with h | h
      · exact q1 e h
      · exact q2 e h

/-- A step that leaves the log, the inode table and the directory tree alone. -/
theorem qe_of_eq {ip : Nat} {s s' : KState} (hl : s'.log = s.log) (hi : s'.inode = s.inode)
    (hd : s'.disk = s.disk) : QuietOrEvict ip s s' :=
  ⟨[], by simp [hl], Or.inr ⟨fun _ h => absurd h (List.not_mem_nil _),
    hd, fun j => by rw [ino_congr hi], fun j _ => by rw [ino_congr hi], by rw [ino_congr hi]⟩⟩

/-- A step that logs one quiet record and is quiet. -/
theorem qe_one {ip : Nat} {s s' : KState} {e : Ev} (hl : s'.log = s.log ++ [e])
    (he : quietEv ip e = true) (hq : Quiet ip s s') : QuietOrEvict ip s s' :=
  ⟨[e], hl, Or.inr ⟨fun x hx => by rw [List.mem_singleton.mp hx]; exact he, hq⟩⟩

/-- Once an eviction is logged, whatever follows only extends the log. -/
theorem qe_evicted {ip : Nat} {s s' : KState} {c : Nat} {evs : List Ev}
    (hl : s'.log = s.log ++ Ev.evict c :: evs) : QuietOrEvict ip s s' :=
  ⟨_, hl, Or.inl ⟨Ev.evict c, List.mem_cons_self _ _, rfl⟩⟩

theorem f_lseek_disk (s : KState) (ip ofs : Nat) : (f_lseek s ip ofs).2.disk = s.disk := by
  unfold f_lseek KState.fault
  split <;> split <;> rfl

theorem f_read_disk (s : KState) (ip btr : Nat) : (f_read s ip btr).2.2.2.disk = s.disk := by
  unfold f_read KState.fault
  split <;> split <;> rfl

theorem quiet_f_lseek (s : KState) (ip ofs : Nat) : Quiet ip s (f_lseek s ip ofs).2 := by
  refine ⟨f_lseek_disk s ip ofs, fun j => ?_, fun j hj => ?_, ?_⟩
  · rw [f_lseek_ino]; split
    · rename_i h; rw [h.2.1]
    · rfl
  · rw [f_lseek_ino]; split
    · rename_i h; exact absurd h.2.1.symm hj
    · rfl
  · rw [f_lseek_ino]; split
    · exact Nat.le_max_left _ _
    · exact Nat.le_refl _

theorem quiet_f_read (s : KState) (ip btr : Nat) : Quiet ip s (f_read s ip btr).2.2.2 := by
  refine ⟨f_read_disk s ip btr, fun j => ?_, fun j hj => ?_, ?_⟩
  · rw [f_read_ino]; split
    · rename_i h; rw [h.2.1]
    · rfl
  · rw [f_read_ino]; split
    · rename_i h; exact absurd h.2.1.symm hj
    · rfl
  · rw [f_read_ino]; split
    · exact Nat.le_refl _
    · exact Nat.le_refl _

theorem qe_f_lseek (s : KState) (ip ofs : Nat) : QuietOrEvict ip s (f_lseek s ip ofs).2 :=
  qe_one (f_lseek_log s ip ofs) (by simp [quietEv]) (quiet_f_lseek s ip ofs)

theorem qe_f_read (s : KState) (ip btr : Nat) : QuietOrEvict ip s (f_read s ip btr).2.2.2 :=
  qe_one (f_read_log s ip btr) (by simp [quietEv]) (quiet_f_read s ip btr)

theorem qe_emit (ip : Nat) (s : KState) (e : Ev) (he : quietEv ip e = true) :
    QuietOrEvict ip s (s.emit e) :=
  qe_one rfl he (Quiet.refl_q ip s)

theorem iput_log_ext {s s' : KState} {ip : Nat} (h : iput s ip = some s') :
    ∃ evs, s'.log = s.log ++ evs := by
  obtain ⟨_, s1, h1, rfl⟩ := iput_chain h
  show ∃ evs, s1.log = s.log ++ evs
  split at h1
  · unfold iput_last at h1
    split at h1
    · cases h1
    · obtain ⟨l, hl, _⟩ := iput_deferred_logExt h1
      exact ⟨(if (s.ino ip).type = T_DIR then Ev.f_closedir ip else Ev.f_close ip) :: l, by
        rw [hl, iput_close_log]; simp⟩
  · rw [h1]; exact ⟨[], by simp⟩

theorem qe_evict_at {PGSIZE ip : Nat} {s s' : KState} {i c : Nat} {r : Int}
    (h : evict_at PGSIZE s i c = some (r, s')) : QuietOrEvict ip s s' := by
  obtain ⟨s1, h', s3, _, hwb, _, hput, rfl⟩ := evict_at_chain h
  obtain ⟨l1, hl1, _⟩ := (benign_wb_ok hwb).1
  obtain ⟨l3, hl3⟩ := iput_log_ext hput
  refine @qe_evicted ip s _ c (l1 ++ Ev.recycle_page :: l3) ?_
  show s3.log = _
  rw [hl3]
  show (s1.log ++ [Ev.recycle_page]) ++ l3 = _
  rw [hl1]
  show ((s.log ++ [Ev.evict c]) ++ l1 ++ [Ev.recycle_page]) ++ l3 = _
  simp

theorem qe_evict {PGSIZE ip : Nat} {s s' : KState} {r : Int}
    (h : ctable_lru_evict PGSIZE s = some (r, s')) : QuietOrEvict ip s s' := by
  unfold ctable_lru_evict at h
  rcases evict_scan_cases h with ⟨_, h2, _⟩ | ⟨i, c, _, _, _, _, h5⟩
  · rw [h2]; exact QuietOrEvict.refl_qe _ _
  · exact qe_evict_at h5

theorem qe_lru_add {PGSIZE ip : Nat} {s s' : KState} {c : Nat} {x : Int}
    (h : ctable_lru_add PGSIZE s c = some (x, s')) : QuietOrEvict ip s s' := by
  obtain ⟨s1, h1, h2⟩ := lru_add_chain h
  have p1 : QuietOrEvict ip s s1 := by
    rcases h1 with ⟨_, rfl⟩ | ⟨_, r, hev⟩
    · exact QuietOrEvict.refl_qe _ _
    · exact qe_evict hev
  rcases h2 with ⟨_, rfl⟩ | ⟨_, rfl⟩
  · exact p1
  · exact p1.trans_qe (qe_of_eq rfl rfl rfl)

theorem qe_setSlot (ip : Nat) (s : KState) (c : Nat) (v : page_cache) :
    QuietOrEvict ip s (s.setSlot c v) := qe_of_eq rfl rfl rfl

theorem qe_fill_claim (s : KState) (c ip offset : Nat) :
    QuietOrEvict ip s (fill_claim s c ip offset) :=
  (qe_emit ip s Ev.alloc_page rfl).trans_qe (qe_setSlot _ _ _ _)

theorem qe_fill_loaded (PGSIZE : Nat) (t : KState) (c ip offset : Nat) :
    QuietOrEvict ip t (fill_loaded PGSIZE t c ip offset) :=
  (qe_f_read t ip PGSIZE).trans_qe (qe_setSlot _ _ _ _)

theorem qe_fill_rollback (ip : Nat) (t : KState) (c : Nat) :
    QuietOrEvict ip t (fill_rollback t c) :=
  (qe_emit ip t Ev.recycle_page rfl).trans_qe (qe_setSlot _ _ _ _)

theorem idup_file (s : KState) (ip j : Nat) : ((idup s ip).ino j).file = (s.ino j).file := by
  unfold idup
  rw [setIno_ino]
  split
  · rename_i h; rw [h.1]
  · rfl

theorem qe_idup (s : KState) (ip : Nat) : QuietOrEvict ip s (idup s ip) :=
  ⟨[], by simp [idup, KState.setIno], Or.inr ⟨fun _ h => absurd h (List.not_mem_nil _),
    rfl, fun j => by rw [idup_file], fun j _ => idup_file s ip j, by rw [idup_file]⟩⟩

theorem qe_fill_slot {PGSIZE : Nat} {s s' : KState} {c ip offset : Nat} {r : Option Nat}
    (hc : c < s.NCACHE) (h : fill_slot PGSIZE s c ip offset = some (r, s')) :
    QuietOrEvict ip s s' := by
  have q1 : QuietOrEvict ip s (f_lseek (fill_claim s c ip offset) ip offset).2 :=
    (qe_fill_claim s c ip offset).trans_qe (qe_f_lseek _ _ _)
  rcases fill_slot_chain hc h with ⟨_, _, rfl⟩ | ⟨_, ⟨_, _, rfl⟩ | ⟨_, _, x, hadd⟩⟩
  · exact q1.trans_qe (qe_fill_rollback _ _ _)
  · exact (q1.trans_qe (qe_fill_loaded _ _ _ _ _)).trans_qe (qe_fill_rollback _ _ _)
  · exact ((q1.trans_qe (qe_fill_loaded _ _ _ _ _)).trans_qe (qe_idup _ _)).trans_qe
      (qe_lru_add hadd)

theorem qe_lru_adjust (ip : Nat) (s : KState) (c : Nat) :
    QuietOrEvict ip s (ctable_lru_adjust s c).2 := by
  unfold ctable_lru_adjust
  dsimp only
  split
  · exact qe_of_eq rfl rfl rfl
  · exact QuietOrEvict.refl_qe _ _

theorem qe_acquire {PGSIZE : Nat} {s s' : KState} {ip offset : Nat} {r : Option Nat}
    (ha : ctable_acquire PGSIZE s ip offset = some (r, s')) : QuietOrEvict ip s s' := by
  unfold ctable_acquire at ha
  split at ha
  · cases ha
  · split at ha
    · cases ha
      exact qe_lru_adjust _ _ _
    · split at ha
      · rename_i c hc
        obtain ⟨hcn, _, _⟩ := find_slot_some hc
        exact qe_fill_slot hcn ha
      · split at ha
        · cases ha
        · rename_i x s1 hev
          have p1 : QuietOrEvict ip s s1 := qe_evict hev
          split at ha
          · rename_i c hc
            obtain ⟨hcn, _, _⟩ := find_slot_some hc
            exact p1.trans_qe (qe_fill_slot hcn ha)
          · cases ha; exact p1

theorem qe_copyin (ip : Nat) (s : KState) (user_src : Bool) (c inpage : Nat) (src : Mem)
    (bufoff n : Nat) : QuietOrEvict ip s (either_copyin s user_src c inpage src bufoff n).2 := by
  have hput : ∀ t : KState, QuietOrEvict ip t
      (match (t.slot c).page with
        | some pg => t.setSlot c
            { t.slot c with page := some { pg with data := blit pg.data inpage src bufoff n } }
        | none => t) := by
    intro t
    split
    · exact qe_setSlot _ _ _ _
    · exact QuietOrEvict.refl_qe _ _
  have hev : ∀ t : KState, QuietOrEvict ip t ((t.fault.2).emit (Ev.copyin c inpage bufoff n)) := by
    intro t
    refine qe_one (e := Ev.copyin c inpage bufoff n) ?_ rfl ?_
    · unfold KState.fault KState.emit; split <;> rfl
    · unfold KState.fault KState.emit Quiet; split <;> exact ⟨rfl, fun _ => rfl, fun _ _ => rfl, Nat.le_refl _⟩
  unfold either_copyin
  dsimp only
  split
  · split
    · exact hev s
    · exact (hev s).trans_qe (hput _)
  · exact (qe_emit ip s (Ev.copyin c inpage bufoff n) rfl).trans_qe (hput _)

/-- One iteration of the loop of `writei`, case by case. -/
theorem writei_loop_step {PGSIZE ip : Nat} {user_src : Bool} {src : Mem} {n_dup fuel : Nat}
    {s s' : KState} {bufoff off len : Nat} {r : Int} (hlen : len ≠ 0)
    (h : writei_loop PGSIZE ip user_src src n_dup (fuel + 1) s bufoff off len = some (r, s')) :
    ∃ ro s1, ctable_acquire PGSIZE s ip (PGROUNDDOWN PGSIZE off) = some (ro, s1) ∧
      ((ro = none ∧ r = 0 ∧ s' = s1) ∨
       ∃ c, ro = some c ∧
        (((either_copyin s1 user_src c (usub off (PGROUNDDOWN PGSIZE off)) src bufoff
              (chunk PGSIZE off len)).1 = -1 ∧ r = 0 ∧
            s' = (either_copyin s1 user_src c (usub off (PGROUNDDOWN PGSIZE off)) src bufoff
              (chunk PGSIZE off len)).2) ∨
         ((either_copyin s1 user_src c (usub off (PGROUNDDOWN PGSIZE off)) src bufoff
              (chunk PGSIZE off len)).1 ≠ -1 ∧
           writei_loop PGSIZE ip user_src src n_dup fuel
             ((either_copyin s1 user_src c (usub off (PGROUNDDOWN PGSIZE off)) src bufoff
                (chunk PGSIZE off len)).2.setSlot c
               { (either_copyin s1 user_src c (usub off (PGROUNDDOWN PGSIZE off)) src bufoff
                  (chunk PGSIZE off len)).2.slot c with dirty := true })
             (bufoff + chunk PGSIZE off len) (u32 (PGROUNDDOWN PGSIZE off + PGSIZE))
             (len - chunk PGSIZE off len) = some (r, s')))) := by
  rw [writei_loop, if_neg hlen] at h
  dsimp only at h
  cases ha : ctable_acquire PGSIZE s ip (PGROUNDDOWN PGSIZE off) with
  | none => rw [ha] at h; cases h
  | some p =>
    obtain ⟨ro, s1⟩ := p
    rw [ha] at h
    refine ⟨ro, s1, rfl, ?_⟩
    cases ro with
    | none =>
      dsimp only at h
      cases h
      exact Or.inl ⟨rfl, rfl, rfl⟩
    | some c =>
      dsimp only at h
      refine Or.inr ⟨c, rfl, ?_⟩
      change (if (either_copyin s1 user_src c (usub off (PGROUNDDOWN PGSIZE off)) src bufoff
        (chunk PGSIZE off len)).1 = -1 then _ else _) = _ at h
      by_cases hc : (either_copyin s1 user_src c (usub off (PGROUNDDOWN PGSIZE off)) src bufoff
        (chunk PGSIZE off len)).1 = -1
      · rw [if_pos hc] at h
        cases h
        exact Or.inl ⟨hc, rfl, rfl⟩
      · rw [if_neg hc] at h
        exact Or.inr ⟨hc, h⟩

theorem qe_writei_loop {PGSIZE ip : Nat} {user_src : Bool} {src : Mem} {n_dup : Nat} (fuel : Nat)
    {s s' : KState} {bufoff off len : Nat} {r : Int}
    (h : writei_loop PGSIZE ip user_src src n_dup fuel s bufoff off len = some (r, s')) :
    QuietOrEvict ip s s' := by
  induction fuel generalizing s bufoff off len with
  | zero =>
    rw [writei_loop] at h
    split at h
    · cases h; exact QuietOrEvict.refl_qe _ _
    · cases h
  | succ fuel ih =>
    by_cases hlen : len = 0
    · rw [writei_loop, if_pos hlen] at h
      cases h; exact QuietOrEvict.refl_qe _ _
    · obtain ⟨ro, s1, ha, hcase⟩ := writei_loop_step hlen h
      have q1 := qe_acquire ha
      rcases hcase with ⟨_, _, rfl⟩ | ⟨c, _, ⟨_, _, rfl⟩ | ⟨_, hrec⟩⟩
      · exact q1
      · exact q1.trans_qe (qe_copyin _ _ _ _ _ _ _ _)
      · exact (q1.trans_qe (qe_copyin _ _ _ _ _ _ _ _)).trans_qe
          ((qe_setSlot _ _ _ _).trans_qe (ih hrec))

theorem qe_writei {PGSIZE : Nat} {s s' : KState} {ip : Nat} {user_src : Bool} {src : Mem}
    {off n : Nat} {r : Int} (h : writei PGSIZE s ip user_src src off n = some (r, s')) :
    QuietOrEvict ip s s' := by
  unfold writei at h
  dsimp only at h
  split at h
  · cases h
    exact qe_f_lseek _ _ _
  · rename_i s1 hg
    split at hg
    · split at hg
      · cases hg
      · cases hg
        exact (qe_f_lseek _ _ _).trans_qe (qe_writei_loop _ h)
    · cases hg
      exact qe_writei_loop _ h

/-- C4: a `writei` call during which no eviction happens (no `evict` record is logged, every
`ctable_acquire` hit or filled a free slot) issues no `f_write`.  The records it logs are
seeks and reads on the handle of `ip`, page allocations and recyclings, and the copies; the
directory tree and the bytes of every file on the lower FS are as before, the files other
than that of `ip` are untouched, and the file of `ip` has at most been extended by
`f_lseek`. -/
theorem C4_writei_without_eviction_issues_no_f_write (PGSIZE : Nat) (s s' : KState) (ip : Nat)
    (user_src : Bool) (src : Mem) (off n : Nat) (r : Int)
    (h : writei PGSIZE s ip user_src src off n = some (r, s')) :
    ∃ evs, s'.log = s.log ++ evs ∧
      ((∀ e, e ∈ evs → isEvict e = false) →
        (∀ e, e ∈ evs → quietEv ip e = true) ∧ (∀ j btw, Ev.f_write j btw ∉ evs) ∧
        s'.disk = s.disk ∧ (∀ j, (s'.ino j).file.data = (s.ino j).file.data) ∧
        (∀ j, j ≠ ip → (s'.ino j).file = (s.ino j).file) ∧
        (s.ino ip).file.objsize ≤ (s'.ino ip).file.objsize) := by
  obtain ⟨evs, hl, hcase⟩ := qe_writei h
  refine ⟨evs, hl, fun hne => ?_⟩
  rcases hcase with ⟨e, he, hev⟩ | ⟨hq, hd, hdata, hoth, hsz⟩
  · rw [hne e he] at hev
    cases hev
  · refine ⟨hq, fun j btw hmem => ?_, hd, hdata, hoth, hsz⟩
    have := hq _ hmem
    simp [quietEv] at this

theorem wWrote_run : writei 4096 w0 1 false wHello 0 5 = some (5, wWrote) := rfl

theorem C4_writei_without_eviction_issues_no_f_write_witness :
    writei 4096 w0 1 false wHello 0 5 = some (5, wWrote) ∧
    wWrote.log = w0.log ++ [Ev.f_lseek 1 5, Ev.alloc_page, Ev.f_lseek 1 0, Ev.f_read 1 4096,
      Ev.copyin 0 0 0 5] ∧
    ∃ evs, wWrote.log = w0.log ++ evs ∧
      ((∀ e, e ∈ evs → isEvict e = false) →
        (∀ e, e ∈ evs → quietEv 1 e = true) ∧ (∀ j btw, Ev.f_write j btw ∉ evs) ∧
        wWrote.disk = w0.disk ∧ (∀ j, (wWrote.ino j).file.data = (w0.ino j).file.data) ∧
        (∀ j, j ≠ 1 → (wWrote.ino j).file = (w0.ino j).file) ∧
        (w0.ino 1).file.objsize ≤ (wWrote.ino 1).file.objsize) :=
  ⟨wWrote_run, by decide,
    C4_writei_without_eviction_issues_no_f_write 4096 w0 wWrote 1 false wHello 0 5 5 wWrote_run⟩

/-! ## Unsigned arithmetic and pages -/

theorem u32_eq {x : Nat} (h : x < 2 ^ 32) : u32 x = x := Nat.mod_eq_of_lt h

theorem usub_eq {a b : Nat} (hb : b ≤ a) (ha : a < 2 ^ 32) : usub a b = a - b := by
  unfold usub
  have hb' : b % 2 ^ 32 = b := Nat.mod_eq_of_lt (by omega)
  rw [hb']
  have : a + 2 ^ 32 - b = a - b + 2 ^ 32 := by omega
  rw [this, Nat.add_mod_right]
  exact Nat.mod_eq_of_lt (by omega)

theorem PGROUNDDOWN_le (PGSIZE a : Nat) : PGROUNDDOWN PGSIZE a ≤ a :=
  Nat.div_mul_le_self a PGSIZE

theorem PGROUNDDOWN_mod (PGSIZE a : Nat) : PGROUNDDOWN PGSIZE a % PGSIZE = 0 :=
  Nat.mul_mod_left _ _

theorem sub_PGROUNDDOWN (PGSIZE a : Nat) : a - PGROUNDDOWN PGSIZE a = a % PGSIZE := by
  unfold PGROUNDDOWN
  have := Nat.div_add_mod a PGSIZE
  have h2 : a / PGSIZE * PGSIZE = PGSIZE * (a / PGSIZE) := Nat.mul_comm _ _
  omega

theorem lt_PGROUNDDOWN_add {PGSIZE : Nat} (hP : 0 < PGSIZE) (a : Nat) :
    a < PGROUNDDOWN PGSIZE a + PGSIZE := by
  have h1 := sub_PGROUNDDOWN PGSIZE a
  have h2 := Nat.mod_lt a hP
  have h3 := PGROUNDDOWN_le PGSIZE a
  omega

/-- A page-aligned `o` with `o ≤ p < o + PGSIZE` is the page of `p`. -/
theorem PGROUNDDOWN_of_range {PGSIZE o p : Nat} (ho : o % PGSIZE = 0) (h1 : o ≤ p)
    (h2 : p < o + PGSIZE) : PGROUNDDOWN PGSIZE p = o := by
  unfold PGROUNDDOWN
  obtain ⟨k, rfl⟩ := Nat.dvd_of_mod_eq_zero ho
  have hP : 0 < PGSIZE := by
    rcases Nat.eq_zero_or_pos PGSIZE with h | h
    · subst h; omega
    · exact h
  have : p / PGSIZE = k := by
    apply Nat.div_eq_of_lt_le
    · rw [Nat.mul_comm]; exact h1
    · rw [Nat.succ_mul, Nat.mul_comm]; exact h2
  rw [this, Nat.mul_comm]

theorem PGROUNDDOWN_of_chunk {PGSIZE : Nat} {off p : Nat} (h1 : off ≤ p)
    (h2 : p < PGROUNDDOWN PGSIZE off + PGSIZE) :
    PGROUNDDOWN PGSIZE p = PGROUNDDOWN PGSIZE off :=
  PGROUNDDOWN_of_range (PGROUNDDOWN_mod _ _) (Nat.le_trans (PGROUNDDOWN_le _ _) h1) h2

theorem blit_in (dst : Mem) (d : Nat) (src : Mem) (s n i : Nat) (h1 : d ≤ i) (h2 : i < d + n) :
    blit dst d src s n i = src (s + (i - d)) := by
  unfold blit; rw [if_pos ⟨h1, h2⟩]

theorem blit_out (dst : Mem) (d : Nat) (src : Mem) (s n i : Nat) (h : ¬ (d ≤ i ∧ i < d + n)) :
    blit dst d src s n i = dst i := by
  unfold blit; rw [if_neg h]

/-! ## What the cache operations do to the files -/

theorem Grow.refl_g (s : KState) : Grow s s := fun _ => ⟨rfl, Nat.le_refl _, fun h => h⟩

theorem Grow.trans_g {a b c : KState} (h1 : Grow a b) (h2 : Grow b c) : Grow a c := fun j =>
  ⟨(h2 j).1.trans (h1 j).1, Nat.le_trans (h1 j).2.1 (h2 j).2.1,
    fun h => (h2 j).2.2 ((h1 j).2.2 h)⟩

theorem grow_of_file_eq {s s' : KState} (h : ∀ j, (s'.ino j).file = (s.ino j).file) :
    Grow s s' := fun j => by rw [h j]; exact ⟨rfl, Nat.le_refl _, fun h => h⟩

theorem grow_of_inode_eq {s s' : KState} (h : s'.inode = s.inode) : Grow s s' :=
  grow_of_file_eq (fun j => by rw [ino_congr h])

theorem grow_f_lseek (s : KState) (ip ofs : Nat) (ho : ofs < 2 ^ 32) :
    Grow s (f_lseek s ip ofs).2 := by
  intro j
  rw [f_lseek_ino]
  split
  · rename_i h
    rw [← h.2.1]
    exact ⟨rfl, Nat.le_max_left _ _, fun hs => Nat.max_lt.mpr ⟨hs, ho⟩⟩
  · exact ⟨rfl, Nat.le_refl _, fun h => h⟩

theorem grow_f_read (s : KState) (ip btr : Nat) : Grow s (f_read s ip btr).2.2.2 := by
  intro j
  rw [f_read_ino]
  split
  · rename_i h
    rw [← h.2.1]
    exact ⟨rfl, Nat.le_refl _, fun hs => hs⟩
  · exact ⟨rfl, Nat.le_refl _, fun h => h⟩

theorem grow_iput {s s' : KState} {ip : Nat} (h : iput s ip = some s') : Grow s s' :=
  grow_of_file_eq (fun j => ((iput_effect h).2.2.2 j).2.1)

theorem grow_idup (s : KState) (ip : Nat) : Grow s (idup s ip) :=
  grow_of_file_eq (idup_file s ip)

/-- The file sizes and bytes after a successful `cache_writeback` of slot `c` (host `h`,
page `pg`): the file of `h` has been extended to the slot's offset if it was shorter, and
has received the bytes of the page that lie within the file. -/
theorem wb_file {PGSIZE : Nat} {t s1 : KState} {c h : Nat} {pg : PhysPage}
    (hwb : cache_writeback PGSIZE t c = some (0, s1))
    (hh : (t.slot c).host = some h) (hp : (t.slot c).page = some pg)
    (ho : (t.slot c).offset < 2 ^ 32) (hsz : (t.ino h).file.objsize < 2 ^ 32) (j : Nat) :
    (s1.ino j).file.objsize =
      (if j = h ∧ h < t.NINODE then max (t.ino h).file.objsize (t.slot c).offset
        else (t.ino j).file.objsize) ∧
    (s1.ino j).file.data =
      (if j = h ∧ h < t.NINODE then
        blit (t.ino h).file.data (t.slot c).offset pg.data 0
          (min (max (t.ino h).file.objsize (t.slot c).offset - (t.slot c).offset) PGSIZE)
        else (t.ino j).file.data) := by
  obtain ⟨h', pg', hh', hp', hcase⟩ := writeback_chain hwb
  rw [hh] at hh'; cases hh'
  rw [hp] at hp'; cases hp'
  rcases hcase with ⟨h0, _⟩ | ⟨hok, hs1, hiff⟩
  · cases h0
  · have hw := hiff.mp rfl
    have hf1 : t.fault.1 = false := by
      rw [f_lseek_fst] at hok
      cases hb : t.fault.1
      · rfl
      · rw [hb] at hok; simp at hok
    have hf2 : (f_lseek t h (t.slot c).offset).2.fault.1 = false := by
      have := hw.1
      rw [(f_write_fst _ _ _ _).1] at this
      cases hb : (f_lseek t h (t.slot c).offset).2.fault.1
      · rfl
      · rw [hb] at this; simp at this
    rw [hs1, f_write_ino]
    simp only [hf2, true_and, f_lseek_NINODE]
    by_cases hjh : h = j ∧ h < t.NINODE
    · obtain ⟨rfl, hlt⟩ := hjh
      simp only [hlt, and_self, if_true, f_lseek_ino, hf1, true_and, f_size]
      have e1 : u32 (max (t.ino h).file.objsize (t.slot c).offset) =
          max (t.ino h).file.objsize (t.slot c).offset := u32_eq (Nat.max_lt.mpr ⟨hsz, ho⟩)
      have e2 : usub (max (t.ino h).file.objsize (t.slot c).offset) (t.slot c).offset =
          max (t.ino h).file.objsize (t.slot c).offset - (t.slot c).offset :=
        usub_eq (Nat.le_max_right _ _) (Nat.max_lt.mpr ⟨hsz, ho⟩)
      rw [e1, e2]
      refine ⟨?_, rfl⟩
      have := Nat.le_max_right (t.ino h).file.objsize (t.slot c).offset
      have := Nat.min_le_left
        (max (t.ino h).file.objsize (t.slot c).offset - (t.slot c).offset) PGSIZE
      omega
    · have hjh' : ¬ (j = h ∧ h < t.NINODE) := fun hx => hjh ⟨hx.1.symm, hx.2⟩
      rw [if_neg hjh, if_neg hjh', if_neg hjh', f_lseek_ino]
      have : ¬ (t.fault.1 = false ∧ h = j ∧ h < t.NINODE) := fun hx => hjh hx.2
      rw [if_neg this]
      exact ⟨rfl, rfl⟩

/-! ## The bytes seen through the cache -/

theorem slot_congr {s s' : KState} (h : s'.cache = s.cache) (c : Nat) : s'.slot c = s.slot c := by
  simp [KState.slot, h]

theorem pdata_congr {s s' : KState} {c : Nat} (h : s'.slot c = s.slot c) :
    s'.pdata c = s.pdata c := by
  unfold KState.pdata; rw [h]

theorem ByteIs.of_eq {PGSIZE : Nat} {s s' : KState} {ip p v : Nat} (hb : ByteIs PGSIZE s ip p v)
    (hc : s'.cache = s.cache) (hsz : p < (s'.ino ip).file.objsize)
    (hd : (s'.ino ip).file.data p = (s.ino ip).file.data p) : ByteIs PGSIZE s' ip p v := by
  refine ⟨hsz, fun c hit => ?_, fun hno => ?_⟩
  · rw [slot_congr hc] at hit
    rw [pdata_congr (slot_congr hc c), slot_congr hc, hd]
    exact hb.2.1 c hit
  · rw [hd]
    exact hb.2.2 (fun c => by rw [← slot_congr hc]; exact hno c)

theorem ByteIs.grow {PGSIZE : Nat} {s s' : KState} {ip p v : Nat} (hb : ByteIs PGSIZE s ip p v)
    (hc : s'.cache = s.cache) (hg : Grow s s') : ByteIs PGSIZE s' ip p v :=
  hb.of_eq hc (Nat.lt_of_lt_of_le hb.1 (hg ip).2.1) (by rw [(hg ip).1])

/-- After a step that leaves the cache alone and makes the lower FS hold `v` at `p`. -/
theorem ByteIs.of_stored {PGSIZE : Nat} {s s' : KState} {ip p v : Nat}
    (hb : ByteIs PGSIZE s ip p v) (hc : s'.cache = s.cache)
    (hsz : p < (s'.ino ip).file.objsize) (hd : (s'.ino ip).file.data p = v) :
    ByteIs PGSIZE s' ip p v := by
  refine ⟨hsz, fun c hit => ?_, fun _ => hd⟩
  rw [slot_congr hc] at hit
  rw [pdata_congr (slot_congr hc c)]
  exact ⟨(hb.2.1 c hit).1, Or.inr hd⟩

theorem ino_objsize_pos {s : KState} {ip p : Nat} (h : p < (s.ino ip).file.objsize) :
    ip < s.NINODE := by
  by_contra hge
  rw [ino_default_of_ge s ip (Nat.le_of_not_lt hge)] at h
  exact absurd h (Nat.not_lt_zero _)

/-- Sizes after the write-back step of an eviction or release: they only grow and stay
`uint`s. -/
theorem wb_sizes {PGSIZE : Nat} {t s1 : KState} {c : Nat} (hs : Sane PGSIZE t)
    (hv : (t.slot c).valid = true) (hwb : wb_ok PGSIZE t c s1) (i : Nat) :
    (t.ino i).file.objsize ≤ (s1.ino i).file.objsize ∧ (s1.ino i).file.objsize < 2 ^ 32 := by
  unfold wb_ok at hwb
  split at hwb
  · obtain ⟨⟨pg, hp⟩, ⟨h, hh⟩, _, ho⟩ := hs.2.1 c hv
    rw [(wb_file hwb hh hp ho (hs.2.2 h) i).1]
    split
    · rename_i hx
      rw [hx.1]
      exact ⟨Nat.le_max_left _ _, Nat.max_lt.mpr ⟨hs.2.2 h, ho⟩⟩
    · exact ⟨Nat.le_refl _, hs.2.2 i⟩
  · rw [hwb]; exact ⟨Nat.le_refl _, hs.2.2 i⟩

/-- The write-back step keeps every byte as seen through the cache, and afterwards the
lower FS holds the byte if the slot written back caches its page. -/
theorem wb_byte {PGSIZE : Nat} (hP : 0 < PGSIZE) {t s1 : KState} {c ip p v : Nat}
    (hs : Sane PGSIZE t) (hv : (t.slot c).valid = true) (hwb : wb_ok PGSIZE t c s1)
    (hb : ByteIs PGSIZE t ip p v) :
    ByteIs PGSIZE s1 ip p v ∧
      (is_hit ip (PGROUNDDOWN PGSIZE p) (t.slot c) = true → (s1.ino ip).file.data p = v) := by
  have hsame := sameC_wb_ok hwb
  have hsz := wb_sizes hs hv hwb ip
  have hlt : p < (s1.ino ip).file.objsize := Nat.lt_of_lt_of_le hb.1 hsz.1
  unfold wb_ok at hwb
  split at hwb
  · rename_i hdirty
    obtain ⟨⟨pg, hp⟩, ⟨h, hh⟩, hal, ho⟩ := hs.2.1 c hv
    have hfile := (wb_file hwb hh hp ho (hs.2.2 h) ip).2
    by_cases hx : ip = h ∧ h < t.NINODE
    · obtain ⟨rfl, hn⟩ := hx
      rw [if_pos ⟨rfl, hn⟩] at hfile
      by_cases hit : is_hit ip (PGROUNDDOWN PGSIZE p) (t.slot c) = true
      · obtain ⟨_, _, hoff⟩ := (is_hit_iff _ _ _).mp hit
        have hpd := (hb.2.1 c hit).1
        have h1 := PGROUNDDOWN_le PGSIZE p
        have h2 := lt_PGROUNDDOWN_add hP p
        have hdata : (s1.ino ip).file.data p = v := by
          rw [hfile, blit_in]
          · rw [Nat.zero_add, hoff, sub_PGROUNDDOWN]
            unfold KState.pdata at hpd
            rw [hp] at hpd
            exact hpd
          · rw [hoff]; exact h1
          · rw [hoff]
            have := hb.1
            have := Nat.le_max_left (t.ino ip).file.objsize (PGROUNDDOWN PGSIZE p)
            omega
        exact ⟨hb.of_stored hsame.1 hlt hdata, fun _ => hdata⟩
      · have hdata : (s1.ino ip).file.data p = (t.ino ip).file.data p := by
          rw [hfile, blit_out]
          intro hr
          apply hit
          refine (is_hit_iff _ _ _).mpr ⟨hv, hh, ?_⟩
          have := Nat.min_le_right
            (max (t.ino ip).file.objsize (t.slot c).offset - (t.slot c).offset) PGSIZE
          exact (PGROUNDDOWN_of_range hal hr.1 (by omega)).symm
        exact ⟨hb.of_eq hsame.1 hlt hdata, fun h => absurd h hit⟩
    · rw [if_neg hx] at hfile
      refine ⟨hb.of_eq hsame.1 hlt (by rw [hfile]), fun hit => ?_⟩
      exfalso
      apply hx
      obtain ⟨_, hh', _⟩ := (is_hit_iff _ _ _).mp hit
      rw [hh] at hh'
      cases hh'
      exact ⟨rfl, ino_objsize_pos hb.1⟩
  · rename_i hclean
    subst hwb
    refine ⟨hb, fun hit => ?_⟩
    rcases (hb.2.1 c hit).2 with hd | hd
    · exact absurd hd hclean
    · exact hd

theorem ByteIs.clear_slot {PGSIZE : Nat} {s s' : KState} {c ip p v : Nat}
    (hb : ByteIs PGSIZE s ip p v)
    (hstored : is_hit ip (PGROUNDDOWN PGSIZE p) (s.slot c) = true → (s.ino ip).file.data p = v)
    (hc : s'.cache = s.cache.set c {}) (hf : (s'.ino ip).file = (s.ino ip).file) :
    ByteIs PGSIZE s' ip p v := by
  have hslot := slot_of_cache_set hc
  refine ⟨by rw [hf]; exact hb.1, fun c' hit => ?_, fun hno => ?_⟩
  · rw [hslot] at hit
    split at hit
    · simp [is_hit] at hit
    · rename_i hne
      have hsl : s'.slot c' = s.slot c' := by rw [hslot, if_neg hne]
      rw [hf, pdata_congr hsl, hsl]
      exact hb.2.1 c' hit
  · rw [hf]
    by_cases hit : is_hit ip (PGROUNDDOWN PGSIZE p) (s.slot c) = true
    · exact hstored hit
    · apply hb.2.2
      intro c'
      by_cases hcc : c = c'
      · subst hcc; simpa using hit
      · have := hno c'
        rw [hslot, if_neg (fun hx => hcc hx.1)] at this
        exact this

theorem SlotsOK.congr_slots {PGSIZE : Nat} {s s' : KState} (h : SlotsOK PGSIZE s)
    (hc : s'.cache = s.cache) : SlotsOK PGSIZE s' := by
  intro c; rw [slot_congr hc]; exact h c

theorem SlotsOK.clear_ok {PGSIZE : Nat} {s s' : KState} {c : Nat} (h : SlotsOK PGSIZE s)
    (hc : s'.cache = s.cache.set c {}) : SlotsOK PGSIZE s' := by
  intro c' hv
  rw [slot_of_cache_set hc] at hv ⊢
  split at hv
  · simp at hv
  · rename_i hne
    rw [if_neg hne]
    exact h c' hv

theorem Sane.congr_sane {PGSIZE : Nat} {s s' : KState} (h : Sane PGSIZE s) (hc : SameC s s')
    (hg : Grow s s') : Sane PGSIZE s' :=
  ⟨h.1.congr hc, h.2.1.congr_slots hc.1, fun i => (hg i).2.2 (h.2.2 i)⟩

/-- The common part of `ctable_lru_evict` and `ctable_release`: write back slot `c` if
dirty, recycle its page, put its host, zero the slot.  Every byte is still what it was as
seen through the cache. -/
theorem teardown_byte {PGSIZE : Nat} (hP : 0 < PGSIZE) {t s1 s3 s' : KState} {c h ip p v : Nat}
    (hs : Sane PGSIZE t) (hv : (t.slot c).valid = true) (hwb : wb_ok PGSIZE t c s1)
    (hput : iput (recycle_physical_page s1) h = some s3)
    (hc : s'.cache = t.cache.set c {}) (hi : s'.inode = s3.inode)
    (hb : ByteIs PGSIZE t ip p v) : ByteIs PGSIZE s' ip p v := by
  obtain ⟨hb1, hst⟩ := wb_byte hP hs hv hwb hb
  have hc1 := sameC_wb_ok hwb
  have hc3 := sameC_iput hput
  have hg3 := grow_iput hput
  have hb3 : ByteIs PGSIZE s3 ip p v := (@ByteIs.of_eq PGSIZE s1 (recycle_physical_page s1) ip p v hb1 rfl hb1.1 rfl).grow hc3.1 hg3
  have hcache : s3.cache = t.cache := by rw [hc3.1]; exact hc1.1
  refine hb3.clear_slot ?_ (by rw [hc, hcache]) (by rw [ino_congr hi])
  intro hit
  rw [slot_congr hcache] at hit
  rw [(hg3 ip).1]
  exact hst hit

theorem teardown_sizes {PGSIZE : Nat} {t s1 s3 s' : KState} {c h : Nat}
    (hs : Sane PGSIZE t) (hv : (t.slot c).valid = true) (hwb : wb_ok PGSIZE t c s1)
    (hput : iput (recycle_physical_page s1) h = some s3) (hi : s'.inode = s3.inode) (i : Nat) :
    (t.ino i).file.objsize ≤ (s'.ino i).file.objsize ∧ (s'.ino i).file.objsize < 2 ^ 32 := by
  have h1 := wb_sizes hs hv hwb i
  have hg3 := grow_iput hput i
  rw [ino_congr hi]
  have e : ((recycle_physical_page s1).ino i).file.objsize = (s1.ino i).file.objsize := rfl
  rw [e] at hg3
  exact ⟨Nat.le_trans h1.1 hg3.2.1, hg3.2.2 h1.2⟩

theorem Sane.emit {PGSIZE : Nat} {s : KState} (h : Sane PGSIZE s) (e : Ev) :
    Sane PGSIZE (s.emit e) := h.congr_sane (sameC_emit s e) (grow_of_inode_eq rfl)

theorem Sane.evict_at_sane {PGSIZE : Nat} {s s' : KState} {i c : Nat} {r : Int}
    (hs : Sane PGSIZE s) (hi : s.lruAt i = some c) (he : evict_at PGSIZE s i c = some (r, s')) :
    Sane PGSIZE s' := by
  obtain ⟨⟨L, hL⟩, _⟩ := hs.1
  have hv : (s.slot c).valid = true := (hL.2.2 c).mp (hL.of_lruAt hi).2.2
  obtain ⟨_, hc, _⟩ := evict_at_shape he
  obtain ⟨s1, h', s3, _, hwb, _, hput, hs'⟩ := evict_at_chain he
  refine ⟨hs.1.evict_at hi he, hs.2.1.clear_ok hc, fun j => ?_⟩
  exact (teardown_sizes (hs.emit (Ev.evict c)) hv hwb hput (by rw [hs']; rfl) j).2

theorem evict_at_byte {PGSIZE : Nat} (hP : 0 < PGSIZE) {s s' : KState} {i c ip p v : Nat}
    {r : Int} (hs : Sane PGSIZE s) (hi : s.lruAt i = some c)
    (he : evict_at PGSIZE s i c = some (r, s')) (hb : ByteIs PGSIZE s ip p v) :
    ByteIs PGSIZE s' ip p v := by
  obtain ⟨⟨L, hL⟩, _⟩ := hs.1
  have hv : (s.slot c).valid = true := (hL.2.2 c).mp (hL.of_lruAt hi).2.2
  obtain ⟨_, hc, _⟩ := evict_at_shape he
  obtain ⟨s1, h', s3, _, hwb, _, hput, hs'⟩ := evict_at_chain he
  exact teardown_byte hP (hs.emit (Ev.evict c)) hv hwb hput hc (by rw [hs']; rfl)
    (hb.of_eq rfl hb.1 rfl)

theorem Sane.evict_sane {PGSIZE : Nat} {s s' : KState} {r : Int} (hs : Sane PGSIZE s)
    (he : ctable_lru_evict PGSIZE s = some (r, s')) : Sane PGSIZE s' := by
  unfold ctable_lru_evict at he
  rcases evict_scan_cases he with ⟨_, h2, _⟩ | ⟨i, c, _, h2, _, _, h5⟩
  · rw [h2]; exact hs
  · exact hs.evict_at_sane h2 h5

theorem evict_byte {PGSIZE : Nat} (hP : 0 < PGSIZE) {s s' : KState} {ip p v : Nat} {r : Int}
    (hs : Sane PGSIZE s) (he : ctable_lru_evict PGSIZE s = some (r, s'))
    (hb : ByteIs PGSIZE s ip p v) : ByteIs PGSIZE s' ip p v := by
  unfold ctable_lru_evict at he
  rcases evict_scan_cases he with ⟨_, h2, _⟩ | ⟨i, c, _, h2, _, _, h5⟩
  · rw [h2]; exact hb
  · exact evict_at_byte hP hs h2 h5 hb

/-- An eviction creates no hit. -/
theorem evict_no_hit {PGSIZE : Nat} {s s' : KState} {ip q : Nat} {r : Int}
    (he : ctable_lru_evict PGSIZE s = some (r, s'))
    (hno : ∀ c, is_hit ip q (s.slot c) = false) : ∀ c, is_hit ip q (s'.slot c) = false := by
  unfold ctable_lru_evict at he
  rcases evict_scan_cases he with ⟨_, h2, _⟩ | ⟨i, c, _, _, _, _, h5⟩
  · rw [h2]; exact hno
  · obtain ⟨_, hc, _⟩ := evict_at_shape h5
    intro c'
    rw [slot_of_cache_set hc]
    split
    · simp [is_hit]
    · exact hno c'

theorem grow_fill_seek (s : KState) (c ip q : Nat) (hq : q < 2 ^ 32) :
    Grow s (f_lseek (fill_claim s c ip q) ip q).2 :=
  (@grow_of_inode_eq s (fill_claim s c ip q) rfl).trans_g (grow_f_lseek _ _ _ hq)

theorem grow_fill_loaded (PGSIZE : Nat) (t : KState) (c ip q : Nat) :
    Grow t (fill_loaded PGSIZE t c ip q) :=
  (grow_f_read t ip PGSIZE).trans_g (grow_of_inode_eq rfl)

theorem grow_fill_rollback (t : KState) (c : Nat) : Grow t (fill_rollback t c) :=
  grow_of_inode_eq rfl

theorem fault_of_ok {b : Bool} (h : (if b then FRESULT.FR_ERR else FRESULT.FR_OK) = FRESULT.FR_OK) :
    b = false := by
  cases b
  · rfl
  · simp at h

/-- What `fill_slot` does on a free slot `c` of a well-formed cache: the files at most grow;
on failure the slot is free again; on success the slot is claimed for `(ip, q)` with a page
that holds the bytes of the file from `q` on, as far as the file reaches. -/
theorem fill_slot_cases {PGSIZE : Nat} {s s' : KState} {c ip q : Nat} {r : Option Nat}
    (hinv : CInv s) (hc : c < s.NCACHE) (hv : (s.slot c).valid = false) (hq : q < 2 ^ 32)
    (h : fill_slot PGSIZE s c ip q = some (r, s')) :
    Grow s s' ∧
    ((r = none ∧ s'.cache = s.cache.set c {}) ∨
     (r = some c ∧ ∃ d : Mem, s'.cache = s.cache.set c (claimed ip q (PhysPage.mk 1 d)) ∧
        ∀ i, i < PGSIZE → q + i < (s.ino ip).file.objsize →
          d i = (s.ino ip).file.data (q + i))) := by
  have g1 := grow_fill_seek s c ip q hq
  have c1 := fill_seek_cache s c ip q
  rcases fill_slot_chain hc h with ⟨_, hr, rfl⟩ | ⟨hok, ⟨_, hr, rfl⟩ | ⟨hrd, hr, x, hadd⟩⟩
  · refine ⟨g1.trans_g (grow_fill_rollback _ _), Or.inl ⟨hr, ?_⟩⟩
    rw [fill_rollback_cache, c1, List.set_set]
  · refine ⟨(g1.trans_g (grow_fill_loaded _ _ _ _ _)).trans_g (grow_fill_rollback _ _),
      Or.inl ⟨hr, ?_⟩⟩
    obtain ⟨pg, _, hpg⟩ := fill_loaded_cache PGSIZE (f_lseek (fill_claim s c ip q) ip q).2 c ip q
    rw [fill_rollback_cache, hpg, c1, List.set_set, List.set_set]
  · obtain ⟨⟨L, hL⟩, _⟩ := hinv
    have hlast : (idup (fill_loaded PGSIZE (f_lseek (fill_claim s c ip q) ip q).2 c ip q)
        ip).lruAt ((idup (fill_loaded PGSIZE (f_lseek (fill_claim s c ip q) ip q).2 c ip q)
        ip).NCACHE - 1) = none := by
      have := hL.last_none hc hv
      have hl : (idup (fill_loaded PGSIZE (f_lseek (fill_claim s c ip q) ip q).2 c ip q)
          ip).lru = s.lru := by
        show (fill_loaded PGSIZE (f_lseek (fill_claim s c ip q) ip q).2 c ip q).lru = s.lru
        rw [fill_loaded_lru, fill_seek_lru]
      obtain ⟨pg, _, hpg⟩ :=
        fill_loaded_cache PGSIZE (f_lseek (fill_claim s c ip q) ip q).2 c ip q
      have hn : (idup (fill_loaded PGSIZE (f_lseek (fill_claim s c ip q) ip q).2 c ip q)
          ip).NCACHE = s.NCACHE := by
        show (fill_loaded PGSIZE (f_lseek (fill_claim s c ip q) ip q).2 c ip q).NCACHE = _
        rw [NCACHE_of_cache_set hpg, NCACHE_of_cache_set c1]
      unfold KState.lruAt at this ⊢
      rw [hl, hn]; exact this
    obtain ⟨_, hs'⟩ := lru_add_shape hlast hadd
    subst hs'
    refine ⟨(g1.trans_g (grow_fill_loaded _ _ _ _ _)).trans_g (grow_idup _ _),
      Or.inr ⟨hr, blit zeroMem 0 (f_read (f_lseek (fill_claim s c ip q) ip q).2 ip PGSIZE).2.1 0
        (f_read (f_lseek (fill_claim s c ip q) ip q).2 ip PGSIZE).2.2.1, ?_, ?_⟩⟩
    · show (fill_loaded PGSIZE (f_lseek (fill_claim s c ip q) ip q).2 c ip q).cache = _
      unfold fill_loaded
      simp only [KState.setSlot, (sameC_f_read _ ip PGSIZE).1]
      rw [c1, List.set_set]
    · intro i hi hlt
      have hipn : ip < s.NINODE := ino_objsize_pos hlt
      have hf1 : (fill_claim s c ip q).fault.1 = false := by
        rw [f_lseek_fst] at hok; exact fault_of_ok hok
      have hf2 : (f_lseek (fill_claim s c ip q) ip q).2.fault.1 = false := by
        rw [f_read_fst] at hrd; exact fault_of_ok hrd
      obtain ⟨hd, hbr⟩ := f_read_data (f_lseek (fill_claim s c ip q) ip q).2 ip PGSIZE hf2
      have hino : (f_lseek (fill_claim s c ip q) ip q).2.ino ip =
          { s.ino ip with file := { (s.ino ip).file with
              objsize := max (s.ino ip).file.objsize q, fptr := q } } := by
        rw [f_lseek_ino, if_pos ⟨hf1, rfl, hipn⟩]
        rfl
      rw [hino] at hd hbr
      simp only at hd hbr
      rw [blit_in _ _ _ _ _ _ (Nat.zero_le _) (by rw [hbr]; omega), hd]
      simp

/-- Installing a value `w` in a free slot `c`: a byte stays what it was as seen through the
cache, provided that `w`, if it caches the page of the byte, holds it and so does the
lower FS. -/
theorem ByteIs.install {PGSIZE : Nat} {s s' : KState} {c ip p v : Nat} {w : page_cache}
    (hb : ByteIs PGSIZE s ip p v) (hc : s'.cache = s.cache.set c w)
    (hinv : (s.slot c).valid = false) (hg : Grow s s')
    (hw : is_hit ip (PGROUNDDOWN PGSIZE p) w = true →
      (match w.page with
        | some pg => pg.data
        | none => zeroMem) (p % PGSIZE) = v ∧ (s.ino ip).file.data p = v) :
    ByteIs PGSIZE s' ip p v := by
  have hslot := slot_of_cache_set hc
  have hd := (hg ip).1
  refine ⟨Nat.lt_of_lt_of_le hb.1 (hg ip).2.1, fun c' hit => ?_, fun hno => ?_⟩
  · rw [hslot] at hit
    by_cases hcc : c = c' ∧ c < s.NCACHE
    · rw [if_pos hcc] at hit
      have hsl : s'.slot c' = w := by rw [hslot, if_pos hcc]
      unfold KState.pdata
      rw [hsl, hd]
      exact ⟨(hw hit).1, Or.inr (hw hit).2⟩
    · rw [if_neg hcc] at hit
      have hsl : s'.slot c' = s.slot c' := by rw [hslot, if_neg hcc]
      rw [pdata_congr hsl, hsl, hd]
      exact hb.2.1 c' hit
  · rw [hd]
    apply hb.2.2
    intro c'
    by_cases hcc : c = c'
    · subst hcc
      simp [is_hit, hinv]
    · have := hno c'
      rw [hslot, if_neg (fun hx => hcc hx.1)] at this
      exact this

theorem is_hit_claimed (ip q ip' q' : Nat) (pg : PhysPage) :
    is_hit ip' q' (claimed ip q pg) = true ↔ ip = ip' ∧ q = q' := by
  simp [is_hit, claimed]

theorem is_hit_default (ip q : Nat) : is_hit ip q {} = false := by simp [is_hit]

theorem fill_byte {PGSIZE : Nat} (hP : 0 < PGSIZE) {s s' : KState} {c ip q : Nat} {r : Option Nat}
    (hs : Sane PGSIZE s) (hc : c < s.NCACHE) (hv : (s.slot c).valid = false) (hq : q < 2 ^ 32)
    (hno : ∀ c', is_hit ip q (s.slot c') = false)
    (h : fill_slot PGSIZE s c ip q = some (r, s')) {ip' p v : Nat}
    (hb : ByteIs PGSIZE s ip' p v) : ByteIs PGSIZE s' ip' p v := by
  obtain ⟨hg, hcase⟩ := fill_slot_cases hs.1 hc hv hq h
  rcases hcase with ⟨_, hcache⟩ | ⟨_, d, hcache, hdata⟩
  · exact hb.install hcache hv hg (fun hit => by rw [is_hit_default] at hit; cases hit)
  · refine hb.install hcache hv hg (fun hit => ?_)
    obtain ⟨rfl, rfl⟩ := (is_hit_claimed _ _ _ _ _).mp hit
    have hfile : (s.ino ip).file.data p = v := hb.2.2 hno
    refine ⟨?_, hfile⟩
    show d (p % PGSIZE) = v
    have h1 := PGROUNDDOWN_le PGSIZE p
    have h2 := sub_PGROUNDDOWN PGSIZE p
    rw [hdata (p % PGSIZE) (Nat.mod_lt _ hP) (by have := hb.1; omega)]
    rw [← hfile]
    congr 1
    omega

theorem Sane.fill {PGSIZE : Nat} {s s' : KState} {c ip q : Nat} {r : Option Nat}
    (hs : Sane PGSIZE s) (hc : c < s.NCACHE) (hv : (s.slot c).valid = false) (hq : q < 2 ^ 32)
    (hal : q % PGSIZE = 0) (hno : ∀ c', is_hit ip q (s.slot c') = false)
    (h : fill_slot PGSIZE s c ip q = some (r, s')) : Sane PGSIZE s' := by
  obtain ⟨hg, hcase⟩ := fill_slot_cases hs.1 hc hv hq h
  refine ⟨hs.1.fill_slot hc hv (fun c' _ => hno c') h, ?_, fun i => (hg i).2.2 (hs.2.2 i)⟩
  rcases hcase with ⟨_, hcache⟩ | ⟨_, d, hcache, _⟩
  · exact hs.2.1.clear_ok hcache
  · intro c' hv'
    rw [slot_of_cache_set hcache] at hv' ⊢
    split
    · exact ⟨⟨_, rfl⟩, ⟨_, rfl⟩, hal, hq⟩
    · rename_i hne
      rw [if_neg hne] at hv'
      exact hs.2.1 c' hv'

theorem fill_hit {PGSIZE : Nat} {s s' : KState} {c ip q c' : Nat}
    (hs : Sane PGSIZE s) (hc : c < s.NCACHE) (hv : (s.slot c).valid = false) (hq : q < 2 ^ 32)
    (h : fill_slot PGSIZE s c ip q = some (some c', s')) :
    is_hit ip q (s'.slot c') = true ∧ get_physical_page_ref (s'.slot c').page = 1 := by
  obtain ⟨_, hcase⟩ := fill_slot_cases hs.1 hc hv hq h
  rcases hcase with ⟨h0, _⟩ | ⟨h0, d, hcache, _⟩
  · cases h0
  · cases h0
    rw [slot_of_cache_set hcache, if_pos ⟨rfl, hc⟩]
    exact ⟨(is_hit_claimed _ _ _ _ _).mpr ⟨rfl, rfl⟩, rfl⟩

theorem fill_sizes {PGSIZE : Nat} {s s' : KState} {c ip q : Nat} {r : Option Nat}
    (hs : Sane PGSIZE s) (hc : c < s.NCACHE) (hv : (s.slot c).valid = false) (hq : q < 2 ^ 32)
    (h : fill_slot PGSIZE s c ip q = some (r, s')) (i : Nat) :
    (s.ino i).file.objsize ≤ (s'.ino i).file.objsize :=
  ((fill_slot_cases hs.1 hc hv hq h).1 i).2.1

theorem evict_sizes {PGSIZE : Nat} {s s' : KState} {r : Int} (hs : Sane PGSIZE s)
    (he : ctable_lru_evict PGSIZE s = some (r, s')) (j : Nat) :
    (s.ino j).file.objsize ≤ (s'.ino j).file.objsize := by
  unfold ctable_lru_evict at he
  rcases evict_scan_cases he with ⟨_, h2, _⟩ | ⟨i, c, _, hi, _, _, h5⟩
  · rw [h2]
  · obtain ⟨⟨L, hL⟩, _⟩ := hs.1
    have hv : (s.slot c).valid = true := (hL.2.2 c).mp (hL.of_lruAt hi).2.2
    obtain ⟨s1, h', s3, _, hwb, _, hput, hs'⟩ := evict_at_chain h5
    exact (teardown_sizes (hs.emit (Ev.evict c)) hv hwb hput (by rw [hs']; rfl) j).1

theorem find_slot_none_all {p : page_cache → Bool} {s : KState} (hd : p {} = false)
    (h : find_slot p s = none) (c : Nat) : p (s.slot c) = false := by
  by_cases hc : c < s.NCACHE
  · exact find_slot_none h c hc
  · rw [slot_default_of_ge s c (Nat.le_of_not_lt hc)]; exact hd

/-- What `ctable_acquire` guarantees on a well-formed state: the state stays well-formed,
no file shrinks, every byte is what it was as seen through the cache, and the slot
returned caches the page asked for. -/
theorem acquire_spec {PGSIZE : Nat} (hP : 0 < PGSIZE) {s s' : KState} {ip q : Nat}
    {r : Option Nat} (hs : Sane PGSIZE s) (hq : q < 2 ^ 32)
    (ha : ctable_acquire PGSIZE s ip q = some (r, s')) :
    Sane PGSIZE s' ∧ (∀ i, (s.ino i).file.objsize ≤ (s'.ino i).file.objsize) ∧
    (∀ ip' p v, ByteIs PGSIZE s ip' p v → ByteIs PGSIZE s' ip' p v) ∧
    (∀ c, r = some c → is_hit ip q (s'.slot c) = true) := by
  unfold ctable_acquire at ha
  split at ha
  · cases ha
  · rename_i hal
    simp only [ne_eq, not_not] at hal
    split at ha
    · rename_i c hc
      cases ha
      obtain ⟨_, hp, _⟩ := find_slot_some hc
      have hv := ((is_hit_iff _ _ _).mp hp).1
      obtain ⟨⟨L, hL⟩, _⟩ := hs.1
      obtain ⟨_, hcache, _⟩ := hL.adjust_rep hv
      have hinode : (ctable_lru_adjust s c).2.inode = s.inode := by
        unfold ctable_lru_adjust; dsimp only; split <;> rfl
      refine ⟨⟨hs.1.adjust hv, hs.2.1.congr_slots hcache, fun i => by
          rw [ino_congr hinode]; exact hs.2.2 i⟩, fun i => by rw [ino_congr hinode],
        fun ip' p v hb => hb.grow hcache (grow_of_inode_eq hinode), fun c' hc' => ?_⟩
      cases hc'
      rw [slot_congr hcache]; exact hp
    · rename_i hnohit
      have hno := find_slot_none_all (is_hit_default ip q) hnohit
      split at ha
      · rename_i c hc
        obtain ⟨hcn, hp, _⟩ := find_slot_some hc
        have hv : (s.slot c).valid = false := by simpa using hp
        exact ⟨hs.fill hcn hv hq hal hno ha, fill_sizes hs hcn hv hq ha,
          fun ip' p v hb => fill_byte hP hs hcn hv hq hno ha hb,
          fun c' hc' => by subst hc'; exact (fill_hit hs hcn hv hq ha).1⟩
      · split at ha
        · cases ha
        · rename_i x s1 hev
          have hs1 := hs.evict_sane hev
          have hno1 := evict_no_hit hev hno
          have hsz1 := evict_sizes hs hev
          split at ha
          · rename_i c hc
            obtain ⟨hcn, hp, _⟩ := find_slot_some hc
            have hv : (s1.slot c).valid = false := by simpa using hp
            exact ⟨hs1.fill hcn hv hq hal hno1 ha,
              fun i => Nat.le_trans (hsz1 i) (fill_sizes hs1 hcn hv hq ha i),
              fun ip' p v hb => fill_byte hP hs1 hcn hv hq hno1 ha (evict_byte hP hs hev hb),
              fun c' hc' => by subst hc'; exact (fill_hit hs1 hcn hv hq ha).1⟩
          · cases ha
            exact ⟨hs1, hsz1, fun ip' p v hb => evict_byte hP hs hev hb,
              fun c' hc' => by cases hc'⟩

/-! ## The copy into a cached page -/

/-- The cache after the body of the loop of `writei` on slot `c` (kernel source): the page
of the slot has received the bytes and the slot is dirty; nothing else has changed. -/
theorem write_step {s : KState} {c inpage bufoff n : Nat} {src : Mem} {pg : PhysPage}
    (hc : c < s.NCACHE) (hp : (s.slot c).page = some pg) :
    (either_copyin s false c inpage src bufoff n).1 = 0 ∧
    ((either_copyin s false c inpage src bufoff n).2.setSlot c
      { (either_copyin s false c inpage src bufoff n).2.slot c with dirty := true }).cache =
      s.cache.set c (written (s.slot c) pg inpage src bufoff n) ∧
    ((either_copyin s false c inpage src bufoff n).2.setSlot c
      { (either_copyin s false c inpage src bufoff n).2.slot c with dirty := true }).inode =
      s.inode ∧
    ((either_copyin s false c inpage src bufoff n).2.setSlot c
      { (either_copyin s false c inpage src bufoff n).2.slot c with dirty := true }).lru =
      s.lru := by
  have hp' : ((s.emit (Ev.copyin c inpage bufoff n)).slot c).page = some pg := hp
  have e : (either_copyin s false c inpage src bufoff n) =
      (0, (s.emit (Ev.copyin c inpage bufoff n)).setSlot c
        { (s.emit (Ev.copyin c inpage bufoff n)).slot c with
          page := some { pg with data := blit pg.data inpage src bufoff n } }) := by
    unfold either_copyin
    simp only [Bool.false_eq_true, if_false]
    rw [hp']
  rw [e]
  refine ⟨rfl, ?_, rfl, rfl⟩
  simp only [setSlot_slot, emit_NCACHE, hc, and_self, if_true]
  simp only [KState.setSlot, emit_cache, List.set_set, emit_slot]
  rfl

/-- Changing only the page and the dirty flag of slots keeps the cache table well-formed. -/
theorem CInv.rekey {s s' : KState} (h : CInv s) (hl : s'.lru = s.lru)
    (hn : s'.NCACHE = s.NCACHE)
    (hk : ∀ c, (s'.slot c).valid = (s.slot c).valid ∧ (s'.slot c).host = (s.slot c).host ∧
      (s'.slot c).offset = (s.slot c).offset) : CInv s' := by
  obtain ⟨⟨L, hL⟩, hu⟩ := h
  refine ⟨⟨L, ?_, hL.2.1, fun c => ?_⟩, fun c c' => ?_⟩
  · rw [hl, hn]; exact hL.1
  · rw [(hk c).1]; exact hL.2.2 c
  · rw [(hk c).1, (hk c').1, (hk c).2.1, (hk c').2.1, (hk c).2.2, (hk c').2.2]
    exact hu c c'

theorem Sane.write {PGSIZE : Nat} {s s' : KState} {c inpage bufoff n : Nat} {src : Mem}
    {pg : PhysPage} (hs : Sane PGSIZE s)
    (hc : s'.cache = s.cache.set c (written (s.slot c) pg inpage src bufoff n))
    (hi : s'.inode = s.inode) (hl : s'.lru = s.lru) : Sane PGSIZE s' := by
  have hslot := slot_of_cache_set hc
  refine ⟨hs.1.rekey hl (NCACHE_of_cache_set hc) (fun c' => ?_), fun c' hv => ?_, fun i => by
    rw [ino_congr hi]; exact hs.2.2 i⟩
  · rw [hslot]; split
    · rename_i h; rw [h.1]; exact ⟨rfl, rfl, rfl⟩
    · exact ⟨rfl, rfl, rfl⟩
  · rw [hslot] at hv ⊢
    split
    · rename_i h
      rw [if_pos h, h.1] at hv
      obtain ⟨_, h2, h3, h4⟩ := hs.2.1 c' hv
      rw [h.1]
      exact ⟨⟨_, rfl⟩, h2, h3, h4⟩
    · rename_i h
      rw [if_neg h] at hv
      exact hs.2.1 c' hv

/-- The bytes written: after the copy of `n` bytes of `src` (from `bufoff`) to the page of
slot `c`, which caches the page of `off`, at the place of `off`, the bytes of the file at
`off ..` are those of `src` as seen through the cache. -/
theorem ByteIs.after_write {PGSIZE : Nat} {s s' : KState} {c ip off n bufoff p : Nat}
    {src : Mem} {pg : PhysPage} (hs : Sane PGSIZE s) (hcn : c < s.NCACHE)
    (hit : is_hit ip (PGROUNDDOWN PGSIZE off) (s.slot c) = true)
    (hp : (s.slot c).page = some pg)
    (hc : s'.cache = s.cache.set c
      (written (s.slot c) pg (off - PGROUNDDOWN PGSIZE off) src bufoff n))
    (hi : s'.inode = s.inode)
    (h1 : off ≤ p) (h2 : p < off + n) (h3 : off + n ≤ PGROUNDDOWN PGSIZE off + PGSIZE)
    (hsz : p < (s.ino ip).file.objsize) :
    ByteIs PGSIZE s' ip p (src (bufoff + (p - off))) := by
  have hslot := slot_of_cache_set hc
  have hQ : PGROUNDDOWN PGSIZE p = PGROUNDDOWN PGSIZE off :=
    PGROUNDDOWN_of_chunk h1 (by omega)
  have hle := PGROUNDDOWN_le PGSIZE off
  have hmod := sub_PGROUNDDOWN PGSIZE p
  rw [hQ] at hmod
  obtain ⟨hv, hh, ho⟩ := (is_hit_iff _ _ _).mp hit
  have hslc : s'.slot c = written (s.slot c) pg (off - PGROUNDDOWN PGSIZE off) src bufoff n := by
    rw [hslot, if_pos ⟨rfl, hcn⟩]
  refine ⟨by rw [ino_congr hi]; exact hsz, fun c' hit' => ?_, fun hno => ?_⟩
  · rw [hQ] at hit'
    have hcc : c' = c := by
      by_contra hne
      rw [hslot, if_neg (fun hx => hne hx.1.symm)] at hit'
      obtain ⟨hv', hh', ho'⟩ := (is_hit_iff _ _ _).mp hit'
      exact hne (hs.1.2 c' c hv' hv (hh'.trans hh.symm) (ho'.trans ho.symm))
    subst hcc
    unfold KState.pdata
    rw [hslc]
    refine ⟨?_, Or.inl rfl⟩
    show blit pg.data (off - PGROUNDDOWN PGSIZE off) src bufoff n (p % PGSIZE) = _
    rw [blit_in _ _ _ _ _ _ (by omega) (by omega)]
    congr 1
    omega
  · exfalso
    have := hno c
    rw [hslc, hQ] at this
    have h' : is_hit ip (PGROUNDDOWN PGSIZE off)
        (written (s.slot c) pg (off - PGROUNDDOWN PGSIZE off) src bufoff n) = true := by
      rw [is_hit_iff]; exact ⟨hv, hh, ho⟩
    rw [h'] at this
    cases this

/-- The bytes not written are as before. -/
theorem ByteIs.beside_write {PGSIZE : Nat} {s s' : KState} {c ip off n bufoff ip' p v : Nat}
    {src : Mem} {pg : PhysPage} (hcn : c < s.NCACHE)
    (hit : is_hit ip (PGROUNDDOWN PGSIZE off) (s.slot c) = true)
    (hp : (s.slot c).page = some pg)
    (hc : s'.cache = s.cache.set c
      (written (s.slot c) pg (off - PGROUNDDOWN PGSIZE off) src bufoff n))
    (hi : s'.inode = s.inode)
    (hout : ¬ (ip' = ip ∧ off ≤ p ∧ p < off + n))
    (hb : ByteIs PGSIZE s ip' p v) : ByteIs PGSIZE s' ip' p v := by
  have hslot := slot_of_cache_set hc
  have hle := PGROUNDDOWN_le PGSIZE off
  obtain ⟨hv, hh, ho⟩ := (is_hit_iff _ _ _).mp hit
  have hslc : s'.slot c = written (s.slot c) pg (off - PGROUNDDOWN PGSIZE off) src bufoff n := by
    rw [hslot, if_pos ⟨rfl, hcn⟩]
  have hkey : ∀ c' a b, is_hit a b (s'.slot c') = is_hit a b (s.slot c') := by
    intro c' a b
    rw [hslot]
    split
    · rename_i hx; rw [← hx.1]; rfl
    · rfl
  refine ⟨by rw [ino_congr hi]; exact hb.1, fun c' hit' => ?_, fun hno => ?_⟩
  · rw [hkey] at hit'
    rw [ino_congr hi]
    by_cases hcc : c' = c
    · subst hcc
      obtain ⟨_, hh', ho'⟩ := (is_hit_iff _ _ _).mp hit'
      have hip : ip' = ip := by rw [hh] at hh'; cases hh'; rfl
      have hQ : PGROUNDDOWN PGSIZE p = PGROUNDDOWN PGSIZE off := by rw [← ho, ho']
      have hmod := sub_PGROUNDDOWN PGSIZE p
      have hle2 := PGROUNDDOWN_le PGSIZE p
      rw [hQ] at hmod hle2
      have hold := (hb.2.1 c' hit').1
      unfold KState.pdata at hold ⊢
      rw [hp] at hold
      rw [hslc]
      refine ⟨?_, Or.inl rfl⟩
      show blit pg.data (off - PGROUNDDOWN PGSIZE off) src bufoff n (p % PGSIZE) = _
      rw [blit_out]
      · exact hold
      · intro hr
        apply hout
        refine ⟨hip, ?_, ?_⟩ <;> omega
    · have hsl : s'.slot c' = s.slot c' := by
        rw [hslot, if_neg (fun hx => hcc hx.1.symm)]
      rw [pdata_congr hsl, hsl]
      exact hb.2.1 c' hit'
  · rw [ino_congr hi]
    exact hb.2.2 (fun c' => by rw [← hkey]; exact hno c')

/-! ## The loops of `writei` and `readi` -/

theorem chunk_eq {PGSIZE off len : Nat} (hP : 0 < PGSIZE) (hP32 : PGSIZE < 2 ^ 32)
    (ho : off < 2 ^ 32) (hl : len < 2 ^ 32) :
    usub off (PGROUNDDOWN PGSIZE off) = off - PGROUNDDOWN PGSIZE off ∧
    chunk PGSIZE off len = min (PGROUNDDOWN PGSIZE off + PGSIZE - off) len := by
  have h1 := PGROUNDDOWN_le PGSIZE off
  have h2 := lt_PGROUNDDOWN_add hP off
  have e1 : usub off (PGROUNDDOWN PGSIZE off) = off - PGROUNDDOWN PGSIZE off := usub_eq h1 ho
  have e2 : usub PGSIZE (off - PGROUNDDOWN PGSIZE off) = PGSIZE - (off - PGROUNDDOWN PGSIZE off) :=
    usub_eq (by omega) hP32
  refine ⟨e1, ?_⟩
  unfold chunk
  rw [e1, e2, u32_eq hl]
  split <;> omega

theorem writei_loop_zero (PGSIZE ip : Nat) (user_src : Bool) (src : Mem) (n_dup fuel : Nat)
    (s : KState) (bufoff off : Nat) :
    writei_loop PGSIZE ip user_src src n_dup fuel s bufoff off 0 = some (toInt32 n_dup, s) := by
  cases fuel <;> simp [writei_loop]

/-- The loop of `writei` from a kernel source, on a well-formed state and a range that
lies within the file and within the `uint` offsets: unless it gives up (result 0), the
bytes of the range are those of the source as seen through the cache; the bytes outside
the range are as before in any case. -/
theorem writei_loop_spec {PGSIZE : Nat} (hP : 0 < PGSIZE) (hP32 : PGSIZE < 2 ^ 32) {ip : Nat}
    {src : Mem} {n_dup : Nat} (fuel : Nat) {s s' : KState} {bufoff off len : Nat} {r : Int}
    (hs : Sane PGSIZE s) (hrange : off + len < 2 ^ 32)
    (hsz : off + len ≤ (s.ino ip).file.objsize)
    (h : writei_loop PGSIZE ip false src n_dup fuel s bufoff off len = some (r, s')) :
    Sane PGSIZE s' ∧
    (∀ ip' p v, ByteIs PGSIZE s ip' p v → ¬ (ip' = ip ∧ off ≤ p ∧ p < off + len) →
      ByteIs PGSIZE s' ip' p v) ∧
    (r = 0 ∨ (r = toInt32 n_dup ∧
      ∀ j, j < len → ByteIs PGSIZE s' ip (off + j) (src (bufoff + j)))) := by
  induction fuel generalizing s bufoff off len with
  | zero =>
    rw [writei_loop] at h
    split at h
    · rename_i hl
      cases h
      exact ⟨hs, fun _ _ _ hb _ => hb, Or.inr ⟨rfl, fun j hj => by omega⟩⟩
    · cases h
  | succ fuel ih =>
    by_cases hlen : len = 0
    · subst hlen
      rw [writei_loop_zero] at h
      cases h
      exact ⟨hs, fun _ _ _ hb _ => hb, Or.inr ⟨rfl, fun j hj => by omega⟩⟩
    · obtain ⟨ro, s1, ha, hcase⟩ := writei_loop_step hlen h
      have hle := PGROUNDDOWN_le PGSIZE off
      have hlt := lt_PGROUNDDOWN_add hP off
      have hq : PGROUNDDOWN PGSIZE off < 2 ^ 32 := by omega
      obtain ⟨hs1, hsz1, hby1, hhit⟩ := acquire_spec hP hs hq ha
      obtain ⟨hin, hch⟩ := @chunk_eq PGSIZE off len hP hP32 (by omega) (by omega)
      rcases hcase with ⟨_, hr, rfl⟩ | ⟨c, hro, hcp⟩
      · exact ⟨hs1, fun ip' p v hb _ => hby1 ip' p v hb, Or.inl hr⟩
      · rw [hin] at hcp
        have hitc := hhit c hro
        have hv := ((is_hit_iff _ _ _).mp hitc).1
        have hcn := lt_of_valid s1 c hv
        obtain ⟨⟨pg, hpg⟩, _⟩ := hs1.2.1 c hv
        obtain ⟨w1, w2, w3, w4⟩ := @write_step s1 c (off - PGROUNDDOWN PGSIZE off) bufoff
          (chunk PGSIZE off len) src pg hcn hpg
        rcases hcp with ⟨hbad, _⟩ | ⟨_, hrec⟩
        · rw [w1] at hbad; cases hbad
        · obtain ⟨s2, hs2eq⟩ : ∃ s2, s2 = (either_copyin s1 false c (off - PGROUNDDOWN PGSIZE off) src
              bufoff (chunk PGSIZE off len)).2.setSlot c
              { (either_copyin s1 false c (off - PGROUNDDOWN PGSIZE off) src bufoff
                (chunk PGSIZE off len)).2.slot c with dirty := true } := ⟨_, rfl⟩
          rw [← hs2eq] at w2 w3 w4 hrec
          have hs2 : Sane PGSIZE s2 := hs1.write w2 w3 w4
          have hn_le : chunk PGSIZE off len ≤ len := by rw [hch]; exact Nat.min_le_right _ _
          have hn_pg : off + chunk PGSIZE off len ≤ PGROUNDDOWN PGSIZE off + PGSIZE := by
            rw [hch]
            have := Nat.min_le_left (PGROUNDDOWN PGSIZE off + PGSIZE - off) len
            omega
          have hwritten : ∀ j, j < chunk PGSIZE off len →
              ByteIs PGSIZE s2 ip (off + j) (src (bufoff + j)) := by
            intro j hj
            have := ByteIs.after_write (p := off + j) hs1 hcn hitc hpg w2 w3 (by omega)
              (by omega) hn_pg (by have := hsz1 ip; omega)
            rw [Nat.add_sub_cancel_left] at this
            exact this
          have hframe : ∀ ip' p v, ByteIs PGSIZE s ip' p v →
              ¬ (ip' = ip ∧ off ≤ p ∧ p < off + len) → ByteIs PGSIZE s2 ip' p v :=
            fun ip' p v hb hout =>
              ByteIs.beside_write hcn hitc hpg w2 w3 (fun hx => hout ⟨hx.1, hx.2.1, by omega⟩)
                (hby1 ip' p v hb)
          by_cases hrest : len - chunk PGSIZE off len = 0
          · rw [hrest, writei_loop_zero] at hrec
            cases hrec
            refine ⟨hs2, hframe, Or.inr ⟨rfl, fun j hj => hwritten j (by omega)⟩⟩
          · have hn_eq : chunk PGSIZE off len = PGROUNDDOWN PGSIZE off + PGSIZE - off := by
              rw [hch]; rw [hch] at hrest; omega
            have hnext : u32 (PGROUNDDOWN PGSIZE off + PGSIZE) = off + chunk PGSIZE off len := by
              rw [u32_eq (by omega)]; omega
            rw [hnext] at hrec
            have hobj : s2.ino ip = s1.ino ip := ino_congr w3 ip
            obtain ⟨hs', hfr', hd'⟩ := ih hs2 (by omega)
              (by rw [hobj]; have := hsz1 ip; omega) hrec
            refine ⟨hs', fun ip' p v hb hout => ?_, ?_⟩
            · exact hfr' ip' p v (hframe ip' p v hb hout)
                (fun hx => hout ⟨hx.1, by omega, by omega⟩)
            · rcases hd' with h0 | ⟨hr, hd'⟩
              · exact Or.inl h0
              · refine Or.inr ⟨hr, fun j hj => ?_⟩
                by_cases hj' : j < chunk PGSIZE off len
                · exact hfr' ip _ _ (hwritten j hj') (fun hx => by omega)
                · have := hd' (j - chunk PGSIZE off len) (by omega)
                  have e1 : off + chunk PGSIZE off len + (j - chunk PGSIZE off len) = off + j := by
                    omega
                  have e2 : bufoff + chunk PGSIZE off len + (j - chunk PGSIZE off len) =
                      bufoff + j := by omega
                  rw [e1, e2] at this
                  exact this

/-- What `writei` from a kernel source guarantees on a well-formed state, for a range within
the `uint` offsets: unless it gives up (result 0), it returns `n` as an `int` and the bytes
of the range are those of the source as seen through the cache; the bytes outside the
range are as before in any case. -/
theorem writei_spec {PGSIZE : Nat} (hP : 0 < PGSIZE) (hP32 : PGSIZE < 2 ^ 32) {ip : Nat}
    {src : Mem} {s s' : KState} {off n : Nat} {r : Int}
    (hs : Sane PGSIZE s) (hip : ip < s.NINODE) (hrange : off + n < 2 ^ 32)
    (h : writei PGSIZE s ip false src off n = some (r, s')) :
    Sane PGSIZE s' ∧
    (∀ ip' p v, ByteIs PGSIZE s ip' p v → ¬ (ip' = ip ∧ off ≤ p ∧ p < off + n) →
      ByteIs PGSIZE s' ip' p v) ∧
    (r = 0 ∨ (r = toInt32 n ∧ ∀ j, j < n → ByteIs PGSIZE s' ip (off + j) (src j))) := by
  have hu : u32 (off + n) = off + n := u32_eq hrange
  have hsl : Sane PGSIZE (f_lseek s ip (off + n)).2 :=
    hs.congr_sane (sameC_f_lseek _ _ _) (grow_f_lseek _ _ _ hrange)
  have hbl : ∀ ip' p v, ByteIs PGSIZE s ip' p v →
      ByteIs PGSIZE (f_lseek s ip (off + n)).2 ip' p v :=
    fun ip' p v hb => hb.grow (sameC_f_lseek _ _ _).1 (grow_f_lseek _ _ _ hrange)
  unfold writei at h
  rw [hu] at h
  dsimp only at h
  split at h
  · cases h
    exact ⟨hsl, fun ip' p v hb _ => hbl ip' p v hb, Or.inl rfl⟩
  · rename_i s1 hg
    have key : ∀ {t : KState}, Sane PGSIZE t → off + n ≤ (t.ino ip).file.objsize →
        writei_loop PGSIZE ip false src n n t 0 off n = some (r, s') →
        Sane PGSIZE s' ∧
        (∀ ip' p v, ByteIs PGSIZE t ip' p v → ¬ (ip' = ip ∧ off ≤ p ∧ p < off + n) →
          ByteIs PGSIZE s' ip' p v) ∧
        (r = 0 ∨ (r = toInt32 n ∧ ∀ j, j < n → ByteIs PGSIZE s' ip (off + j) (src j))) := by
      intro t ht hsz hl
      obtain ⟨a, b, c⟩ := writei_loop_spec hP hP32 n ht hrange hsz hl
      refine ⟨a, b, ?_⟩
      rcases c with c | ⟨c1, c2⟩
      · exact Or.inl c
      · exact Or.inr ⟨c1, fun j hj => by have := c2 j hj; rwa [Nat.zero_add] at this⟩
    split at hg
    · split at hg
      · cases hg
      · rename_i hok
        simp only [ne_eq, not_not] at hok
        cases hg
        have hf : s.fault.1 = false := by rw [f_lseek_fst] at hok; exact fault_of_ok hok
        have hsz : off + n ≤ ((f_lseek s ip (off + n)).2.ino ip).file.objsize := by
          rw [f_lseek_ino, if_pos ⟨hf, rfl, hip⟩]
          exact Nat.le_max_right _ _
        obtain ⟨a, b, c⟩ := key hsl hsz h
        exact ⟨a, fun ip' p v hb hout => b ip' p v (hbl ip' p v hb) hout, c⟩
    · rename_i hnot
      cases hg
      exact key hs (by unfold f_size at hnot; omega) h

/-- One iteration of the loop of `readi`, case by case. -/
theorem readi_loop_step {PGSIZE ip : Nat} {user_dst : Bool} {n_dup fuel : Nat}
    {s s' : KState} {dst buf : Mem} {bufoff off len : Nat} {r : Int} (hlen : len ≠ 0)
    (h : readi_loop PGSIZE ip user_dst n_dup (fuel + 1) s dst bufoff off len =
      some (r, buf, s')) :
    ∃ ro s1, ctable_acquire PGSIZE s ip (PGROUNDDOWN PGSIZE off) = some (ro, s1) ∧
      ((ro = none ∧ r = 0 ∧ buf = dst ∧ s' = s1) ∨
       ∃ c, ro = some c ∧
        (((either_copyout s1 user_dst dst bufoff c (usub off (PGROUNDDOWN PGSIZE off))
              (chunk PGSIZE off len)).1 = -1 ∧ r = 0) ∨
         ((either_copyout s1 user_dst dst bufoff c (usub off (PGROUNDDOWN PGSIZE off))
              (chunk PGSIZE off len)).1 ≠ -1 ∧
           readi_loop PGSIZE ip user_dst n_dup fuel
             (either_copyout s1 user_dst dst bufoff c (usub off (PGROUNDDOWN PGSIZE off))
                (chunk PGSIZE off len)).2.2
             (either_copyout s1 user_dst dst bufoff c (usub off (PGROUNDDOWN PGSIZE off))
                (chunk PGSIZE off len)).2.1
             (bufoff + chunk PGSIZE off len) (u32 (PGROUNDDOWN PGSIZE off + PGSIZE))
             (len - chunk PGSIZE off len) = some (r, buf, s')))) := by
  rw [readi_loop, if_neg hlen] at h
  dsimp only at h
  cases ha : ctable_acquire PGSIZE s ip (PGROUNDDOWN PGSIZE off) with
  | none => rw [ha] at h; cases h
  | some p =>
    obtain ⟨ro, s1⟩ := p
    rw [ha] at h
    refine ⟨ro, s1, rfl, ?_⟩
    cases ro with
    | none =>
      dsimp only at h
      cases h
      exact Or.inl ⟨rfl, rfl, rfl, rfl⟩
    | some c =>
      dsimp only at h
      refine Or.inr ⟨c, rfl, ?_⟩
      change (if (either_copyout s1 user_dst dst bufoff c (usub off (PGROUNDDOWN PGSIZE off))
        (chunk PGSIZE off len)).1 = -1 then _ else _) = _ at h
      by_cases hc : (either_copyout s1 user_dst dst bufoff c (usub off (PGROUNDDOWN PGSIZE off))
        (chunk PGSIZE off len)).1 = -1
      · rw [if_pos hc] at h
        cases h
        exact Or.inl ⟨hc, rfl⟩
      · rw [if_neg hc] at h
        exact Or.inr ⟨hc, h⟩

theorem readi_loop_zero (PGSIZE ip : Nat) (user_dst : Bool) (n_dup fuel : Nat)
    (s : KState) (dst : Mem) (bufoff off : Nat) :
    readi_loop PGSIZE ip user_dst n_dup fuel s dst bufoff off 0 =
      some (toInt32 n_dup, dst, s) := by
  cases fuel <;> simp [readi_loop]

/-- The copy out of a cached page to a kernel buffer. -/
theorem copyout_kernel (s : KState) (dst : Mem) (bufoff c inpage n : Nat) :
    either_copyout s false dst bufoff c inpage n =
      (0, blit dst bufoff (s.pdata c) inpage n, s.emit (Ev.copyout c inpage bufoff n)) := by
  unfold either_copyout KState.pdata
  simp

/-- The loop of `readi` to a kernel buffer, on a well-formed state: unless it gives up
(result 0), the buffer receives, from `bufoff` on, the bytes of the file from `off` on as
seen through the cache (`E` at buffer index `bufoff + j` for file offset `off + j`), and
what the buffer held before `bufoff` is kept. -/
theorem readi_loop_spec {PGSIZE : Nat} (hP : 0 < PGSIZE) (hP32 : PGSIZE < 2 ^ 32) {ip : Nat}
    {n_dup : Nat} (E : Nat → Nat) (fuel : Nat) {s s' : KState} {dst buf : Mem}
    {bufoff off len : Nat} {r : Int}
    (hs : Sane PGSIZE s) (hrange : off + len < 2 ^ 32)
    (hE : ∀ j, j < len → ByteIs PGSIZE s ip (off + j) (E (bufoff + j)))
    (h : readi_loop PGSIZE ip false n_dup fuel s dst bufoff off len = some (r, buf, s')) :
    Sane PGSIZE s' ∧ (∀ ip' p v, ByteIs PGSIZE s ip' p v → ByteIs PGSIZE s' ip' p v) ∧
    (r = 0 ∨ (r = toInt32 n_dup ∧ (∀ j, j < len → buf (bufoff + j) = E (bufoff + j)) ∧
      ∀ i, i < bufoff → buf i = dst i)) := by
  induction fuel generalizing s dst bufoff off len with
  | zero =>
    rw [readi_loop] at h
    split at h
    · cases h
      exact ⟨hs, fun _ _ _ hb => hb, Or.inr ⟨rfl, fun j hj => by omega, fun _ _ => rfl⟩⟩
    · cases h
  | succ fuel ih =>
    by_cases hlen : len = 0
    · subst hlen
      rw [readi_loop_zero] at h
      cases h
      exact ⟨hs, fun _ _ _ hb => hb, Or.inr ⟨rfl, fun j hj => by omega, fun _ _ => rfl⟩⟩
    · obtain ⟨ro, s1, ha, hcase⟩ := readi_loop_step hlen h
      have hle := PGROUNDDOWN_le PGSIZE off
      have hlt := lt_PGROUNDDOWN_add hP off
      have hq : PGROUNDDOWN PGSIZE off < 2 ^ 32 := by omega
      obtain ⟨hs1, hsz1, hby1, hhit⟩ := acquire_spec hP hs hq ha
      obtain ⟨hin, hch⟩ := @chunk_eq PGSIZE off len hP hP32 (by omega) (by omega)
      rcases hcase with ⟨_, hr, _, rfl⟩ | ⟨c, hro, hcp⟩
      · exact ⟨hs1, hby1, Or.inl hr⟩
      · rw [hin, copyout_kernel] at hcp
        have hitc := hhit c hro
        rcases hcp with ⟨hbad, _⟩ | ⟨_, hrec⟩
        · cases hbad
        · dsimp only at hrec
          have hs2 : Sane PGSIZE (s1.emit (Ev.copyout c (off - PGROUNDDOWN PGSIZE off) bufoff
              (chunk PGSIZE off len))) := hs1.emit _
          have hby2 : ∀ ip' p v, ByteIs PGSIZE s ip' p v → ByteIs PGSIZE
              (s1.emit (Ev.copyout c (off - PGROUNDDOWN PGSIZE off) bufoff
              (chunk PGSIZE off len))) ip' p v :=
            fun ip' p v hb => (hby1 ip' p v hb).of_eq rfl (hby1 ip' p v hb).1 rfl
          have hn_le : chunk PGSIZE off len ≤ len := by rw [hch]; exact Nat.min_le_right _ _
          have hn_pg : off + chunk PGSIZE off len ≤ PGROUNDDOWN PGSIZE off + PGSIZE := by
            rw [hch]
            have := Nat.min_le_left (PGROUNDDOWN PGSIZE off + PGSIZE - off) len
            omega
          have hcopied : ∀ j, j < chunk PGSIZE off len →
              blit dst bufoff (s1.pdata c) (off - PGROUNDDOWN PGSIZE off)
                (chunk PGSIZE off len) (bufoff + j) = E (bufoff + j) := by
            intro j hj
            rw [blit_in _ _ _ _ _ _ (by omega) (by omega)]
            have hb := hby1 _ _ _ (hE j (by omega))
            have hQ : PGROUNDDOWN PGSIZE (off + j) = PGROUNDDOWN PGSIZE off :=
              PGROUNDDOWN_of_chunk (by omega) (by omega)
            have hmod := sub_PGROUNDDOWN PGSIZE (off + j)
            rw [hQ] at hmod
            have := (hb.2.1 c (by rw [hQ]; exact hitc)).1
            rw [← this]
            congr 1
            omega
          have hkept : ∀ i, i < bufoff →
              blit dst bufoff (s1.pdata c) (off - PGROUNDDOWN PGSIZE off)
                (chunk PGSIZE off len) i = dst i :=
            fun i hi => blit_out _ _ _ _ _ _ (by omega)
          by_cases hrest : len - chunk PGSIZE off len = 0
          · rw [hrest, readi_loop_zero] at hrec
            cases hrec
            exact ⟨hs2, hby2, Or.inr ⟨rfl, fun j hj => hcopied j (by omega), hkept⟩⟩
          · have hn_eq : chunk PGSIZE off len = PGROUNDDOWN PGSIZE off + PGSIZE - off := by
              rw [hch]; rw [hch] at hrest; omega
            have hnext : u32 (PGROUNDDOWN PGSIZE off + PGSIZE) = off + chunk PGSIZE off len := by
              rw [u32_eq (by omega)]; omega
            rw [hnext] at hrec
            obtain ⟨hs', hfr', hd'⟩ := ih hs2 (by omega) (fun j hj => by
              have := hby2 _ _ _ (hE (chunk PGSIZE off len + j) (by omega))
              have e1 : off + (chunk PGSIZE off len + j) = off + chunk PGSIZE off len + j := by
                omega
              have e2 : bufoff + (chunk PGSIZE off len + j) =
                  bufoff + chunk PGSIZE off len + j := by omega
              rw [e1, e2] at this
              exact this) hrec
            refine ⟨hs', fun ip' p v hb => hfr' ip' p v (hby2 ip' p v hb), ?_⟩
            rcases hd' with h0 | ⟨hr, hd1, hd2⟩
            · exact Or.inl h0
            · refine Or.inr ⟨hr, fun j hj => ?_, fun i hi => ?_⟩
              · by_cases hj' : j < chunk PGSIZE off len
                · rw [hd2 (bufoff + j) (by omega)]
                  exact hcopied j hj'
                · have := hd1 (j - chunk PGSIZE off len) (by omega)
                  have e2 : bufoff + chunk PGSIZE off len + (j - chunk PGSIZE off len) =
                      bufoff + j := by omega
                  rw [e2] at this
                  exact this
              · rw [hd2 i (by omega)]
                exact hkept i hi

/-- What `readi` to a kernel buffer guarantees on a well-formed state, for a non-empty range
within the `uint` offsets whose bytes, as seen through the cache, are `E 0, E 1, ...`:
unless it gives up (result 0), it returns `n` as an `int` and the buffer holds `E`. -/
theorem readi_spec {PGSIZE : Nat} (hP : 0 < PGSIZE) (hP32 : PGSIZE < 2 ^ 32) {ip : Nat}
    (E : Nat → Nat) {s s' : KState} {dst buf : Mem} {off n : Nat} {r : Int}
    (hs : Sane PGSIZE s) (hn : 0 < n) (hrange : off + n < 2 ^ 32)
    (hE : ∀ j, j < n → ByteIs PGSIZE s ip (off + j) (E j))
    (h : readi PGSIZE s ip false dst off n = some (r, buf, s')) :
    Sane PGSIZE s' ∧ (∀ ip' p v, ByteIs PGSIZE s ip' p v → ByteIs PGSIZE s' ip' p v) ∧
    (r = 0 ∨ (r = toInt32 n ∧ ∀ j, j < n → buf j = E j)) := by
  have hlast := (hE (n - 1) (by omega)).1
  have hsz := hs.2.2 ip
  unfold readi at h
  dsimp only at h
  unfold f_size at h
  rw [u32_eq hsz, u32_eq hrange, if_neg (by omega), if_neg (by omega)] at h
  obtain ⟨a, b, c⟩ := readi_loop_spec hP hP32 E n hs hrange
    (fun j hj => by rw [Nat.zero_add]; exact hE j hj) h
  refine ⟨a, b, ?_⟩
  rcases c with c | ⟨c1, c2, _⟩
  · exact Or.inl c
  · exact Or.inr ⟨c1, fun j hj => by have := c2 j hj; rwa [Nat.zero_add] at this⟩

theorem toInt32_ne_zero {k : Nat} (h1 : 0 < k) (h2 : k < 2 ^ 32) : toInt32 k ≠ 0 := by
  unfold toInt32
  rw [Nat.mod_eq_of_lt h2]
  split <;> omega

/-- Write then read, partial form: on a well-formed state, if `writei` of `k` bytes of `B`
at `off` does not give up, a `readi` of the same range right after it either gives up or
returns what `writei` returned and delivers `B`. -/
theorem write_then_read {PGSIZE : Nat} (hP : 0 < PGSIZE) (hP32 : PGSIZE < 2 ^ 32)
    {s s1 s2 : KState} {ip off k : Nat} {B dst buf : Mem} {rw rr : Int}
    (hs : Sane PGSIZE s) (hip : ip < s.NINODE) (hk : 0 < k) (hoff : off + k < 2 ^ 32)
    (hw : writei PGSIZE s ip false B off k = some (rw, s1)) (hrw : rw ≠ 0)
    (hr : readi PGSIZE s1 ip false dst off k = some (rr, buf, s2)) (hrr : rr ≠ 0) :
    rr = rw ∧ ∀ j, j < k → buf j = B j := by
  obtain ⟨hs1, _, hdata⟩ := writei_spec hP hP32 hs hip hoff hw
  rcases hdata with h0 | ⟨hrw', hbytes⟩
  · exact absurd h0 hrw
  · obtain ⟨_, _, hres⟩ := readi_spec hP hP32 B hs1 hk hoff hbytes hr
    rcases hres with h0 | ⟨hrr', hbuf⟩
    · exact absurd h0 hrr
    · exact ⟨by rw [hrr', hrw'], hbuf⟩

/-! ## What the cache operations leave of the inode table -/

theorem Keep.refl_k (ip : Nat) (s : KState) : Keep ip s s :=
  ⟨rfl, fun _ => ⟨rfl, rfl, rfl, fun _ => Int.le_refl _, rfl, rfl⟩⟩

theorem Keep.trans_k {ip : Nat} {a b c : KState} (h1 : Keep ip a b) (h2 : Keep ip b c) :
    Keep ip a c :=
  ⟨h2.1.trans h1.1, fun j =>
    ⟨(h2.2 j).1.trans (h1.2 j).1, (h2.2 j).2.1.trans (h1.2 j).2.1,
      (h2.2 j).2.2.1.trans (h1.2 j).2.2.1,
      fun hj => Int.le_trans ((h2.2 j).2.2.2.1 hj) ((h1.2 j).2.2.2.1 hj),
      (h2.2 j).2.2.2.2.1.trans (h1.2 j).2.2.2.2.1,
      (h2.2 j).2.2.2.2.2.trans (h1.2 j).2.2.2.2.2⟩⟩

theorem keep_of_inode_eq {ip : Nat} {s s' : KState} (h : s'.inode = s.inode) : Keep ip s s' :=
  ⟨NINODE_congr h, fun j => by rw [ino_congr h]; exact ⟨rfl, rfl, rfl, fun _ => Int.le_refl _, rfl, rfl⟩⟩

theorem keep_f_lseek (ip : Nat) (s : KState) (h o : Nat) : Keep ip s (f_lseek s h o).2 := by
  refine ⟨f_lseek_NINODE _ _ _, fun j => ?_⟩
  rw [f_lseek_ino]
  split
  · rename_i hx; rw [← hx.2.1]; exact ⟨rfl, rfl, rfl, fun _ => Int.le_refl _, rfl, rfl⟩
  · exact ⟨rfl, rfl, rfl, fun _ => Int.le_refl _, rfl, rfl⟩

theorem keep_f_read (ip : Nat) (s : KState) (h n : Nat) : Keep ip s (f_read s h n).2.2.2 := by
  refine ⟨f_read_NINODE _ _ _, fun j => ?_⟩
  rw [f_read_ino]
  split
  · rename_i hx; rw [← hx.2.1]; exact ⟨rfl, rfl, rfl, fun _ => Int.le_refl _, rfl, rfl⟩
  · exact ⟨rfl, rfl, rfl, fun _ => Int.le_refl _, rfl, rfl⟩

theorem keep_f_write (ip : Nat) (s : KState) (h : Nat) (buf : Mem) (n : Nat) :
    Keep ip s (f_write s h buf n).2.2 := by
  refine ⟨f_write_NINODE _ _ _ _, fun j => ?_⟩
  rw [f_write_ino]
  split
  · rename_i hx; rw [← hx.2.1]; exact ⟨rfl, rfl, rfl, fun _ => Int.le_refl _, rfl, rfl⟩
  · exact ⟨rfl, rfl, rfl, fun _ => Int.le_refl _, rfl, rfl⟩

theorem keep_idup (s : KState) (ip : Nat) : Keep ip s (idup s ip) := by
  refine ⟨by simp [idup], fun j => ?_⟩
  unfold idup
  rw [setIno_ino]
  split
  · rename_i hx
    rw [← hx.1]
    exact ⟨rfl, rfl, rfl, fun h => absurd rfl h, rfl, rfl⟩
  · exact ⟨rfl, rfl, rfl, fun _ => Int.le_refl _, rfl, rfl⟩

theorem keep_iput {ip : Nat} {s s' : KState} {h : Nat} (hp : iput s h = some s') :
    Keep ip s s' := by
  obtain ⟨_, _, hn, hall⟩ := iput_effect hp
  refine ⟨hn, fun j => ?_⟩
  obtain ⟨h1, _, h3, h4, h5, h6, h7⟩ := hall j
  refine ⟨h6, h7, h3, fun _ => ?_, h4, h5⟩
  rw [h1]
  split <;> omega

theorem keep_writeback {PGSIZE ip : Nat} {s s' : KState} {c : Nat} {r : Int}
    (h : cache_writeback PGSIZE s c = some (r, s')) : Keep ip s s' := by
  obtain ⟨h', pg, _, _, hcase⟩ := writeback_chain h
  rcases hcase with ⟨_, _, rfl⟩ | ⟨_, rfl, _⟩
  · exact keep_f_lseek _ _ _ _
  · exact (keep_f_lseek _ _ _ _).trans_k (keep_f_write _ _ _ _ _)

theorem keep_wb_ok {PGSIZE ip : Nat} {t s1 : KState} {c : Nat} (h : wb_ok PGSIZE t c s1) :
    Keep ip t s1 := by
  unfold wb_ok at h
  split at h
  · exact keep_writeback h
  · rw [h]; exact Keep.refl_k _ _

theorem keep_evict_at {PGSIZE ip : Nat} {s s' : KState} {i c : Nat} {r : Int}
    (h : evict_at PGSIZE s i c = some (r, s')) : Keep ip s s' := by
  obtain ⟨s1, h', s3, _, hwb, _, hput, rfl⟩ := evict_at_chain h
  exact (((@keep_of_inode_eq ip s (s.emit (Ev.evict c)) rfl).trans_k (keep_wb_ok hwb)).trans_k
    ((@keep_of_inode_eq ip s1 (recycle_physical_page s1) rfl).trans_k (keep_iput hput))).trans_k
    (keep_of_inode_eq rfl)

theorem keep_evict {PGSIZE ip : Nat} {s s' : KState} {r : Int}
    (h : ctable_lru_evict PGSIZE s = some (r, s')) : Keep ip s s' := by
  unfold ctable_lru_evict at h
  rcases evict_scan_cases h with ⟨_, h2, _⟩ | ⟨i, c, _, _, _, _, h5⟩
  · rw [h2]; exact Keep.refl_k _ _
  · exact keep_evict_at h5

theorem keep_lru_add {PGSIZE ip : Nat} {s s' : KState} {c : Nat} {x : Int}
    (h : ctable_lru_add PGSIZE s c = some (x, s')) : Keep ip s s' := by
  obtain ⟨s1, h1, h2⟩ := lru_add_chain h
  have p1 : Keep ip s s1 := by
    rcases h1 with ⟨_, rfl⟩ | ⟨_, r, hev⟩
    · exact Keep.refl_k _ _
    · exact keep_evict hev
  rcases h2 with ⟨_, rfl⟩ | ⟨_, rfl⟩
  · exact p1
  · exact p1.trans_k (keep_of_inode_eq rfl)

theorem keep_fill_slot {PGSIZE : Nat} {s s' : KState} {c ip q : Nat} {r : Option Nat}
    (hc : c < s.NCACHE) (h : fill_slot PGSIZE s c ip q = some (r, s')) : Keep ip s s' := by
  have q1 : Keep ip s (f_lseek (fill_claim s c ip q) ip q).2 :=
    (@keep_of_inode_eq ip s (fill_claim s c ip q) rfl).trans_k (keep_f_lseek _ _ _ _)
  have q2 : ∀ t : KState, Keep ip t (fill_loaded PGSIZE t c ip q) :=
    fun t => (keep_f_read ip t ip PGSIZE).trans_k (keep_of_inode_eq rfl)
  have q3 : ∀ t : KState, Keep ip t (fill_rollback t c) := fun t => keep_of_inode_eq rfl
  rcases fill_slot_chain hc h with ⟨_, _, rfl⟩ | ⟨_, ⟨_, _, rfl⟩ | ⟨_, _, x, hadd⟩⟩
  · exact q1.trans_k (q3 _)
  · exact (q1.trans_k (q2 _)).trans_k (q3 _)
  · exact ((q1.trans_k (q2 _)).trans_k (keep_idup _ _)).trans_k (keep_lru_add hadd)

theorem keep_acquire {PGSIZE : Nat} {s s' : KState} {ip q : Nat} {r : Option Nat}
    (ha : ctable_acquire PGSIZE s ip q = some (r, s')) : Keep ip s s' := by
  unfold ctable_acquire at ha
  split at ha
  · cases ha
  · split at ha
    · cases ha
      refine keep_of_inode_eq ?_
      unfold ctable_lru_adjust; dsimp only; split <;> rfl
    · split at ha
      · rename_i c hc
        obtain ⟨hcn, _, _⟩ := find_slot_some hc
        exact keep_fill_slot hcn ha
      · split at ha
        · cases ha
        · rename_i x s1 hev
          have p1 : Keep ip s s1 := keep_evict hev
          split at ha
          · rename_i c hc
            obtain ⟨hcn, _, _⟩ := find_slot_some hc
            exact p1.trans_k (keep_fill_slot hcn ha)
          · cases ha; exact p1

theorem copyin_inode (s : KState) (user_src : Bool) (c inpage : Nat) (src : Mem)
    (bufoff n : Nat) : (either_copyin s user_src c inpage src bufoff n).2.inode = s.inode := by
  unfold either_copyin
  dsimp only
  split
  · split
    · simp
    · split <;> simp
  · split <;> simp

theorem keep_writei_loop {PGSIZE ip : Nat} {user_src : Bool} {src : Mem} {n_dup : Nat}
    (fuel : Nat) {s s' : KState} {bufoff off len : Nat} {r : Int}
    (h : writei_loop PGSIZE ip user_src src n_dup fuel s bufoff off len = some (r, s')) :
    Keep ip s s' := by
  induction fuel generalizing s bufoff off len with
  | zero =>
    rw [writei_loop] at h
    split at h
    · cases h; exact Keep.refl_k _ _
    · cases h
  | succ fuel ih =>
    by_cases hlen : len = 0
    · rw [writei_loop, if_pos hlen] at h
      cases h; exact Keep.refl_k _ _
    · obtain ⟨ro, s1, ha, hcase⟩ := writei_loop_step hlen h
      have q1 := keep_acquire ha
      rcases hcase with ⟨_, _, rfl⟩ | ⟨c, _, ⟨_, _, rfl⟩ | ⟨_, hrec⟩⟩
      · exact q1
      · exact q1.trans_k (keep_of_inode_eq (copyin_inode _ _ _ _ _ _ _))
      · have k3 := ih hrec
        exact (q1.trans_k (keep_of_inode_eq (copyin_inode _ _ _ _ _ _ _))).trans_k
          (Keep.trans_k (keep_of_inode_eq rfl) k3)

theorem keep_writei {PGSIZE : Nat} {s s' : KState} {ip : Nat} {user_src : Bool} {src : Mem}
    {off n : Nat} {r : Int} (h : writei PGSIZE s ip user_src src off n = some (r, s')) :
    Keep ip s s' := by
  unfold writei at h
  dsimp only at h
  split at h
  · cases h
    exact keep_f_lseek _ _ _ _
  · rename_i s1 hg
    split at hg
    · split at hg
      · cases hg
      · cases hg
        exact (keep_f_lseek _ _ _ _).trans_k (keep_writei_loop _ h)
    · cases hg
      exact keep_writei_loop _ h

/-! ## Progress of the page cache -/

/-- A host that was fit to be put stays so across a step that keeps, slot by slot, the
difference between `ref` and the cached pages, and the deferred operations. -/
theorem held_carry {s s' : KState} {i h : Nat} (hd : SameD s s') (hk : Keep i s s')
    (hlt : h < s.NINODE)
    (hx : (s.ino h).ref ≥ (s.hosted h : Int) ∧
      ((s.ino h).ref > (s.hosted h : Int) ∨ (s.ino h).unlinked ≠ 0 ∨
        (s.ino h).new_path.length = 0)) :
    h < s'.NINODE ∧ (s'.ino h).ref ≥ (s'.hosted h : Int) ∧
      ((s'.ino h).ref > (s'.hosted h : Int) ∨ (s'.ino h).unlinked ≠ 0 ∨
        (s'.ino h).new_path.length = 0) := by
  have := hd.2 h hlt
  refine ⟨by rw [hd.1]; exact hlt, by omega, ?_⟩
  rw [(hk.2 h).2.2.2.2.1, (hk.2 h).2.2.2.2.2]
  rcases hx.2 with h1 | h1 | h1
  · exact Or.inl (by omega)
  · exact Or.inr (Or.inl h1)
  · exact Or.inr (Or.inr h1)

theorem held_of_gt {s : KState} {h : Nat} (hx : (s.ino h).ref > (s.hosted h : Int)) :
    (s.ino h).ref ≥ (s.hosted h : Int) ∧
      ((s.ino h).ref > (s.hosted h : Int) ∨ (s.ino h).unlinked ≠ 0 ∨
        (s.ino h).new_path.length = 0) := ⟨by omega, Or.inl hx⟩

theorem live_carry {s s' : KState} {ip : Nat} (hd : SameD s s') (hip : ip < s.NINODE)
    (href : (s.ino ip).ref > (s.hosted ip : Int)) :
    ip < s'.NINODE ∧ (s'.ino ip).ref > (s'.hosted ip : Int) := by
  have := hd.2 ip hip
  exact ⟨by rw [hd.1]; exact hip, by omega⟩

theorem Live.of_set_live {s s' : KState} {c ip i : Nat} {w : page_cache} (hl : Live s ip)
    (hd : SameD s s') (hk : Keep i s s') (hc : s'.cache = s.cache.set c w)
    (hw : w.valid = true → w.host = some ip) : Live s' ip := by
  obtain ⟨hh, hip, href⟩ := hl
  have hip' := live_carry hd hip href
  refine ⟨fun c' h hv hh' => ?_, hip'.1, hip'.2⟩
  rw [slot_of_cache_set hc] at hv hh'
  split at hv
  · rename_i hx
    rw [if_pos hx, hw hv] at hh'
    cases hh'
    exact ⟨hip'.1, held_of_gt hip'.2⟩
  · rename_i hx
    rw [if_neg hx] at hh'
    obtain ⟨h1, h2⟩ := hh c' h hv hh'
    exact held_carry hd hk h1 h2

theorem Live.of_same_live {s s' : KState} {ip i : Nat} (hl : Live s ip) (hd : SameD s s')
    (hk : Keep i s s') (hc : s'.cache = s.cache) : Live s' ip := by
  obtain ⟨hh, hip, href⟩ := hl
  have hip' := live_carry hd hip href
  refine ⟨fun c' h hv hh' => ?_, hip'.1, hip'.2⟩
  rw [slot_congr hc] at hv hh'
  obtain ⟨h1, h2⟩ := hh c' h hv hh'
  exact held_carry hd hk h1 h2

theorem Avail.of_set_avail {s s' : KState} {c : Nat} {w : page_cache}
    (hc : s'.cache = s.cache.set c w) (hlt : c < s.NCACHE)
    (hw : w.valid = false ∨ get_physical_page_ref w.page = 1) : Avail s' := by
  refine ⟨c, by rw [NCACHE_of_cache_set hc]; exact hlt, ?_⟩
  rw [slot_of_cache_set hc, if_pos ⟨rfl, hlt⟩]
  exact hw

theorem Avail.of_same_avail {s s' : KState} (h : Avail s) (hc : s'.cache = s.cache) : Avail s' := by
  obtain ⟨c, hlt, hx⟩ := h
  refine ⟨c, by simpa [KState.NCACHE, hc] using hlt, ?_⟩
  rw [slot_congr hc]; exact hx

theorem evict_live {PGSIZE : Nat} {s s1 : KState} {ip : Nat} {x : Int} (hs : Sane PGSIZE s)
    (hl : Live s ip) (he : ctable_lru_evict PGSIZE s = some (x, s1)) :
    Live s1 ip ∧ (s1 = s ∨ Avail s1) := by
  have hd := evict_sameD hs.1 he
  have hk : Keep ip s s1 := keep_evict he
  unfold ctable_lru_evict at he
  rcases evict_scan_cases he with ⟨_, h2, _⟩ | ⟨i, c, _, hi, _, _, h5⟩
  · rw [h2]; exact ⟨hl, Or.inl rfl⟩
  · obtain ⟨⟨L, hL⟩, _⟩ := hs.1
    have hv : (s.slot c).valid = true := (hL.2.2 c).mp (hL.of_lruAt hi).2.2
    obtain ⟨_, hc, _⟩ := evict_at_shape h5
    exact ⟨hl.of_set_live hd hk hc (fun h => by cases h),
      Or.inr (Avail.of_set_avail hc (lt_of_valid s c hv) (Or.inl rfl))⟩

theorem fill_live {PGSIZE : Nat} {s s' : KState} {c ip q : Nat} {r : Option Nat}
    (hs : Sane PGSIZE s) (hc : c < s.NCACHE) (hv : (s.slot c).valid = false) (hq : q < 2 ^ 32)
    (hl : Live s ip) (h : fill_slot PGSIZE s c ip q = some (r, s')) :
    Live s' ip ∧ Avail s' := by
  have hd := fill_slot_sameD hs.1 hc hv h
  have hk : Keep ip s s' := keep_fill_slot hc h
  obtain ⟨_, hcase⟩ := fill_slot_cases hs.1 hc hv hq h
  rcases hcase with ⟨_, hcache⟩ | ⟨_, d, hcache, _⟩
  · exact ⟨hl.of_set_live hd hk hcache (fun h => by cases h),
      Avail.of_set_avail hcache hc (Or.inl rfl)⟩
  · exact ⟨hl.of_set_live hd hk hcache (fun _ => rfl),
      Avail.of_set_avail hcache hc (Or.inr rfl)⟩

/-- Across `ctable_acquire` the files with cached pages stay held, and either the cache is
as before or a slot is available afterwards. -/
theorem acquire_live {PGSIZE : Nat} {s s' : KState} {ip q : Nat} {r : Option Nat}
    (hs : Sane PGSIZE s) (hq : q < 2 ^ 32) (hl : Live s ip)
    (ha : ctable_acquire PGSIZE s ip q = some (r, s')) :
    Live s' ip ∧ (s'.cache = s.cache ∨ Avail s') := by
  unfold ctable_acquire at ha
  split at ha
  · cases ha
  · split at ha
    · rename_i c hc
      cases ha
      have hcache := lru_adjust_cache s c
      have hk : Keep ip s (ctable_lru_adjust s c).2 := by
        refine keep_of_inode_eq ?_
        unfold ctable_lru_adjust; dsimp only; split <;> rfl
      exact ⟨hl.of_same_live ((benign_lru_adjust s c).sameD hcache) hk hcache, Or.inl hcache⟩
    · split at ha
      · rename_i c hc
        obtain ⟨hcn, hp, _⟩ := find_slot_some hc
        have hv : (s.slot c).valid = false := by simpa using hp
        obtain ⟨a, b⟩ := fill_live hs hcn hv hq hl ha
        exact ⟨a, Or.inr b⟩
      · split at ha
        · cases ha
        · rename_i x s1 hev
          have hs1 := hs.evict_sane hev
          obtain ⟨hl1, hav1⟩ := evict_live hs hl hev
          split at ha
          · rename_i c hc
            obtain ⟨hcn, hp, _⟩ := find_slot_some hc
            have hv : (s1.slot c).valid = false := by simpa using hp
            obtain ⟨a, b⟩ := fill_live hs1 hcn hv hq hl1 ha
            exact ⟨a, Or.inr b⟩
          · cases ha
            refine ⟨hl1, ?_⟩
            rcases hav1 with h | h
            · exact Or.inl (by rw [h])
            · exact Or.inr h

/-- A page that can be acquired before a `ctable_acquire` can be acquired after it. -/
theorem acquire_ready {PGSIZE : Nat} {s s' : KState} {ip q : Nat} {r : Option Nat}
    (hs : Sane PGSIZE s) (hq : q < 2 ^ 32) (hl : Live s ip)
    (ha : ctable_acquire PGSIZE s ip q = some (r, s')) (ip' p : Nat)
    (hr : Ready PGSIZE s ip' p) : Ready PGSIZE s' ip' p := by
  rcases (acquire_live hs hq hl ha).2 with hc | hav
  · rcases hr with h | ⟨c, h⟩
    · exact Or.inl (h.of_same_avail hc)
    · exact Or.inr ⟨c, by rw [slot_congr hc]; exact h⟩
  · exact Or.inl hav

theorem written_keys (w : page_cache) (pg : PhysPage) (inpage : Nat) (src : Mem)
    (bufoff n : Nat) (hp : w.page = some pg) :
    (written w pg inpage src bufoff n).valid = w.valid ∧
    (written w pg inpage src bufoff n).host = w.host ∧
    (written w pg inpage src bufoff n).offset = w.offset ∧
    get_physical_page_ref (written w pg inpage src bufoff n).page =
      get_physical_page_ref w.page := by
  refine ⟨rfl, rfl, rfl, ?_⟩
  rw [hp]; rfl

/-- The write step changes no key and no page reference count. -/
theorem write_step_keys {s s' : KState} {c inpage bufoff n : Nat} {src : Mem} {pg : PhysPage}
    (hp : (s.slot c).page = some pg)
    (hc : s'.cache = s.cache.set c (written (s.slot c) pg inpage src bufoff n)) (c' : Nat) :
    (s'.slot c').valid = (s.slot c').valid ∧ (s'.slot c').host = (s.slot c').host ∧
    (s'.slot c').offset = (s.slot c').offset ∧
    get_physical_page_ref (s'.slot c').page = get_physical_page_ref (s.slot c').page := by
  rw [slot_of_cache_set hc]
  split
  · rename_i hx
    rw [← hx.1]
    exact written_keys _ _ _ _ _ _ hp
  · exact ⟨rfl, rfl, rfl, rfl⟩

theorem Ready.of_keys {PGSIZE : Nat} {s s' : KState} {ip p : Nat} (hr : Ready PGSIZE s ip p)
    (hn : s'.NCACHE = s.NCACHE)
    (hk : ∀ c, (s'.slot c).valid = (s.slot c).valid ∧ (s'.slot c).host = (s.slot c).host ∧
      (s'.slot c).offset = (s.slot c).offset ∧
      get_physical_page_ref (s'.slot c).page = get_physical_page_ref (s.slot c).page) :
    Ready PGSIZE s' ip p := by
  rcases hr with ⟨c, hlt, hx⟩ | ⟨c, hit⟩
  · exact Or.inl ⟨c, by rw [hn]; exact hlt, by rw [(hk c).1, (hk c).2.2.2]; exact hx⟩
  · refine Or.inr ⟨c, ?_⟩
    rw [is_hit_iff] at hit ⊢
    rw [(hk c).1, (hk c).2.1, (hk c).2.2.1]
    exact hit

theorem Live.write_live {s s' : KState} {c ip inpage bufoff n : Nat} {src : Mem}
    {pg : PhysPage} (hl : Live s ip) (hcn : c < s.NCACHE) (hp : (s.slot c).page = some pg)
    (hc : s'.cache = s.cache.set c (written (s.slot c) pg inpage src bufoff n))
    (hi : s'.inode = s.inode) : Live s' ip := by
  have hd : SameD s s' := by
    refine ⟨NINODE_congr hi, fun i _ => ?_⟩
    have := hosted_set hc hcn i
    have e : ((written (s.slot c) pg inpage src bufoff n).valid = true ∧
        (written (s.slot c) pg inpage src bufoff n).host = some i) ↔
        ((s.slot c).valid = true ∧ (s.slot c).host = some i) := Iff.rfl
    rw [ino_congr hi]
    simp only [e] at this
    omega
  have hk : Keep ip s s' := keep_of_inode_eq hi
  obtain ⟨hh, hip, href⟩ := hl
  have hip' := live_carry hd hip href
  refine ⟨fun c' h hv hh' => ?_, hip'.1, hip'.2⟩
  have hkeys := write_step_keys hp hc c'
  rw [hkeys.1] at hv
  rw [hkeys.2.1] at hh'
  obtain ⟨h1, h2⟩ := hh c' h hv hh'
  exact held_carry hd hk h1 h2

/-- The loop of `writei`, progress side: the files with cached pages stay held, a page
that could be acquired still can, and unless the loop gave up the pages of the range can be
acquired afterwards. -/
theorem writei_loop_ready {PGSIZE : Nat} (hP : 0 < PGSIZE) (hP32 : PGSIZE < 2 ^ 32) {ip : Nat}
    {src : Mem} {n_dup : Nat} (fuel : Nat) {s s' : KState} {bufoff off len : Nat} {r : Int}
    (hs : Sane PGSIZE s) (hl : Live s ip) (hrange : off + len < 2 ^ 32)
    (h : writei_loop PGSIZE ip false src n_dup fuel s bufoff off len = some (r, s')) :
    Live s' ip ∧ (∀ ip' p, Ready PGSIZE s ip' p → Ready PGSIZE s' ip' p) ∧
    (r = 0 ∨ ∀ j, j < len → Ready PGSIZE s' ip (off + j)) := by
  induction fuel generalizing s bufoff off len with
  | zero =>
    rw [writei_loop] at h
    split at h
    · cases h
      exact ⟨hl, fun _ _ hr => hr, Or.inr (fun j hj => by omega)⟩
    · cases h
  | succ fuel ih =>
    by_cases hlen : len = 0
    · subst hlen
      rw [writei_loop_zero] at h
      cases h
      exact ⟨hl, fun _ _ hr => hr, Or.inr (fun j hj => by omega)⟩
    · obtain ⟨ro, s1, ha, hcase⟩ := writei_loop_step hlen h
      have hle := PGROUNDDOWN_le PGSIZE off
      have hlt := lt_PGROUNDDOWN_add hP off
      have hq : PGROUNDDOWN PGSIZE off < 2 ^ 32 := by omega
      obtain ⟨hs1, _, _, hhit⟩ := acquire_spec hP hs hq ha
      obtain ⟨hl1, _⟩ := acquire_live hs hq hl ha
      have hr1 := acquire_ready hs hq hl ha
      obtain ⟨hin, hch⟩ := @chunk_eq PGSIZE off len hP hP32 (by omega) (by omega)
      rcases hcase with ⟨_, hr, rfl⟩ | ⟨c, hro, hcp⟩
      · exact ⟨hl1, hr1, Or.inl hr⟩
      · rw [hin] at hcp
        have hitc := hhit c hro
        have hv := ((is_hit_iff _ _ _).mp hitc).1
        have hcn := lt_of_valid s1 c hv
        obtain ⟨⟨pg, hpg⟩, _⟩ := hs1.2.1 c hv
        obtain ⟨w1, w2, w3, w4⟩ := @write_step s1 c (off - PGROUNDDOWN PGSIZE off) bufoff
          (chunk PGSIZE off len) src pg hcn hpg
        rcases hcp with ⟨hbad, _⟩ | ⟨_, hrec⟩
        · rw [w1] at hbad; cases hbad
        · obtain ⟨s2, hs2eq⟩ : ∃ s2, s2 = (either_copyin s1 false c (off - PGROUNDDOWN PGSIZE off) src
              bufoff (chunk PGSIZE off len)).2.setSlot c
              { (either_copyin s1 false c (off - PGROUNDDOWN PGSIZE off) src bufoff
                (chunk PGSIZE off len)).2.slot c with dirty := true } := ⟨_, rfl⟩
          rw [← hs2eq] at w2 w3 w4 hrec
          have hs2 : Sane PGSIZE s2 := hs1.write w2 w3 w4
          have hl2 : Live s2 ip := hl1.write_live hcn hpg w2 w3
          have hk2 := write_step_keys hpg w2
          have hr2 : ∀ ip' p, Ready PGSIZE s ip' p → Ready PGSIZE s2 ip' p :=
            fun ip' p hr => (hr1 ip' p hr).of_keys (NCACHE_of_cache_set w2) hk2
          have hn_le : chunk PGSIZE off len ≤ len := by rw [hch]; exact Nat.min_le_right _ _
          have hn_pg : off + chunk PGSIZE off len ≤ PGROUNDDOWN PGSIZE off + PGSIZE := by
            rw [hch]
            have := Nat.min_le_left (PGROUNDDOWN PGSIZE off + PGSIZE - off) len
            omega
          have hnew : ∀ j, j < chunk PGSIZE off len → Ready PGSIZE s2 ip (off + j) := by
            intro j hj
            refine Or.inr ⟨c, ?_⟩
            have hQ : PGROUNDDOWN PGSIZE (off + j) = PGROUNDDOWN PGSIZE off :=
              PGROUNDDOWN_of_chunk (by omega) (by omega)
            rw [hQ, is_hit_iff, (hk2 c).1, (hk2 c).2.1, (hk2 c).2.2.1]
            exact (is_hit_iff _ _ _).mp hitc
          by_cases hrest : len - chunk PGSIZE off len = 0
          · rw [hrest, writei_loop_zero] at hrec
            cases hrec
            exact ⟨hl2, hr2, Or.inr (fun j hj => hnew j (by omega))⟩
          · have hn_eq : chunk PGSIZE off len = PGROUNDDOWN PGSIZE off + PGSIZE - off := by
              rw [hch]; rw [hch] at hrest; omega
            have hnext : u32 (PGROUNDDOWN PGSIZE off + PGSIZE) = off + chunk PGSIZE off len := by
              rw [u32_eq (by omega)]; omega
            rw [hnext] at hrec
            obtain ⟨hl', hfr', hd'⟩ := ih hs2 hl2 (by omega) hrec
            refine ⟨hl', fun ip' p hr => hfr' ip' p (hr2 ip' p hr), ?_⟩
            rcases hd' with h0 | hd'
            · exact Or.inl h0
            · refine Or.inr (fun j hj => ?_)
              by_cases hj' : j < chunk PGSIZE off len
              · exact hfr' ip _ (hnew j hj')
              · have := hd' (j - chunk PGSIZE off len) (by omega)
                have e1 : off + chunk PGSIZE off len + (j - chunk PGSIZE off len) = off + j := by
                  omega
                rw [e1] at this
                exact this

theorem writei_ready {PGSIZE : Nat} (hP : 0 < PGSIZE) (hP32 : PGSIZE < 2 ^ 32) {ip : Nat}
    {src : Mem} {s s' : KState} {off n : Nat} {r : Int}
    (hs : Sane PGSIZE s) (hl : Live s ip) (hrange : off + n < 2 ^ 32)
    (h : writei PGSIZE s ip false src off n = some (r, s')) :
    Live s' ip ∧ (r = 0 ∨ ∀ j, j < n → Ready PGSIZE s' ip (off + j)) := by
  have hu : u32 (off + n) = off + n := u32_eq hrange
  have hsl : Sane PGSIZE (f_lseek s ip (off + n)).2 :=
    hs.congr_sane (sameC_f_lseek _ _ _) (grow_f_lseek _ _ _ hrange)
  have hll : Live (f_lseek s ip (off + n)).2 ip :=
    hl.of_same_live ((benign_f_lseek _ _ _).sameD (sameC_f_lseek _ _ _).1)
      (keep_f_lseek ip s ip (off + n)) (sameC_f_lseek _ _ _).1
  unfold writei at h
  rw [hu] at h
  dsimp only at h
  split at h
  · cases h
    exact ⟨hll, Or.inl rfl⟩
  · rename_i s1 hg
    split at hg
    · split at hg
      · cases hg
      · cases hg
        obtain ⟨a, _, c⟩ := writei_loop_ready hP hP32 n hsl hll hrange h
        exact ⟨a, c⟩
    · cases hg
      obtain ⟨a, _, c⟩ := writei_loop_ready hP hP32 n hs hl hrange h
      exact ⟨a, c⟩

/-! ## When no external call fails -/

theorem f_lseek_nf {s : KState} (h : s.faults = []) (ip o : Nat) :
    (f_lseek s ip o).1 = FRESULT.FR_OK ∧ (f_lseek s ip o).2.faults = [] := by
  unfold f_lseek
  rw [fault_nil s h]
  simp [KState.setFile, h]

theorem f_read_nf {s : KState} (h : s.faults = []) (ip n : Nat) :
    (f_read s ip n).1 = FRESULT.FR_OK ∧ (f_read s ip n).2.2.2.faults = [] := by
  unfold f_read
  rw [fault_nil s h]
  simp [KState.setFile, h]

theorem f_write_nf {s : KState} (h : s.faults = []) (ip : Nat) (buf : Mem) (n : Nat) :
    (f_write s ip buf n).1 = FRESULT.FR_OK ∧ (f_write s ip buf n).2.1 = n ∧
      (f_write s ip buf n).2.2.faults = [] := by
  unfold f_write
  rw [fault_nil s h]
  simp [KState.setFile, h]

theorem writeback_nf {PGSIZE : Nat} {s : KState} {c h : Nat} {pg : PhysPage}
    (hnf : s.faults = []) (hh : (s.slot c).host = some h) (hp : (s.slot c).page = some pg) :
    ∃ s1, cache_writeback PGSIZE s c = some (0, s1) ∧ s1.faults = [] := by
  unfold cache_writeback
  rw [hh, hp]
  dsimp only
  have h1 := f_lseek_nf hnf h (s.slot c).offset
  rw [if_neg (by rw [h1.1]; simp)]
  have h2 := f_write_nf h1.2 h pg.data
    (min (usub (u32 (f_size ((f_lseek s h (s.slot c).offset).2.ino h).file)) (s.slot c).offset)
      PGSIZE)
  rw [if_neg (by rw [h2.1, h2.2.1]; simp)]
  exact ⟨_, rfl, h2.2.2⟩

theorem f_close_nf {s : KState} (h : s.faults = []) (ip : Nat) :
    (f_close s ip).1 = FRESULT.FR_OK ∧ (f_close s ip).2.faults = [] := by
  unfold f_close
  rw [fault_nil s h]
  dsimp only
  rw [if_neg (by simp)]
  split <;> exact ⟨rfl, h⟩

theorem f_closedir_nf {s : KState} (h : s.faults = []) (ip : Nat) :
    (f_closedir s ip).1 = FRESULT.FR_OK ∧ (f_closedir s ip).2.faults = [] := by
  unfold f_closedir
  rw [fault_nil s h]
  simp [h]

theorem f_unlink_nf {s : KState} (h : s.faults = []) (p : String) :
    (f_unlink s p).2.faults = [] := by
  unfold f_unlink
  rw [fault_nil s h]
  dsimp only
  rw [if_neg (by simp)]
  split <;> exact h

/-- `iput` returns when no external call fails, the reference is there, and on the last
reference no deferred rename is pending. -/
theorem iput_total {s : KState} {h : Nat} (hnf : s.faults = []) (hr : (s.ino h).ref ≥ 1)
    (hx : (s.ino h).ref > 1 ∨ (s.ino h).unlinked ≠ 0 ∨ (s.ino h).new_path.length = 0) :
    ∃ s', iput s h = some s' ∧ s'.faults = [] := by
  unfold iput
  rw [if_pos (by omega)]
  by_cases h1 : (s.ino h).ref = 1
  · rw [if_pos h1]
    have hcl : (iput_close s h).1 = FRESULT.FR_OK ∧ (iput_close s h).2.faults = [] := by
      unfold iput_close
      split
      · exact f_closedir_nf hnf h
      · exact f_close_nf hnf h
    obtain ⟨_, _, _, hu, hn, _⟩ := iput_close_ino_ref s h h
    have hdef : ∃ t, iput_deferred (iput_close s h).2 h = some t ∧ t.faults = [] := by
      unfold iput_deferred
      rw [hu, hn]
      rcases hx with h2 | h2 | h2
      · omega
      · rw [if_pos h2]
        exact ⟨_, rfl, f_unlink_nf hcl.2 _⟩
      · by_cases h3 : (s.ino h).unlinked ≠ 0
        · rw [if_pos h3]
          exact ⟨_, rfl, f_unlink_nf hcl.2 _⟩
        · rw [if_neg h3, if_neg (by omega)]
          exact ⟨_, rfl, hcl.2⟩
    obtain ⟨t, ht, htn⟩ := hdef
    unfold iput_last
    rw [if_neg (by rw [hcl.1]; simp), ht]
    exact ⟨_, rfl, htn⟩
  · rw [if_neg h1]
    exact ⟨_, rfl, hnf⟩

theorem hosted_pos {s : KState} {c h : Nat} (hv : (s.slot c).valid = true)
    (hh : (s.slot c).host = some h) : 0 < s.hosted h := by
  unfold KState.hosted
  rw [List.countP_pos_iff]
  have hc := lt_of_valid s c hv
  refine ⟨s.slot c, ?_, by simp [hv, hh]⟩
  unfold KState.slot
  rw [List.getD_eq_getElem?_getD, List.getElem?_eq_getElem hc]
  exact List.getElem_mem _

theorem evict_at_total {PGSIZE : Nat} {s : KState} (i : Nat) {c : Nat} (hs : Sane PGSIZE s)
    (hnf : s.faults = []) (hh : Held s) (hv : (s.slot c).valid = true) :
    ∃ s', evict_at PGSIZE s i c = some (0, s') ∧ s'.faults = [] := by
  obtain ⟨⟨pg, hp⟩, ⟨h, hhost⟩, _, _⟩ := hs.2.1 c hv
  obtain ⟨hlt, hge, hdef⟩ := hh c h hv hhost
  have hpos := hosted_pos hv hhost
  unfold evict_at
  dsimp only
  split
  · rename_i hnone
    exfalso
    split at hnone
    · obtain ⟨s1, e1, _⟩ := @writeback_nf PGSIZE (s.emit (Ev.evict c)) c h pg hnf hhost hp
      rw [e1] at hnone
      simp at hnone
    · cases hnone
  · rename_i s1 hsome
    have hfacts : s1.faults = [] ∧ Benign s s1 ∧ SameC s s1 ∧ Keep h s s1 := by
      split at hsome
      · obtain ⟨s1', e1, n1⟩ := @writeback_nf PGSIZE (s.emit (Ev.evict c)) c h pg hnf hhost hp
        rw [e1] at hsome
        simp only [ne_eq, not_true_eq_false, if_false, Option.some.injEq] at hsome
        subst hsome
        exact ⟨n1,
          (benign_emit s (Ev.evict c) (fun _ => by simp [isClose])).trans (benign_writeback e1),
          (sameC_emit s _).trans_c (sameC_writeback e1),
          (@keep_of_inode_eq h s (s.emit (Ev.evict c)) rfl).trans_k (keep_writeback e1)⟩
      · cases hsome
        exact ⟨hnf, benign_emit s (Ev.evict c) (fun _ => by simp [isClose]), sameC_emit s _,
          keep_of_inode_eq rfl⟩
    obtain ⟨n1, b1, c1, k1⟩ := hfacts
    have hhost1 : ((recycle_physical_page s1).slot c).host = some h := by
      show (s1.slot c).host = some h
      rw [c1.slot]; exact hhost
    rw [hhost1]
    dsimp only
    have href1 : ((recycle_physical_page s1).ino h).ref ≥ 1 := by
      show (s1.ino h).ref ≥ 1
      rw [b1.2.2 h]; omega
    have hdef1 : ((recycle_physical_page s1).ino h).ref > 1 ∨
        ((recycle_physical_page s1).ino h).unlinked ≠ 0 ∨
        ((recycle_physical_page s1).ino h).new_path.length = 0 := by
      show (s1.ino h).ref > 1 ∨ (s1.ino h).unlinked ≠ 0 ∨ (s1.ino h).new_path.length = 0
      rw [b1.2.2 h, (k1.2 h).2.2.2.2.1, (k1.2 h).2.2.2.2.2]
      rcases hdef with h2 | h2 | h2
      · exact Or.inl (by omega)
      · exact Or.inr (Or.inl h2)
      · exact Or.inr (Or.inr h2)
    obtain ⟨s3, e3, n3⟩ := iput_total (show (recycle_physical_page s1).faults = [] from n1)
      href1 hdef1
    rw [e3]
    exact ⟨_, rfl, n3⟩

/-- The scan of `ctable_lru_evict` either finds nothing evictable, or runs `evict_at` on an
evictable entry. -/
theorem evict_scan_pick (PGSIZE : Nat) (s : KState) (k : Nat) :
    (evict_scan PGSIZE s k = some (-1, s) ∧
      ∀ i, i < k → ∀ c, s.lruAt i = some c → get_physical_page_ref (s.slot c).page ≠ 1) ∨
    (∃ i c, i < k ∧ s.lruAt i = some c ∧ get_physical_page_ref (s.slot c).page = 1 ∧
      evict_scan PGSIZE s k = evict_at PGSIZE s i c) := by
  induction k with
  | zero => exact Or.inl ⟨rfl, fun i hi => absurd hi (Nat.not_lt_zero i)⟩
  | succ k ih =>
    rw [evict_scan]
    cases hl : s.lruAt k with
    | none =>
      dsimp only
      rcases ih with ⟨h1, h2⟩ | ⟨i, c, h1, h2, h3, h4⟩
      · refine Or.inl ⟨h1, fun i hi c hc => ?_⟩
        by_cases hik : i = k
        · subst hik; rw [hl] at hc; cases hc
        · exact h2 i (by omega) c hc
      · exact Or.inr ⟨i, c, by omega, h2, h3, h4⟩
    | some c0 =>
      dsimp only
      by_cases hr : get_physical_page_ref (s.slot c0).page = 1
      · rw [if_pos hr]
        exact Or.inr ⟨k, c0, by omega, hl, hr, rfl⟩
      · rw [if_neg hr]
        rcases ih with ⟨h1, h2⟩ | ⟨i, c, h1, h2, h3, h4⟩
        · refine Or.inl ⟨h1, fun i hi c hc => ?_⟩
          by_cases hik : i = k
          · subst hik; rw [hl] at hc; cases hc; exact hr
          · exact h2 i (by omega) c hc
        · exact Or.inr ⟨i, c, by omega, h2, h3, h4⟩

theorem evict_total {PGSIZE : Nat} {s : KState} (hs : Sane PGSIZE s) (hnf : s.faults = [])
    (hh : Held s) {c : Nat} (hv : (s.slot c).valid = true)
    (hr : get_physical_page_ref (s.slot c).page = 1) :
    ∃ s', ctable_lru_evict PGSIZE s = some (0, s') ∧ s'.faults = [] ∧
      ∃ c', c' < s'.NCACHE ∧ (s'.slot c').valid = false := by
  obtain ⟨⟨L, hL⟩, _⟩ := hs.1
  have hcL : c ∈ L := (hL.2.2 c).mpr hv
  unfold ctable_lru_evict
  rcases evict_scan_pick PGSIZE s s.NCACHE with ⟨_, h2⟩ | ⟨i, c', _, h2, _, h4⟩
  · exfalso
    have hi : L.indexOf c < s.NCACHE :=
      Nat.lt_of_lt_of_le (List.indexOf_lt_length.mpr hcL) hL.length_le
    exact h2 _ hi c (hL.lruAt_indexOf hcL) hr
  · have hv' : (s.slot c').valid = true := (hL.2.2 c').mp (hL.of_lruAt h2).2.2
    obtain ⟨s', e, n⟩ := evict_at_total i hs hnf hh hv'
    rw [h4]
    refine ⟨s', e, n, c', ?_⟩
    obtain ⟨_, hc, _⟩ := evict_at_shape e
    rw [NCACHE_of_cache_set hc, slot_of_cache_set hc, if_pos ⟨rfl, lt_of_valid s c' hv'⟩]
    exact ⟨lt_of_valid s c' hv', rfl⟩

theorem lru_add_eq {PGSIZE : Nat} {t : KState} (c : Nat) (hl : t.lruAt (t.NCACHE - 1) = none) :
    ctable_lru_add PGSIZE t c =
      some (0, { t with lru := (shift_up t.lru (t.NCACHE - 1)).set 0 (some c) }) := by
  unfold ctable_lru_add
  simp [hl]

/-- Filling a free slot of a well-formed cache succeeds when no external call fails. -/
theorem fill_total {PGSIZE : Nat} {s : KState} {c : Nat} (ip q : Nat) (hinv : CInv s)
    (hc : c < s.NCACHE) (hv : (s.slot c).valid = false) (hnf : s.faults = []) :
    ∃ s', fill_slot PGSIZE s c ip q = some (some c, s') ∧ s'.faults = [] := by
  have hnf1 : (fill_claim s c ip q).faults = [] := hnf
  have hk := f_lseek_nf hnf1 ip q
  have hr := f_read_nf hk.2 ip PGSIZE
  obtain ⟨⟨L, hL⟩, _⟩ := hinv
  have hlast : (idup (fill_loaded PGSIZE (f_lseek (fill_claim s c ip q) ip q).2 c ip q)
      ip).lruAt ((idup (fill_loaded PGSIZE (f_lseek (fill_claim s c ip q) ip q).2 c ip q)
      ip).NCACHE - 1) = none := by
    have := hL.last_none hc hv
    have hl : (idup (fill_loaded PGSIZE (f_lseek (fill_claim s c ip q) ip q).2 c ip q)
        ip).lru = s.lru := by
      show (fill_loaded PGSIZE (f_lseek (fill_claim s c ip q) ip q).2 c ip q).lru = s.lru
      rw [fill_loaded_lru, fill_seek_lru]
    obtain ⟨pg, _, hpg⟩ :=
      fill_loaded_cache PGSIZE (f_lseek (fill_claim s c ip q) ip q).2 c ip q
    have hn : (idup (fill_loaded PGSIZE (f_lseek (fill_claim s c ip q) ip q).2 c ip q)
        ip).NCACHE = s.NCACHE := by
      show (fill_loaded PGSIZE (f_lseek (fill_claim s c ip q) ip q).2 c ip q).NCACHE = _
      rw [NCACHE_of_cache_set hpg, NCACHE_of_cache_set (fill_seek_cache s c ip q)]
    unfold KState.lruAt at this ⊢
    rw [hl, hn]; exact this
  have hadd := @lru_add_eq PGSIZE _ c hlast
  have hnf2 : (idup (fill_loaded PGSIZE (f_lseek (fill_claim s c ip q) ip q).2 c ip q)
      ip).faults = [] := hr.2
  cases hres : fill_slot PGSIZE s c ip q with
  | some p =>
    obtain ⟨r, s'⟩ := p
    rcases fill_slot_chain hc hres with ⟨hbad, _⟩ | ⟨_, ⟨hbad, _⟩ | ⟨_, hr', x, hadd'⟩⟩
    · exact absurd hk.1 hbad
    · exact absurd hr.1 hbad
    · rw [hadd] at hadd'
      cases hadd'
      subst hr'
      exact ⟨_, rfl, hnf2⟩
  | none =>
    exfalso
    unfold fill_slot at hres
    dsimp only at hres
    have e1 : (alloc_physical_page s).2.setSlot c
        (claimed ip q { ref := (alloc_physical_page s).1.ref, data := zeroMem }) =
        fill_claim s c ip q := rfl
    rw [e1] at hres
    simp only [hk.1, ne_eq, not_true_eq_false, if_false] at hres
    have hslot : (f_read (f_lseek (fill_claim s c ip q) ip q).2 ip PGSIZE).2.2.2.slot c =
        claimed ip q { ref := 1, data := zeroMem } := by
      rw [(sameC_f_read _ _ _).slot, (sameC_f_lseek _ _ _).slot, fill_claim_slot _ _ _ _ hc]
    rw [hslot] at hres
    simp only [claimed, hr.1, not_true_eq_false, if_false] at hres
    split at hres
    · rename_i hnone
      have hnone' : ctable_lru_add PGSIZE
          (idup (fill_loaded PGSIZE (f_lseek (fill_claim s c ip q) ip q).2 c ip q) ip) c =
          none := hnone
      rw [hadd] at hnone'
      cases hnone'
    · cases hres

theorem find_free_of_exists {s : KState} {c0 : Nat} (hc : c0 < s.NCACHE)
    (hv : (s.slot c0).valid = false) :
    ∃ c, find_slot (fun c => !c.valid) s = some c := by
  cases hf : find_slot (fun c => !c.valid) s with
  | some c => exact ⟨c, rfl⟩
  | none =>
    have := find_slot_none hf c0 hc
    simp [hv] at this

theorem lru_adjust_faults (s : KState) (c : Nat) : (ctable_lru_adjust s c).2.faults = s.faults := by
  unfold ctable_lru_adjust
  dsimp only
  split <;> rfl

/-- `ctable_acquire` returns a slot when no external call fails, the files with cached pages
are held, and the page is cached or a slot is available. -/
theorem acquire_total {PGSIZE : Nat} {s : KState} {ip q : Nat} (hs : Sane PGSIZE s)
    (hnf : s.faults = []) (hh : Held s) (hal : q % PGSIZE = 0)
    (hr : Avail s ∨ ∃ c, is_hit ip q (s.slot c) = true) :
    ∃ c s', ctable_acquire PGSIZE s ip q = some (some c, s') ∧ s'.faults = [] := by
  unfold ctable_acquire
  rw [if_neg (by simp [hal])]
  cases hfind : find_slot (is_hit ip q) s with
  | some c =>
    exact ⟨c, _, rfl, by rw [lru_adjust_faults]; exact hnf⟩
  | none =>
    dsimp only
    have hav : Avail s := by
      rcases hr with h | ⟨c, h⟩
      · exact h
      · obtain ⟨c', hc'⟩ := find_hit_of_exists h
        rw [hc'] at hfind; cases hfind
    cases hfree : find_slot (fun c => !c.valid) s with
    | some c =>
      dsimp only
      obtain ⟨hcn, hp, _⟩ := find_slot_some hfree
      have hv : (s.slot c).valid = false := by simpa using hp
      obtain ⟨s', e, n⟩ := @fill_total PGSIZE s c ip q hs.1 hcn hv hnf
      exact ⟨c, s', e, n⟩
    | none =>
      dsimp only
      obtain ⟨c0, hc0, hx⟩ := hav
      have hv0 : (s.slot c0).valid = true := by
        have := find_slot_none hfree c0 hc0
        simpa using this
      have hr0 : get_physical_page_ref (s.slot c0).page = 1 := by
        rcases hx with h | h
        · rw [hv0] at h; cases h
        · exact h
      obtain ⟨s1, e1, n1, c', hc', hv'⟩ := evict_total hs hnf hh hv0 hr0
      rw [e1]
      dsimp only
      obtain ⟨c2, hc2⟩ := find_free_of_exists hc' hv'
      rw [hc2]
      dsimp only
      obtain ⟨hcn, hp, _⟩ := find_slot_some hc2
      have hv2 : (s1.slot c2).valid = false := by simpa using hp
      obtain ⟨s', e, n⟩ := @fill_total PGSIZE s1 c2 ip q (hs.evict_sane e1).1 hcn hv2 n1
      exact ⟨c2, s', e, n⟩

theorem readi_loop_succ {PGSIZE ip : Nat} {user_dst : Bool} {n_dup fuel : Nat}
    {s s1 : KState} {dst : Mem} {bufoff off len c : Nat} (hlen : len ≠ 0)
    (ha : ctable_acquire PGSIZE s ip (PGROUNDDOWN PGSIZE off) = some (some c, s1)) :
    readi_loop PGSIZE ip user_dst n_dup (fuel + 1) s dst bufoff off len =
      if (either_copyout s1 user_dst dst bufoff c (usub off (PGROUNDDOWN PGSIZE off))
          (chunk PGSIZE off len)).1 = -1 then
        some (0, (either_copyout s1 user_dst dst bufoff c (usub off (PGROUNDDOWN PGSIZE off))
          (chunk PGSIZE off len)).2.1,
          (either_copyout s1 user_dst dst bufoff c (usub off (PGROUNDDOWN PGSIZE off))
          (chunk PGSIZE off len)).2.2)
      else
        readi_loop PGSIZE ip user_dst n_dup fuel
          (either_copyout s1 user_dst dst bufoff c (usub off (PGROUNDDOWN PGSIZE off))
            (chunk PGSIZE off len)).2.2
          (either_copyout s1 user_dst dst bufoff c (usub off (PGROUNDDOWN PGSIZE off))
            (chunk PGSIZE off len)).2.1
          (bufoff + chunk PGSIZE off len) (u32 (PGROUNDDOWN PGSIZE off + PGSIZE))
          (len - chunk PGSIZE off len) := by
  rw [readi_loop, if_neg hlen]
  dsimp only
  rw [ha]
  rfl

/-- The loop of `readi` to a kernel buffer runs to completion when no external call fails,
the files with cached pages are held and the pages of the range can be acquired. -/
theorem readi_loop_total {PGSIZE : Nat} (hP : 0 < PGSIZE) (hP32 : PGSIZE < 2 ^ 32) {ip : Nat}
    {n_dup : Nat} (fuel : Nat) {s : KState} {dst : Mem} {bufoff off len : Nat}
    (hs : Sane PGSIZE s) (hnf : s.faults = []) (hl : Live s ip) (hrange : off + len < 2 ^ 32)
    (hfuel : len ≤ fuel) (hready : ∀ j, j < len → Ready PGSIZE s ip (off + j)) :
    ∃ buf s', readi_loop PGSIZE ip false n_dup fuel s dst bufoff off len =
      some (toInt32 n_dup, buf, s') := by
  induction fuel generalizing s dst bufoff off len with
  | zero =>
    have : len = 0 := by omega
    subst this
    exact ⟨_, _, readi_loop_zero _ _ _ _ _ _ _ _ _⟩
  | succ fuel ih =>
    by_cases hlen : len = 0
    · subst hlen
      exact ⟨_, _, readi_loop_zero _ _ _ _ _ _ _ _ _⟩
    · have hle := PGROUNDDOWN_le PGSIZE off
      have hlt := lt_PGROUNDDOWN_add hP off
      have hq : PGROUNDDOWN PGSIZE off < 2 ^ 32 := by omega
      have hr0 := hready 0 (by omega)
      rw [Nat.add_zero] at hr0
      obtain ⟨c, s1, ha, nf1⟩ := acquire_total hs hnf hl.1 (PGROUNDDOWN_mod PGSIZE off) hr0
      obtain ⟨hs1, _, _, _⟩ := acquire_spec hP hs hq ha
      obtain ⟨hl1, _⟩ := acquire_live hs hq hl ha
      have hr1 := acquire_ready hs hq hl ha
      obtain ⟨hin, hch⟩ := @chunk_eq PGSIZE off len hP hP32 (by omega) (by omega)
      rw [readi_loop_succ hlen ha, hin, copyout_kernel]
      dsimp only
      rw [if_neg (by omega)]
      have hn_le : chunk PGSIZE off len ≤ len := by rw [hch]; exact Nat.min_le_right _ _
      have hn_pos : 0 < chunk PGSIZE off len := by rw [hch]; omega
      by_cases hrest : len - chunk PGSIZE off len = 0
      · rw [hrest]
        exact ⟨_, _, readi_loop_zero _ _ _ _ _ _ _ _ _⟩
      · have hn_eq : chunk PGSIZE off len = PGROUNDDOWN PGSIZE off + PGSIZE - off := by
          rw [hch]; rw [hch] at hrest; omega
        have hnext : u32 (PGROUNDDOWN PGSIZE off + PGSIZE) = off + chunk PGSIZE off len := by
          rw [u32_eq (by omega)]; omega
        rw [hnext]
        refine ih (hs1.emit _) nf1 hl1 (by omega) (by omega) (fun j hj => ?_)
        have := hr1 ip _ (hready (chunk PGSIZE off len + j) (by omega))
        have e1 : off + (chunk PGSIZE off len + j) = off + chunk PGSIZE off len + j := by omega
        rw [e1] at this
        exact this

theorem readi_total {PGSIZE : Nat} (hP : 0 < PGSIZE) (hP32 : PGSIZE < 2 ^ 32) {ip : Nat}
    {s : KState} (dst : Mem) {off n : Nat}
    (hs : Sane PGSIZE s) (hnf : s.faults = []) (hl : Live s ip) (hn : 0 < n)
    (hrange : off + n < 2 ^ 32) (hsz : off + n ≤ (s.ino ip).file.objsize)
    (hready : ∀ j, j < n → Ready PGSIZE s ip (off + j)) :
    ∃ buf s', readi PGSIZE s ip false dst off n = some (toInt32 n, buf, s') := by
  have hsz32 := hs.2.2 ip
  unfold readi
  dsimp only
  unfold f_size
  rw [u32_eq hsz32, u32_eq hrange, if_neg (by omega), if_neg (by omega)]
  exact readi_loop_total hP hP32 n hs hnf hl hrange (Nat.le_refl _) hready

/-! ## Write then read -/

/-- C1, as amended: on a well-formed state, for a regular file `ip`, `k > 0` and
`off + k < 2^32`: if `writei(ip, kernel, B, off, k)` returns `k`, then (1) whenever the
`readi(ip, kernel, buf, off, k)` that follows returns a non-zero value, that value is `k`
and `buf` holds `B`; and (2) if the caller holds `ip`, the cache can give up any page and
no external call fails from then on, that `readi` does return `k` with `buf` equal to
`B`. -/
theorem C1_write_then_read_back (PGSIZE : Nat) (s s1 : KState) (ip off k : Nat) (B dst : Mem)
    (hP : 0 < PGSIZE) (hP32 : PGSIZE < 2 ^ 32) (hs : Sane PGSIZE s) (hip : ip < s.NINODE)
    (hk : 0 < k) (hoff : off + k < 2 ^ 32)
    (hw : writei PGSIZE s ip false B off k = some ((k : Int), s1)) :
    (∀ r buf s2, readi PGSIZE s1 ip false dst off k = some (r, buf, s2) → r ≠ 0 →
      r = (k : Int) ∧ ∀ j, j < k → buf j = B j) ∧
    (Live s ip → s1.faults = [] → ∃ buf s2,
      readi PGSIZE s1 ip false dst off k = some ((k : Int), buf, s2) ∧
      ∀ j, j < k → buf j = B j) := by
  have hk0 : (k : Int) ≠ 0 := by omega
  have partA : ∀ r buf s2, readi PGSIZE s1 ip false dst off k = some (r, buf, s2) → r ≠ 0 →
      r = (k : Int) ∧ ∀ j, j < k → buf j = B j :=
    fun r buf s2 hr hr0 => write_then_read hP hP32 hs hip hk hoff hw hk0 hr hr0
  refine ⟨partA, fun hl hnf => ?_⟩
  obtain ⟨hs1, _, hdata⟩ := writei_spec hP hP32 hs hip hoff hw
  obtain ⟨hl1, hready⟩ := writei_ready hP hP32 hs hl hoff hw
  rcases hdata with h0 | ⟨hto, hbytes⟩
  · exact absurd h0 hk0
  · rcases hready with h0 | hready
    · exact absurd h0 hk0
    · have hsz : off + k ≤ (s1.ino ip).file.objsize := by
        have := (hbytes (k - 1) (by omega)).1
        omega
      obtain ⟨buf, s2, hr⟩ := readi_total hP hP32 dst hs1 hnf hl1 hk hoff hsz hready
      rw [← hto] at hr
      exact ⟨buf, s2, hr, (partA _ buf s2 hr hk0).2⟩

theorem w0_sane : Sane 4096 w0 := by
  have hslot : ∀ c, (w0.slot c).valid = false := by
    intro c
    rcases c with _ | _ | c <;> rfl
  refine ⟨CInv.zero ⟨rfl, rfl⟩, fun c hv => ?_, fun i => ?_⟩
  · rw [hslot c] at hv; cases hv
  · rcases i with _ | _ | i
    · decide
    · decide
    · show (0 : Nat) < 2 ^ 32
      decide

theorem w0_live : Live w0 1 := by
  have hslot : ∀ c, (w0.slot c).valid = false := by
    intro c
    rcases c with _ | _ | c <;> rfl
  refine ⟨fun c h hv _ => ?_, by decide, by decide⟩
  rw [hslot c] at hv; cases hv

theorem C1_write_then_read_back_witness :
    Sane 4096 w0 ∧ Live w0 1 ∧ wWrote.faults = [] ∧
    writei 4096 w0 1 false wHello 0 5 = some (5, wWrote) ∧
    (∀ r buf s2, readi 4096 wWrote 1 false zeroMem 0 5 = some (r, buf, s2) → r ≠ 0 →
      r = 5 ∧ ∀ j, j < 5 → buf j = wHello j) ∧
    (Live w0 1 → wWrote.faults = [] → ∃ buf s2,
      readi 4096 wWrote 1 false zeroMem 0 5 = some (5, buf, s2) ∧
      ∀ j, j < 5 → buf j = wHello j) :=
  ⟨w0_sane, w0_live, by decide, wWrote_run,
    C1_write_then_read_back 4096 w0 wWrote 1 0 5 wHello zeroMem (by decide) (by decide)
      w0_sane (by decide) (by decide) (by decide) wWrote_run⟩

theorem wTinyWrote_run : writei 4096 wTiny 1 false wHello 4094 5 = some (5, wTinyWrote) := rfl

/-- C1 as stated fails when a page of the range, evicted while `writei` went on to the next
page, cannot be read back: with one cache slot, `writei(ip, kernel, "hello", 4094, 5)`
returns 5, and the `readi` of the same range returns 0 because the `f_lseek` that refills
the first page fails. -/
theorem C1_readi_gives_up_when_refill_fails :
    writei 4096 wTiny 1 false wHello 4094 5 = some (5, wTinyWrote) ∧
    wTinyWrote.faults = [false, false, true] ∧
    (readi 4096 wTinyWrote 1 false zeroMem 4094 5).map (fun r => r.1) = some 0 :=
  ⟨wTinyWrote_run, by decide, by decide⟩

/-! ## `ctable_release` -/

/-- One step of the loop of `ctable_release(ip)` on a well-formed state: the state stays
well-formed and the files held, every byte is what it was as seen through the cache, a slot
is left alone or zeroed, and slot `c` no longer caches a page of `ip`. -/
theorem release_slot_spec {PGSIZE : Nat} (hP : 0 < PGSIZE) {s s' : KState} {ip c : Nat}
    (hs : Sane PGSIZE s) (hl : Live s ip)
    (h : release_slot PGSIZE s (some ip) c = some s') :
    Sane PGSIZE s' ∧ Live s' ip ∧
    (∀ ip' p v, ByteIs PGSIZE s ip' p v → ByteIs PGSIZE s' ip' p v) ∧ Keep ip s s' ∧
    s'.NCACHE = s.NCACHE ∧ (∀ c', s'.slot c' = s.slot c' ∨ s'.slot c' = {}) ∧
    ¬ ((s'.slot c).valid = true ∧ (s'.slot c).host = some ip) := by
  by_cases hcond : (s.slot c).valid = true ∧ ((s.slot c).host = some ip ∨ some ip = none)
  · have hinv := hs.1.release_slot h
    have hd := release_slot_sameD h
    obtain ⟨s1, h', s3, hwb, _, _, hput, hs'⟩ := release_slot_chain h hcond
    have hc3 : SameC s s3 :=
      ((sameC_wb_ok hwb).trans_c (sameC_emit _ _)).trans_c (sameC_iput hput)
    have hcache : s'.cache = s.cache.set c {} := by
      rw [hs', lru_remove_cache]
      show s3.cache.set c {} = _
      rw [hc3.1]
    have hinode : s'.inode = s3.inode := by rw [hs', lru_remove_inode]; rfl
    have hcn := lt_of_valid s c hcond.1
    refine ⟨⟨hinv, hs.2.1.clear_ok hcache,
        fun i => (teardown_sizes hs hcond.1 hwb hput hinode i).2⟩,
      hl.of_set_live hd (((keep_wb_ok hwb).trans_k
        ((@keep_of_inode_eq ip s1 (recycle_physical_page s1) rfl).trans_k
        (keep_iput hput))).trans_k (keep_of_inode_eq hinode)) hcache (fun hx => by cases hx),
      fun ip' p v hb => teardown_byte hP hs hcond.1 hwb hput hcache hinode hb,
      ((keep_wb_ok hwb).trans_k ((@keep_of_inode_eq ip s1 (recycle_physical_page s1) rfl).trans_k
        (keep_iput hput))).trans_k (keep_of_inode_eq hinode),
      NCACHE_of_cache_set hcache, fun c' => ?_, ?_⟩
    · rw [slot_of_cache_set hcache]
      split
      · exact Or.inr rfl
      · exact Or.inl rfl
    · rw [slot_of_cache_set hcache, if_pos ⟨rfl, hcn⟩]
      intro hx
      cases hx.1
  · unfold release_slot at h
    rw [if_neg hcond] at h
    cases h
    exact ⟨hs, hl, fun _ _ _ hb => hb, Keep.refl_k _ _, rfl, fun _ => Or.inl rfl,
      fun hx => hcond ⟨hx.1, Or.inl hx.2⟩⟩

theorem release_loop_spec {PGSIZE : Nat} (hP : 0 < PGSIZE) {ip : Nat} (k c : Nat)
    {s s' : KState} (hs : Sane PGSIZE s) (hl : Live s ip)
    (h : release_loop PGSIZE (some ip) k c s = some s') :
    Sane PGSIZE s' ∧ Live s' ip ∧
    (∀ ip' p v, ByteIs PGSIZE s ip' p v → ByteIs PGSIZE s' ip' p v) ∧ Keep ip s s' ∧
    s'.NCACHE = s.NCACHE ∧ (∀ c', s'.slot c' = s.slot c' ∨ s'.slot c' = {}) ∧
    ∀ c', c ≤ c' → c' < c + k → ¬ ((s'.slot c').valid = true ∧ (s'.slot c').host = some ip) := by
  induction k generalizing c s with
  | zero =>
    rw [release_loop] at h
    cases h
    exact ⟨hs, hl, fun _ _ _ hb => hb, Keep.refl_k _ _, rfl, fun _ => Or.inl rfl,
      fun c' h1 h2 => by omega⟩
  | succ k ih =>
    rw [release_loop] at h
    split at h
    · cases h
    · rename_i s1 hs1
      obtain ⟨a1, a2, a3, a4, a5, a6, a7⟩ := release_slot_spec hP hs hl hs1
      obtain ⟨b1, b2, b3, b4, b5, b6, b7⟩ := ih (c + 1) a1 a2 h
      refine ⟨b1, b2, fun ip' p v hb => b3 ip' p v (a3 ip' p v hb), a4.trans_k b4,
        b5.trans a5, fun c' => ?_, fun c' h1 h2 => ?_⟩
      · rcases b6 c' with hx | hx
        · rw [hx]; exact a6 c'
        · exact Or.inr hx
      · by_cases hcc : c' = c
        · subst hcc
          rcases b6 c' with hx | hx
          · rw [hx]; exact a7
          · rw [hx]; intro hy; cases hy.1
        · exact b7 c' (by omega) (by omega)

/-- After `ctable_release(ip)` on a well-formed state no page of `ip` is cached; the bytes
of every file are what they were as seen through the cache. -/
theorem release_spec {PGSIZE : Nat} (hP : 0 < PGSIZE) {ip : Nat} {s s' : KState}
    (hs : Sane PGSIZE s) (hl : Live s ip) (h : ctable_release PGSIZE s (some ip) = some s') :
    Sane PGSIZE s' ∧ Live s' ip ∧
    (∀ ip' p v, ByteIs PGSIZE s ip' p v → ByteIs PGSIZE s' ip' p v) ∧ Keep ip s s' ∧
    s'.NCACHE = s.NCACHE ∧ (∀ c', s'.slot c' = s.slot c' ∨ s'.slot c' = {}) ∧
    ∀ c', ¬ ((s'.slot c').valid = true ∧ (s'.slot c').host = some ip) := by
  obtain ⟨b1, b2, b3, b4, b5, b6, b7⟩ := release_loop_spec hP s.NCACHE 0 hs hl h
  refine ⟨b1, b2, b3, b4, b5, b6, fun c' hx => ?_⟩
  have hlt := lt_of_valid s' c' hx.1
  rw [b5] at hlt
  exact b7 c' (Nat.zero_le _) (by omega) hx

/-! ## Lookup of an open file -/

theorem ino_of_lt {s : KState} {j : Nat} (h : j < s.inode.length) : s.ino j = s.inode[j] := by
  simp [KState.ino, List.getElem?_eq_getElem h]

theorem scan_path_inl_iff {K : Consts} {s : KState} {path : String} {i : Nat} :
    scan_path K s path = some (Sum.inl i) ↔ FirstMatch K s path i := by
  constructor
  · intro h
    unfold scan_path at h
    dsimp only at h
    split at h
    · rename_i hlt
      cases h
      have h1 := (List.findIdx_eq hlt).mp rfl
      refine ⟨hlt, ?_, fun j hj hm => ?_⟩
      · have := h1.1
        rw [← ino_of_lt hlt] at this
        simpa [and_assoc] using this
      · have hjl : j < s.inode.length := Nat.lt_trans hj hlt
        have := h1.2 j hj
        rw [← ino_of_lt hjl] at this
        simp [hm.1, hm.2.1, hm.2.2] at this
    · split at h <;> cases h
  · rintro ⟨hlt, hm, hfirst⟩
    have hlt' : i < s.inode.length := hlt
    have hidx : s.inode.findIdx
        (fun I => decide (I.ref > 0) && (I.dev == K.ROOTDEV) && (I.path == path)) = i := by
      rw [List.findIdx_eq hlt']
      refine ⟨?_, fun j hj => ?_⟩
      · rw [← ino_of_lt hlt']
        simp [hm.1, hm.2.1, hm.2.2]
      · have hjl : j < s.inode.length := Nat.lt_trans hj hlt'
        rw [← ino_of_lt hjl]
        have := hfirst j hj
        by_contra hx
        apply this
        simpa [and_assoc] using hx
    unfold scan_path
    dsimp only
    rw [hidx, if_pos hlt']

theorem scan_path_inr_none {K : Consts} {s : KState} {path : String} {e : Nat}
    (h : scan_path K s path = some (Sum.inr e)) (j : Nat) :
    ¬ ((s.ino j).ref > 0 ∧ (s.ino j).dev = K.ROOTDEV ∧ (s.ino j).path = path) := by
  unfold scan_path at h
  dsimp only at h
  split at h
  · cases h
  · rename_i hge
    intro hm
    have hjl : j < s.inode.length := by
      by_contra hx
      have := ino_default_of_ge s j (Nat.le_of_not_lt hx)
      rw [this] at hm
      exact absurd hm.1 (by decide)
    apply hge
    rw [List.findIdx_lt_length]
    refine ⟨s.inode[j], List.getElem_mem _, ?_⟩
    rw [← ino_of_lt hjl]
    simp [hm.1, hm.2.1, hm.2.2]

theorem FirstMatch.keep {K : Consts} {s s' : KState} {path : String} {ip : Nat}
    (h : FirstMatch K s path ip) (hk : Keep ip s s') (hr : (s'.ino ip).ref > 0) :
    FirstMatch K s' path ip := by
  obtain ⟨hlt, hm, hfirst⟩ := h
  refine ⟨by rw [hk.1]; exact hlt, ⟨hr, by rw [(hk.2 ip).2.1]; exact hm.2.1,
    by rw [(hk.2 ip).1]; exact hm.2.2⟩, fun j hj hx => ?_⟩
  apply hfirst j hj
  have hne : j ≠ ip := by omega
  have := (hk.2 j).2.2.2.1 hne
  rw [(hk.2 j).1, (hk.2 j).2.1] at hx
  exact ⟨by omega, hx.2.1, hx.2.2⟩

/-- `dirlookup` of a name whose path is held by a live slot returns that slot, with one
more reference, and does nothing else. -/
theorem dirlookup_found {K : Consts} {s s' : KState} {dp ip : Nat} {name : String}
    {r : Option Nat} (hm : FirstMatch K s (child_path (s.ino dp).path name) ip)
    (h : dirlookup K s dp name = some (r, s')) :
    r = some ip ∧ s' = s.setIno ip { s.ino ip with ref := (s.ino ip).ref + 1 } := by
  unfold dirlookup at h
  split at h
  · cases h
  · dsimp only at h
    rw [scan_path_inl_iff.mpr hm] at h
    cases h
    exact ⟨rfl, rfl⟩

theorem hosted_pos_iff {s : KState} {h : Nat} :
    0 < s.hosted h ↔ ∃ c, (s.slot c).valid = true ∧ (s.slot c).host = some h := by
  constructor
  · intro hp
    unfold KState.hosted at hp
    rw [List.countP_pos_iff] at hp
    obtain ⟨a, ha, hpa⟩ := hp
    obtain ⟨c, hc, rfl⟩ := List.getElem_of_mem ha
    refine ⟨c, ?_⟩
    have : s.slot c = s.cache[c] := by
      simp [KState.slot, List.getElem?_eq_getElem hc]
    rw [this]
    simpa using hpa
  · rintro ⟨c, hv, hh⟩
    exact hosted_pos hv hh

/-- Taking one more reference on a live slot: the cache can still give up any page, and the
slot is held. -/
theorem Live.ref_up {s : KState} {ip : Nat} (hh : Held s) (hip : ip < s.NINODE)
    (hr : (s.ino ip).ref > 0) :
    Live (s.setIno ip { s.ino ip with ref := (s.ino ip).ref + 1 }) ip := by
  have hino : ∀ j, ((s.setIno ip { s.ino ip with ref := (s.ino ip).ref + 1 }).ino j).ref ≥
      (s.ino j).ref ∧
      ((s.setIno ip { s.ino ip with ref := (s.ino ip).ref + 1 }).ino j).unlinked =
        (s.ino j).unlinked ∧
      ((s.setIno ip { s.ino ip with ref := (s.ino ip).ref + 1 }).ino j).new_path =
        (s.ino j).new_path := by
    intro j
    rw [setIno_ino]
    split
    · rename_i hx; rw [← hx.1]; exact ⟨by show (s.ino ip).ref + 1 ≥ _; omega, rfl, rfl⟩
    · exact ⟨Int.le_refl _, rfl, rfl⟩
  refine ⟨fun c h hv hh' => ?_, by simpa using hip, ?_⟩
  · obtain ⟨h1, h2, h3⟩ := hh c h hv hh'
    obtain ⟨g1, g2, g3⟩ := hino h
    refine ⟨by simpa using h1, ?_, ?_⟩
    · show _ ≥ (s.hosted h : Int)
      omega
    · rw [g2, g3]
      rcases h3 with h4 | h4 | h4
      · left
        show _ > (s.hosted h : Int)
        omega
      · exact Or.inr (Or.inl h4)
      · exact Or.inr (Or.inr h4)
  · show _ > (s.hosted ip : Int)
    rw [setIno_ino, if_pos ⟨rfl, hip⟩]
    show (s.ino ip).ref + 1 > _
    by_cases hp : 0 < s.hosted ip
    · obtain ⟨c, hv, hh'⟩ := hosted_pos_iff.mp hp
      have := (hh c ip hv hh').2.1
      omega
    · have : s.hosted ip = 0 := by omega
      rw [this]
      simp
      omega

theorem f_open_create_eq {s : KState} {e : Nat} {P : String}
    (hok : (f_open s e P true).1 = FRESULT.FR_OK) :
    (f_open s e P true).2 =
      KState.setFile
        { (s.fault.2).emit (Ev.f_open e P true) with
          disk := (P, Node.file 0 zeroMem) ::
            diskRemove ((s.fault.2).emit (Ev.f_open e P true)).disk P }
        e { objsize := 0, data := zeroMem, fptr := 0, path := P } := by
  unfold f_open at hok ⊢
  dsimp only at hok ⊢
  by_cases hf : s.fault.1 = true
  · rw [if_pos hf] at hok; cases hok
  · rw [if_neg hf] at hok ⊢
    cases hl : List.lookup P ((s.fault.2).emit (Ev.f_open e P true)).disk with
    | none => rfl
    | some nd =>
      cases nd with
      | dir => rw [hl] at hok; cases hok
      | file sz d => rfl

theorem f_open_create {s : KState} {e : Nat} {P : String}
    (hok : (f_open s e P true).1 = FRESULT.FR_OK) :
    (f_open s e P true).2.cache = s.cache ∧ (f_open s e P true).2.lru = s.lru ∧
    (f_open s e P true).2.NINODE = s.NINODE ∧
    ∀ j, (f_open s e P true).2.ino j =
      if e = j ∧ e < s.NINODE then
        { s.ino e with file := { objsize := 0, data := zeroMem, fptr := 0, path := P } }
      else s.ino j := by
  have hc := sameC_f_open s e P true
  have hn : ∀ D : List (String × Node),
      KState.NINODE { (s.fault.2).emit (Ev.f_open e P true) with disk := D } = s.NINODE := by
    intro D
    show s.fault.2.NINODE = _
    simp
  have hi : ∀ (D : List (String × Node)) (j : Nat),
      KState.ino { (s.fault.2).emit (Ev.f_open e P true) with disk := D } j = s.ino j := by
    intro D j
    show s.fault.2.ino j = _
    simp
  refine ⟨hc.1, hc.2, ?_, fun j => ?_⟩
  · rw [f_open_create_eq hok]
    unfold KState.setFile
    rw [setIno_NINODE, hn]
  · rw [f_open_create_eq hok, setFile_ino, hn, hi, hi]

/-- What `icreate(dp, name, T_FILE, ..)` returns: the live slot that already holds the path,
with one more reference, or the first free slot, opened on the newly created (empty)
file. -/
theorem icreate_file_cases {K : Consts} {s s1 : KState} {dp ip : Nat} {name : String}
    {major minor : Int}
    (h : icreate K s dp name T_FILE major minor = some (some ip, s1)) :
    (scan_path K s (child_path (s.ino dp).path name) = some (Sum.inl ip) ∧
      s1 = s.setIno ip { s.ino ip with ref := (s.ino ip).ref + 1 }) ∨
    (scan_path K s (child_path (s.ino dp).path name) = some (Sum.inr ip) ∧
      (f_open s ip (child_path (s.ino dp).path name) true).1 = FRESULT.FR_OK ∧
      s1 = open_slot K (f_open s ip (child_path (s.ino dp).path name) true).2 ip T_FILE
        (child_path (s.ino dp).path name)) := by
  unfold icreate at h
  split at h
  · cases h
  · dsimp only at h
    split at h
    · cases h
    · rename_i i hscan
      cases h
      exact Or.inl ⟨hscan, rfl⟩
    · rename_i e hscan
      rw [if_neg (by decide), if_pos rfl] at h
      split at h
      · cases h
      · rename_i hok
        simp only [ne_eq, not_not] at hok
        cases h
        exact Or.inr ⟨hscan, hok, rfl⟩

theorem open_slot_ino (K : Consts) (t : KState) (e type : Nat) (path : String) (j : Nat) :
    (open_slot K t e type path).ino j =
      if e = j ∧ e < t.NINODE then
        { t.ino e with
          dev := K.ROOTDEV, ref := 1, type := type, path := path, unlinked := 0, new_path := "" }
      else t.ino j := by
  unfold open_slot
  rw [setIno_ino]

/-- After `icreate(dp, name, T_FILE, ..)` returned `ip` on a well-formed state in which the
caller holds `dp`: the state is well-formed, `ip` is held, it is the slot a lookup of the
path finds, and the directory slot is as before. -/
theorem icreate_file_spec {K : Consts} {PGSIZE : Nat} {s s1 : KState} {dp ip : Nat}
    {name : String} {major minor : Int} (hs : Sane PGSIZE s) (hh : Held s)
    (hdp : (s.ino dp).ref > 0)
    (h : icreate K s dp name T_FILE major minor = some (some ip, s1)) :
    Sane PGSIZE s1 ∧ Live s1 ip ∧ (s1.ino dp).path = (s.ino dp).path ∧
    FirstMatch K s1 (child_path (s.ino dp).path name) ip := by
  rcases icreate_file_cases h with ⟨hscan, rfl⟩ | ⟨hscan, hok, rfl⟩
  · have hm := scan_path_inl_iff.mp hscan
    have hkeep : Keep ip s (s.setIno ip { s.ino ip with ref := (s.ino ip).ref + 1 }) := by
      refine ⟨by simp, fun j => ?_⟩
      rw [setIno_ino]
      split
      · rename_i hx; rw [← hx.1]; exact ⟨rfl, rfl, rfl, fun hj => absurd rfl hj, rfl, rfl⟩
      · exact ⟨rfl, rfl, rfl, fun _ => Int.le_refl _, rfl, rfl⟩
    have hl := Live.ref_up hh hm.1 hm.2.1.1
    refine ⟨hs.congr_sane (sameC_setIno _ _ _) (grow_of_file_eq (fun j => ?_)), hl,
      (hkeep.2 dp).1, hm.keep hkeep ?_⟩
    · rw [setIno_ino]
      split
      · rename_i hx; rw [← hx.1]
      · rfl
    · have := hl.2.2
      omega
  · obtain ⟨he, h0⟩ := scan_path_inr hscan
    obtain ⟨o1, o2, o3, o4⟩ := f_open_create hok
    have hino : ∀ j, (open_slot K (f_open s ip (child_path (s.ino dp).path name) true).2 ip
        T_FILE (child_path (s.ino dp).path name)).ino j =
        if ip = j then
          { s.ino ip with
            file := { objsize := 0, data := zeroMem, fptr := 0,
                      path := child_path (s.ino dp).path name }
            dev := K.ROOTDEV, ref := 1, type := T_FILE
            path := child_path (s.ino dp).path name, unlinked := 0, new_path := "" }
        else s.ino j := by
      intro j
      rw [open_slot_ino, o3, o4, o4]
      by_cases hj : ip = j
      · subst hj; simp [he]
      · simp [hj]
    have hcache : (open_slot K (f_open s ip (child_path (s.ino dp).path name) true).2 ip
        T_FILE (child_path (s.ino dp).path name)).cache = s.cache := o1
    have hlru : (open_slot K (f_open s ip (child_path (s.ino dp).path name) true).2 ip
        T_FILE (child_path (s.ino dp).path name)).lru = s.lru := o2
    have hnin : (open_slot K (f_open s ip (child_path (s.ino dp).path name) true).2 ip
        T_FILE (child_path (s.ino dp).path name)).NINODE = s.NINODE := by
      unfold open_slot; rw [setIno_NINODE, o3]
    have hnohost : ∀ c, (s.slot c).valid = true → (s.slot c).host ≠ some ip := by
      intro c hv hhost
      have := (hh c ip hv hhost).2
      have := hosted_pos hv hhost
      omega
    have hhosted0 : s.hosted ip = 0 := by
      by_contra hne
      obtain ⟨c, hv, hhost⟩ := hosted_pos_iff.mp (Nat.pos_of_ne_zero hne)
      exact hnohost c hv hhost
    have hdpne : ip ≠ dp := by
      intro hx; rw [hx] at h0; omega
    refine ⟨⟨hs.1.congr ⟨hcache, hlru⟩, hs.2.1.congr_slots hcache, fun j => ?_⟩,
      ⟨fun c h' hv hhost => ?_, by rw [hnin]; exact he, ?_⟩, ?_, ?_⟩
    · rw [hino]
      split
      · show (0 : Nat) < 2 ^ 32
        decide
      · exact hs.2.2 j
    · rw [slot_congr hcache] at hv hhost
      obtain ⟨h1, h2⟩ := hh c h' hv hhost
      have hne : ip ≠ h' := fun hx => hnohost c hv (by rw [hhost, hx])
      rw [hnin, hino, if_neg hne, hosted_congr hcache]
      exact ⟨h1, h2⟩
    · rw [hino, if_pos rfl, hosted_congr hcache, hhosted0]
      show (1 : Int) > 0
      decide
    · rw [hino, if_neg hdpne]
    · refine ⟨by rw [hnin]; exact he, by rw [hino, if_pos rfl]; exact ⟨Int.one_pos, rfl, rfl⟩,
        fun j hj hx => ?_⟩
      rw [hino, if_neg (by omega)] at hx
      exact scan_path_inr_none hscan j hx

/-! ## Create, write, release, look up, read -/

/-- C5, as amended: on a well-formed state in which the cache can give up any page and the
caller holds the directory `dp`, for `n > 0` bytes `B`: if `icreate(dp, name, T_FILE)`
returns `ip`, `writei(ip, kernel, B, 0, n)` returns `n`, `ctable_release(ip)` returns and
`dirlookup(dp, name)` returns, then the lookup returns `ip`; after the release no page of
`ip` is cached and the lower FS holds `B` in the first `n` bytes of the file; a `readi` of
`n` bytes at offset 0 that returns a non-zero value returns `n` and delivers `B`; and if no
external call fails during that `readi`, it does return `n` and delivers `B`. -/
theorem C5_create_write_release_lookup_read (K : Consts) (PGSIZE : Nat)
    (s s1 s2 s3 s4 : KState) (dp ip n : Nat) (name : String) (major minor : Int) (B dst : Mem)
    (r : Option Nat) (hP : 0 < PGSIZE) (hP32 : PGSIZE < 2 ^ 32) (hs : Sane PGSIZE s)
    (hh : Held s) (hdp : (s.ino dp).ref > 0) (hn : 0 < n) (hn32 : n < 2 ^ 32)
    (hc : icreate K s dp name T_FILE major minor = some (some ip, s1))
    (hw : writei PGSIZE s1 ip false B 0 n = some ((n : Int), s2))
    (hrel : ctable_release PGSIZE s2 (some ip) = some s3)
    (hlook : dirlookup K s3 dp name = some (r, s4)) :
    r = some ip ∧
    (∀ c, ¬ ((s3.slot c).valid = true ∧ (s3.slot c).host = some ip)) ∧
    (∀ j, j < n → j < (s3.ino ip).file.objsize ∧ (s3.ino ip).file.data j = B j) ∧
    (∀ rr buf s5, readi PGSIZE s4 ip false dst 0 n = some (rr, buf, s5) → rr ≠ 0 →
      rr = (n : Int) ∧ ∀ j, j < n → buf j = B j) ∧
    (s4.faults = [] → ∃ buf s5,
      readi PGSIZE s4 ip false dst 0 n = some ((n : Int), buf, s5) ∧
      ∀ j, j < n → buf j = B j) := by
  have hn0 : (n : Int) ≠ 0 := by omega
  have hrange : 0 + n < 2 ^ 32 := by omega
  obtain ⟨hs1, hl1, hpath1, hfm1⟩ := icreate_file_spec hs hh hdp hc
  obtain ⟨hs2, _, hdata⟩ := writei_spec hP hP32 hs1 hl1.2.1 hrange hw
  obtain ⟨hl2, hready⟩ := writei_ready hP hP32 hs1 hl1 hrange hw
  have hk12 := keep_writei hw
  obtain ⟨hs3, hl3, hby3, hk23, hnc3, hslots3, hnopage⟩ := release_spec hP hs2 hl2 hrel
  have hk13 := hk12.trans_k hk23
  rcases hdata with h0 | ⟨hto, hbytes⟩
  · exact absurd h0 hn0
  rcases hready with h0 | hready
  · exact absurd h0 hn0
  have hbytes3 : ∀ j, j < n → ByteIs PGSIZE s3 ip (0 + j) (B j) :=
    fun j hj => hby3 _ _ _ (hbytes j hj)
  have hnohit : ∀ q c, is_hit ip q (s3.slot c) = false := by
    intro q c
    by_contra hx
    have hx' : is_hit ip q (s3.slot c) = true := by simpa using hx
    obtain ⟨hv, hhost, _⟩ := (is_hit_iff _ _ _).mp hx'
    exact hnopage c ⟨hv, hhost⟩
  have href3 : (s3.ino ip).ref > 0 := by
    have := hl3.2.2
    omega
  have hfm3 : FirstMatch K s3 (child_path (s3.ino dp).path name) ip := by
    rw [(hk13.2 dp).1, hpath1]
    exact hfm1.keep hk13 href3
  obtain ⟨hr, hs4eq⟩ := dirlookup_found hfm3 hlook
  have hfile4 : ∀ j, (s4.ino j).file = (s3.ino j).file := by
    intro j
    rw [hs4eq, setIno_ino]
    split
    · rename_i hx; rw [← hx.1]
    · rfl
  have hcache4 : s4.cache = s3.cache := by rw [hs4eq]; rfl
  have hs4 : Sane PGSIZE s4 :=
    hs3.congr_sane ⟨hcache4, by rw [hs4eq]; rfl⟩ (grow_of_file_eq hfile4)
  have hbytes4 : ∀ j, j < n → ByteIs PGSIZE s4 ip (0 + j) (B j) :=
    fun j hj => (hbytes3 j hj).grow hcache4 (grow_of_file_eq hfile4)
  have partA : ∀ rr buf s5, readi PGSIZE s4 ip false dst 0 n = some (rr, buf, s5) → rr ≠ 0 →
      rr = (n : Int) ∧ ∀ j, j < n → buf j = B j := by
    intro rr buf s5 hread hrr
    obtain ⟨_, _, hres⟩ := readi_spec hP hP32 B hs4 hn hrange hbytes4 hread
    rcases hres with h0 | ⟨h1, h2⟩
    · exact absurd h0 hrr
    · exact ⟨by rw [h1, ← hto], h2⟩
  refine ⟨hr, hnopage, fun j hj => ?_, partA, fun hnf => ?_⟩
  · have hb := hbytes3 j hj
    rw [Nat.zero_add] at hb
    exact ⟨hb.1, hb.2.2 (fun c => hnohit _ c)⟩
  · have hl4 : Live s4 ip := by rw [hs4eq]; exact Live.ref_up hl3.1 hl3.2.1 href3
    have hav3 : Avail s3 := by
      rcases hready 0 hn with ⟨c0, hc0, hx⟩ | ⟨c, hit⟩
      · refine ⟨c0, by rw [hnc3]; exact hc0, ?_⟩
        rcases hslots3 c0 with he | he
        · rw [he]; exact hx
        · rw [he]; exact Or.inl rfl
      · obtain ⟨hv, hhost, _⟩ := (is_hit_iff _ _ _).mp hit
        refine ⟨c, by rw [hnc3]; exact lt_of_valid s2 c hv, ?_⟩
        rcases hslots3 c with he | he
        · exact absurd ⟨by rw [he]; exact hv, by rw [he]; exact hhost⟩ (hnopage c)
        · rw [he]; exact Or.inl rfl
    have hav4 : Avail s4 := hav3.of_same_avail hcache4
    have hsz : 0 + n ≤ (s4.ino ip).file.objsize := by
      have := (hbytes4 (n - 1) (by omega)).1
      omega
    obtain ⟨buf, s5, hread⟩ :=
      readi_total hP hP32 dst hs4 hnf hl4 hn hrange hsz (fun _ _ => Or.inl hav4)
    rw [← hto] at hread
    exact ⟨buf, s5, hread, (partA _ buf s5 hread hn0).2⟩

theorem wC0_sane : Sane 4096 wC0 := by
  have hslot : ∀ c, (wC0.slot c).valid = false := by
    intro c
    rcases c with _ | _ | c <;> rfl
  refine ⟨CInv.zero ⟨rfl, rfl⟩, fun c hv => ?_, fun i => ?_⟩
  · rw [hslot c] at hv; cases hv
  · rcases i with _ | _ | i
    · decide
    · decide
    · show (0 : Nat) < 2 ^ 32
      decide

theorem wC0_held : Held wC0 := by
  intro c h hv _
  have hslot : ∀ c, (wC0.slot c).valid = false := by
    intro c
    rcases c with _ | _ | c <;> rfl
  rw [hslot c] at hv; cases hv

theorem wC_run :
    icreate wK wC0 0 "a.txt" T_FILE 0 0 = some (some 1, wC1) ∧
    writei 4096 wC1 1 false wHello 0 5 = some (5, wC2) ∧
    ctable_release 4096 wC2 (some 1) = some wC3 ∧
    dirlookup wK wC3 0 "a.txt" = some (some 1, wC4) := ⟨rfl, rfl, rfl, rfl⟩

theorem C5_create_write_release_lookup_read_witness :
    Sane 4096 wC0 ∧ Held wC0 ∧
    (icreate wK wC0 0 "a.txt" T_FILE 0 0 = some (some 1, wC1) ∧
      writei 4096 wC1 1 false wHello 0 5 = some (5, wC2) ∧
      ctable_release 4096 wC2 (some 1) = some wC3 ∧
      dirlookup wK wC3 0 "a.txt" = some (some 1, wC4)) ∧
    (some 1 = some 1 ∧
    (∀ c, ¬ ((wC3.slot c).valid = true ∧ (wC3.slot c).host = some 1)) ∧
    (∀ j, j < 5 → j < (wC3.ino 1).file.objsize ∧ (wC3.ino 1).file.data j = wHello j) ∧
    (∀ rr buf s5, readi 4096 wC4 1 false zeroMem 0 5 = some (rr, buf, s5) → rr ≠ 0 →
      rr = 5 ∧ ∀ j, j < 5 → buf j = wHello j) ∧
    (wC4.faults = [] → ∃ buf s5,
      readi 4096 wC4 1 false zeroMem 0 5 = some (5, buf, s5) ∧
      ∀ j, j < 5 → buf j = wHello j)) :=
  ⟨wC0_sane, wC0_held, wC_run,
    C5_create_write_release_lookup_read wK 4096 wC0 wC1 wC2 wC3 wC4 0 1 5 "a.txt" 0 0 wHello
      zeroMem (some 1) (by decide) (by decide) wC0_sane wC0_held (by decide) (by decide)
      (by decide) wC_run.1 wC_run.2.1 wC_run.2.2.1 wC_run.2.2.2⟩

/-- C5 as stated fails when the lower FS cannot be read back: the file is created, "hello"
written and released to the lower FS, the lookup returns the same inode, and the `readi`
returns 0 because the `f_lseek` that fills the page fails. -/
theorem C5_readi_gives_up_when_read_back_fails :
    icreate wK wF0 0 "a.txt" T_FILE 0 0 = some (some 1, wF1) ∧
    writei 4096 wF1 1 false wHello 0 5 = some (5, wF2) ∧
    ctable_release 4096 wF2 (some 1) = some wF3 ∧
    dirlookup wK wF3 0 "a.txt" = some (some 1, wF4) ∧
    wF4.faults = [true] ∧
    (readi 4096 wF4 1 false zeroMem 0 5).map (fun r => r.1) = some 0 :=
  ⟨rfl, rfl, rfl, rfl, by decide, by decide⟩

/-! ## `iput` -/

/-- The log of a completed `iput`: exactly the calls of `iput_calls`, in order. -/
theorem iput_log {s s' : KState} {ip : Nat} (h : iput s ip = some s') :
    s'.log = s.log ++ iput_calls s ip := by
  obtain ⟨_, s1, hs1, rfl⟩ := iput_chain h
  show s1.log = _
  unfold iput_calls
  split at hs1
  · rename_i h1
    rw [if_pos h1]
    unfold iput_last at hs1
    split at hs1
    · cases hs1
    · obtain ⟨_, _, _, hu, hn, hp, _, _⟩ := iput_close_ino_ref s ip ip
      unfold iput_deferred at hs1
      rw [hu, hn, hp] at hs1
      split at hs1
      · rename_i h2
        cases hs1
        rw [f_unlink_log, iput_close_log, if_pos h2]
        simp
      · rename_i h2
        rw [if_neg h2]
        split at hs1
        · rename_i h3
          split at hs1
          · cases hs1
          · cases hs1
            rw [f_rename_log, iput_close_log, if_pos h3]
            simp
        · rename_i h3
          cases hs1
          rw [iput_close_log, if_neg h3]
  · rename_i h1
    rw [if_neg h1, hs1]
    simp

/-! ## `ctable_acquire` on a full cache -/

theorem evict_scan_none {PGSIZE : Nat} {s : KState}
    (hpin : ∀ c, c < s.NCACHE → get_physical_page_ref (s.slot c).page ≠ 1) (k : Nat) :
    evict_scan PGSIZE s k = some (-1, s) := by
  rcases evict_scan_pick PGSIZE s k with ⟨h, _⟩ | ⟨i, c, _, _, hr, _⟩
  · exact h
  · exfalso
    by_cases hc : c < s.NCACHE
    · exact hpin c hc hr
    · rw [slot_default_of_ge s c (Nat.le_of_not_lt hc)] at hr
      simp [get_physical_page_ref] at hr

theorem find_slot_eq_none {p : page_cache → Bool} {s : KState}
    (h : ∀ c, c < s.NCACHE → p (s.slot c) = false) : find_slot p s = none := by
  cases hf : find_slot p s with
  | none => rfl
  | some c =>
    obtain ⟨hc, hp, _⟩ := find_slot_some hf
    rw [h c hc] at hp
    cases hp

/-- C14: when every slot of the cache is valid, `(ip, offset)` is not cached and no cached
page has physical reference count 1, `ctable_acquire(ip, offset)` (with `offset`
page-aligned) returns NULL and the whole state is as before: the cache slots, the LRU
vector, every inode `ref` and the lower FS. -/
theorem C14_acquire_fails_when_nothing_evictable (PGSIZE : Nat) (s : KState) (ip offset : Nat)
    (hal : offset % PGSIZE = 0)
    (hfull : ∀ c, c < s.NCACHE → (s.slot c).valid = true)
    (hmiss : ∀ c, c < s.NCACHE →
      ¬ ((s.slot c).valid = true ∧ (s.slot c).host = some ip ∧ (s.slot c).offset = offset))
    (hpin : ∀ c, c < s.NCACHE → get_physical_page_ref (s.slot c).page ≠ 1) :
    ctable_acquire PGSIZE s ip offset = some (none, s) := by
  have h1 : find_slot (is_hit ip offset) s = none :=
    find_slot_eq_none (fun c hc => by
      cases hh : is_hit ip offset (s.slot c) with
      | false => rfl
      | true => exact absurd ((is_hit_iff _ _ _).mp hh) (hmiss c hc))
  have h2 : find_slot (fun c => !c.valid) s = none :=
    find_slot_eq_none (fun c hc => by simp [hfull c hc])
  unfold ctable_acquire
  rw [if_neg (by simpa using hal), h1]
  dsimp only
  rw [h2]
  dsimp only
  unfold ctable_lru_evict
  rw [evict_scan_none hpin]
  dsimp only
  rw [h2]

theorem C14_acquire_fails_when_nothing_evictable_witness :
    ctable_acquire 4096 wPinned 1 8192 = some (none, wPinned) :=
  C14_acquire_fails_when_nothing_evictable 4096 wPinned 1 8192 (by decide) (by decide)
    (by decide) (by decide)

/-! ## Filling a free slot -/

theorem fault_fst_congr {s t : KState} (h : t.faults = s.faults) :
    t.fault.1 = s.fault.1 ∧ t.fault.2.faults = s.fault.2.faults := by
  unfold KState.fault
  rw [h]
  split
  · exact ⟨rfl, h⟩
  · exact ⟨rfl, rfl⟩

theorem f_lseek_faults (s : KState) (ip ofs : Nat) :
    (f_lseek s ip ofs).2.faults = s.fault.2.faults := by
  unfold f_lseek
  split <;> rfl

theorem f_read_faults (s : KState) (ip n : Nat) :
    (f_read s ip n).2.2.2.faults = s.fault.2.faults := by
  unfold f_read
  split <;> rfl

/-- The body of `fill_slot` on a slot of the table, step by step. -/
theorem fill_slot_eq (PGSIZE : Nat) (s : KState) (c ip offset : Nat) (hc : c < s.NCACHE) :
    fill_slot PGSIZE s c ip offset =
      if (f_lseek (fill_claim s c ip offset) ip offset).1 ≠ FRESULT.FR_OK then
        some (none, fill_rollback (f_lseek (fill_claim s c ip offset) ip offset).2 c)
      else if (f_read (f_lseek (fill_claim s c ip offset) ip offset).2 ip PGSIZE).1 ≠
          FRESULT.FR_OK then
        some (none, fill_rollback
          (fill_loaded PGSIZE (f_lseek (fill_claim s c ip offset) ip offset).2 c ip offset) c)
      else
        match ctable_lru_add PGSIZE
          (idup (fill_loaded PGSIZE (f_lseek (fill_claim s c ip offset) ip offset).2 c ip offset)
            ip) c with
        | none => none
        | some (_, s3) => some (some c, s3) := by
  unfold fill_slot
  dsimp only
  have e1 : (alloc_physical_page s).2.setSlot c
      (claimed ip offset { ref := (alloc_physical_page s).1.ref, data := zeroMem }) =
      fill_claim s c ip offset := rfl
  rw [e1]
  generalize hsk : f_lseek (fill_claim s c ip offset) ip offset = sk
  have hskc : SameC (fill_claim s c ip offset) sk.2 := by rw [← hsk]; exact sameC_f_lseek _ _ _
  by_cases hk : sk.1 = FRESULT.FR_OK
  · simp only [hk, ne_eq, not_true_eq_false, if_false]
    have hslot : (f_read sk.2 ip PGSIZE).2.2.2.slot c =
        claimed ip offset { ref := 1, data := zeroMem } := by
      rw [(sameC_f_read _ _ _).slot, hskc.slot, fill_claim_slot _ _ _ _ hc]
    rw [hslot]
    simp only [claimed]
    by_cases hr : (f_read sk.2 ip PGSIZE).1 = FRESULT.FR_OK
    · simp only [hr, not_true_eq_false, if_false]
      rfl
    · simp only [hr, not_false_eq_true, if_true]
      rfl
  · simp only [hk, ne_eq, not_false_eq_true, if_true]
    rfl


theorem erase_last_getD (l : List (Option Nat)) (i : Nat) (hi : i + 1 < l.length) :
    (l.eraseIdx (l.length - 1)).getD i none = l.getD i none := by
  simp only [List.getD_eq_getElem?_getD, List.getElem?_eraseIdx]
  rw [if_pos (by omega)]

/-- The LRU vector after a push on a vector whose last entry is dropped: the new slot is at
index 0 and every entry has moved one step towards the tail. -/
theorem lru_pushed {s s' : KState} {c : Nat} (hlen : s.lru.length = s.NCACHE)
    (hn : s'.NCACHE = s.NCACHE) (h : s'.lru = some c :: s.lru.eraseIdx (s.NCACHE - 1)) :
    s'.lruAt 0 = some c ∧ ∀ i, i + 1 < s.NCACHE → s'.lruAt (i + 1) = s.lruAt i := by
  unfold KState.lruAt
  rw [h]
  refine ⟨rfl, fun i hi => ?_⟩
  rw [List.getD_cons_succ, ← hlen]
  exact erase_last_getD _ _ (by omega)

/-- What `fill_slot` leaves when the seek and the read succeed, on a table whose LRU vector
has its last entry free. -/
theorem fill_slot_succeeds {PGSIZE : Nat} {t : KState} {c ip offset : Nat} (hc : c < t.NCACHE)
    (hip : ip < t.NINODE) (hlen : t.lru.length = t.NCACHE)
    (hlast : t.lruAt (t.NCACHE - 1) = none)
    (f1 : t.fault.1 = false) (f2 : t.fault.2.fault.1 = false) :
    ∃ s', fill_slot PGSIZE t c ip offset = some (some c, s') ∧
      (∃ pg, s'.slot c = claimed ip offset pg ∧ pg.ref = 1 ∧
        ∀ i, i < PGSIZE → pg.data i =
          if offset + i < (t.ino ip).file.objsize then (t.ino ip).file.data (offset + i)
          else 0) ∧
      (∀ d, d ≠ c → s'.slot d = t.slot d) ∧ s'.NCACHE = t.NCACHE ∧
      (∀ j, (s'.ino j).ref = (t.ino j).ref + if j = ip then 1 else 0) ∧
      (∀ j, (s'.ino j).file.data = (t.ino j).file.data) ∧
      s'.lru = some c :: t.lru.eraseIdx (t.NCACHE - 1) ∧
      s'.log = t.log ++ [Ev.alloc_page, Ev.f_lseek ip offset, Ev.f_read ip PGSIZE] := by
  have hcl : (fill_claim t c ip offset).fault.1 = false ∧
      (fill_claim t c ip offset).fault.2.faults = t.fault.2.faults := by
    have := @fault_fst_congr t (fill_claim t c ip offset) rfl
    exact ⟨this.1.trans f1, this.2⟩
  have hk : (f_lseek (fill_claim t c ip offset) ip offset).1 = FRESULT.FR_OK := by
    rw [f_lseek_fst, hcl.1]; rfl
  have hTf : (f_lseek (fill_claim t c ip offset) ip offset).2.fault.1 = false := by
    have := @fault_fst_congr t.fault.2 (f_lseek (fill_claim t c ip offset) ip offset).2
      (by rw [f_lseek_faults, hcl.2])
    exact this.1.trans f2
  have hr : (f_read (f_lseek (fill_claim t c ip offset) ip offset).2 ip PGSIZE).1 =
      FRESULT.FR_OK := by
    rw [f_read_fst, hTf]; rfl
  have hTino : (f_lseek (fill_claim t c ip offset) ip offset).2.ino ip =
      { t.ino ip with file := { (t.ino ip).file with
          objsize := max (t.ino ip).file.objsize offset, fptr := offset } } := by
    rw [f_lseek_ino, if_pos ⟨hcl.1, rfl, hip⟩]
    rfl
  obtain ⟨hd, hbr⟩ := f_read_data (f_lseek (fill_claim t c ip offset) ip offset).2 ip PGSIZE hTf
  rw [hTino] at hd hbr
  simp only at hd hbr
  have b := (benign_fill_seek t c ip offset).trans
    (benign_fill_loaded PGSIZE (f_lseek (fill_claim t c ip offset) ip offset).2 c ip offset)
  have hXc : (fill_loaded PGSIZE (f_lseek (fill_claim t c ip offset) ip offset).2 c ip
      offset).cache = t.cache.set c (claimed ip offset
        (PhysPage.mk 1 (blit zeroMem 0 (fun i => (t.ino ip).file.data (offset + i)) 0
          (min PGSIZE (max (t.ino ip).file.objsize offset - offset))))) := by
    unfold fill_loaded
    simp only [KState.setSlot, (sameC_f_read _ ip PGSIZE).1]
    rw [fill_seek_cache, List.set_set, hd, hbr]
  have hXl : (fill_loaded PGSIZE (f_lseek (fill_claim t c ip offset) ip offset).2 c ip
      offset).lru = t.lru := by
    rw [fill_loaded_lru, fill_seek_lru]
  have hXlog : (fill_loaded PGSIZE (f_lseek (fill_claim t c ip offset) ip offset).2 c ip
      offset).log = t.log ++ [Ev.alloc_page, Ev.f_lseek ip offset, Ev.f_read ip PGSIZE] := by
    unfold fill_loaded
    rw [setSlot_log, f_read_log, f_lseek_log]
    show (t.log ++ [Ev.alloc_page]) ++ _ ++ _ = _
    simp
  have hXfile : ∀ j, ((fill_loaded PGSIZE (f_lseek (fill_claim t c ip offset) ip offset).2 c ip
      offset).ino j).file.data = (t.ino j).file.data := by
    intro j
    have e0 : ∀ k, (fill_claim t c ip offset).ino k = t.ino k := fun _ => rfl
    have e1 : ((f_lseek (fill_claim t c ip offset) ip offset).2.ino j).file.data =
        (t.ino j).file.data := by
      rw [f_lseek_ino]
      split
      · rename_i h1
        rw [e0, ← h1.2.1]
      · rw [e0]
    unfold fill_loaded
    rw [setSlot_ino, f_read_ino]
    split
    · rename_i h1
      rw [← e1, ← h1.2.1]
    · exact e1
  generalize hX : fill_loaded PGSIZE (f_lseek (fill_claim t c ip offset) ip offset).2 c ip
    offset = X at b hXc hXl hXlog hXfile
  have hXn : X.NCACHE = t.NCACHE := NCACHE_of_cache_set hXc
  have hlast' : (idup X ip).lruAt ((idup X ip).NCACHE - 1) = none := by
    show X.lru.getD (X.NCACHE - 1) none = none
    rw [hXl, hXn]; exact hlast
  refine ⟨{ idup X ip with lru := (shift_up X.lru (X.NCACHE - 1)).set 0 (some c) },
    ?_, ?_, ?_, hXn, ?_, ?_, ?_, hXlog⟩
  · rw [fill_slot_eq _ _ _ _ _ hc, if_neg (by rw [hk]; simp), if_neg (by rw [hr]; simp), hX,
      lru_add_eq c hlast']
    rfl
  · refine ⟨PhysPage.mk 1 (blit zeroMem 0 (fun i => (t.ino ip).file.data (offset + i)) 0
      (min PGSIZE (max (t.ino ip).file.objsize offset - offset))), ?_, rfl, fun i hi => ?_⟩
    · show X.cache.getD c {} = _
      rw [hXc, getD_set_eq, if_pos ⟨rfl, hc⟩]
    · show blit zeroMem 0 (fun i => (t.ino ip).file.data (offset + i)) 0
        (min PGSIZE (max (t.ino ip).file.objsize offset - offset)) i = _
      unfold blit zeroMem
      by_cases hlt : offset + i < (t.ino ip).file.objsize
      · rw [if_pos hlt, if_pos ⟨Nat.zero_le _, by omega⟩]
        simp
      · rw [if_neg hlt, if_neg (by omega)]
  · intro d hd'
    show X.cache.getD d {} = _
    rw [hXc, getD_set_eq, if_neg (fun hh => hd' hh.1.symm)]
    rfl
  · intro j
    show ((idup X ip).ino j).ref = _
    unfold idup
    rw [setIno_ino]
    by_cases hj : ip = j
    · subst hj
      rw [if_pos ⟨rfl, by rw [b.2.1]; exact hip⟩, if_pos rfl]
      show (X.ino ip).ref + 1 = _
      rw [b.2.2 ip]
    · rw [if_neg (fun hh => hj hh.1), if_neg (fun hh => hj hh.symm), b.2.2 j]
      simp
  · intro j
    show ((idup X ip).ino j).file.data = _
    unfold idup
    rw [setIno_ino]
    split
    · rename_i h1
      rw [← h1.1]
      exact hXfile ip
    · exact hXfile j
  · show (shift_up X.lru (X.NCACHE - 1)).set 0 (some c) = _
    rw [shift_up_set_zero _ _ _ (by rw [hXl, hlen, hXn]; omega), hXl, hXn]


/-- A `fill_slot` that returns a slot found the seek and the read successful. -/
theorem fill_ok_faults {PGSIZE : Nat} {t s' : KState} {c ip offset c' : Nat} (hc : c < t.NCACHE)
    (h : fill_slot PGSIZE t c ip offset = some (some c', s')) :
    c' = c ∧ t.fault.1 = false ∧ t.fault.2.fault.1 = false := by
  have hcl := @fault_fst_congr t (fill_claim t c ip offset) rfl
  rcases fill_slot_chain hc h with ⟨_, h0, _⟩ | ⟨hk, ⟨_, h0, _⟩ | ⟨hr, h1, _⟩⟩
  · cases h0
  · cases h0
  · rw [f_lseek_fst] at hk
    rw [f_read_fst] at hr
    have f1 := fault_of_ok hk
    have f2 := fault_of_ok hr
    have := @fault_fst_congr t.fault.2 (f_lseek (fill_claim t c ip offset) ip offset).2
      (by rw [f_lseek_faults, hcl.2])
    exact ⟨(Option.some.inj h1), hcl.1.symm.trans f1, this.1.symm.trans f2⟩

/-- What `fill_slot` leaves when the seek or the read fails: the slot is zeroed again, the
page allocated for it recycled, nothing else of the tables changed. -/
theorem fill_slot_fails {PGSIZE : Nat} {t : KState} {c ip offset : Nat} (hc : c < t.NCACHE)
    (hf : t.fault.1 = true ∨ t.fault.2.fault.1 = true) :
    ∃ s', fill_slot PGSIZE t c ip offset = some (none, s') ∧
      s'.cache = t.cache.set c {} ∧ s'.lru = t.lru ∧
      (∀ j, (s'.ino j).ref = (t.ino j).ref) ∧
      s'.log = t.log ++ (Ev.alloc_page :: Ev.f_lseek ip offset ::
        ((if t.fault.1 = true then [] else [Ev.f_read ip PGSIZE]) ++ [Ev.recycle_page])) := by
  have hcl := @fault_fst_congr t (fill_claim t c ip offset) rfl
  have hclog : (fill_claim t c ip offset).log = t.log ++ [Ev.alloc_page] := rfl
  rw [fill_slot_eq _ _ _ _ _ hc, f_lseek_fst, hcl.1]
  by_cases f1 : t.fault.1 = true
  · rw [f1, if_pos (by simp)]
    refine ⟨_, rfl, ?_, ?_, ?_, ?_⟩
    · rw [fill_rollback_cache, fill_seek_cache, List.set_set]
    · show (f_lseek (fill_claim t c ip offset) ip offset).2.lru = _
      exact fill_seek_lru _ _ _ _
    · exact ((benign_fill_seek t c ip offset).trans (benign_fill_rollback _ _)).2.2
    · show (f_lseek (fill_claim t c ip offset) ip offset).2.log ++ [Ev.recycle_page] = _
      rw [f_lseek_log, hclog, if_pos rfl]
      simp
  · have f1' : t.fault.1 = false := by simpa using f1
    have f2 : t.fault.2.fault.1 = true := by
      rcases hf with h | h
      · exact absurd h f1
      · exact h
    have hTf : (f_lseek (fill_claim t c ip offset) ip offset).2.fault.1 = true := by
      have := @fault_fst_congr t.fault.2 (f_lseek (fill_claim t c ip offset) ip offset).2
        (by rw [f_lseek_faults, hcl.2])
      exact this.1.trans f2
    rw [f1', if_neg (by simp), f_read_fst, hTf, if_pos (by simp)]
    refine ⟨_, rfl, ?_, ?_, ?_, ?_⟩
    · obtain ⟨pg, _, hpg⟩ := fill_loaded_cache PGSIZE
        (f_lseek (fill_claim t c ip offset) ip offset).2 c ip offset
      rw [fill_rollback_cache, hpg, fill_seek_cache, List.set_set, List.set_set]
    · show (fill_loaded PGSIZE (f_lseek (fill_claim t c ip offset) ip offset).2 c ip
        offset).lru = _
      rw [fill_loaded_lru, fill_seek_lru]
    · exact (((benign_fill_seek t c ip offset).trans (benign_fill_loaded _ _ _ _ _)).trans
        (benign_fill_rollback _ _)).2.2
    · show (fill_loaded PGSIZE (f_lseek (fill_claim t c ip offset) ip offset).2 c ip
        offset).log ++ [Ev.recycle_page] = _
      unfold fill_loaded
      rw [setSlot_log, f_read_log, f_lseek_log, hclog, if_neg (by simp)]
      simp

theorem not_in_lru_of_invalid {s : KState} (hinv : CInv s) {c : Nat}
    (hv : (s.slot c).valid = false) (i : Nat) : s.lruAt i ≠ some c := by
  obtain ⟨⟨L, hL⟩, _⟩ := hinv
  intro h
  have := (hL.2.2 c).mp (hL.of_lruAt h).2.2
  rw [hv] at this
  cases this

theorem find_hit_none {s : KState} {ip offset : Nat}
    (hmiss : ∀ c, ¬ ((s.slot c).valid = true ∧ (s.slot c).host = some ip ∧
      (s.slot c).offset = offset)) :
    find_slot (is_hit ip offset) s = none := by
  cases hf : find_slot (is_hit ip offset) s with
  | none => rfl
  | some c =>
    exact absurd ((is_hit_iff _ _ _).mp (find_slot_some hf).2.1) (hmiss c)

/-- C11: on a well-formed cache table, if no valid slot holds `(ip, offset)`, some slot is
free and the lower-FS seek and read succeed (the next two fallible external calls), then
`ctable_acquire(ip, offset)` returns a slot `c`, free before, that is now valid, not dirty,
with `host = ip` and `offset = offset`, whose page holds byte `offset + i` of the file at
every `i < PGSIZE` within the file and zero past its end; the other slots are as before,
the `ref` of `ip` is one higher and no other `ref` changed, and `c` is at LRU index 0 with the
previous entries one step nearer the tail, in order (the entry dropped at the tail was
NULL). -/
theorem C11_acquire_fills_free_slot (PGSIZE : Nat) (s : KState) (ip offset : Nat)
    (hinv : CInv s) (hip : ip < s.NINODE) (hal : offset % PGSIZE = 0)
    (hmiss : ∀ c, ¬ ((s.slot c).valid = true ∧ (s.slot c).host = some ip ∧
      (s.slot c).offset = offset))
    (hfree : ∃ c, c < s.NCACHE ∧ (s.slot c).valid = false)
    (hok : s.fault.1 = false ∧ s.fault.2.fault.1 = false) :
    ∃ c s', ctable_acquire PGSIZE s ip offset = some (some c, s') ∧
      c < s.NCACHE ∧ (s.slot c).valid = false ∧
      (s'.slot c).valid = true ∧ (s'.slot c).dirty = false ∧ (s'.slot c).host = some ip ∧
      (s'.slot c).offset = offset ∧
      (∃ pg, (s'.slot c).page = some pg ∧ ∀ i, i < PGSIZE → pg.data i =
        if offset + i < (s.ino ip).file.objsize then (s.ino ip).file.data (offset + i)
        else 0) ∧
      (∀ d, d ≠ c → s'.slot d = s.slot d) ∧
      (∀ j, (s'.ino j).ref = (s.ino j).ref + if j = ip then 1 else 0) ∧
      (∀ j, (s'.ino j).file.data = (s.ino j).file.data) ∧
      s'.lruAt 0 = some c ∧ (∀ i, i + 1 < s.NCACHE → s'.lruAt (i + 1) = s.lruAt i) ∧
      s.lruAt (s.NCACHE - 1) = none := by
  obtain ⟨c0, hc0, hv0⟩ := hfree
  obtain ⟨c, hfind⟩ := find_free_of_exists hc0 hv0
  obtain ⟨hc, hv, _⟩ := find_slot_some hfind
  have hv' : (s.slot c).valid = false := by simpa using hv
  obtain ⟨⟨L, hL⟩, _⟩ := hinv
  have hlast := hL.last_none hc hv'
  obtain ⟨s', hfill, ⟨pg, hslot, _, hpg⟩, hothers, hn, href, hdata, hlru, _⟩ :=
    @fill_slot_succeeds PGSIZE s c ip offset hc hip hL.lru_length hlast hok.1 hok.2
  obtain ⟨hl0, hl1⟩ := lru_pushed hL.lru_length hn hlru
  refine ⟨c, s', ?_, hc, hv', ?_, ?_, ?_, ?_, ⟨pg, ?_, hpg⟩, hothers, href, hdata, hl0, hl1,
    hlast⟩
  · unfold ctable_acquire
    rw [if_neg (by simpa using hal), find_hit_none hmiss]
    dsimp only
    rw [hfind]
    exact hfill
  all_goals rw [hslot]; rfl

/-- C12: on a well-formed cache table on which `(ip, offset)` is not cached, let `t` be the
state in which `ctable_acquire(ip, offset)` finds its free slot: the state of the call when a
slot is free then, else the state after the evictor has run and freed one.  If the seek
fails, or the read after a successful seek, then `ctable_acquire` returns NULL, and the
slot `c` it had chosen is invalid again, with `host` NULL, `offset` 0, `dirty` clear and
`page` NULL; the page allocated for it has been recycled (the last external call), the
other slots, every `ref` (that of `ip` included) and the LRU vector are as in `t`, and the
LRU vector does not contain `c`. -/
theorem C12_failed_fill_rolls_back (PGSIZE : Nat) (s t : KState) (ip offset : Nat)
    (hinv : CInv s) (hal : offset % PGSIZE = 0)
    (hmiss : ∀ c, ¬ ((s.slot c).valid = true ∧ (s.slot c).host = some ip ∧
      (s.slot c).offset = offset))
    (hentry : (t = s ∧ ∃ c, c < s.NCACHE ∧ (s.slot c).valid = false) ∨
      ((∀ c, c < s.NCACHE → (s.slot c).valid = true) ∧
        ∃ r, ctable_lru_evict PGSIZE s = some (r, t) ∧
          ∃ c, c < t.NCACHE ∧ (t.slot c).valid = false))
    (hfail : t.fault.1 = true ∨ t.fault.2.fault.1 = true) :
    ∃ c s', ctable_acquire PGSIZE s ip offset = some (none, s') ∧
      c < t.NCACHE ∧ (t.slot c).valid = false ∧
      (s'.slot c).valid = false ∧ (s'.slot c).host = none ∧ (s'.slot c).offset = 0 ∧
      (s'.slot c).dirty = false ∧ (s'.slot c).page = none ∧
      (∀ d, d ≠ c → s'.slot d = t.slot d) ∧
      (∃ evs, s'.log = t.log ++ Ev.alloc_page :: evs ++ [Ev.recycle_page]) ∧
      (∀ j, (s'.ino j).ref = (t.ino j).ref) ∧
      s'.lru = t.lru ∧ ∀ i, s'.lruAt i ≠ some c := by
  have hinvt : CInv t := by
    rcases hentry with ⟨rfl, _⟩ | ⟨_, r, hev, _⟩
    · exact hinv
    · exact hinv.evict hev
  have hfree : ∃ c, c < t.NCACHE ∧ (t.slot c).valid = false := by
    rcases hentry with ⟨_, c, hc, hv⟩ | ⟨_, r, hev, hc⟩
    · subst t; exact ⟨c, hc, hv⟩
    · exact hc
  obtain ⟨c0, hc0, hv0⟩ := hfree
  obtain ⟨c, hfind⟩ := find_free_of_exists hc0 hv0
  obtain ⟨hc, hv, _⟩ := find_slot_some hfind
  have hv' : (t.slot c).valid = false := by simpa using hv
  obtain ⟨s', hfill, hcache, hlru, href, hlog⟩ := @fill_slot_fails PGSIZE t c ip offset hc hfail
  have hslot := slot_of_cache_set hcache
  have hacq : ctable_acquire PGSIZE s ip offset = some (none, s') := by
    unfold ctable_acquire
    rw [if_neg (by simpa using hal), find_hit_none hmiss]
    dsimp only
    rcases hentry with ⟨rfl, _⟩ | ⟨hfull, r, hev, _⟩
    · rw [hfind]
      exact hfill
    · have hnone : find_slot (fun c => !c.valid) s = none := by
        cases hf : find_slot (fun c => !c.valid) s with
        | none => rfl
        | some d =>
          obtain ⟨hd, hvd, _⟩ := find_slot_some hf
          rw [hfull d hd] at hvd
          cases hvd
      rw [hnone]
      dsimp only
      rw [hev]
      dsimp only
      rw [hfind]
      exact hfill
  have hsc : s'.slot c = {} := by rw [hslot c, if_pos ⟨rfl, hc⟩]
  refine ⟨c, s', hacq, hc, hv', ?_, ?_, ?_, ?_, ?_, fun d hd => ?_,
    ⟨Ev.f_lseek ip offset :: (if t.fault.1 = true then [] else [Ev.f_read ip PGSIZE]), ?_⟩,
    href, hlru, fun i => ?_⟩
  · rw [hsc]
  · rw [hsc]
  · rw [hsc]
  · rw [hsc]
  · rw [hsc]
  · rw [hslot d, if_neg (fun hh => hd hh.1.symm)]
  · rw [hlog]
    simp
  · have := not_in_lru_of_invalid hinvt hv' i
    unfold KState.lruAt at this ⊢
    rw [hlru]
    exact this

theorem C11_acquire_fills_free_slot_witness :
    ∃ c s', ctable_acquire 4096 w0 1 0 = some (some c, s') ∧
      c < w0.NCACHE ∧ (w0.slot c).valid = false ∧
      (s'.slot c).valid = true ∧ (s'.slot c).dirty = false ∧ (s'.slot c).host = some 1 ∧
      (s'.slot c).offset = 0 ∧
      (∃ pg, (s'.slot c).page = some pg ∧ ∀ i, i < 4096 → pg.data i =
        if 0 + i < (w0.ino 1).file.objsize then (w0.ino 1).file.data (0 + i) else 0) ∧
      (∀ d, d ≠ c → s'.slot d = w0.slot d) ∧
      (∀ j, (s'.ino j).ref = (w0.ino j).ref + if j = 1 then 1 else 0) ∧
      (∀ j, (s'.ino j).file.data = (w0.ino j).file.data) ∧
      s'.lruAt 0 = some c ∧ (∀ i, i + 1 < w0.NCACHE → s'.lruAt (i + 1) = w0.lruAt i) ∧
      w0.lruAt (w0.NCACHE - 1) = none :=
  C11_acquire_fills_free_slot 4096 w0 1 0 (CInv.zero ⟨rfl, rfl⟩) (by decide) (by decide)
    (by intro c; rcases c with _ | _ | c <;> simp [w0, KState.slot])
    ⟨0, by decide, by decide⟩ ⟨by decide, by decide⟩

theorem C12_failed_fill_rolls_back_witness :
    ∃ c s', ctable_acquire 4096 wReadFails 1 0 = some (none, s') ∧
      c < wReadFails.NCACHE ∧ (wReadFails.slot c).valid = false ∧
      (s'.slot c).valid = false ∧ (s'.slot c).host = none ∧ (s'.slot c).offset = 0 ∧
      (s'.slot c).dirty = false ∧ (s'.slot c).page = none ∧
      (∀ d, d ≠ c → s'.slot d = wReadFails.slot d) ∧
      (∃ evs, s'.log = wReadFails.log ++ Ev.alloc_page :: evs ++ [Ev.recycle_page]) ∧
      (∀ j, (s'.ino j).ref = (wReadFails.ino j).ref) ∧
      s'.lru = wReadFails.lru ∧ ∀ i, s'.lruAt i ≠ some c :=
  C12_failed_fill_rolls_back 4096 wReadFails wReadFails 1 0 (CInv.zero ⟨rfl, rfl⟩) (by decide)
    (by intro c; rcases c with _ | _ | c <;> simp [wReadFails, w0, KState.slot])
    (Or.inl ⟨rfl, 0, by decide, by decide⟩) (Or.inr (by decide))

/-! ## `ctable_lru_evict` -/

theorem iput_calls_congr {s t : KState} {ip : Nat} (h : t.ino ip = s.ino ip) :
    iput_calls t ip = iput_calls s ip := by
  unfold iput_calls
  rw [h]

theorem wb_ok_log {PGSIZE : Nat} {t s1 : KState} {c h : Nat} (hh : (t.slot c).host = some h)
    (hlt : h < t.NINODE) (hwb : wb_ok PGSIZE t c s1) :
    s1.log = t.log ++ wb_calls PGSIZE t c := by
  unfold wb_ok at hwb
  unfold wb_calls
  split at hwb
  · rename_i hd
    rw [if_pos hd, hh]
    dsimp only
    obtain ⟨h', pg, hh', _, hcase⟩ := writeback_chain hwb
    rw [hh] at hh'
    cases hh'
    rcases hcase with ⟨h0, _, _⟩ | ⟨hk, rfl, _⟩
    · cases h0
    · rw [f_lseek_fst] at hk
      have hf := fault_of_ok hk
      have hsz : f_size ((f_lseek t h (t.slot c).offset).2.ino h).file =
          max (t.ino h).file.objsize (t.slot c).offset := by
        rw [f_lseek_ino, if_pos ⟨hf, rfl, hlt⟩]
        rfl
      rw [f_write_log, f_lseek_log, hsz]
      simp
  · rename_i hd
    rw [if_neg hd, hwb]
    simp

/-- What a completed `evict_at` has done: the slot is zeroed, the other slots are as before,
the LRU vector has lost entry `i` (the tail moved up, a NULL appended), the host has one
`ref` less, and the external calls were the write-back of a dirty slot, the recycling of the
page and those of the `iput` of the host, in this order. -/
theorem evict_at_effect {PGSIZE : Nat} {s s' : KState} {i c : Nat} {r : Int}
    (hlen : s.lru.length = s.NCACHE) (hi : i < s.NCACHE)
    (h : evict_at PGSIZE s i c = some (r, s')) :
    r = 0 ∧ ∃ h', (s.slot c).host = some h' ∧ h' < s.NINODE ∧ s'.slot c = {} ∧
      (∀ d, d ≠ c → s'.slot d = s.slot d) ∧ s'.NCACHE = s.NCACHE ∧ s'.NINODE = s.NINODE ∧
      s'.lru = s.lru.eraseIdx i ++ [none] ∧
      (∀ j, (s'.ino j).ref = (s.ino j).ref - if j = h' then 1 else 0) ∧
      s'.log = s.log ++ Ev.evict c :: (wb_calls PGSIZE s c ++ Ev.recycle_page :: iput_calls s h') := by
  obtain ⟨hr, hcache, hlru⟩ := evict_at_shape h
  obtain ⟨s1, h', s3, _, hwb, hh, hput, hs'⟩ := evict_at_chain h
  obtain ⟨_, hlt3, hn3, heff⟩ := iput_effect hput
  have b1 : Benign s (recycle_physical_page s1) :=
    ((benign_emit s (Ev.evict c) (fun _ => by simp [isClose])).trans (benign_wb_ok hwb)).trans
      (benign_recycle _)
  have k1 : Keep h' s (recycle_physical_page s1) :=
    ((@keep_of_inode_eq h' s (s.emit (Ev.evict c)) rfl).trans_k (keep_wb_ok hwb)).trans_k
      (keep_of_inode_eq rfl)
  have hlt : h' < s.NINODE := by rw [← b1.2.1]; exact hlt3
  have hslot := slot_of_cache_set hcache
  refine ⟨hr, h', hh, hlt, ?_, fun d hd => ?_, NCACHE_of_cache_set hcache, ?_, ?_, fun j => ?_,
    ?_⟩
  · rw [hslot c]
    split
    · rfl
    · rename_i hn
      exact slot_default_of_ge s c (by
        by_contra hlt'
        exact hn ⟨rfl, by omega⟩)
  · rw [hslot d, if_neg (fun hh => hd hh.1.symm)]
  · rw [hs']
    show s3.NINODE = _
    rw [hn3, b1.2.1]
  · rw [hlru, ← hlen]
    exact shift_down_compact _ _ (by rw [hlen]; exact hi)
  · rw [hs']
    show (s3.ino j).ref = _
    rw [(heff j).1, b1.2.2 j]
  · rw [hs']
    show s3.log = _
    rw [iput_log hput]
    have hl1 : s1.log = (s.emit (Ev.evict c)).log ++ wb_calls PGSIZE (s.emit (Ev.evict c)) c :=
      wb_ok_log hh hlt hwb
    have hcalls : iput_calls (recycle_physical_page s1) h' = iput_calls s h' := by
      unfold iput_calls
      rw [b1.2.2 h', (k1.2 h').2.2.1, (k1.2 h').2.2.2.2.1, (k1.2 h').2.2.2.2.2, (k1.2 h').1]
    rw [hcalls]
    show (s1.log ++ [Ev.recycle_page]) ++ _ = _
    rw [hl1]
    have : wb_calls PGSIZE (s.emit (Ev.evict c)) c = wb_calls PGSIZE s c := rfl
    rw [this]
    simp


/-- C15: on an LRU vector of `NCACHE` entries. (1) If no entry has a page with physical
reference count 1, `ctable_lru_evict` returns -1 and the state is unchanged; (2) conversely
it returns -1 only then, and otherwise 0.  (3) If `i` is the greatest index whose entry `c`
has page reference count 1, a `ctable_lru_evict` that returns has returned 0 and: slot `c`
is zeroed, every other slot is as before, the LRU vector is the old one with entry `i`
removed, the entries behind it moved up in order and a NULL at the end; the host of `c` has
one `ref` less and no other `ref` changed; and the external calls were, in this order, the
write-back of `c` if it was dirty (seek, write), the recycling of its page, and the calls of
the `iput` of its host.  (4) With an evictable entry, on a well-formed state in which the
cache can give up any page, and when no external call fails, `ctable_lru_evict` does
return 0.  (5) The write-back has put the page into the file: when `c` was dirty (its offset
and the size of the file being `uint`s), the file of its host holds, from the slot's offset
on, the bytes of the page that lie within the file (the file being first extended to the
offset if it was shorter), and its other bytes are as before; when `c` was clean the file of
the host is as before; the bytes and sizes of all other files are as before.  (6) On a
well-formed state every byte of every file, as seen through the cache before the call, is
seen the same after it. -/
theorem C15_evict_removes_last_evictable_entry (PGSIZE : Nat) (s : KState)
    (hlen : s.lru.length = s.NCACHE) :
    ((∀ i c, i < s.NCACHE → s.lruAt i = some c → get_physical_page_ref (s.slot c).page ≠ 1) →
      ctable_lru_evict PGSIZE s = some (-1, s)) ∧
    (∀ r s', ctable_lru_evict PGSIZE s = some (r, s') →
      (r = -1 ∨ r = 0) ∧
      (r = -1 → ∀ i c, i < s.NCACHE → s.lruAt i = some c →
        get_physical_page_ref (s.slot c).page ≠ 1)) ∧
    (∀ i c, i < s.NCACHE → s.lruAt i = some c → get_physical_page_ref (s.slot c).page = 1 →
      (∀ j d, i < j → j < s.NCACHE → s.lruAt j = some d →
        get_physical_page_ref (s.slot d).page ≠ 1) →
      ∀ r s', ctable_lru_evict PGSIZE s = some (r, s') →
        r = 0 ∧ ∃ h, (s.slot c).host = some h ∧ h < s.NINODE ∧ s'.slot c = {} ∧
          (∀ d, d ≠ c → s'.slot d = s.slot d) ∧
          s'.lru = s.lru.eraseIdx i ++ [none] ∧
          (∀ j, (s'.ino j).ref = (s.ino j).ref - if j = h then 1 else 0) ∧
          s'.log = s.log ++
            Ev.evict c :: (wb_calls PGSIZE s c ++ Ev.recycle_page :: iput_calls s h)) ∧
    (Sane PGSIZE s → Held s → s.faults = [] →
      (∃ i c, i < s.NCACHE ∧ s.lruAt i = some c ∧ get_physical_page_ref (s.slot c).page = 1) →
      ∃ s', ctable_lru_evict PGSIZE s = some (0, s')) ∧
    (∀ i c h, i < s.NCACHE → s.lruAt i = some c → get_physical_page_ref (s.slot c).page = 1 →
      (∀ j d, i < j → j < s.NCACHE → s.lruAt j = some d →
        get_physical_page_ref (s.slot d).page ≠ 1) →
      (s.slot c).host = some h → (s.slot c).offset < 2 ^ 32 →
      (s.ino h).file.objsize < 2 ^ 32 →
      ∀ r s', ctable_lru_evict PGSIZE s = some (r, s') →
        (∀ j, j ≠ h → (s'.ino j).file.data = (s.ino j).file.data ∧
          (s'.ino j).file.objsize = (s.ino j).file.objsize) ∧
        ((s.slot c).dirty = false → (s'.ino h).file = (s.ino h).file) ∧
        ((s.slot c).dirty = true →
          (s'.ino h).file.objsize = max (s.ino h).file.objsize (s.slot c).offset ∧
          (s'.ino h).file.data =
            blit (s.ino h).file.data (s.slot c).offset (s.pdata c) 0
              (min (max (s.ino h).file.objsize (s.slot c).offset - (s.slot c).offset)
                PGSIZE))) ∧
    (0 < PGSIZE → Sane PGSIZE s → ∀ r s', ctable_lru_evict PGSIZE s = some (r, s') →
      ∀ ip p v, ByteIs PGSIZE s ip p v → ByteIs PGSIZE s' ip p v) := by
  refine ⟨fun hno => ?_, fun r s' h => ?_, fun i c hi hc hr hmax r s' h => ?_,
    fun hs hh hnf hex => ?_, fun i c h hi hc hr hmax hh ho hsz r s' he => ?_,
    fun hP hs r s' he ip p v hb => evict_byte hP hs he hb⟩
  · unfold ctable_lru_evict
    rcases evict_scan_pick PGSIZE s s.NCACHE with ⟨h, _⟩ | ⟨i, c, hi, hc, hr, _⟩
    · exact h
    · exact absurd hr (hno i c hi hc)
  · unfold ctable_lru_evict at h
    rcases evict_scan_cases h with ⟨hr, _, hno⟩ | ⟨i, c, hi, hc, hr, _, hat⟩
    · exact ⟨Or.inl hr, fun _ i c hi hc => hno i hi c hc⟩
    · have hr0 := (evict_at_shape hat).1
      refine ⟨Or.inr hr0, fun h1 => ?_⟩
      rw [hr0] at h1
      cases h1
  · unfold ctable_lru_evict at h
    rcases evict_scan_cases h with ⟨_, _, hno⟩ | ⟨i', c', hi', hc', hr', hmax', hat⟩
    · exact absurd hr (hno i hi c hc)
    · have hii : i' = i := by
        by_contra hne
        rcases Nat.lt_or_gt_of_ne hne with hlt | hgt
        · exact hmax' i hlt hi c hc hr
        · exact hmax i' c' hgt hi' hc' hr'
      subst hii
      rw [hc] at hc'
      cases hc'
      obtain ⟨h0, h', e1, e2, e3, e4, _, _, e5, e6, e7⟩ := evict_at_effect hlen hi hat
      exact ⟨h0, h', e1, e2, e3, e4, e5, e6, e7⟩
  · obtain ⟨i, c, _, hc, hr⟩ := hex
    obtain ⟨⟨L, hL⟩, _⟩ := hs.1
    have hv := (hL.2.2 c).mp (hL.of_lruAt hc).2.2
    obtain ⟨s', h, _⟩ := evict_total hs hnf hh hv hr
    exact ⟨s', h⟩
  · unfold ctable_lru_evict at he
    rcases evict_scan_cases he with ⟨_, _, hno⟩ | ⟨i', c', hi', hc', hr', hmax', hat⟩
    · exact absurd hr (hno i hi c hc)
    · have hii : i' = i := by
        by_contra hne
        rcases Nat.lt_or_gt_of_ne hne with hlt | hgt
        · exact hmax' i hlt hi c hc hr
        · exact hmax i' c' hgt hi' hc' hr'
      subst hii
      rw [hc] at hc'
      cases hc'
      obtain ⟨_, h1, e1, hlt, _⟩ := evict_at_effect hlen hi hat
      rw [hh] at e1
      cases e1
      obtain ⟨s1, h2, s3, _, hwb, e2, hput, hs'⟩ := evict_at_chain hat
      rw [hh] at e2
      cases e2
      have hfile : ∀ j, (s'.ino j).file = (s1.ino j).file := by
        intro j
        rw [hs']
        show (s3.ino j).file = _
        rw [((iput_effect hput).2.2.2 j).2.1]
        rfl
      unfold wb_ok at hwb
      by_cases hd : (s.slot c).dirty = true
      · have hd' : ((s.emit (Ev.evict c)).slot c).dirty = true := by rw [emit_slot]; exact hd
        rw [if_pos hd'] at hwb
        obtain ⟨h3, pg, _, hp, _⟩ := writeback_chain hwb
        have hp' : (s.slot c).page = some pg := by rw [emit_slot] at hp; exact hp
        have hpd : s.pdata c = pg.data := by unfold KState.pdata; rw [hp']
        have hf := fun j => @wb_file PGSIZE (s.emit (Ev.evict c)) s1 c h pg hwb
          (by rw [emit_slot]; exact hh) hp (by rw [emit_slot]; exact ho) hsz j
        have hlt' : h < (s.emit (Ev.evict c)).NINODE := hlt
        refine ⟨fun j hj => ?_, fun hcl => ?_, fun _ => ?_⟩
        · rw [hfile j, (hf j).1, (hf j).2, if_neg (fun x => hj x.1), if_neg (fun x => hj x.1)]
          exact ⟨rfl, rfl⟩
        · rw [hd] at hcl; cases hcl
        · rw [hfile h, (hf h).1, (hf h).2, if_pos ⟨rfl, hlt'⟩, if_pos ⟨rfl, hlt'⟩, emit_slot,
            hpd]
          exact ⟨rfl, rfl⟩
      · have hd' : ¬ ((s.emit (Ev.evict c)).slot c).dirty = true := by rw [emit_slot]; exact hd
        rw [if_neg hd'] at hwb
        have hfile' : ∀ j, (s'.ino j).file = (s.ino j).file := by
          intro j; rw [hfile j, hwb]; rfl
        refine ⟨fun j _ => ?_, fun _ => hfile' h, fun hcl => absurd hcl hd⟩
        rw [hfile' j]
        exact ⟨rfl, rfl⟩

theorem wEvicted_run : ctable_lru_evict 4096 wShared = some (0, wEvicted) := rfl

theorem wShared_tail : ∀ j d, 0 < j → j < wShared.NCACHE → wShared.lruAt j = some d →
    get_physical_page_ref (wShared.slot d).page ≠ 1 := by
  intro j d h0 h1 hl
  have hN : wShared.NCACHE = 2 := rfl
  have hj : j = 1 := by omega
  subst hj
  have : wShared.lruAt 1 = some 0 := rfl
  rw [this] at hl
  cases hl
  decide

theorem C15_evict_removes_last_evictable_entry_witness :
    wShared.lru.length = wShared.NCACHE ∧ wShared.lruAt 1 = some 0 ∧
    get_physical_page_ref (wShared.slot 0).page = 2 ∧
    ctable_lru_evict 4096 wShared = some (0, wEvicted) ∧
    ((0 : Int) = 0 ∧ ∃ h, (wShared.slot 1).host = some h ∧ h < wShared.NINODE ∧
      wEvicted.slot 1 = {} ∧
      (∀ d, d ≠ 1 → wEvicted.slot d = wShared.slot d) ∧
      wEvicted.lru = wShared.lru.eraseIdx 0 ++ [none] ∧
      (∀ j, (wEvicted.ino j).ref = (wShared.ino j).ref - if j = h then 1 else 0) ∧
      wEvicted.log = wShared.log ++
        Ev.evict 1 :: (wb_calls 4096 wShared 1 ++ Ev.recycle_page :: iput_calls wShared h)) ∧
    ((wShared.slot 1).host = some 1 ∧ (wShared.slot 1).dirty = true ∧
      (wShared.slot 1).offset = 4096 ∧ (wShared.ino 1).file.objsize = 8192) ∧
    ((∀ j, j ≠ 1 → (wEvicted.ino j).file.data = (wShared.ino j).file.data ∧
        (wEvicted.ino j).file.objsize = (wShared.ino j).file.objsize) ∧
      ((wShared.slot 1).dirty = false → (wEvicted.ino 1).file = (wShared.ino 1).file) ∧
      ((wShared.slot 1).dirty = true →
        (wEvicted.ino 1).file.objsize =
          max (wShared.ino 1).file.objsize (wShared.slot 1).offset ∧
        (wEvicted.ino 1).file.data =
          blit (wShared.ino 1).file.data (wShared.slot 1).offset (wShared.pdata 1) 0
            (min (max (wShared.ino 1).file.objsize (wShared.slot 1).offset -
              (wShared.slot 1).offset) 4096))) ∧
    (List.range 6).map (fun k => (wShared.ino 1).file.data (4096 + k)) = [0, 0, 0, 0, 0, 0] ∧
    (List.range 6).map (fun k => (wEvicted.ino 1).file.data (4096 + k)) =
      [104, 101, 108, 108, 111, 0] :=
  ⟨by decide, by decide, by decide, wEvicted_run,
    (C15_evict_removes_last_evictable_entry 4096 wShared (by decide)).2.2.1 0 1 (by decide)
      (by decide) (by decide) wShared_tail 0 wEvicted wEvicted_run,
    ⟨by decide, by decide, by decide, by decide⟩,
    (C15_evict_removes_last_evictable_entry 4096 wShared (by decide)).2.2.2.2.1 0 1 1
      (by decide) (by decide) (by decide) wShared_tail (by decide) (by decide) (by decide)
      0 wEvicted wEvicted_run,
    by decide, by decide⟩

/-! ## `ctable_acquire` on a full cache whose pages are not shared -/

theorem full_lru {s : KState} {L : List Nat} (h : LruRep s L)
    (hfull : ∀ c, c < s.NCACHE → (s.slot c).valid = true) : L.length = s.NCACHE := by
  apply Nat.le_antisymm h.length_le
  have h1 : Finset.range s.NCACHE ⊆ L.toFinset := by
    intro x hx
    simp only [Finset.mem_range] at hx
    simp only [List.mem_toFinset]
    exact (h.2.2 x).mpr (hfull x hx)
  have h2 := Finset.card_le_card h1
  rw [List.toFinset_card_of_nodup h.2.1] at h2
  simpa using h2

theorem wb_calls_no_evict (PGSIZE : Nat) (s : KState) (c : Nat) :
    ∀ e, e ∈ wb_calls PGSIZE s c → isEvict e = false := by
  intro e he
  unfold wb_calls at he
  split at he
  · split at he
    · simp only [List.mem_cons, List.mem_singleton, List.not_mem_nil, or_false] at he
      rcases he with rfl | rfl <;> rfl
    · cases he
  · cases he

theorem iput_calls_no_evict (s : KState) (ip : Nat) :
    ∀ e, e ∈ iput_calls s ip → isEvict e = false := by
  intro e he
  unfold iput_calls at he
  split at he
  · simp only [List.mem_cons] at he
    rcases he with rfl | he
    · split <;> rfl
    · split at he
      · simp only [List.mem_singleton] at he
        rw [he]; rfl
      · split at he
        · simp only [List.mem_singleton] at he
          rw [he]; rfl
        · cases he
  · cases he

/-- C13: on a well-formed cache table whose slots are all valid, with every cached page at
physical reference count 1 and `(ip, offset)` not cached, a `ctable_acquire(ip, offset)`
that returns a slot returns the slot `c` that was at the last index of the LRU vector: `c`
is the one slot evicted (the log shows the eviction of `c` and no other), it now holds
`(ip, offset)`, every other slot is unchanged (hence valid), and the LRU vector has `c` at
index 0 followed by the entries of the old indices `0 .. NCACHE - 2` in their order. -/
theorem C13_full_cache_evicts_lru_tail (PGSIZE : Nat) (s s' : KState) (ip offset c : Nat)
    (hinv : CInv s) (hip : ip < s.NINODE)
    (hfull : ∀ d, d < s.NCACHE → (s.slot d).valid = true)
    (hone : ∀ d, d < s.NCACHE → get_physical_page_ref (s.slot d).page = 1)
    (hmiss : ∀ d, ¬ ((s.slot d).valid = true ∧ (s.slot d).host = some ip ∧
      (s.slot d).offset = offset))
    (hacq : ctable_acquire PGSIZE s ip offset = some (some c, s')) :
    s.lruAt (s.NCACHE - 1) = some c ∧
    (∃ evs, s'.log = s.log ++ Ev.evict c :: evs ∧ ∀ e, e ∈ evs → isEvict e = false) ∧
    (∀ d, d ≠ c → s'.slot d = s.slot d) ∧
    (∀ d, d ≠ c → d < s.NCACHE → (s'.slot d).valid = true) ∧
    (s'.slot c).valid = true ∧ (s'.slot c).host = some ip ∧ (s'.slot c).offset = offset ∧
    s'.lruAt 0 = some c ∧ ∀ i, i + 1 < s.NCACHE → s'.lruAt (i + 1) = s.lruAt i := by
  obtain ⟨⟨L, hL⟩, _⟩ := id hinv
  have hLlen := full_lru hL hfull
  have hlen := hL.lru_length
  have hnofree : find_slot (fun c => !c.valid) s = none :=
    find_slot_eq_none (fun d hd => by simp [hfull d hd])
  unfold ctable_acquire at hacq
  split at hacq
  · cases hacq
  rw [find_hit_none hmiss] at hacq
  dsimp only at hacq
  rw [hnofree] at hacq
  dsimp only at hacq
  split at hacq
  · cases hacq
  rename_i r s1 hev
  have hinv1 : CInv s1 := hinv.evict hev
  unfold ctable_lru_evict at hev
  rcases evict_scan_cases hev with ⟨_, rfl, _⟩ | ⟨i, c0, hi, hc0, _, hmax, hat⟩
  · rw [hnofree] at hacq
    cases hacq
  -- the evicted entry is the last one
  have hiN : i = s.NCACHE - 1 := by
    by_contra hne
    cases hd : s.lruAt (s.NCACHE - 1) with
    | some d =>
      have hdlt : d < s.NCACHE := hL.lt (hL.of_lruAt hd).2.2
      exact hmax (s.NCACHE - 1) (by omega) (by omega) d hd (hone d hdlt)
    | none =>
      have := (lruAt_eq_none_iff hL _).mp hd
      omega
  rw [hiN] at hc0 hat
  obtain ⟨_, h', _, hh'lt, hz, hoth, hn1, hni1, hlru1, _, hlog1⟩ :=
    evict_at_effect hlen (by omega) hat
  -- the free slot found is the evicted one
  split at hacq
  swap
  · cases hacq
  rename_i cf hfind
  obtain ⟨hcf, hvf, _⟩ := find_slot_some hfind
  have hcfd : cf = c0 := by
    by_contra hne
    rw [hoth cf hne, hfull cf (by rw [← hn1]; exact hcf)] at hvf
    cases hvf
  rw [hcfd] at hcf hacq
  obtain ⟨hcc, f1, f2⟩ := fill_ok_faults hcf hacq
  subst hcc
  obtain ⟨⟨L1, hL1⟩, _⟩ := id hinv1
  have hv1 : (s1.slot c).valid = false := by rw [hz]
  obtain ⟨s'', hfill, ⟨pg, hslot, _, _⟩, hothers, hn, _, _, hlru, hlog⟩ :=
    @fill_slot_succeeds PGSIZE s1 c ip offset hcf (by rw [hni1]; exact hip) hL1.lru_length
      (hL1.last_none hcf hv1) f1 f2
  rw [hacq] at hfill
  cases hfill
  obtain ⟨hl0, hl1⟩ := lru_pushed hL1.lru_length hn hlru
  refine ⟨hc0, ⟨wb_calls PGSIZE s c ++ Ev.recycle_page :: (iput_calls s h' ++
    [Ev.alloc_page, Ev.f_lseek ip offset, Ev.f_read ip PGSIZE]), ?_, ?_⟩, fun x hx => ?_, fun x hx hxn => ?_, ?_, ?_, ?_, hl0, fun j hj => ?_⟩
  · rw [hlog, hlog1]
    simp only [List.append_assoc, List.cons_append]
  · intro e he
    simp only [List.mem_append, List.mem_cons, List.not_mem_nil, or_false] at he
    rcases he with he | rfl | he | rfl | rfl | rfl
    · exact wb_calls_no_evict _ _ _ e he
    · rfl
    · exact iput_calls_no_evict _ _ e he
    · rfl
    · rfl
    · rfl
  · rw [hothers x hx, hoth x hx]
  · rw [hothers x hx, hoth x hx]
    exact hfull x hxn
  · rw [hslot]; rfl
  · rw [hslot]; rfl
  · rw [hslot]; rfl
  · rw [hl1 j (by rw [hn1]; exact hj)]
    unfold KState.lruAt
    rw [hlru1, List.getD_eq_getElem?_getD, List.getD_eq_getElem?_getD,
      List.getElem?_append_left (by rw [List.length_eraseIdx]; split <;> omega),
      List.getElem?_eraseIdx, if_pos (by omega)]

theorem wThird_run : ctable_acquire 4096 w2 1 8192 = some (some 0, wThird) := rfl

theorem w2_miss : ∀ d, ¬ ((w2.slot d).valid = true ∧ (w2.slot d).host = some 1 ∧
    (w2.slot d).offset = 8192) := by
  intro d
  rcases d with _ | _ | d
  · decide
  · decide
  · rw [slot_default_of_ge w2 (d + 2) (by show 2 ≤ d + 2; omega)]
    simp

theorem C13_full_cache_evicts_lru_tail_witness :
    w2.lru = [some 1, some 0] ∧ ctable_acquire 4096 w2 1 8192 = some (some 0, wThird) ∧
    w2.lruAt (w2.NCACHE - 1) = some 0 ∧
    (∃ evs, wThird.log = w2.log ++ Ev.evict 0 :: evs ∧ ∀ e, e ∈ evs → isEvict e = false) ∧
    (∀ d, d ≠ 0 → wThird.slot d = w2.slot d) ∧
    (∀ d, d ≠ 0 → d < w2.NCACHE → (wThird.slot d).valid = true) ∧
    (wThird.slot 0).valid = true ∧ (wThird.slot 0).host = some 1 ∧
    (wThird.slot 0).offset = 8192 ∧
    wThird.lruAt 0 = some 0 ∧ ∀ i, i + 1 < w2.NCACHE → wThird.lruAt (i + 1) = w2.lruAt i :=
  ⟨rfl, wThird_run,
    C13_full_cache_evicts_lru_tail 4096 w2 wThird 1 8192 0 w2_inv (by decide) (by decide)
      (by decide) w2_miss wThird_run⟩

/-! ## What `ctable_release` does, for an inode or for all -/

theorem release_hit_iff (ip : Option Nat) (w : page_cache) :
    release_hit ip w = true ↔ (w.valid = true ∧ (w.host = ip ∨ ip = none)) := by
  unfold release_hit
  simp

theorem release_hit_default (ip : Option Nat) : release_hit ip {} = false := rfl

/-- One step of the loop of `ctable_release` on a well-formed state: a slot that does not
match is left alone; a matching slot had page reference count 1 and is zeroed and taken
out of the LRU vector; the state stays well-formed and every byte is what it was as seen
through the cache. -/
theorem release_slot_gen {PGSIZE : Nat} (hP : 0 < PGSIZE) {s s' : KState} {ip : Option Nat}
    {c : Nat} (hs : Sane PGSIZE s) (h : release_slot PGSIZE s ip c = some s') :
    Sane PGSIZE s' ∧
    (∀ ip' p v, ByteIs PGSIZE s ip' p v → ByteIs PGSIZE s' ip' p v) ∧
    s'.NCACHE = s.NCACHE ∧
    (release_hit ip (s.slot c) = false → s' = s) ∧
    (release_hit ip (s.slot c) = true →
      get_physical_page_ref (s.slot c).page = 1 ∧ s'.cache = s.cache.set c {} ∧
      ∀ L, LruRep s L → LruRep s' (L.erase c)) := by
  by_cases hcond : (s.slot c).valid = true ∧ ((s.slot c).host = ip ∨ ip = none)
  · have hhit : release_hit ip (s.slot c) = true := (release_hit_iff _ _).mpr hcond
    have hinv := hs.1.release_slot h
    obtain ⟨s1, h', s3, hwb, href, _, hput, hs'⟩ := release_slot_chain h hcond
    have hc3 : SameC s s3 :=
      ((sameC_wb_ok hwb).trans_c (sameC_emit _ _)).trans_c (sameC_iput hput)
    have hcache : s'.cache = s.cache.set c {} := by
      rw [hs', lru_remove_cache]
      show s3.cache.set c {} = _
      rw [hc3.1]
    have hinode : s'.inode = s3.inode := by rw [hs', lru_remove_inode]; rfl
    refine ⟨⟨hinv, hs.2.1.clear_ok hcache,
        fun i => (teardown_sizes hs hcond.1 hwb hput hinode i).2⟩,
      fun ip' p v hb => teardown_byte hP hs hcond.1 hwb hput hcache hinode hb,
      NCACHE_of_cache_set hcache, fun hx => ?_, fun _ => ⟨href, hcache, fun L hL => ?_⟩⟩
    · rw [hhit] at hx; cases hx
    · have hcL : c ∈ L := (hL.2.2 c).mpr hcond.1
      have hiL : L.indexOf c < L.length := List.indexOf_lt_length.mpr hcL
      have hLn := hL.length_le
      have hlen := hL.lru_length
      have hidx : (s3.setSlot c {}).lru.findIdx (fun e => decide (e = some c)) =
          L.indexOf c := by
        rw [setSlot_lru, hc3.2, hL.1]; exact findIdx_lru_of _ _ _ hcL
      have hn3 : (s3.setSlot c {}).NCACHE = s.NCACHE := by rw [setSlot_NCACHE, hc3.NCACHE]
      have hcond' : L.indexOf c < (s3.setSlot c {}).NCACHE ∧
          L.indexOf c < (s3.setSlot c {}).lru.length := by
        rw [hn3, setSlot_lru, hc3.2, hlen]; omega
      have hdef : (ctable_lru_remove (s3.setSlot c {}) c).2 =
          lru_compact (s3.setSlot c {}) (L.indexOf c) := by
        unfold ctable_lru_remove
        simp only [hidx, hcond', and_self, if_true]
      have hl' : s'.lru =
          (shift_down s.lru (s.NCACHE - 1 - L.indexOf c) (L.indexOf c)).set (s.NCACHE - 1)
            none := by
        rw [hs', hdef]
        simp only [lru_compact, hn3, setSlot_lru, hc3.2]
      exact hL.evict_rep (hL.lruAt_indexOf hcL) hcache hl'
  · have hhit : release_hit ip (s.slot c) = false := by
      cases hx : release_hit ip (s.slot c) with
      | false => rfl
      | true => exact absurd ((release_hit_iff _ _).mp hx) hcond
    unfold release_slot at h
    rw [if_neg hcond] at h
    cases h
    exact ⟨hs, fun _ _ _ hb => hb, rfl, fun _ => rfl, fun hx => by rw [hhit] at hx; cases hx⟩

theorem filter_valid_self {s : KState} {L : List Nat} (hL : LruRep s L) :
    L.filter (fun x => (s.slot x).valid) = L := by
  rw [List.filter_eq_self]
  intro x hx
  exact (hL.2.2 x).mp hx

theorem filter_valid_erase {s s' : KState} {L : List Nat} {c : Nat} (hL : LruRep s L)
    (hc : s'.cache = s.cache.set c {}) (hcl : c < s.NCACHE) :
    L.filter (fun x => (s'.slot x).valid) = L.erase c := by
  rw [hL.2.1.erase_eq_filter]
  apply List.filter_congr
  intro x hx
  rw [slot_of_cache_set hc]
  by_cases hxc : c = x
  · subst hxc
    simp [hcl]
  · have : ¬ (c = x ∧ c < s.NCACHE) := fun hh => hxc hh.1
    rw [if_neg this, (hL.2.2 x).mp hx]
    have : x ≠ c := fun e => hxc e.symm
    simp [this]

/-- The loop of `ctable_release` over the slots `c .. c + k - 1` of a well-formed state. -/
theorem release_loop_gen {PGSIZE : Nat} (hP : 0 < PGSIZE) {ip : Option Nat} (k c : Nat)
    {s s' : KState} (hs : Sane PGSIZE s) (h : release_loop PGSIZE ip k c s = some s') :
    Sane PGSIZE s' ∧
    (∀ ip' p v, ByteIs PGSIZE s ip' p v → ByteIs PGSIZE s' ip' p v) ∧
    s'.NCACHE = s.NCACHE ∧
    (∀ x, s'.slot x =
      if c ≤ x ∧ x < c + k ∧ release_hit ip (s.slot x) = true then {} else s.slot x) ∧
    (∀ x, c ≤ x → x < c + k → release_hit ip (s.slot x) = true →
      get_physical_page_ref (s.slot x).page = 1) ∧
    (∀ L, LruRep s L → LruRep s' (L.filter (fun x => (s'.slot x).valid))) := by
  induction k generalizing c s with
  | zero =>
    rw [release_loop] at h
    cases h
    refine ⟨hs, fun _ _ _ hb => hb, rfl, fun x => ?_, fun x h1 h2 => by omega, fun L hL => ?_⟩
    · rw [if_neg (by omega)]
    · rw [filter_valid_self hL]; exact hL
  | succ k ih =>
    rw [release_loop] at h
    split at h
    · cases h
    · rename_i s1 hs1
      obtain ⟨a1, a2, a3, a4, a5⟩ := release_slot_gen hP hs hs1
      obtain ⟨b1, b2, b3, b4, b5, b6⟩ := ih (c + 1) a1 h
      have hs1slot : ∀ x, s1.slot x =
          if x = c ∧ release_hit ip (s.slot c) = true then {} else s.slot x := by
        intro x
        cases hh : release_hit ip (s.slot c) with
        | false =>
          rw [a4 hh]
          simp
        | true =>
          have hcl : c < s.NCACHE := lt_of_valid s c ((release_hit_iff _ _).mp hh).1
          rw [slot_of_cache_set (a5 hh).2.1]
          by_cases hxc : c = x
          · subst hxc; simp [hcl]
          · have h1 : ¬ (c = x ∧ c < s.NCACHE) := fun e => hxc e.1
            have h2 : ¬ (x = c ∧ true = true) := fun e => hxc e.1.symm
            rw [if_neg h1, if_neg h2]
      refine ⟨b1, fun ip' p v hb => b2 ip' p v (a2 ip' p v hb), b3.trans a3, fun x => ?_,
        fun x h1 h2 h3 => ?_, fun L hL => ?_⟩
      · rw [b4 x, hs1slot x]
        by_cases hxc : x = c
        · subst hxc
          rw [if_neg (by omega)]
          by_cases hh : release_hit ip (s.slot x) = true
          · rw [if_pos ⟨rfl, hh⟩, if_pos ⟨Nat.le_refl _, by omega, hh⟩]
          · rw [if_neg (fun e => hh e.2), if_neg (fun e => hh e.2.2)]
        · have h0 : ¬ (x = c ∧ release_hit ip (s.slot c) = true) := fun e => hxc e.1
          rw [if_neg h0]
          by_cases hh : c + 1 ≤ x ∧ x < c + 1 + k ∧ release_hit ip (s.slot x) = true
          · rw [if_pos hh, if_pos ⟨by omega, by omega, hh.2.2⟩]
          · rw [if_neg hh, if_neg (fun e => hh ⟨by omega, by omega, e.2.2⟩)]
      · by_cases hxc : x = c
        · subst hxc
          exact (a5 h3).1
        · have := b5 x (by omega) (by omega)
          rw [hs1slot x, if_neg (fun e => hxc e.1)] at this
          exact this h3
      · have hL1 : LruRep s1 (L.filter (fun x => (s1.slot x).valid)) := by
          cases hh : release_hit ip (s.slot c) with
          | false =>
            rw [a4 hh, filter_valid_self hL]
            exact hL
          | true =>
            have hcl : c < s.NCACHE := lt_of_valid s c ((release_hit_iff _ _).mp hh).1
            rw [filter_valid_erase hL (a5 hh).2.1 hcl]
            exact (a5 hh).2.2 L hL
        have := b6 _ hL1
        rw [List.filter_filter] at this
        have hcongr : L.filter (fun x => (s'.slot x).valid && (s1.slot x).valid) =
            L.filter (fun x => (s'.slot x).valid) := by
          apply List.filter_congr
          intro x _
          rw [b4 x]
          split
          · rfl
          · simp
        rw [hcongr] at this
        exact this


theorem slot_of_lt {s : KState} {c : Nat} (h : c < s.cache.length) : s.slot c = s.cache[c] := by
  simp [KState.slot, List.getElem?_eq_getElem h]

theorem countP_split {α : Type} (p q r : α → Bool) (l : List α)
    (h : ∀ a, (if p a = true then 1 else 0) =
      (if q a = true then 1 else 0) + (if r a = true then 1 else 0)) :
    l.countP p = l.countP q + l.countP r := by
  induction l with
  | nil => rfl
  | cons a t ih =>
    simp only [List.countP_cons]
    have := h a
    omega

/-- The cached pages of inode slot `j` before a release are those still cached after it plus
the released ones. -/
theorem hosted_release {s s' : KState} {ip : Option Nat} (hn : s'.NCACHE = s.NCACHE)
    (hslot : ∀ x, s'.slot x = if release_hit ip (s.slot x) = true then {} else s.slot x)
    (j : Nat) :
    s.hosted j =
      s'.hosted j + s.cache.countP (fun w => release_hit ip w && (w.host == some j)) := by
  have hmap : s'.cache =
      s.cache.map (fun w => if release_hit ip w = true then ({} : page_cache) else w) := by
    apply List.ext_getElem
    · rw [List.length_map]; exact hn
    · intro n h1 h2
      rw [List.getElem_map, ← slot_of_lt h1, ← slot_of_lt (by simpa using h2)]
      exact hslot n
  unfold KState.hosted
  rw [hmap, List.countP_map]
  apply countP_split
  intro a
  simp only [Function.comp]
  by_cases hh : release_hit ip a = true
  · have hv := ((release_hit_iff _ _).mp hh).1
    simp [hh, hv]
  · have hh' : release_hit ip a = false := by simpa using hh
    simp [hh']

/-- C16: on a well-formed state, after `ctable_release(ip)` has returned (with `ip` an inode
or NULL, NULL matching every valid slot): every matching slot had a page of physical
reference count 1; no slot matches any more (no valid slot has host `ip`; no slot is valid
when `ip` is NULL); every slot that matched is zeroed and absent from the LRU vector; every
byte of every file is what it was as seen through the cache, so the dirty pages have been
written back before they were dropped; the slots that did not match are unchanged and the
LRU vector lists them in their previous order; and the `ref` of every inode has dropped by
the number of released slots it hosted. -/
theorem C16_release_tears_down_matching_slots (PGSIZE : Nat) (s s' : KState) (ip : Option Nat)
    (hP : 0 < PGSIZE) (hs : Sane PGSIZE s) (hrel : ctable_release PGSIZE s ip = some s') :
    (∀ c, release_hit ip (s.slot c) = true → get_physical_page_ref (s.slot c).page = 1) ∧
    (∀ c, ¬ ((s'.slot c).valid = true ∧ ((s'.slot c).host = ip ∨ ip = none))) ∧
    (∀ c, release_hit ip (s.slot c) = true → s'.slot c = {} ∧ ∀ i, s'.lruAt i ≠ some c) ∧
    (∀ ip' p v, ByteIs PGSIZE s ip' p v → ByteIs PGSIZE s' ip' p v) ∧
    (∀ c, release_hit ip (s.slot c) = false → s'.slot c = s.slot c) ∧
    (∃ L, LruRep s L ∧ LruRep s' (L.filter (fun c => !release_hit ip (s.slot c)))) ∧
    (∀ j, j < s.NINODE → (s'.ino j).ref =
      (s.ino j).ref - (s.cache.countP (fun w => release_hit ip w && (w.host == some j)) : Nat)) ∧
    Sane PGSIZE s' := by
  obtain ⟨b1, b2, b3, b4, b5, b6⟩ := release_loop_gen hP s.NCACHE 0 hs hrel
  have hslot : ∀ x, s'.slot x = if release_hit ip (s.slot x) = true then {} else s.slot x := by
    intro x
    rw [b4 x]
    by_cases hh : release_hit ip (s.slot x) = true
    · have hxl : x < s.NCACHE := lt_of_valid s x ((release_hit_iff _ _).mp hh).1
      rw [if_pos ⟨Nat.zero_le _, by omega, hh⟩, if_pos hh]
    · rw [if_neg (fun e => hh e.2.2), if_neg hh]
  have hhit' : ∀ c, release_hit ip (s'.slot c) = false := by
    intro c
    rw [hslot c]
    split
    · rfl
    · rename_i hh
      simpa using hh
  obtain ⟨⟨L, hL⟩, _⟩ := id hs.1
  have hL' := b6 L hL
  have hd := release_loop_sameD _ _ hrel
  refine ⟨fun c hh => ?_, fun c hx => ?_, fun c hh => ⟨?_, ?_⟩, b2, fun c hh => ?_, ⟨L, hL, ?_⟩,
    fun j hj => ?_, b1⟩
  · have hxl : c < s.NCACHE := lt_of_valid s c ((release_hit_iff _ _).mp hh).1
    exact b5 c (Nat.zero_le _) (by omega) hh
  · have := hhit' c
    rw [(release_hit_iff _ _).mpr hx] at this
    cases this
  · rw [hslot c, if_pos hh]
  · intro i hi
    have hv := (hL'.2.2 c).mp (hL'.of_lruAt hi).2.2
    rw [hslot c, if_pos hh] at hv
    cases hv
  · rw [hslot c, if_neg (by rw [hh]; simp)]
  · have hcongr : L.filter (fun x => (s'.slot x).valid) =
        L.filter (fun c => !release_hit ip (s.slot c)) := by
      apply List.filter_congr
      intro x hx
      rw [hslot x]
      cases hh : release_hit ip (s.slot x) with
      | false => simp [(hL.2.2 x).mp hx]
      | true => simp
    rw [← hcongr]
    exact hL'
  · have h1 := hd.2 j hj
    have h2 := hosted_release b3 hslot j
    omega

theorem wReleased_run : ctable_release 4096 wWrote (some 1) = some wReleased := rfl

theorem C16_release_tears_down_matching_slots_witness :
    Sane 4096 wWrote ∧ release_hit (some 1) (wWrote.slot 0) = true ∧
    (wWrote.slot 0).dirty = true ∧
    ctable_release 4096 wWrote (some 1) = some wReleased ∧
    (∀ c, ¬ ((wReleased.slot c).valid = true ∧
      ((wReleased.slot c).host = some 1 ∨ some 1 = none))) ∧
    (∀ c, release_hit (some 1) (wWrote.slot c) = true →
      wReleased.slot c = {} ∧ ∀ i, wReleased.lruAt i ≠ some c) ∧
    (∀ j, j < wWrote.NINODE → (wReleased.ino j).ref = (wWrote.ino j).ref -
      (wWrote.cache.countP (fun w => release_hit (some 1) w && (w.host == some j)) : Nat)) :=
  ⟨(writei_spec (by decide) (by decide) w0_sane (by decide) (by decide) wWrote_run).1,
    by decide, by decide, wReleased_run,
    (C16_release_tears_down_matching_slots 4096 wWrote wReleased (some 1) (by decide)
      (writei_spec (by decide) (by decide) w0_sane (by decide) (by decide) wWrote_run).1
      wReleased_run).2.1,
    (C16_release_tears_down_matching_slots 4096 wWrote wReleased (some 1) (by decide)
      (writei_spec (by decide) (by decide) w0_sane (by decide) (by decide) wWrote_run).1
      wReleased_run).2.2.1,
    (C16_release_tears_down_matching_slots 4096 wWrote wReleased (some 1) (by decide)
      (writei_spec (by decide) (by decide) w0_sane (by decide) (by decide) wWrote_run).1
      wReleased_run).2.2.2.2.2.2.1⟩

/-! ## The size of the file during `writei` -/

theorem SizeKept.refl_sk (ip q : Nat) (s : KState) : SizeKept ip q s s :=
  ⟨Nat.le_refl _, fun _ _ h => ⟨rfl, h⟩⟩

theorem SizeKept.trans_sk {ip q : Nat} {a b c : KState} (h1 : SizeKept ip q a b)
    (h2 : SizeKept ip q b c) : SizeKept ip q a c := by
  refine ⟨Nat.le_trans h1.1 h2.1, fun hlt hq hnb => ?_⟩
  obtain ⟨e1, n1⟩ := h1.2 hlt hq hnb
  obtain ⟨e2, n2⟩ := h2.2 (by rw [e1]; exact hlt) (by rw [e1]; exact hq) (by rw [e1]; exact n1)
  exact ⟨e2.trans e1, by rw [e1] at n2; exact n2⟩

theorem SizeKept.weaken {ip q q' : Nat} {a b : KState} (h : SizeKept ip q a b) (hq : q ≤ q') :
    SizeKept ip q' a b :=
  ⟨h.1, fun hlt hq' hnb => h.2 hlt (Nat.le_trans hq hq') hnb⟩

/-- A step that leaves the size of the file of `ip` alone and creates no cached page of
`ip`. -/
theorem sizeKept_of_same {ip q : Nat} {s s' : KState}
    (hsz : (s'.ino ip).file.objsize = (s.ino ip).file.objsize)
    (hsl : ∀ c, (s'.slot c).host = some ip →
      (s.slot c).host = some ip ∧ (s'.slot c).offset = (s.slot c).offset) :
    SizeKept ip q s s' :=
  ⟨by rw [hsz], fun _ _ hnb => ⟨hsz, fun c hc => by
    obtain ⟨h1, h2⟩ := hsl c hc
    rw [h2]; exact hnb c h1⟩⟩

theorem sizeKept_of_eq {ip q : Nat} {s s' : KState} (hi : s'.inode = s.inode)
    (hc : s'.cache = s.cache) : SizeKept ip q s s' :=
  sizeKept_of_same (by rw [ino_congr hi]) (fun c h => by
    rw [slot_congr hc] at h ⊢
    exact ⟨h, rfl⟩)

theorem sizeKept_clear {ip q : Nat} {s s' : KState} {c : Nat} (hi : s'.inode = s.inode)
    (hc : s'.cache = s.cache.set c {}) : SizeKept ip q s s' :=
  sizeKept_of_same (by rw [ino_congr hi]) (fun c' h => by
    rw [slot_of_cache_set hc] at h ⊢
    split at h
    · cases h
    · rename_i hne
      rw [if_neg hne]
      exact ⟨h, rfl⟩)

theorem sizeKept_f_lseek (ip : Nat) (s : KState) (h o : Nat) :
    SizeKept ip (if h = ip then o else 0) s (f_lseek s h o).2 := by
  have hslot : ∀ c, (f_lseek s h o).2.slot c = s.slot c := (sameC_f_lseek s h o).slot
  unfold SizeKept NoneBeyond
  simp only [hslot]
  rw [f_lseek_ino]
  split
  · rename_i hc
    rw [← hc.2.1, if_pos rfl]
    refine ⟨Nat.le_max_left _ _, fun _ hq hnb => ⟨?_, hnb⟩⟩
    show max _ _ = _
    exact Nat.max_eq_left hq
  · exact ⟨Nat.le_refl _, fun _ _ hnb => ⟨rfl, hnb⟩⟩

theorem sizeKept_f_read (ip q : Nat) (s : KState) (h n : Nat) :
    SizeKept ip q s (f_read s h n).2.2.2 := by
  refine sizeKept_of_same ?_ (fun c hc => by
    rw [(sameC_f_read s h n).slot] at hc ⊢
    exact ⟨hc, rfl⟩)
  rw [f_read_ino]
  split
  · rename_i hc; rw [← hc.2.1]
  · rfl

theorem sizeKept_writeback {PGSIZE ip : Nat} {s s' : KState} {c : Nat} {r : Int}
    (h : cache_writeback PGSIZE s c = some (r, s')) : SizeKept ip 0 s s' := by
  obtain ⟨h', pg, hh, _, hcase⟩ := writeback_chain h
  rcases hcase with ⟨_, _, rfl⟩ | ⟨hk, rfl, _⟩
  · have := sizeKept_f_lseek ip s h' (s.slot c).offset
    refine ⟨this.1, fun hlt _ hnb => this.2 hlt ?_ hnb⟩
    split
    · rename_i e; subst e; exact hnb c hh
    · exact Nat.zero_le _
  · have hslot : ∀ d, (f_write (f_lseek s h' (s.slot c).offset).2 h' pg.data
        (min (usub (u32 (f_size ((f_lseek s h' (s.slot c).offset).2.ino h').file))
          (s.slot c).offset) PGSIZE)).2.2.slot d = s.slot d := fun d => by
      rw [(sameC_f_write _ _ _ _).slot, (sameC_f_lseek _ _ _).slot]
    rw [f_lseek_fst] at hk
    have hf := fault_of_ok hk
    unfold SizeKept NoneBeyond
    simp only [hslot]
    rw [f_write_ino]
    by_cases hip : h' = ip
    · subst hip
      by_cases hlt : h' < s.NINODE
      · have e1 : (f_lseek s h' (s.slot c).offset).2.ino h' =
            { s.ino h' with file := { (s.ino h').file with
              objsize := max (s.ino h').file.objsize (s.slot c).offset,
              fptr := (s.slot c).offset } } := by
          rw [f_lseek_ino, if_pos ⟨hf, rfl, hlt⟩]
        rw [e1]
        split
        · refine ⟨?_, fun h32 _ hnb => ⟨?_, hnb⟩⟩
          · show _ ≤ max (max _ _) _
            exact Nat.le_trans (Nat.le_max_left _ _) (Nat.le_max_left _ _)
          · have ho := hnb c hh
            show max (max (s.ino h').file.objsize (s.slot c).offset)
              ((s.slot c).offset + min (usub (u32 (f_size _)) (s.slot c).offset) PGSIZE) = _
            have hm : max (s.ino h').file.objsize (s.slot c).offset = (s.ino h').file.objsize :=
              Nat.max_eq_left ho
            show max (max (s.ino h').file.objsize (s.slot c).offset)
              ((s.slot c).offset + min (usub (u32 (max (s.ino h').file.objsize
                (s.slot c).offset)) (s.slot c).offset) PGSIZE) = _
            rw [hm, u32_eq h32, usub_eq ho h32]
            omega
        · refine ⟨?_, fun h32 _ hnb => ⟨?_, hnb⟩⟩
          · exact Nat.le_max_left _ _
          · exact Nat.max_eq_left (hnb c hh)
      · have e1 : (f_lseek s h' (s.slot c).offset).2.ino h' = s.ino h' := by
          rw [f_lseek_ino, if_neg (fun e => hlt e.2.2)]
        rw [if_neg (fun e => hlt (by rw [f_lseek_NINODE] at e; exact e.2.2)), e1]
        exact ⟨Nat.le_refl _, fun _ _ hnb => ⟨rfl, hnb⟩⟩
    · rw [if_neg (fun e => hip e.2.1), f_lseek_ino, if_neg (fun e => hip e.2.1)]
      exact ⟨Nat.le_refl _, fun _ _ hnb => ⟨rfl, hnb⟩⟩


theorem sizeKept_wb_ok {PGSIZE ip : Nat} {t s1 : KState} {c : Nat} (h : wb_ok PGSIZE t c s1) :
    SizeKept ip 0 t s1 := by
  unfold wb_ok at h
  split at h
  · exact sizeKept_writeback h
  · rw [h]; exact SizeKept.refl_sk _ _ _

theorem sizeKept_iput {ip q : Nat} {s s' : KState} {h : Nat} (hp : iput s h = some s') :
    SizeKept ip q s s' := by
  obtain ⟨_, _, _, heff⟩ := iput_effect hp
  refine sizeKept_of_same (by rw [(heff ip).2.1]) (fun c hc => ?_)
  rw [(sameC_iput hp).slot] at hc ⊢
  exact ⟨hc, rfl⟩

theorem sizeKept_evict_at {PGSIZE ip : Nat} {s s' : KState} {i c : Nat} {r : Int}
    (h : evict_at PGSIZE s i c = some (r, s')) : SizeKept ip 0 s s' := by
  obtain ⟨s1, h', s3, _, hwb, _, hput, rfl⟩ := evict_at_chain h
  have k1 : SizeKept ip 0 s s3 :=
    ((@sizeKept_of_eq ip 0 s (s.emit (Ev.evict c)) rfl rfl).trans_sk (sizeKept_wb_ok hwb)).trans_sk
      ((@sizeKept_of_eq ip 0 s1 (recycle_physical_page s1) rfl rfl).trans_sk (sizeKept_iput hput))
  exact k1.trans_sk (@sizeKept_clear ip 0 s3 (lru_compact (s3.setSlot c {}) i) c rfl rfl)

theorem sizeKept_evict {PGSIZE ip : Nat} {s s' : KState} {r : Int}
    (h : ctable_lru_evict PGSIZE s = some (r, s')) : SizeKept ip 0 s s' := by
  unfold ctable_lru_evict at h
  rcases evict_scan_cases h with ⟨_, h2, _⟩ | ⟨i, c, _, _, _, _, h5⟩
  · rw [h2]; exact SizeKept.refl_sk _ _ _
  · exact sizeKept_evict_at h5

theorem sizeKept_lru_add {PGSIZE ip : Nat} {s s' : KState} {c : Nat} {x : Int}
    (h : ctable_lru_add PGSIZE s c = some (x, s')) : SizeKept ip 0 s s' := by
  obtain ⟨s1, h1, h2⟩ := lru_add_chain h
  have k1 : SizeKept ip 0 s s1 := by
    rcases h1 with ⟨_, rfl⟩ | ⟨_, r, hev⟩
    · exact SizeKept.refl_sk _ _ _
    · exact sizeKept_evict hev
  rcases h2 with ⟨_, rfl⟩ | ⟨_, rfl⟩
  · exact k1
  · exact k1.trans_sk (sizeKept_of_eq rfl rfl)

/-- Claiming slot `c` for the page of `ip` at `q`. -/
theorem sizeKept_claim {ip q : Nat} {s s' : KState} {c : Nat} {pg : PhysPage}
    (hi : s'.inode = s.inode) (hc : s'.cache = s.cache.set c (claimed ip q pg)) :
    SizeKept ip q s s' := by
  refine ⟨by rw [ino_congr hi], fun _ hq hnb => ⟨by rw [ino_congr hi], fun c' h => ?_⟩⟩
  rw [slot_of_cache_set hc] at h ⊢
  split
  · exact hq
  · rename_i hne
    rw [if_neg hne] at h
    exact hnb c' h

theorem sizeKept_fill {PGSIZE ip : Nat} {s s' : KState} {c q : Nat} {r : Option Nat}
    (hc : c < s.NCACHE) (h : fill_slot PGSIZE s c ip q = some (r, s')) :
    SizeKept ip q s s' := by
  have k0 : SizeKept ip q s (fill_claim s c ip q) := sizeKept_claim rfl rfl
  have k1 : SizeKept ip q (fill_claim s c ip q) (f_lseek (fill_claim s c ip q) ip q).2 := by
    have := sizeKept_f_lseek ip (fill_claim s c ip q) ip q
    rw [if_pos rfl] at this
    exact this
  have k2 : SizeKept ip q (f_lseek (fill_claim s c ip q) ip q).2
      (fill_loaded PGSIZE (f_lseek (fill_claim s c ip q) ip q).2 c ip q) := by
    obtain ⟨pg, _, hpg⟩ := fill_loaded_cache PGSIZE (f_lseek (fill_claim s c ip q) ip q).2 c ip q
    have hcl : SizeKept ip q (f_read (f_lseek (fill_claim s c ip q) ip q).2 ip PGSIZE).2.2.2
        (fill_loaded PGSIZE (f_lseek (fill_claim s c ip q) ip q).2 c ip q) :=
      @sizeKept_claim ip q _ _ c pg rfl (by rw [hpg, (sameC_f_read _ _ _).1])
    exact (sizeKept_f_read ip q _ ip PGSIZE).trans_sk hcl
  rcases fill_slot_chain hc h with ⟨_, _, rfl⟩ | ⟨_, ⟨_, _, rfl⟩ | ⟨_, _, x, hadd⟩⟩
  · exact (k0.trans_sk k1).trans_sk (sizeKept_clear rfl rfl)
  · exact ((k0.trans_sk k1).trans_sk k2).trans_sk (sizeKept_clear rfl rfl)
  · refine ((k0.trans_sk k1).trans_sk k2).trans_sk ?_
    have kd : SizeKept ip q
        (fill_loaded PGSIZE (f_lseek (fill_claim s c ip q) ip q).2 c ip q)
        (idup (fill_loaded PGSIZE (f_lseek (fill_claim s c ip q) ip q).2 c ip q) ip) := by
      refine sizeKept_of_same ?_ (fun c' hc' => ⟨hc', rfl⟩)
      unfold idup
      rw [setIno_ino]
      split
      · rename_i hx; rw [← hx.1]
      · rfl
    exact kd.trans_sk ((sizeKept_lru_add hadd).weaken (Nat.zero_le _))

theorem sizeKept_acquire {PGSIZE : Nat} {s s' : KState} {ip q : Nat} {r : Option Nat}
    (ha : ctable_acquire PGSIZE s ip q = some (r, s')) : SizeKept ip q s s' := by
  unfold ctable_acquire at ha
  split at ha
  · cases ha
  · split at ha
    · cases ha
      exact sizeKept_of_eq (by unfold ctable_lru_adjust; dsimp only; split <;> rfl)
        (lru_adjust_cache _ _)
    · split at ha
      · rename_i c hc
        exact sizeKept_fill (find_slot_some hc).1 ha
      · split at ha
        · cases ha
        · rename_i x s1 hev
          have k1 : SizeKept ip q s s1 := (sizeKept_evict hev).weaken (Nat.zero_le _)
          split at ha
          · rename_i c hc
            exact k1.trans_sk (sizeKept_fill (find_slot_some hc).1 ha)
          · cases ha; exact k1

theorem copyin_slot (s : KState) (user_src : Bool) (c inpage : Nat) (src : Mem)
    (bufoff n : Nat) (c' : Nat) :
    ((either_copyin s user_src c inpage src bufoff n).2.slot c').host = (s.slot c').host ∧
    ((either_copyin s user_src c inpage src bufoff n).2.slot c').offset = (s.slot c').offset := by
  have hput : ∀ t : KState, (∀ d, (t.slot d).host = (s.slot d).host ∧
      (t.slot d).offset = (s.slot d).offset) →
      ((match (t.slot c).page with
        | some pg => t.setSlot c { t.slot c with
            page := some { pg with data := blit pg.data inpage src bufoff n } }
        | none => t).slot c').host = (s.slot c').host ∧
      ((match (t.slot c).page with
        | some pg => t.setSlot c { t.slot c with
            page := some { pg with data := blit pg.data inpage src bufoff n } }
        | none => t).slot c').offset = (s.slot c').offset := by
    intro t ht
    split
    · rw [setSlot_slot]
      split
      · rename_i hx
        rw [← hx.1]
        exact ht c
      · exact ht c'
    · exact ht c'
  unfold either_copyin
  dsimp only
  split
  · split
    · exact ⟨by simp, by simp⟩
    · exact hput _ (fun d => ⟨by simp, by simp⟩)
  · exact hput _ (fun d => ⟨rfl, rfl⟩)

/-- The body of the loop of `writei` after the acquisition: the copy and the dirty flag. -/
theorem sizeKept_copy (ip : Nat) (s : KState) (user_src : Bool) (c inpage : Nat) (src : Mem)
    (bufoff n : Nat) :
    SizeKept ip 0 s (either_copyin s user_src c inpage src bufoff n).2 ∧
    SizeKept ip 0 s ((either_copyin s user_src c inpage src bufoff n).2.setSlot c
      { (either_copyin s user_src c inpage src bufoff n).2.slot c with dirty := true }) := by
  have hi := copyin_inode s user_src c inpage src bufoff n
  refine ⟨sizeKept_of_same (by rw [ino_congr hi]) (fun c' h => ?_),
    sizeKept_of_same (by rw [setSlot_ino, ino_congr hi]) (fun c' h => ?_)⟩
  · obtain ⟨h1, h2⟩ := copyin_slot s user_src c inpage src bufoff n c'
    rw [h1] at h
    exact ⟨h, h2⟩
  · rw [setSlot_slot] at h ⊢
    obtain ⟨h1, h2⟩ := copyin_slot s user_src c inpage src bufoff n c'
    split
    · rename_i hx
      rw [if_pos hx] at h
      obtain ⟨h3, h4⟩ := copyin_slot s user_src c inpage src bufoff n c
      rw [← hx.1]
      exact ⟨h3 ▸ h, h4⟩
    · rename_i hx
      rw [if_neg hx] at h
      rw [h1] at h
      exact ⟨h, h2⟩


/-- The loop of `writei` keeps the size of the file when the range lies within it. -/
theorem writei_loop_size {PGSIZE : Nat} (hP : 0 < PGSIZE) (hP32 : PGSIZE < 2 ^ 32) {ip : Nat}
    {user_src : Bool} {src : Mem} {n_dup : Nat} (fuel : Nat) {s s' : KState}
    {bufoff off len : Nat} {r : Int} (hrange : off + len < 2 ^ 32)
    (h : writei_loop PGSIZE ip user_src src n_dup fuel s bufoff off len = some (r, s')) :
    SizeKept ip (off + len) s s' := by
  induction fuel generalizing s bufoff off len with
  | zero =>
    rw [writei_loop] at h
    split at h
    · cases h; exact SizeKept.refl_sk _ _ _
    · cases h
  | succ fuel ih =>
    by_cases hlen : len = 0
    · subst hlen
      rw [writei_loop_zero] at h
      cases h
      exact SizeKept.refl_sk _ _ _
    · obtain ⟨ro, s1, ha, hcase⟩ := writei_loop_step hlen h
      have hle := PGROUNDDOWN_le PGSIZE off
      have hlt := lt_PGROUNDDOWN_add hP off
      have k1 : SizeKept ip (off + len) s s1 := (sizeKept_acquire ha).weaken (by omega)
      obtain ⟨_, hch⟩ := @chunk_eq PGSIZE off len hP hP32 (by omega) (by omega)
      rcases hcase with ⟨_, _, rfl⟩ | ⟨c, _, hcp⟩
      · exact k1
      · rcases hcp with ⟨_, _, rfl⟩ | ⟨_, hrec⟩
        · exact k1.trans_sk ((sizeKept_copy ip s1 user_src c _ src bufoff _).1.weaken
            (Nat.zero_le _))
        · have k2 := ((sizeKept_copy ip s1 user_src c (usub off (PGROUNDDOWN PGSIZE off)) src
            bufoff (chunk PGSIZE off len)).2).weaken (Nat.zero_le (off + len))
          by_cases hrest : len - chunk PGSIZE off len = 0
          · rw [hrest, writei_loop_zero] at hrec
            cases hrec
            exact k1.trans_sk k2
          · have hc2 : chunk PGSIZE off len = PGROUNDDOWN PGSIZE off + PGSIZE - off := by
              rw [hch]; omega
            have hu : u32 (PGROUNDDOWN PGSIZE off + PGSIZE) = PGROUNDDOWN PGSIZE off + PGSIZE :=
              u32_eq (by omega)
            rw [hu] at hrec
            have k3 := ih (by omega) hrec
            have e : PGROUNDDOWN PGSIZE off + PGSIZE + (len - chunk PGSIZE off len) =
                off + len := by omega
            rw [e] at k3
            exact (k1.trans_sk k2).trans_sk k3

/-- C17, as amended: for `n > 0` and `off + n < 2^32`, after `writei(ip, _, src, off, n)`
has returned `n`, the lower-FS size of the file of `ip` is at least `max(old size,
off + n)`; it is exactly that when the old size is a `uint` and no cache slot holds a page
of `ip` that starts beyond `max(old size, off + n)`; and for a regular file or a device
`stati` returns 0 and reports that size as `st_size`, which is at least `off + n`. -/
theorem C17_size_after_writei (C : StatConsts) (PGSIZE : Nat) (s s' : KState) (ip off n : Nat)
    (user_src : Bool) (src : Mem) (hP : 0 < PGSIZE) (hP32 : PGSIZE < 2 ^ 32)
    (hip : ip < s.NINODE) (hn : 0 < n) (hoff : off + n < 2 ^ 32)
    (hw : writei PGSIZE s ip user_src src off n = some ((n : Int), s')) :
    max (s.ino ip).file.objsize (off + n) ≤ (s'.ino ip).file.objsize ∧
    ((s.ino ip).file.objsize < 2 ^ 32 →
      NoneBeyond s ip (max (s.ino ip).file.objsize (off + n)) →
      (s'.ino ip).file.objsize = max (s.ino ip).file.objsize (off + n)) ∧
    (((s.ino ip).type = T_FILE ∨ (s.ino ip).type = T_DEVICE) →
      (stati C s' ip).1 = 0 ∧ (stati C s' ip).2.st_size = (s'.ino ip).file.objsize ∧
      off + n ≤ (stati C s' ip).2.st_size) := by
  have hk := keep_writei hw
  have hn0 : (n : Int) ≠ 0 := by omega
  have hu : u32 (off + n) = off + n := u32_eq hoff
  -- the state after the growth of the file
  obtain ⟨s1, hs1, hloop⟩ : ∃ s1,
      ((s1.ino ip).file.objsize = max (s.ino ip).file.objsize (off + n) ∧
        ∀ c, s1.slot c = s.slot c) ∧
      writei_loop PGSIZE ip user_src src n n s1 0 off n = some ((n : Int), s') := by
    unfold writei at hw
    rw [hu] at hw
    dsimp only at hw
    unfold f_size at hw
    by_cases hg : off + n > (s.ino ip).file.objsize
    · rw [if_pos hg] at hw
      by_cases hf : (f_lseek s ip (off + n)).1 = FRESULT.FR_OK
      · rw [if_neg (by rw [hf]; simp)] at hw
        refine ⟨_, ⟨?_, (sameC_f_lseek _ _ _).slot⟩, hw⟩
        rw [f_lseek_fst] at hf
        rw [f_lseek_ino, if_pos ⟨fault_of_ok hf, rfl, hip⟩]
      · rw [if_pos hf] at hw
        dsimp only at hw
        have := (Option.some.inj hw)
        have h0 : (0 : Int) = (n : Int) := congrArg Prod.fst this
        omega
    · rw [if_neg hg] at hw
      refine ⟨s, ⟨?_, fun _ => rfl⟩, hw⟩
      rw [Nat.max_eq_left (by omega)]
  have hM : off + n ≤ (s1.ino ip).file.objsize := by rw [hs1.1]; exact Nat.le_max_right _ _
  have ksz : SizeKept ip (0 + off + n) s1 s' := by
    have := writei_loop_size hP hP32 n hoff hloop
    rw [Nat.zero_add]
    exact this
  rw [Nat.zero_add] at ksz
  have hge : max (s.ino ip).file.objsize (off + n) ≤ (s'.ino ip).file.objsize := by
    rw [← hs1.1]; exact ksz.1
  refine ⟨hge, fun hsz hnb => ?_, fun hty => ?_⟩
  · rw [← hs1.1]
    refine (ksz.2 (by rw [hs1.1]; exact Nat.max_lt.mpr ⟨hsz, hoff⟩) hM ?_).1
    intro c hc
    rw [hs1.2 c] at hc ⊢
    rw [hs1.1]
    exact hnb c hc
  · have hty' : (s'.ino ip).type = T_FILE ∨ (s'.ino ip).type = T_DEVICE := by
      rw [(hk.2 ip).2.2.1]; exact hty
    have hsize : (stati C s' ip).2.st_size = (s'.ino ip).file.objsize := by
      unfold stati f_size
      rcases hty' with h1 | h1
      · rw [h1]; rfl
      · rw [h1]; rfl
    refine ⟨rfl, hsize, ?_⟩
    rw [hsize]
    exact Nat.le_trans (Nat.le_max_right _ _) hge

theorem wStale1Wrote_run :
    writei 4096 wStale1 1 false wHello 0 5 = some (5, wStale1Wrote) := rfl

theorem wSeekFailed_run :
    writei 4096 wSeekFails 1 false wHello 10 0 = some (0, wSeekFailed) := rfl

/-- C17 as stated fails in two ways.  With `n = 0`, a `writei` whose seek to `off` fails
returns 0, which is `n`, and the file still has its old size 0, below `off + n = 10`, as
`stati` reports.  And with a stale page of the file in the cache (offset 4096, left by
`itrunc`), `writei(ip, kernel, "hello", 0, 5)` returns 5 after evicting that page, whose
write-back has extended the file to 4096 bytes, not `max(0, 5)`. -/
theorem C17_size_is_not_max_after_failed_seek_or_stale_page :
    (writei 4096 wSeekFails 1 false wHello 10 0 = some (((0 : Nat) : Int), wSeekFailed) ∧
      (wSeekFails.ino 1).file.objsize = 0 ∧ (wSeekFailed.ino 1).file.objsize = 0 ∧
      (wSeekFailed.ino 1).file.objsize ≠ max (wSeekFails.ino 1).file.objsize (10 + 0) ∧
      (stati wSC wSeekFailed 1).2.st_size < 10 + 0) ∧
    ((wStale1.slot 0).valid = true ∧ (wStale1.slot 0).host = some 1 ∧
      (wStale1.slot 0).offset = 4096 ∧ (wStale1.ino 1).file.objsize = 0 ∧
      writei 4096 wStale1 1 false wHello 0 5 = some (((5 : Nat) : Int), wStale1Wrote) ∧
      (wStale1Wrote.ino 1).file.objsize = 4096 ∧
      (wStale1Wrote.ino 1).file.objsize ≠ max (wStale1.ino 1).file.objsize (0 + 5)) :=
  ⟨⟨wSeekFailed_run, by decide, by decide, by decide, by decide⟩,
    ⟨by decide, by decide, by decide, by decide, wStale1Wrote_run, by decide, by decide⟩⟩

theorem w0_none_beyond : NoneBeyond w0 1 (max (w0.ino 1).file.objsize (0 + 5)) := by
  intro c hc
  rcases c with _ | _ | c
  · cases hc
  · cases hc
  · rw [slot_default_of_ge w0 (c + 2) (by show 2 ≤ c + 2; omega)] at hc
    cases hc

theorem C17_size_after_writei_witness :
    writei 4096 w0 1 false wHello 0 5 = some (5, wWrote) ∧
    max (w0.ino 1).file.objsize (0 + 5) ≤ (wWrote.ino 1).file.objsize ∧
    (wWrote.ino 1).file.objsize = max (w0.ino 1).file.objsize (0 + 5) ∧
    ((stati wSC wWrote 1).1 = 0 ∧ (stati wSC wWrote 1).2.st_size = (wWrote.ino 1).file.objsize ∧
      0 + 5 ≤ (stati wSC wWrote 1).2.st_size) :=
  ⟨wWrote_run,
    (C17_size_after_writei wSC 4096 w0 wWrote 1 0 5 false wHello (by decide) (by decide)
      (by decide) (by decide) (by decide) wWrote_run).1,
    (C17_size_after_writei wSC 4096 w0 wWrote 1 0 5 false wHello (by decide) (by decide)
      (by decide) (by decide) (by decide) wWrote_run).2.1 (by decide) w0_none_beyond,
    (C17_size_after_writei wSC 4096 w0 wWrote 1 0 5 false wHello (by decide) (by decide)
      (by decide) (by decide) (by decide) wWrote_run).2.2 (Or.inl (by decide))⟩

/-! ## Path uniqueness in the inode table -/

theorem gBootL_init : GInit gBootL :=
  ⟨⟨rfl, rfl⟩, fun i => by
    show (gBootL.k.ino i).ref = 0
    unfold KState.ino gBootL
    simp only [List.getD_eq_getElem?_getD]
    rcases i with _ | _ | _ | _ | i <;> rfl, fun _ => rfl⟩

/-- C18 (evaluation at the failing input): from the boot state (every inode slot free), the
run `iget_root; dirlookup(root, "b"); dirlookup(root, "l")`, where `/l` holds a symlink
record with target `/b`, completes and leaves the inode slots 1 and 2 both live with the
same device and the same path `/b`: the slot filled through the symlink takes the path of
the target without a look at the table.  And the run `gRootOps` followed by `iget_root`
leaves the slots 0 and 2 both live with the path `/`. -/
theorem C18_two_live_slots_hold_one_path :
    GInit gBootL ∧
    (grun wK 4096 gLinkOps gBootL).map
      (fun g => ((g.k.ino 1).ref, (g.k.ino 1).dev, (g.k.ino 1).path,
        (g.k.ino 2).ref, (g.k.ino 2).dev, (g.k.ino 2).path)) =
      some (1, 1, "/b", 1, 1, "/b") ∧
    (grun wK 4096 (gRootOps ++ [Op.iget_root]) gBootL).map
      (fun g => ((g.k.ino 0).ref, (g.k.ino 0).dev, (g.k.ino 0).path,
        (g.k.ino 2).ref, (g.k.ino 2).dev, (g.k.ino 2).path)) =
      some (1, 1, "/", 1, 1, "/") :=
  ⟨gBootL_init, by decide, by decide⟩

theorem gRootLater_run : grun wK 4096 gRootOps gBootL = some gRootLater := rfl

/-- C19 (evaluation at the failing input): in the state reached from boot by `gRootOps` the
inode slot 2 is live with device `ROOTDEV` and path `/`, and slot 0 is free.  `iget_root`
does not return slot 2: it stops at the free slot 0, opens `/` there with `f_opendir` and
returns slot 0 with `ref` 1, leaving the `ref` of slot 2 at 1; a second slot has become
live with the path `/`. -/
theorem C19_iget_root_stops_at_free_slot_before_live_root :
    grun wK 4096 gRootOps gBootL = some gRootLater ∧
    (gRootLater.k.ino 0).ref = 0 ∧
    ((gRootLater.k.ino 2).ref = 1 ∧ (gRootLater.k.ino 2).dev = wK.ROOTDEV ∧
      (gRootLater.k.ino 2).path = "/") ∧
    (iget_root wK gRootLater.k).map
      (fun r => (r.1, (r.2.ino 0).ref, (r.2.ino 0).type, (r.2.ino 0).path, (r.2.ino 2).ref)) =
      some (0, 1, T_DIR, "/", 1) ∧
    (iget_root wK gRootLater.k).map (fun r => r.2.log.drop gRootLater.k.log.length) =
      some [Ev.f_opendir 0 "/"] :=
  ⟨gRootLater_run, by decide, ⟨by decide, by decide, by decide⟩, by decide, by decide⟩

/-! ## `stati` -/

theorem roundup_blocks (a b : Nat) (hb : 0 < b) :
    a ≤ ROUNDUP a b / b * b ∧ ∀ k, a ≤ k * b → ROUNDUP a b / b ≤ k := by
  unfold ROUNDUP
  rw [Nat.mul_div_cancel _ hb]
  constructor
  · have h1 := Nat.div_add_mod (a + b - 1) b
    have h2 := Nat.mod_lt (a + b - 1) hb
    have h3 : b * ((a + b - 1) / b) = (a + b - 1) / b * b := Nat.mul_comm _ _
    omega
  · intro k hk
    have : (a + b - 1) / b < k + 1 := by
      rw [Nat.div_lt_iff_lt_mul hb]
      have : (k + 1) * b = k * b + b := by ring
      omega
    omega

/-- C30: `stati` always returns 0; it fills `st_dev = ip->dev`, `st_nlink = 1`,
`st_blksize = BSIZE`, mode and size `(S_IFDIR, 4)` for a directory, `(S_IFREG, f_size)` for a
regular file and `(S_IFCHR, f_size)` for a device, and `st_blocks`, which for a positive
`BSIZE` is the least `b` with `b * BSIZE >= st_size`; every other field of the record is
zero. -/
theorem C30_stati_fills_the_record (C : StatConsts) (s : KState) (ip : Nat) :
    (stati C s ip).1 = 0 ∧
    (stati C s ip).2.st_dev = (s.ino ip).dev ∧
    (stati C s ip).2.st_nlink = 1 ∧
    (stati C s ip).2.st_blksize = C.BSIZE ∧
    ((s.ino ip).type = T_DIR →
      (stati C s ip).2.st_mode = C.S_IFDIR ∧ (stati C s ip).2.st_size = 4) ∧
    ((s.ino ip).type = T_FILE →
      (stati C s ip).2.st_mode = C.S_IFREG ∧
      (stati C s ip).2.st_size = f_size (s.ino ip).file) ∧
    ((s.ino ip).type = T_DEVICE →
      (stati C s ip).2.st_mode = C.S_IFCHR ∧
      (stati C s ip).2.st_size = f_size (s.ino ip).file) ∧
    (0 < C.BSIZE →
      (stati C s ip).2.st_size ≤ (stati C s ip).2.st_blocks * C.BSIZE ∧
      ∀ b, (stati C s ip).2.st_size ≤ b * C.BSIZE → (stati C s ip).2.st_blocks ≤ b) ∧
    (stati C s ip).2.others = 0 := by
  have hT1 : T_DIR ≠ T_FILE := by decide
  have hT2 : T_DIR ≠ T_DEVICE := by decide
  have hT3 : T_FILE ≠ T_DEVICE := by decide
  refine ⟨rfl, ?_, ?_, ?_, ?_, ?_, ?_, ?_, ?_⟩
  · unfold stati; dsimp only; split_ifs <;> rfl
  · unfold stati; dsimp only; split_ifs <;> rfl
  · unfold stati; dsimp only; split_ifs <;> rfl
  · intro h; unfold stati; dsimp only; rw [if_pos h]; exact ⟨rfl, rfl⟩
  · intro h
    unfold stati; dsimp only
    rw [if_neg (by rw [h]; exact fun x => hT1 x.symm), if_pos h]; exact ⟨rfl, rfl⟩
  · intro h
    unfold stati; dsimp only
    rw [if_neg (by rw [h]; exact fun x => hT2 x.symm),
      if_neg (by rw [h]; exact fun x => hT3 x.symm), if_pos h]; exact ⟨rfl, rfl⟩
  · intro hb
    have key : (stati C s ip).2.st_blocks =
        ROUNDUP (stati C s ip).2.st_size C.BSIZE / C.BSIZE := by
      unfold stati; dsimp only
    rw [key]
    exact roundup_blocks _ _ hb
  · unfold stati; dsimp only; split_ifs <;> rfl

theorem C30_stati_fills_the_record_witness :
    (wWrote.ino 1).type = T_FILE ∧ 0 < wSC.BSIZE ∧
    ((stati wSC wWrote 1).2.st_mode = 32768 ∧ (stati wSC wWrote 1).2.st_size = 5) ∧
    (stati wSC wWrote 1).2.st_blocks = 1 ∧
    ((stati wSC wWrote 1).2.st_size ≤ (stati wSC wWrote 1).2.st_blocks * wSC.BSIZE ∧
      ∀ b, (stati wSC wWrote 1).2.st_size ≤ b * wSC.BSIZE →
        (stati wSC wWrote 1).2.st_blocks ≤ b) :=
  ⟨by decide, by decide,
    by
      have h := (C30_stati_fills_the_record wSC wWrote 1).2.2.2.2.2.1 (by decide)
      refine ⟨h.1, ?_⟩
      rw [h.2]
      decide,
    by decide,
    (C30_stati_fills_the_record wSC wWrote 1).2.2.2.2.2.2.2.1 (by decide)⟩

/-! ## The setters of the deferred operations -/

theorem set_run_effect (ip : Nat) (ops : List Setter) (s : KState) (hip : ip < s.NINODE) :
    (set_run ip ops s).NINODE = s.NINODE ∧
    (set_run ip ops s).ino ip = { s.ino ip with
      unlinked := if Setter.iunlink ∈ ops then 1 else (s.ino ip).unlinked,
      new_path := last_rename (s.ino ip).new_path ops } ∧
    (∀ j, j ≠ ip → (set_run ip ops s).ino j = s.ino j) ∧
    (set_run ip ops s).log = s.log ∧ (set_run ip ops s).faults = s.faults ∧
    (set_run ip ops s).disk = s.disk ∧ (set_run ip ops s).cache = s.cache ∧
    (set_run ip ops s).lru = s.lru := by
  induction ops generalizing s with
  | nil => exact ⟨rfl, by simp [set_run, last_rename], fun _ _ => rfl, rfl, rfl, rfl, rfl, rfl⟩
  | cons o r ih =>
    cases o with
    | iunlink =>
      have hn : (iunlink s ip).2.NINODE = s.NINODE := by simp [iunlink]
      have hi : (iunlink s ip).2.ino ip = { s.ino ip with unlinked := 1 } := by
        simp only [iunlink]; rw [setIno_ino, if_pos ⟨rfl, hip⟩]
      obtain ⟨a, b, c, d, e, f, g, h⟩ := ih (iunlink s ip).2 (by rw [hn]; exact hip)
      refine ⟨by rw [set_run, a, hn], ?_, fun j hj => ?_, by rw [set_run, d]; rfl,
        by rw [set_run, e]; rfl, by rw [set_run, f]; rfl, by rw [set_run, g]; rfl,
        by rw [set_run, h]; rfl⟩
      · rw [set_run, b, hi]
        by_cases hm : Setter.iunlink ∈ r <;> simp [hm, last_rename]
      · rw [set_run, c j hj]
        simp only [iunlink]; rw [setIno_ino, if_neg (fun x => hj x.1.symm)]
    | irename p =>
      have hn : (irename s ip p).2.NINODE = s.NINODE := by simp [irename]
      have hi : (irename s ip p).2.ino ip = { s.ino ip with new_path := p } := by
        simp only [irename]; rw [setIno_ino, if_pos ⟨rfl, hip⟩]
      obtain ⟨a, b, c, d, e, f, g, h⟩ := ih (irename s ip p).2 (by rw [hn]; exact hip)
      refine ⟨by rw [set_run, a, hn], ?_, fun j hj => ?_, by rw [set_run, d]; rfl,
        by rw [set_run, e]; rfl, by rw [set_run, f]; rfl, by rw [set_run, g]; rfl,
        by rw [set_run, h]; rfl⟩
      · rw [set_run, b, hi]
        by_cases hm : Setter.iunlink ∈ r <;> simp [hm, last_rename]
      · rw [set_run, c j hj]
        simp only [irename]; rw [setIno_ino, if_neg (fun x => hj x.1.symm)]

/-- C21 (as amended): `iunlink` and `irename` each store into their own field and touch
nothing else.  After any sequence of calls on an inode slot, `unlinked` is 1 if `iunlink` was
among them (else as before), `new_path` is the argument of the last `irename` (else as
before), and every other field and slot is as before; so both can be set together.  The
`iput` that then finds `ref == 1` with `unlinked` set issues the close and `f_unlink(path)`,
and no `f_rename`, whatever `new_path` is; it does return when no external call fails. -/
theorem C21_setters_store_their_own_field_only (s : KState) (ip : Nat) (ops : List Setter)
    (hip : ip < s.NINODE) :
    (set_run ip ops s).ino ip = { s.ino ip with
      unlinked := if Setter.iunlink ∈ ops then 1 else (s.ino ip).unlinked,
      new_path := last_rename (s.ino ip).new_path ops } ∧
    (∀ j, j ≠ ip → (set_run ip ops s).ino j = s.ino j) ∧
    ((s.ino ip).ref = 1 → ((set_run ip ops s).ino ip).unlinked ≠ 0 →
      (∀ s', iput (set_run ip ops s) ip = some s' →
        s'.log = s.log ++
          [if (s.ino ip).type = T_DIR then Ev.f_closedir ip else Ev.f_close ip,
           Ev.f_unlink (s.ino ip).path]) ∧
      (s.faults = [] → ∃ s', iput (set_run ip ops s) ip = some s')) := by
  obtain ⟨_, b, c, d, e, _⟩ := set_run_effect ip ops s hip
  refine ⟨b, c, fun hr hu => ⟨fun s' h => ?_, fun hnf => ?_⟩⟩
  · rw [iput_log h, d]
    unfold iput_calls
    have h1 : ((set_run ip ops s).ino ip).ref = 1 := by rw [b]; exact hr
    have h2 : ((set_run ip ops s).ino ip).type = (s.ino ip).type := by rw [b]
    have h3 : ((set_run ip ops s).ino ip).path = (s.ino ip).path := by rw [b]
    rw [if_pos h1, if_pos hu, h2, h3]
  · have h1 : ((set_run ip ops s).ino ip).ref = 1 := by rw [b]; exact hr
    obtain ⟨s', h, _⟩ := @iput_total (set_run ip ops s) ip (by rw [e]; exact hnf)
      (by omega) (Or.inr (Or.inl hu))
    exact ⟨s', h⟩

theorem C21_setters_store_their_own_field_only_witness :
    1 < w0.NINODE ∧
    ((set_run 1 [Setter.iunlink, Setter.irename "/b.txt"] w0).ino 1 = { w0.ino 1 with
      unlinked := if Setter.iunlink ∈ [Setter.iunlink, Setter.irename "/b.txt"] then 1
        else (w0.ino 1).unlinked,
      new_path := last_rename (w0.ino 1).new_path [Setter.iunlink, Setter.irename "/b.txt"] } ∧
    (∀ j, j ≠ 1 → (set_run 1 [Setter.iunlink, Setter.irename "/b.txt"] w0).ino j = w0.ino j) ∧
    ((w0.ino 1).ref = 1 →
      ((set_run 1 [Setter.iunlink, Setter.irename "/b.txt"] w0).ino 1).unlinked ≠ 0 →
      (∀ s', iput (set_run 1 [Setter.iunlink, Setter.irename "/b.txt"] w0) 1 = some s' →
        s'.log = w0.log ++
          [if (w0.ino 1).type = T_DIR then Ev.f_closedir 1 else Ev.f_close 1,
           Ev.f_unlink (w0.ino 1).path]) ∧
      (w0.faults = [] →
        ∃ s', iput (set_run 1 [Setter.iunlink, Setter.irename "/b.txt"] w0) 1 = some s'))) ∧
    (w0.ino 1).ref = 1 ∧
    ((set_run 1 [Setter.iunlink, Setter.irename "/b.txt"] w0).ino 1).unlinked ≠ 0 ∧
    w0.faults = [] ∧
    ((iput (set_run 1 [Setter.iunlink, Setter.irename "/b.txt"] w0) 1).map (fun t => t.log)) =
      some [Ev.f_close 1, Ev.f_unlink "/a.txt"] :=
  ⟨by decide,
    C21_setters_store_their_own_field_only w0 1 [Setter.iunlink, Setter.irename "/b.txt"]
      (by decide),
    by decide, by decide, by decide, by decide⟩

/-- C21 (counterexample): on the live inode slot 1 of `w0`, `iunlink` followed by
`irename(ip, "/b.txt")` leaves `unlinked` set and `new_path` non-empty together, and so does
`irename` followed by `iunlink`. -/
theorem C21_unlinked_and_new_path_set_together :
    (w0.ino 1).ref > 0 ∧
    (((irename (iunlink w0 1).2 1 "/b.txt").2.ino 1).unlinked = 1 ∧
      ((irename (iunlink w0 1).2 1 "/b.txt").2.ino 1).new_path = "/b.txt") ∧
    (((iunlink (irename w0 1 "/b.txt").2 1).2.ino 1).unlinked = 1 ∧
      ((iunlink (irename w0 1 "/b.txt").2 1).2.ino 1).new_path = "/b.txt") ∧
    (irename (iunlink w0 1).2 1 "/b.txt").1 = 0 ∧ (iunlink w0 1).1 = 0 := by
  decide

/-! ## `icreate` of a path that is open -/

theorem ref_pos_lt {s : KState} {j : Nat} (h : (s.ino j).ref > 0) : j < s.NINODE := by
  by_contra hge
  rw [ino_default_of_ge s j (Nat.le_of_not_lt hge)] at h
  simp at h

theorem firstMatch_exists {K : Consts} {s : KState} {path : String} {j : Nat}
    (h : (s.ino j).ref > 0 ∧ (s.ino j).dev = K.ROOTDEV ∧ (s.ino j).path = path) :
    ∃ i, i ≤ j ∧ FirstMatch K s path i := by
  classical
  have hex : ∃ i, (s.ino i).ref > 0 ∧ (s.ino i).dev = K.ROOTDEV ∧ (s.ino i).path = path :=
    ⟨j, h⟩
  refine ⟨Nat.find hex, Nat.find_le h, ref_pos_lt (Nat.find_spec hex).1, Nat.find_spec hex,
    fun k hk => Nat.find_min hex hk⟩

theorem icreate_found {K : Consts} {s : KState} {dp i : Nat} {name : String}
    (type : Nat) (major minor : Int) (hdp : (s.ino dp).type = T_DIR)
    (hm : FirstMatch K s (child_path (s.ino dp).path name) i) :
    icreate K s dp name type major minor =
      some (some i, s.setIno i { s.ino i with ref := (s.ino i).ref + 1 }) := by
  unfold icreate
  rw [if_neg (by simp [hdp])]
  dsimp only
  rw [scan_path_inl_iff.mpr hm]

/-- C26: when a slot with `ref > 0` holds the path built from `dp` and `name`,
`icreate(dp, name, type, major, minor)` returns such a slot (the first of the table, hence
that slot when no other holds the path) with `ref` increased by one, issues no lower-FS call
(the log and the lower FS are as before) and changes no other field of any slot, whatever
the type; and after `icreate` of a new `T_FILE` name returned a slot, a second `icreate` of
the same name returns the same slot, with `ref` 2 and without a lower-FS call. -/
theorem C26_icreate_reopens_the_live_slot (K : Consts) (s : KState) (dp : Nat) (name : String)
    (hdp : (s.ino dp).type = T_DIR) :
    (∀ (j type : Nat) (major minor : Int),
      ((s.ino j).ref > 0 ∧ (s.ino j).dev = K.ROOTDEV ∧
        (s.ino j).path = child_path (s.ino dp).path name) →
      ∃ i s', icreate K s dp name type major minor = some (some i, s') ∧
        ((s.ino i).ref > 0 ∧ (s.ino i).dev = K.ROOTDEV ∧
          (s.ino i).path = child_path (s.ino dp).path name) ∧
        ((∀ k, k ≠ j → ¬ ((s.ino k).ref > 0 ∧ (s.ino k).dev = K.ROOTDEV ∧
          (s.ino k).path = child_path (s.ino dp).path name)) → i = j) ∧
        s'.ino i = { s.ino i with ref := (s.ino i).ref + 1 } ∧
        (∀ k, k ≠ i → s'.ino k = s.ino k) ∧
        s'.log = s.log ∧ s'.disk = s.disk ∧ s'.cache = s.cache ∧ s'.lru = s.lru ∧
        s'.faults = s.faults) ∧
    (∀ (ip : Nat) (s1 : KState) (major minor major2 minor2 : Int),
      (s.ino dp).ref > 0 →
      (∀ k, ¬ ((s.ino k).ref > 0 ∧ (s.ino k).dev = K.ROOTDEV ∧
        (s.ino k).path = child_path (s.ino dp).path name)) →
      icreate K s dp name T_FILE major minor = some (some ip, s1) →
      (s1.ino ip).ref = 1 ∧
      ∃ s2, icreate K s1 dp name T_FILE major2 minor2 = some (some ip, s2) ∧
        (s2.ino ip).ref = 2 ∧ s2.log = s1.log ∧ s2.disk = s1.disk ∧
        (∀ k, k ≠ ip → s2.ino k = s1.ino k)) := by
  constructor
  · intro j type major minor hj
    obtain ⟨i, hij, hm⟩ := firstMatch_exists hj
    have hi : i < s.NINODE := hm.1
    refine ⟨i, _, icreate_found type major minor hdp hm, hm.2.1, fun hu => ?_, ?_,
      fun k hk => ?_, rfl, rfl, rfl, rfl, rfl⟩
    · by_contra hne
      exact hu i hne hm.2.1
    · rw [setIno_ino, if_pos ⟨rfl, hi⟩]
    · rw [setIno_ino, if_neg (fun x => hk x.1.symm)]
  · intro ip s1 major minor major2 minor2 hdpr hnew h1
    rcases icreate_file_cases h1 with ⟨hscan, _⟩ | ⟨hscan, hok, rfl⟩
    · exact absurd (scan_path_inl_iff.mp hscan).2.1 (hnew ip)
    · obtain ⟨he, href⟩ := scan_path_inr hscan
      have hne : ip ≠ dp := by
        intro hx; rw [hx] at href; omega
      obtain ⟨_, _, hn, hino⟩ := f_open_create hok
      have hino1 : ∀ k, (open_slot K (f_open s ip (child_path (s.ino dp).path name) true).2 ip
          T_FILE (child_path (s.ino dp).path name)).ino k =
          if ip = k then
            { s.ino ip with
              file := { objsize := 0, data := zeroMem, fptr := 0,
                        path := child_path (s.ino dp).path name },
              dev := K.ROOTDEV, ref := 1, type := T_FILE,
              path := child_path (s.ino dp).path name, unlinked := 0, new_path := "" }
          else s.ino k := by
        intro k
        rw [open_slot_ino, hn, hino, hino]
        by_cases hk : ip = k
        · rw [if_pos ⟨hk, he⟩, if_pos hk, if_pos ⟨rfl, he⟩]
        · rw [if_neg (fun x => hk x.1), if_neg hk, if_neg (fun x => hk x.1)]
      have hdp1 := hino1 dp
      rw [if_neg hne] at hdp1
      have hip1 := hino1 ip
      rw [if_pos rfl] at hip1
      have hN : (open_slot K (f_open s ip (child_path (s.ino dp).path name) true).2 ip
          T_FILE (child_path (s.ino dp).path name)).NINODE = s.NINODE := by
        unfold open_slot; rw [setIno_NINODE, hn]
      have hm : FirstMatch K (open_slot K (f_open s ip (child_path (s.ino dp).path name) true).2
          ip T_FILE (child_path (s.ino dp).path name))
          (child_path (s.ino dp).path name) ip := by
        refine ⟨by rw [hN]; exact he,
          by rw [hip1]; exact ⟨by show (1 : Int) > 0; omega, rfl, rfl⟩, fun k hk hx => ?_⟩
        have hki : ip ≠ k := by omega
        rw [hino1 k, if_neg hki] at hx
        exact hnew k hx
      refine ⟨by rw [hip1], (open_slot K (f_open s ip (child_path (s.ino dp).path name) true).2 ip
          T_FILE (child_path (s.ino dp).path name)).setIno ip
          { (open_slot K (f_open s ip (child_path (s.ino dp).path name) true).2 ip
              T_FILE (child_path (s.ino dp).path name)).ino ip with
            ref := ((open_slot K (f_open s ip (child_path (s.ino dp).path name) true).2 ip
              T_FILE (child_path (s.ino dp).path name)).ino ip).ref + 1 },
        ?_, ?_, rfl, rfl, fun k hk => ?_⟩
      · have := @icreate_found K _ dp ip name T_FILE major2 minor2
          (by rw [hdp1]; exact hdp) (by rw [hdp1]; exact hm)
        exact this
      · rw [setIno_ino, if_pos ⟨rfl, by rw [hN]; exact he⟩, hip1]
        rfl
      · rw [setIno_ino, if_neg (fun x => hk x.1.symm)]

theorem wC1_run : icreate wK wC0 0 "a.txt" T_FILE 0 0 = some (some 1, wC1) := rfl

theorem C26_icreate_reopens_the_live_slot_witness :
    (wC1.ino 0).type = T_DIR ∧
    ((wC1.ino 1).ref > 0 ∧ (wC1.ino 1).dev = wK.ROOTDEV ∧
      (wC1.ino 1).path = child_path (wC1.ino 0).path "a.txt") ∧
    (∃ i s', icreate wK wC1 0 "a.txt" T_DEVICE 1 2 = some (some i, s') ∧
        ((wC1.ino i).ref > 0 ∧ (wC1.ino i).dev = wK.ROOTDEV ∧
          (wC1.ino i).path = child_path (wC1.ino 0).path "a.txt") ∧
        ((∀ k, k ≠ 1 → ¬ ((wC1.ino k).ref > 0 ∧ (wC1.ino k).dev = wK.ROOTDEV ∧
          (wC1.ino k).path = child_path (wC1.ino 0).path "a.txt")) → i = 1) ∧
        s'.ino i = { wC1.ino i with ref := (wC1.ino i).ref + 1 } ∧
        (∀ k, k ≠ i → s'.ino k = wC1.ino k) ∧
        s'.log = wC1.log ∧ s'.disk = wC1.disk ∧ s'.cache = wC1.cache ∧ s'.lru = wC1.lru ∧
        s'.faults = wC1.faults) ∧
    ((icreate wK wC1 0 "a.txt" T_DEVICE 1 2).map
      (fun r => (r.1, (r.2.ino 1).ref, (r.2.ino 1).type, r.2.log == wC1.log))) =
      some (some 1, 2, T_FILE, true) :=
  ⟨by decide, by decide,
    (C26_icreate_reopens_the_live_slot wK wC1 0 "a.txt" (by decide)).1 1 T_DEVICE 1 2
      (by decide),
    by decide⟩

/-! ## `skipelem` -/

theorem dropWhile_head_false {α : Type} (p : α → Bool) (l : List α) (x : α) (xs : List α)
    (h : l.dropWhile p = x :: xs) : p x = false := by
  have := List.head?_dropWhile_not p l
  rw [h] at this
  simpa using this

theorem skipelem_some {DIRSIZ : Nat} {path name rest name1 : List Char}
    (h : skipelem DIRSIZ path name = some (rest, name1)) :
    path.dropWhile (fun c => c == '/') ≠ [] ∧
    rest = ((path.dropWhile (fun c => c == '/')).dropWhile (fun c => c != '/')).dropWhile
      (fun c => c == '/') ∧
    name1 =
      (if (path.dropWhile (fun c => c == '/')).length -
          ((path.dropWhile (fun c => c == '/')).dropWhile (fun c => c != '/')).length ≥ DIRSIZ
        then memmove name (path.dropWhile (fun c => c == '/')) DIRSIZ
        else (memmove name (path.dropWhile (fun c => c == '/'))
          ((path.dropWhile (fun c => c == '/')).length -
            ((path.dropWhile (fun c => c == '/')).dropWhile (fun c => c != '/')).length)).set
          ((path.dropWhile (fun c => c == '/')).length -
            ((path.dropWhile (fun c => c == '/')).dropWhile (fun c => c != '/')).length) NUL) := by
  unfold skipelem at h
  dsimp only at h
  split at h
  · cases h
  · rename_i hne
    cases h
    exact ⟨hne, rfl, rfl⟩

/-- The first component of a path: what `skipelem` copies into `name` is determined by the
decomposition of the path into leading slashes, the component, the slashes after it and
the rest. -/
theorem skipelem_split {DIRSIZ : Nat} {path name rest name1 : List Char}
    (h : skipelem DIRSIZ path name = some (rest, name1)) :
    (∃ a b, path = a ++ first_component path ++ b ++ rest ∧ (∀ x ∈ a, x = '/') ∧
      (∀ x ∈ b, x = '/') ∧ (b = [] → rest = [])) ∧
      first_component path ≠ [] ∧ (∀ x ∈ first_component path, x ≠ '/') ∧
      rest.head? ≠ some '/' ∧
      (DIRSIZ ≤ (first_component path).length →
        name1 = memmove name (first_component path) DIRSIZ) ∧
      ((first_component path).length < DIRSIZ → DIRSIZ ≤ name.length →
        name1 = first_component path ++ [NUL] ++
          name.drop ((first_component path).length + 1)) := by
  unfold first_component
  obtain ⟨hne, hrest, hname⟩ := skipelem_some h
  generalize hp0 : path.dropWhile (fun c => c == '/') = p0 at hne hrest hname
  generalize hp1 : p0.dropWhile (fun c => c != '/') = p1 at hrest hname
  have e0 : path = path.takeWhile (fun c => c == '/') ++ p0 := by
    rw [← hp0]; exact (List.takeWhile_append_dropWhile _ _).symm
  have e1 : p0 = p0.takeWhile (fun c => c != '/') ++ p1 := by
    rw [← hp1]; exact (List.takeWhile_append_dropWhile _ _).symm
  have e2 : p1 = p1.takeWhile (fun c => c == '/') ++ rest := by
    rw [hrest]; exact (List.takeWhile_append_dropWhile _ _).symm
  have hlen : p0.length - p1.length = (p0.takeWhile (fun c => c != '/')).length := by
    have := congrArg List.length e1
    rw [List.length_append] at this
    omega
  have htake : ∀ n, n ≤ (p0.takeWhile (fun c => c != '/')).length →
      p0.take n = (p0.takeWhile (fun c => c != '/')).take n := by
    intro n hn
    conv_lhs => rw [e1]
    exact List.take_append_of_le_length hn
  refine ⟨⟨path.takeWhile (fun c => c == '/'), p1.takeWhile (fun c => c == '/'), ?_, ?_, ?_,
    ?_⟩, ?_, ?_, ?_, ?_, ?_⟩
  · rw [List.append_assoc, List.append_assoc, ← e2, ← e1, ← e0]
  · intro x hx
    simpa using List.mem_takeWhile_imp hx
  · intro x hx
    simpa using List.mem_takeWhile_imp hx
  · intro hb
    cases hp : p1 with
    | nil => rw [hrest, hp]; rfl
    | cons x xs =>
      have hx := dropWhile_head_false _ _ _ _ (hp1.trans hp)
      have hx2 : (x == '/') = true := by simpa using hx
      rw [hp, List.takeWhile_cons, if_pos hx2] at hb
      exact absurd hb (List.cons_ne_nil _ _)
  · cases hp : p0 with
    | nil => exact absurd hp hne
    | cons x xs =>
      have hx := dropWhile_head_false _ _ _ _ (hp0.trans hp)
      have : (x != '/') = true := by simpa using hx
      rw [List.takeWhile_cons, if_pos this]
      exact List.cons_ne_nil _ _
  · intro x hx
    simpa using List.mem_takeWhile_imp hx
  · have := List.head?_dropWhile_not (fun c => c == '/') p1
    rw [← hrest] at this
    intro hh
    rw [hh] at this
    simp at this
  · intro hge
    rw [hname, hlen, if_pos hge]
    unfold memmove
    rw [htake DIRSIZ hge]
  · intro hlt hbuf
    rw [hname, hlen, if_neg (by omega)]
    unfold memmove
    rw [htake _ (Nat.le_refl _), List.take_length, List.set_append, if_neg (Nat.lt_irrefl _),
      Nat.sub_self]
    have hd : List.drop (p0.takeWhile (fun c => c != '/')).length name =
        name.get ⟨(p0.takeWhile (fun c => c != '/')).length, by omega⟩ ::
          List.drop ((p0.takeWhile (fun c => c != '/')).length + 1) name := by
      rw [List.drop_eq_getElem_cons]
      rfl
    rw [hd, List.set_cons_zero, List.append_assoc]
    rfl

/-- C28: `skipelem` returns 0 exactly when the path is empty or has only `/` characters.
Otherwise, with `c` the first component (the maximal run of characters other than `/` after
the leading `/`s, which is not empty), the path is `a ++ c ++ b ++ rest` with `a` the leading
slashes, `b` the slashes that follow `c` and `rest` the result, which does not start with
`/`; and when `c` is shorter than `DIRSIZ` the buffer `name` starts with `c` followed by
NUL.  The examples of the specification are instances. -/
theorem C28_skipelem_splits_off_the_first_component (DIRSIZ : Nat) (path name : List Char) :
    (skipelem DIRSIZ path name = none ↔ ∀ x ∈ path, x = '/') ∧
    (∀ rest name1, skipelem DIRSIZ path name = some (rest, name1) →
      (∃ a b, path = a ++ first_component path ++ b ++ rest ∧ (∀ x ∈ a, x = '/') ∧
        (∀ x ∈ b, x = '/') ∧ (b = [] → rest = [])) ∧
      first_component path ≠ [] ∧ (∀ x ∈ first_component path, x ≠ '/') ∧
      rest.head? ≠ some '/' ∧
      ((first_component path).length < DIRSIZ → DIRSIZ ≤ name.length →
        name1 = first_component path ++ [NUL] ++
          name.drop ((first_component path).length + 1))) ∧
    ((skipelem 14 "a/bb/c".toList (List.replicate 14 'x')).map
        (fun r => (String.mk r.1, cstr r.2)) = some ("bb/c", "a") ∧
      (skipelem 14 "///a//bb".toList (List.replicate 14 'x')).map
        (fun r => (String.mk r.1, cstr r.2)) = some ("bb", "a") ∧
      (skipelem 14 "a".toList (List.replicate 14 'x')).map
        (fun r => (String.mk r.1, cstr r.2)) = some ("", "a") ∧
      skipelem 14 "".toList (List.replicate 14 'x') = none ∧
      skipelem 14 "////".toList (List.replicate 14 'x') = none) := by
  refine ⟨?_, fun rest name1 h => ?_, by decide⟩
  · unfold skipelem
    dsimp only
    constructor
    · intro h
      split at h
      · rename_i hnil
        intro x hx
        simpa using List.dropWhile_eq_nil_iff.mp hnil x hx
      · cases h
    · intro h
      rw [if_pos]
      rw [List.dropWhile_eq_nil_iff]
      intro x hx
      simpa using h x hx
  · obtain ⟨h1, h2, h3, h4, _, h6⟩ := skipelem_split h
    exact ⟨h1, h2, h3, h4, h6⟩

theorem C28_skipelem_splits_off_the_first_component_witness :
    skipelem 14 "///a//bb".toList (List.replicate 14 'x') =
      some ("bb".toList, 'a' :: NUL :: List.replicate 12 'x') ∧
    (first_component "///a//bb".toList).length < 14 ∧
    14 ≤ (List.replicate 14 'x').length ∧
    'a' :: NUL :: List.replicate 12 'x' = first_component "///a//bb".toList ++ [NUL] ++
      (List.replicate 14 'x').drop ((first_component "///a//bb".toList).length + 1) :=
  ⟨by decide, by decide, by decide,
    ((C28_skipelem_splits_off_the_first_component 14 "///a//bb".toList
      (List.replicate 14 'x')).2.1 "bb".toList ('a' :: NUL :: List.replicate 12 'x')
        (by decide)).2.2.2.2 (by decide) (by decide)⟩

/-! ## `dirlookup` of a path that no live slot holds -/

theorem scan_path_free {K : Consts} {s : KState} {path : String} {e : Nat}
    (hnone : ∀ j, ¬ ((s.ino j).ref > 0 ∧ (s.ino j).dev = K.ROOTDEV ∧ (s.ino j).path = path))
    (he : e < s.NINODE) (h0 : (s.ino e).ref = 0) (hfirst : ∀ j, j < e → (s.ino j).ref ≠ 0) :
    scan_path K s path = some (Sum.inr e) := by
  have he' : e < s.inode.length := he
  unfold scan_path
  dsimp only
  have hmiss : ¬ (s.inode.findIdx
      (fun I => decide (I.ref > 0) && (I.dev == K.ROOTDEV) && (I.path == path)) <
        s.inode.length) := by
    rw [List.findIdx_lt_length]
    rintro ⟨x, hx, hp⟩
    obtain ⟨j, hj, rfl⟩ := List.getElem_of_mem hx
    apply hnone j
    rw [ino_of_lt hj]
    simpa [and_assoc] using hp
  rw [if_neg hmiss]
  have hidx : s.inode.findIdx (fun I => I.ref == 0) = e := by
    rw [List.findIdx_eq he']
    refine ⟨?_, fun j hj => ?_⟩
    · rw [← ino_of_lt he']; simpa using h0
    · have hjl : j < s.inode.length := Nat.lt_trans hj he'
      rw [← ino_of_lt hjl]
      simpa using hfirst j hj
  rw [hidx, if_pos he']

theorem scan_path_free_exists {K : Consts} {s : KState} {path : String} {f : Nat}
    (hnone : ∀ j, ¬ ((s.ino j).ref > 0 ∧ (s.ino j).dev = K.ROOTDEV ∧ (s.ino j).path = path))
    (hf : f < s.NINODE) (h0 : (s.ino f).ref = 0) :
    ∃ e, e ≤ f ∧ scan_path K s path = some (Sum.inr e) := by
  classical
  have hex : ∃ i, i < s.NINODE ∧ (s.ino i).ref = 0 := ⟨f, hf, h0⟩
  refine ⟨Nat.find hex, Nat.find_le ⟨hf, h0⟩, scan_path_free hnone (Nat.find_spec hex).1
    (Nat.find_spec hex).2 fun j hj hr => ?_⟩
  exact Nat.find_min hex hj ⟨Nat.lt_trans hj (Nat.find_spec hex).1, hr⟩

theorem dirlookup_miss {K : Consts} {s : KState} {dp e : Nat} {name : String}
    (hdp : (s.ino dp).type = T_DIR)
    (hscan : scan_path K s (child_path (s.ino dp).path name) = some (Sum.inr e)) :
    dirlookup K s dp name =
      if (f_opendir s e (child_path (s.ino dp).path name)).1 = FRESULT.FR_OK then
        some (some e, open_slot K (f_opendir s e (child_path (s.ino dp).path name)).2 e T_DIR
          (child_path (s.ino dp).path name))
      else if (f_open (f_opendir s e (child_path (s.ino dp).path name)).2 e
          (child_path (s.ino dp).path name) false).1 = FRESULT.FR_OK then
        some (dirlookup_file K (f_open (f_opendir s e (child_path (s.ino dp).path name)).2 e
          (child_path (s.ino dp).path name) false).2 e (child_path (s.ino dp).path name))
      else some (none, (f_open (f_opendir s e (child_path (s.ino dp).path name)).2 e
          (child_path (s.ino dp).path name) false).2) := by
  unfold dirlookup
  rw [if_neg (by simp [hdp])]
  dsimp only
  rw [hscan]

theorem dirlookup_file_dev {K : Consts} {s : KState} {e : Nat} (path : String)
    (h : dev_probe K s e) :
    dirlookup_file K s e path =
      (some e, (open_slot K (after_dev_probe s e) e T_DEVICE path).setIno e
        { (open_slot K (after_dev_probe s e) e T_DEVICE path).ino e with
          major := le16s (dev_record s e) 4, minor := le16s (dev_record s e) 6 }) := by
  have h' := h
  unfold dev_probe dev_record at h'
  unfold dirlookup_file
  dsimp only
  rw [if_pos h']
  rfl

theorem dirlookup_file_sym {K : Consts} {s : KState} {e : Nat} (path : String)
    (h1 : ¬ dev_probe K s e) (h2 : sym_probe K (after_dev_probe s e) e) :
    dirlookup_file K s e path =
      if (sym_reopen K (after_dev_probe s e) e).1 ≠ FRESULT.FR_OK then
        (none, (sym_reopen K (after_dev_probe s e) e).2)
      else (some e, open_slot K (sym_reopen K (after_dev_probe s e) e).2 e T_FILE
        (sym_target K (after_dev_probe s e) e)) := by
  have h1' := h1
  have h2' := h2
  unfold dev_probe dev_record at h1'
  unfold sym_probe sym_record after_dev_probe at h2'
  unfold dirlookup_file
  dsimp only
  rw [if_neg h1', if_pos h2']
  rfl

theorem dirlookup_file_plain {K : Consts} {s : KState} {e : Nat} (path : String)
    (h1 : ¬ dev_probe K s e) (h2 : ¬ sym_probe K (after_dev_probe s e) e) :
    dirlookup_file K s e path =
      (some e, open_slot K (after_sym_probe K (after_dev_probe s e) e) e T_FILE path) := by
  have h1' := h1
  have h2' := h2
  unfold dev_probe dev_record at h1'
  unfold sym_probe sym_record after_dev_probe at h2'
  unfold dirlookup_file
  dsimp only
  rw [if_neg h1', if_neg h2']
  rfl

theorem open_slot_fields (K : Consts) (t : KState) (e type : Nat) (path : String)
    (he : e < t.NINODE) :
    ((open_slot K t e type path).ino e).ref = 1 ∧
    ((open_slot K t e type path).ino e).dev = K.ROOTDEV ∧
    ((open_slot K t e type path).ino e).type = type ∧
    ((open_slot K t e type path).ino e).path = path ∧
    ((open_slot K t e type path).ino e).unlinked = 0 ∧
    ((open_slot K t e type path).ino e).new_path = "" ∧
    ((open_slot K t e type path).ino e).file = (t.ino e).file ∧
    (open_slot K t e type path).NINODE = t.NINODE := by
  rw [open_slot_ino, if_pos ⟨rfl, he⟩]
  refine ⟨rfl, rfl, rfl, rfl, rfl, rfl, rfl, ?_⟩
  unfold open_slot
  rw [setIno_NINODE]

theorem after_dev_probe_NINODE (s : KState) (e : Nat) :
    (after_dev_probe s e).NINODE = s.NINODE := by
  unfold after_dev_probe f_rewind
  split
  · rw [f_read_NINODE, f_lseek_NINODE]
  · rw [f_lseek_NINODE]

theorem after_sym_probe_NINODE (K : Consts) (s : KState) (e : Nat) :
    (after_sym_probe K s e).NINODE = s.NINODE := by
  unfold after_sym_probe f_rewind
  split
  · rw [f_read_NINODE, f_lseek_NINODE]
  · rw [f_lseek_NINODE]

theorem sym_reopen_NINODE (K : Consts) (s : KState) (e : Nat) :
    (sym_reopen K s e).2.NINODE = s.NINODE := by
  unfold sym_reopen
  rw [(f_open_ino _ _ _ _ 0).2, NINODE_congr (f_close_inode _ _), after_sym_probe_NINODE]

/-- A scan for the terminator that stops inside the first list does not see the second. -/
theorem takeWhile_append_stop {α : Type} (p : α → Bool) :
    ∀ (l1 l2 : List α), (∃ x, x ∈ l1 ∧ p x = false) →
      (l1 ++ l2).takeWhile p = l1.takeWhile p
  | [], _, h => by obtain ⟨x, hx, _⟩ := h; cases hx
  | a :: l1, l2, h => by
    rw [List.cons_append, List.takeWhile_cons, List.takeWhile_cons]
    cases hp : p a
    · rfl
    · obtain ⟨x, hx, hpx⟩ := h
      rcases List.mem_cons.mp hx with rfl | hx
      · rw [hp] at hpx; cases hpx
      · simp only [if_true]
        rw [takeWhile_append_stop p l1 l2 ⟨x, hx, hpx⟩]

/-- The scan stops at or before an element that does not satisfy the test. -/
theorem takeWhile_length_le_stop {α : Type} (p : α → Bool) :
    ∀ (l : List α) (t : Nat), (∃ x, l[t]? = some x ∧ p x = false) →
      (l.takeWhile p).length ≤ t
  | [], _, h => by simp
  | a :: l, t, h => by
    rw [List.takeWhile_cons]
    cases hp : p a
    · simp
    · simp only [if_true, List.length_cons]
      obtain ⟨x, hx, hpx⟩ := h
      cases t with
      | zero =>
        simp only [List.getElem?_cons_zero, Option.some.injEq] at hx
        rw [hx, hpx] at hp; cases hp
      | succ t =>
        simp only [List.getElem?_cons_succ] at hx
        have := takeWhile_length_le_stop p l t ⟨x, hx, hpx⟩
        omega

/-- A record that holds a NUL at byte `k + t`, inside its `n` bytes: the C string that starts
at byte `k` ends there at the latest, whatever lies beyond the record. -/
theorem cstring_at_terminated (m : Mem) (k n n' t : Nat) (ht : k + t < n) (hz : m (k + t) = 0)
    (hn : n ≤ n') :
    cstring_at m k n' = cstring_at m k n ∧ (cstring_at m k n).length ≤ t := by
  have hmem : ∃ x, x ∈ (List.range (n - k)).map (fun i => m (k + i)) ∧
      (fun b : Nat => b != 0) x = false :=
    ⟨m (k + t), List.mem_map.mpr ⟨t, List.mem_range.mpr (by omega), rfl⟩, by simp [hz]⟩
  constructor
  · unfold cstring_at
    have hsplit : n' - k = (n - k) + (n' - n) := by omega
    rw [hsplit, List.range_add, List.map_append, takeWhile_append_stop _ _ _ hmem]
  · unfold cstring_at
    show (List.map Char.ofNat _).length ≤ t
    rw [List.length_map]
    refine takeWhile_length_le_stop _ _ t ⟨m (k + t), ?_, by simp [hz]⟩
    rw [List.getElem?_map, List.getElem?_range (by omega)]
    rfl

/-- C25: `dirlookup(dp, name)` of a path that no live slot holds, `e` being the first free
slot, the path fitting the buffer `char path[MAXPATH]` in which it is built and a symlink
record, if one is read, holding a NUL among the `MAXPATH` bytes of its target.  It returns;
the result is a `T_DIR` inode if `f_opendir` succeeds; otherwise, if `f_open` succeeds, a
`T_DEVICE` inode (with the major and minor of the record) exactly when
`sizeof(struct device)` bytes are read and the leading magic is `DEVICE_MAGIC`; else, when
more than 4 bytes are read, the magic is `SYMLINK_MAGIC` and the target starts with `/`, a
`T_FILE` inode whose path is the target, provided the target can be opened; else a `T_FILE`
inode whose path is the looked-up path.  The result is NULL exactly when neither open
succeeds or the symlink target cannot be opened.  Every returned slot is `e`, with `ref` 1,
`dev` `ROOTDEV`, `unlinked` clear, `new_path` empty and a path that fits `MAXPATH`; the target
of a symlink record is the whole C string that starts at its byte 4. -/
theorem C25_dirlookup_opens_by_what_the_lower_FS_holds (K : Consts) (s : KState)
    (dp e : Nat) (name path : String) (od o : FRESULT × KState)
    (hdp : (s.ino dp).type = T_DIR) (hpath : path = child_path (s.ino dp).path name)
    (hnone : ∀ j, ¬ ((s.ino j).ref > 0 ∧ (s.ino j).dev = K.ROOTDEV ∧ (s.ino j).path = path))
    (he : e < s.NINODE ∧ (s.ino e).ref = 0 ∧ ∀ j, j < e → (s.ino j).ref ≠ 0)
    (hod : od = f_opendir s e path) (ho : o = f_open od.2 e path false)
    (hfit : path.length < K.MAXPATH)
    (hterm : od.1 ≠ FRESULT.FR_OK → o.1 = FRESULT.FR_OK → ¬ dev_probe K o.2 e →
      sym_probe K (after_dev_probe o.2 e) e →
      ∃ t, t < K.MAXPATH ∧ sym_record K (after_dev_probe o.2 e) e (4 + t) = 0) :
    ∃ r s', dirlookup K s dp name = some (r, s') ∧
      (od.1 = FRESULT.FR_OK →
        r = some e ∧ (s'.ino e).type = T_DIR ∧ (s'.ino e).path = path) ∧
      (od.1 ≠ FRESULT.FR_OK → o.1 = FRESULT.FR_OK → dev_probe K o.2 e →
        r = some e ∧ (s'.ino e).type = T_DEVICE ∧ (s'.ino e).path = path ∧
        (s'.ino e).major = le16s (dev_record o.2 e) 4 ∧
        (s'.ino e).minor = le16s (dev_record o.2 e) 6) ∧
      (od.1 ≠ FRESULT.FR_OK → o.1 = FRESULT.FR_OK → ¬ dev_probe K o.2 e →
        sym_probe K (after_dev_probe o.2 e) e →
        (sym_reopen K (after_dev_probe o.2 e) e).1 = FRESULT.FR_OK →
        r = some e ∧ (s'.ino e).type = T_FILE ∧
        (s'.ino e).path = sym_target K (after_dev_probe o.2 e) e) ∧
      (od.1 ≠ FRESULT.FR_OK → o.1 = FRESULT.FR_OK → ¬ dev_probe K o.2 e →
        ¬ sym_probe K (after_dev_probe o.2 e) e →
        r = some e ∧ (s'.ino e).type = T_FILE ∧ (s'.ino e).path = path) ∧
      (r = none ↔ od.1 ≠ FRESULT.FR_OK ∧ (o.1 ≠ FRESULT.FR_OK ∨
        (¬ dev_probe K o.2 e ∧ sym_probe K (after_dev_probe o.2 e) e ∧
          (sym_reopen K (after_dev_probe o.2 e) e).1 ≠ FRESULT.FR_OK))) ∧
      (r ≠ none → ((s'.ino e).type = T_DEVICE ↔
        od.1 ≠ FRESULT.FR_OK ∧ o.1 = FRESULT.FR_OK ∧ dev_probe K o.2 e)) ∧
      (∀ i, r = some i → i = e ∧ (s'.ino e).ref = 1 ∧ (s'.ino e).dev = K.ROOTDEV ∧
        (s'.ino e).unlinked = 0 ∧ (s'.ino e).new_path = "" ∧
        (s'.ino e).path.length < K.MAXPATH) ∧
      (od.1 ≠ FRESULT.FR_OK → o.1 = FRESULT.FR_OK → ¬ dev_probe K o.2 e →
        sym_probe K (after_dev_probe o.2 e) e →
        ∀ n, 4 + K.MAXPATH ≤ n →
          cstring_at (sym_record K (after_dev_probe o.2 e) e) 4 n =
            sym_target K (after_dev_probe o.2 e) e) := by
  subst hpath
  have htarget : od.1 ≠ FRESULT.FR_OK → o.1 = FRESULT.FR_OK → ¬ dev_probe K o.2 e →
      sym_probe K (after_dev_probe o.2 e) e →
      (sym_target K (after_dev_probe o.2 e) e).length < K.MAXPATH ∧
      ∀ n, 4 + K.MAXPATH ≤ n →
        cstring_at (sym_record K (after_dev_probe o.2 e) e) 4 n =
          sym_target K (after_dev_probe o.2 e) e := by
    intro g1 g2 g3 g4
    obtain ⟨t, ht, hz⟩ := hterm g1 g2 g3 g4
    refine ⟨?_, fun n hn => ?_⟩
    · have := (cstring_at_terminated (sym_record K (after_dev_probe o.2 e) e) 4
        (4 + K.MAXPATH) (4 + K.MAXPATH) t (by omega) hz (Nat.le_refl _)).2
      unfold sym_target
      omega
    · exact (cstring_at_terminated (sym_record K (after_dev_probe o.2 e) e) 4
        (4 + K.MAXPATH) n t (by omega) hz hn).1
  have hscan := scan_path_free hnone he.1 he.2.1 he.2.2
  have hmiss := dirlookup_miss hdp hscan
  rw [← hod, ← ho] at hmiss
  have hT1 : T_DIR ≠ T_DEVICE := by decide
  have hT2 : T_FILE ≠ T_DEVICE := by decide
  have hNod : od.2.NINODE = s.NINODE := by rw [hod]; exact (f_opendir_ino _ _ _ 0).2
  have hNo : o.2.NINODE = s.NINODE := by rw [ho, (f_open_ino _ _ _ _ 0).2, hNod]
  by_cases h1 : od.1 = FRESULT.FR_OK
  · rw [if_pos h1] at hmiss
    obtain ⟨a1, a2, a3, a4, a5, a6, _, _⟩ := open_slot_fields K od.2 e T_DIR
      (child_path (s.ino dp).path name) (by rw [hNod]; exact he.1)
    refine ⟨_, _, hmiss, fun _ => ⟨rfl, a3, a4⟩, fun h => absurd h1 h, fun h => absurd h1 h,
      fun h => absurd h1 h, ⟨fun h => Option.noConfusion h, fun h => absurd h1 h.1⟩,
      fun _ => ⟨fun h => ?_, fun h => absurd h1 h.1⟩, fun i hi => ?_, fun h => absurd h1 h⟩
    · rw [a3] at h; exact absurd h hT1
    · cases hi; exact ⟨rfl, a1, a2, a5, a6, by rw [a4]; exact hfit⟩
  · rw [if_neg h1] at hmiss
    by_cases h2 : o.1 = FRESULT.FR_OK
    · rw [if_pos h2] at hmiss
      by_cases h3 : dev_probe K o.2 e
      · rw [dirlookup_file_dev _ h3] at hmiss
        obtain ⟨a1, a2, a3, a4, a5, a6, _, a8⟩ := open_slot_fields K (after_dev_probe o.2 e) e
          T_DEVICE (child_path (s.ino dp).path name)
          (by rw [after_dev_probe_NINODE, hNo]; exact he.1)
        have hino : ((open_slot K (after_dev_probe o.2 e) e T_DEVICE
            (child_path (s.ino dp).path name)).setIno e
            { (open_slot K (after_dev_probe o.2 e) e T_DEVICE
                (child_path (s.ino dp).path name)).ino e with
              major := le16s (dev_record o.2 e) 4, minor := le16s (dev_record o.2 e) 6 }).ino e =
            { (open_slot K (after_dev_probe o.2 e) e T_DEVICE
                (child_path (s.ino dp).path name)).ino e with
              major := le16s (dev_record o.2 e) 4, minor := le16s (dev_record o.2 e) 6 } := by
          rw [setIno_ino, if_pos ⟨rfl, by rw [a8, after_dev_probe_NINODE, hNo]; exact he.1⟩]
        refine ⟨_, _, hmiss, fun h => absurd h h1, fun _ _ _ => ?_, fun _ _ h => absurd h3 h,
          fun _ _ h => absurd h3 h, ⟨fun h => Option.noConfusion h, fun h => ?_⟩,
          fun _ => ⟨fun _ => ⟨h1, h2, h3⟩, fun _ => ?_⟩, fun i hi => ?_,
          fun _ _ h => absurd h3 h⟩
        · rw [hino]; exact ⟨rfl, a3, a4, rfl, rfl⟩
        · rcases h.2 with h | h
          · exact absurd h2 h
          · exact absurd h3 h.1
        · rw [hino]; exact a3
        · cases hi; rw [hino]; exact ⟨rfl, a1, a2, a5, a6, by
            show ((open_slot K (after_dev_probe o.2 e) e T_DEVICE
              (child_path (s.ino dp).path name)).ino e).path.length < K.MAXPATH
            rw [a4]; exact hfit⟩
      · by_cases h4 : sym_probe K (after_dev_probe o.2 e) e
        · rw [dirlookup_file_sym _ h3 h4] at hmiss
          by_cases h5 : (sym_reopen K (after_dev_probe o.2 e) e).1 = FRESULT.FR_OK
          · rw [if_neg (by simp [h5])] at hmiss
            obtain ⟨a1, a2, a3, a4, a5, a6, _, _⟩ := open_slot_fields K
              (sym_reopen K (after_dev_probe o.2 e) e).2 e T_FILE
              (sym_target K (after_dev_probe o.2 e) e)
              (by rw [sym_reopen_NINODE, after_dev_probe_NINODE, hNo]; exact he.1)
            refine ⟨_, _, hmiss, fun h => absurd h h1, fun _ _ h => absurd h h3,
              fun _ _ _ _ _ => ⟨rfl, a3, a4⟩, fun _ _ _ h => absurd h4 h,
              ⟨fun h => Option.noConfusion h, fun h => ?_⟩,
              fun _ => ⟨fun h => ?_, fun h => absurd h.2.2 h3⟩, fun i hi => ?_,
              fun g1 g2 g3 g4 => (htarget g1 g2 g3 g4).2⟩
            · rcases h.2 with h | h
              · exact absurd h2 h
              · exact absurd h5 h.2.2
            · rw [a3] at h; exact absurd h hT2
            · cases hi; exact ⟨rfl, a1, a2, a5, a6, by rw [a4]; exact (htarget h1 h2 h3 h4).1⟩
          · rw [if_pos h5] at hmiss
            refine ⟨_, _, hmiss, fun h => absurd h h1, fun _ _ h => absurd h h3,
              fun _ _ _ _ h => absurd h h5, fun _ _ _ h => absurd h4 h,
              ⟨fun _ => ⟨h1, Or.inr ⟨h3, h4, h5⟩⟩, fun _ => rfl⟩,
              fun h => absurd rfl h, fun i hi => (by cases hi),
              fun g1 g2 g3 g4 => (htarget g1 g2 g3 g4).2⟩
        · rw [dirlookup_file_plain _ h3 h4] at hmiss
          obtain ⟨a1, a2, a3, a4, a5, a6, _, _⟩ := open_slot_fields K
            (after_sym_probe K (after_dev_probe o.2 e) e) e T_FILE
            (child_path (s.ino dp).path name)
            (by rw [after_sym_probe_NINODE, after_dev_probe_NINODE, hNo]; exact he.1)
          refine ⟨_, _, hmiss, fun h => absurd h h1, fun _ _ h => absurd h h3,
            fun _ _ _ h => absurd h h4, fun _ _ _ _ => ⟨rfl, a3, a4⟩,
            ⟨fun h => Option.noConfusion h, fun h => ?_⟩,
            fun _ => ⟨fun h => ?_, fun h => absurd h.2.2 h3⟩, fun i hi => ?_,
            fun _ _ _ h => absurd h h4⟩
          · rcases h.2 with h | h
            · exact absurd h2 h
            · exact absurd h.2.1 h4
          · rw [a3] at h; exact absurd h hT2
          · cases hi; exact ⟨rfl, a1, a2, a5, a6, by rw [a4]; exact hfit⟩
    · rw [if_neg h2] at hmiss
      refine ⟨_, _, hmiss, fun h => absurd h h1, fun _ h => absurd h h2, fun _ h => absurd h h2,
        fun _ h => absurd h h2, ⟨fun _ => ⟨h1, Or.inl h2⟩, fun _ => rfl⟩,
        fun h => absurd rfl h, fun i hi => (by cases hi), fun _ h => absurd h h2⟩

theorem wL0_free (j : Nat) (hj : 1 ≤ j) : (wL0.ino j).ref = 0 := by
  have hN : wL0.NINODE = 4 := by decide
  rcases j with _ | _ | _ | _ | j
  · omega
  · decide
  · decide
  · decide
  · rw [ino_default_of_ge wL0 (j + 4) (by rw [hN]; omega)]

theorem wL0_none (p : String) (hp : p ≠ "/") (j : Nat) :
    ¬ ((wL0.ino j).ref > 0 ∧ (wL0.ino j).dev = wK.ROOTDEV ∧ (wL0.ino j).path = p) := by
  rintro ⟨h1, _, h3⟩
  rcases j with _ | j
  · have : (wL0.ino 0).path = "/" := by decide
    rw [this] at h3
    exact hp h3.symm
  · rw [wL0_free (j + 1) (by omega)] at h1
    omega

theorem C25_dirlookup_opens_by_what_the_lower_FS_holds_witness :
    (wL0.ino 0).type = T_DIR ∧
    (dirlookup wK wL0 0 "l").map (fun r => (r.1, (r.2.ino 1).type, (r.2.ino 1).path)) =
      some (some 1, T_FILE, "/b") ∧
    ∃ r s', dirlookup wK wL0 0 "l" = some (r, s') ∧
      ((f_opendir wL0 1 "/l").1 = FRESULT.FR_OK →
        r = some 1 ∧ (s'.ino 1).type = T_DIR ∧ (s'.ino 1).path = "/l") ∧
      ((f_opendir wL0 1 "/l").1 ≠ FRESULT.FR_OK →
        (f_open (f_opendir wL0 1 "/l").2 1 "/l" false).1 = FRESULT.FR_OK →
        dev_probe wK (f_open (f_opendir wL0 1 "/l").2 1 "/l" false).2 1 →
        r = some 1 ∧ (s'.ino 1).type = T_DEVICE ∧ (s'.ino 1).path = "/l" ∧
        (s'.ino 1).major = le16s (dev_record (f_open (f_opendir wL0 1 "/l").2 1 "/l" false).2 1) 4 ∧
        (s'.ino 1).minor =
          le16s (dev_record (f_open (f_opendir wL0 1 "/l").2 1 "/l" false).2 1) 6) ∧
      ((f_opendir wL0 1 "/l").1 ≠ FRESULT.FR_OK →
        (f_open (f_opendir wL0 1 "/l").2 1 "/l" false).1 = FRESULT.FR_OK →
        ¬ dev_probe wK (f_open (f_opendir wL0 1 "/l").2 1 "/l" false).2 1 →
        sym_probe wK (after_dev_probe (f_open (f_opendir wL0 1 "/l").2 1 "/l" false).2 1) 1 →
        (sym_reopen wK (after_dev_probe (f_open (f_opendir wL0 1 "/l").2 1 "/l" false).2 1) 1).1 =
          FRESULT.FR_OK →
        r = some 1 ∧ (s'.ino 1).type = T_FILE ∧
        (s'.ino 1).path =
          sym_target wK (after_dev_probe (f_open (f_opendir wL0 1 "/l").2 1 "/l" false).2 1) 1) ∧
      ((f_opendir wL0 1 "/l").1 ≠ FRESULT.FR_OK →
        (f_open (f_opendir wL0 1 "/l").2 1 "/l" false).1 = FRESULT.FR_OK →
        ¬ dev_probe wK (f_open (f_opendir wL0 1 "/l").2 1 "/l" false).2 1 →
        ¬ sym_probe wK (after_dev_probe (f_open (f_opendir wL0 1 "/l").2 1 "/l" false).2 1) 1 →
        r = some 1 ∧ (s'.ino 1).type = T_FILE ∧ (s'.ino 1).path = "/l") ∧
      (r = none ↔ (f_opendir wL0 1 "/l").1 ≠ FRESULT.FR_OK ∧
        ((f_open (f_opendir wL0 1 "/l").2 1 "/l" false).1 ≠ FRESULT.FR_OK ∨
        (¬ dev_probe wK (f_open (f_opendir wL0 1 "/l").2 1 "/l" false).2 1 ∧
          sym_probe wK (after_dev_probe (f_open (f_opendir wL0 1 "/l").2 1 "/l" false).2 1) 1 ∧
          (sym_reopen wK
            (after_dev_probe (f_open (f_opendir wL0 1 "/l").2 1 "/l" false).2 1) 1).1 ≠
            FRESULT.FR_OK))) ∧
      (r ≠ none → ((s'.ino 1).type = T_DEVICE ↔
        (f_opendir wL0 1 "/l").1 ≠ FRESULT.FR_OK ∧
        (f_open (f_opendir wL0 1 "/l").2 1 "/l" false).1 = FRESULT.FR_OK ∧
        dev_probe wK (f_open (f_opendir wL0 1 "/l").2 1 "/l" false).2 1)) ∧
      (∀ i, r = some i → i = 1 ∧ (s'.ino 1).ref = 1 ∧ (s'.ino 1).dev = wK.ROOTDEV ∧
        (s'.ino 1).unlinked = 0 ∧ (s'.ino 1).new_path = "" ∧
        (s'.ino 1).path.length < wK.MAXPATH) ∧
      ((f_opendir wL0 1 "/l").1 ≠ FRESULT.FR_OK →
        (f_open (f_opendir wL0 1 "/l").2 1 "/l" false).1 = FRESULT.FR_OK →
        ¬ dev_probe wK (f_open (f_opendir wL0 1 "/l").2 1 "/l" false).2 1 →
        sym_probe wK (after_dev_probe (f_open (f_opendir wL0 1 "/l").2 1 "/l" false).2 1) 1 →
        ∀ n, 4 + wK.MAXPATH ≤ n →
          cstring_at
            (sym_record wK (after_dev_probe (f_open (f_opendir wL0 1 "/l").2 1 "/l" false).2 1) 1)
            4 n =
          sym_target wK (after_dev_probe (f_open (f_opendir wL0 1 "/l").2 1 "/l" false).2 1) 1) :=
  ⟨by decide, by decide,
    C25_dirlookup_opens_by_what_the_lower_FS_holds wK wL0 0 1 "l" "/l"
      (f_opendir wL0 1 "/l") (f_open (f_opendir wL0 1 "/l").2 1 "/l" false)
      (by decide) (by decide) (wL0_none "/l" (by decide))
      ⟨by decide, by decide, by decide⟩ rfl rfl (by decide)
      (fun _ _ _ _ => ⟨2, by decide, by decide⟩)⟩

/-! ## Unlink at the last `iput` -/

theorem lookup_diskRemove_self (d : List (String × Node)) (p : String) :
    (diskRemove d p).lookup p = none := by
  unfold diskRemove
  induction d with
  | nil => rfl
  | cons x xs ih =>
    rw [List.filter_cons]
    by_cases h : x.1 = p
    · rw [if_neg (by simp [h])]; exact ih
    · rw [if_pos (by simp [h])]
      obtain ⟨k, v⟩ := x
      rw [List.lookup_cons]
      have : (p == k) = false := by
        simp only [beq_eq_false_iff_ne, ne_eq]
        exact fun hx => h hx.symm
      rw [this]
      exact ih

theorem lookup_diskRemove_ne (d : List (String × Node)) (p q : String) (h : q ≠ p) :
    (diskRemove d p).lookup q = d.lookup q := by
  unfold diskRemove
  induction d with
  | nil => rfl
  | cons x xs ih =>
    obtain ⟨k, v⟩ := x
    rw [List.filter_cons]
    by_cases hk : k = p
    · rw [if_neg (by simp [hk]), List.lookup_cons]
      have : (q == k) = false := by
        simp only [beq_eq_false_iff_ne, ne_eq]
        rw [hk]; exact h
      rw [this]
      exact ih
    · rw [if_pos (by simp [hk]), List.lookup_cons, List.lookup_cons, ih]

theorem f_unlink_gone {t : KState} (h : t.faults = []) (p : String) :
    (f_unlink t p).2.disk.lookup p = none := by
  unfold f_unlink
  rw [fault_nil t h]
  dsimp only
  rw [if_neg (by simp)]
  split
  · rename_i hl
    exact hl
  · exact lookup_diskRemove_self _ _

theorem f_opendir_absent {s : KState} {p : String} (e : Nat) (h : s.disk.lookup p = none) :
    (f_opendir s e p).1 = FRESULT.FR_ERR ∧ (f_opendir s e p).2.disk = s.disk := by
  unfold f_opendir
  dsimp only
  split
  · exact ⟨rfl, by simp⟩
  · have : List.lookup p ((s.fault.2).emit (Ev.f_opendir e p)).disk = none := by simpa using h
    rw [this]
    exact ⟨rfl, by simp⟩

theorem f_open_absent {s : KState} {p : String} (e : Nat) (h : s.disk.lookup p = none) :
    (f_open s e p false).1 = FRESULT.FR_ERR ∧ (f_open s e p false).2.disk = s.disk := by
  unfold f_open
  dsimp only
  split
  · exact ⟨rfl, by simp⟩
  · have : List.lookup p ((s.fault.2).emit (Ev.f_open e p false)).disk = none := by simpa using h
    rw [this]
    exact ⟨rfl, by simp⟩

theorem iput_close_nf {s : KState} (hnf : s.faults = []) (ip : Nat) :
    (iput_close s ip).1 = FRESULT.FR_OK ∧ (iput_close s ip).2.faults = [] := by
  unfold iput_close
  split
  · exact f_closedir_nf hnf ip
  · exact f_close_nf hnf ip

/-- The last `iput` of an unlinked inode when no external call fails. -/
theorem iput_last_unlinked {s : KState} {ip : Nat} (hnf : s.faults = [])
    (hr : (s.ino ip).ref = 1) (hu : (s.ino ip).unlinked ≠ 0) :
    ∃ t, iput s ip = some (t.setIno ip { t.ino ip with ref := (t.ino ip).ref - 1 }) ∧
      t = (f_unlink (iput_close s ip).2 (s.ino ip).path).2 := by
  obtain ⟨_, _, _, hu', _, hp', _, _⟩ := iput_close_ino_ref s ip ip
  refine ⟨_, ?_, rfl⟩
  unfold iput
  rw [if_pos (by omega), if_pos hr]
  unfold iput_last
  rw [if_neg (by rw [(iput_close_nf hnf ip).1]; simp)]
  unfold iput_deferred
  rw [hu', if_pos hu, hp']

/-- A lookup of a path that is neither open nor on the lower FS returns NULL. -/
theorem dirlookup_absent {K : Consts} {s : KState} {dp f : Nat} {name : String}
    (hdp : (s.ino dp).type = T_DIR)
    (hnone : ∀ j, ¬ ((s.ino j).ref > 0 ∧ (s.ino j).dev = K.ROOTDEV ∧
      (s.ino j).path = child_path (s.ino dp).path name))
    (hf : f < s.NINODE) (h0 : (s.ino f).ref = 0)
    (habs : s.disk.lookup (child_path (s.ino dp).path name) = none) :
    ∃ s', dirlookup K s dp name = some (none, s') ∧ s'.disk = s.disk := by
  obtain ⟨e, _, hscan⟩ := scan_path_free_exists hnone hf h0
  rw [dirlookup_miss hdp hscan]
  have h1 := f_opendir_absent e habs
  have h2 := @f_open_absent (f_opendir s e (child_path (s.ino dp).path name)).2
    (child_path (s.ino dp).path name) e (by rw [h1.2]; exact habs)
  rw [if_neg (by rw [h1.1]; simp), if_neg (by rw [h2.1]; simp)]
  exact ⟨_, rfl, by rw [h2.2, h1.2]⟩

/-- C22 (as amended): let inode slot `ip` hold the path `p` built from `dp` and `name`, with
`ref == 1` (the caller's reference is the only one: no page of the file is cached) and no
other live slot holding `p`, and let no external call fail.  Then after `iunlink(ip)` the
`iput` returns, has closed the handle and issued `f_unlink(p)`, the slot is free, `p` is not
on the lower FS, and a following `dirlookup(dp, name)` returns NULL. -/
theorem C22_unlink_and_last_put_remove_the_path (K : Consts) (s : KState) (dp ip : Nat)
    (name : String) (hdp : (s.ino dp).type = T_DIR)
    (hp : (s.ino ip).path = child_path (s.ino dp).path name)
    (href : (s.ino ip).ref = 1)
    (huniq : ∀ j, j ≠ ip → ¬ ((s.ino j).ref > 0 ∧ (s.ino j).dev = K.ROOTDEV ∧
      (s.ino j).path = child_path (s.ino dp).path name))
    (hnf : s.faults = []) :
    (iunlink s ip).1 = 0 ∧
    ∃ s2, iput (iunlink s ip).2 ip = some s2 ∧ (s2.ino ip).ref = 0 ∧
      s2.log = s.log ++ [if (s.ino ip).type = T_DIR then Ev.f_closedir ip else Ev.f_close ip,
        Ev.f_unlink (child_path (s.ino dp).path name)] ∧
      s2.disk.lookup (child_path (s.ino dp).path name) = none ∧
      ∃ s3, dirlookup K s2 dp name = some (none, s3) ∧
        s3.disk.lookup (child_path (s.ino dp).path name) = none := by
  have hip : ip < s.NINODE := ref_pos_lt (by rw [href]; decide)
  have hino : ∀ j, ((iunlink s ip).2.ino j).ref = (s.ino j).ref ∧
      ((iunlink s ip).2.ino j).type = (s.ino j).type ∧
      ((iunlink s ip).2.ino j).path = (s.ino j).path ∧
      ((iunlink s ip).2.ino j).dev = (s.ino j).dev := by
    intro j
    simp only [iunlink]
    rw [setIno_ino]
    split
    · rename_i hx; rw [← hx.1]; exact ⟨rfl, rfl, rfl, rfl⟩
    · exact ⟨rfl, rfl, rfl, rfl⟩
  have hu : ((iunlink s ip).2.ino ip).unlinked ≠ 0 := by
    simp only [iunlink]
    rw [setIno_ino, if_pos ⟨rfl, hip⟩]
    exact Nat.one_ne_zero
  have hnf1 : (iunlink s ip).2.faults = [] := hnf
  have hr1 : ((iunlink s ip).2.ino ip).ref = 1 := by rw [(hino ip).1]; exact href
  obtain ⟨t, hput, ht⟩ := iput_last_unlinked hnf1 hr1 hu
  have heff := iput_effect hput
  have hlog := iput_log hput
  have hdisk : (t.setIno ip { t.ino ip with ref := (t.ino ip).ref - 1 }).disk.lookup
      (child_path (s.ino dp).path name) = none := by
    show t.disk.lookup _ = none
    rw [ht, (hino ip).2.2.1, hp]
    exact f_unlink_gone (iput_close_nf hnf1 ip).2 _
  refine ⟨rfl, _, hput, ?_, ?_, hdisk, ?_⟩
  · rw [(heff.2.2.2 ip).1, if_pos rfl, hr1]; rfl
  · rw [hlog]
    unfold iput_calls
    rw [if_pos hr1, if_pos hu, (hino ip).2.1, (hino ip).2.2.1, hp]
    rfl
  · have hty : ((t.setIno ip { t.ino ip with ref := (t.ino ip).ref - 1 }).ino dp).type = T_DIR := by
      rw [(heff.2.2.2 dp).2.2.1, (hino dp).2.1]; exact hdp
    have hpath : ((t.setIno ip { t.ino ip with ref := (t.ino ip).ref - 1 }).ino dp).path =
        (s.ino dp).path := by
      rw [(heff.2.2.2 dp).2.2.2.2.2.1, (hino dp).2.2.1]
    have h0 : ((t.setIno ip { t.ino ip with ref := (t.ino ip).ref - 1 }).ino ip).ref = 0 := by
      rw [(heff.2.2.2 ip).1, if_pos rfl, hr1]; rfl
    obtain ⟨s3, h3, hd3⟩ := @dirlookup_absent K _ dp ip name hty
      (by
        rw [hpath]
        intro j hj
        by_cases hji : j = ip
        · rw [hji, h0] at hj; exact absurd hj.1 (by decide)
        · apply huniq j hji
          rw [(heff.2.2.2 j).1, if_neg hji, (heff.2.2.2 j).2.2.2.2.2.2,
            (heff.2.2.2 j).2.2.2.2.2.1, (hino j).1, (hino j).2.2.1, (hino j).2.2.2] at hj
          exact ⟨by simpa using hj.1, hj.2.1, hj.2.2⟩)
      (by rw [heff.2.2.1]; simpa [iunlink] using hip) h0 (by rw [hpath]; exact hdisk)
    refine ⟨s3, h3, ?_⟩
    rw [hd3]
    exact hdisk

theorem wC1_others (p : String) (j : Nat) (hj : j ≠ 1) :
    ¬ ((wC1.ino j).ref > 0 ∧ (wC1.ino j).dev = wK.ROOTDEV ∧ (wC1.ino j).path = p) ∨
      (j = 0 ∧ p = "/") := by
  have hN : wC1.NINODE = 2 := by decide
  rcases j with _ | _ | j
  · by_cases hp : p = "/"
    · exact Or.inr ⟨rfl, hp⟩
    · left
      rintro ⟨_, _, h3⟩
      have : (wC1.ino 0).path = "/" := by decide
      rw [this] at h3
      exact hp h3.symm
  · exact absurd rfl hj
  · left
    rw [ino_default_of_ge wC1 (j + 2) (by rw [hN]; omega)]
    rintro ⟨h1, _⟩
    exact absurd h1 (by decide)

theorem C22_unlink_and_last_put_remove_the_path_witness :
    (wC1.ino 0).type = T_DIR ∧ (wC1.ino 1).path = child_path (wC1.ino 0).path "a.txt" ∧
    (wC1.ino 1).ref = 1 ∧ wC1.faults = [] ∧ (wC1.disk.lookup "/a.txt").isSome = true ∧
    ((iunlink wC1 1).1 = 0 ∧
    ∃ s2, iput (iunlink wC1 1).2 1 = some s2 ∧ (s2.ino 1).ref = 0 ∧
      s2.log = wC1.log ++
        [if (wC1.ino 1).type = T_DIR then Ev.f_closedir 1 else Ev.f_close 1,
          Ev.f_unlink (child_path (wC1.ino 0).path "a.txt")] ∧
      s2.disk.lookup (child_path (wC1.ino 0).path "a.txt") = none ∧
      ∃ s3, dirlookup wK s2 0 "a.txt" = some (none, s3) ∧
        s3.disk.lookup (child_path (wC1.ino 0).path "a.txt") = none) :=
  ⟨by decide, by decide, by decide, by decide, by decide,
    C22_unlink_and_last_put_remove_the_path wK wC1 0 1 "a.txt" (by decide) (by decide)
      (by decide)
      (fun j hj => (wC1_others _ j hj).resolve_right (fun h => absurd h.2 (by decide)))
      (by decide)⟩

/-- C22 (counterexample): three runs in which the claim fails.  After `icreate` of `tmp`
and a `writei`, the page cache holds a reference on the inode: `iunlink` and the `iput` of
the caller's reference leave `ref` at 1, nothing is closed or unlinked, and `dirlookup`
returns the slot, `/tmp` being still on the lower FS.  When `f_unlink` fails, `iput` goes
on and the path stays: `dirlookup` opens it again.  And for an inode obtained by
`dirlookup` of the symlink `/l`, the path unlinked is the target `/b`: `/l` is still on the
lower FS. -/
theorem C22_path_survives_unlink_and_put :
    ((wU2.ino 1).ref = 2 ∧ (wU4.ino 1).ref = 1 ∧ wU4.log.contains (Ev.f_unlink "/tmp") = false ∧
      (dirlookup wK wU4 0 "tmp").map (fun r => r.1) = some (some 1) ∧
      (wU4.disk.lookup "/tmp").isSome = true) ∧
    ((wUF.ino 1).ref = 0 ∧ wUF.log.contains (Ev.f_unlink "/tmp") = true ∧
      (dirlookup wK wUF 0 "tmp").map (fun r => r.1) = some (some 1) ∧
      (wUF.disk.lookup "/tmp").isSome = true) ∧
    ((wUL.ino 1).ref = 0 ∧ wUL.log.contains (Ev.f_unlink "/b") = true ∧
      (dirlookup wK wUL 0 "l").map (fun r => r.1) = some none ∧
      (wUL.disk.lookup "/l").isSome = true) := by
  decide

/-! ## Lookups when no external call fails -/

theorem ReadOnly.refl_ro (e : Nat) (s : KState) : ReadOnly e s s :=
  ⟨rfl, rfl, rfl, rfl, fun h => h, fun _ _ => rfl, rfl, rfl, rfl⟩

theorem ReadOnly.trans_ro {e : Nat} {a b c : KState} (h1 : ReadOnly e a b)
    (h2 : ReadOnly e b c) : ReadOnly e a c := by
  obtain ⟨a1, a2, a3, a4, a5, a6, a7, a8, a9⟩ := h1
  obtain ⟨b1, b2, b3, b4, b5, b6, b7, b8, b9⟩ := h2
  exact ⟨b1.trans a1, b2.trans a2, b3.trans a3, b4.trans a4, fun h => b5 (a5 h),
    fun j hj => (b6 j hj).trans (a6 j hj), b7.trans a7, b8.trans a8, b9.trans a9⟩

theorem f_rewind_ro (s : KState) (e : Nat) : ReadOnly e s (f_rewind s e).2 := by
  unfold f_rewind
  refine ⟨(sameC_f_lseek s e 0).1, (sameC_f_lseek s e 0).2, f_lseek_disk s e 0,
    f_lseek_NINODE s e 0, fun h => (f_lseek_nf h e 0).2, fun j hj => ?_, ?_, ?_, ?_⟩
  · rw [f_lseek_ino, if_neg (fun x => hj x.2.1.symm)]
  all_goals
    rw [f_lseek_ino]
    split
    · first
        | rfl
        | (show max _ 0 = _; exact Nat.max_eq_left (Nat.zero_le _))
    · rfl

theorem f_read_ro (s : KState) (e n : Nat) : ReadOnly e s (f_read s e n).2.2.2 := by
  refine ⟨(sameC_f_read s e n).1, (sameC_f_read s e n).2, f_read_disk s e n,
    f_read_NINODE s e n, fun h => (f_read_nf h e n).2, fun j hj => ?_, ?_, ?_, ?_⟩
  · rw [f_read_ino, if_neg (fun x => hj x.2.1.symm)]
  all_goals
    rw [f_read_ino]
    split <;> rfl

/-- What a rewind followed by a read of `n` bytes delivers when no external call fails:
both calls succeed, and the bytes are the first `min n size` bytes of the file. -/
theorem rewind_read_nf {s : KState} {e : Nat} (hnf : s.faults = []) (he : e < s.NINODE)
    (n : Nat) :
    (f_rewind s e).1 = FRESULT.FR_OK ∧ (f_read (f_rewind s e).2 e n).1 = FRESULT.FR_OK ∧
    (f_read (f_rewind s e).2 e n).2.2.1 = min n (s.ino e).file.objsize ∧
    (f_read (f_rewind s e).2 e n).2.1 = (fun i => (s.ino e).file.data (0 + i)) := by
  have h1 := f_lseek_nf hnf e 0
  have hf1 : s.fault.1 = false := by rw [fault_nil s hnf]
  have hfile : ((f_lseek s e 0).2.ino e).file =
      { (s.ino e).file with objsize := max (s.ino e).file.objsize 0, fptr := 0 } := by
    rw [f_lseek_ino, if_pos ⟨hf1, rfl, he⟩]
  have hf2 : (f_lseek s e 0).2.fault.1 = false := by rw [fault_nil _ h1.2]
  obtain ⟨hd, hbr⟩ := f_read_data (f_lseek s e 0).2 e n hf2
  unfold f_rewind
  refine ⟨h1.1, (f_read_nf h1.2 e n).1, ?_, ?_⟩
  · rw [hbr, hfile]
    show min n (max (s.ino e).file.objsize 0 - 0) = _
    rw [Nat.max_eq_left (Nat.zero_le _), Nat.sub_zero]
  · rw [hd, hfile]

theorem after_dev_probe_ro (s : KState) (e : Nat) : ReadOnly e s (after_dev_probe s e) := by
  unfold after_dev_probe
  split
  · exact (f_rewind_ro s e).trans_ro (f_read_ro _ e 8)
  · exact f_rewind_ro s e

theorem after_sym_probe_ro (K : Consts) (s : KState) (e : Nat) :
    ReadOnly e s (after_sym_probe K s e) := by
  unfold after_sym_probe
  split
  · exact (f_rewind_ro s e).trans_ro (f_read_ro _ e _)
  · exact f_rewind_ro s e

theorem dev_record_nf {s : KState} {e : Nat} (hnf : s.faults = []) (he : e < s.NINODE)
    (i : Nat) (hi : i < min 8 (s.ino e).file.objsize) :
    dev_record s e i = (s.ino e).file.data i := by
  obtain ⟨_, _, hbr, hd⟩ := rewind_read_nf hnf he 8
  unfold dev_record
  rw [hbr, hd, blit_in _ _ _ _ _ _ (Nat.zero_le _) (by omega)]
  simp

theorem le32_congr {m m' : Mem} (h : ∀ i, i < 4 → m i = m' i) : le32 m = le32 m' := by
  unfold le32
  rw [h 0 (by omega), h 1 (by omega), h 2 (by omega), h 3 (by omega)]

theorem le16s_congr {m m' : Mem} {k : Nat} (h0 : m k = m' k) (h1 : m (k + 1) = m' (k + 1)) :
    le16s m k = le16s m' k := by
  unfold le16s
  rw [h0, h1]

/-- The device probe succeeds on a file of at least 8 bytes that starts with
`DEVICE_MAGIC`, when no external call fails. -/
theorem dev_probe_nf {K : Consts} {s : KState} {e : Nat} (hnf : s.faults = [])
    (he : e < s.NINODE) (hsz : 8 ≤ (s.ino e).file.objsize)
    (hmagic : le32 (s.ino e).file.data = K.DEVICE_MAGIC) :
    dev_probe K s e ∧ le16s (dev_record s e) 4 = le16s (s.ino e).file.data 4 ∧
    le16s (dev_record s e) 6 = le16s (s.ino e).file.data 6 := by
  obtain ⟨h1, h2, hbr, _⟩ := rewind_read_nf hnf he 8
  have hrec : ∀ i, i < 8 → dev_record s e i = (s.ino e).file.data i :=
    fun i hi => dev_record_nf hnf he i (by omega)
  refine ⟨⟨h1, h2, by rw [hbr]; omega, ?_⟩, le16s_congr (hrec 4 (by omega)) (hrec 5 (by omega)),
    le16s_congr (hrec 6 (by omega)) (hrec 7 (by omega))⟩
  rw [← hmagic]
  exact le32_congr (fun i hi => hrec i (by omega))

/-- The device probe fails on a file that does not start with `DEVICE_MAGIC`. -/
theorem dev_probe_not {K : Consts} {s : KState} {e : Nat} (hnf : s.faults = [])
    (he : e < s.NINODE) (hmagic : le32 (s.ino e).file.data ≠ K.DEVICE_MAGIC) :
    ¬ dev_probe K s e := by
  rintro ⟨_, _, h3, h4⟩
  obtain ⟨_, _, hbr, _⟩ := rewind_read_nf hnf he 8
  rw [hbr] at h3
  apply hmagic
  rw [← h4]
  exact (le32_congr (fun i hi => dev_record_nf hnf he i (by omega))).symm

theorem f_opendir_file {s : KState} {p : String} {sz : Nat} {d : Mem} (e : Nat)
    (hnf : s.faults = []) (h : s.disk.lookup p = some (Node.file sz d)) :
    (f_opendir s e p).1 = FRESULT.FR_ERR ∧ (f_opendir s e p).2 = s.emit (Ev.f_opendir e p) := by
  unfold f_opendir
  rw [fault_nil s hnf]
  dsimp only
  rw [if_neg (by simp)]
  have : List.lookup p (s.emit (Ev.f_opendir e p)).disk = some (Node.file sz d) := h
  rw [this]
  exact ⟨rfl, rfl⟩

theorem f_open_file {s : KState} {p : String} {sz : Nat} {d : Mem} (e : Nat)
    (hnf : s.faults = []) (h : s.disk.lookup p = some (Node.file sz d)) :
    (f_open s e p false).1 = FRESULT.FR_OK ∧
    (f_open s e p false).2 =
      (s.emit (Ev.f_open e p false)).setFile e { objsize := sz, data := d, fptr := 0, path := p } := by
  unfold f_open
  rw [fault_nil s hnf]
  dsimp only
  rw [if_neg (by simp)]
  have : List.lookup p (s.emit (Ev.f_open e p false)).disk = some (Node.file sz d) := h
  rw [this]
  exact ⟨rfl, rfl⟩

/-- The first two calls of a lookup that misses the table, on a path that is a file of the
lower FS, when no external call fails: `f_opendir` fails, `f_open` succeeds, and the probe
runs on the state `t` in which the handle of slot `e` is open on the file. -/
theorem dirlookup_file_nf {K : Consts} {s : KState} {dp e : Nat} {name : String} {sz : Nat}
    {d : Mem} (hdp : (s.ino dp).type = T_DIR)
    (hscan : scan_path K s (child_path (s.ino dp).path name) = some (Sum.inr e))
    (hnf : s.faults = [])
    (hdisk : s.disk.lookup (child_path (s.ino dp).path name) = some (Node.file sz d)) :
    ∃ t, dirlookup K s dp name =
        some (dirlookup_file K t e (child_path (s.ino dp).path name)) ∧
      t.faults = [] ∧ t.NINODE = s.NINODE ∧ t.cache = s.cache ∧ t.lru = s.lru ∧
      t.disk = s.disk ∧ (∀ j, j ≠ e → t.ino j = s.ino j) ∧
      (t.ino e).file = { objsize := sz, data := d, fptr := 0,
                         path := child_path (s.ino dp).path name } := by
  have he := (scan_path_inr hscan).1
  obtain ⟨h1, h1s⟩ := f_opendir_file e hnf hdisk
  have hnf2 : (f_opendir s e (child_path (s.ino dp).path name)).2.faults = [] := by
    rw [h1s]; exact hnf
  have hdisk2 : (f_opendir s e (child_path (s.ino dp).path name)).2.disk.lookup
      (child_path (s.ino dp).path name) = some (Node.file sz d) := by
    rw [h1s]; exact hdisk
  obtain ⟨h2, h2s⟩ := f_open_file e hnf2 hdisk2
  refine ⟨(f_open (f_opendir s e (child_path (s.ino dp).path name)).2 e
    (child_path (s.ino dp).path name) false).2, ?_, ?_, ?_, ?_, ?_, ?_, ?_, ?_⟩
  · rw [dirlookup_miss hdp hscan, if_neg (by rw [h1]; simp), if_pos h2]
  · rw [h2s, h1s]; exact hnf
  · rw [h2s, h1s]; simp
  · rw [h2s, h1s]; rfl
  · rw [h2s, h1s]; rfl
  · rw [h2s, h1s]; rfl
  · intro j hj
    rw [h2s, h1s, setFile_ino, if_neg (fun x => hj x.1.symm)]
    rfl
  · rw [h2s, h1s, setFile_ino, if_pos ⟨rfl, by simpa using he⟩]

/-- Lookup of a device file: a path that no live slot holds and on which the lower FS has a
file of at least 8 bytes that starts with `DEVICE_MAGIC` is opened as a device, with the
major and minor numbers of the record, when no external call fails. -/
theorem dirlookup_device_nf {K : Consts} {s : KState} {dp e : Nat} {name : String} {sz : Nat}
    {d : Mem} (hdp : (s.ino dp).type = T_DIR)
    (hscan : scan_path K s (child_path (s.ino dp).path name) = some (Sum.inr e))
    (hnf : s.faults = [])
    (hdisk : s.disk.lookup (child_path (s.ino dp).path name) = some (Node.file sz d))
    (hsz : 8 ≤ sz) (hmagic : le32 d = K.DEVICE_MAGIC) :
    ∃ s', dirlookup K s dp name = some (some e, s') ∧ (s'.ino e).type = T_DEVICE ∧
      (s'.ino e).major = le16s d 4 ∧ (s'.ino e).minor = le16s d 6 ∧ (s'.ino e).ref = 1 ∧
      (s'.ino e).path = child_path (s.ino dp).path name ∧ (s'.ino e).dev = K.ROOTDEV ∧
      (s'.ino e).unlinked = 0 ∧ (s'.ino e).new_path = "" := by
  have he := (scan_path_inr hscan).1
  obtain ⟨t, hlook, htf, htN, _, _, _, _, hfile⟩ := dirlookup_file_nf hdp hscan hnf hdisk
  have het : e < t.NINODE := by rw [htN]; exact he
  obtain ⟨hp, hmaj, hmin⟩ := @dev_probe_nf K t e htf het (by rw [hfile]; exact hsz)
    (by rw [hfile]; exact hmagic)
  rw [dirlookup_file_dev _ hp] at hlook
  obtain ⟨a1, a2, a3, a4, a5, a6, _, a8⟩ := open_slot_fields K (after_dev_probe t e) e
    T_DEVICE (child_path (s.ino dp).path name) (by rw [after_dev_probe_NINODE]; exact het)
  refine ⟨_, hlook, ?_⟩
  rw [setIno_ino, if_pos ⟨rfl, by rw [a8, after_dev_probe_NINODE]; exact het⟩]
  rw [hfile] at hmaj hmin
  exact ⟨a3, hmaj, hmin, a1, a4, a2, a5, a6⟩

/-! ## Device files -/

theorem byte_sum16 (x : Nat) (hx : x < 65536) : x / 256 ^ 0 % 256 + 256 * (x / 256 ^ 1 % 256) = x := by
  norm_num
  omega

theorem le32_device_bytes (M : Nat) (a b : Int) (hM : M < 2 ^ 32) :
    le32 (device_bytes M a b) = M := by
  unfold le32 device_bytes
  norm_num
  omega

theorem le16s_device_major (M : Nat) (a b : Int) (ha : -32768 ≤ a ∧ a < 32768) :
    le16s (device_bytes M a b) 4 = a := by
  have hx : (a % 65536).toNat < 65536 := by omega
  have h0 : device_bytes M a b 4 = (a % 65536).toNat / 256 ^ 0 % 256 := by
    unfold device_bytes; norm_num
  have h1 : device_bytes M a b (4 + 1) = (a % 65536).toNat / 256 ^ 1 % 256 := by
    unfold device_bytes; norm_num
  unfold le16s
  rw [h0, h1, byte_sum16 _ hx]
  split <;> omega

theorem le16s_device_minor (M : Nat) (a b : Int) (hb : -32768 ≤ b ∧ b < 32768) :
    le16s (device_bytes M a b) 6 = b := by
  have hx : (b % 65536).toNat < 65536 := by omega
  have h0 : device_bytes M a b 6 = (b % 65536).toNat / 256 ^ 0 % 256 := by
    unfold device_bytes; norm_num
  have h1 : device_bytes M a b (6 + 1) = (b % 65536).toNat / 256 ^ 1 % 256 := by
    unfold device_bytes; norm_num
  unfold le16s
  rw [h0, h1, byte_sum16 _ hx]
  split <;> omega

theorem icreate_device_cases {K : Consts} {s s1 : KState} {dp ip : Nat} {name : String}
    {major minor : Int}
    (h : icreate K s dp name T_DEVICE major minor = some (some ip, s1)) :
    (scan_path K s (child_path (s.ino dp).path name) = some (Sum.inl ip) ∧
      s1 = s.setIno ip { s.ino ip with ref := (s.ino ip).ref + 1 }) ∨
    (scan_path K s (child_path (s.ino dp).path name) = some (Sum.inr ip) ∧
      (f_open s ip (child_path (s.ino dp).path name) true).1 = FRESULT.FR_OK ∧
      s1 = (open_slot K (f_write (f_open s ip (child_path (s.ino dp).path name) true).2 ip
          (device_bytes K.DEVICE_MAGIC major minor) 8).2.2 ip T_DEVICE
          (child_path (s.ino dp).path name)).setIno ip
        { (open_slot K (f_write (f_open s ip (child_path (s.ino dp).path name) true).2 ip
            (device_bytes K.DEVICE_MAGIC major minor) 8).2.2 ip T_DEVICE
            (child_path (s.ino dp).path name)).ino ip with
          major := le16s (device_bytes K.DEVICE_MAGIC major minor) 4,
          minor := le16s (device_bytes K.DEVICE_MAGIC major minor) 6 }) := by
  unfold icreate at h
  split at h
  · cases h
  · dsimp only at h
    split at h
    · cases h
    · rename_i i hscan
      cases h
      exact Or.inl ⟨hscan, rfl⟩
    · rename_i e hscan
      rw [if_neg (by decide), if_neg (by decide), if_pos rfl] at h
      split at h
      · cases h
      · rename_i hok
        simp only [ne_eq, not_not] at hok
        split at h
        · cases h
        · cases h
          exact Or.inr ⟨hscan, hok, rfl⟩

theorem f_write_disk (s : KState) (ip : Nat) (buf : Mem) (n : Nat) :
    (f_write s ip buf n).2.2.disk = s.disk := by
  unfold f_write
  split <;> simp

theorem f_close_file {s : KState} {ip : Nat} {a : Nat} {b : Mem} (hnf : s.faults = [])
    (h : s.disk.lookup (s.ino ip).file.path = some (Node.file a b)) :
    (f_close s ip).1 = FRESULT.FR_OK ∧
    (f_close s ip).2 = { s.emit (Ev.f_close ip) with
      disk := ((s.ino ip).file.path, Node.file (s.ino ip).file.objsize (s.ino ip).file.data) ::
        diskRemove s.disk (s.ino ip).file.path } := by
  unfold f_close
  rw [fault_nil s hnf]
  dsimp only
  rw [if_neg (by simp)]
  have : List.lookup ((s.emit (Ev.f_close ip)).ino ip).file.path (s.emit (Ev.f_close ip)).disk =
      some (Node.file a b) := h
  rw [this]
  exact ⟨rfl, rfl⟩

/-- The last `iput` of a file with nothing deferred, when no external call fails: the
handle is closed, which makes what was written through it the contents of the file. -/
theorem iput_last_plain {s : KState} {ip : Nat} {a : Nat} {b : Mem} (hnf : s.faults = [])
    (hr : (s.ino ip).ref = 1) (hu : (s.ino ip).unlinked = 0)
    (hn : (s.ino ip).new_path.length = 0) (ht : (s.ino ip).type ≠ T_DIR)
    (hd : s.disk.lookup (s.ino ip).file.path = some (Node.file a b)) :
    ∃ s', iput s ip = some s' ∧ s'.faults = [] ∧ s'.cache = s.cache ∧ s'.lru = s.lru ∧
      s'.NINODE = s.NINODE ∧ (∀ j, j ≠ ip → s'.ino j = s.ino j) ∧
      s'.ino ip = { s.ino ip with ref := 0 } ∧
      s'.disk = ((s.ino ip).file.path,
        Node.file (s.ino ip).file.objsize (s.ino ip).file.data) ::
          diskRemove s.disk (s.ino ip).file.path := by
  have hip : ip < s.NINODE := ref_pos_lt (by rw [hr]; decide)
  obtain ⟨h1, h1s⟩ := f_close_file hnf hd
  have hcl : iput_close s ip = f_close s ip := by
    unfold iput_close; rw [if_neg ht]
  obtain ⟨_, _, _, hu', hn', _, _, _⟩ := iput_close_ino_ref s ip ip
  have hput : iput s ip = some ((f_close s ip).2.setIno ip
      { (f_close s ip).2.ino ip with ref := ((f_close s ip).2.ino ip).ref - 1 }) := by
    unfold iput
    rw [if_pos (by omega), if_pos hr]
    unfold iput_last
    rw [hcl] at hu' hn' ⊢
    rw [if_neg (by rw [h1]; simp)]
    unfold iput_deferred
    rw [hu', hn', if_neg (by simp [hu]), if_neg (by simp [hn])]
  have hino : ∀ j, (f_close s ip).2.ino j = s.ino j := fun j => ino_congr (f_close_inode s ip) j
  refine ⟨_, hput, ?_, ?_, ?_, ?_, fun j hj => ?_, ?_, ?_⟩
  · show (f_close s ip).2.faults = []
    exact (f_close_nf hnf ip).2
  · exact (sameC_f_close s ip).1
  · exact (sameC_f_close s ip).2
  · rw [setIno_NINODE]; exact NINODE_congr (f_close_inode s ip)
  · rw [setIno_ino, if_neg (fun x => hj x.1.symm), hino]
  · rw [setIno_ino, if_pos ⟨rfl, by rw [NINODE_congr (f_close_inode s ip)]; exact hip⟩, hino,
      hr]
    rfl
  · show (f_close s ip).2.disk = _
    rw [h1s]

/-- C24 (as amended): let no live slot hold the path built from `dp` and `name`, let no
external call fail, and let `major` and `minor` be in the range of a signed 16-bit integer
(`DEVICE_MAGIC` being a `u32`).  When `icreate(dp, name, T_DEVICE, major, minor)` returns
an inode, it is a device inode with these numbers and `ref` 1; its `iput` returns and frees
the slot; and the following `dirlookup(dp, name)` returns an inode of type `T_DEVICE` with
`major` and `minor`.  More generally a file of 8 bytes holding the record
`(DEVICE_MAGIC, major, minor)`, at a path that fits the buffer `char path[MAXPATH]` in which
`dirlookup` builds it, is opened by `dirlookup` as a device with these numbers, and the path
stored in the inode is that path. -/
theorem C24_device_numbers_survive_reopen (K : Consts) (s : KState) (dp : Nat) (name : String)
    (major minor : Int) (hK : K.DEVICE_MAGIC < 2 ^ 32)
    (hmaj : -32768 ≤ major ∧ major < 32768) (hmin : -32768 ≤ minor ∧ minor < 32768)
    (hdp : (s.ino dp).type = T_DIR)
    (hnone : ∀ j, ¬ ((s.ino j).ref > 0 ∧ (s.ino j).dev = K.ROOTDEV ∧
      (s.ino j).path = child_path (s.ino dp).path name))
    (hnf : s.faults = []) :
    (∀ ip s1, (s.ino dp).ref > 0 →
      icreate K s dp name T_DEVICE major minor = some (some ip, s1) →
      ((s1.ino ip).type = T_DEVICE ∧ (s1.ino ip).major = major ∧ (s1.ino ip).minor = minor ∧
        (s1.ino ip).ref = 1) ∧
      ∃ s2, iput s1 ip = some s2 ∧ (s2.ino ip).ref = 0 ∧
        ∃ r s3, dirlookup K s2 dp name = some (some r, s3) ∧ (s3.ino r).type = T_DEVICE ∧
          (s3.ino r).major = major ∧ (s3.ino r).minor = minor ∧ (s3.ino r).ref = 1) ∧
    (∀ f, f < s.NINODE → (s.ino f).ref = 0 →
      (child_path (s.ino dp).path name).length < K.MAXPATH →
      s.disk.lookup (child_path (s.ino dp).path name) =
        some (Node.file 8 (device_bytes K.DEVICE_MAGIC major minor)) →
      ∃ r s', dirlookup K s dp name = some (some r, s') ∧ (s'.ino r).type = T_DEVICE ∧
        (s'.ino r).major = major ∧ (s'.ino r).minor = minor ∧ (s'.ino r).ref = 1 ∧
        (s'.ino r).path = child_path (s.ino dp).path name ∧
        (s'.ino r).path.length < K.MAXPATH) := by
  constructor
  · intro ip s1 hdpr hc
    rcases icreate_device_cases hc with ⟨hscan, _⟩ | ⟨hscan, hok, hs1⟩
    · exact absurd (scan_path_inl_iff.mp hscan).2.1 (hnone ip)
    obtain ⟨he, href⟩ := scan_path_inr hscan
    have hne : ip ≠ dp := by
      intro hx; rw [hx] at href; omega
    generalize hP : child_path (s.ino dp).path name = P at *
    generalize hB : device_bytes K.DEVICE_MAGIC major minor = B at *
    -- the state after the create-open
    obtain ⟨_, _, hNo, hinoo⟩ := f_open_create hok
    have hoeq := f_open_create_eq hok
    have hfo : (f_open s ip P true).2.faults = [] := by
      rw [hoeq]
      show s.fault.2.faults = []
      rw [fault_nil s hnf]; exact hnf
    have hdo : (f_open s ip P true).2.disk = (P, Node.file 0 zeroMem) :: diskRemove s.disk P := by
      rw [hoeq]
      show (P, Node.file 0 zeroMem) :: diskRemove s.fault.2.disk P = _
      simp
    -- the state after the write of the record
    have hf1 : (f_open s ip P true).2.fault.1 = false := by rw [fault_nil _ hfo]
    have hNw : (f_write (f_open s ip P true).2 ip B 8).2.2.NINODE = s.NINODE := by
      rw [f_write_NINODE, hNo]
    have hinow : ∀ j, (f_write (f_open s ip P true).2 ip B 8).2.2.ino j =
        if ip = j then
          { s.ino ip with file := { objsize := 8, data := blit zeroMem 0 B 0 8, fptr := 8, path := P } }
        else s.ino j := by
      intro j
      rw [f_write_ino]
      by_cases hj : ip = j
      · rw [if_pos ⟨hf1, hj, by rw [hNo]; exact he⟩, if_pos hj, hinoo, if_pos ⟨rfl, he⟩]
        rfl
      · rw [if_neg (fun x => hj x.2.1), if_neg hj, hinoo, if_neg (fun x => hj x.1)]
    have hfw : (f_write (f_open s ip P true).2 ip B 8).2.2.faults = [] :=
      (f_write_nf hfo ip B 8).2.2
    have hdw : (f_write (f_open s ip P true).2 ip B 8).2.2.disk =
        (P, Node.file 0 zeroMem) :: diskRemove s.disk P := by
      rw [f_write_disk, hdo]
    -- the state returned by `icreate`
    have hN1 : s1.NINODE = s.NINODE := by
      rw [hs1, setIno_NINODE]
      unfold open_slot
      rw [setIno_NINODE, hNw]
    have hino1 : ∀ j, s1.ino j =
        if ip = j then
          { s.ino ip with
            file := { objsize := 8, data := blit zeroMem 0 B 0 8, fptr := 8, path := P },
            dev := K.ROOTDEV, ref := 1, type := T_DEVICE, path := P, unlinked := 0,
            new_path := "", major := le16s B 4, minor := le16s B 6 }
        else s.ino j := by
      intro j
      rw [hs1, setIno_ino]
      have hNos : (open_slot K (f_write (f_open s ip P true).2 ip B 8).2.2 ip T_DEVICE P).NINODE =
          s.NINODE := by
        unfold open_slot; rw [setIno_NINODE, hNw]
      by_cases hj : ip = j
      · rw [if_pos ⟨hj, by rw [hNos]; exact he⟩, if_pos hj, open_slot_ino,
          if_pos ⟨rfl, by rw [hNw]; exact he⟩, hinow, if_pos rfl]
      · rw [if_neg (fun x => hj x.1), if_neg hj, open_slot_ino, if_neg (fun x => hj x.1), hinow,
          if_neg hj]
    have hip1 := hino1 ip
    rw [if_pos rfl] at hip1
    have hf1' : s1.faults = [] := by rw [hs1]; exact hfw
    have hd1 : s1.disk = (P, Node.file 0 zeroMem) :: diskRemove s.disk P := by
      rw [hs1]; exact hdw
    have hmajor : le16s B 4 = major := by rw [← hB]; exact le16s_device_major _ _ _ hmaj
    have hminor : le16s B 6 = minor := by rw [← hB]; exact le16s_device_minor _ _ _ hmin
    refine ⟨by rw [hip1]; exact ⟨rfl, hmajor, hminor, rfl⟩, ?_⟩
    -- the last `iput`
    obtain ⟨s2, hput, hf2, _, _, hN2, hino2, hip2, hd2⟩ :=
      @iput_last_plain s1 ip 0 zeroMem hf1' (by rw [hip1]) (by rw [hip1]) (by rw [hip1]; rfl)
        (by rw [hip1]; show T_DEVICE ≠ T_DIR; decide)
        (by
          rw [hip1, hd1]
          show List.lookup P ((P, Node.file 0 zeroMem) :: diskRemove s.disk P) = _
          rw [List.lookup_cons]
          simp)
    refine ⟨s2, hput, by rw [hip2], ?_⟩
    -- the lookup
    have hdp2 : s2.ino dp = s.ino dp := by
      rw [hino2 dp (Ne.symm hne), hino1, if_neg hne]
    have hnone2 : ∀ j, ¬ ((s2.ino j).ref > 0 ∧ (s2.ino j).dev = K.ROOTDEV ∧
        (s2.ino j).path = child_path (s2.ino dp).path name) := by
      intro j hj
      rw [hdp2, hP] at hj
      by_cases hji : j = ip
      · rw [hji, hip2] at hj
        exact absurd hj.1 (by show ¬ ((0 : Int) > 0); decide)
      · rw [hino2 j hji, hino1, if_neg (Ne.symm hji)] at hj
        exact hnone j hj
    obtain ⟨e, _, hscan2⟩ := scan_path_free_exists hnone2 (by rw [hN2, hN1]; exact he)
      (by rw [hip2])
    have hdisk2 : s2.disk.lookup (child_path (s2.ino dp).path name) =
        some (Node.file 8 (blit zeroMem 0 B 0 8)) := by
      rw [hdp2, hP, hd2, hip1]
      show List.lookup P ((P, Node.file 8 (blit zeroMem 0 B 0 8)) :: _) = _
      rw [List.lookup_cons]
      simp
    have hblit : ∀ i, i < 8 → blit zeroMem 0 B 0 8 i = B i := by
      intro i hi
      rw [blit_in _ _ _ _ _ _ (Nat.zero_le _) (by omega)]
      simp
    obtain ⟨s3, hlook, hty, hma, hmi, hre, _⟩ := dirlookup_device_nf
      (by rw [hdp2]; exact hdp) hscan2 hf2 hdisk2 (Nat.le_refl 8)
      (by
        rw [le32_congr (fun i hi => hblit i (by omega)), ← hB]
        exact le32_device_bytes _ _ _ hK)
    refine ⟨e, s3, hlook, hty, ?_, ?_, hre⟩
    · rw [hma, le16s_congr (hblit 4 (by omega)) (hblit 5 (by omega))]; exact hmajor
    · rw [hmi, le16s_congr (hblit 6 (by omega)) (hblit 7 (by omega))]; exact hminor
  · intro f hf hf0 hfit hdisk
    obtain ⟨e, _, hscan⟩ := scan_path_free_exists hnone hf hf0
    obtain ⟨s', hlook, hty, hma, hmi, hre, hpa, _⟩ := dirlookup_device_nf hdp hscan hnf hdisk
      (Nat.le_refl 8) (le32_device_bytes _ _ _ hK)
    exact ⟨e, s', hlook, hty, by rw [hma]; exact le16s_device_major _ _ _ hmaj,
      by rw [hmi]; exact le16s_device_minor _ _ _ hmin, hre, hpa, by rw [hpa]; exact hfit⟩

theorem wC0_none (p : String) (hp : p ≠ "/") (j : Nat) :
    ¬ ((wC0.ino j).ref > 0 ∧ (wC0.ino j).dev = wK.ROOTDEV ∧ (wC0.ino j).path = p) := by
  have hN : wC0.NINODE = 2 := by decide
  rintro ⟨h1, _, h3⟩
  rcases j with _ | _ | j
  · have : (wC0.ino 0).path = "/" := by decide
    rw [this] at h3
    exact hp h3.symm
  · exact absurd h1 (by decide)
  · rw [ino_default_of_ge wC0 (j + 2) (by rw [hN]; omega)] at h1
    exact absurd h1 (by decide)

theorem wD1_run : icreate wK wC0 0 "dev" T_DEVICE 1 2 = some (some 1, wD1) := rfl

theorem C24_device_numbers_survive_reopen_witness :
    (wK.DEVICE_MAGIC < 2 ^ 32 ∧ (wC0.ino 0).type = T_DIR ∧ wC0.faults = [] ∧
      (wC0.ino 0).ref > 0) ∧
    (((wD1.ino 1).type = T_DEVICE ∧ (wD1.ino 1).major = 1 ∧ (wD1.ino 1).minor = 2 ∧
        (wD1.ino 1).ref = 1) ∧
      ∃ s2, iput wD1 1 = some s2 ∧ (s2.ino 1).ref = 0 ∧
        ∃ r s3, dirlookup wK s2 0 "dev" = some (some r, s3) ∧ (s3.ino r).type = T_DEVICE ∧
          (s3.ino r).major = 1 ∧ (s3.ino r).minor = 2 ∧ (s3.ino r).ref = 1) ∧
    ((child_path (wDev.ino 0).path "dev").length < wK.MAXPATH ∧
      ∃ r s', dirlookup wK wDev 0 "dev" = some (some r, s') ∧ (s'.ino r).type = T_DEVICE ∧
        (s'.ino r).major = 1 ∧ (s'.ino r).minor = 2 ∧ (s'.ino r).ref = 1 ∧
        (s'.ino r).path = child_path (wDev.ino 0).path "dev" ∧
        (s'.ino r).path.length < wK.MAXPATH) ∧
    (dirlookup wK wDev 0 "dev").map
      (fun r => (r.1, (r.2.ino 1).type, (r.2.ino 1).major, (r.2.ino 1).minor)) =
      some (some 1, T_DEVICE, 1, 2) :=
  ⟨⟨by decide, by decide, by decide, by decide⟩,
    (C24_device_numbers_survive_reopen wK wC0 0 "dev" 1 2 (by decide) (by decide) (by decide)
      (by decide) (wC0_none _ (by decide)) (by decide)).1 1 wD1 (by decide) wD1_run,
    ⟨by decide,
      (C24_device_numbers_survive_reopen wK wDev 0 "dev" 1 2 (by decide) (by decide) (by decide)
        (by decide) (wC0_none _ (by decide)) (by decide)).2 1 (by decide) (by decide)
        (by decide) rfl⟩,
    by decide⟩

/-- C24 (counterexample): two runs in which the inode returned by the final `dirlookup` is a
regular file.  In the first the read of the device probe fails (the seventh fallible
external call): `icreate(root, "dev", T_DEVICE, 1, 2)` returned a device inode, its `iput`
freed the slot, and `dirlookup(root, "dev")` falls through to the plain-file branch.  In the
second the path is open as a regular file before: `icreate(root, "a.txt", T_DEVICE, 1, 2)`
returns that slot, and after its references are put the file is looked up as what it is. -/
theorem C24_device_reopened_as_regular_file :
    ((icreate wK { wC0 with faults := List.replicate 6 false ++ [true] } 0 "dev" T_DEVICE 1 2).map
        (fun r => (r.1, (r.2.ino 1).type, (r.2.ino 1).major, (r.2.ino 1).minor)) =
        some (some 1, T_DEVICE, 1, 2) ∧
      (wD2.ino 1).ref = 0 ∧
      (dirlookup wK wD2 0 "dev").map (fun r => (r.1, (r.2.ino 1).type)) =
        some (some 1, T_FILE)) ∧
    ((icreate wK wC1 0 "a.txt" T_DEVICE 1 2).map (fun r => (r.1, (r.2.ino 1).type)) =
        some (some 1, T_FILE) ∧
      (wD3.ino 1).ref = 0 ∧
      (dirlookup wK wD3 0 "a.txt").map (fun r => (r.1, (r.2.ino 1).type)) =
        some (some 1, T_FILE)) := by
  decide

/-! ## The inode-table lock after a failed lookup -/

/-- On the branch of `dirlookup` that finds a symlink record whose target cannot be opened,
the function returns NULL and the table lock is as it was acquired. -/
theorem dirlookup_file_lock_kept {K : Consts} {s : KState} {e : Nat} (path : String)
    (lk : Bool) (h1 : ¬ dev_probe K s e) (h2 : sym_probe K (after_dev_probe s e) e)
    (h3 : (sym_reopen K (after_dev_probe s e) e).1 ≠ FRESULT.FR_OK) :
    (dirlookup_file K s e path).1 = none ∧ dirlookup_file_lock K s e lk = lk := by
  constructor
  · rw [dirlookup_file_sym path h1 h2, if_pos h3]
  · have h1' := h1
    have h2' := h2
    have h3' := h3
    unfold dev_probe dev_record at h1'
    unfold sym_probe sym_record after_dev_probe at h2'
    unfold sym_reopen sym_target sym_record after_sym_probe after_dev_probe at h3'
    unfold dirlookup_file_lock
    dsimp only
    rw [if_neg h1', if_pos h2', if_pos h3']

/-- A call on the inode table that finds the table lock held does not return. -/
theorem locked_call_blocked {α : Type} (body : Option α) :
    locked_call true body = Outcome.blocked := rfl

/-- C27 (evaluation at the failing input): with the root open in slot 0 and `/l` a symlink
record whose target `/b` does not exist, `dirlookup(root, "l")` returns NULL and leaves
every `ref` as it was, but it returns with the inode-table lock held: a following
`iget_root`, `dirlookup`, `icreate`, `idup` or `iput` sleeps on the lock and does not
complete.  The lookup of a name that does not exist, by contrast, returns NULL with the lock
released, and the calls that follow complete. -/
theorem C27_failed_symlink_lookup_keeps_the_table_lock :
    (dirlookup_lk wK wDang false 0 "l").map (fun r => (r.1.1, r.2)) =
      Outcome.ret (none, true) ∧
    (dirlookup_lk wK wDang false 0 "l").map
        (fun r => ((r.1.2.ino 0).ref, (r.1.2.ino 1).ref, (r.1.2.ino 2).ref,
          (r.1.2.ino 3).ref)) =
      Outcome.ret (1, 0, 0, 0) ∧
    ((wDang.ino 0).ref, (wDang.ino 1).ref, (wDang.ino 2).ref, (wDang.ino 3).ref) =
      (1, 0, 0, 0) ∧
    (dirlookup wK wDang 0 "l").map (fun r => r.2.log.drop wDang.log.length) =
      some [Ev.f_opendir 1 "/l", Ev.f_open 1 "/l" false, Ev.f_lseek 1 0, Ev.f_read 1 8,
        Ev.f_lseek 1 0, Ev.f_read 1 20, Ev.f_close 1, Ev.f_open 1 "/b" false] ∧
    (iget_root_lk wK wDang1 true).map (fun _ => ()) = Outcome.blocked ∧
    (dirlookup_lk wK wDang1 true 0 "l").map (fun _ => ()) = Outcome.blocked ∧
    (icreate_lk wK wDang1 true 0 "c" T_FILE 0 0).map (fun _ => ()) = Outcome.blocked ∧
    (idup_lk wDang1 true 0).map (fun _ => ()) = Outcome.blocked ∧
    (iput_lk wDang1 true 0).map (fun _ => ()) = Outcome.blocked ∧
    (dirlookup_lk wK wDang false 0 "x").map (fun r => (r.1.1, r.2)) =
      Outcome.ret (none, false) ∧
    (iget_root_lk wK wDang false).map (fun r => (r.1.1, r.2)) = Outcome.ret (0, false) :=
  ⟨by decide, by decide, by decide, by decide, by decide, by decide, by decide, by decide,
    by decide, by decide, by decide⟩

/-! ## Path resolution -/

theorem Outcome.map_ret {α β : Type} (a : α) (f : α → β) :
    (Outcome.ret a).map f = Outcome.ret (f a) := rfl

theorem Outcome.map_bind {α β γ : Type} (o : Outcome α) (f : α → Outcome β) (g : β → γ) :
    (o.bind f).map g = o.bind (fun a => (f a).map g) := by
  cases o <;> rfl

theorem Outcome.bind_assoc {α β γ : Type} (o : Outcome α) (f : α → Outcome β)
    (g : β → Outcome γ) : (o.bind f).bind g = o.bind (fun a => (f a).bind g) := by
  cases o <;> rfl

theorem Outcome.bind_congr {α β : Type} (o : Outcome α) {f g : α → Outcome β}
    (h : ∀ a, o = Outcome.ret a → f a = g a) : o.bind f = o.bind g := by
  cases o with
  | ret a => exact h a rfl
  | panic => rfl
  | blocked => rfl

theorem skipelem_none_iff (DIRSIZ : Nat) (path name : List Char) :
    skipelem DIRSIZ path name = none ↔ ∀ x ∈ path, x = '/' := by
  unfold skipelem
  dsimp only
  constructor
  · intro h
    split at h
    · rename_i hnil
      intro x hx
      simpa using List.dropWhile_eq_nil_iff.mp hnil x hx
    · cases h
  · intro h
    rw [if_pos]
    rw [List.dropWhile_eq_nil_iff]
    intro x hx
    simpa using h x hx

theorem skipelem_shorter {DIRSIZ : Nat} {path name rest name1 : List Char}
    (h : skipelem DIRSIZ path name = some (rest, name1)) : rest.length < path.length := by
  obtain ⟨⟨a, b, hp, _⟩, hne, _⟩ := skipelem_split h
  have hl := congrArg List.length hp
  simp only [List.length_append] at hl
  have : 0 < (first_component path).length := List.length_pos.mpr hne
  omega

theorem dropWhile_all_append {α : Type} (p : α → Bool) (l r : List α)
    (h : ∀ x ∈ l, p x = true) : (l ++ r).dropWhile p = r.dropWhile p := by
  induction l with
  | nil => rfl
  | cons x xs ih =>
    rw [List.cons_append, List.dropWhile_cons, if_pos (h x (List.mem_cons_self _ _))]
    exact ih (fun y hy => h y (List.mem_cons_of_mem _ hy))

theorem dropWhile_head_stop {α : Type} (p : α → Bool) (l : List α)
    (h : ∀ x, l.head? = some x → p x = false) : l.dropWhile p = l := by
  cases l with
  | nil => rfl
  | cons x xs => rw [List.dropWhile_cons, if_neg (by rw [h x rfl]; simp)]

theorem cstr_name (c tail : List Char) (h : ∀ x ∈ c, x ≠ NUL) :
    cstr (c ++ [NUL] ++ tail) = String.mk c := by
  unfold cstr
  congr 1
  rw [List.append_assoc, List.takeWhile_append_of_pos (by simpa using h), List.singleton_append,
    List.takeWhile_cons, if_neg (by simp), List.append_nil]

/-- What `skipelem` does on a path that starts, after slashes, with a good name. -/
theorem skipelem_good {DIRSIZ : Nat} {lead c sep rest name : List Char}
    (hlead : ∀ x ∈ lead, x = '/') (hc : GoodName DIRSIZ c) (hsep : ∀ y ∈ sep, y = '/')
    (hrest : rest.head? ≠ some '/') (hend : sep = [] → rest = [])
    (hbuf : DIRSIZ ≤ name.length) :
    skipelem DIRSIZ (lead ++ (c ++ sep ++ rest)) name =
      some (rest, c ++ [NUL] ++ name.drop (c.length + 1)) := by
  obtain ⟨hne, hns, _, hlen⟩ := hc
  have hp0 : (lead ++ (c ++ sep ++ rest)).dropWhile (fun x => x == '/') = c ++ sep ++ rest := by
    rw [dropWhile_all_append _ _ _ (by simpa using hlead)]
    apply dropWhile_head_stop
    intro x hx
    cases c with
    | nil => exact absurd rfl hne
    | cons y ys =>
      simp only [List.append_assoc, List.cons_append, List.head?_cons, Option.some.injEq] at hx
      rw [← hx]
      simpa using hns y (List.mem_cons_self _ _)
  have hp1 : (c ++ sep ++ rest).dropWhile (fun x => x != '/') = sep ++ rest := by
    rw [List.append_assoc, dropWhile_all_append _ _ _ (by simpa using hns)]
    apply dropWhile_head_stop
    intro x hx
    cases sep with
    | nil => rw [hend rfl] at hx; cases hx
    | cons y ys =>
      simp only [List.cons_append, List.head?_cons, Option.some.injEq] at hx
      rw [← hx, hsep y (List.mem_cons_self _ _)]
      rfl
  have hp2 : (sep ++ rest).dropWhile (fun x => x == '/') = rest := by
    rw [dropWhile_all_append _ _ _ (by simpa using hsep)]
    apply dropWhile_head_stop
    intro x hx
    have : x ≠ '/' := fun h => hrest (by rw [hx, h])
    simpa using this
  have hl : (c ++ sep ++ rest).length - (sep ++ rest).length = c.length := by
    simp only [List.length_append]; omega
  unfold skipelem
  dsimp only
  rw [hp0, if_neg (by
    intro h
    have := congrArg List.length h
    simp only [List.length_append, List.length_nil] at this
    have : 0 < c.length := List.length_pos.mpr hne
    omega), hp1, hp2, hl, if_neg (by omega)]
  congr 2
  unfold memmove
  rw [List.append_assoc c, List.take_left, List.set_append, if_neg (Nat.lt_irrefl _), Nat.sub_self,
    List.drop_eq_getElem_cons (by omega), List.set_cons_zero, List.append_assoc]
  rfl

theorem path_of_head {DIRSIZ : Nat} {cs : List (List Char × List Char)}
    (hg : GoodPath DIRSIZ cs) : (path_of cs).head? ≠ some '/' := by
  cases cs with
  | nil => simp [path_of]
  | cons x r =>
    obtain ⟨⟨hne, hns, _, _⟩, _⟩ := hg
    cases hx : x.1 with
    | nil => exact absurd hx hne
    | cons y ys =>
      unfold path_of
      rw [hx]
      simp only [List.cons_append, List.head?_cons, ne_eq, Option.some.injEq]
      exact hns y (by rw [hx]; exact List.mem_cons_self _ _)

theorem path_of_nil_iff {cs : List (List Char × List Char)} {DIRSIZ : Nat}
    (hg : GoodPath DIRSIZ cs) : path_of cs = [] ↔ cs = [] := by
  cases cs with
  | nil => simp [path_of]
  | cons x r =>
    obtain ⟨⟨hne, _⟩, _⟩ := hg
    constructor
    · intro h
      unfold path_of at h
      have := congrArg List.length h
      simp only [List.length_append, List.length_nil] at this
      have : 0 < x.1.length := List.length_pos.mpr hne
      omega
    · intro h; cases h

/-- The step of `skipelem` on a path given by its components. -/
theorem skipelem_path_of {DIRSIZ : Nat} {lead name : List Char} {x : List Char × List Char}
    {r : List (List Char × List Char)} (hlead : ∀ y ∈ lead, y = '/')
    (hg : GoodPath DIRSIZ (x :: r)) (hbuf : DIRSIZ ≤ name.length) :
    skipelem DIRSIZ (lead ++ path_of (x :: r)) name =
      some (path_of r, x.1 ++ [NUL] ++ name.drop (x.1.length + 1)) := by
  obtain ⟨hc, hsep, hnext, hgr⟩ := hg
  show skipelem DIRSIZ (lead ++ (x.1 ++ x.2 ++ path_of r)) name = _
  refine skipelem_good hlead hc hsep (path_of_head hgr) (fun h => ?_) hbuf
  by_contra hx
  have : r ≠ [] := fun hr => hx (by rw [hr]; rfl)
  exact hnext this h

theorem Outcome.bind_eq_ret {α β : Type} {o : Outcome α} {f : α → Outcome β} {b : β}
    (h : o.bind f = Outcome.ret b) : ∃ a, o = Outcome.ret a ∧ f a = Outcome.ret b := by
  cases o with
  | ret a => exact ⟨a, rfl, h⟩
  | panic => cases h
  | blocked => cases h

theorem Outcome.map_eq_ret {α β : Type} {o : Outcome α} {f : α → β} {b : β}
    (h : o.map f = Outcome.ret b) : ∃ a, o = Outcome.ret a ∧ f a = b := by
  cases o with
  | ret a => exact ⟨a, rfl, by cases h; rfl⟩
  | panic => cases h
  | blocked => cases h

theorem locked_call_ret {α : Type} {held : Bool} {body : Option α} {r : α × Bool}
    (h : locked_call held body = Outcome.ret r) :
    held = false ∧ body = some r.1 ∧ r.2 = false := by
  unfold locked_call acquire_mutex_sleep at h
  cases held with
  | true => cases h
  | false =>
    cases body with
    | none => cases h
    | some a => cases h; exact ⟨rfl, rfl, rfl⟩

theorem ilock_ret {p p1 : PState} {ip : Nat} (h : ilock p ip = Outcome.ret p1) :
    (p.k.ino ip).ref ≥ 1 ∧ ip ∉ p.ilocks ∧ p1 = { p with ilocks := ip :: p.ilocks } := by
  unfold ilock acquire_mutex_sleep at h
  split at h
  · cases h
  · rename_i hr
    by_cases hm : ip ∈ p.ilocks
    · simp [hm] at h
    · simp [hm] at h
      exact ⟨by omega, hm, h.symm⟩

theorem iunlock_ret {p p1 : PState} {ip : Nat} (h : iunlock p ip = Outcome.ret p1) :
    ip ∈ p.ilocks ∧ (p.k.ino ip).ref ≥ 1 ∧ p1 = { p with ilocks := p.ilocks.erase ip } := by
  unfold iunlock at h
  split at h
  · cases h
  · rename_i hm
    split at h
    · cases h
    · rename_i hr
      cases h
      exact ⟨by simpa using hm, by omega, rfl⟩

theorem piput_ret {p p1 : PState} {ip : Nat} (h : p.iput ip = Outcome.ret p1) :
    p.itable = false ∧ iput p.k ip = some p1.k ∧ p1.itable = false ∧ p1.ilocks = p.ilocks ∧
      p1.cwd = p.cwd := by
  unfold PState.iput iput_lk at h
  obtain ⟨r, hr, rfl⟩ := Outcome.map_eq_ret h
  obtain ⟨h1, h2, h3⟩ := locked_call_ret hr
  exact ⟨h1, h2, h3, rfl, rfl⟩

theorem pdirlookup_ret {K : Consts} {p : PState} {dp : Nat} {name : String}
    {r : Option Nat × PState} (h : p.dirlookup K dp name = Outcome.ret r) :
    p.itable = false ∧ dirlookup K p.k dp name = some (r.1, r.2.k) ∧ r.2.ilocks = p.ilocks ∧
      r.2.cwd = p.cwd := by
  unfold PState.dirlookup dirlookup_lk at h
  obtain ⟨q, hq, rfl⟩ := Outcome.map_eq_ret h
  split at hq
  · cases hq
  · unfold acquire_mutex_sleep at hq
    cases hi : p.itable with
    | true => rw [hi] at hq; cases hq
    | false =>
      rw [hi] at hq
      cases hd : dirlookup K p.k dp name with
      | none => rw [hd] at hq; cases hq
      | some x =>
        rw [hd] at hq
        cases hq
        exact ⟨rfl, rfl, rfl, rfl⟩

theorem iunlockput_ret {p p1 : PState} {ip : Nat} (h : iunlockput p ip = Outcome.ret p1) :
    ip ∈ p.ilocks ∧ (p.k.ino ip).ref ≥ 1 ∧ p.itable = false ∧ iput p.k ip = some p1.k ∧
      p1.itable = false ∧ p1.ilocks = p.ilocks.erase ip ∧ p1.cwd = p.cwd := by
  unfold iunlockput at h
  obtain ⟨p2, h2, h3⟩ := Outcome.bind_eq_ret h
  obtain ⟨a1, a2, rfl⟩ := iunlock_ret h2
  obtain ⟨b1, b2, b3, b4, b5⟩ := piput_ret h3
  exact ⟨a1, a2, b1, b2, b3, b4, b5⟩

/-- What `parent_step` returns: the inode it was given, which is a directory with a
reference, in the state it was given. -/
theorem parent_step_ret {p p' : PState} {d : Nat} {r : Option Nat}
    (h : parent_step p d = Outcome.ret (r, p')) :
    (r = some d ∧ p' = p ∧ (p.k.ino d).type = T_DIR ∧ (p.k.ino d).ref ≥ 1) ∨ r = none := by
  unfold parent_step at h
  obtain ⟨p1, h1, h2⟩ := Outcome.bind_eq_ret h
  obtain ⟨a1, a2, rfl⟩ := ilock_ret h1
  dsimp only at h2
  split at h2
  · obtain ⟨p2, _, h3⟩ := Outcome.bind_eq_ret h2
    cases h3
    exact Or.inr rfl
  · rename_i ht
    obtain ⟨p2, h3, h4⟩ := Outcome.bind_eq_ret h2
    obtain ⟨_, _, rfl⟩ := iunlock_ret h3
    cases h4
    left
    refine ⟨rfl, ?_, by simpa using ht, a1⟩
    show ({ p with ilocks := (d :: p.ilocks).erase d } : PState) = p
    rw [List.erase_cons_head]

/-- Every inode the loop returns when the parent is wanted is a directory with a reference;
the inode locks and the working directory are as before. -/
theorem namex_loop_parent_ret (K : Consts) (DIRSIZ : Nat) :
    ∀ (fuel : Nat) (p : PState) (ip : Nat) (path name : List Char) (d : Nat)
      (name1 : List Char) (p' : PState),
      namex_loop K DIRSIZ true fuel p ip path name = Outcome.ret (some d, name1, p') →
      (p'.k.ino d).type = T_DIR ∧ (p'.k.ino d).ref ≥ 1 ∧ p'.ilocks = p.ilocks ∧
        p'.cwd = p.cwd ∧ p'.itable = p.itable ∧ d ∉ p'.ilocks := by
  intro fuel
  induction fuel with
  | zero => intro p ip path name d name1 p' h; cases h
  | succ n ih =>
    intro p ip path name d name1 p' h
    unfold namex_loop at h
    cases hs : skipelem DIRSIZ path name with
    | none =>
      rw [hs] at h
      dsimp only at h
      rw [if_pos rfl] at h
      obtain ⟨_, _, h2⟩ := Outcome.bind_eq_ret h
      cases h2
    | some x =>
      obtain ⟨rest, nm⟩ := x
      rw [hs] at h
      dsimp only at h
      obtain ⟨p1, h1, h2⟩ := Outcome.bind_eq_ret h
      obtain ⟨a1, a2, rfl⟩ := ilock_ret h1
      dsimp only at h2
      split at h2
      · obtain ⟨_, _, h3⟩ := Outcome.bind_eq_ret h2
        cases h3
      · rename_i ht
        split at h2
        · obtain ⟨p2, h3, h4⟩ := Outcome.bind_eq_ret h2
          obtain ⟨_, _, rfl⟩ := iunlock_ret h3
          cases h4
          have he : (ip :: p.ilocks).erase ip = p.ilocks := List.erase_cons_head _ _
          refine ⟨by simpa using ht, a1, he, rfl, rfl, ?_⟩
          show ip ∉ (ip :: p.ilocks).erase ip
          rw [he]
          exact a2
        · obtain ⟨r, h3, h4⟩ := Outcome.bind_eq_ret h2
          obtain ⟨b1, _, b3, b4⟩ := pdirlookup_ret h3
          cases hr : r.1 with
          | none =>
            rw [hr] at h4
            dsimp only at h4
            obtain ⟨_, _, h5⟩ := Outcome.bind_eq_ret h4
            cases h5
          | some next =>
            rw [hr] at h4
            dsimp only at h4
            obtain ⟨p3, h5, h6⟩ := Outcome.bind_eq_ret h4
            obtain ⟨_, _, c0, _, c1, c2, c3⟩ := iunlockput_ret h5
            obtain ⟨d1, d2, d3, d4, d5, d6⟩ := ih p3 next rest nm d name1 p' h6
            refine ⟨d1, d2, ?_, ?_, ?_, d6⟩
            · rw [d3, c2, b3]
              show (ip :: p.ilocks).erase ip = p.ilocks
              rw [List.erase_cons_head]
            · rw [d4, c3, b4]
            · rw [d5, c1]
              exact b1.symm
theorem name_after_len {DIRSIZ : Nat} (c : List Char) {name : List Char}
    (hbuf : DIRSIZ ≤ name.length) :
    DIRSIZ ≤ (c ++ [NUL] ++ name.drop (c.length + 1)).length := by
  simp only [List.length_append, List.length_drop, List.length_singleton]
  omega

/-- The loop of `inode_or_parent_by_name` for a wanted parent, on a path given by its
components: it is the descent along all components but the last, followed by the last step;
and the buffer then starts with the last component and a NUL. -/
theorem namex_parent_descend (K : Consts) (DIRSIZ : Nat) (cs : List (List Char × List Char))
    (hcs : cs ≠ []) :
    GoodPath DIRSIZ cs → ∀ (fuel : Nat) (p : PState) (ip : Nat) (lead name : List Char),
      (∀ y ∈ lead, y = '/') → DIRSIZ ≤ name.length → (lead ++ path_of cs).length < fuel →
      (namex_loop K DIRSIZ true fuel p ip (lead ++ path_of cs) name).map
          (fun r => (r.1, r.2.2)) =
        (descend K p ip (cs.dropLast.map (fun x => x.1))).bind parent_end ∧
      ∀ d name1 p', namex_loop K DIRSIZ true fuel p ip (lead ++ path_of cs) name =
          Outcome.ret (some d, name1, p') →
        name1.take ((cs.getLast hcs).1.length + 1) = (cs.getLast hcs).1 ++ [NUL] := by
  induction cs with
  | nil => exact absurd rfl hcs
  | cons x r ih =>
    intro hg fuel p ip lead name hlead hbuf hfuel
    obtain ⟨n, rfl⟩ : ∃ n, fuel = n + 1 := ⟨fuel - 1, by omega⟩
    have hskip := @skipelem_path_of DIRSIZ lead name x r hlead hg hbuf
    have hgx := hg.1
    cases r with
    | nil =>
      constructor
      · show _ = parent_step p ip
        unfold namex_loop parent_step
        rw [hskip]
        dsimp only
        rw [Outcome.map_bind]
        refine Outcome.bind_congr _ (fun p1 _ => ?_)
        split
        · rw [Outcome.map_bind]; rfl
        · rw [if_pos ⟨rfl, rfl⟩, Outcome.map_bind]; rfl
      · intro d name1 p' h
        unfold namex_loop at h
        rw [hskip] at h
        dsimp only at h
        obtain ⟨p1, _, h2⟩ := Outcome.bind_eq_ret h
        split at h2
        · obtain ⟨_, _, h3⟩ := Outcome.bind_eq_ret h2
          cases h3
        · rw [if_pos ⟨rfl, rfl⟩] at h2
          obtain ⟨_, _, h3⟩ := Outcome.bind_eq_ret h2
          cases h3
          show List.take (x.1.length + 1) _ = _
          rw [List.take_append_of_le_length (by simp)]
          exact List.take_of_length_le (by simp)
    | cons y r' =>
      have hgr : GoodPath DIRSIZ (y :: r') := hg.2.2.2
      have hne : path_of (y :: r') ≠ [] := fun h => by
        have := (path_of_nil_iff hgr).mp h
        cases this
      have hbuf1 := @name_after_len DIRSIZ x.1 name hbuf
      have hlen1 : (path_of (y :: r')).length < n := by
        have := skipelem_shorter hskip
        omega
      have ih1 := ih (List.cons_ne_nil _ _) hgr
      have hcstr : cstr (x.1 ++ [NUL] ++ name.drop (x.1.length + 1)) = String.mk x.1 :=
        cstr_name _ _ hgx.2.2.1
      constructor
      · show _ = (descend K p ip (x.1 :: ((y :: r').dropLast.map (fun x => x.1)))).bind parent_end
        unfold namex_loop descend
        rw [hskip]
        dsimp only
        rw [Outcome.map_bind, Outcome.bind_assoc]
        refine Outcome.bind_congr _ (fun p1 _ => ?_)
        split
        · rw [Outcome.map_bind, Outcome.bind_assoc]; rfl
        · rw [if_neg (fun h => hne h.2), Outcome.map_bind, Outcome.bind_assoc, hcstr]
          refine Outcome.bind_congr _ (fun q _ => ?_)
          cases hq : q.1 with
          | none =>
            dsimp only
            rw [Outcome.map_bind, Outcome.bind_assoc]
            rfl
          | some next =>
            dsimp only
            rw [Outcome.map_bind, Outcome.bind_assoc]
            refine Outcome.bind_congr _ (fun p3 _ => ?_)
            have := (ih1 n p3 next [] _ (fun _ h => by cases h) hbuf1
              (by simpa using hlen1)).1
            rw [List.nil_append] at this
            exact this
      · intro d name1 p' h
        unfold namex_loop at h
        rw [hskip] at h
        dsimp only at h
        obtain ⟨p1, _, h2⟩ := Outcome.bind_eq_ret h
        split at h2
        · obtain ⟨_, _, h3⟩ := Outcome.bind_eq_ret h2
          cases h3
        · rw [if_neg (fun h => hne h.2)] at h2
          obtain ⟨q, _, h3⟩ := Outcome.bind_eq_ret h2
          cases hq : q.1 with
          | none =>
            rw [hq] at h3
            obtain ⟨_, _, h4⟩ := Outcome.bind_eq_ret h3
            cases h4
          | some next =>
            rw [hq] at h3
            obtain ⟨p3, _, h4⟩ := Outcome.bind_eq_ret h3
            have := (ih1 n p3 next [] _ (fun _ h => by cases h) hbuf1
              (by simpa using hlen1)).2 d name1 p' (by rw [List.nil_append]; exact h4)
            rw [List.getLast_cons (List.cons_ne_nil _ _)]
            exact this


theorem namex_start_ret {K : Consts} {p : PState} {path : List Char} {r : Nat × PState}
    (h : namex_start K p path = Outcome.ret r) : r.2.ilocks = p.ilocks := by
  have hroot : ∀ (q : PState) (x : Nat × PState), q.iget_root K = Outcome.ret x →
      x.2.ilocks = q.ilocks := by
    intro q x hx
    unfold PState.iget_root at hx
    obtain ⟨a, _, rfl⟩ := Outcome.map_eq_ret hx
    rfl
  have hdup : ∀ (q q' : PState) (c : Nat), q.idup c = Outcome.ret q' → q'.ilocks = q.ilocks := by
    intro q q' c hx
    unfold PState.idup at hx
    obtain ⟨a, _, rfl⟩ := Outcome.map_eq_ret hx
    rfl
  unfold namex_start at h
  obtain ⟨c, h1, h2⟩ := Outcome.bind_eq_ret h
  have hc : c.2.ilocks = p.ilocks := by
    cases hcwd : p.cwd with
    | none =>
      rw [hcwd] at h1
      obtain ⟨x, hx, hy⟩ := Outcome.bind_eq_ret h1
      cases hy
      exact hroot p x hx
    | some w =>
      rw [hcwd] at h1
      cases h1
      rfl
  split at h2
  · rw [hroot c.2 r h2, hc]
  · obtain ⟨q, hq, hy⟩ := Outcome.bind_eq_ret h2
    cases hy
    rw [hdup c.2 q c.1 hq, hc]

/-- C29 (as amended): `inode_parent_by_name(path, name)` on a path with `k >= 1` components,
each shorter than `DIRSIZ`, `name` having room for `DIRSIZ` bytes.  What it returns, and the
state it leaves, are those of the descent along the first `k - 1` components from the start
(the root or the working directory) followed by the last step: the inode reached is
returned, with the lock dropped and the reference kept, if it is a directory, and the last
component is not looked up.  Every inode returned has type `T_DIR`, holds a reference, is
unlocked (the inode locks are as before), and `name` then starts with the last component
followed by NUL.  On a path without a component the function releases the start inode and,
when it returns, returns NULL. -/
theorem C29_parent_by_name_stops_before_the_last_component (K : Consts) (DIRSIZ : Nat)
    (p : PState) (lead name : List Char) (cs : List (List Char × List Char)) (hcs : cs ≠ [])
    (hg : GoodPath DIRSIZ cs) (hlead : ∀ y ∈ lead, y = '/') (hbuf : DIRSIZ ≤ name.length) :
    (inode_parent_by_name K DIRSIZ p (lead ++ path_of cs) name).map (fun r => (r.1, r.2.2)) =
      (namex_start K p (lead ++ path_of cs)).bind (fun r =>
        (descend K r.2 r.1 (cs.dropLast.map (fun x => x.1))).bind parent_end) ∧
    (∀ d name1 p', inode_parent_by_name K DIRSIZ p (lead ++ path_of cs) name =
        Outcome.ret (some d, name1, p') →
      (p'.k.ino d).type = T_DIR ∧ (p'.k.ino d).ref ≥ 1 ∧ d ∉ p'.ilocks ∧
        p'.ilocks = p.ilocks ∧
        name1.take ((cs.getLast hcs).1.length + 1) = (cs.getLast hcs).1 ++ [NUL]) ∧
    (∀ path2 name2 d name1 p', inode_parent_by_name K DIRSIZ p path2 name2 =
        Outcome.ret (some d, name1, p') → (p'.k.ino d).type = T_DIR) ∧
    (∀ path2, (∀ y ∈ path2, y = '/') →
      inode_parent_by_name K DIRSIZ p path2 name =
        (namex_start K p path2).bind (fun r =>
          (r.2.iput r.1).bind (fun p1 => Outcome.ret (none, name, p1))) ∧
      ∀ r, inode_parent_by_name K DIRSIZ p path2 name = Outcome.ret r → r.1 = none) := by
  refine ⟨?_, fun d name1 p' h => ?_, fun path2 name2 d name1 p' h => ?_, fun path2 h2 => ?_⟩
  · unfold inode_parent_by_name inode_or_parent_by_name
    rw [Outcome.map_bind]
    refine Outcome.bind_congr _ (fun r _ => ?_)
    exact (namex_parent_descend K DIRSIZ cs hcs hg _ r.2 r.1 lead name hlead hbuf
      (Nat.lt_succ_self _)).1
  · unfold inode_parent_by_name inode_or_parent_by_name at h
    obtain ⟨r, hr, hl⟩ := Outcome.bind_eq_ret h
    obtain ⟨a1, a2, a3, _, _, a6⟩ := namex_loop_parent_ret K DIRSIZ _ _ _ _ _ _ _ _ hl
    refine ⟨a1, a2, a6, by rw [a3]; exact namex_start_ret hr, ?_⟩
    exact (namex_parent_descend K DIRSIZ cs hcs hg _ r.2 r.1 lead name hlead hbuf
      (Nat.lt_succ_self _)).2 d name1 p' hl
  · unfold inode_parent_by_name inode_or_parent_by_name at h
    obtain ⟨r, _, hl⟩ := Outcome.bind_eq_ret h
    exact (namex_loop_parent_ret K DIRSIZ _ _ _ _ _ _ _ _ hl).1
  · have hnone : skipelem DIRSIZ path2 name = none :=
      (skipelem_none_iff DIRSIZ path2 name).mpr h2
    have heq : inode_parent_by_name K DIRSIZ p path2 name =
        (namex_start K p path2).bind (fun r =>
          (r.2.iput r.1).bind (fun p1 => Outcome.ret (none, name, p1))) := by
      unfold inode_parent_by_name inode_or_parent_by_name
      refine Outcome.bind_congr _ (fun r _ => ?_)
      unfold namex_loop
      rw [hnone]
      rfl
    refine ⟨heq, fun r hr => ?_⟩
    rw [heq] at hr
    obtain ⟨_, _, h3⟩ := Outcome.bind_eq_ret hr
    obtain ⟨_, _, h4⟩ := Outcome.bind_eq_ret h3
    cases h4
    rfl

theorem wPath_good : GoodPath 14 [("d".toList, ['/']), ("e".toList, [])] := by
  refine ⟨⟨by decide, by decide, by decide, by decide⟩, by decide, fun _ => by decide,
    ⟨by decide, by decide, by decide, by decide⟩, by decide, fun h => absurd rfl h, trivial⟩

theorem C29_parent_by_name_stops_before_the_last_component_witness :
    (['/'] ++ path_of [("d".toList, ['/']), ("e".toList, [])] = "/d/e".toList ∧
      GoodPath 14 [("d".toList, ['/']), ("e".toList, [])] ∧
      14 ≤ (List.replicate 14 'x').length) ∧
    (inode_parent_by_name wK 14 pL0 "/d/e".toList (List.replicate 14 'x')).map
        (fun r => (r.1, cstr r.2.1, (r.2.2.k.ino 1).type, (r.2.2.k.ino 1).path)) =
      Outcome.ret (some 1, "e", T_DIR, "/d") ∧
    (inode_parent_by_name wK 14 pL0 "/d/e".toList (List.replicate 14 'x')).map
        (fun r => (r.2.2.ilocks, r.2.2.k.log.drop pL0.k.log.length)) =
      Outcome.ret ([], [Ev.f_opendir 1 "/d"]) ∧
    (inode_parent_by_name wK 14 pL0 "///".toList (List.replicate 14 'x')).map
        (fun r => (r.1, (r.2.2.k.ino 0).ref)) = Outcome.ret (none, 1) ∧
    ((inode_parent_by_name wK 14 pL0
        (['/'] ++ path_of [("d".toList, ['/']), ("e".toList, [])])
        (List.replicate 14 'x')).map (fun r => (r.1, r.2.2)) =
      (namex_start wK pL0 (['/'] ++ path_of [("d".toList, ['/']), ("e".toList, [])])).bind
        (fun r => (descend wK r.2 r.1
          (([("d".toList, ['/']), ("e".toList, [])] : List (List Char × List Char)).dropLast.map
            (fun x => x.1))).bind parent_end)) :=
  ⟨⟨by decide, wPath_good, by decide⟩, by decide, by decide, by decide,
    (C29_parent_by_name_stops_before_the_last_component wK 14 pL0 ['/']
      (List.replicate 14 'x') [("d".toList, ['/']), ("e".toList, [])] (by simp) wPath_good
      (by decide) (by decide)).1⟩

/-- C29 (counterexample): with `DIRSIZ` = 14, the root as working directory and the
directory `/d` on the lower FS, `inode_parent_by_name("/d/abcdefghijklmnop", name)` returns
the inode of `/d`, but the last component (16 characters) is not what `name` holds: the
buffer receives its first 14 characters, without a NUL. -/
theorem C29_name_is_not_the_last_component :
    (inode_parent_by_name wK 14 pL0 "/d/abcdefghijklmnop".toList (List.replicate 14 NUL)).map
        (fun r => (r.1, (r.2.2.k.ino 1).path, String.mk r.2.1)) =
      Outcome.ret (some 1, "/d", "abcdefghijklmn") ∧
    first_component "abcdefghijklmnop".toList = "abcdefghijklmnop".toList ∧
    (inode_parent_by_name wK 14 pL0 "/d/abcdefghijklmnop".toList (List.replicate 14 NUL)).map
        (fun r => decide (NUL ∈ r.2.1)) = Outcome.ret false :=
  ⟨by decide, by decide, by decide⟩

/-! ## Lookup through a symlink record -/

theorem cstring_at_eq (m : Mem) (k n : Nat) (l : List Char)
    (h1 : ∀ i (hi : i < l.length), m (k + i) = (l.get ⟨i, hi⟩).toNat)
    (h0 : m (k + l.length) = 0) (hlen : l.length < n - k) (hnz : ∀ c ∈ l, c.toNat ≠ 0) :
    cstring_at m k n = String.mk l := by
  unfold cstring_at
  congr 1
  obtain ⟨r, hr⟩ : ∃ r, n - k = l.length + (1 + r) := ⟨n - k - l.length - 1, by omega⟩
  rw [hr, List.range_add, List.map_append]
  have hfirst : (List.range l.length).map (fun i => m (k + i)) = l.map Char.toNat := by
    apply List.ext_getElem
    · simp
    · intro i hi1 hi2
      simp only [List.getElem_map, List.getElem_range]
      have hi : i < l.length := by simpa using hi1
      rw [h1 i hi]
      rfl
  rw [hfirst, Nat.add_comm 1 r, List.range_succ_eq_map, List.map_cons, List.map_cons,
    List.takeWhile_append_of_pos, List.takeWhile_cons, if_neg (by simp [h0]), List.append_nil,
    List.map_map]
  · have : (Char.ofNat ∘ Char.toNat) = id := by
      funext c
      simp
    rw [this, List.map_id]
  · intro x hx
    obtain ⟨c, hc, rfl⟩ := List.mem_map.mp hx
    simpa using hnz c hc

theorem sym_record_nf {K : Consts} {s : KState} {e : Nat} (hnf : s.faults = [])
    (he : e < s.NINODE) (i : Nat) (hi : i < min (4 + K.MAXPATH) (s.ino e).file.objsize) :
    sym_record K s e i = (s.ino e).file.data i := by
  obtain ⟨_, _, hbr, hd⟩ := rewind_read_nf hnf he (4 + K.MAXPATH)
  unfold sym_record
  rw [hbr, hd, blit_in _ _ _ _ _ _ (Nat.zero_le _) (by omega)]
  simp

/-- The symlink probe succeeds, when no external call fails, on a file of more than 4 bytes
that starts with `SYMLINK_MAGIC` followed by `/`. -/
theorem sym_probe_nf {K : Consts} {s : KState} {e : Nat} (hnf : s.faults = [])
    (he : e < s.NINODE) (hM : 0 < K.MAXPATH) (hsz : 4 < (s.ino e).file.objsize)
    (hmagic : le32 (s.ino e).file.data = K.SYMLINK_MAGIC)
    (hslash : (s.ino e).file.data 4 = '/'.toNat) : sym_probe K s e := by
  obtain ⟨h1, h2, hbr, _⟩ := rewind_read_nf hnf he (4 + K.MAXPATH)
  refine ⟨h1, h2, by rw [hbr]; omega, ?_, ?_⟩
  · rw [← hmagic]
    exact le32_congr (fun i hi => sym_record_nf hnf he i (by omega))
  · rw [sym_record_nf hnf he 4 (by omega)]
    exact hslash

theorem lookup_cons_ne {q p : String} {v : Node} {d : List (String × Node)} (h : p ≠ q) :
    List.lookup p ((q, v) :: d) = List.lookup p d := by
  rw [List.lookup_cons]
  have : (p == q) = false := by simpa using h
  rw [this]

theorem f_close_lookup_ne {s : KState} {ip : Nat} {p : String} (hnf : s.faults = [])
    (hp : p ≠ (s.ino ip).file.path) :
    (f_close s ip).2.disk.lookup p = s.disk.lookup p := by
  unfold f_close
  rw [fault_nil s hnf]
  dsimp only
  rw [if_neg (by simp)]
  split
  · show List.lookup p (_ :: diskRemove (s.emit _).disk _) = _
    rw [lookup_cons_ne (by simpa using hp), lookup_diskRemove_ne _ _ _ (by simpa using hp)]
    rfl
  · rfl

/-- Lookup of a symlink: a path that no live slot holds and on which the lower FS has a file
that starts with the record `(SYMLINK_MAGIC, target, NUL)` is opened, when no external call
fails and the target is an absolute path that is a file of the lower FS, as a regular file
whose path is the target and whose handle is open on the target; nothing else changes in
the tables. -/
theorem dirlookup_symlink_nf {K : Consts} {s : KState} {dp e : Nat} {name : String}
    {sz0 : Nat} {d0 : Mem} {l : List Char} {sz : Nat} {d : Mem}
    (hdp : (s.ino dp).type = T_DIR)
    (hscan : scan_path K s (child_path (s.ino dp).path name) = some (Sum.inr e))
    (hnf : s.faults = [])
    (hdisk : s.disk.lookup (child_path (s.ino dp).path name) = some (Node.file sz0 d0))
    (hK : K.SYMLINK_MAGIC ≠ K.DEVICE_MAGIC) (hmagic : le32 d0 = K.SYMLINK_MAGIC)
    (hslash : d0 4 = '/'.toNat)
    (hl1 : ∀ i (hi : i < l.length), d0 (4 + i) = (l.get ⟨i, hi⟩).toNat)
    (hl0 : d0 (4 + l.length) = 0) (hlen : l.length < K.MAXPATH) (hsz0 : 4 + l.length < sz0)
    (hnz : ∀ c ∈ l, c.toNat ≠ 0)
    (hne : String.mk l ≠ child_path (s.ino dp).path name)
    (htarget : s.disk.lookup (String.mk l) = some (Node.file sz d)) :
    ∃ s', dirlookup K s dp name = some (some e, s') ∧ s'.cache = s.cache ∧ s'.lru = s.lru ∧
      s'.NINODE = s.NINODE ∧ s'.faults = [] ∧ (∀ j, j ≠ e → s'.ino j = s.ino j) ∧
      (s'.ino e).ref = 1 ∧ (s'.ino e).type = T_FILE ∧ (s'.ino e).path = String.mk l ∧
      (s'.ino e).dev = K.ROOTDEV ∧ (s'.ino e).unlinked = 0 ∧ (s'.ino e).new_path = "" ∧
      (s'.ino e).file = { objsize := sz, data := d, fptr := 0, path := String.mk l } := by
  have he := (scan_path_inr hscan).1
  obtain ⟨t, hlook, htf, htN, htc, htl, htd, htj, hfile⟩ := dirlookup_file_nf hdp hscan hnf hdisk
  have het : e < t.NINODE := by rw [htN]; exact he
  -- the device probe fails
  have hnd : ¬ dev_probe K t e :=
    dev_probe_not htf het (by rw [hfile]; show le32 d0 ≠ _; rw [hmagic]; exact hK)
  have hro := after_dev_probe_ro t e
  have hsym := @dirlookup_file_sym K t e (child_path (s.ino dp).path name) hnd
  generalize after_dev_probe t e = t1 at hro hsym
  obtain ⟨a1, a2, a3, a4, a5, a6, a7, a8, a9⟩ := hro
  have ht1f := a5 htf
  have het1 : e < t1.NINODE := by rw [a4]; exact het
  have hdat1 : (t1.ino e).file.data = d0 := by rw [a7, hfile]
  have hsz1 : (t1.ino e).file.objsize = sz0 := by rw [a8, hfile]
  have hpa1 : (t1.ino e).file.path = child_path (s.ino dp).path name := by rw [a9, hfile]
  -- the symlink probe succeeds
  have hsp : sym_probe K t1 e :=
    sym_probe_nf ht1f het1 (by omega) (by rw [hsz1]; omega) (by rw [hdat1]; exact hmagic)
      (by rw [hdat1]; exact hslash)
  have htgt : sym_target K t1 e = String.mk l := by
    unfold sym_target
    refine cstring_at_eq _ _ _ l (fun i hi => ?_) ?_ (by omega) hnz
    · rw [sym_record_nf ht1f het1 _ (by rw [hsz1]; omega), hdat1]
      exact hl1 i hi
    · rw [sym_record_nf ht1f het1 _ (by rw [hsz1]; omega), hdat1]
      exact hl0
  -- the close and the open of the target
  have hro2 := after_sym_probe_ro K t1 e
  have hreop : sym_reopen K t1 e =
      f_open (f_close (after_sym_probe K t1 e) e).2 e (String.mk l) false := by
    unfold sym_reopen; rw [htgt]
  rw [hsym hsp, hreop, htgt] at hlook
  generalize after_sym_probe K t1 e = t2 at hro2 hlook
  obtain ⟨b1, b2, b3, b4, b5, b6, b7, b8, b9⟩ := hro2
  have ht2f := b5 ht1f
  have hpa2 : (t2.ino e).file.path = child_path (s.ino dp).path name := by rw [b9, hpa1]
  have hcl := f_close_nf ht2f e
  have hcli : (f_close t2 e).2.inode = t2.inode := f_close_inode t2 e
  have hcld : (f_close t2 e).2.disk.lookup (String.mk l) = some (Node.file sz d) := by
    rw [f_close_lookup_ne ht2f (by rw [hpa2]; exact hne), b3, a3, htd]
    exact htarget
  obtain ⟨ho1, ho2⟩ := f_open_file e hcl.2 hcld
  rw [if_neg (by rw [ho1]; simp)] at hlook
  refine ⟨_, hlook, ?_⟩
  have hN : (f_open (f_close t2 e).2 e (String.mk l) false).2.NINODE = s.NINODE := by
    rw [(f_open_ino _ _ _ _ 0).2, NINODE_congr hcli, b4, a4, htN]
  have hinoe : (f_open (f_close t2 e).2 e (String.mk l) false).2.ino e =
      { t2.ino e with file := { objsize := sz, data := d, fptr := 0, path := String.mk l } } := by
    rw [ho2, setFile_ino, if_pos ⟨rfl, by
      show e < (f_close t2 e).2.NINODE
      rw [NINODE_congr hcli, b4, a4]; exact het⟩]
    show ({ (f_close t2 e).2.ino e with file := _ } : inode) = _
    rw [ino_congr hcli]
  have hinoj : ∀ j, j ≠ e → (f_open (f_close t2 e).2 e (String.mk l) false).2.ino j = s.ino j := by
    intro j hj
    rw [ho2, setFile_ino, if_neg (fun x => hj x.1.symm)]
    show (f_close t2 e).2.ino j = _
    rw [ino_congr hcli, b6 j hj, a6 j hj, htj j hj]
  obtain ⟨c1, c2, c3, c4, c5, c6, c7, c8⟩ := open_slot_fields K
    (f_open (f_close t2 e).2 e (String.mk l) false).2 e T_FILE (String.mk l)
    (by rw [hN]; exact he)
  refine ⟨?_, ?_, by rw [c8, hN], ?_, fun j hj => ?_, c1, c3, c4, c2, c5, c6, ?_⟩
  · show (f_open (f_close t2 e).2 e (String.mk l) false).2.cache = _
    rw [(sameC_f_open _ _ _ _).1, (sameC_f_close _ _).1, b1, a1, htc]
  · show (f_open (f_close t2 e).2 e (String.mk l) false).2.lru = _
    rw [(sameC_f_open _ _ _ _).2, (sameC_f_close _ _).2, b2, a2, htl]
  · show (f_open (f_close t2 e).2 e (String.mk l) false).2.faults = []
    rw [ho2]
    exact hcl.2
  · rw [open_slot_ino, if_neg (fun x => hj x.1.symm)]
    exact hinoj j hj
  · rw [c7, hinoe]

/-! ## `ilink` -/

theorem ilink_chain {K : Consts} {PGSIZE : Nat} {s s1 : KState} {oldip newip : Nat}
    (h : ilink K PGSIZE s oldip newip = some (0, s1)) :
    ∃ sa sb, writei PGSIZE s newip false (int_bytes K.SYMLINK_MAGIC) 0 4 = some (4, sa) ∧
      writei PGSIZE sa newip false (cstring_bytes (sa.ino oldip).path) 4
        ((s.ino oldip).path.length + 1) = some (toInt32 ((s.ino oldip).path.length + 1), sb) ∧
      ctable_release PGSIZE sb (some newip) = some s1 := by
  unfold ilink at h
  dsimp only at h
  cases h1 : writei PGSIZE s newip false (int_bytes K.SYMLINK_MAGIC) 0 4 with
  | none => rw [h1] at h; cases h
  | some w1 =>
    rw [h1] at h
    dsimp only at h
    by_cases hr1 : w1.1 = 4
    · rw [if_neg (by simp [hr1])] at h
      cases h2 : writei PGSIZE w1.2 newip false (cstring_bytes (w1.2.ino oldip).path) 4
          ((s.ino oldip).path.length + 1) with
      | none => rw [h2] at h; cases h
      | some w2 =>
        rw [h2] at h
        dsimp only at h
        by_cases hr2 : w2.1 = toInt32 ((s.ino oldip).path.length + 1)
        · rw [if_neg (by simp [hr2])] at h
          cases h3 : ctable_release PGSIZE w2.2 (some newip) with
          | none => rw [h3] at h; cases h
          | some s3 =>
            rw [h3] at h
            cases h
            refine ⟨w1.2, w2.2, ?_, ?_, h3⟩
            · rw [← hr1]
            · rw [h2, ← hr2]
        · rw [if_pos hr2] at h
          cases h
    · rw [if_pos hr1] at h
      cases h

/-- After `ilink(oldip, newip)` returned 0 on a well-formed state in which the caller holds
`newip`: the file of `newip` starts, on the lower FS, with the magic and the path of `oldip`
followed by NUL; no page of `newip` is cached; the state is well-formed and a cache slot is
available. -/
theorem ilink_spec {K : Consts} {PGSIZE : Nat} (hP : 0 < PGSIZE) (hP32 : PGSIZE < 2 ^ 32)
    {s s1 : KState} {oldip newip : Nat} (hs : Sane PGSIZE s) (hl : Live s newip)
    (hlen : (s.ino oldip).path.length + 5 < 2 ^ 31)
    (h : ilink K PGSIZE s oldip newip = some (0, s1)) :
    Sane PGSIZE s1 ∧ Live s1 newip ∧ Keep newip s s1 ∧ Avail s1 ∧
    (∀ c, ¬ ((s1.slot c).valid = true ∧ (s1.slot c).host = some newip)) ∧
    (∀ j, j < 4 → (s1.ino newip).file.data j = int_bytes K.SYMLINK_MAGIC j) ∧
    (∀ j, j ≤ (s.ino oldip).path.length →
      (s1.ino newip).file.data (4 + j) = cstring_bytes (s.ino oldip).path j) ∧
    4 + (s.ino oldip).path.length < (s1.ino newip).file.objsize := by
  obtain ⟨sa, sb, hw1, hw2, hrel⟩ := ilink_chain h
  have hto : toInt32 ((s.ino oldip).path.length + 1) = (((s.ino oldip).path.length + 1 : Nat) : Int) := by
    unfold toInt32
    rw [Nat.mod_eq_of_lt (by omega), if_pos (by omega)]
  obtain ⟨hsa, _, hda⟩ := writei_spec hP hP32 hs hl.2.1 (by omega) hw1
  obtain ⟨hla, _⟩ := writei_ready hP hP32 hs hl (by omega) hw1
  have hka := keep_writei hw1
  rcases hda with h0 | ⟨_, hba⟩
  · exact absurd h0 (by decide)
  have hpa : (sa.ino oldip).path = (s.ino oldip).path := (hka.2 oldip).1
  rw [hpa] at hw2
  obtain ⟨hsb, hkeepb, hdb⟩ := writei_spec hP hP32 hsa hla.2.1 (by omega) hw2
  obtain ⟨hlb, hreadyb⟩ := writei_ready hP hP32 hsa hla (by omega) hw2
  have hkb := keep_writei hw2
  have hn0 : toInt32 ((s.ino oldip).path.length + 1) ≠ 0 := by rw [hto]; omega
  rcases hdb with h0 | ⟨_, hbb⟩
  · exact absurd h0 hn0
  rcases hreadyb with h0 | hreadyb
  · exact absurd h0 hn0
  obtain ⟨hs1, hl1, hby1, hk1, hnc1, hslots1, hnopage⟩ := release_spec hP hsb hlb hrel
  have hnohit : ∀ q c, is_hit newip q (s1.slot c) = false := by
    intro q c
    by_contra hx
    have hx' : is_hit newip q (s1.slot c) = true := by simpa using hx
    obtain ⟨hv, hhost, _⟩ := (is_hit_iff _ _ _).mp hx'
    exact hnopage c ⟨hv, hhost⟩
  have hav : Avail s1 := by
    rcases hreadyb 0 (by omega) with ⟨c0, hc0, hx⟩ | ⟨c, hit⟩
    · refine ⟨c0, by rw [hnc1]; exact hc0, ?_⟩
      rcases hslots1 c0 with he | he
      · rw [he]; exact hx
      · rw [he]; exact Or.inl rfl
    · obtain ⟨hv, hhost, _⟩ := (is_hit_iff _ _ _).mp hit
      refine ⟨c, by rw [hnc1]; exact lt_of_valid sb c hv, ?_⟩
      rcases hslots1 c with he | he
      · exact absurd ⟨by rw [he]; exact hv, by rw [he]; exact hhost⟩ (hnopage c)
      · rw [he]; exact Or.inl rfl
  refine ⟨hs1, hl1, (hka.trans_k hkb).trans_k hk1, hav, hnopage, fun j hj => ?_,
    fun j hj => ?_, ?_⟩
  · have hb := hby1 _ _ _ (hkeepb _ _ _ (hba j hj) (by omega))
    rw [Nat.zero_add] at hb
    exact hb.2.2 (fun c => hnohit _ c)
  · have hb := hby1 _ _ _ (hbb j (by omega))
    exact hb.2.2 (fun c => hnohit _ c)
  · have hb := hby1 _ _ _ (hbb (s.ino oldip).path.length (by omega))
    exact hb.1

theorem le32_int_bytes (M : Nat) (hM : M < 2 ^ 32) : le32 (int_bytes M) = M := by
  unfold le32 int_bytes
  norm_num
  omega

theorem cstring_bytes_get (P : String) (i : Nat) (hi : i < P.data.length) :
    cstring_bytes P i = (P.data.get ⟨i, hi⟩).toNat := by
  unfold cstring_bytes
  simp [List.getD, List.getElem?_eq_getElem hi]

theorem cstring_bytes_end (P : String) : cstring_bytes P P.data.length = 0 := by
  unfold cstring_bytes
  rw [List.getD_eq_default _ _ (by simp)]

/-- C23 (as amended): let `ilink(oldip, newip)` return 0 on a well-formed state in which the
caller holds `newip`, the path of `oldip` being an absolute path without NUL that fits in
`MAXPATH`.  While `newip` is open a lookup of its name finds `newip` itself (see the
counterexample); but once the last reference on `newip` has been put (nothing deferred on
it, no external call failing), `dirlookup` of the directory and name of `newip` returns an
inode of type `T_FILE` whose path is the path of `oldip` and whose handle is open on the
file that the lower FS holds at that path, and `readi` on it returns the bytes of that
file. -/
theorem C23_reopening_a_link_resolves_to_the_old_path (K : Consts) (PGSIZE : Nat)
    (s s1 : KState) (dp oldip newip : Nat) (name : String) (sz : Nat) (d dst : Mem)
    (hP : 0 < PGSIZE) (hP32 : PGSIZE < 2 ^ 32)
    (hK1 : K.SYMLINK_MAGIC < 2 ^ 32) (hK2 : K.SYMLINK_MAGIC ≠ K.DEVICE_MAGIC)
    (hs : Sane PGSIZE s) (hl : Live s newip)
    (habs : (s.ino oldip).path.data.head? = some '/')
    (hnul : ∀ c ∈ (s.ino oldip).path.data, c.toNat ≠ 0)
    (hmax : (s.ino oldip).path.length < K.MAXPATH)
    (hlen : (s.ino oldip).path.length + 5 < 2 ^ 31)
    (hlink : ilink K PGSIZE s oldip newip = some (0, s1))
    (hnew : (s1.ino newip).ref = 1 ∧ (s1.ino newip).type = T_FILE ∧
      (s1.ino newip).unlinked = 0 ∧ (s1.ino newip).new_path = "" ∧
      (s1.ino newip).file.path = (s1.ino newip).path)
    (hnf : s1.faults = [])
    (hdp : (s1.ino dp).type = T_DIR)
    (hpath : (s1.ino newip).path = child_path (s1.ino dp).path name)
    (huniq : ∀ j, j ≠ newip → ¬ ((s1.ino j).ref > 0 ∧ (s1.ino j).dev = K.ROOTDEV ∧
      (s1.ino j).path = child_path (s1.ino dp).path name))
    (hdn : ∃ a b, s1.disk.lookup (s1.ino newip).path = some (Node.file a b))
    (hdo : s1.disk.lookup (s.ino oldip).path = some (Node.file sz d)) (hsz : sz < 2 ^ 32)
    (hne : (s.ino oldip).path ≠ (s1.ino newip).path) :
    ∃ s2, iput s1 newip = some s2 ∧ (s2.ino newip).ref = 0 ∧
      ∃ e s3, dirlookup K s2 dp name = some (some e, s3) ∧
        (s3.ino e).path = (s.ino oldip).path ∧ (s3.ino e).type = T_FILE ∧
        (s3.ino e).ref = 1 ∧
        (s3.ino e).file =
          { objsize := sz, data := d, fptr := 0, path := (s.ino oldip).path } ∧
        ∀ off n, 0 < n → n < 2 ^ 31 → off + n ≤ sz →
          ∃ buf s4, readi PGSIZE s3 e false dst off n = some ((n : Int), buf, s4) ∧
            ∀ j, j < n → buf j = d (off + j) := by
  obtain ⟨hs1, hl1, _, hav1, hnopage, hmag, hbytes, hobj⟩ := ilink_spec hP hP32 hs hl hlen hlink
  obtain ⟨hr1, ht1, hu1, hn1, hfp1⟩ := hnew
  obtain ⟨a, b, hdn⟩ := hdn
  generalize hPd : (s.ino oldip).path = P at *
  generalize hQd : (s1.ino newip).path = Q at *
  have hdpne : dp ≠ newip := by
    intro hx
    rw [hx, ht1] at hdp
    exact absurd hdp (by decide)
  -- the last `iput` of `newip`
  obtain ⟨s2, hput, hf2, hc2, hl2, hN2, hino2, hip2, hd2⟩ :=
    @iput_last_plain s1 newip a b hnf hr1 hu1 (by rw [hn1]; rfl) (by rw [ht1]; decide)
      (by rw [hfp1]; exact hdn)
  rw [hfp1] at hd2
  refine ⟨s2, hput, by rw [hip2], ?_⟩
  have hdp2 : s2.ino dp = s1.ino dp := hino2 dp hdpne
  have hnone2 : ∀ j, ¬ ((s2.ino j).ref > 0 ∧ (s2.ino j).dev = K.ROOTDEV ∧
      (s2.ino j).path = child_path (s2.ino dp).path name) := by
    intro j hj
    rw [hdp2] at hj
    by_cases hji : j = newip
    · rw [hji, hip2] at hj
      exact absurd hj.1 (by show ¬ ((0 : Int) > 0); decide)
    · rw [hino2 j hji] at hj
      exact huniq j hji hj
  have hnewlt : newip < s1.NINODE := hl1.2.1
  obtain ⟨e, _, hscan2⟩ := scan_path_free_exists hnone2 (by rw [hN2]; exact hnewlt)
    (by rw [hip2])
  obtain ⟨he2, he0⟩ := scan_path_inr hscan2
  have hcp2 : child_path (s2.ino dp).path name = Q := by rw [hdp2, ← hpath]
  have hdisk2 : s2.disk.lookup (child_path (s2.ino dp).path name) =
      some (Node.file (s1.ino newip).file.objsize (s1.ino newip).file.data) := by
    rw [hcp2, hd2, List.lookup_cons]
    simp
  have htarget2 : s2.disk.lookup (String.mk P.data) = some (Node.file sz d) := by
    show s2.disk.lookup P = _
    rw [hd2, lookup_cons_ne hne, lookup_diskRemove_ne _ _ _ hne]
    exact hdo
  have hlenP : P.data.length = P.length := rfl
  obtain ⟨s3, hlook, hc3, hl3, hN3, hf3, hino3, hr3, hty3, hp3, _, _, _, hfile3⟩ :=
    @dirlookup_symlink_nf K s2 dp e name _ _ P.data sz d (by rw [hdp2]; exact hdp) hscan2 hf2
      hdisk2 hK2
      (by rw [le32_congr (fun i hi => hmag i hi)]; exact le32_int_bytes _ hK1)
      (by
        have h0 := hbytes 0 (Nat.zero_le _)
        rw [Nat.add_zero] at h0
        rw [h0]
        cases hd : P.data with
        | nil => rw [hd] at habs; cases habs
        | cons c cs =>
          rw [hd] at habs
          simp only [List.head?_cons, Option.some.injEq] at habs
          rw [cstring_bytes_get P 0 (by rw [hd]; simp)]
          simp [hd, habs])
      (fun i hi => by rw [hbytes i (by rw [← hlenP]; omega)]; exact cstring_bytes_get P i hi)
      (by rw [hbytes _ (by rw [← hlenP])]; exact cstring_bytes_end P)
      (by rw [hlenP]; exact hmax) (by rw [hlenP]; exact hobj) hnul
      (by show P ≠ _; rw [hcp2]; exact hne) htarget2
  refine ⟨e, s3, hlook, by rw [hp3], hty3, hr3, by rw [hfile3], ?_⟩
  -- well-formedness of the final state
  have hcache31 : s3.cache = s1.cache := by rw [hc3, hc2]
  have hlru31 : s3.lru = s1.lru := by rw [hl3, hl2]
  have hnoe : ∀ c, ¬ ((s1.slot c).valid = true ∧ (s1.slot c).host = some e) := by
    intro c hc
    by_cases hen : e = newip
    · rw [hen] at hc; exact hnopage c hc
    · have h1 := (hl1.1 c e hc.1 hc.2).2.1
      have h2 := hosted_pos hc.1 hc.2
      rw [hino2 e hen] at he0
      omega
  have hsane3 : Sane PGSIZE s3 := by
    refine ⟨hs1.1.congr ⟨hcache31, hlru31⟩, hs1.2.1.congr_slots hcache31, fun i => ?_⟩
    by_cases hie : i = e
    · rw [hie, hfile3]; exact hsz
    · rw [hino3 i hie]
      by_cases hin : i = newip
      · rw [hin, hip2]; exact hs1.2.2 newip
      · rw [hino2 i hin]; exact hs1.2.2 i
  have hheld3 : Held s3 := by
    intro c h hv hh
    have hv1 : (s1.slot c).valid = true := by rw [← slot_congr hcache31]; exact hv
    have hh1 : (s1.slot c).host = some h := by rw [← slot_congr hcache31]; exact hh
    have hhe : h ≠ e := fun hx => hnoe c ⟨hv1, hx ▸ hh1⟩
    have hhn : h ≠ newip := fun hx => hnopage c ⟨hv1, hx ▸ hh1⟩
    obtain ⟨g1, g2, g3⟩ := hl1.1 c h hv1 hh1
    rw [hino3 h hhe, hino2 h hhn, hosted_congr hcache31]
    exact ⟨by rw [hN3, hN2]; exact g1, g2, g3⟩
  have hhost3 : s3.hosted e = 0 := by
    by_contra hx
    obtain ⟨c, hv, hh⟩ := hosted_pos_iff.mp (Nat.pos_of_ne_zero hx)
    exact hnoe c ⟨by rw [← slot_congr hcache31]; exact hv, by rw [← slot_congr hcache31]; exact hh⟩
  have hlive3 : Live s3 e :=
    ⟨hheld3, by rw [hN3]; exact he2, by rw [hr3, hhost3]; decide⟩
  have hav3 : Avail s3 := hav1.of_same_avail hcache31
  have hbyte3 : ∀ q, q < sz → ByteIs PGSIZE s3 e q (d q) := by
    intro q hq
    refine ⟨by rw [hfile3]; exact hq, fun c hit => ?_, fun _ => by rw [hfile3]⟩
    obtain ⟨hv, hh, _⟩ := (is_hit_iff _ _ _).mp hit
    exact absurd ⟨by rw [← slot_congr hcache31]; exact hv,
      by rw [← slot_congr hcache31]; exact hh⟩ (hnoe c)
  intro off n hn hn31 hfit
  have hto : toInt32 n = (n : Int) := by
    unfold toInt32
    rw [Nat.mod_eq_of_lt (by omega), if_pos (by omega)]
  have hrange : off + n < 2 ^ 32 := by omega
  obtain ⟨buf, s4, hread⟩ := readi_total hP hP32 dst hsane3 hf3 hlive3 hn hrange
    (by rw [hfile3]; exact hfit) (fun _ _ => Or.inl hav3)
  obtain ⟨_, _, hres⟩ := readi_spec hP hP32 (fun j => d (off + j)) hsane3 hn hrange
    (fun j hj => hbyte3 (off + j) (by omega)) hread
  rw [hto] at hread
  refine ⟨buf, s4, hread, ?_⟩
  rcases hres with h0 | ⟨_, h2⟩
  · rw [hto] at h0; omega
  · exact h2

theorem wS2_sane : Sane 4096 wS2 := by
  have hslot : ∀ c, (wS2.slot c).valid = false := by
    intro c
    rcases c with _ | _ | c <;> rfl
  have hN : wS2.NINODE = 4 := by decide
  refine ⟨CInv.zero ⟨rfl, rfl⟩, fun c hv => ?_, fun i => ?_⟩
  · rw [hslot c] at hv; cases hv
  · rcases i with _ | _ | _ | _ | i
    · decide
    · decide
    · decide
    · decide
    · rw [ino_default_of_ge wS2 (i + 4) (by rw [hN]; omega)]
      show (0 : Nat) < 2 ^ 32
      decide

theorem wS2_live : Live wS2 2 := by
  have hslot : ∀ c, (wS2.slot c).valid = false := by
    intro c
    rcases c with _ | _ | c <;> rfl
  refine ⟨fun c h hv _ => ?_, by decide, by decide⟩
  rw [hslot c] at hv; cases hv

theorem wS3_run : ilink wK 4096 wS2 1 2 = some (0, wS3) := rfl

theorem wS3_others (j : Nat) (hj : j ≠ 2) :
    ¬ ((wS3.ino j).ref > 0 ∧ (wS3.ino j).dev = wK.ROOTDEV ∧
      (wS3.ino j).path = child_path (wS3.ino 0).path "b") := by
  have hN : wS3.NINODE = 4 := by decide
  rintro ⟨h1, _, h3⟩
  rcases j with _ | _ | _ | _ | j
  · exact absurd h3 (by decide)
  · exact absurd h3 (by decide)
  · exact hj rfl
  · exact absurd h1 (by decide)
  · rw [ino_default_of_ge wS3 (j + 4) (by rw [hN]; omega)] at h1
    exact absurd h1 (by decide)

theorem C23_reopening_a_link_resolves_to_the_old_path_witness :
    (Sane 4096 wS2 ∧ Live wS2 2 ∧ ilink wK 4096 wS2 1 2 = some (0, wS3) ∧
      (wS2.ino 1).path = "/a" ∧ (wS3.ino 2).path = "/b" ∧ (wS3.ino 2).ref = 1 ∧
      wS3.faults = [] ∧ (wS3.disk.lookup "/a").isSome = true) ∧
    (∃ s2, iput wS3 2 = some s2 ∧ (s2.ino 2).ref = 0 ∧
      ∃ e s3, dirlookup wK s2 0 "b" = some (some e, s3) ∧
        (s3.ino e).path = (wS2.ino 1).path ∧ (s3.ino e).type = T_FILE ∧
        (s3.ino e).ref = 1 ∧
        (s3.ino e).file =
          { objsize := 5, data := wHello, fptr := 0, path := (wS2.ino 1).path } ∧
        ∀ off n, 0 < n → n < 2 ^ 31 → off + n ≤ 5 →
          ∃ buf s4, readi 4096 s3 e false zeroMem off n = some ((n : Int), buf, s4) ∧
            ∀ j, j < n → buf j = wHello (off + j)) ∧
    ((wS5.ino 2).path, (wS5.ino 2).type, (wS5.ino 2).ref) = ("/a", T_FILE, 1) ∧
    (readi 4096 wS5 2 false zeroMem 0 5).map
        (fun r => (r.1, [r.2.1 0, r.2.1 1, r.2.1 2, r.2.1 3, r.2.1 4])) =
      some (5, [104, 101, 108, 108, 111]) :=
  ⟨⟨wS2_sane, wS2_live, wS3_run, by decide, by decide, by decide, by decide, by decide⟩,
    C23_reopening_a_link_resolves_to_the_old_path wK 4096 wS2 wS3 0 1 2 "b" 5 wHello zeroMem
      (by decide) (by decide) (by decide) (by decide) wS2_sane wS2_live (by decide)
      (by decide) (by decide) (by decide) wS3_run
      ⟨by decide, by decide, by decide, by decide, by decide⟩ (by decide) (by decide)
      (by decide) wS3_others ⟨_, _, rfl⟩ rfl (by decide) (by decide),
    by decide, by decide⟩

/-- C23 (counterexample): seed scenario 4 on the code, `/a` holding `"hello"`.  After
`a = dirlookup(root, "a")`, `b = icreate(root, "b", T_FILE, 0, 0)` and `ilink(a, b)`, which
returns 0, the lookup that directly follows finds the live slot of `b`: it returns `b`
itself (slot 2, now with `ref` 2), whose path is `/b`, not `/a`, and `readi` on it returns
the seven bytes of the symlink record, not the contents of `a`. -/
theorem C23_lookup_after_link_returns_the_link :
    (ilink wK 4096 wS2 1 2).map (fun r => r.1) = some 0 ∧
    ((wS3.ino 1).path, (wS3.ino 1).ref, (wS3.ino 2).path, (wS3.ino 2).ref) =
      ("/a", 1, "/b", 1) ∧
    (dirlookup wK wS3 0 "b").map (fun r => (r.1, (r.2.ino 2).path, (r.2.ino 2).ref)) =
      some (some 2, "/b", 2) ∧
    (readi 4096 wS4 2 false zeroMem 0 7).map
        (fun r => (r.1, [r.2.1 0, r.2.1 1, r.2.1 2, r.2.1 3, r.2.1 4, r.2.1 5, r.2.1 6])) =
      some (7, [33, 67, 101, 135, 47, 97, 0]) ∧
    (readi 4096 wS3 1 false zeroMem 0 5).map
        (fun r => (r.1, [r.2.1 0, r.2.1 1, r.2.1 2, r.2.1 3, r.2.1 4])) =
      some (5, [104, 101, 108, 108, 111]) :=
  ⟨by decide, by decide, by decide, by decide, by decide⟩

/-! ## Interrupt nesting -/

theorem int32_id (x : Int) (h0 : -2 ^ 31 ≤ x) (h1 : x < 2 ^ 31) : int32 x = x := by
  unfold int32
  omega

theorem push_n_state (c : cpu) (h0 : c.noff = 0) (i : Nat) (hi : 1 ≤ i) (hk : i < 2 ^ 31) :
    push_n i c = { noff := (i : Int), maintence := intr_get c, intr := false } := by
  induction i with
  | zero => omega
  | succ n ih =>
    rcases Nat.eq_zero_or_pos n with hn | hn
    · subst hn
      simp only [push_n, push_off, intr_off, h0, if_true]
      rw [int32_id _ (by norm_num) (by norm_num)]
      rfl
    · rw [push_n, ih hn (by omega)]
      have hne : ((n : Nat) : Int) ≠ 0 := by omega
      simp only [push_off, intr_off, if_neg hne]
      rw [int32_id _ (by omega) (by push_cast; omega)]
      push_cast
      rfl

theorem pop_n_state (m : Int) (k j : Nat) (hj : j < k) (hk : k < 2 ^ 31) :
    pop_n j { noff := (k : Int), maintence := m, intr := false } =
      some { noff := (k : Int) - j, maintence := m, intr := false } := by
  induction j with
  | zero => simp [pop_n]
  | succ n ih =>
    rw [pop_n, ih (by omega)]
    simp only [Option.bind, pop_off, intr_get]
    rw [if_neg (by simp), if_neg (by omega)]
    have h1 : int32 ((k : Int) - n - 1) = (k : Int) - (n + 1 : Nat) := by
      rw [int32_id _ (by omega) (by omega)]; push_cast; ring
    simp only [h1]
    rw [if_neg (by omega)]

theorem pop_n_last (m : Int) (k : Nat) (hk1 : 1 ≤ k) (hk : k < 2 ^ 31) :
    pop_n k { noff := (k : Int), maintence := m, intr := false } =
      some { noff := 0, maintence := m, intr := decide (m ≠ 0) } := by
  obtain ⟨n, rfl⟩ : ∃ n, k = n + 1 := ⟨k - 1, by omega⟩
  rw [pop_n, pop_n_state m (n + 1) n (by omega) hk]
  simp only [Option.bind, pop_off, intr_get]
  rw [if_neg (by simp), if_neg (by push_cast; omega)]
  have h1 : int32 (((n + 1 : Nat) : Int) - n - 1) = 0 := by
    rw [int32_id _ (by push_cast; omega) (by push_cast; omega)]; push_cast; ring
  simp only [h1]
  by_cases hm : m = 0
  · simp [hm]
  · simp [hm, intr_on]

/-- C33: from a cpu state with nesting depth `noff = 0`, whatever the interrupt state, `k`
calls of `push_off` (`1 <= k`, the depth staying in the range of `int`) followed by `k` calls
of `pop_off` do not panic and leave `noff` 0 and interrupts enabled iff they were enabled at
the start; interrupts are disabled after each of the `push_off` calls and after each of the
first `k - 1` `pop_off` calls; and `pop_off` panics exactly when interrupts are enabled or
`noff < 1`. -/
theorem C33_push_off_pop_off_are_matched (c : cpu) (k : Nat) (h0 : c.noff = 0) (hk1 : 1 ≤ k)
    (hk : k < 2 ^ 31) :
    (∃ c', pop_n k (push_n k c) = some c' ∧ c'.noff = 0 ∧ c'.intr = c.intr) ∧
    (∀ i, 1 ≤ i → i ≤ k → (push_n i c).intr = false ∧ (push_n i c).noff = i) ∧
    (∀ j, 1 ≤ j → j < k → ∃ c', pop_n j (push_n k c) = some c' ∧ c'.intr = false ∧
      c'.noff = (k : Int) - j) ∧
    (∀ d : cpu, pop_off d = none ↔ (d.noff < 1 ∨ d.intr = true)) := by
  refine ⟨?_, fun i hi1 hik => ?_, fun j _ hjk => ?_, fun d => ?_⟩
  · rw [push_n_state c h0 k hk1 hk, pop_n_last _ k hk1 hk]
    refine ⟨_, rfl, rfl, ?_⟩
    unfold intr_get
    cases c.intr <;> simp
  · rw [push_n_state c h0 i hi1 (by omega)]
    exact ⟨rfl, rfl⟩
  · rw [push_n_state c h0 k hk1 hk, pop_n_state _ k j hjk hk]
    exact ⟨_, rfl, rfl, rfl⟩
  · unfold pop_off intr_get
    cases hd : d.intr
    · simp only [Bool.false_eq_true, if_false, ne_eq, not_true_eq_false, or_false]
      by_cases hn : d.noff < 1
      · simp [hn]
      · simp only [hn, if_false, iff_false]
        split_ifs <;> simp
    · simp

theorem C33_push_off_pop_off_are_matched_witness :
    (({ noff := 0, maintence := 7, intr := true } : cpu).noff = 0 ∧ 1 ≤ 3 ∧ 3 < 2 ^ 31) ∧
    ((∃ c', pop_n 3 (push_n 3 { noff := 0, maintence := 7, intr := true }) = some c' ∧
        c'.noff = 0 ∧ c'.intr = ({ noff := 0, maintence := 7, intr := true } : cpu).intr) ∧
      (∀ i, 1 ≤ i → i ≤ 3 →
        (push_n i { noff := 0, maintence := 7, intr := true }).intr = false ∧
        (push_n i { noff := 0, maintence := 7, intr := true }).noff = i) ∧
      (∀ j, 1 ≤ j → j < 3 →
        ∃ c', pop_n j (push_n 3 { noff := 0, maintence := 7, intr := true }) = some c' ∧
          c'.intr = false ∧ c'.noff = ((3 : Nat) : Int) - j) ∧
      (∀ d : cpu, pop_off d = none ↔ (d.noff < 1 ∨ d.intr = true))) ∧
    pop_n 3 (push_n 3 { noff := 0, maintence := 7, intr := true }) =
      some { noff := 0, maintence := 1, intr := true } ∧
    pop_n 3 (push_n 3 { noff := 0, maintence := 7, intr := false }) =
      some { noff := 0, maintence := 0, intr := false } ∧
    pop_n 2 (push_n 3 { noff := 0, maintence := 7, intr := true }) =
      some { noff := 1, maintence := 1, intr := false } ∧
    pop_n 4 (push_n 3 { noff := 0, maintence := 7, intr := false }) = none :=
  ⟨⟨by decide, by decide, by decide⟩,
    C33_push_off_pop_off_are_matched { noff := 0, maintence := 7, intr := true } 3
      (by decide) (by decide) (by decide),
    by decide, by decide, by decide, by decide⟩

/-! ## Reference balance of the path resolution -/

theorem open_eff_refs {s s' : KState} {r : Option Nat} (h : OpenEff s r s') (j : Nat) :
    (s'.ino j).ref = (s.ino j).ref + (if r = some j then 1 else 0) := by
  obtain ⟨_, _, h3⟩ := h
  rcases h3 with ⟨i, rfl, _, _, _, hr⟩ | ⟨e, _, he0, _, hoth, hre⟩
  · rw [hr j]
    by_cases hji : j = i
    · subst hji; simp
    · have : ¬ (some i = some j) := fun x => hji (Option.some.inj x).symm
      rw [if_neg hji, if_neg this]
  · rcases hre with ⟨rfl, h1⟩ | ⟨rfl, h0⟩
    · by_cases hje : j = e
      · subst hje; rw [h1, he0]; simp
      · have : ¬ (some e = some j) := fun x => hje (Option.some.inj x).symm
        rw [hoth j hje, if_neg this]; simp
    · by_cases hje : j = e
      · subst hje; rw [h0, he0]; simp
      · rw [hoth j hje]; simp

theorem RefsKept.refl_refs (s : KState) : RefsKept s s := fun _ h => h

theorem RefsKept.trans_refs {a b c : KState} (h1 : RefsKept a b) (h2 : RefsKept b c) :
    RefsKept a c := fun j h => h2 j (h1 j h)

theorem Benign.refsKept {s s' : KState} (h : Benign s s') : RefsKept s s' :=
  fun j hj => by rw [h.2.2 j]; exact hj

theorem iput_refsKept {s s' : KState} {ip : Nat} (h : iput s ip = some s') : RefsKept s s' := by
  obtain ⟨hpos, _, _, heff⟩ := iput_effect h
  intro j hj
  rw [(heff j).1]
  by_cases hji : j = ip
  · subst hji; simp only [if_true]; omega
  · rw [if_neg hji]; omega

theorem idup_refsKept (s : KState) (ip : Nat) : RefsKept s (idup s ip) := by
  intro j hj
  unfold idup
  rw [setIno_ino]
  split
  · rename_i h
    obtain ⟨rfl, _⟩ := h
    show 0 ≤ (s.ino ip).ref + 1
    omega
  · exact hj

theorem open_eff_refsKept {s s' : KState} {r : Option Nat} (h : OpenEff s r s') :
    RefsKept s s' := by
  intro j hj
  rw [open_eff_refs h j]
  split <;> omega

theorem evict_at_refsKept {PGSIZE : Nat} {s s' : KState} {i c : Nat} {r : Int}
    (h : evict_at PGSIZE s i c = some (r, s')) : RefsKept s s' := by
  obtain ⟨s1, h', s3, _, hwb, _, hput, rfl⟩ := evict_at_chain h
  have b1 : Benign s (recycle_physical_page s1) :=
    ((benign_emit s (Ev.evict c) (fun _ => by simp [isClose])).trans (benign_wb_ok hwb)).trans
      (benign_recycle _)
  exact (b1.refsKept.trans_refs (iput_refsKept hput)).trans_refs
    ((benign_setSlot _ _ _).trans (benign_lru_compact _ _)).refsKept

theorem evict_refsKept {PGSIZE : Nat} {s s' : KState} {r : Int}
    (h : ctable_lru_evict PGSIZE s = some (r, s')) : RefsKept s s' := by
  unfold ctable_lru_evict at h
  rcases evict_scan_cases h with ⟨_, h2, _⟩ | ⟨i, c, _, _, _, _, h5⟩
  · rw [h2]; exact RefsKept.refl_refs _
  · exact evict_at_refsKept h5

theorem release_slot_refsKept {PGSIZE : Nat} {s s' : KState} {ip : Option Nat} {c : Nat}
    (h : release_slot PGSIZE s ip c = some s') : RefsKept s s' := by
  by_cases hcond : (s.slot c).valid = true ∧ ((s.slot c).host = ip ∨ ip = none)
  · obtain ⟨s1, h', s3, hwb, _, _, hput, rfl⟩ := release_slot_chain h hcond
    exact (((benign_wb_ok hwb).trans (benign_recycle _)).refsKept.trans_refs
      (iput_refsKept hput)).trans_refs
      ((benign_setSlot _ _ _).trans (benign_lru_remove _ _)).refsKept
  · unfold release_slot at h
    rw [if_neg hcond] at h
    cases h
    exact RefsKept.refl_refs _

theorem release_loop_refsKept {PGSIZE : Nat} {ip : Option Nat} (k c : Nat) {s s' : KState}
    (h : release_loop PGSIZE ip k c s = some s') : RefsKept s s' := by
  induction k generalizing c s with
  | zero => rw [release_loop] at h; cases h; exact RefsKept.refl_refs _
  | succ k ih =>
    rw [release_loop] at h
    split at h
    · cases h
    · rename_i s1 hs1
      exact (release_slot_refsKept hs1).trans_refs (ih (c + 1) h)

theorem lru_add_refsKept {PGSIZE : Nat} {s s' : KState} {c : Nat} {x : Int}
    (h : ctable_lru_add PGSIZE s c = some (x, s')) : RefsKept s s' := by
  obtain ⟨s1, h1, h2⟩ := lru_add_chain h
  have p1 : RefsKept s s1 := by
    rcases h1 with ⟨_, rfl⟩ | ⟨_, r, hev⟩
    · exact RefsKept.refl_refs _
    · exact evict_refsKept hev
  rcases h2 with ⟨_, rfl⟩ | ⟨_, rfl⟩
  · exact p1
  · exact p1.trans_refs (benign_of_eq rfl rfl).refsKept

theorem fill_slot_refsKept {PGSIZE : Nat} {s s' : KState} {c ip offset : Nat} {r : Option Nat}
    (hc : c < s.NCACHE) (h : fill_slot PGSIZE s c ip offset = some (r, s')) :
    RefsKept s s' := by
  rcases fill_slot_chain hc h with ⟨_, _, rfl⟩ | ⟨_, ⟨_, _, rfl⟩ | ⟨_, _, x, hadd⟩⟩
  · exact ((benign_fill_seek s c ip offset).trans (benign_fill_rollback _ _)).refsKept
  · exact (((benign_fill_seek s c ip offset).trans (benign_fill_loaded _ _ _ _ _)).trans
      (benign_fill_rollback _ _)).refsKept
  · have b := (benign_fill_seek s c ip offset).trans
      (benign_fill_loaded PGSIZE _ c ip offset)
    exact (b.refsKept.trans_refs (idup_refsKept _ ip)).trans_refs (lru_add_refsKept hadd)

theorem acquire_refsKept {PGSIZE : Nat} {s s' : KState} {ip offset : Nat} {r : Option Nat}
    (ha : ctable_acquire PGSIZE s ip offset = some (r, s')) : RefsKept s s' := by
  unfold ctable_acquire at ha
  split at ha
  · cases ha
  · split at ha
    · cases ha
      exact (benign_lru_adjust _ _).refsKept
    · split at ha
      · rename_i c hc
        obtain ⟨hcn, _, _⟩ := find_slot_some hc
        exact fill_slot_refsKept hcn ha
      · split at ha
        · cases ha
        · rename_i x s1 hev
          have p1 := evict_refsKept hev
          split at ha
          · rename_i c hc
            obtain ⟨hcn, _, _⟩ := find_slot_some hc
            exact p1.trans_refs (fill_slot_refsKept hcn ha)
          · cases ha; exact p1

theorem kstep_refsKept {K : Consts} {PGSIZE : Nat} {s s' : KState} {op : Op}
    (h : kstep K PGSIZE s op = some s') : RefsKept s s' := by
  cases op with
  | iget_root =>
    simp only [kstep, Option.map_eq_some'] at h
    obtain ⟨r, hr, rfl⟩ := h
    exact open_eff_refsKept (iget_root_eff (show iget_root K s = some (r.1, r.2) from hr))
  | dirlookup dp name =>
    simp only [kstep, Option.map_eq_some'] at h
    obtain ⟨r, hr, rfl⟩ := h
    exact open_eff_refsKept (dirlookup_eff (show dirlookup K s dp name = some (r.1, r.2) from hr))
  | icreate dp name type major minor =>
    simp only [kstep, Option.map_eq_some'] at h
    obtain ⟨r, hr, rfl⟩ := h
    exact open_eff_refsKept
      (icreate_eff (show icreate K s dp name type major minor = some (r.1, r.2) from hr))
  | idup ip =>
    simp only [kstep, Option.some.injEq] at h
    subst h
    exact idup_refsKept s ip
  | iput ip => exact iput_refsKept h
  | acquire ip offset =>
    simp only [kstep, Option.map_eq_some'] at h
    obtain ⟨r, hr, rfl⟩ := h
    exact acquire_refsKept (show ctable_acquire PGSIZE s ip offset = some (r.1, r.2) from hr)
  | release ip => exact release_loop_refsKept _ _ h

theorem krun_refsKept {K : Consts} {PGSIZE : Nat} (ops : List Op) {s s' : KState}
    (h : krun K PGSIZE ops s = some s') : RefsKept s s' := by
  induction ops generalizing s with
  | nil => rw [krun] at h; cases h; exact RefsKept.refl_refs _
  | cons op ops ih =>
    rw [krun] at h
    split at h
    · cases h
    · rename_i s1 hs1
      exact (kstep_refsKept hs1).trans_refs (ih h)

/-! ## The name buffer after `skipelem` -/

/-- C34 (evaluation at the failing input): with `DIRSIZ` = 14 and the zeroed 14-byte buffer
of `inode_by_name`, `skipelem` on a path whose first component has 16 characters, or exactly
14, fills the buffer with the first 14 characters of the component and stores no NUL: no byte
of the buffer is NUL.  A component of 13 characters, by contrast, is followed by a NUL.  At
the return of `inode_by_name("/abcdefghijklmnop")` the buffer holds no NUL either: that is
the buffer `dirlookup` was given. -/
theorem C34_long_component_fills_the_buffer_without_NUL :
    (skipelem 14 "abcdefghijklmnop".toList (List.replicate 14 NUL)).map
        (fun r => (String.mk r.1, String.mk r.2, r.2.length, decide (NUL ∈ r.2))) =
      some ("", "abcdefghijklmn", 14, false) ∧
    (skipelem 14 "/abcdefghijklmn/x".toList (List.replicate 14 NUL)).map
        (fun r => (String.mk r.1, String.mk r.2, r.2.length, decide (NUL ∈ r.2))) =
      some ("x", "abcdefghijklmn", 14, false) ∧
    (skipelem 14 "abcdefghijklm/x".toList (List.replicate 14 NUL)).map
        (fun r => (String.mk r.1, cstr r.2, r.2.length, decide (NUL ∈ r.2))) =
      some ("x", "abcdefghijklm", 14, true) ∧
    (inode_by_name wK 14 pL0 "/abcdefghijklmnop".toList).map
        (fun r => (String.mk r.2.1, r.2.1.length, decide (NUL ∈ r.2.1))) =
      Outcome.ret ("abcdefghijklmn", 14, false) :=
  ⟨by decide, by decide, by decide, by decide⟩

/-! ## Directory entries -/

theorem child_name_ne {dpath q n : String} (h : child_name dpath q = some n) :
    n.length ≠ 0 := by
  unfold child_name at h
  dsimp only at h
  generalize (if dpath.back ≠ '/' then dpath ++ "/" else dpath) = pre at h
  by_cases h1 : pre.data.isPrefixOf q.data = true
  · rw [if_pos h1] at h
    by_cases h2 : List.drop pre.data.length q.data ≠ [] ∧ '/' ∉ List.drop pre.data.length q.data
    · rw [if_pos h2] at h
      have h' := Option.some.inj h
      rw [← h']
      show (List.drop pre.data.length q.data).length ≠ 0
      exact fun x => h2.1 (List.length_eq_zero.mp x)
    · rw [if_neg h2] at h
      cases h
  · rw [if_neg h1] at h
    cases h

theorem dir_entries_fname {C : DirentConsts} {disk : List (String × Node)} {dpath : String}
    {e : FILINFO} (h : e ∈ dir_entries C disk dpath) : e.fname.length ≠ 0 := by
  unfold dir_entries at h
  rw [List.mem_filterMap] at h
  obtain ⟨x, _, hx⟩ := h
  cases hc : child_name dpath x.1 with
  | none => rw [hc] at hx; cases hx
  | some n =>
    rw [hc] at hx
    cases hx
    exact child_name_ne hc

theorem Walked.walk_trans {dp n1 m1 n2 m2 : Nat} {a b c : KState} (h1 : Walked dp n1 m1 a b)
    (h2 : Walked dp n2 m2 b c) : Walked dp (n1 + n2) (m1 + m2) a c := by
  obtain ⟨a1, a2, a3, a4, a5, a6, a7, a8⟩ := h1
  obtain ⟨b1, b2, b3, b4, b5, b6, b7, b8⟩ := h2
  refine ⟨b1.trans a1, ?_, fun j hj => (b3 j hj).trans (a3 j hj), b4.trans a4, b5.trans a5,
    b6.trans a6, b7.trans a7, ?_⟩
  · rw [b2, a2]
    simp [Nat.add_assoc]
  · rw [b8, a8, List.append_assoc, ← List.replicate_add]

theorem f_readdir_nf (C : DirentConsts) (s : KState) (dp : Nat) (hnf : s.faults = [])
    (hdp : dp < s.NINODE) :
    (f_readdir C s dp).1 = FRESULT.FR_OK ∧
    (f_readdir C s dp).2.1 = ((entries_left C s dp).head?).getD {} ∧
    Walked dp (if entries_left C s dp = [] then 0 else 1) 1 s (f_readdir C s dp).2.2 := by
  have hf : s.fault = (false, s) := fault_nil s hnf
  have key : f_readdir C s dp =
      match (dir_entries C s.disk (s.ino dp).path)[(s.ino dp).dirPos]? with
      | none => (FRESULT.FR_OK, {}, s.emit (Ev.f_readdir dp))
      | some e =>
        (FRESULT.FR_OK, e, (s.emit (Ev.f_readdir dp)).setIno dp
          { s.ino dp with dirPos := (s.ino dp).dirPos + 1 }) := by
    unfold f_readdir
    simp only [hf, Bool.false_eq_true, if_false]
    rfl
  unfold entries_left
  rw [List.head?_drop, key]
  cases hg : (dir_entries C s.disk (s.ino dp).path)[(s.ino dp).dirPos]? with
  | none =>
    have hnil : List.drop (s.ino dp).dirPos (dir_entries C s.disk (s.ino dp).path) = [] := by
      rw [List.drop_eq_nil_iff]
      exact List.getElem?_eq_none_iff.mp hg
    rw [if_pos hnil]
    refine ⟨rfl, rfl, rfl, ?_, fun _ _ => rfl, rfl, rfl, rfl, rfl, rfl⟩
    show s.ino dp = _
    simp
  | some e =>
    have hne : List.drop (s.ino dp).dirPos (dir_entries C s.disk (s.ino dp).path) ≠ [] := by
      intro h0
      rw [List.drop_eq_nil_iff] at h0
      rw [List.getElem?_eq_none_iff.mpr h0] at hg
      cases hg
    rw [if_neg hne]
    refine ⟨rfl, rfl, ?_, ?_, fun j hj => ?_, rfl, rfl, rfl, rfl, rfl⟩
    · show ((s.emit (Ev.f_readdir dp)).setIno dp _).NINODE = s.NINODE
      rw [setIno_NINODE]
      rfl
    · show ((s.emit (Ev.f_readdir dp)).setIno dp _).ino dp = _
      rw [setIno_ino, if_pos ⟨rfl, hdp⟩]
    · show ((s.emit (Ev.f_readdir dp)).setIno dp _).ino j = _
      rw [setIno_ino, if_neg (fun x => hj x.1.symm)]
      rfl

theorem entries_left_fname {C : DirentConsts} {s : KState} {dp : Nat} {e : FILINFO}
    (h : e ∈ entries_left C s dp) : e.fname.length ≠ 0 :=
  dir_entries_fname (List.mem_of_mem_drop h)

theorem entries_left_walked {C : DirentConsts} {s s1 : KState} {dp n m : Nat}
    (h : Walked dp n m s s1) : entries_left C s1 dp = (entries_left C s dp).drop n := by
  obtain ⟨_, h2, _, _, _, h6, _, _⟩ := h
  unfold entries_left
  rw [h6, h2, List.drop_drop]

theorem Walked.walk_faults {dp n m : Nat} {s s' : KState} (h : Walked dp n m s s') :
    s'.faults = s.faults := h.2.2.2.2.2.2.1

/-- What the loop of `igetdents` does when no call fails, `es` being the entries the cursor
has yet to yield: the records of the entries that fit are written one after the other, and
the cursor has moved past them and past the entry that did not fit, if there is one. -/
theorem igetdents_loop_spec (C : DirentConsts) (dp buf_addr len : Nat)
    (hB : buf_addr + len + 65536 ≤ 2 ^ 64) :
    ∀ (es : List FILINFO) (fuel : Nat) (s : KState) (buf : Mem) (off : Nat),
      entries_left C s dp = es → s.faults = [] → dp < s.NINODE → es.length < fuel →
      off ≤ len → (∀ e ∈ es, rec_len C e < 65536) →
      ∃ s', igetdents_loop C dp buf_addr len fuel s buf off =
          (toInt32 (off + total_len C (es.take (fit_count C len off es))),
            write_dirents C buf off (es.take (fit_count C len off es)), s') ∧
        Walked dp (min (fit_count C len off es + 1) es.length) (fit_count C len off es + 1)
          s s' := by
  intro es
  induction es with
  | nil =>
    intro fuel s buf off hes hnf hdp hfuel _ _
    obtain ⟨f, rfl⟩ : ∃ f, fuel = f + 1 := ⟨fuel - 1, by simp at hfuel; omega⟩
    obtain ⟨h1, h2, h3⟩ := f_readdir_nf C s dp hnf hdp
    rw [hes] at h2 h3
    refine ⟨(f_readdir C s dp).2.2, ?_, ?_⟩
    · rw [igetdents_loop]
      simp only [h1, ne_eq, not_true_eq_false, if_false, h2]
      simp [fit_count, total_len, write_dirents]
    · simpa [fit_count] using h3
  | cons e rest ih =>
    intro fuel s buf off hes hnf hdp hfuel hoff hrec
    obtain ⟨f, rfl⟩ : ∃ f, fuel = f + 1 := ⟨fuel - 1, by simp at hfuel; omega⟩
    obtain ⟨h1, h2, h3⟩ := f_readdir_nf C s dp hnf hdp
    rw [hes] at h2 h3
    simp only [List.head?_cons, Option.getD_some] at h2
    rw [if_neg (by simp)] at h3
    have hname : e.fname.length ≠ 0 :=
      entries_left_fname (by rw [hes]; exact List.mem_cons_self _ _)
    have hre : rec_len C e < 65536 := hrec e (List.mem_cons_self _ _)
    have hre' : C.SIZEOF_DIRENT + e.fname.length + 1 < 65536 := hre
    have hmod : (C.SIZEOF_DIRENT + e.fname.length + 1) % 2 ^ 16 = rec_len C e := by
      unfold rec_len; omega
    have hchk : ((buf_addr + off + C.SIZEOF_DIRENT + e.fname.length + 1) % 2 ^ 64 >
        (buf_addr + len) % 2 ^ 64) ↔ off + rec_len C e > len := by
      unfold rec_len; omega
    by_cases hov : off + rec_len C e > len
    · refine ⟨(f_readdir C s dp).2.2, ?_, ?_⟩
      · rw [igetdents_loop]
        simp only [h1, ne_eq, not_true_eq_false, if_false, h2, hname]
        rw [if_pos (hchk.mpr hov)]
        simp [fit_count, hov, total_len, write_dirents]
      · have : fit_count C len off (e :: rest) = 0 := by simp [fit_count, hov]
        rw [this]
        simpa using h3
    · have hs1 : entries_left C (f_readdir C s dp).2.2 dp = rest := by
        rw [entries_left_walked h3, hes]; rfl
      have hnf1 : (f_readdir C s dp).2.2.faults = [] := by rw [h3.walk_faults]; exact hnf
      have hdp1 : dp < (f_readdir C s dp).2.2.NINODE := by rw [h3.1]; exact hdp
      obtain ⟨s', hrun, hw⟩ := ih f (f_readdir C s dp).2.2 (write_dirent C buf off e)
        (off + rec_len C e) hs1 hnf1 hdp1 (by simp at hfuel; omega) (by omega)
        (fun x hx => hrec x (List.mem_cons_of_mem _ hx))
      have hfc : fit_count C len off (e :: rest) =
          fit_count C len (off + rec_len C e) rest + 1 := by simp [fit_count, hov]
      refine ⟨s', ?_, ?_⟩
      · rw [igetdents_loop]
        simp only [h1, ne_eq, not_true_eq_false, if_false, h2, hname]
        rw [if_neg (fun x => hov (hchk.mp x)), hmod, hrun, hfc]
        simp only [List.take_succ_cons, write_dirents, total_len, List.map_cons, List.sum_cons]
        rw [Nat.add_assoc]
      · rw [hfc]
        have := h3.walk_trans hw
        have e1 : 1 + min (fit_count C len (off + rec_len C e) rest + 1) rest.length =
            min (fit_count C len (off + rec_len C e) rest + 1 + 1) (e :: rest).length := by
          simp only [List.length_cons]; omega
        have e2 : 1 + (fit_count C len (off + rec_len C e) rest + 1) =
            fit_count C len (off + rec_len C e) rest + 1 + 1 := by omega
        rw [e1, e2] at this
        exact this

theorem load_le_congr {m1 m2 : Mem} (n : Nat) :
    ∀ a, (∀ j, a ≤ j → j < a + n → m1 j = m2 j) → load_le m1 a n = load_le m2 a n := by
  induction n with
  | zero => intro a _; rfl
  | succ n ih =>
    intro a h
    rw [load_le, load_le, h a (Nat.le_refl _) (by omega),
      ih (a + 1) (fun j h1 h2 => h j (by omega) (by omega))]

theorem load_le_store (m : Mem) (n : Nat) : ∀ a v, load_le (store_le m a n v) a n = v % 256 ^ n := by
  induction n with
  | zero => intro a v; simp [load_le, Nat.mod_one]
  | succ n ih =>
    intro a v
    rw [load_le]
    have h0 : store_le m a (n + 1) v a = v % 256 := by
      unfold store_le
      rw [if_pos ⟨Nat.le_refl _, by omega⟩]
      simp
    have h1 : load_le (store_le m a (n + 1) v) (a + 1) n =
        load_le (store_le m (a + 1) n (v / 256)) (a + 1) n := by
      apply load_le_congr
      intro j hj1 hj2
      unfold store_le
      rw [if_pos ⟨by omega, by omega⟩, if_pos ⟨hj1, hj2⟩]
      have : j - a = (j - (a + 1)) + 1 := by omega
      rw [this, pow_succ, Nat.mul_comm, Nat.div_div_eq_div_mul]
    rw [h0, h1, ih (a + 1) (v / 256), pow_succ, Nat.mul_comm (256 ^ n) 256, Nat.mod_mul]

theorem write_dirent_out (C : DirentConsts) (buf : Mem) (off : Nat) (e : FILINFO) (i : Nat)
    (h : i < off ∨ off + 19 + e.fname.length + 1 ≤ i) : write_dirent C buf off e i = buf i := by
  unfold write_dirent blit store_le
  rw [if_neg (by omega), if_neg (by omega), if_neg (by omega), if_neg (by omega),
    if_neg (by omega)]

theorem write_dirent_in (C : DirentConsts) (b1 b2 : Mem) (off : Nat) (e : FILINFO) (i : Nat)
    (h1 : off ≤ i) (h2 : i < off + 19 + e.fname.length + 1) :
    write_dirent C b1 off e i = write_dirent C b2 off e i := by
  unfold write_dirent blit store_le
  split_ifs <;> first | rfl | omega

theorem write_dirent_fields (C : DirentConsts) (buf : Mem) (off : Nat) (e : FILINFO) :
    load_le (write_dirent C buf off e) off 8 = 0 ∧
    load_le (write_dirent C buf off e) (off + 8) 8 = (off + rec_len C e) % 2 ^ 64 ∧
    load_le (write_dirent C buf off e) (off + 16) 2 = rec_len C e % 2 ^ 16 ∧
    write_dirent C buf off e (off + 18) =
      (if Nat.land e.fattrib C.AM_DIR ≠ 0 then C.DT_DIR else C.DT_REG) % 2 ^ 8 ∧
    ∀ t, t ≤ e.fname.length → write_dirent C buf off e (off + 19 + t) = cstring_bytes e.fname t := by
  refine ⟨?_, ?_, ?_, ?_, ?_⟩
  · rw [@load_le_congr _ (store_le buf off 8 0) 8 off, load_le_store]
    · rfl
    · intro j h1 h2
      unfold write_dirent blit store_le
      rw [if_neg (by omega), if_neg (by omega), if_neg (by omega), if_neg (by omega),
        if_pos ⟨h1, h2⟩]
  · rw [@load_le_congr _
      (store_le buf (off + 8) 8 ((off + C.SIZEOF_DIRENT + e.fname.length + 1) % 2 ^ 64)) 8
      (off + 8), load_le_store]
    · unfold rec_len
      rw [Nat.mod_mod_of_dvd _ (by norm_num : 256 ^ 8 ∣ 2 ^ 64)]
      have : (256 : Nat) ^ 8 = 2 ^ 64 := by norm_num
      rw [this, Nat.add_assoc off, Nat.add_assoc off]
    · intro j h1 h2
      unfold write_dirent blit store_le
      rw [if_neg (by omega), if_neg (by omega), if_neg (by omega), if_pos ⟨h1, h2⟩,
        if_pos ⟨h1, h2⟩]
  · rw [@load_le_congr _
      (store_le buf (off + 16) 2 ((C.SIZEOF_DIRENT + e.fname.length + 1) % 2 ^ 16)) 2
      (off + 16), load_le_store]
    · unfold rec_len
      have : (256 : Nat) ^ 2 = 2 ^ 16 := by norm_num
      rw [this, Nat.mod_mod]
    · intro j h1 h2
      unfold write_dirent blit store_le
      rw [if_neg (by omega), if_neg (by omega), if_pos ⟨h1, h2⟩, if_pos ⟨h1, h2⟩]
  · unfold write_dirent blit store_le
    rw [if_neg (by omega), if_pos ⟨Nat.le_refl _, by omega⟩]
    simp
  · intro t ht
    unfold write_dirent blit
    rw [if_pos ⟨by omega, by omega⟩]
    congr 1
    omega

theorem total_len_take_le (C : DirentConsts) (es : List FILINFO) (i : Nat) :
    total_len C (es.take i) ≤ total_len C es := by
  induction es generalizing i with
  | nil => simp [total_len]
  | cons e r ih =>
    cases i with
    | zero => simp [total_len]
    | succ i =>
      have := ih i
      simp only [total_len, List.take_succ_cons, List.map_cons, List.sum_cons] at this ⊢
      omega

theorem write_dirents_out (C : DirentConsts) (h19 : 19 ≤ C.SIZEOF_DIRENT) (es : List FILINFO) :
    ∀ (buf : Mem) (off i : Nat), i < off ∨ off + total_len C es ≤ i →
      write_dirents C buf off es i = buf i := by
  induction es with
  | nil => intro buf off i _; rfl
  | cons e r ih =>
    intro buf off i h
    have ht : total_len C (e :: r) = rec_len C e + total_len C r := by
      simp [total_len]
    have hr : rec_len C e = C.SIZEOF_DIRENT + e.fname.length + 1 := rfl
    rw [write_dirents, ih _ _ i (by omega), write_dirent_out C buf off e i (by omega)]

/-- The record of the `i`-th entry in the buffer written by `write_dirents`: its bytes are
those of the stores of its iteration, at the offset that is the total size of the records
before it. -/
theorem write_dirents_record (C : DirentConsts) (h19 : 19 ≤ C.SIZEOF_DIRENT)
    (es : List FILINFO) :
    ∀ (buf : Mem) (off i : Nat) (e : FILINFO), es[i]? = some e →
      ∀ j, off + total_len C (es.take i) ≤ j →
        j < off + total_len C (es.take i) + 19 + e.fname.length + 1 →
        write_dirents C buf off es j =
          write_dirent C zeroMem (off + total_len C (es.take i)) e j := by
  induction es with
  | nil => intro buf off i e h; simp at h
  | cons x r ih =>
    intro buf off i e h j h1 h2
    have hr : rec_len C x = C.SIZEOF_DIRENT + x.fname.length + 1 := rfl
    cases i with
    | zero =>
      simp only [List.getElem?_cons_zero, Option.some.injEq] at h
      subst h
      simp only [List.take_zero, total_len, List.map_nil, List.sum_nil, Nat.add_zero] at h1 h2 ⊢
      rw [write_dirents, write_dirents_out C h19 r _ _ j (Or.inl (by omega))]
      exact write_dirent_in C _ _ off x j h1 h2
    | succ i =>
      simp only [List.getElem?_cons_succ] at h
      have ht : total_len C ((x :: r).take (i + 1)) = rec_len C x + total_len C (r.take i) := by
        simp [total_len]
      rw [ht] at h1 h2 ⊢
      rw [write_dirents]
      have := ih (write_dirent C buf off x) (off + rec_len C x) i e h j (by omega) (by omega)
      rw [this, Nat.add_assoc]

theorem total_len_cons (C : DirentConsts) (e : FILINFO) (r : List FILINFO) :
    total_len C (e :: r) = rec_len C e + total_len C r := by
  simp [total_len]

/-- The entries counted by `fit_count` are the longest prefix whose records fit. -/
theorem fit_count_spec (C : DirentConsts) (len : Nat) (es : List FILINFO) :
    ∀ off, off ≤ len →
      fit_count C len off es ≤ es.length ∧
      off + total_len C (es.take (fit_count C len off es)) ≤ len ∧
      ∀ k', k' ≤ es.length → off + total_len C (es.take k') ≤ len →
        k' ≤ fit_count C len off es := by
  induction es with
  | nil =>
    intro off h
    refine ⟨Nat.le_refl _, by simpa [fit_count, total_len] using h, fun k' hk _ => ?_⟩
    have : k' = 0 := by simpa using hk
    rw [this]
    exact Nat.zero_le _
  | cons e r ih =>
    intro off h
    have hr : rec_len C e = C.SIZEOF_DIRENT + e.fname.length + 1 := rfl
    by_cases hov : off + rec_len C e > len
    · have hfc : fit_count C len off (e :: r) = 0 := by simp [fit_count, hov]
      rw [hfc]
      refine ⟨Nat.zero_le _, by simpa [total_len] using h, fun k' _ hk' => ?_⟩
      cases k' with
      | zero => exact Nat.le_refl _
      | succ k' =>
        rw [List.take_succ_cons, total_len_cons] at hk'
        omega
    · have hfc : fit_count C len off (e :: r) = fit_count C len (off + rec_len C e) r + 1 := by
        simp [fit_count, hov]
      obtain ⟨a, b, c⟩ := ih (off + rec_len C e) (by omega)
      rw [hfc]
      refine ⟨by simp only [List.length_cons]; omega, ?_, fun k' hk hk' => ?_⟩
      · rw [List.take_succ_cons, total_len_cons]
        omega
      · cases k' with
        | zero => omega
        | succ k' =>
          rw [List.take_succ_cons, total_len_cons] at hk'
          have := c k' (by simp only [List.length_cons] at hk; omega) (by omega)
          omega

theorem toInt32_le (x : Nat) : toInt32 x ≤ (x : Int) := by
  unfold toInt32
  have h := Nat.mod_le x (2 ^ 32)
  split <;> omega

theorem toInt32_small (x : Nat) (h : x < 2 ^ 31) : toInt32 x = (x : Int) := by
  unfold toInt32
  have h1 : x % 2 ^ 32 = x := Nat.mod_eq_of_lt (by omega)
  rw [h1, if_pos h]

theorem dir_type_lt {s : KState} {dp : Nat} (h : (s.ino dp).type = T_DIR) : dp < s.NINODE := by
  by_contra hge
  rw [ino_default_of_ge s dp (Nat.le_of_not_lt hge)] at h
  exact absurd h (by decide)

/-- C31: for an inode that is not a directory `igetdents` returns -1 and leaves the buffer
and the state as they are.  For a directory whose cursor yields the entries `e1, e2, ...`
without error, `igetdents(dp, buf, len)` writes the records of the longest prefix `e1..ek`
whose total size, the sum of `sizeof(struct linux_dirent64) + strlen(name_i) + 1`, is at most
`len`, and nothing beyond them; record `i` lies at the offset that is the total size of the
records before it and has `d_ino = 0`, `d_off` = that offset plus its own length (the sum of
`d_reclen` over the records up to it), `d_reclen` = its length, `d_type` = `DT_DIR` if the
attribute bit `AM_DIR` of the entry is set and `DT_REG` otherwise, and the name followed by
NUL; the return value is the total (as an `int`) and never exceeds `len`.  The cursor has
moved past the `k` entries written and past the entry that did not fit, if there is one. -/
theorem C31_igetdents_writes_the_records_that_fit (C : DirentConsts) (s : KState) (dp : Nat)
    (buf : Mem) (buf_addr len : Nat) :
    ((s.ino dp).type ≠ T_DIR → igetdents C s dp buf buf_addr len = (-1, buf, s)) ∧
    ((s.ino dp).type = T_DIR → s.faults = [] → 19 ≤ C.SIZEOF_DIRENT → C.DT_DIR < 256 →
      C.DT_REG < 256 → (∀ e ∈ entries_left C s dp, rec_len C e < 65536) →
      buf_addr + len + 65536 ≤ 2 ^ 64 →
      ∃ k, k ≤ (entries_left C s dp).length ∧
        total_len C ((entries_left C s dp).take k) ≤ len ∧
        (∀ k', k' ≤ (entries_left C s dp).length →
          total_len C ((entries_left C s dp).take k') ≤ len → k' ≤ k) ∧
        (igetdents C s dp buf buf_addr len).1 =
          toInt32 (total_len C ((entries_left C s dp).take k)) ∧
        (total_len C ((entries_left C s dp).take k) < 2 ^ 31 →
          (igetdents C s dp buf buf_addr len).1 =
            (total_len C ((entries_left C s dp).take k) : Int)) ∧
        (igetdents C s dp buf buf_addr len).1 ≤ (len : Int) ∧
        Walked dp (min (k + 1) (entries_left C s dp).length) (k + 1) s
          (igetdents C s dp buf buf_addr len).2.2 ∧
        (∀ j, total_len C ((entries_left C s dp).take k) ≤ j →
          (igetdents C s dp buf buf_addr len).2.1 j = buf j) ∧
        (∀ i e, i < k → (entries_left C s dp)[i]? = some e →
          load_le (igetdents C s dp buf buf_addr len).2.1
            (total_len C ((entries_left C s dp).take i)) 8 = 0 ∧
          load_le (igetdents C s dp buf buf_addr len).2.1
            (total_len C ((entries_left C s dp).take i) + 8) 8 =
              total_len C ((entries_left C s dp).take i) + rec_len C e ∧
          load_le (igetdents C s dp buf buf_addr len).2.1
            (total_len C ((entries_left C s dp).take i) + 16) 2 = rec_len C e ∧
          (igetdents C s dp buf buf_addr len).2.1
            (total_len C ((entries_left C s dp).take i) + 18) =
              (if Nat.land e.fattrib C.AM_DIR ≠ 0 then C.DT_DIR else C.DT_REG) ∧
          (∀ t, t < e.fname.length →
            (igetdents C s dp buf buf_addr len).2.1
              (total_len C ((entries_left C s dp).take i) + 19 + t) =
                (e.fname.data.getD t 'x').toNat) ∧
          (igetdents C s dp buf buf_addr len).2.1
            (total_len C ((entries_left C s dp).take i) + 19 + e.fname.length) = 0)) := by
  constructor
  · intro h
    unfold igetdents
    rw [if_pos h]
  · intro hdir hnf h19 hD1 hD2 hrec hB
    have hdp := dir_type_lt hdir
    obtain ⟨s', hrun, hw⟩ := igetdents_loop_spec C dp buf_addr len hB (entries_left C s dp)
      ((dir_entries C s.disk (s.ino dp).path).length + 1) s buf 0 rfl hnf hdp
      (by unfold entries_left; rw [List.length_drop]; omega) (Nat.zero_le _) hrec
    have hig : igetdents C s dp buf buf_addr len =
        (toInt32 (0 + total_len C ((entries_left C s dp).take
            (fit_count C len 0 (entries_left C s dp)))),
          write_dirents C buf 0 ((entries_left C s dp).take
            (fit_count C len 0 (entries_left C s dp))), s') := by
      unfold igetdents
      rw [if_neg (by rw [hdir]; simp), hrun]
    obtain ⟨f1, f2, f3⟩ := fit_count_spec C len (entries_left C s dp) 0 (Nat.zero_le _)
    generalize fit_count C len 0 (entries_left C s dp) = k at *
    generalize entries_left C s dp = es at *
    rw [Nat.zero_add] at hig f2
    refine ⟨k, f1, f2, fun k' a b => f3 k' a (by omega), ?_, ?_, ?_, ?_, ?_, ?_⟩
    · rw [hig]
    · intro hlt
      rw [hig]
      exact toInt32_small _ hlt
    · rw [hig]
      have := toInt32_le (total_len C (es.take k))
      show toInt32 (total_len C (es.take k)) ≤ (len : Int)
      omega
    · rw [hig]; exact hw
    · intro j hj
      rw [hig]
      exact write_dirents_out C h19 _ buf 0 j (Or.inr (by omega))
    · intro i e hik hie
      have hie' : (es.take k)[i]? = some e := by
        rw [List.getElem?_take_of_lt hik]; exact hie
      have htk : (es.take k).take i = es.take i := by
        rw [List.take_take, Nat.min_eq_left (Nat.le_of_lt hik)]
      have hrecord := write_dirents_record C h19 (es.take k) buf 0 i e hie'
      rw [htk] at hrecord
      simp only [Nat.zero_add] at hrecord
      obtain ⟨g1, g2, g3, g4, g5⟩ :=
        write_dirent_fields C zeroMem (total_len C (es.take i)) e
      have hin : e ∈ es := List.getElem?_mem hie
      have hre := hrec e hin
      have hre' : rec_len C e = C.SIZEOF_DIRENT + e.fname.length + 1 := rfl
      have htot : total_len C (es.take i) + rec_len C e ≤ len := by
        have h1 : total_len C (es.take (i + 1)) ≤ total_len C (es.take k) := by
          have := total_len_take_le C (es.take k) (i + 1)
          rw [List.take_take, Nat.min_eq_left (by omega)] at this
          exact this
        have h2 : total_len C (es.take (i + 1)) = total_len C (es.take i) + rec_len C e := by
          rw [List.take_succ, hie]
          simp [total_len]
        omega
      rw [hig]
      refine ⟨?_, ?_, ?_, ?_, ?_, ?_⟩
      · rw [load_le_congr 8 _ (fun j a b => hrecord j a (by omega)), g1]
      · rw [load_le_congr 8 _ (fun j a b => hrecord j (by omega) (by omega)), g2]
        exact Nat.mod_eq_of_lt (by omega)
      · rw [load_le_congr 2 _ (fun j a b => hrecord j (by omega) (by omega)), g3]
        exact Nat.mod_eq_of_lt (by omega)
      · show write_dirents C buf 0 (es.take k) _ = _
        rw [hrecord _ (by omega) (by omega), g4]
        apply Nat.mod_eq_of_lt
        split <;> omega
      · intro t ht
        show write_dirents C buf 0 (es.take k) _ = _
        rw [hrecord _ (by omega) (by omega), g5 t (by omega)]
        unfold cstring_bytes
        rw [List.getD_eq_getElem _ _ (by simpa using ht), List.getD_eq_getElem _ _ ht]
        simp
      · show write_dirents C buf 0 (es.take k) _ = _
        rw [hrecord _ (by omega) (by omega), g5 _ (Nat.le_refl _)]
        unfold cstring_bytes
        rw [List.getD_eq_default _ _ (by simp)]

theorem C31_igetdents_writes_the_records_that_fit_witness :
    ((wG0.ino 0).type = T_DIR ∧ wG0.faults = [] ∧ 19 ≤ wDC.SIZEOF_DIRENT ∧ wDC.DT_DIR < 256 ∧
      wDC.DT_REG < 256 ∧ (∀ e ∈ entries_left wDC wG0 0, rec_len wDC e < 65536) ∧
      4096 + 60 + 65536 ≤ 2 ^ 64) ∧
    (∃ k, k ≤ (entries_left wDC wG0 0).length ∧
        total_len wDC ((entries_left wDC wG0 0).take k) ≤ 60 ∧
        (∀ k', k' ≤ (entries_left wDC wG0 0).length →
          total_len wDC ((entries_left wDC wG0 0).take k') ≤ 60 → k' ≤ k) ∧
        (igetdents wDC wG0 0 zeroMem 4096 60).1 =
          toInt32 (total_len wDC ((entries_left wDC wG0 0).take k)) ∧
        (total_len wDC ((entries_left wDC wG0 0).take k) < 2 ^ 31 →
          (igetdents wDC wG0 0 zeroMem 4096 60).1 =
            (total_len wDC ((entries_left wDC wG0 0).take k) : Int)) ∧
        (igetdents wDC wG0 0 zeroMem 4096 60).1 ≤ ((60 : Nat) : Int) ∧
        Walked 0 (min (k + 1) (entries_left wDC wG0 0).length) (k + 1) wG0
          (igetdents wDC wG0 0 zeroMem 4096 60).2.2 ∧
        (∀ j, total_len wDC ((entries_left wDC wG0 0).take k) ≤ j →
          (igetdents wDC wG0 0 zeroMem 4096 60).2.1 j = zeroMem j) ∧
        (∀ i e, i < k → (entries_left wDC wG0 0)[i]? = some e →
          load_le (igetdents wDC wG0 0 zeroMem 4096 60).2.1
            (total_len wDC ((entries_left wDC wG0 0).take i)) 8 = 0 ∧
          load_le (igetdents wDC wG0 0 zeroMem 4096 60).2.1
            (total_len wDC ((entries_left wDC wG0 0).take i) + 8) 8 =
              total_len wDC ((entries_left wDC wG0 0).take i) + rec_len wDC e ∧
          load_le (igetdents wDC wG0 0 zeroMem 4096 60).2.1
            (total_len wDC ((entries_left wDC wG0 0).take i) + 16) 2 = rec_len wDC e ∧
          (igetdents wDC wG0 0 zeroMem 4096 60).2.1
            (total_len wDC ((entries_left wDC wG0 0).take i) + 18) =
              (if Nat.land e.fattrib wDC.AM_DIR ≠ 0 then wDC.DT_DIR else wDC.DT_REG) ∧
          (∀ t, t < e.fname.length →
            (igetdents wDC wG0 0 zeroMem 4096 60).2.1
              (total_len wDC ((entries_left wDC wG0 0).take i) + 19 + t) =
                (e.fname.data.getD t 'x').toNat) ∧
          (igetdents wDC wG0 0 zeroMem 4096 60).2.1
            (total_len wDC ((entries_left wDC wG0 0).take i) + 19 + e.fname.length) = 0)) ∧
    (entries_left wDC wG0 0).map (fun e => (e.fname, e.fattrib, rec_len wDC e)) =
      [("a", 0, 26), ("bb", 16, 27), ("c", 0, 26)] ∧
    (igetdents wDC wG0 0 zeroMem 4096 60).1 = 53 ∧
    (load_le (igetdents wDC wG0 0 zeroMem 4096 60).2.1 0 8,
      load_le (igetdents wDC wG0 0 zeroMem 4096 60).2.1 8 8,
      load_le (igetdents wDC wG0 0 zeroMem 4096 60).2.1 16 2,
      (igetdents wDC wG0 0 zeroMem 4096 60).2.1 18,
      cstring_at (igetdents wDC wG0 0 zeroMem 4096 60).2.1 19 26) = (0, 26, 26, 8, "a") ∧
    (load_le (igetdents wDC wG0 0 zeroMem 4096 60).2.1 26 8,
      load_le (igetdents wDC wG0 0 zeroMem 4096 60).2.1 34 8,
      load_le (igetdents wDC wG0 0 zeroMem 4096 60).2.1 42 2,
      (igetdents wDC wG0 0 zeroMem 4096 60).2.1 44,
      cstring_at (igetdents wDC wG0 0 zeroMem 4096 60).2.1 45 53) = (0, 53, 27, 4, "bb") ∧
    igetdents wDC wG0 1 zeroMem 4096 60 = (-1, zeroMem, wG0) :=
  ⟨⟨by decide, by decide, by decide, by decide, by decide, by decide, by decide⟩,
    (C31_igetdents_writes_the_records_that_fit wDC wG0 0 zeroMem 4096 60).2 (by decide)
      (by decide) (by decide) (by decide) (by decide) (by decide) (by decide),
    by decide, by decide, by decide, by decide,
    (C31_igetdents_writes_the_records_that_fit wDC wG0 1 zeroMem 4096 60).1 (by decide)⟩

/-- C35 (evaluation at the failing input): the root directory holds the entries `a`, `bb`,
`c`, whose records take 26, 27 and 26 bytes, and every call has a buffer of 30 bytes, enough
for any single record.  The first `igetdents` writes the record of `a` and returns 26: it has
read `bb` from the cursor, found that it does not fit behind `a`, and returned.  The second
call writes the record of `c` and returns 26, the third returns 0: the entry `bb` is emitted
by no call. -/
theorem C35_entry_that_does_not_fit_is_skipped :
    (entries_left wDC wG0 0).map (fun e => (e.fname, rec_len wDC e)) =
      [("a", 26), ("bb", 27), ("c", 26)] ∧
    ((igetdents wDC wG0 0 zeroMem 4096 30).1,
      cstring_at (igetdents wDC wG0 0 zeroMem 4096 30).2.1 19 30,
      (wG1.ino 0).dirPos, wG1.log) =
      (26, "a", 2, [Ev.f_readdir 0, Ev.f_readdir 0]) ∧
    ((igetdents wDC wG1 0 zeroMem 4096 30).1,
      cstring_at (igetdents wDC wG1 0 zeroMem 4096 30).2.1 19 30,
      (wG2.ino 0).dirPos) = (26, "c", 3) ∧
    ((igetdents wDC wG2 0 zeroMem 4096 30).1,
      cstring_at (igetdents wDC wG2 0 zeroMem 4096 30).2.1 19 30) = (0, "") ∧
    (igetdents wDC wG0 0 zeroMem 4096 100).1 = 79 :=
  ⟨by decide, by decide, by decide, by decide, by decide⟩

/-! ## The range of `ref` -/

theorem RefsBy.refl_by (s : KState) : RefsBy 0 s s := fun _ => by omega

theorem RefsBy.trans_by {d1 d2 : Int} {a b c : KState} (h1 : RefsBy d1 a b)
    (h2 : RefsBy d2 b c) : RefsBy (d1 + d2) a c := fun j => by
  have := h1 j
  have := h2 j
  omega

theorem RefsBy.mono_by {d1 d2 : Int} {a b : KState} (h : RefsBy d1 a b) (hd : d1 ≤ d2) :
    RefsBy d2 a b := fun j => by
  have := h j
  omega

theorem Benign.refsBy {s s' : KState} (h : Benign s s') : RefsBy 0 s s' :=
  fun j => by rw [h.2.2 j]; omega

theorem iput_refsBy {s s' : KState} {ip : Nat} (h : iput s ip = some s') : RefsBy 0 s s' := by
  obtain ⟨_, _, _, heff⟩ := iput_effect h
  intro j
  rw [(heff j).1]
  split <;> omega

theorem idup_refsBy (s : KState) (ip : Nat) : RefsBy 1 s (idup s ip) := by
  intro j
  unfold idup
  rw [setIno_ino]
  split
  · rename_i h
    obtain ⟨rfl, _⟩ := h
    show (s.ino ip).ref + 1 ≤ (s.ino ip).ref + 1
    omega
  · omega

theorem open_eff_refsBy {s s' : KState} {r : Option Nat} (h : OpenEff s r s') :
    RefsBy 1 s s' := by
  intro j
  rw [open_eff_refs h j]
  split <;> omega

theorem evict_at_refsBy {PGSIZE : Nat} {s s' : KState} {i c : Nat} {r : Int}
    (h : evict_at PGSIZE s i c = some (r, s')) : RefsBy 0 s s' := by
  obtain ⟨s1, h', s3, _, hwb, _, hput, rfl⟩ := evict_at_chain h
  have b1 : Benign s (recycle_physical_page s1) :=
    ((benign_emit s (Ev.evict c) (fun _ => by simp [isClose])).trans (benign_wb_ok hwb)).trans
      (benign_recycle _)
  exact ((b1.refsBy.trans_by (iput_refsBy hput)).trans_by
    ((benign_setSlot _ _ _).trans (benign_lru_compact _ _)).refsBy).mono_by (by omega)

theorem evict_refsBy {PGSIZE : Nat} {s s' : KState} {r : Int}
    (h : ctable_lru_evict PGSIZE s = some (r, s')) : RefsBy 0 s s' := by
  unfold ctable_lru_evict at h
  rcases evict_scan_cases h with ⟨_, h2, _⟩ | ⟨i, c, _, _, _, _, h5⟩
  · rw [h2]; exact RefsBy.refl_by _
  · exact evict_at_refsBy h5

theorem release_slot_refsBy {PGSIZE : Nat} {s s' : KState} {ip : Option Nat} {c : Nat}
    (h : release_slot PGSIZE s ip c = some s') : RefsBy 0 s s' := by
  by_cases hcond : (s.slot c).valid = true ∧ ((s.slot c).host = ip ∨ ip = none)
  · obtain ⟨s1, h', s3, hwb, _, _, hput, rfl⟩ := release_slot_chain h hcond
    exact ((((benign_wb_ok hwb).trans (benign_recycle _)).refsBy.trans_by
      (iput_refsBy hput)).trans_by
      ((benign_setSlot _ _ _).trans (benign_lru_remove _ _)).refsBy).mono_by (by omega)
  · unfold release_slot at h
    rw [if_neg hcond] at h
    cases h
    exact RefsBy.refl_by _

theorem release_loop_refsBy {PGSIZE : Nat} {ip : Option Nat} (k c : Nat) {s s' : KState}
    (h : release_loop PGSIZE ip k c s = some s') : RefsBy 0 s s' := by
  induction k generalizing c s with
  | zero => rw [release_loop] at h; cases h; exact RefsBy.refl_by _
  | succ k ih =>
    rw [release_loop] at h
    split at h
    · cases h
    · rename_i s1 hs1
      exact ((release_slot_refsBy hs1).trans_by (ih (c + 1) h)).mono_by (by omega)

theorem lru_add_refsBy {PGSIZE : Nat} {s s' : KState} {c : Nat} {x : Int}
    (h : ctable_lru_add PGSIZE s c = some (x, s')) : RefsBy 0 s s' := by
  obtain ⟨s1, h1, h2⟩ := lru_add_chain h
  have p1 : RefsBy 0 s s1 := by
    rcases h1 with ⟨_, rfl⟩ | ⟨_, r, hev⟩
    · exact RefsBy.refl_by _
    · exact evict_refsBy hev
  rcases h2 with ⟨_, rfl⟩ | ⟨_, rfl⟩
  · exact p1
  · exact (p1.trans_by (benign_of_eq rfl rfl).refsBy).mono_by (by omega)

theorem fill_slot_refsBy {PGSIZE : Nat} {s s' : KState} {c ip offset : Nat} {r : Option Nat}
    (hc : c < s.NCACHE) (h : fill_slot PGSIZE s c ip offset = some (r, s')) :
    RefsBy 1 s s' := by
  rcases fill_slot_chain hc h with ⟨_, _, rfl⟩ | ⟨_, ⟨_, _, rfl⟩ | ⟨_, _, x, hadd⟩⟩
  · exact ((benign_fill_seek s c ip offset).trans (benign_fill_rollback _ _)).refsBy.mono_by
      (by omega)
  · exact (((benign_fill_seek s c ip offset).trans (benign_fill_loaded _ _ _ _ _)).trans
      (benign_fill_rollback _ _)).refsBy.mono_by (by omega)
  · have b := (benign_fill_seek s c ip offset).trans
      (benign_fill_loaded PGSIZE _ c ip offset)
    exact ((b.refsBy.trans_by (idup_refsBy _ ip)).trans_by (lru_add_refsBy hadd)).mono_by
      (by omega)

theorem acquire_refsBy {PGSIZE : Nat} {s s' : KState} {ip offset : Nat} {r : Option Nat}
    (ha : ctable_acquire PGSIZE s ip offset = some (r, s')) : RefsBy 1 s s' := by
  unfold ctable_acquire at ha
  split at ha
  · cases ha
  · split at ha
    · cases ha
      exact (benign_lru_adjust _ _).refsBy.mono_by (by omega)
    · split at ha
      · rename_i c hc
        obtain ⟨hcn, _, _⟩ := find_slot_some hc
        exact fill_slot_refsBy hcn ha
      · split at ha
        · cases ha
        · rename_i x s1 hev
          have p1 := evict_refsBy hev
          split at ha
          · rename_i c hc
            obtain ⟨hcn, _, _⟩ := find_slot_some hc
            exact (p1.trans_by (fill_slot_refsBy hcn ha)).mono_by (by omega)
          · cases ha; exact p1.mono_by (by omega)

/-- No call raises a `ref` by more than one. -/
theorem kstep_refsBy {K : Consts} {PGSIZE : Nat} {s s' : KState} {op : Op}
    (h : kstep K PGSIZE s op = some s') : RefsBy 1 s s' := by
  cases op with
  | iget_root =>
    simp only [kstep, Option.map_eq_some'] at h
    obtain ⟨r, hr, rfl⟩ := h
    exact open_eff_refsBy (iget_root_eff (show iget_root K s = some (r.1, r.2) from hr))
  | dirlookup dp name =>
    simp only [kstep, Option.map_eq_some'] at h
    obtain ⟨r, hr, rfl⟩ := h
    exact open_eff_refsBy (dirlookup_eff (show dirlookup K s dp name = some (r.1, r.2) from hr))
  | icreate dp name type major minor =>
    simp only [kstep, Option.map_eq_some'] at h
    obtain ⟨r, hr, rfl⟩ := h
    exact open_eff_refsBy
      (icreate_eff (show icreate K s dp name type major minor = some (r.1, r.2) from hr))
  | idup ip =>
    simp only [kstep, Option.some.injEq] at h
    subst h
    exact idup_refsBy s ip
  | iput ip => exact (iput_refsBy h).mono_by (by omega)
  | acquire ip offset =>
    simp only [kstep, Option.map_eq_some'] at h
    obtain ⟨r, hr, rfl⟩ := h
    exact acquire_refsBy (show ctable_acquire PGSIZE s ip offset = some (r.1, r.2) from hr)
  | release ip => exact (release_loop_refsBy _ _ h).mono_by (by omega)

/-- A run of `n` calls raises no `ref` by more than `n`. -/
theorem krun_refsBy {K : Consts} {PGSIZE : Nat} (ops : List Op) {s s' : KState}
    (h : krun K PGSIZE ops s = some s') : RefsBy (ops.length : Int) s s' := by
  induction ops generalizing s with
  | nil => rw [krun] at h; cases h; exact RefsBy.refl_by _
  | cons op ops ih =>
    rw [krun] at h
    split at h
    · cases h
    · rename_i s1 hs1
      exact ((kstep_refsBy hs1).trans_by (ih h)).mono_by
        (by simp only [List.length_cons]; push_cast; omega)

/-- The intermediate states of a run that completes. -/
theorem krun_take {K : Consts} {PGSIZE : Nat} (ops : List Op) {s s' : KState}
    (h : krun K PGSIZE ops s = some s') (n : Nat) :
    ∃ t, krun K PGSIZE (ops.take n) s = some t := by
  induction ops generalizing s n with
  | nil => exact ⟨s, by simp [krun]⟩
  | cons op ops ih =>
    cases n with
    | zero => exact ⟨s, by simp [krun]⟩
    | succ n =>
      rw [krun] at h
      split at h
      · cases h
      · rename_i s1 hs1
        obtain ⟨t, ht⟩ := ih h n
        exact ⟨t, by rw [List.take_succ_cons, krun, hs1]; exact ht⟩

/-- A call of a caller that respects the references it holds is a call on the kernel state. -/
theorem gstep_kstep {K : Consts} {PGSIZE : Nat} {g g' : GState} {op : Op}
    (h : gstep K PGSIZE g op = some g') : kstep K PGSIZE g.k op = some g'.k := by
  cases op with
  | iget_root =>
    simp only [gstep, Option.map_eq_some'] at h
    obtain ⟨r, hr, rfl⟩ := h
    simp [kstep, hr]
  | dirlookup dp name =>
    simp only [gstep, Option.map_eq_some'] at h
    obtain ⟨r, hr, rfl⟩ := h
    simp [kstep, hr]
  | icreate dp name type major minor =>
    simp only [gstep, Option.map_eq_some'] at h
    obtain ⟨r, hr, rfl⟩ := h
    simp [kstep, hr]
  | idup ip =>
    simp only [gstep, Option.some.injEq] at h
    subst h
    rfl
  | iput ip =>
    simp only [gstep] at h
    split at h
    · simp only [Option.map_eq_some'] at h
      obtain ⟨r, hr, rfl⟩ := h
      simp [kstep, hr]
    · cases h
  | acquire ip offset =>
    simp only [gstep] at h
    split at h
    · simp only [Option.map_eq_some'] at h
      obtain ⟨r, hr, rfl⟩ := h
      simp [kstep, hr]
    · cases h
  | release ip =>
    simp only [gstep, Option.map_eq_some'] at h
    obtain ⟨r, hr, rfl⟩ := h
    simp [kstep, hr]

theorem grun_krun {K : Consts} {PGSIZE : Nat} (ops : List Op) {g g' : GState}
    (h : grun K PGSIZE ops g = some g') : krun K PGSIZE ops g.k = some g'.k := by
  induction ops generalizing g with
  | nil => rw [grun] at h; cases h; rfl
  | cons op ops ih =>
    rw [grun] at h
    split at h
    · cases h
    · rename_i g1 hg1
      rw [krun, gstep_kstep hg1]
      exact ih h

theorem wL0_range (n : Nat) (hn : n < 1000) (j : Nat) :
    0 ≤ (wL0.ino j).ref ∧ (wL0.ino j).ref + (n : Int) < 2 ^ 31 := by
  have hN : wL0.NINODE = 4 := by decide
  have h0 : (wL0.ino 0).ref = 1 := by decide
  rcases j with _ | j
  · rw [h0]; omega
  · rw [wL0_free (j + 1) (by omega)]; omega

/-! ## The reference count of an inode slot -/

/-- The close of `iput` neither adds a path to the lower FS nor removes one. -/
theorem iput_close_exists (s : KState) (ip : Nat) (q : String) :
    (iput_close s ip).2.disk.lookup q = none ↔ s.disk.lookup q = none := by
  unfold iput_close
  split
  · have : (f_closedir s ip).2.disk = s.disk := by
      unfold f_closedir
      dsimp only
      split
      · show s.fault.2.disk = s.disk
        exact fault_disk _
      · show s.fault.2.disk = s.disk
        exact fault_disk _
    rw [this]
  · unfold f_close
    dsimp only
    split
    · show List.lookup q s.fault.2.disk = none ↔ _
      rw [fault_disk]
    · split
      · rename_i sz d hl
        have hl' : s.disk.lookup (s.ino ip).file.path = some (Node.file sz d) := by
          have : List.lookup (s.fault.2.ino ip).file.path s.fault.2.disk =
              some (Node.file sz d) := hl
          rw [fault_disk, fault_ino] at this
          exact this
        show List.lookup q (((s.fault.2.ino ip).file.path,
          Node.file (s.fault.2.ino ip).file.objsize (s.fault.2.ino ip).file.data) ::
            diskRemove s.fault.2.disk (s.fault.2.ino ip).file.path) = none ↔ _
        rw [fault_disk, fault_ino]
        by_cases hq : q = (s.ino ip).file.path
        · rw [hq, hl', List.lookup_cons]
          simp
        · rw [List.lookup_cons]
          have : (q == (s.ino ip).file.path) = false := by simpa using hq
          rw [this, lookup_diskRemove_ne _ _ _ hq]
      · show List.lookup q s.fault.2.disk = none ↔ _
        rw [fault_disk]

/-- A rename on a lower FS that holds the old path and not the new one, when the call does
not fail: the node is moved. -/
theorem f_rename_moves {t : KState} (hnf : t.faults = []) {p q : String} {nd : Node}
    (h1 : t.disk.lookup p = some nd) (h2 : t.disk.lookup q = none) :
    (f_rename t p q).1 = FRESULT.FR_OK ∧
      (f_rename t p q).2.disk = (q, nd) :: diskRemove t.disk p := by
  unfold f_rename
  rw [fault_nil t hnf]
  dsimp only
  rw [if_neg (by simp)]
  have e1 : List.lookup p (t.emit (Ev.f_rename p q)).disk = some nd := h1
  have e2 : List.lookup q (t.emit (Ev.f_rename p q)).disk = none := h2
  rw [e1, e2]
  exact ⟨rfl, rfl⟩

/-- C20: a completed `iput(ip)` found `ref >= 1`, has decreased `ref` of `ip` by exactly one
and left every other `ref` alone, and the lower-FS calls it issued are exactly: nothing when
the `ref` it found was above 1; when it was 1, the close (`f_closedir` for a directory,
`f_close` otherwise) followed by `f_unlink(path)` if `unlinked` is set, otherwise by
`f_rename(path, new_path)` if `new_path` is non-empty, otherwise by nothing.  `iput` does
complete when `ref >= 1`, no external call fails and no rename is due.  When a rename is due
(`ref == 1`, `unlinked` clear, `new_path` non-empty) and the close and the rename succeed,
`iput` completes as well, `ref` is 0 and the calls issued are the close and
`f_rename(path, new_path)`; they do succeed when no external call fails, the lower FS holds
`path` and does not hold `new_path`, and the node is then found at `new_path` and no longer
at `path`.  `iput` does not complete (it panics) exactly when `ref < 1`, or `ref == 1` and
the close fails or the rename that is due fails. -/
theorem C20_iput_drops_one_ref_and_closes_on_last (s : KState) (ip : Nat) :
    (∀ s', iput s ip = some s' →
      (s.ino ip).ref ≥ 1 ∧ (s'.ino ip).ref = (s.ino ip).ref - 1 ∧
      (∀ j, j ≠ ip → (s'.ino j).ref = (s.ino j).ref) ∧
      s'.log = s.log ++ iput_calls s ip ∧
      ((s.ino ip).ref > 1 → s'.log = s.log) ∧
      ((s.ino ip).ref = 1 → ∃ rest, s'.log = s.log ++
        (if (s.ino ip).type = T_DIR then Ev.f_closedir ip else Ev.f_close ip) :: rest)) ∧
    ((s.ino ip).ref ≥ 1 → s.faults = [] →
      ((s.ino ip).ref > 1 ∨ (s.ino ip).unlinked ≠ 0 ∨ (s.ino ip).new_path.length = 0) →
      ∃ s', iput s ip = some s') ∧
    ((s.ino ip).ref = 1 → (s.ino ip).unlinked = 0 → (s.ino ip).new_path.length ≠ 0 →
      (iput_close s ip).1 = FRESULT.FR_OK →
      (f_rename (iput_close s ip).2 (s.ino ip).path (s.ino ip).new_path).1 = FRESULT.FR_OK →
      ∃ s', iput s ip = some s' ∧ (s'.ino ip).ref = 0 ∧
        s'.log = s.log ++
          [if (s.ino ip).type = T_DIR then Ev.f_closedir ip else Ev.f_close ip,
           Ev.f_rename (s.ino ip).path (s.ino ip).new_path] ∧
        s'.disk = (f_rename (iput_close s ip).2 (s.ino ip).path (s.ino ip).new_path).2.disk) ∧
    ((s.ino ip).ref = 1 → (s.ino ip).unlinked = 0 → (s.ino ip).new_path.length ≠ 0 →
      s.faults = [] → s.disk.lookup (s.ino ip).path ≠ none →
      s.disk.lookup (s.ino ip).new_path = none →
      ∃ s', iput s ip = some s' ∧ (s'.ino ip).ref = 0 ∧
        s'.log = s.log ++
          [if (s.ino ip).type = T_DIR then Ev.f_closedir ip else Ev.f_close ip,
           Ev.f_rename (s.ino ip).path (s.ino ip).new_path] ∧
        s'.disk.lookup (s.ino ip).new_path =
          (iput_close s ip).2.disk.lookup (s.ino ip).path ∧
        s'.disk.lookup (s.ino ip).new_path ≠ none ∧
        s'.disk.lookup (s.ino ip).path = none ∧
        ∀ q, q ≠ (s.ino ip).path → q ≠ (s.ino ip).new_path →
          s'.disk.lookup q = (iput_close s ip).2.disk.lookup q) ∧
    (iput s ip = none ↔
      (s.ino ip).ref < 1 ∨
      ((s.ino ip).ref = 1 ∧
        ((iput_close s ip).1 ≠ FRESULT.FR_OK ∨
          ((s.ino ip).unlinked = 0 ∧ (s.ino ip).new_path.length ≠ 0 ∧
            (f_rename (iput_close s ip).2 (s.ino ip).path (s.ino ip).new_path).1 ≠
              FRESULT.FR_OK)))) := by
  obtain ⟨_, _, _, hu', hn', hp', _, _⟩ := iput_close_ino_ref s ip ip
  have hren : (s.ino ip).ref = 1 → (s.ino ip).unlinked = 0 → (s.ino ip).new_path.length ≠ 0 →
      (iput_close s ip).1 = FRESULT.FR_OK →
      (f_rename (iput_close s ip).2 (s.ino ip).path (s.ino ip).new_path).1 = FRESULT.FR_OK →
      ∃ s', iput s ip = some s' ∧ (s'.ino ip).ref = 0 ∧
        s'.log = s.log ++
          [if (s.ino ip).type = T_DIR then Ev.f_closedir ip else Ev.f_close ip,
           Ev.f_rename (s.ino ip).path (s.ino ip).new_path] ∧
        s'.disk = (f_rename (iput_close s ip).2 (s.ino ip).path (s.ino ip).new_path).2.disk := by
    intro h1 hu hn hcl hrn
    have hput : iput s ip = some
        ((f_rename (iput_close s ip).2 (s.ino ip).path (s.ino ip).new_path).2.setIno ip
          { (f_rename (iput_close s ip).2 (s.ino ip).path (s.ino ip).new_path).2.ino ip with
            ref := ((f_rename (iput_close s ip).2 (s.ino ip).path
              (s.ino ip).new_path).2.ino ip).ref - 1 }) := by
      unfold iput
      rw [if_pos (by omega), if_pos h1]
      unfold iput_last
      rw [if_neg (by simp [hcl])]
      unfold iput_deferred
      rw [hu', hn', hp', if_neg (by simp [hu]), if_pos hn, if_neg (by simp [hrn])]
    obtain ⟨_, _, _, heff⟩ := iput_effect hput
    refine ⟨_, hput, ?_, ?_, rfl⟩
    · rw [(heff ip).1, if_pos rfl, h1]; rfl
    · rw [iput_log hput]
      unfold iput_calls
      rw [if_pos h1, if_neg (show ¬ ((s.ino ip).unlinked ≠ 0) by simp [hu]), if_pos hn]
  refine ⟨fun s' h => ?_, fun hr hnf hx => ?_, hren, fun h1 hu hn hnf hold hnew => ?_, ?_⟩
  · obtain ⟨hpos, _, _, heff⟩ := iput_effect h
    have hlog := iput_log h
    refine ⟨by omega, by rw [(heff ip).1, if_pos rfl], fun j hj => ?_, hlog, fun h1 => ?_,
      fun h1 => ?_⟩
    · rw [(heff j).1, if_neg hj]; simp
    · rw [hlog]; unfold iput_calls; rw [if_neg (by omega)]; simp
    · rw [hlog]; unfold iput_calls; rw [if_pos h1]; exact ⟨_, rfl⟩
  · obtain ⟨s', h, _⟩ := iput_total hnf hr hx
    exact ⟨s', h⟩
  · have hcl : (iput_close s ip).1 = FRESULT.FR_OK ∧ (iput_close s ip).2.faults = [] := by
      unfold iput_close
      split
      · exact f_closedir_nf hnf ip
      · exact f_close_nf hnf ip
    have hold' : (iput_close s ip).2.disk.lookup (s.ino ip).path ≠ none :=
      fun hx => hold ((iput_close_exists s ip _).mp hx)
    have hnew' : (iput_close s ip).2.disk.lookup (s.ino ip).new_path = none :=
      (iput_close_exists s ip _).mpr hnew
    obtain ⟨nd, hnd⟩ := Option.ne_none_iff_exists'.mp hold'
    obtain ⟨hok, hdisk⟩ := f_rename_moves hcl.2 hnd hnew'
    obtain ⟨s', hput, hr0, hlog, hd⟩ := hren h1 hu hn hcl.1 hok
    have hne : (s.ino ip).path ≠ (s.ino ip).new_path := by
      intro hx
      rw [hx, hnew'] at hnd
      cases hnd
    have hlk : s'.disk.lookup (s.ino ip).new_path = some nd := by
      rw [hd, hdisk, List.lookup_cons]
      simp
    refine ⟨s', hput, hr0, hlog, by rw [hlk, hnd], by rw [hlk]; simp, ?_, fun q hq1 hq2 => ?_⟩
    · rw [hd, hdisk, List.lookup_cons]
      have : ((s.ino ip).path == (s.ino ip).new_path) = false := by simpa using hne
      rw [this]
      exact lookup_diskRemove_self _ _
    · rw [hd, hdisk, List.lookup_cons]
      have : (q == (s.ino ip).new_path) = false := by simpa using hq2
      rw [this]
      exact lookup_diskRemove_ne _ _ _ hq1
  · unfold iput
    by_cases hpos : (s.ino ip).ref > 0
    · rw [if_pos hpos]
      by_cases h1 : (s.ino ip).ref = 1
      · rw [if_pos h1]
        unfold iput_last
        by_cases hcl : (iput_close s ip).1 = FRESULT.FR_OK
        · rw [if_neg (by simp [hcl])]
          unfold iput_deferred
          rw [hu', hn', hp']
          by_cases hu : (s.ino ip).unlinked = 0
          · rw [if_neg (by simp [hu])]
            by_cases hn : (s.ino ip).new_path.length = 0
            · rw [if_neg (by simp [hn])]
              simp [h1, hcl, hn]
            · rw [if_pos hn]
              by_cases hrn : (f_rename (iput_close s ip).2 (s.ino ip).path
                  (s.ino ip).new_path).1 = FRESULT.FR_OK
              · rw [if_neg (by simp [hrn])]
                simp [h1, hcl, hrn]
              · rw [if_pos hrn]
                simp [h1, hcl, hu, hn, hrn]
          · rw [if_pos hu]
            simp [h1, hcl, hu]
        · rw [if_pos hcl]
          simp [h1, hcl]
      · rw [if_neg h1]
        constructor
        · intro h; cases h
        · rintro (h | h)
          · omega
          · exact absurd h.1 h1
    · rw [if_neg hpos]
      constructor
      · intro _; left; omega
      · intro _; rfl

theorem C20_iput_drops_one_ref_and_closes_on_last_witness :
    (((irename w0 1 "/b.txt").2.ino 1).ref = 1 ∧ ((irename w0 1 "/b.txt").2.ino 1).unlinked = 0 ∧
      ((irename w0 1 "/b.txt").2.ino 1).path = "/a.txt" ∧
      ((irename w0 1 "/b.txt").2.ino 1).new_path = "/b.txt" ∧
      (irename w0 1 "/b.txt").2.faults = [] ∧
      ((irename w0 1 "/b.txt").2.disk.lookup "/a.txt").isSome = true ∧
      ((irename w0 1 "/b.txt").2.disk.lookup "/b.txt").isSome = false) ∧
    (∃ s', iput (irename w0 1 "/b.txt").2 1 = some s' ∧ (s'.ino 1).ref = 0 ∧
      s'.log = (irename w0 1 "/b.txt").2.log ++
        [if ((irename w0 1 "/b.txt").2.ino 1).type = T_DIR then Ev.f_closedir 1
          else Ev.f_close 1,
         Ev.f_rename ((irename w0 1 "/b.txt").2.ino 1).path
           ((irename w0 1 "/b.txt").2.ino 1).new_path] ∧
      s'.disk.lookup ((irename w0 1 "/b.txt").2.ino 1).new_path =
        (iput_close (irename w0 1 "/b.txt").2 1).2.disk.lookup
          ((irename w0 1 "/b.txt").2.ino 1).path ∧
      s'.disk.lookup ((irename w0 1 "/b.txt").2.ino 1).new_path ≠ none ∧
      s'.disk.lookup ((irename w0 1 "/b.txt").2.ino 1).path = none ∧
      ∀ q, q ≠ ((irename w0 1 "/b.txt").2.ino 1).path →
        q ≠ ((irename w0 1 "/b.txt").2.ino 1).new_path →
        s'.disk.lookup q = (iput_close (irename w0 1 "/b.txt").2 1).2.disk.lookup q) ∧
    (iput (irename w0 1 "/b.txt").2 1).map
        (fun t => ((t.ino 1).ref, t.log, t.disk.map (fun e => e.1))) =
      some (0, [Ev.f_close 1, Ev.f_rename "/a.txt" "/b.txt"], ["/b.txt", "/"]) ∧
    (iput (irename w0 1 "/").2 1).isSome = false ∧
    (iput { (irename w0 1 "/b.txt").2 with faults := [false, true] } 1).isSome = false ∧
    (iput (idup (irename w0 1 "/b.txt").2 1) 1).map (fun t => ((t.ino 1).ref, t.log)) =
      some (1, []) ∧
    (iput w0 1).map (fun t => ((t.ino 1).ref, t.log)) = some (0, [Ev.f_close 1]) ∧
    (iput (iunlink (irename w0 1 "/b.txt").2 1).2 1).map
        (fun t => ((t.ino 1).ref, t.log, t.disk.map (fun e => e.1))) =
      some (0, [Ev.f_close 1, Ev.f_unlink "/a.txt"], ["/"]) :=
  ⟨⟨by decide, by decide, by decide, by decide, by decide, by decide, by decide⟩,
    (C20_iput_drops_one_ref_and_closes_on_last (irename w0 1 "/b.txt").2 1).2.2.2.1
      (by decide) (by decide) (by decide) (by decide)
      (fun h => Option.noConfusion
        ((show List.lookup "/a.txt" (irename w0 1 "/b.txt").2.disk =
          some (Node.file 0 zeroMem) from rfl).symm.trans h))
      rfl,
    by decide, by decide, by decide, by decide, by decide, by decide⟩

/-! ## The checks on `ref`, within the range of `int` -/

/-- C32: `iput` on an inode whose `ref` is below 1 panics, and a panic leaves no state: `ref`
is not changed (when the inode-table lock is held, the call sleeps on it before the check and
does not return either).  So in every sequence of calls of `iget_root`, `dirlookup`,
`icreate`, `idup`, `iput`, `ctable_acquire` and `ctable_release` that runs to completion from
a state whose `ref`s are not negative and leave room for one reference per call in the range
of `int` (`ref + number of calls < 2^31`), no `ref` is negative at the end, nor after any
number of the calls, and every `ref` has stayed below `2^31`: no `ref++` of the run was the
increment of `INT_MAX`.  `ilock` and `iunlock` panic when `ref < 1`, and `iunlock` panics when
the lock of the inode is not held.  With `ref >= 1`, `ilock` takes the lock or sleeps on it,
`iunlock` with the lock held returns, and `iput` returns with `ref` lowered by one when
`ref > 1` and, when `ref == 1`, panics only if the close or the deferred rename of the last
reference does. -/
theorem C32_ref_checks_stop_the_call (K : Consts) (PGSIZE : Nat) (s : KState) (p : PState)
    (ip : Nat) :
    ((s.ino ip).ref < 1 →
      iput s ip = none ∧ iput_lk s false ip = Outcome.panic ∧
      iput_lk s true ip = Outcome.blocked) ∧
    (∀ ops s', (∀ j, 0 ≤ (s.ino j).ref ∧ (s.ino j).ref + (ops.length : Int) < 2 ^ 31) →
      krun K PGSIZE ops s = some s' →
      (∀ j, 0 ≤ (s'.ino j).ref ∧ (s'.ino j).ref ≤ (s.ino j).ref + (ops.length : Int) ∧
        (s'.ino j).ref < 2 ^ 31) ∧
      ∀ n, ∃ t, krun K PGSIZE (ops.take n) s = some t ∧
        ∀ j, 0 ≤ (t.ino j).ref ∧ (t.ino j).ref ≤ (s.ino j).ref + (min n ops.length : Nat) ∧
          (t.ino j).ref < 2 ^ 31) ∧
    ((p.k.ino ip).ref < 1 → ilock p ip = Outcome.panic ∧ iunlock p ip = Outcome.panic) ∧
    (ip ∉ p.ilocks → iunlock p ip = Outcome.panic) ∧
    (1 ≤ (p.k.ino ip).ref →
      ilock p ip = (if ip ∈ p.ilocks then Outcome.blocked
        else Outcome.ret { p with ilocks := ip :: p.ilocks }) ∧
      (ip ∈ p.ilocks → iunlock p ip = Outcome.ret { p with ilocks := p.ilocks.erase ip })) ∧
    (1 < (s.ino ip).ref →
      ∃ s', iput s ip = some s' ∧ (s'.ino ip).ref = (s.ino ip).ref - 1) ∧
    ((s.ino ip).ref = 1 → (iput s ip = none ↔ iput_last s ip = none)) := by
  refine ⟨fun h => ?_, fun ops s' h0 hrun => ⟨fun j => ?_, fun n => ?_⟩, fun h => ?_,
    fun h => ?_, fun h => ⟨?_, fun hm => ?_⟩, fun h => ?_, fun h => ?_⟩
  · have h1 : iput s ip = none := by
      unfold iput
      rw [if_neg (by omega)]
    refine ⟨h1, ?_, ?_⟩
    · unfold iput_lk locked_call acquire_mutex_sleep
      rw [h1]
      rfl
    · unfold iput_lk locked_call acquire_mutex_sleep
      rfl
  · have h1 := krun_refsBy ops hrun j
    have h2 := (h0 j).2
    exact ⟨krun_refsKept ops hrun j (h0 j).1, h1, by omega⟩
  · obtain ⟨t, ht⟩ := krun_take ops hrun n
    have h1 := krun_refsBy _ ht
    rw [List.length_take] at h1
    refine ⟨t, ht, fun j => ⟨krun_refsKept _ ht j (h0 j).1, h1 j, ?_⟩⟩
    have h2 := h1 j
    have h3 := (h0 j).2
    have h4 : ((min n ops.length : Nat) : Int) ≤ (ops.length : Int) := by
      exact_mod_cast Nat.min_le_right n ops.length
    omega
  · constructor
    · unfold ilock
      rw [if_pos h]
    · unfold iunlock
      by_cases hm : ip ∉ p.ilocks
      · rw [if_pos hm]
      · rw [if_neg hm, if_pos h]
  · unfold iunlock
    rw [if_pos h]
  · unfold ilock acquire_mutex_sleep
    rw [if_neg (by omega)]
    by_cases hm : ip ∈ p.ilocks
    · simp [hm]
    · simp [hm]
  · unfold iunlock
    rw [if_neg (by simpa using hm), if_neg (by omega)]
  · have hlt : ip < s.NINODE := ref_pos_lt (by omega)
    unfold iput
    rw [if_pos (by omega), if_neg (by omega)]
    refine ⟨_, rfl, ?_⟩
    rw [setIno_ino, if_pos ⟨rfl, hlt⟩]
  · unfold iput
    rw [if_pos (by omega), if_pos h]
    cases iput_last s ip with
    | none => simp
    | some s1 => simp

theorem C32_ref_checks_stop_the_call_witness :
    ((wL0.ino 1).ref < 1 ∧
      (iput wL0 1 = none ∧ iput_lk wL0 false 1 = Outcome.panic ∧
        iput_lk wL0 true 1 = Outcome.blocked)) ∧
    ((∀ j, 0 ≤ (wL0.ino j).ref ∧ (wL0.ino j).ref +
        (([Op.dirlookup 0 "d", Op.idup 1, Op.iput 0, Op.iput 1, Op.iput 1] : List Op).length :
          Int) < 2 ^ 31) ∧
      krun wK 4096 [Op.dirlookup 0 "d", Op.idup 1, Op.iput 0, Op.iput 1, Op.iput 1] wL0 =
        some ((krun wK 4096
          [Op.dirlookup 0 "d", Op.idup 1, Op.iput 0, Op.iput 1, Op.iput 1] wL0).getD wL0) ∧
      (∀ j, 0 ≤ (((krun wK 4096
          [Op.dirlookup 0 "d", Op.idup 1, Op.iput 0, Op.iput 1, Op.iput 1] wL0).getD wL0).ino
            j).ref ∧
        (((krun wK 4096
          [Op.dirlookup 0 "d", Op.idup 1, Op.iput 0, Op.iput 1, Op.iput 1] wL0).getD wL0).ino
            j).ref ≤ (wL0.ino j).ref +
          (([Op.dirlookup 0 "d", Op.idup 1, Op.iput 0, Op.iput 1, Op.iput 1] : List Op).length :
            Int) ∧
        (((krun wK 4096
          [Op.dirlookup 0 "d", Op.idup 1, Op.iput 0, Op.iput 1, Op.iput 1] wL0).getD wL0).ino
            j).ref < 2 ^ 31)) ∧
    (krun wK 4096 [Op.dirlookup 0 "d", Op.idup 1, Op.iput 0, Op.iput 1, Op.iput 1, Op.iput 1]
      wL0).isSome = false ∧
    (krun wK 4096 [Op.dirlookup 0 "d", Op.idup 1] wL0).map
      (fun t => ((t.ino 0).ref, (t.ino 1).ref)) = some (1, 2) ∧
    ((pL0.k.ino 1).ref < 1 ∧ ilock pL0 1 = Outcome.panic ∧ iunlock pL0 1 = Outcome.panic) ∧
    (0 ∉ pL0.ilocks ∧ iunlock pL0 0 = Outcome.panic) ∧
    (1 ≤ (pL0.k.ino 0).ref ∧
      ilock pL0 0 = (if 0 ∈ pL0.ilocks then Outcome.blocked
        else Outcome.ret { pL0 with ilocks := 0 :: pL0.ilocks }) ∧
      ((ilock pL0 0).bind (fun q => iunlock q 0)).map (fun q => q.ilocks) = Outcome.ret [] ∧
      ((ilock pL0 0).bind (fun q => ilock q 0)).map (fun q => q.ilocks) = Outcome.blocked) ∧
    (1 < ((idup wL0 0).ino 0).ref ∧
      ∃ s', iput (idup wL0 0) 0 = some s' ∧ (s'.ino 0).ref = ((idup wL0 0).ino 0).ref - 1) ∧
    ((wL0.ino 0).ref = 1 ∧ (iput wL0 0 = none ↔ iput_last wL0 0 = none) ∧
      (iput wL0 0).isSome = true ∧ (iput { wL0 with faults := [true] } 0).isSome = false) :=
  ⟨⟨by decide, (C32_ref_checks_stop_the_call wK 4096 wL0 pL0 1).1 (by decide)⟩,
    ⟨wL0_range 5 (by decide), rfl,
      ((C32_ref_checks_stop_the_call wK 4096 wL0 pL0 1).2.1
        [Op.dirlookup 0 "d", Op.idup 1, Op.iput 0, Op.iput 1, Op.iput 1] _
        (wL0_range 5 (by decide)) rfl).1⟩,
    by decide, by decide,
    ⟨by decide, (C32_ref_checks_stop_the_call wK 4096 wL0 pL0 1).2.2.1 (by decide)⟩,
    ⟨by decide, (C32_ref_checks_stop_the_call wK 4096 wL0 pL0 0).2.2.2.1 (by decide)⟩,
    ⟨by decide, ((C32_ref_checks_stop_the_call wK 4096 wL0 pL0 0).2.2.2.2.1 (by decide)).1,
      by decide, by decide⟩,
    ⟨by decide,
      (C32_ref_checks_stop_the_call wK 4096 (idup wL0 0) pL0 0).2.2.2.2.2.1 (by decide)⟩,
    ⟨by decide, (C32_ref_checks_stop_the_call wK 4096 wL0 pL0 0).2.2.2.2.2.2 (by decide),
      by decide, by decide⟩⟩

/-! ## Reference balance of a path resolution -/

end UCore
